import Mathlib

/-!
# rastersim: grid path planners

A shallow embedding of the planners of `src/src` (A*, D*, Focused D*, D* Lite)
and of the planner contract of `abstractplanner.cpp`, followed by theorems about
them.

Conventions of the embedding

* A pointer into the cell array is the index of the cell (`y * width + x`).
  Arrays are total functions on indices; an assignment `a[i] = v` is `upd a i v`.
* A `while` loop is a function recursing on a fuel argument. A loop that runs
  out of fuel yields `none` where the caller can see it; the fuel handed in by
  the callers is shown to suffice where a claim speaks about a result.
* `unsigned short` coordinates are stored modulo `65536`; `unsigned` costs are
  taken modulo `2 ^ 32` where the source adds to them.
* A map is given by its size and its pixel values; a pixel `> 0` is blocked.
-/

namespace RasterSim

/-! ## Shared helpers -/

/-- Array assignment `a[i] = v` on arrays modelled as functions. -/
def upd {α : Type} (a : Nat → α) (i : Nat) (v : α) : Nat → α :=
  fun j => if j = i then v else a j

/-- The map handed to `initMap`: a `QImage` of format `Indexed8`. -/
structure GridMap where
  width : Nat
  height : Nat
  pixel : Nat → Nat → Nat

/-- A grid position `(x, y)`: what a pose rounds to (`QPointF::toPoint`), and a
point of a path (`QPointF(cell->x, cell->y)`). -/
abbrev Pos := Nat × Nat

/-- Range of `unsigned short`. -/
def USHORT : Nat := 65536

/-! ## A* (`astarplanner.cpp`) -/

namespace AStar

/-- `AStarPlanner::ListType`. -/
inductive ListType
  | List_None
  | List_Open
  | List_Closed
  | List_Unwalkable
  deriving DecidableEq, Repr

open ListType

/-- `AStarPlanner::RasterElement`; `parent` is the index of the parent cell. -/
structure RasterElement where
  parent : Nat
  g_cost : Int
  f_cost : Int
  list : ListType
  openListIndex : Nat
  x : Nat
  y : Nat

/-- The arrays of an `AStarPlanner` together with the map size. -/
structure Planner where
  width : Nat
  height : Nat
  rasterElements : Nat → RasterElement
  openList : Nat → Nat

/-- What a call of `calculatePath` leaves behind: the arrays, the path handed to
`setPath` and the text handed to `setError` (empty when `setError` is not called). -/
structure Outcome where
  planner : Planner
  path : List Pos
  error : String

/-- Contents of freshly allocated memory: `new RasterElement[n]` leaves the
fields indeterminate, they are taken as zero here. -/
def rawElement : RasterElement :=
  { parent := 0, g_cost := 0, f_cost := 0, list := List_None, openListIndex := 0, x := 0, y := 0 }

/-- `AStarPlanner::initMap`: allocates both arrays and fills in the coordinates and
the walkability of every cell. The update region is ignored by the source. -/
def initMap (m : GridMap) : Planner :=
  { width := m.width
    height := m.height
    rasterElements := fun i =>
      if i < m.width * m.height then
        { rawElement with
          x := (i % m.width) % USHORT
          y := (i / m.width) % USHORT
          list := if m.pixel (i % m.width) (i / m.width) > 0 then List_Unwalkable else List_None }
      else rawElement
    openList := fun _ => 0 }

/-- Local state of `calculatePath`: the two arrays and `numberOfOpenListItems`. -/
structure Search where
  re : Nat → RasterElement
  openList : Nat → Nat
  n : Nat

/-- `openList[i]->f_cost`. -/
def Search.f (s : Search) (i : Nat) : Int := (s.re (s.openList i)).f_cost

/-- The swap of heap slots `u` and `v` as written in the source:
`temp = openList[u]; openList[u] = openList[v]; openList[u]->openListIndex = u;
openList[v] = temp; openList[v]->openListIndex = v`. -/
def swapSlots (s : Search) (u v : Nat) : Search :=
  let temp := s.openList u
  let ol1 := upd s.openList u (s.openList v)
  let re1 := upd s.re (ol1 u) { s.re (ol1 u) with openListIndex := u }
  let ol2 := upd ol1 v temp
  let re2 := upd re1 (ol2 v) { re1 (ol2 v) with openListIndex := v }
  { s with re := re2, openList := ol2 }

/-- The child the item in slot `v` is exchanged with in one round of the sinking
loop (lines 161-172), or `v` itself when it stays. -/
def sinkTarget (s : Search) (v : Nat) : Nat :=
  let u := v
  if 2 * u + 1 ≤ s.n then
    let v1 := if s.f v ≥ s.f (2 * u) then 2 * u else v
    if s.f v1 ≥ s.f (2 * u + 1) then 2 * u + 1 else v1
  else if 2 * u ≤ s.n then
    (if s.f u ≥ s.f (2 * u) then 2 * u else v)
  else v

/-- The loop of lines 160-181: the item in slot `v` sinks to its place. -/
def sinkLoop : Nat → Search → Nat → Search
  | 0, s, _ => s
  | fuel + 1, s, v =>
    let u := v
    let v1 := sinkTarget s v
    if u ≠ v1 then sinkLoop fuel (swapSlots s u v1) v1 else s

/-- Lines 150-182: take the first item off the open list and close it. Returns the
popped cell and the new state. -/
def popFirst (s : Search) : Nat × Search :=
  let pRE := s.openList 1
  let re1 := upd s.re pRE { s.re pRE with list := List_Closed }
  let n1 := s.n - 1
  let s1 : Search := { re := re1, openList := s.openList, n := n1 }
  if n1 ≠ 0 then
    let s2 : Search := { s1 with openList := upd s1.openList 1 (s1.openList (n1 + 1)) }
    (pRE, sinkLoop (n1 + 1) s2 1)
  else (pRE, s1)

/-- The loop of lines 231-243 (a new item bubbles up while `<=` its parent). -/
def bubbleUpLe : Nat → Search → Nat → Search
  | 0, s, _ => s
  | fuel + 1, s, m =>
    if m ≠ 1 then
      let m_half := m / 2
      if s.f m ≤ s.f m_half then bubbleUpLe fuel (swapSlots s m_half m) m_half else s
    else s

/-- The loop of lines 277-288 (an improved item bubbles up while `<` its parent). -/
def bubbleUpLt : Nat → Search → Nat → Search
  | 0, s, _ => s
  | fuel + 1, s, m =>
    if m ≠ 1 then
      let m_half := m / 2
      if s.f m < s.f m_half then bubbleUpLt fuel (swapSlots s m_half m) m_half else s
    else s

/-- `neighbourhood_dx`. -/
def neighbourhood_dx : Nat → Int
  | 0 => -1 | 1 => 0 | 2 => 1 | 3 => -1 | 4 => -1 | 5 => 1 | 6 => 1 | _ => 0

/-- `neighbourhood_dy`. -/
def neighbourhood_dy : Nat → Int
  | 0 => -1 | 1 => -1 | 2 => -1 | 3 => 0 | 4 => 1 | 5 => 0 | 6 => 1 | _ => 1

/-- `neighbourhood_offsets` for a map of the given width. -/
def neighbourhood_offsets (width : Int) : Nat → Int
  | 0 => -width - 1 | 1 => -width | 2 => -width + 1 | 3 => -1
  | 4 => width - 1 | 5 => 1 | 6 => width + 1 | _ => width

/-- Cost of the move in direction `neighbourhood_index`: odd indices are the
non-diagonal neighbours. -/
def moveCost (neighbourhood_index : Nat) : Int :=
  if neighbourhood_index % 2 = 1 then 10 else 14

/-- The heuristic of line 220. -/
def h_cost (c goal : RasterElement) : Int :=
  10 * (|(c.x : Int) - (goal.x : Int)| + |(c.y : Int) - (goal.y : Int)|)

/-- Lines 207-248: the neighbour is not on the open list yet. -/
def openNeighbour (s : Search) (pRE pNeighbour pGoal neighbourhood_index : Nat) : Search :=
  let m := s.n + 1
  let ol1 := upd s.openList m pNeighbour
  let g := (s.re pRE).g_cost + moveCost neighbourhood_index
  let h := h_cost (s.re pNeighbour) (s.re pGoal)
  let re1 := upd s.re pNeighbour
    { s.re pNeighbour with openListIndex := m, g_cost := g, f_cost := g + h, parent := pRE }
  let s1 := bubbleUpLe m { re := re1, openList := ol1, n := s.n } m
  let s2 : Search := { s1 with n := s1.n + 1 }
  { s2 with re := upd s2.re pNeighbour { s2.re pNeighbour with list := List_Open } }

/-- Lines 250-289: the neighbour is already on the open list. -/
def improveNeighbour (s : Search) (pRE pNeighbour neighbourhood_index : Nat) : Search :=
  let tempGcost := (s.re pRE).g_cost + moveCost neighbourhood_index
  if tempGcost < (s.re pNeighbour).g_cost then
    let h := (s.re pNeighbour).f_cost - (s.re pNeighbour).g_cost
    let re1 := upd s.re pNeighbour
      { s.re pNeighbour with g_cost := tempGcost, f_cost := tempGcost + h, parent := pRE }
    let m := (re1 pNeighbour).openListIndex
    bubbleUpLt m { s with re := re1 } m
  else s

/-- One round of the loop of lines 192-294 over the eight directions. `pEnd` is
`rasterElements + width * height - 1`. -/
def visitNeighbour (width height : Nat) (pGoal pRE : Nat) (s : Search)
    (neighbourhood_index : Nat) : Search :=
  let x : Int := ((s.re pRE).x : Int) + neighbourhood_dx neighbourhood_index
  let y : Int := ((s.re pRE).y : Int) + neighbourhood_dy neighbourhood_index
  if x < 0 ∨ x ≥ (width : Int) ∨ y < 0 ∨ y ≥ (height : Int) then s
  else
    let pNeighbour : Int := (pRE : Int) + neighbourhood_offsets width neighbourhood_index
    let pEnd : Int := (width : Int) * (height : Int) - 1
    if 0 ≤ pNeighbour ∧ pNeighbour < pEnd then
      let pN := pNeighbour.toNat
      if (s.re pN).list ≠ List_Closed then
        if (s.re pN).list ≠ List_Unwalkable then
          if (s.re pN).list ≠ List_Open then openNeighbour s pRE pN pGoal neighbourhood_index
          else improveNeighbour s pRE pN neighbourhood_index
        else s
      else s
    else s

/-- The loop of lines 192-294. -/
def visitNeighbours (width height : Nat) (pGoal pRE : Nat) (s : Search) : Search :=
  (List.range 8).foldl (visitNeighbour width height pGoal pRE) s

/-- The loops of lines 307-321: follow the parents from `pRE` to `pStart`; the cells
met, the first one last. `none` when the walk does not end within the fuel. -/
def walkParents (re : Nat → RasterElement) (pStart : Nat) : Nat → Nat → List Pos → Option (List Pos)
  | 0, _, _ => none
  | fuel + 1, pRE, acc =>
    let acc1 := ((re pRE).x, (re pRE).y) :: acc
    if pRE = pStart then some acc1 else walkParents re pStart fuel (re pRE).parent acc1

/-- The result of the main loop. -/
inductive LoopEnd
  | found (s : Search) (path : List Pos)
  | noPath (s : Search)

/-- The loop of lines 145-325. `none` when the fuel does not suffice; `walkFuel` is
the fuel of the path extraction. -/
def mainLoop (width height pStart pGoal walkFuel : Nat) : Nat → Search → Option LoopEnd
  | 0, _ => none
  | fuel + 1, s =>
    if s.n ≠ 0 then
      let r := popFirst s
      let s2 := visitNeighbours width height pGoal r.1 r.2
      if (s2.re pGoal).list = List_Closed then
        (walkParents s2.re pStart walkFuel pGoal []).map (LoopEnd.found s2)
      else mainLoop width height pStart pGoal walkFuel fuel s2
    else some (LoopEnd.noPath s)

/-- Lines 106-127: every walkable cell is taken off the lists, the start gets the
cost 0 and becomes the only entry of the open list. -/
def initialSearch (p : Planner) (pStart : Nat) : Search :=
  let re0 : Nat → RasterElement := fun i =>
    if i < p.width * p.height ∧ (p.rasterElements i).list ≠ List_Unwalkable then
      { p.rasterElements i with list := List_None }
    else p.rasterElements i
  { re := upd re0 pStart { re0 pStart with g_cost := 0 }, openList := upd p.openList 1 pStart, n := 1 }

/-- The end of `calculatePath`: the error of line 297 and `setPath(path)`. -/
def finish (p : Planner) : Option LoopEnd → Option Outcome
  | none => none
  | some (LoopEnd.found s path) =>
    some { planner := { p with rasterElements := s.re, openList := s.openList }
           path := path, error := "" }
  | some (LoopEnd.noPath s) =>
    some { planner := { p with rasterElements := s.re, openList := s.openList }
           path := [], error := "No Path found" }

/-- `AStarPlanner::calculatePath` for the rounded start and goal positions. The
arrays are allocated (`initMap` ran). `none` when a loop of the model runs out of
fuel. -/
def calculatePath (p : Planner) (startPos goalPos : Pos) : Option Outcome :=
  let width := p.width
  let height := p.height
  let pStart := startPos.2 * width + startPos.1
  let pGoal := goalPos.2 * width + goalPos.1
  if (p.rasterElements pGoal).list = List_Unwalkable then
    some { planner := p, path := [], error := "Goal position blocked" }
  else if (p.rasterElements pStart).list = List_Unwalkable then
    some { planner := p, path := [], error := "Start position blocked" }
  else
    let fuel := 2 * (width * height) + 2
    finish p (mainLoop width height pStart pGoal fuel fuel (initialSearch p pStart))

end AStar

/-! ## Unsigned arithmetic and the change mask -/

/-- `unsigned` addition. -/
def uadd (a b : Nat) : Nat := (a + b) % 4294967296

/-- `AbstractPlanner::InputUpdate` flags. -/
def UpdatedStart : Nat := 1
/-- See `UpdatedStart`. -/
def UpdatedGoal : Nat := 2
/-- See `UpdatedStart`. -/
def UpdatedMap : Nat := 4
/-- See `UpdatedStart`. -/
def NewMap : Nat := 8

/-- The test `updates & ~(UpdatedStart | UpdatedMap)` of the incremental planners:
a flag other than `UpdatedStart` and `UpdatedMap` is set. -/
def needsReset (updates : Nat) : Bool := (updates / 2) % 2 = 1 ∨ (updates / 8) % 2 = 1 ∨ updates / 16 ≠ 0

/-- The rectangle handed to `initMap` for a partial update (`QRect`, all bounds
inclusive). -/
structure Region where
  left : Nat
  top : Nat
  right : Nat
  bottom : Nat

/-- The positions of a region in the order the update loops visit them. -/
def Region.points (r : Region) : List Pos :=
  (List.range (r.bottom + 1 - r.top)).flatMap fun dy =>
    (List.range (r.right + 1 - r.left)).map fun dx => (r.left + dx, r.top + dy)

/-- The region that consists of one cell. -/
def Region.single (c : Pos) : Region := { left := c.1, top := c.2, right := c.1, bottom := c.2 }

/-- `QRect`: the coordinates `x1`, `y1` of its top left and `x2`, `y2` of its bottom
right corner, as the class stores them. -/
structure QRect where
  x1 : Int
  y1 : Int
  x2 : Int
  y2 : Int

/-- `QRect::isEmpty`. -/
def QRect.isEmpty (r : QRect) : Bool := decide (r.x1 > r.x2 ∨ r.y1 > r.y2)

/-- `QRect(0, 0, w, h).contains(r)` for a rectangle `r` that is not empty. -/
def QRect.inside (r : QRect) (w h : Nat) : Bool :=
  decide (0 ≤ r.x1 ∧ r.x2 < (w : Int) ∧ 0 ≤ r.y1 ∧ r.y2 < (h : Int))

/-- The region of a rectangle that is not empty and lies inside the map. -/
def QRect.region (r : QRect) : Region :=
  { left := r.x1.toNat, top := r.y1.toNat, right := r.x2.toNat, bottom := r.y2.toNat }

/-- The rectangle that consists of one cell. -/
def QRect.single (c : Pos) : QRect := { x1 := c.1, y1 := c.2, x2 := c.1, y2 := c.2 }

/-! ## D* Lite (`dstarliteplanner.cpp`) -/

namespace DStarLite

/-- `OBSTACLE_COST` is `UINT_MAX - 10000000`. -/
def OBSTACLE_COST : Nat := 4284967295

/-- `DStarLitePlanner::Key`. -/
structure Key where
  k1 : Nat
  k2 : Nat
  deriving DecidableEq, Repr

/-- `Key::operator<`. -/
def Key.lt (a b : Key) : Bool :=
  if a.k1 = b.k1 then a.k2 < b.k2 else a.k1 < b.k1

/-- `Key::operator>=`. -/
def Key.ge (a b : Key) : Bool := !(Key.lt a b)

/-- `DStarLitePlanner::Cell`. -/
structure Cell where
  x : Nat
  y : Nat
  neighborhoodIndex : Nat
  blocked : Bool
  heapIndex : Nat
  g_cost : Nat
  rhs : Nat
  key : Key

/-- `DStarLitePlanner::NeighborSpec`. -/
structure NeighborSpec where
  ptrOffset : Int
  baseCost : Nat
  deriving DecidableEq, Repr

/-- `EdgeFlags`. -/
def XMinEdge : Nat := 1
/-- See `XMinEdge`. -/
def XMaxEdge : Nat := 2
/-- See `XMinEdge`. -/
def YMinEdge : Nat := 4
/-- See `XMinEdge`. -/
def YMaxEdge : Nat := 8

/-- The contents of a pair of arrays as `new Cell[n]` and `new Cell *[n]` return them:
the members of the cells and the entries of the heap array are indeterminate, so any
values can stand here. -/
structure Memory where
  cells : Nat → Cell
  openHeap : Nat → Nat

/-- The state of a `DStarLitePlanner` together with the map size. `memory` is no member of
the class: `memory k` is what the arrays hold that the `k`-th allocation from now on
returns, before the program writes to them. -/
structure Planner where
  width : Nat
  height : Nat
  cells : Nat → Cell
  pGoal : Nat
  pStart : Nat
  pRobot : Nat
  k_m : Nat
  neighborhoods : Nat → List NeighborSpec
  openHeap : Nat → Nat
  openListLength : Nat
  memory : Nat → Memory

/-- `DStarLitePlanner::h_cost`. -/
def h_cost (c1 c2 : Cell) : Nat :=
  let dx := ((c1.x : Int) - (c2.x : Int)).natAbs
  let dy := ((c1.y : Int) - (c2.y : Int)).natAbs
  let dMin := min dx dy
  let dMax := max dx dy
  7 * dMin + 5 * (dMax - dMin)

/-- `Cell::calculateKey`. -/
def calculateKey (c start : Cell) (k_m : Nat) : Key :=
  let k2 := if c.g_cost < c.rhs then c.g_cost else c.rhs
  { k1 := uadd (uadd k2 (h_cost c start)) k_m, k2 := k2 }

/-- `openHeap[i]->key`. -/
def Planner.keyAt (p : Planner) (i : Nat) : Key := (p.cells (p.openHeap i)).key

/-- The exchange of two heap slots in `heapUp` and `heapDown`, with the update of
both `heapIndex` fields. -/
def swapSlots (p : Planner) (i j : Nat) : Planner :=
  let temp := p.openHeap i
  let h1 := upd p.openHeap i (p.openHeap j)
  let h2 := upd h1 j temp
  let c1 := upd p.cells (h2 i) { p.cells (h2 i) with heapIndex := i }
  let c2 := upd c1 (h2 j) { c1 (h2 j) with heapIndex := j }
  { p with openHeap := h2, cells := c2 }

/-- The loop of `heapUp`. -/
def heapUpLoop : Nat → Planner → Nat → Planner
  | 0, p, _ => p
  | fuel + 1, p, idx =>
    if idx ≠ 1 then
      let parentIdx := idx / 2
      if Key.lt (p.keyAt idx) (p.keyAt parentIdx) then
        heapUpLoop fuel (swapSlots p parentIdx idx) parentIdx
      else p
    else p

/-- `DStarLitePlanner::heapUp`. -/
def heapUp (p : Planner) (cell : Nat) : Planner :=
  if (p.cells cell).heapIndex = 0 then p
  else heapUpLoop (p.cells cell).heapIndex p (p.cells cell).heapIndex

/-- The slot the item in slot `idx` is exchanged with in one round of `heapDown`. -/
def downTarget (p : Planner) (idx : Nat) : Nat :=
  let idxChild := 2 * idx
  let idx1 :=
    if idxChild ≤ p.openListLength then
      (if Key.ge (p.keyAt idx) (p.keyAt idxChild) then idxChild else idx)
    else idx
  let idxChild := idxChild + 1
  if idxChild ≤ p.openListLength then
    (if Key.ge (p.keyAt idx1) (p.keyAt idxChild) then idxChild else idx1)
  else idx1

/-- The loop of `heapDown`. -/
def heapDownLoop : Nat → Planner → Nat → Planner
  | 0, p, _ => p
  | fuel + 1, p, idx =>
    let origIdx := idx
    let idx1 := downTarget p idx
    if origIdx = idx1 then p else heapDownLoop fuel (swapSlots p idx1 origIdx) idx1

/-- `DStarLitePlanner::heapDown`. -/
def heapDown (p : Planner) (cell : Nat) : Planner :=
  if (p.cells cell).heapIndex = 0 then p
  else heapDownLoop (p.openListLength + 1) p (p.cells cell).heapIndex

/-- `DStarLitePlanner::insert`. -/
def insert (p : Planner) (cell : Nat) : Planner :=
  if (p.cells cell).heapIndex ≠ 0 then heapUp (heapDown p cell) cell
  else
    let n := p.openListLength + 1
    let p1 : Planner :=
      { p with openListLength := n, openHeap := upd p.openHeap n cell,
               cells := upd p.cells cell { p.cells cell with heapIndex := n } }
    heapUp p1 cell

/-- The decrement `n--` of an `unsigned`: 0 wraps to 4294967295. -/
def udec (n : Nat) : Nat := if n = 0 then 4294967295 else n - 1

/-- `DStarLitePlanner::remove`. -/
def remove (p : Planner) (cell : Nat) : Planner :=
  if (p.cells cell).heapIndex = 0 then p
  else
    let lastCell := p.openHeap p.openListLength
    let p1 : Planner := { p with openListLength := udec p.openListLength }
    let p2 :=
      if p1.openListLength ≠ 0 then
        let idx := (p1.cells cell).heapIndex
        let p3 : Planner :=
          { p1 with openHeap := upd p1.openHeap idx lastCell,
                    cells := upd p1.cells lastCell { p1.cells lastCell with heapIndex := idx } }
        heapDown (heapUp p3 lastCell) lastCell
      else p1
    { p2 with cells := upd p2.cells cell { p2.cells cell with heapIndex := 0 } }

/-- `DStarLitePlanner::updateVertex`. -/
def updateVertex (p : Planner) (pCell : Nat) : Planner :=
  if (p.cells pCell).g_cost ≠ (p.cells pCell).rhs then
    let key := calculateKey (p.cells pCell) (p.cells p.pStart) p.k_m
    insert { p with cells := upd p.cells pCell { p.cells pCell with key := key } } pCell
  else remove p pCell

/-- The cell `pCell + spec.ptrOffset`. -/
def neighborOf (pCell : Nat) (spec : NeighborSpec) : Nat := ((pCell : Int) + spec.ptrOffset).toNat

/-- The neighbourhood of a cell without its first entry (the loops `i = 1 ..`). -/
def Planner.neighborsOf (p : Planner) (pCell : Nat) : List NeighborSpec :=
  (p.neighborhoods (p.cells pCell).neighborhoodIndex).tail

/-- `rhs` of a cell from the `g_cost` of its unblocked neighbours: the loop that
occurs in `initMap` (lines 195-203) and in `computeShortestPath` (lines 329-337). -/
def minNeighborCost (p : Planner) (pNeighbor : Nat) : Nat :=
  (p.neighborsOf pNeighbor).foldl
    (fun newRhs spec =>
      let pNeighbor2 := neighborOf pNeighbor spec
      if (p.cells pNeighbor2).blocked then newRhs
      else
        let rhs := (p.cells pNeighbor2).g_cost
        let rhs := if rhs < OBSTACLE_COST then uadd rhs spec.baseCost else rhs
        if rhs < newRhs then rhs else newRhs)
    OBSTACLE_COST

/-- The table built in `initMap` (lines 124-136): sixteen lists that start with one
default entry, followed by the directions the edge flags allow. -/
def buildNeighborhoods (w : Nat) : Nat → List NeighborSpec := fun i =>
  if i < 16 then
    ({ ptrOffset := 0, baseCost := 0 } : NeighborSpec) ::
      ([-1, 0, 1].flatMap fun (y : Int) =>
        [-1, 0, 1].filterMap fun (x : Int) =>
          if x = 0 ∧ y = 0 then none
          else if (i / XMinEdge) % 2 = 1 ∧ x = -1 then none
          else if (i / XMaxEdge) % 2 = 1 ∧ x = 1 then none
          else if (i / YMinEdge) % 2 = 1 ∧ y = -1 then none
          else if (i / YMaxEdge) % 2 = 1 ∧ y = 1 then none
          else some { ptrOffset := y * (w : Int) + x, baseCost := if x = 0 ∨ y = 0 then 5 else 7 })
  else []

/-- Setting an edge flag (`neighborhoodIndex |= flag`). -/
def setFlag (cells : Nat → Cell) (i flag : Nat) : Nat → Cell :=
  upd cells i { cells i with
    neighborhoodIndex :=
      if ((cells i).neighborhoodIndex / flag) % 2 = 1 then (cells i).neighborhoodIndex
      else (cells i).neighborhoodIndex + flag }

/-- The cell with every member zero: the cell that statements about single cells start
from. -/
def rawCell : Cell :=
  { x := 0, y := 0, neighborhoodIndex := 0, blocked := false, heapIndex := 0,
    g_cost := 0, rhs := 0, key := { k1 := 0, k2 := 0 } }

/-- `DStarLitePlanner::initMap` for a new map (the update region is null). The arrays are
allocated anew: `old.memory 0` is what they hold. The loop over the cells writes `x`, `y`,
`neighborhoodIndex` and `blocked`; `key` is (0, 0) by the constructor `Key()`; the
members `heapIndex`, `g_cost` and `rhs` and the entries of the heap array stay as the
allocation left them. The members `pGoal`, `pStart`, `pRobot` and `k_m` keep their old
values. Beyond the `w * h` cells of the array there is no cell; the function `cells` is
`rawCell` there. -/
def initMap (old : Planner) (m : GridMap) : Planner :=
  let w := m.width
  let h := m.height
  let raw := old.memory 0
  let cells0 : Nat → Cell := fun i =>
    if i < w * h then
      { raw.cells i with
        x := (i % w) % USHORT, y := (i / w) % USHORT, neighborhoodIndex := 0
        blocked := decide (m.pixel (i % w) (i / w) > 0), key := { k1 := 0, k2 := 0 } }
    else rawCell
  let cells1 := (List.range w).foldl
    (fun cells i => setFlag (setFlag cells i YMinEdge) ((h - 1) * w + i) YMaxEdge) cells0
  let cells2 := (List.range h).foldl
    (fun cells i => setFlag (setFlag cells (i * w) XMinEdge) (i * w + (w - 1)) XMaxEdge) cells1
  { width := w, height := h, cells := cells2
    pGoal := old.pGoal, pStart := old.pStart, pRobot := old.pRobot, k_m := old.k_m
    neighborhoods := buildNeighborhoods w
    openHeap := raw.openHeap, openListLength := 0
    memory := fun k => old.memory (k + 1) }

/-- `DStarLitePlanner::DStarLitePlanner`: a planner object before the first map. The
constructor sets `cells` and `openHeap` to NULL and `openListLength` to 0; it does not
initialise `pGoal`, `pStart`, `pRobot` and `k_m`, which hold what `junk` holds, as does all
memory allocated later. -/
def created (junk : Planner) : Planner :=
  { junk with width := 0, height := 0, neighborhoods := fun _ => [], openListLength := 0 }

/-- A state in which every value is zero. -/
def zeroed : Planner :=
  { width := 0, height := 0, cells := fun _ => rawCell, pGoal := 0, pStart := 0, pRobot := 0
    k_m := 0, neighborhoods := fun _ => [], openHeap := fun _ => 0, openListLength := 0
    memory := fun _ => { cells := fun _ => rawCell, openHeap := fun _ => 0 } }

/-- The planner object that the scenarios start from: `created` with every uninitialised
value zero. -/
def fresh : Planner := created zeroed

/-- Lines 191-210: the cell `pCell` has become blocked. -/
def cellBlocked (p : Planner) (pCell : Nat) : Planner :=
  let p1 := (p.neighborsOf pCell).foldl
    (fun p spec =>
      let pNeighbor := neighborOf pCell spec
      if pNeighbor = p.pGoal then p
      else if (p.cells pNeighbor).blocked then p
      else
        let newRhs := minNeighborCost p pNeighbor
        if (p.cells pNeighbor).rhs ≠ newRhs then
          updateVertex { p with cells := upd p.cells pNeighbor { p.cells pNeighbor with rhs := newRhs } }
            pNeighbor
        else p)
    p
  let c : Cell := { p1.cells pCell with rhs := OBSTACLE_COST, g_cost := OBSTACLE_COST }
  let p2 : Planner := { p1 with cells := upd p1.cells pCell c }
  updateVertex p2 pCell

/-- Lines 213-232: the cell `pCell` has become free. -/
def cellFreed (p : Planner) (pCell : Nat) : Planner :=
  let start : Planner × Nat := (p, (p.cells pCell).rhs)
  let r := (p.neighborsOf pCell).foldl
    (fun (acc : Planner × Nat) spec =>
      let p := acc.1
      let newCellRhs := acc.2
      let pNeighbor := neighborOf pCell spec
      if pNeighbor = p.pGoal ∨ (p.cells pNeighbor).blocked then acc
      else
        let newRhs := (p.cells pNeighbor).g_cost
        let newRhs := if newRhs < OBSTACLE_COST then uadd newRhs spec.baseCost else newRhs
        let newCellRhs := if newRhs < newCellRhs then newRhs else newCellRhs
        let newRhs := (p.cells pCell).g_cost
        let newRhs := if newRhs < OBSTACLE_COST then uadd newRhs spec.baseCost else newRhs
        if newRhs < (p.cells pNeighbor).rhs then
          (updateVertex { p with cells := upd p.cells pNeighbor { p.cells pNeighbor with rhs := newRhs } }
            pNeighbor, newCellRhs)
        else (p, newCellRhs))
    start
  let p1 := r.1
  let newCellRhs := r.2
  if newCellRhs < (p1.cells pCell).rhs then
    updateVertex { p1 with cells := upd p1.cells pCell { p1.cells pCell with rhs := newCellRhs } } pCell
  else p1

/-- `DStarLitePlanner::initMap` for a partial update of the map. -/
def initMapUpdate (p : Planner) (m : GridMap) (r : Region) : Planner :=
  r.points.foldl
    (fun p pos =>
      let pCell := p.width * pos.2 + pos.1
      let newBlocked := decide (m.pixel pos.1 pos.2 > 0)
      if newBlocked ≠ (p.cells pCell).blocked then
        let p1 : Planner := { p with cells := upd p.cells pCell { p.cells pCell with blocked := newBlocked } }
        if (p1.cells pCell).blocked then cellBlocked p1 pCell else cellFreed p1 pCell
      else p)
    p

/-- Lines 266-281 of `computeShortestPath`: the popped cell is overconsistent. -/
def lowerCell (p : Planner) (pCell : Nat) : Planner :=
  let p1 : Planner := { p with cells := upd p.cells pCell { p.cells pCell with g_cost := (p.cells pCell).rhs } }
  let p2 := remove p1 pCell
  if !(p2.cells pCell).blocked then
    (p2.neighborsOf pCell).foldl
      (fun p spec =>
        let pNeighbor := neighborOf pCell spec
        if (p.cells pNeighbor).blocked ∨ pNeighbor = p.pGoal then p
        else
          let newCost := (p.cells pCell).g_cost
          let newCost := if newCost < OBSTACLE_COST then uadd newCost spec.baseCost else newCost
          if (p.cells pNeighbor).rhs > newCost then
            updateVertex { p with cells := upd p.cells pNeighbor { p.cells pNeighbor with rhs := newCost } }
              pNeighbor
          else p)
      p2
  else p2

/-- Lines 283-341 of `computeShortestPath`: the popped cell is not overconsistent. -/
def raiseCell (p : Planner) (pCell : Nat) : Planner :=
  let g_old := (p.cells pCell).g_cost
  let p1 : Planner := { p with cells := upd p.cells pCell { p.cells pCell with g_cost := OBSTACLE_COST } }
  (p1.neighborhoods (p1.cells pCell).neighborhoodIndex).foldl
    (fun p spec =>
      let pNeighbor := neighborOf pCell spec
      if (p.cells pNeighbor).blocked ∨ pNeighbor = p.pGoal then p
      else
        let testCost := g_old
        let testCost := if testCost < OBSTACLE_COST then uadd testCost spec.baseCost else testCost
        let p' :=
          if pNeighbor = pCell ∨ (p.cells pNeighbor).rhs = testCost then
            let newRhs := minNeighborCost p pNeighbor
            { p with cells := upd p.cells pNeighbor { p.cells pNeighbor with rhs := newRhs } }
          else p
        updateVertex p' pNeighbor)
    p1

/-- The test of line 252: the loop of `computeShortestPath` goes on. -/
def keepGoing (p : Planner) : Bool :=
  let pCell := p.openHeap 1
  let start := p.cells p.pStart
  let k2Start := min start.g_cost start.rhs
  Key.lt (p.cells pCell).key { k1 := uadd k2Start p.k_m, k2 := k2Start } || decide (start.rhs > start.g_cost)

/-- One round of the loop of `computeShortestPath` after the tests of lines 252-257. -/
def popStep (p : Planner) : Planner :=
  let pCell := p.openHeap 1
  let correctKey := calculateKey (p.cells pCell) (p.cells p.pStart) p.k_m
  if Key.lt (p.cells pCell).key correctKey then
    insert { p with cells := upd p.cells pCell { p.cells pCell with key := correctKey } } pCell
  else if (p.cells pCell).g_cost > (p.cells pCell).rhs then lowerCell p pCell
  else raiseCell p pCell

/-- The loop of `computeShortestPath`; `step` counts the rounds. The result is the
state and the flag `complete`; `none` when the fuel does not suffice. -/
def shortestPathLoop (maxSteps : Nat) : Nat → Planner → Nat → Option (Planner × Bool)
  | 0, _, _ => none
  | fuel + 1, p, step =>
    if p.openListLength ≠ 0 then
      if !keepGoing p then some (p, true)
      else if maxSteps ≠ 0 ∧ step + 1 > maxSteps then some (p, false)
      else shortestPathLoop maxSteps fuel (popStep p) (step + 1)
    else some (p, true)

/-- `DStarLitePlanner::computeShortestPath`. -/
def computeShortestPath (fuel : Nat) (p : Planner) (maxSteps : Nat) : Option (Planner × Bool) :=
  shortestPathLoop maxSteps fuel p 0

/-- The neighbour the path extraction moves to (lines 487-499). -/
def nextCell (p : Planner) (pCell : Nat) : Option Nat :=
  ((p.neighborsOf pCell).foldl
    (fun (acc : Option Nat × Nat) spec =>
      let pNeighbor := neighborOf pCell spec
      if !(p.cells pNeighbor).blocked ∧ (p.cells pNeighbor).g_cost < OBSTACLE_COST then
        let cost := uadd (p.cells pNeighbor).g_cost spec.baseCost
        if cost < acc.2 then (some pNeighbor, cost) else acc
      else acc)
    (none, OBSTACLE_COST)).1

/-- The loop of lines 477-507; the first argument is `100000 - pathLength`. -/
def extractLoop (p : Planner) : Nat → Nat → List Pos → Except String (List Pos)
  | remaining, pCell, path =>
    let path1 := path ++ [((p.cells pCell).x, (p.cells pCell).y)]
    if pCell = p.pGoal then Except.ok path1
    else
      match remaining with
      | 0 => Except.error "Path too long\n"
      | r + 1 =>
        match nextCell p pCell with
        | none => Except.error "Path blocked\n"
        | some pNextCell => extractLoop p r pNextCell path1

/-- What a call of `doCalculatePath` leaves behind: the state, the path handed to
`setPath` (empty when `setPath` is not called: `callPlanner` clears the path before)
and the text handed to `setError`. -/
structure Outcome where
  planner : Planner
  path : List Pos
  error : String

/-- The path extraction of `doDebugAndPathExtract` (the debug layers are left out). -/
def doDebugAndPathExtract (p : Planner) (pathExtract : Bool) : Outcome :=
  if pathExtract then
    if (p.cells p.pStart).rhs < OBSTACLE_COST then
      match extractLoop p 100000 p.pStart [] with
      | Except.ok path => { planner := p, path := path, error := "" }
      | Except.error e => { planner := p, path := [], error := e }
    else { planner := p, path := [], error := "No Path found" }
  else { planner := p, path := [], error := "" }

/-- The re-initialisation of lines 398-413. -/
def resetState (p : Planner) : Planner :=
  let cells1 : Nat → Cell := fun i =>
    if i < p.width * p.height then
      { p.cells i with heapIndex := 0, rhs := OBSTACLE_COST, g_cost := OBSTACLE_COST }
    else p.cells i
  let cells2 := upd cells1 p.pGoal { cells1 p.pGoal with rhs := 0, heapIndex := 1 }
  let p1 : Planner :=
    { p with cells := cells2, k_m := 0, pRobot := p.pStart, openListLength := 1
             openHeap := upd p.openHeap 1 p.pGoal }
  let key := calculateKey (p1.cells p1.pGoal) (p1.cells p1.pStart) p1.k_m
  { p1 with cells := upd p1.cells p1.pGoal { p1.cells p1.pGoal with key := key } }

/-- `DStarLitePlanner::doCalculatePath` with single stepping switched off; the
arrays are allocated. `fuel` bounds the rounds of `computeShortestPath`; `none` when
it does not suffice. -/
def doCalculatePath (fuel : Nat) (p : Planner) (updates : Nat) (startPos goalPos : Pos)
    (maxSteps : Nat) : Option Outcome :=
  let w := p.width
  let p1 : Planner :=
    { p with pStart := startPos.2 * w + startPos.1, pGoal := goalPos.2 * w + goalPos.1 }
  if (p1.cells p1.pStart).blocked then
    some { planner := p1, path := [], error := "Start position blocked" }
  else if (p1.cells p1.pGoal).blocked then
    some { planner := p1, path := [], error := "Goal position blocked" }
  else
    let p2 := if needsReset updates then resetState p1 else p1
    let p3 : Planner :=
      if p2.pRobot ≠ p2.pStart then
        { p2 with k_m := uadd p2.k_m (h_cost (p2.cells p2.pStart) (p2.cells p2.pRobot)), pRobot := p2.pStart }
      else p2
    match computeShortestPath fuel p3 maxSteps with
    | none => none
    | some (p4, success) =>
      some (doDebugAndPathExtract p4 success)

/-- Path and error text of an outcome. -/
def Outcome.report (o : Outcome) : List Pos × String := (o.path, o.error)

end DStarLite

/-! ## D* (`dstarplanner.cpp`) -/

namespace DStar

/-- `OBSTACLE_COST`. -/
def OBSTACLE_COST : Nat := 2000000000

/-- `DStarPlanner::ListType`. -/
inductive ListType
  | List_New
  | List_Open
  | List_Closed
  deriving DecidableEq, Repr

open ListType

/-- `DStarPlanner::Cell`; `backPtr` is the index of a cell or `NULL`. -/
structure Cell where
  backPtr : Option Nat
  x : Nat
  y : Nat
  h_cost : Nat
  k_cost : Nat
  blocked : Bool
  heapIndex : Nat
  list : ListType

/-- The state of a `DStarPlanner` together with the map size. -/
structure Planner where
  width : Nat
  height : Nat
  cells : Nat → Cell
  openHeap : Nat → Nat
  openListLength : Nat

/-- `openHeap[i]->k_cost`. -/
def Planner.kAt (p : Planner) (i : Nat) : Nat := (p.cells (p.openHeap i)).k_cost

/-- The exchange of two heap slots in `heapUp` and `heapDown`, with the update of
both `heapIndex` fields. -/
def swapSlots (p : Planner) (i j : Nat) : Planner :=
  let temp := p.openHeap i
  let h1 := upd p.openHeap i (p.openHeap j)
  let h2 := upd h1 j temp
  let c1 := upd p.cells (h2 i) { p.cells (h2 i) with heapIndex := i }
  let c2 := upd c1 (h2 j) { c1 (h2 j) with heapIndex := j }
  { p with openHeap := h2, cells := c2 }

/-- The loop of `heapUp`. -/
def heapUpLoop : Nat → Planner → Nat → Planner
  | 0, p, _ => p
  | fuel + 1, p, idx =>
    if idx ≠ 1 then
      let parentIdx := idx / 2
      if p.kAt idx < p.kAt parentIdx then heapUpLoop fuel (swapSlots p parentIdx idx) parentIdx
      else p
    else p

/-- `DStarPlanner::heapUp`. -/
def heapUp (p : Planner) (pCell : Nat) : Planner :=
  if (p.cells pCell).list ≠ List_Open then p
  else heapUpLoop (p.cells pCell).heapIndex p (p.cells pCell).heapIndex

/-- The slot the item in slot `idx` is exchanged with in one round of `heapDown`. -/
def downTarget (p : Planner) (idx : Nat) : Nat :=
  let idxChild := 2 * idx
  let idx1 :=
    if idxChild ≤ p.openListLength then
      (if p.kAt idx ≥ p.kAt idxChild then idxChild else idx)
    else idx
  let idxChild := idxChild + 1
  if idxChild ≤ p.openListLength then
    (if p.kAt idx1 ≥ p.kAt idxChild then idxChild else idx1)
  else idx1

/-- The loop of `heapDown`. -/
def heapDownLoop : Nat → Planner → Nat → Planner
  | 0, p, _ => p
  | fuel + 1, p, idx =>
    let origIdx := idx
    let idx1 := downTarget p idx
    if origIdx ≠ idx1 then heapDownLoop fuel (swapSlots p idx1 origIdx) idx1 else p

/-- `DStarPlanner::heapDown`. -/
def heapDown (p : Planner) (pCell : Nat) : Planner :=
  if (p.cells pCell).list ≠ List_Open then p
  else heapDownLoop (p.openListLength + 1) p (p.cells pCell).heapIndex

/-- `DStarPlanner::insert`. -/
def insert (p : Planner) (pCell : Nat) (h_cost : Nat) : Planner :=
  let c := p.cells pCell
  if c.list = List_Open then
    let c1 : Cell := { c with k_cost := if h_cost < c.k_cost then h_cost else c.k_cost, h_cost := h_cost }
    let p1 : Planner := { p with cells := upd p.cells pCell c1 }
    heapDown (heapUp p1 pCell) pCell
  else
    let c1 : Cell :=
      if c.list = List_New then { c with h_cost := h_cost, k_cost := h_cost }
      else { c with k_cost := min c.h_cost h_cost, h_cost := h_cost }
    let idx := p.openListLength + 1
    let c2 : Cell := { c1 with heapIndex := idx, list := List_Open, k_cost := min c1.k_cost h_cost }
    let p1 : Planner :=
      { p with openListLength := idx, openHeap := upd p.openHeap idx pCell, cells := upd p.cells pCell c2 }
    heapUp p1 pCell

/-- `DStarPlanner::getKMin`. -/
def getKMin (p : Planner) : Nat :=
  if p.openListLength = 0 then OBSTACLE_COST else (p.cells (p.openHeap 1)).k_cost

/-- The neighbours of `pMin` with the arc costs `c_cost` (lines 310-323), for the
two move costs of the planner. -/
def neighborsWithCost (cardinal diagonal : Nat) (width height : Nat) (cellX cellY : Nat → Nat)
    (isBlocked : Nat → Bool) (pMin : Nat) : List (Nat × Nat) :=
  [-1, 0, 1].flatMap fun (dy : Int) =>
    [-1, 0, 1].filterMap fun (dx : Int) =>
      let y : Int := (cellY pMin : Int) + dy
      let x : Int := (cellX pMin : Int) + dx
      if y = (cellY pMin : Int) ∧ x = (cellX pMin : Int) then none
      else if y < 0 ∨ y ≥ (height : Int) ∨ x < 0 ∨ x ≥ (width : Int) then none
      else
        let pNeighbor := (y * (width : Int) + x).toNat
        let c :=
          if isBlocked pNeighbor ∨ isBlocked pMin then 2000000000
          else if x ≠ (cellX pMin : Int) ∧ y ≠ (cellY pMin : Int) then diagonal else cardinal
        some (pNeighbor, c)

/-- The neighbours of `pMin` with their arc costs. -/
def Planner.neighbors (p : Planner) (pMin : Nat) : List (Nat × Nat) :=
  neighborsWithCost 10 14 p.width p.height (fun i => (p.cells i).x) (fun i => (p.cells i).y)
    (fun i => (p.cells i).blocked) pMin

/-- The cost `c` of an arc added to a cost `h`, as in
`if(newHCost < OBSTACLE_COST) newHCost += h`. -/
def arcPlus (c h : Nat) : Nat := if c < OBSTACLE_COST then uadd c h else c

/-- Lines 325-338: `pMin` is a RAISE state and looks for a better backpointer. -/
def lowerFromNeighbors (p : Planner) (pMin oldKMin : Nat) (nbs : List (Nat × Nat)) : Planner :=
  if oldKMin < (p.cells pMin).h_cost then
    nbs.foldl
      (fun p nb =>
        let pNeighbor := nb.1
        if (p.cells pNeighbor).list = List_New then p
        else if (p.cells pNeighbor).h_cost ≤ oldKMin then
          let newHCost := arcPlus nb.2 (p.cells pNeighbor).h_cost
          if (p.cells pMin).h_cost > newHCost then
            let c : Cell := { p.cells pMin with h_cost := newHCost, backPtr := some pNeighbor }
            { p with cells := upd p.cells pMin c }
          else p
        else p)
      p
  else p

/-- `pNeighbor->backPtr = pMin; insert(pNeighbor, h)`. -/
def adopt (p : Planner) (pMin pNeighbor h : Nat) : Planner :=
  insert { p with cells := upd p.cells pNeighbor { p.cells pNeighbor with backPtr := some pMin } }
    pNeighbor h

/-- Lines 340-350: `pMin` is a LOWER state. -/
def propagateLower (p : Planner) (pMin : Nat) (nbs : List (Nat × Nat)) : Planner :=
  nbs.foldl
    (fun p nb =>
      let pNeighbor := nb.1
      let neighborHCost := arcPlus nb.2 (p.cells pMin).h_cost
      if (p.cells pNeighbor).list = List_New ∨ (p.cells pNeighbor).h_cost > neighborHCost ∨
          ((p.cells pNeighbor).backPtr = some pMin ∧ (p.cells pNeighbor).h_cost ≠ neighborHCost) then
        adopt p pMin pNeighbor neighborHCost
      else p)
    p

/-- Lines 352-372: `pMin` is a RAISE state. -/
def propagateRaise (p : Planner) (pMin oldKMin : Nat) (nbs : List (Nat × Nat)) : Planner :=
  nbs.foldl
    (fun p nb =>
      let pNeighbor := nb.1
      let neighborHCost := arcPlus nb.2 (p.cells pMin).h_cost
      if (p.cells pNeighbor).list = List_New ∨
          ((p.cells pNeighbor).backPtr = some pMin ∧ (p.cells pNeighbor).h_cost ≠ neighborHCost) then
        adopt p pMin pNeighbor neighborHCost
      else if (p.cells pNeighbor).backPtr ≠ some pMin then
        if (p.cells pNeighbor).h_cost > neighborHCost then insert p pMin (p.cells pMin).h_cost
        else
          let hCost := arcPlus nb.2 (p.cells pNeighbor).h_cost
          if (p.cells pMin).h_cost > hCost ∧ (p.cells pNeighbor).list = List_Closed ∧
              (p.cells pNeighbor).h_cost > oldKMin then
            insert p pNeighbor (p.cells pNeighbor).h_cost
          else p
      else p)
    p

/-- Lines 299-306: remove the first entry from the open list. -/
def popMin (p : Planner) : Nat × Planner :=
  let pMin := p.openHeap 1
  let p1 : Planner :=
    { p with cells := upd p.cells pMin { p.cells pMin with list := List_Closed, heapIndex := 0 }
             openListLength := p.openListLength - 1 }
  if p1.openListLength ≠ 0 then
    let first := p1.openHeap (p1.openListLength + 1)
    let p2 : Planner :=
      { p1 with openHeap := upd p1.openHeap 1 first
                cells := upd p1.cells first { p1.cells first with heapIndex := 1 } }
    (pMin, heapDown p2 (p2.openHeap 1))
  else (pMin, p1)

/-- `DStarPlanner::processState`; returns the new state and `getKMin()`. -/
def processState (p : Planner) : Planner × Nat :=
  if p.openListLength < 1 then (p, OBSTACLE_COST)
  else
    let (pMin, p1) := popMin p
    let oldKMin := (p1.cells pMin).k_cost
    let nbs := p1.neighbors pMin
    let p2 := lowerFromNeighbors p1 pMin oldKMin nbs
    let p3 :=
      if oldKMin = (p2.cells pMin).h_cost then propagateLower p2 pMin nbs
      else propagateRaise p2 pMin oldKMin nbs
    (p3, getKMin p3)

/-- `DStarPlanner::initMap` for a new map (the update region is null); `k_cost` is
left indeterminate by the source and taken as zero. -/
def initMap (m : GridMap) : Planner :=
  { width := m.width, height := m.height
    cells := fun i =>
      { backPtr := none, x := (i % m.width) % USHORT, y := (i / m.width) % USHORT
        h_cost := 0, k_cost := 0, blocked := decide (m.pixel (i % m.width) (i / m.width) > 0)
        heapIndex := 0, list := List_New }
    openHeap := fun _ => 0, openListLength := 0 }

/-- The cells `(ix, iy)` with `|ix - x| ≤ 1`, `|iy - y| ≤ 1` inside the map, the cell
itself included, in the order of the loops of lines 110-117. -/
def around (w h : Nat) (cx cy : Nat) : List Nat :=
  [-1, 0, 1].flatMap fun (dy : Int) =>
    [-1, 0, 1].filterMap fun (dx : Int) =>
      let iy : Int := (cy : Int) + dy
      let ix : Int := (cx : Int) + dx
      if iy < 0 ∨ iy ≥ (h : Int) then none
      else if ix < 0 ∨ ix ≥ (w : Int) then none
      else some (iy * (w : Int) + ix).toNat

/-- `DStarPlanner::initMap` for a partial update of the map (MODIFY-COST). -/
def initMapUpdate (p : Planner) (m : GridMap) (r : Region) : Planner :=
  r.points.foldl
    (fun p pos =>
      let pCell := p.width * pos.2 + pos.1
      let newBlocked := decide (m.pixel pos.1 pos.2 > 0)
      if newBlocked ≠ (p.cells pCell).blocked then
        let p1 : Planner := { p with cells := upd p.cells pCell { p.cells pCell with blocked := newBlocked } }
        let p2 := if (p1.cells pCell).list = List_Closed then insert p1 pCell (p1.cells pCell).h_cost else p1
        if !(p2.cells pCell).blocked then
          (around p2.width p2.height (p2.cells pCell).x (p2.cells pCell).y).foldl
            (fun p pNeighbor =>
              if (p.cells pNeighbor).list = List_Closed then insert p pNeighbor (p.cells pNeighbor).h_cost
              else p)
            p2
        else p2
      else p)
    p

/-- The re-initialisation of lines 175-186. -/
def resetState (p : Planner) (pGoal : Nat) : Planner :=
  let cells1 : Nat → Cell := fun i =>
    if i < p.width * p.height then
      { p.cells i with list := List_New, backPtr := none, heapIndex := 0, h_cost := 0 }
    else p.cells i
  { p with
    openListLength := 1
    cells := upd cells1 pGoal { cells1 pGoal with k_cost := 0, h_cost := 0, list := List_Open, heapIndex := 1 }
    openHeap := upd p.openHeap 1 pGoal }

/-- How the `processState` loop of `doCalculatePath` ends. -/
inductive LoopEnd
  | ready
  | noPath

/-- The loop of lines 199-215 (single stepping off). `none` when the fuel does not
suffice. -/
def processLoop (pStart : Nat) : Nat → Planner → Option (Planner × LoopEnd)
  | 0, _ => none
  | fuel + 1, p =>
    let (p1, kMin) := processState p
    if (p1.cells pStart).list ≠ List_New ∧ kMin ≥ (p1.cells pStart).h_cost then some (p1, LoopEnd.ready)
    else if kMin ≥ OBSTACLE_COST then some (p1, LoopEnd.noPath)
    else processLoop pStart fuel p1

/-- The loop of lines 250-273 that follows the backpointers; the first argument is
`1000000 - (pathLength - 1)`. The points met are collected on the way (the source
walks the same cells a second time to store them). -/
def followBackPtrs (blocked : Nat → Bool) (backPtr : Nat → Option Nat) (pos : Nat → Pos)
    (pGoal : Nat) : Nat → Nat → List Pos → Except String (List Pos)
  | remaining, pCell, path =>
    if blocked pCell then Except.error "Path blocked"
    else
      let path1 := path ++ [pos pCell]
      if pCell = pGoal then Except.ok path1
      else
        match backPtr pCell with
        | none => Except.error "NULL pointer in backpointer sequence"
        | some next =>
          match remaining with
          | 0 => Except.error "Path too long"
          | r + 1 => followBackPtrs blocked backPtr pos pGoal r next path1

/-- What a call of `doCalculatePath` leaves behind: the state, the path handed to
`setPath` and the text handed to `setError`. -/
structure Outcome where
  planner : Planner
  path : List Pos
  error : String

/-- Lines 245-289: the path extraction. -/
def extractPath (p : Planner) (pStart pGoal : Nat) : Outcome :=
  match followBackPtrs (fun i => (p.cells i).blocked) (fun i => (p.cells i).backPtr)
      (fun i => ((p.cells i).x, (p.cells i).y)) pGoal 1000000 pStart [] with
  | Except.ok path => { planner := p, path := path, error := "" }
  | Except.error e => { planner := p, path := [], error := e }

/-- `DStarPlanner::doCalculatePath` with single stepping switched off; the arrays are
allocated. `fuel` bounds the rounds of the `processState` loop; `none` when it does
not suffice. -/
def doCalculatePath (fuel : Nat) (p : Planner) (updates : Nat) (startPos goalPos : Pos) :
    Option Outcome :=
  let width := p.width
  let pStart := startPos.2 * width + startPos.1
  let pGoal := goalPos.2 * width + goalPos.1
  if (p.cells pStart).blocked then
    some { planner := p, path := [], error := "Start position blocked" }
  else if (p.cells pGoal).blocked then
    some { planner := p, path := [], error := "Goal position blocked" }
  else
    let p1 := if needsReset updates then resetState p pGoal else p
    let kMin := getKMin p1
    let looped : Option (Planner × LoopEnd) :=
      if (p1.cells pStart).list = List_New ∨ kMin < (p1.cells pStart).h_cost then
        processLoop pStart fuel p1
      else some (p1, LoopEnd.ready)
    match looped with
    | none => none
    | some (p2, LoopEnd.noPath) => some { planner := p2, path := [], error := "No Path found" }
    | some (p2, LoopEnd.ready) =>
      if (p2.cells pStart).list = List_New ∨ (p2.cells pStart).h_cost ≥ OBSTACLE_COST then
        some { planner := p2, path := [], error := "No Path found" }
      else some (extractPath p2 pStart pGoal)

/-- Path and error text of an outcome. -/
def Outcome.report (o : Outcome) : List Pos × String := (o.path, o.error)

end DStar

/-! ## Focused D* (`fdstarplanner.cpp`) -/

namespace FocussedDStar

/-- `OBSTACLE_COST`. -/
def OBSTACLE_COST : Nat := 2000000000

/-- `UINT_MAX`. -/
def UINT_MAX : Nat := 4294967295

/-- `FocussedDStarPlanner::ListType`. -/
inductive ListType
  | List_New
  | List_Open
  | List_Closed
  deriving DecidableEq, Repr

open ListType

/-- `FocussedDStarPlanner::Cell`; `backPtr` and `pFocus` are indices of cells or
`NULL`. -/
structure Cell where
  backPtr : Option Nat
  x : Nat
  y : Nat
  list : ListType
  blocked : Bool
  heapIndex : Nat
  pFocus : Option Nat
  h_cost : Nat
  k_cost : Nat
  f_cost : Nat
  fB_cost : Nat

/-- `Cell::operator<`. -/
def Cell.lt (a b : Cell) : Bool :=
  if a.fB_cost = b.fB_cost then
    (if a.f_cost = b.f_cost then a.k_cost < b.k_cost else a.f_cost < b.f_cost)
  else a.fB_cost < b.fB_cost

/-- `Cell::operator>=`. -/
def Cell.ge (a b : Cell) : Bool := !(Cell.lt a b)

/-- `FocussedDStarPlanner::Cost`. -/
structure Cost where
  c1 : Nat
  c2 : Nat
  deriving DecidableEq, Repr

/-- `Cost::operator<`. -/
def Cost.lt (a b : Cost) : Bool := if a.c1 = b.c1 then a.c2 < b.c2 else a.c1 < b.c1

/-- `Cost::operator<=`. -/
def Cost.le (a b : Cost) : Bool := if a.c1 = b.c1 then a.c2 ≤ b.c2 else a.c1 < b.c1

/-- The default `Cost()`. -/
def Cost.noVal : Cost := { c1 := UINT_MAX, c2 := UINT_MAX }

/-- The state of a `FocussedDStarPlanner` together with the map size; `pRobot` is
indeterminate before the first re-initialisation. -/
structure Planner where
  width : Nat
  height : Nat
  cells : Nat → Cell
  openHeap : Nat → Nat
  openListLength : Nat
  pRobot : Nat
  d_curr : Nat
  fullInit : Bool

/-- `FocussedDStarPlanner::dist`. -/
def dist (c1 c2 : Cell) : Nat :=
  let dx := ((c1.x : Int) - (c2.x : Int)).natAbs
  let dy := ((c1.y : Int) - (c2.y : Int)).natAbs
  let dMin := min dx dy
  let dMax := max dx dy
  7 * dMin + 5 * (dMax - dMin)

/-- `FocussedDStarPlanner::getCost`. -/
def getCost (p : Planner) (cell : Nat) : Cost :=
  { c1 := uadd (p.cells cell).h_cost (dist (p.cells cell) (p.cells p.pRobot)), c2 := (p.cells cell).h_cost }

/-- `*openHeap[i]`. -/
def Planner.at (p : Planner) (i : Nat) : Cell := p.cells (p.openHeap i)

/-- The exchange of two heap slots in `heapUp` and `heapDown`, with the update of
both `heapIndex` fields. -/
def swapSlots (p : Planner) (i j : Nat) : Planner :=
  let temp := p.openHeap i
  let h1 := upd p.openHeap i (p.openHeap j)
  let h2 := upd h1 j temp
  let c1 := upd p.cells (h2 i) { p.cells (h2 i) with heapIndex := i }
  let c2 := upd c1 (h2 j) { c1 (h2 j) with heapIndex := j }
  { p with openHeap := h2, cells := c2 }

/-- The loop of `heapUp`. -/
def heapUpLoop : Nat → Planner → Nat → Planner
  | 0, p, _ => p
  | fuel + 1, p, idx =>
    if idx ≠ 1 then
      let parentIdx := idx / 2
      if Cell.lt (p.at idx) (p.at parentIdx) then heapUpLoop fuel (swapSlots p parentIdx idx) parentIdx
      else p
    else p

/-- `FocussedDStarPlanner::heapUp`. -/
def heapUp (p : Planner) (cell : Nat) : Planner :=
  if (p.cells cell).list ≠ List_Open then p
  else heapUpLoop (p.cells cell).heapIndex p (p.cells cell).heapIndex

/-- The slot the item in slot `idx` is exchanged with in one round of `heapDown`. -/
def downTarget (p : Planner) (idx : Nat) : Nat :=
  let idxChild := 2 * idx
  let idx1 :=
    if idxChild ≤ p.openListLength then
      (if Cell.ge (p.at idx) (p.at idxChild) then idxChild else idx)
    else idx
  let idxChild := idxChild + 1
  if idxChild ≤ p.openListLength then
    (if Cell.ge (p.at idx1) (p.at idxChild) then idxChild else idx1)
  else idx1

/-- The loop of `heapDown`. -/
def heapDownLoop : Nat → Planner → Nat → Planner
  | 0, p, _ => p
  | fuel + 1, p, idx =>
    let origIdx := idx
    let idx1 := downTarget p idx
    if origIdx ≠ idx1 then heapDownLoop fuel (swapSlots p idx1 origIdx) idx1 else p

/-- `FocussedDStarPlanner::heapDown`. -/
def heapDown (p : Planner) (cell : Nat) : Planner :=
  if (p.cells cell).list ≠ List_Open then p
  else heapDownLoop (p.openListLength + 1) p (p.cells cell).heapIndex

/-- `FocussedDStarPlanner::insert`. -/
def insert (p : Planner) (cell : Nat) (h_cost : Nat) : Planner :=
  let c := p.cells cell
  let p1 :=
    if c.list = List_Open then
      let k := if h_cost < c.k_cost then h_cost else c.k_cost
      let f := uadd k (dist c (p.cells p.pRobot))
      let c1 : Cell := { c with k_cost := k, f_cost := f, fB_cost := uadd f p.d_curr }
      let p1 : Planner := { p with cells := upd p.cells cell c1 }
      heapDown (heapUp p1 cell) cell
    else
      let k := if c.list = List_New then h_cost else min c.h_cost h_cost
      let f := uadd k (dist c (p.cells p.pRobot))
      let idx := p.openListLength + 1
      let c1 : Cell :=
        { c with k_cost := k, f_cost := f, fB_cost := uadd f p.d_curr, heapIndex := idx, list := List_Open }
      let p1 : Planner :=
        { p with openListLength := idx, openHeap := upd p.openHeap idx cell, cells := upd p.cells cell c1 }
      heapUp p1 cell
  { p1 with cells := upd p1.cells cell { p1.cells cell with h_cost := h_cost, pFocus := some p1.pRobot } }

/-- The loop of `getMinState` on a non-empty open list. `none` when the fuel does
not suffice. -/
def minStateLoop : Nat → Planner → Option (Planner × Nat)
  | 0, _ => none
  | fuel + 1, p =>
    let pMin := p.openHeap 1
    if (p.cells pMin).pFocus = some p.pRobot then some (p, pMin)
    else
      let c := p.cells pMin
      let f := uadd c.k_cost (dist c (p.cells p.pRobot))
      let c1 : Cell := { c with f_cost := f, fB_cost := uadd f p.d_curr, pFocus := some p.pRobot }
      let p1 : Planner := { p with cells := upd p.cells pMin c1 }
      minStateLoop fuel (heapDown (heapUp p1 pMin) pMin)

/-- `FocussedDStarPlanner::getMinState`: the state and the cell found (`NULL` for an
empty open list). `none` when the fuel does not suffice. -/
def getMinState (p : Planner) : Option (Planner × Option Nat) :=
  if p.openListLength > 0 then
    (minStateLoop (p.openListLength + 1) p).map fun r => (r.1, some r.2)
  else some (p, none)

/-- `FocussedDStarPlanner::getMinVal`. -/
def getMinVal (p : Planner) : Option (Planner × Cost) :=
  (getMinState p).map fun r =>
    match r.2 with
    | some pMin => (r.1, { c1 := (r.1.cells pMin).f_cost, c2 := (r.1.cells pMin).k_cost })
    | none => (r.1, Cost.noVal)

/-- The neighbours of `pMin` with their arc costs (lines 350-363). -/
def Planner.neighbors (p : Planner) (pMin : Nat) : List (Nat × Nat) :=
  DStar.neighborsWithCost 5 7 p.width p.height (fun i => (p.cells i).x) (fun i => (p.cells i).y)
    (fun i => (p.cells i).blocked) pMin

/-- See `DStar.arcPlus`. -/
def arcPlus (c h : Nat) : Nat := if c < OBSTACLE_COST then uadd c h else c

/-- Lines 365-378. -/
def lowerFromNeighbors (p : Planner) (pMin : Nat) (val : Cost) (k_val : Nat)
    (nbs : List (Nat × Nat)) : Planner :=
  if k_val < (p.cells pMin).h_cost then
    nbs.foldl
      (fun p nb =>
        let pNeighbor := nb.1
        if (p.cells pNeighbor).list = List_New then p
        else if Cost.le (getCost p pNeighbor) val then
          let newHCost := arcPlus nb.2 (p.cells pNeighbor).h_cost
          if (p.cells pMin).h_cost > newHCost then
            let c : Cell := { p.cells pMin with h_cost := newHCost, backPtr := some pNeighbor }
            { p with cells := upd p.cells pMin c }
          else p
        else p)
      p
  else p

/-- `pNeighbor->backPtr = pMin; insert(*pNeighbor, h)`. -/
def adopt (p : Planner) (pMin pNeighbor h : Nat) : Planner :=
  insert { p with cells := upd p.cells pNeighbor { p.cells pNeighbor with backPtr := some pMin } }
    pNeighbor h

/-- Lines 380-390. -/
def propagateLower (p : Planner) (pMin : Nat) (nbs : List (Nat × Nat)) : Planner :=
  nbs.foldl
    (fun p nb =>
      let pNeighbor := nb.1
      let neighborHCost := arcPlus nb.2 (p.cells pMin).h_cost
      if (p.cells pNeighbor).list = List_New ∨ (p.cells pNeighbor).h_cost > neighborHCost ∨
          ((p.cells pNeighbor).backPtr = some pMin ∧ (p.cells pNeighbor).h_cost ≠ neighborHCost) then
        adopt p pMin pNeighbor neighborHCost
      else p)
    p

/-- Lines 392-412. -/
def propagateRaise (p : Planner) (pMin : Nat) (val : Cost) (nbs : List (Nat × Nat)) : Planner :=
  nbs.foldl
    (fun p nb =>
      let pNeighbor := nb.1
      let neighborHCost := arcPlus nb.2 (p.cells pMin).h_cost
      if (p.cells pNeighbor).list = List_New ∨
          ((p.cells pNeighbor).backPtr = some pMin ∧ (p.cells pNeighbor).h_cost ≠ neighborHCost) then
        adopt p pMin pNeighbor neighborHCost
      else if (p.cells pNeighbor).backPtr ≠ some pMin then
        if (p.cells pNeighbor).h_cost > neighborHCost then insert p pMin (p.cells pMin).h_cost
        else
          let hCost := arcPlus nb.2 (p.cells pNeighbor).h_cost
          if (p.cells pMin).h_cost > hCost ∧ (p.cells pNeighbor).list = List_Closed ∧
              Cost.lt val (getCost p pNeighbor) then
            insert p pNeighbor (p.cells pNeighbor).h_cost
          else p
      else p)
    p

/-- Lines 339-345: remove the first entry from the open list. -/
def popMin (p : Planner) (pMin : Nat) : Planner :=
  let p1 : Planner :=
    { p with cells := upd p.cells pMin { p.cells pMin with list := List_Closed, heapIndex := 0 }
             openListLength := p.openListLength - 1 }
  if p1.openListLength ≠ 0 then
    let first := p1.openHeap (p1.openListLength + 1)
    let p2 : Planner :=
      { p1 with openHeap := upd p1.openHeap 1 first
                cells := upd p1.cells first { p1.cells first with heapIndex := 1 } }
    heapDown p2 (p2.openHeap 1)
  else p1

/-- `FocussedDStarPlanner::processState`; returns the new state and `getMinVal()`.
`none` when the fuel of `getMinState` does not suffice. -/
def processState (p : Planner) : Option (Planner × Cost) :=
  match getMinState p with
  | none => none
  | some (p0, none) => some (p0, Cost.noVal)
  | some (p0, some pMin) =>
    let p1 := popMin p0 pMin
    let val : Cost := { c1 := (p1.cells pMin).f_cost, c2 := (p1.cells pMin).k_cost }
    let k_val := (p1.cells pMin).k_cost
    let nbs := p1.neighbors pMin
    let p2 := lowerFromNeighbors p1 pMin val k_val nbs
    let p3 :=
      if k_val = (p2.cells pMin).h_cost then propagateLower p2 pMin nbs
      else propagateRaise p2 pMin val nbs
    getMinVal p3

/-- `FocussedDStarPlanner::initMap` for a new map; `k_cost` is left indeterminate by
the source and taken as zero. -/
def initMap (old : Planner) (m : GridMap) : Planner :=
  { width := m.width, height := m.height
    cells := fun i =>
      { backPtr := none, x := (i % m.width) % USHORT, y := (i / m.width) % USHORT
        list := List_New, blocked := decide (m.pixel (i % m.width) (i / m.width) > 0)
        heapIndex := 0, pFocus := none, h_cost := 0, k_cost := 0, f_cost := 0, fB_cost := 0 }
    openHeap := fun _ => 0, openListLength := 0
    pRobot := old.pRobot, d_curr := old.d_curr, fullInit := old.fullInit }

/-- A planner object before the first map. -/
def fresh (fullInit : Bool) : Planner :=
  { width := 0, height := 0
    cells := fun _ =>
      { backPtr := none, x := 0, y := 0, list := List_New, blocked := false, heapIndex := 0
        pFocus := none, h_cost := 0, k_cost := 0, f_cost := 0, fB_cost := 0 }
    openHeap := fun _ => 0, openListLength := 0, pRobot := 0, d_curr := 0, fullInit := fullInit }

/-- `FocussedDStarPlanner::initMap` for a partial update of the map. -/
def initMapUpdate (p : Planner) (m : GridMap) (r : Region) : Planner :=
  r.points.foldl
    (fun p pos =>
      let pCell := p.width * pos.2 + pos.1
      let newBlocked := decide (m.pixel pos.1 pos.2 > 0)
      if newBlocked ≠ (p.cells pCell).blocked then
        let p1 : Planner := { p with cells := upd p.cells pCell { p.cells pCell with blocked := newBlocked } }
        let p2 := if (p1.cells pCell).list = List_Closed then insert p1 pCell (p1.cells pCell).h_cost else p1
        if !(p2.cells pCell).blocked then
          (DStar.around p2.width p2.height (p2.cells pCell).x (p2.cells pCell).y).foldl
            (fun p pNeighbor =>
              if (p.cells pNeighbor).list = List_Closed then insert p pNeighbor (p.cells pNeighbor).h_cost
              else p)
            p2
        else p2
      else p)
    p

/-- The re-initialisation of lines 171-185. -/
def resetState (p : Planner) (pStart pGoal : Nat) : Planner :=
  let cells1 : Nat → Cell := fun i =>
    if i < p.width * p.height then
      { p.cells i with list := List_New, backPtr := none, heapIndex := 0, h_cost := 0 }
    else p.cells i
  { p with
    pRobot := pStart
    d_curr := 0
    openListLength := 1
    cells := upd cells1 pGoal { cells1 pGoal with
      fB_cost := 0, f_cost := 0, h_cost := 0, k_cost := 0, list := List_Open, heapIndex := 1 }
    openHeap := upd p.openHeap 1 pGoal }

/-- The loop of lines 195-205 (single stepping off). `none` when the fuel does not
suffice. -/
def initialLoop (pStart : Nat) : Nat → Planner → Option Planner
  | 0, _ => none
  | fuel + 1, p =>
    match processState p with
    | none => none
    | some (p1, val) =>
      if !p1.fullInit ∧ (p1.cells pStart).list = List_Closed then some p1
      else if p1.openListLength = 0 then some p1
      else if val.c2 ≥ OBSTACLE_COST then some p1
      else initialLoop pStart fuel p1

/-- How the loop of lines 219-234 ends. -/
inductive LoopEnd
  | ready
  | noPath

/-- The loop of lines 219-234 (single stepping off). `none` when the fuel does not
suffice. -/
def replanLoop (pStart : Nat) : Nat → Planner → Option (Planner × LoopEnd)
  | 0, _ => none
  | fuel + 1, p =>
    if p.openListLength > 0 then
      match processState p with
      | none => none
      | some (p1, val) =>
        if (p1.cells pStart).list ≠ List_New ∧ Cost.le (getCost p1 pStart) val then some (p1, LoopEnd.ready)
        else if val.c2 ≥ OBSTACLE_COST then some (p1, LoopEnd.noPath)
        else replanLoop pStart fuel p1
    else some (p, LoopEnd.ready)

/-- What a call of `doCalculatePath` leaves behind: the state, the path handed to
`setPath` and the text handed to `setError`. -/
structure Outcome where
  planner : Planner
  path : List Pos
  error : String

/-- Lines 263-305: the path extraction. -/
def extractPath (p : Planner) (pStart pGoal : Nat) : Outcome :=
  match DStar.followBackPtrs (fun i => (p.cells i).blocked) (fun i => (p.cells i).backPtr)
      (fun i => ((p.cells i).x, (p.cells i).y)) pGoal 1000000 pStart [] with
  | Except.ok path => { planner := p, path := path, error := "" }
  | Except.error e => { planner := p, path := [], error := e }

/-- `FocussedDStarPlanner::doCalculatePath` with single stepping switched off; the
arrays are allocated. `fuel` bounds the rounds of the `processState` loops; `none`
when it does not suffice. -/
def doCalculatePath (fuel : Nat) (p : Planner) (updates : Nat) (startPos goalPos : Pos) :
    Option Outcome :=
  let width := p.width
  let pStart := startPos.2 * width + startPos.1
  let pGoal := goalPos.2 * width + goalPos.1
  if (p.cells pStart).blocked then
    some { planner := p, path := [], error := "Start position blocked" }
  else if (p.cells pGoal).blocked then
    some { planner := p, path := [], error := "Goal position blocked" }
  else
    let p1 := if needsReset updates then resetState p pStart pGoal else p
    if (updates / 8) % 2 = 1 ∨ (updates / 2) % 2 = 1 then
      match initialLoop pStart fuel p1 with
      | none => none
      | some p2 =>
        if (p2.cells pStart).list ≠ List_Closed ∨ (p2.cells pStart).h_cost ≥ OBSTACLE_COST then
          some { planner := p2, path := [], error := "No Path found" }
        else some (extractPath p2 pStart pGoal)
    else
      let p2 : Planner :=
        if pStart ≠ p1.pRobot then
          { p1 with d_curr := uadd (uadd p1.d_curr (dist (p1.cells pStart) (p1.cells p1.pRobot))) 1
                    pRobot := pStart }
        else p1
      match getMinVal p2 with
      | none => none
      | some (p3, val) =>
        let looped : Option (Planner × LoopEnd) :=
          if (p3.cells pStart).list = List_New ∨ Cost.lt val (getCost p3 pStart) then
            replanLoop pStart fuel p3
          else some (p3, LoopEnd.ready)
        match looped with
        | none => none
        | some (p4, LoopEnd.noPath) => some { planner := p4, path := [], error := "No Path found" }
        | some (p4, LoopEnd.ready) =>
          if (p4.cells pStart).list = List_New ∨ (p4.cells pStart).h_cost ≥ OBSTACLE_COST then
            some { planner := p4, path := [], error := "No Path found" }
          else some (extractPath p4 pStart pGoal)

/-- Path and error text of an outcome. -/
def Outcome.report (o : Outcome) : List Pos × String := (o.path, o.error)

end FocussedDStar

/-! ## Test maps -/

/-- The map of the given size without any blocked cell. -/
def openMap (w h : Nat) : GridMap := { width := w, height := h, pixel := fun _ _ => 0 }

/-- The map of the given size whose blocked cells are those listed. -/
def mapWith (w h : Nat) (blocked : List Pos) : GridMap :=
  { width := w, height := h, pixel := fun x y => if (x, y) ∈ blocked then 255 else 0 }

/-- Path and error text of an outcome. -/
def AStar.Outcome.report (o : AStar.Outcome) : List Pos × String := (o.path, o.error)

/-! ## The planner contract (`abstractplanner.cpp`) -/

/-- What one invocation of an algorithm hands back to `AbstractPlanner`: its new state,
the path given to `setPath` (empty when `setPath` is not called or called with an empty
path) and the text given to `setError` (empty when `setError` is not called). -/
structure PlanResult (σ : Type) where
  state : σ
  path : List Pos
  error : String

/-- The virtual functions a planner implements; `calculatePath` yields `none` when a
loop of the model runs out of fuel. -/
structure Algorithm (σ : Type) where
  initMap : σ → GridMap → σ
  initMapUpdate : σ → GridMap → Region → σ
  calculatePath : σ → Nat → Pos → Pos → Option (PlanResult σ)

/-- A pose: `none` when a coordinate or the angle is NaN, else the position it rounds
to (the angle plays no role in planning). -/
abbrev Pose := Option (Int × Int)

/-- The members of `AbstractPlanner`, with the state of the derived planner in `alg`. -/
structure AbstractPlanner (σ : Type) where
  alg : σ
  path : List Pos
  start : Pose
  goal : Pose
  mapSize : Nat × Nat
  lastError : String
  accumulatedInputUpdates : Nat

/-- `QRect(QPoint(0, 0), _mapSize).contains(pos)`. -/
def inMap (size : Nat × Nat) (pos : Int × Int) : Bool :=
  decide (0 ≤ pos.1 ∧ pos.1 < (size.1 : Int) ∧ 0 ≤ pos.2 ∧ pos.2 < (size.2 : Int))

/-- `AbstractPlanner::callPlanner`. -/
def callPlanner {σ : Type} (a : Algorithm σ) (p : AbstractPlanner σ) : Option (AbstractPlanner σ) :=
  match p.start, p.goal with
  | some s, some g =>
    if p.mapSize.1 ≠ 0 ∧ p.mapSize.2 ≠ 0 then
      match a.calculatePath p.alg p.accumulatedInputUpdates (s.1.toNat, s.2.toNat) (g.1.toNat, g.2.toNat) with
      | none => none
      | some r =>
        let lastError := if r.path ≠ [] then "" else r.error
        some { p with
          alg := r.state
          path := r.path
          accumulatedInputUpdates := 0
          lastError := if r.path = [] ∧ lastError = "" then "No Path set" else lastError }
    else some p
  | _, _ => some p

/-- `AbstractPlanner::setStart`. -/
def setStart {σ : Type} (a : Algorithm σ) (p : AbstractPlanner σ) (start : Pose) :
    Option (AbstractPlanner σ) :=
  match start with
  | none => some { p with start := none, path := [] }
  | some pos =>
    if inMap p.mapSize pos then
      callPlanner a { p with start := some pos
                             accumulatedInputUpdates := p.accumulatedInputUpdates ||| UpdatedStart }
    else some p

/-- `AbstractPlanner::setGoal`. -/
def setGoal {σ : Type} (a : Algorithm σ) (p : AbstractPlanner σ) (goal : Pose) :
    Option (AbstractPlanner σ) :=
  match goal with
  | none => some { p with goal := none, path := [] }
  | some pos =>
    if inMap p.mapSize pos then
      callPlanner a { p with goal := some pos
                             accumulatedInputUpdates := p.accumulatedInputUpdates ||| UpdatedGoal }
    else some p

/-- `AbstractPlanner::setStartGoal`. -/
def setStartGoal {σ : Type} (a : Algorithm σ) (p : AbstractPlanner σ) (start goal : Pose) :
    Option (AbstractPlanner σ) :=
  match start, goal with
  | some s, some g =>
    if !inMap p.mapSize s then some p
    else if !inMap p.mapSize g then some p
    else
      callPlanner a { p with start := some s, goal := some g
                             accumulatedInputUpdates := p.accumulatedInputUpdates ||| (UpdatedStart ||| UpdatedGoal) }
  | none, _ => (setStart a p start).bind fun p1 => setGoal a p1 goal
  | some _, none => (setGoal a p goal).bind fun p1 => setStart a p1 start

/-- `AbstractPlanner::setMap` for a map of format `Indexed8`. -/
def setMap {σ : Type} (a : Algorithm σ) (p : AbstractPlanner σ) (m : GridMap) : AbstractPlanner σ :=
  { p with start := none, goal := none, path := [], mapSize := (m.width, m.height)
           alg := a.initMap p.alg m, accumulatedInputUpdates := NewMap }

/-- `AbstractPlanner::updateMap` for a map of format `Indexed8`. -/
def updateMap {σ : Type} (a : Algorithm σ) (p : AbstractPlanner σ) (m : GridMap) (r : QRect) :
    Option (AbstractPlanner σ) :=
  if (m.width, m.height) = p.mapSize then
    if r.isEmpty ∨ ¬ r.inside m.width m.height then some p
    else
      callPlanner a { p with
        alg := a.initMapUpdate p.alg m r.region
        accumulatedInputUpdates :=
          if p.accumulatedInputUpdates &&& NewMap ≠ 0 then p.accumulatedInputUpdates
          else p.accumulatedInputUpdates ||| UpdatedMap }
  else some (setMap a p m)

/-- A planner object right after construction. -/
def newPlanner {σ : Type} (alg : σ) : AbstractPlanner σ :=
  { alg := alg, path := [], start := none, goal := none, mapSize := (0, 0), lastError := ""
    accumulatedInputUpdates := 0 }

/-- The A* planner behind the contract. -/
def AStar.algorithm : Algorithm AStar.Planner :=
  { initMap := fun _ m => AStar.initMap m
    initMapUpdate := fun _ m _ => AStar.initMap m
    calculatePath := fun p _ s g =>
      (AStar.calculatePath p s g).map fun o => { state := o.planner, path := o.path, error := o.error } }

/-- The D* planner behind the contract (single stepping off); `fuel` bounds the rounds
of its `processState` loop. -/
def DStar.algorithm (fuel : Nat) : Algorithm DStar.Planner :=
  { initMap := fun _ m => DStar.initMap m
    initMapUpdate := DStar.initMapUpdate
    calculatePath := fun p u s g =>
      (DStar.doCalculatePath fuel p u s g).map fun o => { state := o.planner, path := o.path, error := o.error } }

/-- The Focused D* planner behind the contract (single stepping off). -/
def FocussedDStar.algorithm (fuel : Nat) : Algorithm FocussedDStar.Planner :=
  { initMap := FocussedDStar.initMap
    initMapUpdate := FocussedDStar.initMapUpdate
    calculatePath := fun p u s g =>
      (FocussedDStar.doCalculatePath fuel p u s g).map fun o =>
        { state := o.planner, path := o.path, error := o.error } }

/-- The D* Lite planner behind the contract (single stepping off). -/
def DStarLite.algorithm (fuel : Nat) : Algorithm DStarLite.Planner :=
  { initMap := DStarLite.initMap
    initMapUpdate := DStarLite.initMapUpdate
    calculatePath := fun p u s g =>
      (DStarLite.doCalculatePath fuel p u s g 0).map fun o =>
        { state := o.planner, path := o.path, error := o.error } }

/-- What an observer sees of a planner: `path()` and `lastError()`. -/
def AbstractPlanner.report {σ : Type} (p : AbstractPlanner σ) : List Pos × String := (p.path, p.lastError)

/-! ## Paths on the grid -/

/-- Two positions are joined by one move of the 8-connected grid: they differ by at
most one in each coordinate and are not equal. -/
def Adjacent (a b : Pos) : Prop :=
  a ≠ b ∧ a.1 ≤ b.1 + 1 ∧ b.1 ≤ a.1 + 1 ∧ a.2 ≤ b.2 + 1 ∧ b.2 ≤ a.2 + 1

instance (a b : Pos) : Decidable (Adjacent a b) :=
  inferInstanceAs (Decidable (a ≠ b ∧ a.1 ≤ b.1 + 1 ∧ b.1 ≤ a.1 + 1 ∧ a.2 ≤ b.2 + 1 ∧ b.2 ≤ a.2 + 1))

/-- The position lies on the map and its cell is free. -/
def FreeCell (m : GridMap) (c : Pos) : Prop :=
  c.1 < m.width ∧ c.2 < m.height ∧ m.pixel c.1 c.2 = 0

instance (m : GridMap) (c : Pos) : Decidable (FreeCell m c) :=
  inferInstanceAs (Decidable (c.1 < m.width ∧ c.2 < m.height ∧ m.pixel c.1 c.2 = 0))

/-- Cost of one move: `diagonal` when both coordinates change, `cardinal` otherwise. -/
def stepCost (cardinal diagonal : Nat) (a b : Pos) : Nat :=
  if a.1 ≠ b.1 ∧ a.2 ≠ b.2 then diagonal else cardinal

/-- Cost of a sequence of positions: the sum of the costs of its moves. -/
def pathCost (cardinal diagonal : Nat) : List Pos → Nat
  | a :: b :: rest => stepCost cardinal diagonal a b + pathCost cardinal diagonal (b :: rest)
  | _ => 0

/-- A sequence of positions in which each one is adjacent to the next. -/
def IsChain : List Pos → Prop
  | a :: b :: rest => Adjacent a b ∧ IsChain (b :: rest)
  | _ => True

/-- Decision procedure for `IsChain`. -/
def IsChain.decide : (l : List Pos) → Decidable (IsChain l)
  | [] => isTrue trivial
  | [_] => isTrue trivial
  | a :: b :: rest =>
    match (inferInstance : Decidable (Adjacent a b)), IsChain.decide (b :: rest) with
    | isTrue h1, isTrue h2 => isTrue ⟨h1, h2⟩
    | isFalse h1, _ => isFalse fun h => h1 h.1
    | _, isFalse h2 => isFalse fun h => h2 h.2

instance (l : List Pos) : Decidable (IsChain l) := IsChain.decide l

/-- An 8-connected path of free cells of the map from `s` to `g`. -/
def FreePath (m : GridMap) (s g : Pos) (l : List Pos) : Prop :=
  l.head? = some s ∧ l.getLast? = some g ∧ IsChain l ∧ ∀ c ∈ l, FreeCell m c

instance (m : GridMap) (s g : Pos) (l : List Pos) : Decidable (FreePath m s g l) :=
  inferInstanceAs (Decidable (l.head? = some s ∧ l.getLast? = some g ∧ IsChain l ∧ ∀ c ∈ l, FreeCell m c))

/-- Some 8-connected chain of free cells joins `s` and `g`. -/
def Connected (m : GridMap) (s g : Pos) : Prop := ∃ l, FreePath m s g l

/-- The heuristic of A* as a function of two positions. -/
def AStar.heuristic (c goal : Pos) : Int :=
  AStar.h_cost { AStar.rawElement with x := c.1, y := c.2 } { AStar.rawElement with x := goal.1, y := goal.2 }

/-! ## Reachable states -/

/-- The states of the A* planner for the map `m`: the state `initMap` leaves, and the
states later calls of `calculatePath` with start and goal on the map leave. -/
inductive AStar.Reachable (m : GridMap) : AStar.Planner → Prop
  | initMap : AStar.Reachable m (AStar.initMap m)
  | calculatePath (p : AStar.Planner) (start goal : Pos) (o : AStar.Outcome) :
      AStar.Reachable m p → start.1 < m.width ∧ start.2 < m.height →
      goal.1 < m.width ∧ goal.2 < m.height → AStar.calculatePath p start goal = some o →
      AStar.Reachable m o.planner

/-- The states of a planner object that the operations of the contract lead to from
the state `init` of the algorithm, for maps whose width and height fit the
`unsigned short` coordinates of the cells. -/
inductive Reachable {σ : Type} (a : Algorithm σ) (init : σ) : AbstractPlanner σ → Prop
  | new : Reachable a init (newPlanner init)
  | setMap (p : AbstractPlanner σ) (m : GridMap) :
      Reachable a init p → m.width ≤ USHORT → m.height ≤ USHORT → Reachable a init (setMap a p m)
  | updateMap (p p' : AbstractPlanner σ) (m : GridMap) (r : QRect) :
      Reachable a init p → m.width ≤ USHORT → m.height ≤ USHORT → updateMap a p m r = some p' →
      Reachable a init p'
  | setStart (p p' : AbstractPlanner σ) (start : Pose) :
      Reachable a init p → setStart a p start = some p' → Reachable a init p'
  | setGoal (p p' : AbstractPlanner σ) (goal : Pose) :
      Reachable a init p → setGoal a p goal = some p' → Reachable a init p'
  | setStartGoal (p p' : AbstractPlanner σ) (start goal : Pose) :
      Reachable a init p → setStartGoal a p start goal = some p' → Reachable a init p'

/-- The position a valid pose rounds to, as a position of the grid. -/
def Pose.cell (pos : Int × Int) : Pos := (pos.1.toNat, pos.2.toNat)

/-- A path from `s` to `g` in which each point is adjacent to the next, and which is
the single point when `s = g`. -/
def PathOK (s g : Pos) (l : List Pos) : Prop :=
  l.head? = some s ∧ l.getLast? = some g ∧ IsChain l ∧ (s = g → l = [s])

/-! ## Scenarios -/

/-- D* Lite behind the contract: the all-free 3×2 map, start (0,0), goal (2,0); then
(1,0) is blocked, unblocked again, and finally (1,1) is blocked. The reports after
each of the four invocations. -/
def DStarLite.scenarioBlockAfterUnblock : Option (List (List Pos × String)) :=
  let a := DStarLite.algorithm 1000
  let p0 := setMap a (newPlanner DStarLite.fresh) (openMap 3 2)
  (setStartGoal a p0 (some (0, 0)) (some (2, 0))).bind fun p1 =>
  (updateMap a p1 (mapWith 3 2 [(1, 0)]) (QRect.single (1, 0))).bind fun p2 =>
  (updateMap a p2 (openMap 3 2) (QRect.single (1, 0))).bind fun p3 =>
  (updateMap a p3 (mapWith 3 2 [(1, 1)]) (QRect.single (1, 1))).map fun p4 =>
  [p1.report, p2.report, p3.report, p4.report]

/-- D* Lite behind the contract: the 3×3 map with (1,1) and (2,1) blocked, start
(1,0), goal (2,2); then (2,1) is unblocked, (0,1) is blocked and (0,1) is unblocked
again. The reports after each of the four invocations. -/
def DStarLite.scenarioUnblockAgain : Option (List (List Pos × String)) :=
  let a := DStarLite.algorithm 1000
  let p0 := setMap a (newPlanner DStarLite.fresh) (mapWith 3 3 [(1, 1), (2, 1)])
  (setStartGoal a p0 (some (1, 0)) (some (2, 2))).bind fun p1 =>
  (updateMap a p1 (mapWith 3 3 [(1, 1)]) (QRect.single (2, 1))).bind fun p2 =>
  (updateMap a p2 (mapWith 3 3 [(1, 1), (0, 1)]) (QRect.single (0, 1))).bind fun p3 =>
  (updateMap a p3 (mapWith 3 3 [(1, 1)]) (QRect.single (0, 1))).map fun p4 =>
  [p1.report, p2.report, p3.report, p4.report]

/-- The planner object after `setMap` and `setStartGoal` on a planner object right after
construction. -/
def planOnce {σ : Type} (a : Algorithm σ) (init : σ) (m : GridMap) (start goal : Pose) :
    Option (AbstractPlanner σ) :=
  setStartGoal a (setMap a (newPlanner init) m) start goal

/-- D* behind the contract on the all-free map of width 65537 and height 1 with start
(65536,0) and goal (65535,0): the report after the plan. -/
def DStar.scenarioWideMap : Option (List Pos × String) :=
  (planOnce (DStar.algorithm 10) (DStar.initMap (openMap 0 0)) (openMap 65537 1)
    (some (65536, 0)) (some (65535, 0))).map AbstractPlanner.report

/-- A* behind the contract on the all-free map of width 65540 and height 1 with start
(65536,0) and goal (65538,0): the report after the plan. -/
def AStar.scenarioWideMap : Option (List Pos × String) :=
  (planOnce AStar.algorithm (AStar.initMap (openMap 0 0)) (openMap 65540 1)
    (some (65536, 0)) (some (65538, 0))).map AbstractPlanner.report

/-! ## Observing the contract -/

/-- The algorithm `a` with a record of its invocations: the state carries the list of
the change masks `calculatePath` was invoked with, the latest first. -/
def Algorithm.logged {σ : Type} (a : Algorithm σ) : Algorithm (σ × List Nat) :=
  { initMap := fun st m => (a.initMap st.1 m, st.2)
    initMapUpdate := fun st m r => (a.initMapUpdate st.1 m r, st.2)
    calculatePath := fun st u s g =>
      (a.calculatePath st.1 u s g).map fun r => { state := (r.state, u :: st.2), path := r.path, error := r.error } }

/-- The number of invocations of the algorithm so far. -/
def AbstractPlanner.invocations {σ : Type} (p : AbstractPlanner (σ × List Nat)) : Nat := p.alg.2.length

/-- The test of `callPlanner`: the grid is not empty and start and goal are valid. -/
def AbstractPlanner.invocable {σ : Type} (p : AbstractPlanner σ) : Bool :=
  decide (p.mapSize.1 ≠ 0 ∧ p.mapSize.2 ≠ 0) && p.start.isSome && p.goal.isSome

/-- The members of a planner object besides the state of the algorithm. -/
structure View where
  path : List Pos
  lastError : String
  start : Pose
  goal : Pose
  mapSize : Nat × Nat
  pending : Nat
  deriving DecidableEq, Repr

/-- What an observer sees of a planner object besides the state of the algorithm:
path, last error, start, goal, map size and the pending change mask. -/
def AbstractPlanner.observe {σ : Type} (p : AbstractPlanner σ) : View :=
  { path := p.path, lastError := p.lastError, start := p.start, goal := p.goal
    mapSize := p.mapSize, pending := p.accumulatedInputUpdates }

/-- The flag `f` is set in the change mask `u`. -/
def hasFlag (u f : Nat) : Bool := u &&& f ≠ 0

/-- An input to a planner object. -/
inductive Change
  | start (pose : Pose)
  | goal (pose : Pose)
  | startGoal (start goal : Pose)
  | newMap (m : GridMap)
  | editMap (m : GridMap) (r : QRect)

/-- The call of the contract that belongs to an input. -/
def Change.apply {σ : Type} (a : Algorithm σ) (p : AbstractPlanner σ) : Change → Option (AbstractPlanner σ)
  | Change.start pose => setStart a p pose
  | Change.goal pose => setGoal a p pose
  | Change.startGoal s g => setStartGoal a p s g
  | Change.newMap m => some (setMap a p m)
  | Change.editMap m r => updateMap a p m r

/-- The kinds of changes accepted since the previous invocation of the algorithm: a
new start, a new goal, an edit of the map, a new map. -/
structure Accepted where
  start : Bool
  goal : Bool
  map : Bool
  newMap : Bool
  deriving DecidableEq, Repr

/-- Nothing accepted. -/
def Accepted.none : Accepted := { start := false, goal := false, map := false, newMap := false }

/-- Both records taken together. -/
def Accepted.join (a b : Accepted) : Accepted :=
  { start := a.start || b.start, goal := a.goal || b.goal, map := a.map || b.map
    newMap := a.newMap || b.newMap }

/-- A valid pose inside the grid. -/
def accepts (size : Nat × Nat) : Pose → Bool
  | some pos => inMap size pos
  | Option.none => false

/-- What an input to the planner object `p` adds to the accepted changes: a valid start
or goal inside the grid (for `setStartGoal` with two valid poses: both inside the grid),
an edit of the map of the same size with a region that is not empty and lies inside the
map, or a new map (`setMap`, or `updateMap` with a map of another size). -/
def Change.accepted {σ : Type} (p : AbstractPlanner σ) : Change → Accepted
  | Change.start pose => { Accepted.none with start := accepts p.mapSize pose }
  | Change.goal pose => { Accepted.none with goal := accepts p.mapSize pose }
  | Change.startGoal (some s) (some g) =>
    { Accepted.none with start := inMap p.mapSize s && inMap p.mapSize g
                         goal := inMap p.mapSize s && inMap p.mapSize g }
  | Change.startGoal s g => { Accepted.none with start := accepts p.mapSize s, goal := accepts p.mapSize g }
  | Change.newMap _ => { Accepted.none with newMap := true }
  | Change.editMap m r =>
    if (m.width, m.height) = p.mapSize then
      { Accepted.none with map := !r.isEmpty && r.inside m.width m.height }
    else { Accepted.none with newMap := true }

/-- The change mask `u` holds what the claim asks for the accepted changes `acc`: the
flag of a new start and of a new goal, `NewMap` and not `UpdatedMap` after a new map,
and `UpdatedMap` after an edit of the map without a new map. -/
def Handed (u : Nat) (acc : Accepted) : Prop :=
  (acc.start = true → hasFlag u UpdatedStart = true) ∧
  (acc.goal = true → hasFlag u UpdatedGoal = true) ∧
  (acc.newMap = true → hasFlag u NewMap = true ∧ hasFlag u UpdatedMap = false) ∧
  (acc.map = true → acc.newMap = false → hasFlag u UpdatedMap = true)

/-- The pending change mask `u` right after an input that did not lead to an invocation
holds the changes `own` that were accepted with this input: the flag of a new start and
of a new goal, `UpdatedMap` or in its place `NewMap` for an edit of the map, and
`NewMap` for a new map. -/
def Kept (u : Nat) (own : Accepted) : Prop :=
  (own.start = true → hasFlag u UpdatedStart = true) ∧
  (own.goal = true → hasFlag u UpdatedGoal = true) ∧
  (own.map = true → hasFlag u UpdatedMap = true ∨ hasFlag u NewMap = true) ∧
  (own.newMap = true → hasFlag u NewMap = true)

/-- What the observer of a sequence of inputs records for one input: whether it led to
an invocation of the algorithm, the change mask handed to the latest invocation, the
changes accepted since the previous invocation (those of this input included), the
changes accepted with this input, and the pending change mask right after it. -/
structure Observation where
  invoked : Bool
  mask : Nat
  accepted : Accepted
  own : Accepted
  pendingAfter : Nat
  deriving DecidableEq, Repr

/-- The observations for a sequence of inputs, the earliest first; `acc` holds the
changes accepted since the previous invocation. An input has led to an invocation when
the record of the logged algorithm has grown. `none` when an invocation runs out of
fuel. -/
def observations {σ : Type} (a : Algorithm σ) :
    List Change → AbstractPlanner (σ × List Nat) → Accepted → Option (List Observation)
  | [], _, _ => some []
  | c :: cs, p, acc =>
    match c.apply a.logged p with
    | Option.none => Option.none
    | some p' =>
      let acc' := acc.join (c.accepted p)
      let invoked := decide (p'.invocations ≠ p.invocations)
      (observations a cs p' (if invoked then Accepted.none else acc')).map fun obs =>
        { invoked := invoked, mask := p'.alg.2.headD 0, accepted := acc', own := c.accepted p
          pendingAfter := p'.accumulatedInputUpdates } :: obs

/-- D* Lite behind the contract: the 3×3 map with (1,1) and (2,1) blocked, start (1,0),
goal (2,2); then (2,1) is unblocked through `updateMap`. The reports after the two
invocations. -/
def DStarLite.scenarioRepair : Option (List (List Pos × String)) :=
  let a := DStarLite.algorithm 1000
  (planOnce a DStarLite.fresh (mapWith 3 3 [(1, 1), (2, 1)]) (some (1, 0)) (some (2, 2))).bind fun p1 =>
  (updateMap a p1 (mapWith 3 3 [(1, 1)]) (QRect.single (2, 1))).map fun p2 =>
  [p1.report, p2.report]

/-- D* Lite behind the contract, planning from scratch on the 3×3 map with (1,1)
blocked, start (1,0), goal (2,2): the report. -/
def DStarLite.scenarioFromScratch : Option (List Pos × String) :=
  (planOnce (DStarLite.algorithm 1000) DStarLite.fresh (mapWith 3 3 [(1, 1)]) (some (1, 0))
    (some (2, 2))).map AbstractPlanner.report

/-- D* behind the contract: the 3×3 map with (2,2) blocked, start (0,0), goal (2,0);
then `setGoal` moves the goal to the blocked cell (2,2), and `updateMap` unblocks
(2,2). The reports after the three invocations. -/
def DStar.scenarioGoalUnblocked : Option (List (List Pos × String)) :=
  let a := DStar.algorithm 100
  (planOnce a (DStar.initMap (openMap 0 0)) (mapWith 3 3 [(2, 2)]) (some (0, 0)) (some (2, 0))).bind fun p1 =>
  (setGoal a p1 (some (2, 2))).bind fun p2 =>
  (updateMap a p2 (openMap 3 3) (QRect.single (2, 2))).map fun p3 =>
  [p1.report, p2.report, p3.report]

/-- D* behind the contract: a plan on the all-free 3×3 map from (0,0) to (2,2), then
`updateMap` with the all-free 4×4 map and the empty rectangle. What the observer sees
before and after the call of `updateMap`. -/
def DStar.scenarioResize : Option (View × View) :=
  let a := DStar.algorithm 100
  (planOnce a (DStar.initMap (openMap 0 0)) (openMap 3 3) (some (0, 0)) (some (2, 2))).bind fun p1 =>
  (updateMap a p1 (openMap 4 4) { x1 := 0, y1 := 0, x2 := -1, y2 := -1 }).map fun p2 =>
  (p1.observe, p2.observe)

/-- A* behind the contract on the map of width 65537 and height 2 whose blocked cells
are (65535,0), (65535,1) and (65536,1), with start (65536,0) and goal (0,1): the report
after the plan. -/
def AStar.scenarioWideGap : Option (List Pos × String) :=
  (planOnce AStar.algorithm (AStar.initMap (openMap 0 0))
    (mapWith 65537 2 [(65535, 0), (65535, 1), (65536, 1)])
    (some (65536, 0)) (some (0, 1))).map AbstractPlanner.report

/-- D* behind the contract on the 3×3 map whose centre (1,1) is blocked, with start
(0,0) and goal (2,2): the report after the plan. -/
def DStar.scenarioAroundCentre : Option (List Pos × String) :=
  (planOnce (DStar.algorithm 1000) (DStar.initMap (openMap 0 0)) (mapWith 3 3 [(1, 1)])
    (some (0, 0)) (some (2, 2))).map AbstractPlanner.report

/-- Focused D* behind the contract on the 3×2 map with (0,1) blocked: start (1,1) and
goal (0,0) are set, the start moves to (2,1), and then `setGoal` is called with the goal
(0,0) once more. The reports after each of the three invocations. -/
def FocussedDStar.scenarioSameGoal : Option (List (List Pos × String)) :=
  let a := FocussedDStar.algorithm 1000
  let p0 := setMap a (newPlanner (FocussedDStar.fresh false)) (mapWith 3 2 [(0, 1)])
  (setStartGoal a p0 (some (1, 1)) (some (0, 0))).bind fun p1 =>
  (setStart a p1 (some (2, 1))).bind fun p2 =>
  (setGoal a p2 (some (0, 0))).map fun p3 =>
  [p1.report, p2.report, p3.report]

/-- D* Lite behind the contract on the 3×2 map with (1,0) blocked, start (0,1), goal
(0,0); then (1,0) is unblocked, and then the start moves to (2,0). The reports after each
of the three invocations. -/
def DStarLite.scenarioStartMoved : Option (List (List Pos × String)) :=
  let a := DStarLite.algorithm 1000
  let p0 := setMap a (newPlanner DStarLite.fresh) (mapWith 3 2 [(1, 0)])
  (setStartGoal a p0 (some (0, 1)) (some (0, 0))).bind fun p1 =>
  (updateMap a p1 (openMap 3 2) (QRect.single (1, 0))).bind fun p2 =>
  (setStart a p2 (some (2, 0))).map fun p3 =>
  [p1.report, p2.report, p3.report]

/-- D* Lite behind the contract: a new planner object on the all-free 3×2 map with start
(2,0) and goal (0,0): the report after the plan. -/
def DStarLite.scenarioStartFresh : Option (List Pos × String) :=
  (planOnce (DStarLite.algorithm 1000) DStarLite.fresh (openMap 3 2)
    (some (2, 0)) (some (0, 0))).map AbstractPlanner.report

/-- The state inside `calculatePath` of A* on the all-free 4×1 map with start (1,0) and
goal (3,0) after the second extract-min: the number of open list items, the cell in slot
1 and the `openListIndex` of this cell. -/
def AStar.scenarioStaleIndex : List Nat :=
  let p := AStar.initMap (openMap 4 1)
  let s0 := AStar.initialSearch p 1
  let r1 := AStar.popFirst s0
  let s2 := AStar.visitNeighbours 4 1 3 r1.1 r1.2
  let r3 := AStar.popFirst s2
  [r3.2.n, r3.2.openList 1, (r3.2.re (r3.2.openList 1)).openListIndex]

/-- A state whose values stand for what uninitialised memory may hold: the members that
the constructor leaves alone, and arrays in which the cell 0 has `heapIndex` 5 and every
other cell `heapIndex` 3, all with `g_cost` 17 and `rhs` 99, and in which the entries 5,
10 and 11 of the heap array point to the cell 1 and all others to the cell 0. -/
def DStarLite.cluttered : DStarLite.Planner :=
  { width := 7, height := 9, cells := fun _ => DStarLite.rawCell, pGoal := 2, pStart := 1
    pRobot := 4, k_m := 1000, neighborhoods := fun _ => [], openHeap := fun _ => 0
    openListLength := 6
    memory := fun _ =>
      { cells := fun i =>
          { x := 9, y := 9, neighborhoodIndex := 15, blocked := true
            heapIndex := if i = 0 then 5 else 3, g_cost := 17, rhs := 99
            key := { k1 := 3, k2 := 4 } }
        openHeap := fun i => if i = 5 ∨ i = 10 ∨ i = 11 then 1 else 0 } }

/-- D* Lite behind the contract on the all-free 3×1 map, for a planner object whose
uninitialised values are those of `junk`. Start (0,0) and goal (2,0) are set, which
invokes the planner with the mask of a new map, so that the state is re-initialised; the
start moves to (2,0); the cell (2,0) is blocked through `updateMap`; `setGoal` is called
with (1,0); and the start is set to (0,0). The open list after the last invocation (its
length, the cell in slot 1, and `heapIndex`, `g_cost` and `rhs` of the goal cell (1,0)),
and the reports after the five invocations. -/
def DStarLite.scenarioGoalStaysOpen (junk : DStarLite.Planner) :
    Option (List Nat × List (List Pos × String)) :=
  let a := DStarLite.algorithm 1000
  let p0 := setMap a (newPlanner (DStarLite.created junk)) (openMap 3 1)
  (setStartGoal a p0 (some (0, 0)) (some (2, 0))).bind fun p1 =>
  (setStart a p1 (some (2, 0))).bind fun p2 =>
  (updateMap a p2 (mapWith 3 1 [(2, 0)]) (QRect.single (2, 0))).bind fun p3 =>
  (setGoal a p3 (some (1, 0))).bind fun p4 =>
  (setStart a p4 (some (0, 0))).map fun p5 =>
  ([p5.alg.openListLength, p5.alg.openHeap 1, (p5.alg.cells 1).heapIndex,
    (p5.alg.cells 1).g_cost, (p5.alg.cells 1).rhs],
   [p1.report, p2.report, p3.report, p4.report, p5.report])

/-- D* Lite behind the contract, for a planner object whose uninitialised values are
those of `junk`: `setMap` with the all-free 2×1 map, then `updateMap` with the map in
which (0,0) is blocked. Neither start nor goal is set, so the planner is not invoked and
the state is never re-initialised. `openListLength` and the entry 5 of the heap array
before and after the call of `updateMap`. -/
def DStarLite.scenarioStaleHeapIndex (junk : DStarLite.Planner) : Option (List Nat) :=
  let a := DStarLite.algorithm 1000
  let p0 := setMap a (newPlanner (DStarLite.created junk)) (openMap 2 1)
  (updateMap a p0 (mapWith 2 1 [(0, 0)]) (QRect.single (0, 0))).map fun p1 =>
  [p0.alg.openListLength, p0.alg.openHeap 5, p1.alg.openListLength, p1.alg.openHeap 5]

end RasterSim

namespace RasterSim

/-! ### The heuristic of A* -/

/-- The heuristic written out. -/
theorem AStar.heuristic_eq (c goal : Pos) :
    AStar.heuristic c goal = 10 * (|(c.1 : Int) - goal.1| + |(c.2 : Int) - goal.2|) := rfl

/-- The heuristic vanishes at the goal. -/
theorem AStar.heuristic_self (c : Pos) : AStar.heuristic c c = 0 := by
  simp [AStar.heuristic_eq]

/-- One move changes the heuristic by at most the amounts used below. -/
theorem AStar.heuristic_step (c n goal : Pos) (hadj : Adjacent c n) :
    (AStar.heuristic c goal ≤ (stepCost 10 14 c n : Int) + AStar.heuristic n goal + 6) ∧
    ((c.1 = n.1 ∨ c.2 = n.2) →
      AStar.heuristic c goal ≤ (stepCost 10 14 c n : Int) + AStar.heuristic n goal) ∧
    7 * AStar.heuristic c goal ≤ 7 * AStar.heuristic n goal + 10 * (stepCost 10 14 c n : Int) := by
  obtain ⟨hne, h1, h2, h3, h4⟩ := hadj
  have hne' : c.1 ≠ n.1 ∨ c.2 ≠ n.2 := by
    by_contra h
    push_neg at h
    exact hne (Prod.ext h.1 h.2)
  rw [AStar.heuristic_eq, AStar.heuristic_eq]
  rcases abs_cases ((c.1 : Int) - goal.1) with ⟨e1, _⟩ | ⟨e1, _⟩ <;>
  rcases abs_cases ((c.2 : Int) - goal.2) with ⟨e2, _⟩ | ⟨e2, _⟩ <;>
  rcases abs_cases ((n.1 : Int) - goal.1) with ⟨e3, _⟩ | ⟨e3, _⟩ <;>
  rcases abs_cases ((n.2 : Int) - goal.2) with ⟨e4, _⟩ | ⟨e4, _⟩ <;>
  rw [e1, e2, e3, e4] <;>
  unfold stepCost <;>
  split_ifs <;>
  refine ⟨?_, ?_, ?_⟩ <;> omega

/-- Along a chain the heuristic is bounded by 10/7 of the cost. -/
theorem AStar.heuristic_chain (goal : Pos) :
    ∀ (l : List Pos) (c : Pos), l.head? = some c → l.getLast? = some goal → IsChain l →
      7 * AStar.heuristic c goal ≤ 10 * (pathCost 10 14 l : Int)
  | [], c, h, _, _ => by simp at h
  | [a], c, hh, hl, _ => by
    simp at hh hl
    subst hh; subst hl
    simp [AStar.heuristic_self, pathCost]
  | a :: b :: rest, c, hh, hl, hc => by
    simp at hh
    subst hh
    have hl' : (b :: rest).getLast? = some goal := by
      simpa [List.getLast?_cons_cons] using hl
    have ih := AStar.heuristic_chain goal (b :: rest) b rfl hl' hc.2
    have hs := (AStar.heuristic_step a b goal hc.1).2.2
    simp only [pathCost]
    push_cast
    omega

end RasterSim

namespace RasterSim

/-! ## The contract: what holds in every reachable state -/

/-- What holds in every reachable state of a planner object whose algorithm keeps
`AlgInv`: the algorithm state fits the map size, start and goal lie on the map, and a
non-empty path leads from the start to the goal by moves of the 8-connected grid. -/
structure ContractInv {σ : Type} (AlgInv : σ → Nat × Nat → Prop) (p : AbstractPlanner σ) : Prop where
  alg : p.mapSize.1 ≠ 0 ∧ p.mapSize.2 ≠ 0 → AlgInv p.alg p.mapSize
  start : ∀ s, p.start = some s → inMap p.mapSize s = true
  goal : ∀ g, p.goal = some g → inMap p.mapSize g = true
  path : p.path ≠ [] → ∃ s g, p.start = some s ∧ p.goal = some g ∧
    PathOK (s.1.toNat, s.2.toNat) (g.1.toNat, g.2.toNat) p.path

/-- What an algorithm has to provide for `ContractInv`. -/
structure AlgSpec {σ : Type} (a : Algorithm σ) (AlgInv : σ → Nat × Nat → Prop) : Prop where
  initMap : ∀ (st : σ) (m : GridMap), m.width ≤ USHORT → m.height ≤ USHORT →
    m.width ≠ 0 → m.height ≠ 0 → AlgInv (a.initMap st m) (m.width, m.height)
  initMapUpdate : ∀ (st : σ) (m : GridMap) (r : Region), AlgInv st (m.width, m.height) →
    r.right < m.width → r.bottom < m.height →
    AlgInv (a.initMapUpdate st m r) (m.width, m.height)
  calculatePath : ∀ (st : σ) (size : Nat × Nat) (u : Nat) (s g : Pos) (r : PlanResult σ),
    AlgInv st size → s.1 < size.1 → s.2 < size.2 → g.1 < size.1 → g.2 < size.2 →
    a.calculatePath st u s g = some r → AlgInv r.state size ∧ (r.path ≠ [] → PathOK s g r.path)

theorem inMap_iff (size : Nat × Nat) (pos : Int × Int) :
    inMap size pos = true ↔ 0 ≤ pos.1 ∧ pos.1 < (size.1 : Int) ∧ 0 ≤ pos.2 ∧ pos.2 < (size.2 : Int) := by
  simp [inMap]

theorem inMap_toNat (size : Nat × Nat) (pos : Int × Int) (h : inMap size pos = true) :
    pos.1.toNat < size.1 ∧ pos.2.toNat < size.2 := by
  rw [inMap_iff] at h
  omega

theorem contract_callPlanner {σ : Type} {a : Algorithm σ} {AlgInv : σ → Nat × Nat → Prop}
    (ha : AlgSpec a AlgInv) (p p' : AbstractPlanner σ)
    (halg : p.mapSize.1 ≠ 0 ∧ p.mapSize.2 ≠ 0 → AlgInv p.alg p.mapSize)
    (hstart : ∀ s, p.start = some s → inMap p.mapSize s = true)
    (hgoal : ∀ g, p.goal = some g → inMap p.mapSize g = true)
    (hpath : (p.start = none ∨ p.goal = none ∨ p.mapSize.1 = 0 ∨ p.mapSize.2 = 0) →
      p.path ≠ [] → ∃ s g, p.start = some s ∧ p.goal = some g ∧
        PathOK (s.1.toNat, s.2.toNat) (g.1.toNat, g.2.toNat) p.path)
    (hc : callPlanner a p = some p') : ContractInv AlgInv p' := by
  unfold callPlanner at hc
  cases hs : p.start with
  | none =>
    simp only [hs] at hc
    cases hc
    exact ⟨halg, hstart, hgoal, hpath (Or.inl hs)⟩
  | some s =>
    cases hg : p.goal with
    | none =>
      simp only [hs, hg] at hc
      cases hc
      exact ⟨halg, hstart, hgoal, hpath (Or.inr (Or.inl hg))⟩
    | some g =>
      simp only [hs, hg] at hc
      split_ifs at hc with hsz
      · have hsi := inMap_toNat _ _ (hstart s hs)
        have hgi := inMap_toNat _ _ (hgoal g hg)
        cases hr : a.calculatePath p.alg p.accumulatedInputUpdates (s.1.toNat, s.2.toNat)
            (g.1.toNat, g.2.toNat) with
        | none => rw [hr] at hc; cases hc
        | some r =>
          rw [hr] at hc
          simp only [Option.some.injEq] at hc
          subst hc
          obtain ⟨h1, h2⟩ := ha.calculatePath p.alg p.mapSize _ _ _ r (halg hsz) hsi.1 hsi.2 hgi.1 hgi.2 hr
          refine ⟨fun _ => h1, ?_, ?_, fun hne => ⟨s, g, rfl, rfl, h2 hne⟩⟩
          · intro s' hs'
            simp only [Option.some.injEq] at hs'
            subst hs'; exact hstart _ hs
          · intro g' hg'
            simp only [Option.some.injEq] at hg'
            subst hg'; exact hgoal _ hg
      · cases hc
        refine ⟨halg, hstart, hgoal, hpath ?_⟩
        right; right
        by_contra hcon
        push_neg at hcon
        exact hsz hcon

theorem contract_setMap {σ : Type} {a : Algorithm σ} {AlgInv : σ → Nat × Nat → Prop}
    (ha : AlgSpec a AlgInv) (p : AbstractPlanner σ) (m : GridMap) (hw : m.width ≤ USHORT)
    (hh : m.height ≤ USHORT) : ContractInv AlgInv (setMap a p m) := by
  refine ⟨fun hne => ha.initMap p.alg m hw hh hne.1 hne.2, ?_, ?_, ?_⟩
  · intro s hs; simp [setMap] at hs
  · intro g hg; simp [setMap] at hg
  · intro hne; simp [setMap] at hne

theorem contract_setStart {σ : Type} {a : Algorithm σ} {AlgInv : σ → Nat × Nat → Prop}
    (ha : AlgSpec a AlgInv) (p p' : AbstractPlanner σ) (start : Pose)
    (hp : ContractInv AlgInv p) (hc : setStart a p start = some p') : ContractInv AlgInv p' := by
  unfold setStart at hc
  cases start with
  | none =>
    cases hc
    exact ⟨hp.alg, fun s hs => by simp at hs, hp.goal, fun hne => by simp at hne⟩
  | some pos =>
    simp only at hc
    split_ifs at hc with hin
    · refine contract_callPlanner ha
        { p with start := some pos, accumulatedInputUpdates := p.accumulatedInputUpdates ||| UpdatedStart }
        p' hp.alg ?_ hp.goal ?_ hc
      · intro s hs
        simp only [Option.some.injEq] at hs
        subst hs; exact hin
      · intro h
        rcases h with h | h | h | h
        · simp at h
        · intro hne
          obtain ⟨s, g, _, hg, _⟩ := hp.path hne
          simp only at h
          rw [h] at hg; cases hg
        · rw [inMap_iff] at hin; simp only at h; omega
        · rw [inMap_iff] at hin; simp only at h; omega
    · cases hc; exact hp

theorem contract_setGoal {σ : Type} {a : Algorithm σ} {AlgInv : σ → Nat × Nat → Prop}
    (ha : AlgSpec a AlgInv) (p p' : AbstractPlanner σ) (goal : Pose)
    (hp : ContractInv AlgInv p) (hc : setGoal a p goal = some p') : ContractInv AlgInv p' := by
  unfold setGoal at hc
  cases goal with
  | none =>
    cases hc
    exact ⟨hp.alg, hp.start, fun s hs => by simp at hs, fun hne => by simp at hne⟩
  | some pos =>
    simp only at hc
    split_ifs at hc with hin
    · refine contract_callPlanner ha
        { p with goal := some pos, accumulatedInputUpdates := p.accumulatedInputUpdates ||| UpdatedGoal }
        p' hp.alg hp.start ?_ ?_ hc
      · intro s hs
        simp only [Option.some.injEq] at hs
        subst hs; exact hin
      · intro h
        rcases h with h | h | h | h
        · intro hne
          obtain ⟨s, g, hs, _, _⟩ := hp.path hne
          simp only at h
          rw [h] at hs; cases hs
        · simp at h
        · rw [inMap_iff] at hin; simp only at h; omega
        · rw [inMap_iff] at hin; simp only at h; omega
    · cases hc; exact hp

theorem contract_setStartGoal {σ : Type} {a : Algorithm σ} {AlgInv : σ → Nat × Nat → Prop}
    (ha : AlgSpec a AlgInv) (p p' : AbstractPlanner σ) (start goal : Pose)
    (hp : ContractInv AlgInv p) (hc : setStartGoal a p start goal = some p') :
    ContractInv AlgInv p' := by
  unfold setStartGoal at hc
  cases start with
  | none =>
    simp only at hc
    cases h1 : setStart a p none with
    | none => rw [h1] at hc; simp at hc
    | some p1 =>
      rw [h1] at hc
      exact contract_setGoal ha p1 p' goal (contract_setStart ha p p1 none hp h1) hc
  | some s =>
    cases goal with
    | none =>
      simp only at hc
      cases h1 : setGoal a p none with
      | none => rw [h1] at hc; simp at hc
      | some p1 =>
        rw [h1] at hc
        exact contract_setStart ha p1 p' (some s) (contract_setGoal ha p p1 none hp h1) hc
    | some g =>
      simp only at hc
      split_ifs at hc with h1 h2
      · cases hc; exact hp
      · cases hc; exact hp
      · simp only [Bool.not_eq_true, Bool.not_eq_false] at h1 h2
        refine contract_callPlanner ha
          { p with start := some s, goal := some g
                   accumulatedInputUpdates := p.accumulatedInputUpdates ||| (UpdatedStart ||| UpdatedGoal) }
          p' hp.alg ?_ ?_ ?_ hc
        · intro s' hs'
          simp only [Option.some.injEq] at hs'
          subst hs'; simpa using h1
        · intro g' hg'
          simp only [Option.some.injEq] at hg'
          subst hg'; simpa using h2
        · intro h
          have h1' : inMap p.mapSize s = true := by simpa using h1
          rw [inMap_iff] at h1'
          rcases h with h | h | h | h
          · simp at h
          · simp at h
          · simp only at h; omega
          · simp only at h; omega

theorem contract_updateMap {σ : Type} {a : Algorithm σ} {AlgInv : σ → Nat × Nat → Prop}
    (ha : AlgSpec a AlgInv) (p p' : AbstractPlanner σ) (m : GridMap) (r : QRect)
    (hw : m.width ≤ USHORT) (hh : m.height ≤ USHORT)
    (hp : ContractInv AlgInv p) (hc : updateMap a p m r = some p') : ContractInv AlgInv p' := by
  unfold updateMap at hc
  by_cases hsz : (m.width, m.height) = p.mapSize
  · rw [if_pos hsz] at hc
    by_cases hr : r.isEmpty = true ∨ ¬ r.inside m.width m.height = true
    · rw [if_pos hr] at hc
      cases hc; exact hp
    · rw [if_neg hr] at hc
      push_neg at hr
      obtain ⟨he, hi⟩ := hr
      simp only [QRect.isEmpty, Bool.not_eq_true, decide_eq_false_iff_not, decide_eq_true_eq] at he
      simp only [QRect.inside, decide_eq_true_eq] at hi
      have hr2 : r.region.right < m.width ∧ r.region.bottom < m.height := by
        simp only [QRect.region]
        omega
      have hne : m.width ≠ 0 ∧ m.height ≠ 0 := by omega
      refine contract_callPlanner ha
        { p with
          alg := a.initMapUpdate p.alg m r.region
          accumulatedInputUpdates :=
            if p.accumulatedInputUpdates &&& NewMap ≠ 0 then p.accumulatedInputUpdates
            else p.accumulatedInputUpdates ||| UpdatedMap }
        p' ?_ hp.start hp.goal ?_ hc
      · intro _
        show AlgInv (a.initMapUpdate p.alg m r.region) p.mapSize
        rw [← hsz]
        exact ha.initMapUpdate p.alg m r.region (by rw [hsz]; exact hp.alg (by rw [← hsz]; exact hne))
          hr2.1 hr2.2
      · intro h
        rcases h with h | h | h | h
        · intro hne'
          obtain ⟨s, g, hs, _, _⟩ := hp.path hne'
          simp only at h
          rw [h] at hs; cases hs
        · intro hne'
          obtain ⟨s, g, _, hg, _⟩ := hp.path hne'
          simp only at h
          rw [h] at hg; cases hg
        · simp only at h; rw [← hsz] at h; simp only at h; omega
        · simp only at h; rw [← hsz] at h; simp only at h; omega
  · rw [if_neg hsz] at hc
    cases hc
    exact contract_setMap ha p m hw hh

/-- In every reachable state of a planner object the contract invariant holds. -/
theorem contract_reachable {σ : Type} {a : Algorithm σ} {AlgInv : σ → Nat × Nat → Prop}
    (ha : AlgSpec a AlgInv) (init : σ) (p : AbstractPlanner σ) (hp : Reachable a init p) :
    ContractInv AlgInv p := by
  induction hp with
  | new =>
    exact ⟨fun h => absurd rfl h.1, fun s hs => by simp [newPlanner] at hs,
      fun s hs => by simp [newPlanner] at hs, fun hne => by simp [newPlanner] at hne⟩
  | setMap p m _ hw hh _ => exact contract_setMap ha p m hw hh
  | updateMap p p' m r _ hw hh hc ih => exact contract_updateMap ha p p' m r hw hh ih hc
  | setStart p p' s _ hc ih => exact contract_setStart ha p p' s ih hc
  | setGoal p p' g _ hc ih => exact contract_setGoal ha p p' g ih hc
  | setStartGoal p p' s g _ hc ih => exact contract_setStartGoal ha p p' s g ih hc

end RasterSim

namespace RasterSim

/-! ## More invariants of the states behind the contract -/

/-- A second invariant of the states of an algorithm, kept with the help of the first
one, can be added to what `AlgSpec` provides. -/
theorem algSpec_and {σ : Type} {a : Algorithm σ} {I J : σ → Nat × Nat → Prop} (ha : AlgSpec a I)
    (h1 : ∀ (st : σ) (m : GridMap), m.width ≤ USHORT → m.height ≤ USHORT →
      m.width ≠ 0 → m.height ≠ 0 → J (a.initMap st m) (m.width, m.height))
    (h2 : ∀ (st : σ) (m : GridMap) (r : Region), I st (m.width, m.height) →
      J st (m.width, m.height) → r.right < m.width → r.bottom < m.height →
      J (a.initMapUpdate st m r) (m.width, m.height))
    (h3 : ∀ (st : σ) (size : Nat × Nat) (u : Nat) (s g : Pos) (r : PlanResult σ),
      I st size → J st size → s.1 < size.1 → s.2 < size.2 → g.1 < size.1 → g.2 < size.2 →
      a.calculatePath st u s g = some r → J r.state size) :
    AlgSpec a (fun st size => I st size ∧ J st size) := by
  refine ⟨fun st m hw hh w0 h0 => ⟨ha.initMap st m hw hh w0 h0, h1 st m hw hh w0 h0⟩,
    fun st m r hi hr hb => ⟨ha.initMapUpdate st m r hi.1 hr hb, h2 st m r hi.1 hi.2 hr hb⟩,
    fun st size u s g r hi s1 s2 g1 g2 hc => ?_⟩
  obtain ⟨r1, r2⟩ := ha.calculatePath st size u s g r hi.1 s1 s2 g1 g2 hc
  exact ⟨⟨r1, h3 st size u s g r hi.1 hi.2 s1 s2 g1 g2 hc⟩, r2⟩

/-- `callPlanner` leaves the map size alone, and the state of the algorithm too when the
map is empty. -/
theorem callPlanner_empty {σ : Type} (a : Algorithm σ) (p p' : AbstractPlanner σ)
    (hc : callPlanner a p = some p') :
    p'.mapSize = p.mapSize ∧ ((p.mapSize.1 = 0 ∨ p.mapSize.2 = 0) → p'.alg = p.alg) := by
  unfold callPlanner at hc
  cases hs : p.start with
  | none =>
    simp only [hs] at hc
    cases hc
    exact ⟨rfl, fun _ => rfl⟩
  | some s =>
    cases hg : p.goal with
    | none =>
      simp only [hs, hg] at hc
      cases hc
      exact ⟨rfl, fun _ => rfl⟩
    | some g =>
      simp only [hs, hg] at hc
      by_cases hne : p.mapSize.1 ≠ 0 ∧ p.mapSize.2 ≠ 0
      · rw [if_pos hne] at hc
        cases hr : a.calculatePath p.alg p.accumulatedInputUpdates (s.1.toNat, s.2.toNat)
            (g.1.toNat, g.2.toNat) with
        | none => rw [hr] at hc; cases hc
        | some r =>
          rw [hr] at hc
          simp only [Option.some.injEq] at hc
          subst hc
          exact ⟨rfl, fun hz => by omega⟩
      · rw [if_neg hne] at hc
        cases hc
        exact ⟨rfl, fun _ => rfl⟩

theorem inMap_nonempty (size : Nat × Nat) (pos : Int × Int) (h : inMap size pos = true) :
    size.1 ≠ 0 ∧ size.2 ≠ 0 := by
  obtain ⟨h1, h2, h3, h4⟩ := (inMap_iff size pos).1 h
  omega

theorem setStart_empty {σ : Type} (a : Algorithm σ) (p p' : AbstractPlanner σ) (start : Pose)
    (hc : setStart a p start = some p') :
    p'.mapSize = p.mapSize ∧ ((p.mapSize.1 = 0 ∨ p.mapSize.2 = 0) → p'.alg = p.alg) := by
  unfold setStart at hc
  cases start with
  | none =>
    cases hc
    exact ⟨rfl, fun _ => rfl⟩
  | some pos =>
    simp only at hc
    split_ifs at hc with hin
    · have := callPlanner_empty a _ p' hc
      exact this
    · cases hc
      exact ⟨rfl, fun _ => rfl⟩

theorem setGoal_empty {σ : Type} (a : Algorithm σ) (p p' : AbstractPlanner σ) (goal : Pose)
    (hc : setGoal a p goal = some p') :
    p'.mapSize = p.mapSize ∧ ((p.mapSize.1 = 0 ∨ p.mapSize.2 = 0) → p'.alg = p.alg) := by
  unfold setGoal at hc
  cases goal with
  | none =>
    cases hc
    exact ⟨rfl, fun _ => rfl⟩
  | some pos =>
    simp only at hc
    split_ifs at hc with hin
    · have := callPlanner_empty a _ p' hc
      exact this
    · cases hc
      exact ⟨rfl, fun _ => rfl⟩

theorem setStartGoal_empty {σ : Type} (a : Algorithm σ) (p p' : AbstractPlanner σ)
    (start goal : Pose) (hc : setStartGoal a p start goal = some p') :
    p'.mapSize = p.mapSize ∧ ((p.mapSize.1 = 0 ∨ p.mapSize.2 = 0) → p'.alg = p.alg) := by
  unfold setStartGoal at hc
  cases start with
  | none =>
    simp only at hc
    cases h1 : setStart a p none with
    | none => rw [h1] at hc; simp at hc
    | some p1 =>
      rw [h1] at hc
      obtain ⟨a1, a2⟩ := setStart_empty a p p1 none h1
      obtain ⟨b1, b2⟩ := setGoal_empty a p1 p' goal hc
      exact ⟨b1.trans a1, fun hz => (b2 (by rw [a1]; exact hz)).trans (a2 hz)⟩
  | some s =>
    cases goal with
    | none =>
      simp only at hc
      cases h1 : setGoal a p none with
      | none => rw [h1] at hc; simp at hc
      | some p1 =>
        rw [h1] at hc
        obtain ⟨a1, a2⟩ := setGoal_empty a p p1 none h1
        obtain ⟨b1, b2⟩ := setStart_empty a p1 p' (some s) hc
        exact ⟨b1.trans a1, fun hz => (b2 (by rw [a1]; exact hz)).trans (a2 hz)⟩
    | some g =>
      simp only at hc
      split_ifs at hc with h1 h2
      · cases hc
        exact ⟨rfl, fun _ => rfl⟩
      · cases hc
        exact ⟨rfl, fun _ => rfl⟩
      · have := callPlanner_empty a _ p' hc
        exact this

/-- A property of the initial state of the algorithm and of the states `initMap` leaves
for an empty map holds for every state of a planner object with an empty map: nothing
else runs on such a map. -/
theorem reachable_empty {σ : Type} {a : Algorithm σ} {init : σ} (P : σ → Prop) (h0 : P init)
    (hm : ∀ (st : σ) (m : GridMap), (m.width = 0 ∨ m.height = 0) → P (a.initMap st m))
    (p : AbstractPlanner σ) (hp : Reachable a init p) :
    (p.mapSize.1 = 0 ∨ p.mapSize.2 = 0) → P p.alg := by
  induction hp with
  | new => exact fun _ => h0
  | setMap p m _ hw hh _ => exact fun hz => hm p.alg m hz
  | updateMap p p' m r _ hw hh hc ih =>
    intro hz
    unfold updateMap at hc
    by_cases hsz : (m.width, m.height) = p.mapSize
    · rw [if_pos hsz] at hc
      by_cases hr : r.isEmpty = true ∨ ¬ r.inside m.width m.height = true
      · rw [if_pos hr] at hc
        cases hc
        exact ih hz
      · rw [if_neg hr] at hc
        push_neg at hr
        obtain ⟨he, hi⟩ := hr
        simp only [QRect.isEmpty, Bool.not_eq_true, decide_eq_false_iff_not,
          decide_eq_true_eq] at he
        simp only [QRect.inside, decide_eq_true_eq] at hi
        have hne : m.width ≠ 0 ∧ m.height ≠ 0 := by omega
        obtain ⟨a1, _⟩ := callPlanner_empty a _ p' hc
        exfalso
        rw [a1] at hz
        have e1 : p.mapSize.1 = m.width := by rw [← hsz]
        have e2 : p.mapSize.2 = m.height := by rw [← hsz]
        simp only at hz
        omega
    · rw [if_neg hsz] at hc
      cases hc
      exact hm p.alg m hz
  | setStart p p' s _ hc ih =>
    intro hz
    obtain ⟨a1, a2⟩ := setStart_empty a p p' s hc
    rw [a1] at hz
    rw [a2 hz]
    exact ih hz
  | setGoal p p' g _ hc ih =>
    intro hz
    obtain ⟨a1, a2⟩ := setGoal_empty a p p' g hc
    rw [a1] at hz
    rw [a2 hz]
    exact ih hz
  | setStartGoal p p' s g _ hc ih =>
    intro hz
    obtain ⟨a1, a2⟩ := setStartGoal_empty a p p' s g hc
    rw [a1] at hz
    rw [a2 hz]
    exact ih hz

/-- What follows from an invariant that `AlgSpec` provides, and holds for the initial
state and the states `initMap` leaves for empty maps, holds in every state of a planner
object. -/
theorem reachable_inv {σ : Type} {a : Algorithm σ} {I : σ → Nat × Nat → Prop} {init : σ}
    (ha : AlgSpec a I) (P : σ → Nat × Nat → Prop) (hI : ∀ st size, I st size → P st size)
    (hm : ∀ (st : σ) (m : GridMap), (m.width = 0 ∨ m.height = 0) →
      ∀ size : Nat × Nat, (size.1 = 0 ∨ size.2 = 0) → P (a.initMap st m) size)
    (hz : ∀ size : Nat × Nat, (size.1 = 0 ∨ size.2 = 0) → P init size)
    (p : AbstractPlanner σ) (hp : Reachable a init p) : P p.alg p.mapSize := by
  by_cases hne : p.mapSize.1 ≠ 0 ∧ p.mapSize.2 ≠ 0
  · exact hI _ _ ((contract_reachable ha init p hp).alg hne)
  · have hzero : p.mapSize.1 = 0 ∨ p.mapSize.2 = 0 := by omega
    exact reachable_empty (fun st => ∀ size : Nat × Nat, (size.1 = 0 ∨ size.2 = 0) → P st size)
      hz (fun st m hmz => hm st m hmz) p hp hzero p.mapSize hzero

end RasterSim

namespace RasterSim

/-! ## A*: the path that is set is a path of free cells -/

/-! ### Arrays as functions -/

@[simp] theorem upd_same {α : Type} (a : Nat → α) (i : Nat) (v : α) : upd a i v i = v := by
  simp [upd]

theorem upd_other {α : Type} (a : Nat → α) (i j : Nat) (v : α) (h : j ≠ i) : upd a i v j = a j := by
  simp [upd, h]

theorem upd_apply {α : Type} (a : Nat → α) (i j : Nat) (v : α) :
    upd a i v j = if j = i then v else a j := rfl

namespace AStar

open ListType

/-- The cells of the state agree with the map: cell `i` carries the coordinates of its
index, and it is unwalkable exactly when its pixel is set. -/
def RepCells (m : GridMap) (re : Nat → RasterElement) : Prop :=
  ∀ i, i < m.width * m.height →
    (re i).x = i % m.width ∧ (re i).y = i / m.width ∧
    ((re i).list = List_Unwalkable ↔ m.pixel (i % m.width) (i / m.width) > 0)

/-- The cell is on the open or on the closed list. -/
def Touched (re : Nat → RasterElement) (c : Nat) : Prop :=
  (re c).list = List_Open ∨ (re c).list = List_Closed

/-- Two states differ by heap moves only: the same `numberOfOpenListItems`, the same
cells up to `openListIndex`, which is unchanged or a slot up to `hw`, and in the
slots up to `hw` only cells that were in such a slot before. -/
def HeapRel (hw : Nat) (s s' : Search) : Prop :=
  s'.n = s.n ∧
  (∀ c, (s'.re c).parent = (s.re c).parent ∧ (s'.re c).g_cost = (s.re c).g_cost ∧
    (s'.re c).f_cost = (s.re c).f_cost ∧ (s'.re c).list = (s.re c).list ∧
    (s'.re c).x = (s.re c).x ∧ (s'.re c).y = (s.re c).y ∧
    ((s'.re c).openListIndex = (s.re c).openListIndex ∨
      (1 ≤ (s'.re c).openListIndex ∧ (s'.re c).openListIndex ≤ hw))) ∧
  (∀ i, 1 ≤ i → i ≤ hw → ∃ j, 1 ≤ j ∧ j ≤ hw ∧ s'.openList i = s.openList j)

theorem heapRel_refl (hw : Nat) (s : Search) : HeapRel hw s s :=
  ⟨rfl, fun _ => ⟨rfl, rfl, rfl, rfl, rfl, rfl, Or.inl rfl⟩, fun i h1 h2 => ⟨i, h1, h2, rfl⟩⟩

theorem heapRel_trans {hw : Nat} {s1 s2 s3 : Search} (h12 : HeapRel hw s1 s2)
    (h23 : HeapRel hw s2 s3) : HeapRel hw s1 s3 := by
  obtain ⟨n12, c12, o12⟩ := h12
  obtain ⟨n23, c23, o23⟩ := h23
  refine ⟨n23.trans n12, fun c => ?_, fun i h1 h2 => ?_⟩
  · obtain ⟨a1, a2, a3, a4, a5, a6, a7⟩ := c12 c
    obtain ⟨b1, b2, b3, b4, b5, b6, b7⟩ := c23 c
    refine ⟨b1.trans a1, b2.trans a2, b3.trans a3, b4.trans a4, b5.trans a5, b6.trans a6, ?_⟩
    rcases b7 with b7 | b7
    · rw [b7]; exact a7
    · exact Or.inr b7
  · obtain ⟨j, j1, j2, hj⟩ := o23 i h1 h2
    obtain ⟨k, k1, k2, hk⟩ := o12 j j1 j2
    exact ⟨k, k1, k2, hj.trans hk⟩

theorem swapSlots_rel (hw : Nat) (s : Search) (u v : Nat) (hu1 : 1 ≤ u) (hu : u ≤ hw)
    (hv1 : 1 ≤ v) (hv : v ≤ hw) : HeapRel hw s (swapSlots s u v) := by
  refine ⟨rfl, fun c => ?_, fun i h1 h2 => ?_⟩
  · simp only [swapSlots, upd_apply]
    split_ifs <;> simp_all
  · simp only [swapSlots, upd_apply]
    split_ifs with h3 h4
    · exact ⟨u, hu1, hu, rfl⟩
    · exact ⟨v, hv1, hv, rfl⟩
    · exact ⟨i, h1, h2, rfl⟩

theorem sinkTarget_cases (s : Search) (v : Nat) :
    sinkTarget s v = v ∨ (sinkTarget s v = 2 * v ∧ 2 * v ≤ s.n) ∨
      (sinkTarget s v = 2 * v + 1 ∧ 2 * v + 1 ≤ s.n) := by
  unfold sinkTarget
  simp only
  split_ifs <;> simp_all <;> omega

theorem sinkLoop_rel (hw : Nat) : ∀ (fuel : Nat) (s : Search) (v : Nat), 1 ≤ v → v ≤ hw → s.n ≤ hw →
    HeapRel hw s (sinkLoop fuel s v)
  | 0, s, _, _, _, _ => heapRel_refl hw s
  | fuel + 1, s, v, h1, h2, hn => by
    simp only [sinkLoop]
    split_ifs with h
    · have ht := sinkTarget_cases s v
      have h1' : 1 ≤ sinkTarget s v := by omega
      have h2' : sinkTarget s v ≤ hw := by omega
      have hs := swapSlots_rel hw s v (sinkTarget s v) h1 h2 h1' h2'
      exact heapRel_trans hs (sinkLoop_rel hw fuel _ _ h1' h2' (by rw [hs.1]; exact hn))
    · exact heapRel_refl hw s

theorem bubbleUpLe_rel (hw : Nat) : ∀ (fuel : Nat) (s : Search) (m : Nat), 1 ≤ m → m ≤ hw →
    HeapRel hw s (bubbleUpLe fuel s m)
  | 0, s, _, _, _ => heapRel_refl hw s
  | fuel + 1, s, m, h1, h2 => by
    simp only [bubbleUpLe]
    split_ifs with h h'
    · have hm : 1 ≤ m / 2 := by omega
      have hm2 : m / 2 ≤ hw := by omega
      exact heapRel_trans (swapSlots_rel hw s (m / 2) m hm hm2 h1 h2) (bubbleUpLe_rel hw fuel _ _ hm hm2)
    · exact heapRel_refl hw s
    · exact heapRel_refl hw s

theorem bubbleUpLt_rel (hw : Nat) : ∀ (fuel : Nat) (s : Search) (m : Nat), 1 ≤ m → m ≤ hw →
    HeapRel hw s (bubbleUpLt fuel s m)
  | 0, s, _, _, _ => heapRel_refl hw s
  | fuel + 1, s, m, h1, h2 => by
    simp only [bubbleUpLt]
    split_ifs with h h'
    · have hm : 1 ≤ m / 2 := by omega
      have hm2 : m / 2 ≤ hw := by omega
      exact heapRel_trans (swapSlots_rel hw s (m / 2) m hm hm2 h1 h2) (bubbleUpLt_rel hw fuel _ _ hm hm2)
    · exact heapRel_refl hw s
    · exact heapRel_refl hw s

end AStar

/-- The position of the cell with index `i` on a map of width `w`. -/
def posOf (w i : Nat) : Pos := (i % w, i / w)

theorem isChain_append_one : ∀ (l : List Pos) (a b : Pos), IsChain l → l.getLast? = some a →
    Adjacent a b → IsChain (l ++ [b])
  | [], _, _, _, h, _ => by simp at h
  | [x], a, b, _, h, hab => by
    simp at h
    subst h
    exact ⟨hab, trivial⟩
  | x :: y :: rest, a, b, hc, h, hab => by
    have h' : (y :: rest).getLast? = some a := by simpa [List.getLast?_cons_cons] using h
    exact ⟨hc.1, isChain_append_one (y :: rest) a b hc.2 h' hab⟩

namespace AStar

open ListType

/-- The invariant of the main loop of `calculatePath` after the first cell has been
taken off the open list. `hw` is the highest heap slot used so far, `t` the number of
rounds so far and `rank c` the round in which `c` was closed. -/
structure Inv (m : GridMap) (pStart hw t : Nat) (rank : Nat → Nat) (s : Search) : Prop where
  rep : RepCells m s.re
  n_le : s.n ≤ hw
  slots : ∀ i, 1 ≤ i → i ≤ hw →
    s.openList i < m.width * m.height ∧ Touched s.re (s.openList i)
  idx : ∀ c, c < m.width * m.height → (s.re c).list = List_Open →
    1 ≤ (s.re c).openListIndex ∧ (s.re c).openListIndex ≤ hw
  start : (s.re pStart).list = List_Closed ∧ pStart < m.width * m.height
  parent : ∀ c, c < m.width * m.height → Touched s.re c → c ≠ pStart →
    (s.re c).parent < m.width * m.height ∧ (s.re (s.re c).parent).list = List_Closed ∧
      Adjacent (posOf m.width (s.re c).parent) (posOf m.width c)
  rank : ∀ c, c < m.width * m.height → (s.re c).list = List_Closed →
    rank c < t ∧ (c ≠ pStart → rank (s.re c).parent < rank c)

theorem repCells_of_heapRel {m : GridMap} {hw : Nat} {s s' : Search} (h : RepCells m s.re)
    (hr : HeapRel hw s s') : RepCells m s'.re := by
  intro i hi
  obtain ⟨_, _, _, hl, hx, hy, _⟩ := hr.2.1 i
  rw [hl, hx, hy]
  exact h i hi

theorem touched_of_heapRel {hw : Nat} {s s' : Search} (hr : HeapRel hw s s') (c : Nat) :
    Touched s'.re c ↔ Touched s.re c := by
  unfold Touched
  rw [(hr.2.1 c).2.2.2.1]

theorem inv_of_heapRel {m : GridMap} {pStart hw t : Nat} {rank : Nat → Nat} {s s' : Search}
    (h : Inv m pStart hw t rank s) (hr : HeapRel hw s s') : Inv m pStart hw t rank s' := by
  refine ⟨repCells_of_heapRel h.rep hr, by rw [hr.1]; exact h.n_le, ?_, ?_, ?_, ?_, ?_⟩
  · intro i h1 h2
    obtain ⟨j, j1, j2, hj⟩ := hr.2.2 i h1 h2
    rw [hj, touched_of_heapRel hr]
    exact h.slots j j1 j2
  · intro c hcN hc
    obtain ⟨_, _, _, hl, _, _, hi⟩ := hr.2.1 c
    rw [hl] at hc
    rcases hi with hi | hi
    · rw [hi]; exact h.idx c hcN hc
    · exact hi
  · rw [(hr.2.1 pStart).2.2.2.1]; exact h.start
  · intro c hc ht hne
    rw [touched_of_heapRel hr] at ht
    obtain ⟨p1, p2, p3⟩ := h.parent c hc ht hne
    rw [(hr.2.1 c).1, (hr.2.1 _).2.2.2.1]
    exact ⟨p1, p2, p3⟩
  · intro c hc hcl
    rw [(hr.2.1 c).2.2.2.1] at hcl
    rw [(hr.2.1 c).1]
    exact h.rank c hc hcl

end AStar

namespace AStar

open ListType

/-- Closing a touched cell keeps the invariant. -/
theorem inv_close {m : GridMap} {pStart hw t : Nat} {rank : Nat → Nat} {s : Search}
    (h : Inv m pStart hw t rank s) (c : Nat) (hc : c < m.width * m.height)
    (htc : Touched s.re c) (n' : Nat) (hn' : n' ≤ hw) :
    ∃ rank', Inv m pStart hw (t + 1) rank'
      { re := upd s.re c { s.re c with list := List_Closed }, openList := s.openList, n := n' } := by
  refine ⟨if (s.re c).list = List_Open then upd rank c t else rank, ?_⟩
  have hlist : ∀ j, ((upd s.re c { s.re c with list := List_Closed }) j).list =
      if j = c then List_Closed else (s.re j).list := by
    intro j; simp only [upd_apply]; split_ifs <;> rfl
  have hpar : ∀ j, ((upd s.re c { s.re c with list := List_Closed }) j).parent = (s.re j).parent := by
    intro j; simp only [upd_apply]; split_ifs with hj
    · subst hj; rfl
    · rfl
  have hidx : ∀ j, ((upd s.re c { s.re c with list := List_Closed }) j).openListIndex =
      (s.re j).openListIndex := by
    intro j; simp only [upd_apply]; split_ifs with hj
    · subst hj; rfl
    · rfl
  have hx : ∀ j, ((upd s.re c { s.re c with list := List_Closed }) j).x = (s.re j).x := by
    intro j; simp only [upd_apply]; split_ifs with hj
    · subst hj; rfl
    · rfl
  have hy : ∀ j, ((upd s.re c { s.re c with list := List_Closed }) j).y = (s.re j).y := by
    intro j; simp only [upd_apply]; split_ifs with hj
    · subst hj; rfl
    · rfl
  have htouch : ∀ j, Touched s.re j → Touched (upd s.re c { s.re c with list := List_Closed }) j := by
    intro j hj
    unfold Touched
    rw [hlist]
    split_ifs
    · exact Or.inr rfl
    · exact hj
  have htouch' : ∀ j, Touched (upd s.re c { s.re c with list := List_Closed }) j → Touched s.re j := by
    intro j hj
    unfold Touched at hj
    rw [hlist] at hj
    split_ifs at hj with hjc
    · subst hjc; exact htc
    · exact hj
  have hclosed : ∀ j, (s.re j).list = List_Closed →
      ((upd s.re c { s.re c with list := List_Closed }) j).list = List_Closed := by
    intro j hj
    rw [hlist]; split_ifs
    · rfl
    · exact hj
  refine ⟨?_, hn', ?_, ?_, ?_, ?_, ?_⟩
  · intro i hi
    rw [hx, hy, hlist]
    obtain ⟨r1, r2, r3⟩ := h.rep i hi
    refine ⟨r1, r2, ?_⟩
    split_ifs with hic
    · subst hic
      constructor
      · intro hh; cases hh
      · intro hp
        have := r3.2 hp
        rcases htc with h1 | h1 <;> rw [h1] at this <;> cases this
    · exact r3
  · intro i h1 h2
    exact ⟨(h.slots i h1 h2).1, htouch _ (h.slots i h1 h2).2⟩
  · intro j hjN hj
    rw [hlist] at hj
    rw [hidx]
    split_ifs at hj with hjc
    exact h.idx j hjN hj
  · exact ⟨hclosed _ h.start.1, h.start.2⟩
  · intro j hj htj hne
    obtain ⟨p1, p2, p3⟩ := h.parent j hj (htouch' j htj) hne
    rw [hpar]
    exact ⟨p1, hclosed _ p2, p3⟩
  · intro j hj hcl
    rw [hlist] at hcl
    rw [hpar]
    by_cases hopen : (s.re c).list = List_Open
    · simp only [hopen, if_true]
      by_cases hjc : j = c
      · subst hjc
        simp only [upd_same]
        refine ⟨by omega, fun hne => ?_⟩
        obtain ⟨p1, p2, p3⟩ := h.parent j hj htc hne
        have hpne : (s.re j).parent ≠ j := by
          intro he; rw [he, hopen] at p2; cases p2
        rw [upd_other _ _ _ _ hpne]
        exact (h.rank _ p1 p2).1
      · rw [if_neg hjc] at hcl
        rw [upd_other _ _ _ _ hjc]
        obtain ⟨r1, r2⟩ := h.rank j hj hcl
        refine ⟨by omega, fun hne => ?_⟩
        obtain ⟨p1, p2, p3⟩ := h.parent j hj (Or.inr hcl) hne
        have hpne : (s.re j).parent ≠ c := by
          intro he; rw [he, hopen] at p2; cases p2
        rw [upd_other _ _ _ _ hpne]
        exact r2 hne
    · simp only [hopen, if_false]
      have hcl' : (s.re j).list = List_Closed := by
        split_ifs at hcl with hjc
        · subst hjc
          rcases htc with h1 | h1
          · exact absurd h1 hopen
          · exact h1
        · exact hcl
      obtain ⟨r1, r2⟩ := h.rank j hj hcl'
      exact ⟨by omega, r2⟩

/-- Taking the first cell off the open list keeps the invariant; the cell taken is a
closed cell of the map afterwards. -/
theorem inv_popFirst {m : GridMap} {pStart hw t : Nat} {rank : Nat → Nat} {s : Search}
    (h : Inv m pStart hw t rank s) (hn : s.n ≠ 0) :
    ∃ rank', Inv m pStart hw (t + 1) rank' (popFirst s).2 ∧
      (popFirst s).1 < m.width * m.height ∧
      ((popFirst s).2.re (popFirst s).1).list = List_Closed ∧
      (popFirst s).2.n + 1 = s.n := by
  have hhw : 1 ≤ hw := by have := h.n_le; omega
  obtain ⟨hlt, htc⟩ := h.slots 1 (le_refl 1) hhw
  obtain ⟨rank', hI⟩ := inv_close h (s.openList 1) hlt htc (s.n - 1) (by have := h.n_le; omega)
  refine ⟨rank', ?_⟩
  unfold AStar.popFirst
  simp only
  split_ifs with hn1
  · set s1 : Search :=
      { re := upd s.re (s.openList 1) { s.re (s.openList 1) with list := List_Closed }
        openList := s.openList, n := s.n - 1 } with hs1
    set s2 : Search := { s1 with openList := upd s1.openList 1 (s1.openList (s.n - 1 + 1)) } with hs2
    have hI2 : Inv m pStart hw (t + 1) rank' s2 := by
      refine ⟨hI.rep, hI.n_le, ?_, hI.idx, hI.start, hI.parent, hI.rank⟩
      intro i h1 h2
      simp only [hs2, upd_apply]
      split_ifs
      · exact hI.slots _ (by omega) (by have := h.n_le; omega)
      · exact hI.slots i h1 h2
    have hr := sinkLoop_rel hw (s.n - 1 + 1) s2 1 (le_refl 1) hhw hI2.n_le
    refine ⟨inv_of_heapRel hI2 hr, hlt, ?_, ?_⟩
    · rw [(hr.2.1 _).2.2.2.1]
      simp [hs2, hs1]
    · rw [hr.1]
      simp only [hs2, hs1]
      omega
  · refine ⟨hI, hlt, by simp, ?_⟩
    simp only
    omega

end AStar

/-- Index arithmetic of a move on the grid: from the cell `p` of a map of width `w`
the offset `dy * w + dx` leads to the cell at the position moved by `(dx, dy)`. -/
theorem index_move (w p : Nat) (dx dy : Int) (hx0 : 0 ≤ ((p % w : Nat) : Int) + dx)
    (hx1 : ((p % w : Nat) : Int) + dx < w) (hy0 : 0 ≤ ((p / w : Nat) : Int) + dy) :
    ((((p : Int) + (dy * w + dx)).toNat % w : Nat) : Int) = ((p % w : Nat) : Int) + dx ∧
    ((((p : Int) + (dy * w + dx)).toNat / w : Nat) : Int) = ((p / w : Nat) : Int) + dy ∧
    0 ≤ (p : Int) + (dy * w + dx) := by
  have hw : 0 < w := by
    rcases Nat.eq_zero_or_pos w with h | h
    · subst h; simp at hx1 hx0; omega
    · exact h
  obtain ⟨a, ha⟩ := Int.eq_ofNat_of_zero_le hx0
  obtain ⟨b, hb⟩ := Int.eq_ofNat_of_zero_le hy0
  have hp : (p : Int) = ((p / w : Nat) : Int) * w + ((p % w : Nat) : Int) := by
    have := Nat.div_add_mod p w
    have h2 : (p : Int) = ((w * (p / w) + p % w : Nat) : Int) := by rw [this]
    rw [h2]; push_cast; ring
  have he : (p : Int) + (dy * w + dx) = ((b * w + a : Nat) : Int) := by
    push_cast
    rw [← ha, ← hb]
    linear_combination hp
  have ha' : a < w := by
    have : (a : Int) < w := by rw [← ha]; exact hx1
    exact_mod_cast this
  rw [he, Int.toNat_ofNat]
  refine ⟨?_, ?_, ?_⟩
  · rw [ha]
    congr 1
    rw [Nat.add_comm, Nat.add_mul_mod_self_right, Nat.mod_eq_of_lt ha']
  · rw [hb]
    congr 1
    rw [Nat.add_comm, Nat.add_mul_div_right _ _ hw, Nat.div_eq_of_lt ha', Nat.zero_add]
  · exact Int.ofNat_nonneg _

namespace AStar

open ListType

theorem offsets_eq (w : Int) (ni : Nat) (hni : ni < 8) :
    neighbourhood_offsets w ni = neighbourhood_dy ni * w + neighbourhood_dx ni := by
  interval_cases ni <;> simp [neighbourhood_offsets, neighbourhood_dy, neighbourhood_dx] <;> ring

theorem dx_dy_range (ni : Nat) (hni : ni < 8) :
    (-1 ≤ neighbourhood_dx ni ∧ neighbourhood_dx ni ≤ 1) ∧
    (-1 ≤ neighbourhood_dy ni ∧ neighbourhood_dy ni ≤ 1) ∧
    (neighbourhood_dx ni ≠ 0 ∨ neighbourhood_dy ni ≠ 0) := by
  interval_cases ni <;> simp [neighbourhood_dy, neighbourhood_dx]

/-- The cell reached from `p` in direction `ni` when the coordinate test of line 195
passes: a cell of the map adjacent to `p`. -/
theorem neighbour_facts (w h p ni : Nat) (hni : ni < 8)
    (hx0 : 0 ≤ ((p % w : Nat) : Int) + neighbourhood_dx ni)
    (hx1 : ((p % w : Nat) : Int) + neighbourhood_dx ni < w)
    (hy0 : 0 ≤ ((p / w : Nat) : Int) + neighbourhood_dy ni)
    (hy1 : ((p / w : Nat) : Int) + neighbourhood_dy ni < h) :
    ((p : Int) + neighbourhood_offsets w ni).toNat < w * h ∧
    Adjacent (posOf w p) (posOf w ((p : Int) + neighbourhood_offsets w ni).toNat) := by
  rw [offsets_eq w ni hni]
  obtain ⟨e1, e2, _⟩ := index_move w p (neighbourhood_dx ni) (neighbourhood_dy ni) hx0 hx1 hy0
  obtain ⟨⟨a1, a2⟩, ⟨b1, b2⟩, hne⟩ := dx_dy_range ni hni
  set q := ((p : Int) + (neighbourhood_dy ni * w + neighbourhood_dx ni)).toNat with hq
  have hw : 0 < w := by
    rcases Nat.eq_zero_or_pos w with h0 | h0
    · subst h0; simp at hx1 hx0; omega
    · exact h0
  constructor
  · have : q / w < h := by
      have : ((q / w : Nat) : Int) < h := by rw [e2]; exact hy1
      exact_mod_cast this
    exact (Nat.div_lt_iff_lt_mul hw).1 this |>.trans_le (by rw [Nat.mul_comm])
  · unfold Adjacent posOf
    simp only
    refine ⟨?_, ?_, ?_, ?_, ?_⟩
    · intro he
      have h1 := congrArg Prod.fst he
      have h2 := congrArg Prod.snd he
      simp only at h1 h2
      rw [← h1] at e1
      rw [← h2] at e2
      rcases hne with hne | hne
      · omega
      · omega
    all_goals omega

end AStar

namespace AStar

open ListType

/-- Putting a fresh neighbour on the open list keeps the invariant. -/
theorem inv_openNeighbour {m : GridMap} {pStart hw t : Nat} {rank : Nat → Nat} {s : Search}
    (h : Inv m pStart hw t rank s) (pRE pN pGoal ni : Nat)
    (hp : pRE < m.width * m.height) (hcl : (s.re pRE).list = List_Closed)
    (hN : pN < m.width * m.height) (hnone : (s.re pN).list = List_None)
    (hadj : Adjacent (posOf m.width pRE) (posOf m.width pN)) :
    ∃ hw', Inv m pStart hw' t rank (openNeighbour s pRE pN pGoal ni) ∧
      ((openNeighbour s pRE pN pGoal ni).re pRE).list = List_Closed ∧
      (openNeighbour s pRE pN pGoal ni).n = s.n + 1 ∧
      (∀ c, ((openNeighbour s pRE pN pGoal ni).re c).list =
        if c = pN then List_Open else (s.re c).list) := by
  set hw' := max hw (s.n + 1) with hhw'
  have hne : pRE ≠ pN := by
    intro he; rw [he, hnone] at hcl; cases hcl
  set re1 := upd s.re pN { s.re pN with
    openListIndex := s.n + 1
    g_cost := (s.re pRE).g_cost + moveCost ni
    f_cost := (s.re pRE).g_cost + moveCost ni + h_cost (s.re pN) (s.re pGoal)
    parent := pRE } with hre1
  set sA : Search := { re := re1, openList := upd s.openList (s.n + 1) pN, n := s.n } with hsA
  have hr : HeapRel hw' sA (bubbleUpLe (s.n + 1) sA (s.n + 1)) :=
    bubbleUpLe_rel hw' (s.n + 1) sA (s.n + 1) (by omega) (le_max_right _ _)
  set s1 := bubbleUpLe (s.n + 1) sA (s.n + 1) with hs1
  have hfinal : AStar.openNeighbour s pRE pN pGoal ni =
      { re := upd s1.re pN { s1.re pN with list := List_Open }, openList := s1.openList, n := s1.n + 1 } := rfl
  rw [hfinal]
  have hA : ∀ c, c ≠ pN → sA.re c = s.re c := fun c hc => by
    simp only [hsA, hre1, upd_other _ _ _ _ hc]
  have F1 : ∀ c, ((upd s1.re pN { s1.re pN with list := List_Open }) c).list =
      if c = pN then List_Open else (s.re c).list := by
    intro c
    simp only [upd_apply]
    split_ifs with hc
    · rfl
    · rw [(hr.2.1 c).2.2.2.1, hA c hc]
  have F2 : ∀ c, ((upd s1.re pN { s1.re pN with list := List_Open }) c).parent =
      if c = pN then pRE else (s.re c).parent := by
    intro c
    simp only [upd_apply]
    split_ifs with hc
    · subst hc
      show (s1.re c).parent = pRE
      rw [(hr.2.1 c).1]
      simp [hsA, hre1]
    · rw [(hr.2.1 c).1, hA c hc]
  have F3 : ∀ c, ((upd s1.re pN { s1.re pN with list := List_Open }) c).x = (s.re c).x ∧
      ((upd s1.re pN { s1.re pN with list := List_Open }) c).y = (s.re c).y := by
    intro c
    simp only [upd_apply]
    split_ifs with hc
    · subst hc
      show (s1.re c).x = _ ∧ (s1.re c).y = _
      rw [(hr.2.1 c).2.2.2.2.1, (hr.2.1 c).2.2.2.2.2.1]
      simp [hsA, hre1]
    · rw [(hr.2.1 c).2.2.2.2.1, (hr.2.1 c).2.2.2.2.2.1, hA c hc]
      exact ⟨rfl, rfl⟩
  have F4 : ∀ c, ((upd s1.re pN { s1.re pN with list := List_Open }) c).openListIndex =
      (s.re c).openListIndex ∨
      (1 ≤ ((upd s1.re pN { s1.re pN with list := List_Open }) c).openListIndex ∧
        ((upd s1.re pN { s1.re pN with list := List_Open }) c).openListIndex ≤ hw') := by
    intro c
    simp only [upd_apply]
    split_ifs with hc
    · subst hc
      show (s1.re c).openListIndex = _ ∨ (1 ≤ (s1.re c).openListIndex ∧ (s1.re c).openListIndex ≤ hw')
      rcases (hr.2.1 c).2.2.2.2.2.2 with h1 | h1
      · right
        rw [h1]
        simp only [hsA, hre1, upd_same]
        exact ⟨by omega, le_max_right _ _⟩
      · exact Or.inr h1
    · rcases (hr.2.1 c).2.2.2.2.2.2 with h1 | h1
      · left; rw [h1, hA c hc]
      · exact Or.inr h1
  have F5 : ∀ i, 1 ≤ i → i ≤ hw' → s1.openList i = pN ∨
      ∃ j, 1 ≤ j ∧ j ≤ hw ∧ s1.openList i = s.openList j := by
    intro i h1 h2
    obtain ⟨j, j1, j2, hj⟩ := hr.2.2 i h1 h2
    rw [hj]
    simp only [hsA, upd_apply]
    split_ifs with hjm
    · exact Or.inl rfl
    · right
      refine ⟨j, j1, ?_, rfl⟩
      have := h.n_le
      rcases le_max_iff.1 (hhw' ▸ j2 : j ≤ max hw (s.n + 1)) with h3 | h3
      · exact h3
      · omega
  have hn1 : s1.n = s.n := hr.1
  have htouch : ∀ c, Touched s.re c → Touched (upd s1.re pN { s1.re pN with list := List_Open }) c := by
    intro c hc
    unfold Touched
    rw [F1]
    split_ifs
    · exact Or.inl rfl
    · exact hc
  refine ⟨hw', ⟨?_, ?_, ?_, ?_, ?_, ?_, ?_⟩, ?_, ?_, F1⟩
  · intro i hi
    rw [(F3 i).1, (F3 i).2, F1]
    obtain ⟨r1, r2, r3⟩ := h.rep i hi
    refine ⟨r1, r2, ?_⟩
    split_ifs with hic
    · subst hic
      rw [hnone] at r3
      constructor
      · intro hh; cases hh
      · intro hpx; have := r3.2 hpx; cases this
    · exact r3
  · show s1.n + 1 ≤ hw'
    rw [hn1]; exact le_max_right _ _
  · intro i h1 h2
    show s1.openList i < _ ∧ Touched _ (s1.openList i)
    rcases F5 i h1 h2 with h3 | ⟨j, j1, j2, h3⟩
    · rw [h3]
      refine ⟨hN, ?_⟩
      unfold Touched; rw [F1]; simp
    · rw [h3]
      exact ⟨(h.slots j j1 j2).1, htouch _ (h.slots j j1 j2).2⟩
  · intro c hcN' hc
    rw [F1] at hc
    rcases F4 c with h4 | h4
    · split_ifs at hc with hcN
      · subst hcN
        rw [hnone] at *
        have := F4 c
        simp only [upd_same] at this ⊢
        rcases (hr.2.1 c).2.2.2.2.2.2 with h5 | h5
        · show 1 ≤ (s1.re c).openListIndex ∧ (s1.re c).openListIndex ≤ hw'
          rw [h5]
          simp only [hsA, hre1, upd_same]
          exact ⟨by omega, le_max_right _ _⟩
        · exact h5
      · rw [h4]
        obtain ⟨i1, i2⟩ := h.idx c hcN' hc
        exact ⟨i1, le_trans i2 (le_max_left _ _)⟩
    · exact h4
  · rw [F1]
    have : pStart ≠ pN := by
      intro he; have := h.start.1; rw [he, hnone] at this; cases this
    rw [if_neg this]
    exact h.start
  · intro c hc htc hne'
    rw [F2]
    have hclosed : ∀ p, (s.re p).list = List_Closed →
        ((upd s1.re pN { s1.re pN with list := List_Open }) p).list = List_Closed := by
      intro p hp'
      rw [F1]
      have : p ≠ pN := by intro he; rw [he, hnone] at hp'; cases hp'
      rw [if_neg this]; exact hp'
    by_cases hcN : c = pN
    · rw [if_pos hcN]
      subst hcN
      exact ⟨hp, hclosed _ hcl, hadj⟩
    · rw [if_neg hcN]
      have htc' : Touched s.re c := by
        unfold Touched at htc ⊢
        rw [F1, if_neg hcN] at htc
        exact htc
      obtain ⟨p1, p2, p3⟩ := h.parent c hc htc' hne'
      exact ⟨p1, hclosed _ p2, p3⟩
  · intro c hc hclc
    rw [F1] at hclc
    rw [F2]
    split_ifs at hclc with hcN
    rw [if_neg hcN]
    exact h.rank c hc hclc
  · rw [F1, if_neg hne]; exact hcl
  · show s1.n + 1 = s.n + 1
    rw [hn1]

end AStar

namespace AStar

open ListType

/-- Improving a neighbour that is on the open list keeps the invariant. -/
theorem inv_improveNeighbour {m : GridMap} {pStart hw t : Nat} {rank : Nat → Nat} {s : Search}
    (h : Inv m pStart hw t rank s) (pRE pN ni : Nat)
    (hp : pRE < m.width * m.height) (hcl : (s.re pRE).list = List_Closed)
    (hN : pN < m.width * m.height) (hopen : (s.re pN).list = List_Open)
    (hadj : Adjacent (posOf m.width pRE) (posOf m.width pN)) :
    Inv m pStart hw t rank (improveNeighbour s pRE pN ni) ∧
      (∀ c, ((improveNeighbour s pRE pN ni).re c).list = (s.re c).list) ∧
      (improveNeighbour s pRE pN ni).n = s.n := by
  unfold AStar.improveNeighbour
  simp only
  split_ifs with hlt
  · set re1 := upd s.re pN { s.re pN with
      g_cost := (s.re pRE).g_cost + moveCost ni
      f_cost := (s.re pRE).g_cost + moveCost ni + ((s.re pN).f_cost - (s.re pN).g_cost)
      parent := pRE } with hre1
    have hl : ∀ c, (re1 c).list = (s.re c).list := by
      intro c; simp only [hre1, upd_apply]; split_ifs with hc
      · subst hc; rfl
      · rfl
    have hi : ∀ c, (re1 c).openListIndex = (s.re c).openListIndex := by
      intro c; simp only [hre1, upd_apply]; split_ifs with hc
      · subst hc; rfl
      · rfl
    have hxy : ∀ c, (re1 c).x = (s.re c).x ∧ (re1 c).y = (s.re c).y := by
      intro c; simp only [hre1, upd_apply]; split_ifs with hc
      · subst hc; exact ⟨rfl, rfl⟩
      · exact ⟨rfl, rfl⟩
    have hpar : ∀ c, (re1 c).parent = if c = pN then pRE else (s.re c).parent := by
      intro c; simp only [hre1, upd_apply]; split_ifs with hc <;> rfl
    have hI : Inv m pStart hw t rank { s with re := re1 } := by
      refine ⟨?_, h.n_le, ?_, ?_, ?_, ?_, ?_⟩
      · intro i hi'
        show (re1 i).x = _ ∧ (re1 i).y = _ ∧ ((re1 i).list = _ ↔ _)
        rw [(hxy i).1, (hxy i).2, hl]
        exact h.rep i hi'
      · intro i h1 h2
        refine ⟨(h.slots i h1 h2).1, ?_⟩
        show Touched re1 _
        unfold Touched; rw [hl]; exact (h.slots i h1 h2).2
      · intro c hcN hc
        show 1 ≤ (re1 c).openListIndex ∧ (re1 c).openListIndex ≤ hw
        rw [hi]
        exact h.idx c hcN (by rw [← hl]; exact hc)
      · show (re1 pStart).list = _ ∧ _
        rw [hl]; exact h.start
      · intro c hc htc hne
        show (re1 c).parent < _ ∧ (re1 (re1 c).parent).list = _ ∧ Adjacent (posOf _ (re1 c).parent) _
        have htc' : Touched s.re c := by
          unfold Touched at htc ⊢
          have : (re1 c).list = (s.re c).list := hl c
          rw [← this]; exact htc
        rw [hpar, hl]
        split_ifs with hcN
        · subst hcN; exact ⟨hp, hcl, hadj⟩
        · exact h.parent c hc htc' hne
      · intro c hc hclc
        show rank c < t ∧ (c ≠ pStart → rank (re1 c).parent < rank c)
        have hclc' : (s.re c).list = List_Closed := by rw [← hl]; exact hclc
        have hcN : c ≠ pN := by intro he; rw [he, hopen] at hclc'; cases hclc'
        rw [hpar, if_neg hcN]
        exact h.rank c hc hclc'
    have hidx := hI.idx pN hN (by show (re1 pN).list = _; rw [hl]; exact hopen)
    have hr := bubbleUpLt_rel hw (re1 pN).openListIndex { s with re := re1 } (re1 pN).openListIndex
      hidx.1 hidx.2
    refine ⟨inv_of_heapRel hI hr, fun c => ?_, hr.1⟩
    rw [(hr.2.1 c).2.2.2.1]
    exact hl c
  · exact ⟨h, fun _ => rfl, rfl⟩

/-- One direction of the neighbour loop keeps the invariant. -/
theorem inv_visitNeighbour {m : GridMap} {pStart hw t : Nat} {rank : Nat → Nat} {s : Search}
    (h : Inv m pStart hw t rank s) (pGoal pRE ni : Nat) (hni : ni < 8)
    (hp : pRE < m.width * m.height) (hcl : (s.re pRE).list = List_Closed) :
    ∃ hw', Inv m pStart hw' t rank (visitNeighbour m.width m.height pGoal pRE s ni) ∧
      ((visitNeighbour m.width m.height pGoal pRE s ni).re pRE).list = List_Closed := by
  unfold AStar.visitNeighbour
  simp only
  obtain ⟨rx, ry, _⟩ := h.rep pRE hp
  split_ifs with hb hptr h1 h2 h3
  · exact ⟨hw, h, hcl⟩
  · -- the neighbour is new
    push_neg at hb
    rw [rx, ry] at hb
    obtain ⟨hN, hadj⟩ := neighbour_facts m.width m.height pRE ni hni hb.1 hb.2.1 hb.2.2.1 hb.2.2.2
    have hnone : (s.re ((pRE : Int) + neighbourhood_offsets m.width ni).toNat).list = List_None := by
      cases hl : (s.re ((pRE : Int) + neighbourhood_offsets m.width ni).toNat).list
      · rfl
      · exact absurd hl h3
      · exact absurd hl h1
      · exact absurd hl h2
    obtain ⟨hw', hI, hc', _⟩ := inv_openNeighbour h pRE _ pGoal ni hp hcl hN hnone hadj
    exact ⟨hw', hI, hc'⟩
  · push_neg at hb h3
    rw [rx, ry] at hb
    obtain ⟨hN, hadj⟩ := neighbour_facts m.width m.height pRE ni hni hb.1 hb.2.1 hb.2.2.1 hb.2.2.2
    obtain ⟨hI, hl, _⟩ := inv_improveNeighbour h pRE _ ni hp hcl hN h3 hadj
    exact ⟨hw, hI, by rw [hl]; exact hcl⟩
  · exact ⟨hw, h, hcl⟩
  · exact ⟨hw, h, hcl⟩
  · exact ⟨hw, h, hcl⟩

/-- The neighbour loop keeps the invariant. -/
theorem inv_visitNeighbours {m : GridMap} {pStart hw t : Nat} {rank : Nat → Nat} {s : Search}
    (h : Inv m pStart hw t rank s) (pGoal pRE : Nat)
    (hp : pRE < m.width * m.height) (hcl : (s.re pRE).list = List_Closed) :
    ∃ hw', Inv m pStart hw' t rank (visitNeighbours m.width m.height pGoal pRE s) := by
  have key : ∀ (l : List Nat), (∀ ni ∈ l, ni < 8) → ∀ (s : Search) (hw : Nat),
      Inv m pStart hw t rank s → (s.re pRE).list = List_Closed →
      ∃ hw', Inv m pStart hw' t rank (l.foldl (AStar.visitNeighbour m.width m.height pGoal pRE) s) ∧
        ((l.foldl (AStar.visitNeighbour m.width m.height pGoal pRE) s).re pRE).list = List_Closed := by
    intro l
    induction l with
    | nil => intro _ s hw hI hc; exact ⟨hw, hI, hc⟩
    | cons a l ih =>
      intro hl s hw hI hc
      obtain ⟨hw1, hI1, hc1⟩ := inv_visitNeighbour hI pGoal pRE a (hl a (List.mem_cons_self _ _)) hp hc
      exact ih (fun ni hni => hl ni (List.mem_cons_of_mem _ hni)) _ hw1 hI1 hc1
  obtain ⟨hw', hI, _⟩ := key (List.range 8) (fun ni hni => List.mem_range.1 hni) s hw h hcl
  exact ⟨hw', hI⟩

end AStar

namespace AStar

open ListType

theorem freeCell_of_closed {m : GridMap} {pStart hw t : Nat} {rank : Nat → Nat} {s : Search}
    (h : Inv m pStart hw t rank s) (c : Nat) (hc : c < m.width * m.height)
    (hcl : (s.re c).list = List_Closed) : FreeCell m (posOf m.width c) := by
  have hw0 : 0 < m.width := by
    rcases Nat.eq_zero_or_pos m.width with h0 | h0
    · rw [h0] at hc; simp at hc
    · exact h0
  obtain ⟨_, _, r3⟩ := h.rep c hc
  refine ⟨Nat.mod_lt _ hw0, ?_, ?_⟩
  · exact (Nat.div_lt_iff_lt_mul hw0).2 (by rw [Nat.mul_comm]; exact hc)
  · by_contra hne
    have : m.pixel (c % m.width) (c / m.width) > 0 := by
      unfold posOf at hne; simp only at hne; omega
    have := r3.2 this
    rw [hcl] at this; cases this

/-- Following the parents from a closed cell ends at the start within `rank + 1` steps
and collects an 8-connected path of free cells. -/
theorem walkParents_spec {m : GridMap} {pStart hw t : Nat} {rank : Nat → Nat} {s : Search}
    (h : Inv m pStart hw t rank s) : ∀ (fuel c : Nat) (acc : List Pos),
    c < m.width * m.height → (s.re c).list = List_Closed → rank c < fuel →
    ∃ l, walkParents s.re pStart fuel c acc = some (l ++ acc) ∧
      l.head? = some (posOf m.width pStart) ∧ l.getLast? = some (posOf m.width c) ∧
      IsChain l ∧ (∀ q ∈ l, FreeCell m q) ∧ (c = pStart → l = [posOf m.width c])
  | 0, _, _, _, _, hr => by omega
  | fuel + 1, c, acc, hc, hcl, hr => by
    obtain ⟨rx, ry, _⟩ := h.rep c hc
    simp only [walkParents]
    rw [rx, ry]
    split_ifs with hcs
    · subst hcs
      refine ⟨[posOf m.width c], rfl, rfl, rfl, trivial, ?_, fun _ => rfl⟩
      intro q hq
      simp at hq
      subst hq
      exact freeCell_of_closed h c hc hcl
    · obtain ⟨p1, p2, p3⟩ := h.parent c hc (Or.inr hcl) hcs
      have hrk := (h.rank c hc hcl).2 hcs
      obtain ⟨l, hl1, hl2, hl3, hl4, hl5, _⟩ :=
        walkParents_spec h fuel (s.re c).parent ((c % m.width, c / m.width) :: acc) p1 p2 (by omega)
      refine ⟨l ++ [posOf m.width c], ?_, ?_, ?_, ?_, ?_, fun he => absurd he hcs⟩
      · rw [hl1]; simp [posOf]
      · cases l with
        | nil => simp at hl2
        | cons a l' => simpa using hl2
      · simp
      · exact isChain_append_one l _ _ hl4 hl3 p3
      · intro q hq
        rcases List.mem_append.1 hq with hq | hq
        · exact hl5 q hq
        · simp at hq; subst hq
          exact freeCell_of_closed h c hc hcl

/-- The state in which the main loop is entered: the start is the only entry of the
open list and no cell is on a list. -/
structure Init (m : GridMap) (pStart : Nat) (s : Search) : Prop where
  rep : RepCells m s.re
  n_eq : s.n = 1
  first : s.openList 1 = pStart
  start : pStart < m.width * m.height ∧ (s.re pStart).list = List_None
  fresh : ∀ c, c < m.width * m.height → ¬ Touched s.re c

theorem init_popFirst {m : GridMap} {pStart : Nat} {s : Search} (h : Init m pStart s) :
    Inv m pStart 1 1 (fun _ => 0) (popFirst s).2 ∧ (popFirst s).1 = pStart ∧
      ((popFirst s).2.re pStart).list = List_Closed := by
  have hpop : AStar.popFirst s = (pStart,
      { re := upd s.re pStart { s.re pStart with list := List_Closed }, openList := s.openList, n := 0 }) := by
    unfold AStar.popFirst
    simp only [h.n_eq, h.first]
    rfl
  rw [hpop]
  simp only
  have hl : ∀ c, ((upd s.re pStart { s.re pStart with list := List_Closed }) c).list =
      if c = pStart then List_Closed else (s.re c).list := by
    intro c; simp only [upd_apply]; split_ifs <;> rfl
  have hxy : ∀ c, ((upd s.re pStart { s.re pStart with list := List_Closed }) c).x = (s.re c).x ∧
      ((upd s.re pStart { s.re pStart with list := List_Closed }) c).y = (s.re c).y := by
    intro c; simp only [upd_apply]; split_ifs with hc
    · subst hc; exact ⟨rfl, rfl⟩
    · exact ⟨rfl, rfl⟩
  have honly : ∀ c, c < m.width * m.height →
      Touched (upd s.re pStart { s.re pStart with list := List_Closed }) c → c = pStart := by
    intro c hcN hc
    by_contra hne
    unfold Touched at hc
    rw [hl, if_neg hne] at hc
    exact h.fresh c hcN hc
  refine ⟨⟨?_, by simp, ?_, ?_, ?_, ?_, ?_⟩, trivial, by rw [hl]; simp⟩
  · intro i hi
    rw [(hxy i).1, (hxy i).2, hl]
    obtain ⟨r1, r2, r3⟩ := h.rep i hi
    refine ⟨r1, r2, ?_⟩
    split_ifs with hc
    · subst hc
      rw [h.start.2] at r3
      constructor
      · intro hh; cases hh
      · intro hp; have := r3.2 hp; cases this
    · exact r3
  · intro i h1 h2
    have : i = 1 := by omega
    subst this
    show s.openList 1 < _ ∧ Touched _ (s.openList 1)
    rw [h.first]
    refine ⟨h.start.1, ?_⟩
    unfold Touched; rw [hl]; simp
  · intro c hcN hc
    exfalso
    have := honly c hcN (Or.inl hc)
    subst this
    rw [hl] at hc; simp at hc
  · rw [hl]; simp [h.start.1]
  · intro c hcN htc hne
    exact absurd (honly c hcN htc) hne
  · intro c hcN hcl
    have := honly c hcN (Or.inr hcl)
    exact ⟨by omega, fun hne => absurd this hne⟩

/-- What is known when the main loop is entered with `fuel` rounds left out of `F`. -/
def HeadInv (m : GridMap) (pStart F fuel : Nat) (s : Search) : Prop :=
  (Init m pStart s ∧ fuel ≤ F) ∨ ∃ hw t rank, Inv m pStart hw t rank s ∧ t + fuel ≤ F

/-- The main loop ends, if it finds a path, with an 8-connected path of free cells from
start to goal; in any case the cells still agree with the map. -/
theorem mainLoop_spec (m : GridMap) (pStart pGoal F : Nat) (hg : pGoal < m.width * m.height) :
    ∀ (fuel : Nat) (s : Search), HeadInv m pStart F fuel s →
    ∀ r, mainLoop m.width m.height pStart pGoal F fuel s = some r →
      match r with
      | LoopEnd.found s' path =>
        RepCells m s'.re ∧ FreePath m (posOf m.width pStart) (posOf m.width pGoal) path ∧
          (pStart = pGoal → path = [posOf m.width pStart])
      | LoopEnd.noPath s' => RepCells m s'.re
  | 0, _, _, r, hr => by simp [mainLoop] at hr
  | fuel + 1, s, hI, r, hr => by
    simp only [mainLoop] at hr
    by_cases hn : s.n = 0
    · rw [if_neg (by simpa using hn)] at hr
      cases hr
      rcases hI with ⟨hI, _⟩ | ⟨hw, t, rank, hI, _⟩
      · have := hI.n_eq; omega
      · exact hI.rep
    · rw [if_pos hn] at hr
      have step : ∃ hw t rank, Inv m pStart hw t rank
          (visitNeighbours m.width m.height pGoal (popFirst s).1 (popFirst s).2) ∧ t + fuel ≤ F := by
        rcases hI with ⟨hI, hF⟩ | ⟨hw, t, rank, hI, ht⟩
        · obtain ⟨h1, h2, h3⟩ := init_popFirst hI
          obtain ⟨hw', h4⟩ := inv_visitNeighbours h1 pGoal (popFirst s).1 (by rw [h2]; exact hI.start.1)
            (by rw [h2]; exact h3)
          exact ⟨hw', 1, _, h4, by omega⟩
        · obtain ⟨rank', h1, h2, h3, _⟩ := inv_popFirst hI hn
          obtain ⟨hw', h4⟩ := inv_visitNeighbours h1 pGoal (popFirst s).1 h2 h3
          exact ⟨hw', t + 1, rank', h4, by omega⟩
      obtain ⟨hw, t, rank, hI2, ht⟩ := step
      split_ifs at hr with hgc
      · obtain ⟨l, hl1, hl2, hl3, hl4, hl5, hl6⟩ :=
          walkParents_spec hI2 F pGoal [] hg hgc (by have := (hI2.rank pGoal hg hgc).1; omega)
        rw [hl1] at hr
        simp only [Option.map_some', Option.some.injEq, List.append_nil] at hr
        subst hr
        exact ⟨hI2.rep, ⟨hl2, hl3, hl4, hl5⟩, fun he => by rw [hl6 he.symm, he]⟩
      · exact mainLoop_spec m pStart pGoal F hg fuel _ (Or.inr ⟨hw, t, rank, hI2, ht⟩) r hr

end AStar

theorem posOf_index (w x y : Nat) (hx : x < w) : posOf w (y * w + x) = (x, y) := by
  unfold posOf
  have hw : 0 < w := by omega
  rw [Nat.add_comm, Nat.add_mul_mod_self_right, Nat.mod_eq_of_lt hx,
    Nat.add_mul_div_right _ _ hw, Nat.div_eq_of_lt hx, Nat.zero_add]

theorem index_lt (w h x y : Nat) (hx : x < w) (hy : y < h) : y * w + x < w * h := by
  have : (y + 1) * w ≤ h * w := Nat.mul_le_mul_right _ hy
  nlinarith

namespace AStar

open ListType

/-- The planner state belongs to the map: same size, and the cells agree with it. -/
def Represents (m : GridMap) (p : Planner) : Prop :=
  p.width = m.width ∧ p.height = m.height ∧ RepCells m p.rasterElements

/-- `initMap` yields a state that belongs to the map when the coordinates fit
`unsigned short`. -/
theorem initMap_represents (m : GridMap) (hw : m.width ≤ USHORT) (hh : m.height ≤ USHORT) :
    Represents m (initMap m) := by
  refine ⟨rfl, rfl, ?_⟩
  intro i hi
  have hw0 : 0 < m.width := by
    rcases Nat.eq_zero_or_pos m.width with h0 | h0
    · rw [h0] at hi; simp at hi
    · exact h0
  have h1 : i % m.width < USHORT := lt_of_lt_of_le (Nat.mod_lt _ hw0) hw
  have h2 : i / m.width < USHORT :=
    lt_of_lt_of_le ((Nat.div_lt_iff_lt_mul hw0).2 (by rw [Nat.mul_comm]; exact hi)) hh
  simp only [initMap, hi, if_true]
  refine ⟨Nat.mod_eq_of_lt h1, Nat.mod_eq_of_lt h2, ?_⟩
  split_ifs with hp
  · simp [hp]
  · simp [hp]

/-- `calculatePath` keeps the state with the map, and a non-empty path it sets is an
8-connected path of free cells from the start to the goal. -/
theorem calculatePath_spec (m : GridMap) (p : Planner) (start goal : Pos) (o : Outcome)
    (hrep : Represents m p) (hs : start.1 < m.width ∧ start.2 < m.height)
    (hg : goal.1 < m.width ∧ goal.2 < m.height)
    (ho : calculatePath p start goal = some o) :
    Represents m o.planner ∧
      (o.path ≠ [] → FreePath m start goal o.path ∧ (start = goal → o.path = [start])) := by
  obtain ⟨hw, hh, hrc⟩ := hrep
  unfold calculatePath at ho
  simp only [hw, hh] at ho
  have hsN := index_lt m.width m.height start.1 start.2 hs.1 hs.2
  have hgN := index_lt m.width m.height goal.1 goal.2 hg.1 hg.2
  split_ifs at ho with h1 h2
  · cases ho
    exact ⟨⟨hw, hh, hrc⟩, fun h => absurd rfl h⟩
  · cases ho
    exact ⟨⟨hw, hh, hrc⟩, fun h => absurd rfl h⟩
  · set pStart := start.2 * m.width + start.1 with hpS
    set pGoal := goal.2 * m.width + goal.1 with hpG
    set s0 := initialSearch p pStart with hs0
    have hl0 : ∀ c, (s0.re c).list = if c < m.width * m.height ∧
        (p.rasterElements c).list ≠ List_Unwalkable then List_None else (p.rasterElements c).list := by
      intro c
      simp only [hs0, initialSearch, upd_apply, hw, hh]
      split_ifs <;> simp_all
    have hxy0 : ∀ c, (s0.re c).x = (p.rasterElements c).x ∧ (s0.re c).y = (p.rasterElements c).y := by
      intro c
      simp only [hs0, initialSearch, upd_apply]
      split_ifs <;> simp_all
    have hinit : Init m pStart s0 := by
      refine ⟨?_, rfl, by simp [hs0, initialSearch], ⟨hsN, ?_⟩, ?_⟩
      · intro i hi
        rw [(hxy0 i).1, (hxy0 i).2, hl0]
        obtain ⟨r1, r2, r3⟩ := hrc i hi
        refine ⟨r1, r2, ?_⟩
        split_ifs with hc
        · constructor
          · intro hh'; cases hh'
          · intro hp; exact absurd (r3.2 hp) hc.2
        · have : (p.rasterElements i).list = List_Unwalkable := by
            by_contra hne; exact hc ⟨hi, hne⟩
          exact r3
      · rw [hl0, if_pos ⟨hsN, h2⟩]
      · intro c hc htc
        unfold Touched at htc
        rw [hl0] at htc
        split_ifs at htc with hc'
        · rcases htc with h3 | h3 <;> cases h3
        · have : (p.rasterElements c).list = List_Unwalkable := by
            by_contra hne; exact hc' ⟨hc, hne⟩
          rw [this] at htc
          rcases htc with h3 | h3 <;> cases h3
    have hspec := mainLoop_spec m pStart pGoal (2 * (m.width * m.height) + 2) hgN
      (2 * (m.width * m.height) + 2) s0 (Or.inl ⟨hinit, le_refl _⟩)
    have hps : posOf m.width pStart = start := by
      rw [hpS, posOf_index _ _ _ hs.1]
    have hpg : posOf m.width pGoal = goal := by
      rw [hpG, posOf_index _ _ _ hg.1]
    cases hml : mainLoop m.width m.height pStart pGoal (2 * (m.width * m.height) + 2)
        (2 * (m.width * m.height) + 2) s0 with
    | none => rw [hml] at ho; cases ho
    | some r =>
      have := hspec r hml
      rw [hml] at ho
      cases r with
      | found s' path =>
        simp only [finish] at this ho
        cases ho
        rw [hps, hpg] at this
        refine ⟨⟨hw, hh, this.1⟩, fun _ => ⟨this.2.1, fun he => ?_⟩⟩
        have hpe : pStart = pGoal := by rw [hpS, hpG, he]
        exact this.2.2 hpe
      | noPath s' =>
        simp only [finish] at this ho
        cases ho
        exact ⟨⟨hw, hh, this⟩, fun h => absurd rfl h⟩

/-- Every state the planner can be in for a map belongs to the map. -/
theorem reachable_represents (m : GridMap) (hw : m.width ≤ USHORT) (hh : m.height ≤ USHORT)
    (p : Planner) (hp : Reachable m p) : Represents m p := by
  induction hp with
  | initMap => exact initMap_represents m hw hh
  | calculatePath p' s' g' o' _ hs' hg' ho' ih => exact (calculatePath_spec m p' s' g' o' ih hs' hg' ho').1

/-- The state of the A* planner fits a map size: the size fits the coordinates of the
cells and the state belongs to some map of this size. -/
def AlgInv (p : Planner) (size : Nat × Nat) : Prop :=
  size.1 ≤ USHORT ∧ size.2 ≤ USHORT ∧ ∃ m : GridMap, (m.width, m.height) = size ∧ Represents m p

/-- A* provides what the contract invariant needs. -/
theorem astar_algSpec : AlgSpec algorithm AlgInv := by
  refine ⟨?_, ?_, ?_⟩
  · intro _ m hw hh _ _
    exact ⟨hw, hh, m, rfl, initMap_represents m hw hh⟩
  · intro st m r ⟨hw, hh, _⟩ _ _
    exact ⟨hw, hh, m, rfl, initMap_represents m hw hh⟩
  · intro st size u s g r ⟨hw, hh, m, hm, hrep⟩ hs1 hs2 hg1 hg2 hc
    simp only [algorithm] at hc
    cases ho : calculatePath st s g with
    | none => rw [ho] at hc; cases hc
    | some o =>
      rw [ho] at hc
      simp only [Option.map_some', Option.some.injEq] at hc
      subst hc
      have hsz : m.width = size.1 ∧ m.height = size.2 := by
        rw [← hm]; exact ⟨rfl, rfl⟩
      obtain ⟨h1, h2⟩ := calculatePath_spec m st s g o hrep (by rw [hsz.1, hsz.2]; exact ⟨hs1, hs2⟩)
        (by rw [hsz.1, hsz.2]; exact ⟨hg1, hg2⟩) ho
      refine ⟨⟨hw, hh, m, hm, h1⟩, fun hne => ?_⟩
      obtain ⟨⟨a1, a2, a3, _⟩, a5⟩ := h2 hne
      exact ⟨a1, a2, a3, a5⟩

end AStar

end RasterSim

namespace RasterSim

/-! ## Sums over the cells of a map -/

/-- The sum of `f c` over the cells `c < n`. -/
def sumBelow (f : Nat → Nat) : Nat → Nat
  | 0 => 0
  | n + 1 => sumBelow f n + f n

theorem sumBelow_le (f g : Nat → Nat) : ∀ (N : Nat), (∀ c, c < N → f c ≤ g c) →
    sumBelow f N ≤ sumBelow g N
  | 0, _ => le_refl _
  | N + 1, h => by
    have h1 := sumBelow_le f g N (fun c hc => h c (by omega))
    have h2 := h N (by omega)
    simp only [sumBelow]
    omega

theorem sumBelow_lt (f g : Nat → Nat) (a d : Nat) : ∀ (N : Nat), (∀ c, c < N → f c ≤ g c) →
    a < N → f a + d ≤ g a → sumBelow f N + d ≤ sumBelow g N
  | 0, _, ha, _ => by omega
  | N + 1, h, ha, hd => by
    simp only [sumBelow]
    by_cases haN : a = N
    · subst haN
      have h1 := sumBelow_le f g a (fun c hc => h c (by omega))
      omega
    · have h1 := sumBelow_lt f g a d N (fun c hc => h c (by omega)) (by omega) hd
      have h2 := h N (by omega)
      omega

theorem sumBelow_bound (f : Nat → Nat) (B : Nat) : ∀ (N : Nat), (∀ c, c < N → f c ≤ B) →
    sumBelow f N ≤ N * B
  | 0, _ => by simp [sumBelow]
  | N + 1, h => by
    have h1 := sumBelow_bound f B N (fun c hc => h c (by omega))
    have h2 := h N (by omega)
    simp only [sumBelow]
    have : (N + 1) * B = N * B + B := by ring
    omega

theorem sumBelow_congr (f g : Nat → Nat) (N : Nat) (h : ∀ c, c < N → f c = g c) :
    sumBelow f N = sumBelow g N :=
  le_antisymm (sumBelow_le f g N (fun c hc => le_of_eq (h c hc)))
    (sumBelow_le g f N (fun c hc => le_of_eq (h c hc).symm))

/-! ## Cells that no chain of free cells joins -/

theorem freePath_extend (m : GridMap) (s a b : Pos) (l : List Pos) (h : FreePath m s a l)
    (hab : Adjacent a b) (hb : FreeCell m b) : FreePath m s b (l ++ [b]) := by
  obtain ⟨h1, h2, h3, h4⟩ := h
  refine ⟨?_, by simp, isChain_append_one l a b h3 h2 hab, ?_⟩
  · cases l with
    | nil => simp at h1
    | cons x l' => simpa using h1
  · intro q hq
    rcases List.mem_append.1 hq with hq | hq
    · exact h4 q hq
    · simp at hq; subst hq; exact hb

theorem connected_self (m : GridMap) (s : Pos) (hs : FreeCell m s) : Connected m s s :=
  ⟨[s], rfl, rfl, trivial, fun q hq => by simp at hq; subst hq; exact hs⟩

theorem connected_extend (m : GridMap) (s a b : Pos) (h : Connected m s a)
    (hab : Adjacent a b) (hb : FreeCell m b) : Connected m s b := by
  obtain ⟨l, hl⟩ := h
  exact ⟨l ++ [b], freePath_extend m s a b l hl hab hb⟩

theorem isChain_cons_append : ∀ (l : List Pos) (a b : Pos), IsChain (l ++ [a]) → Adjacent a b →
    IsChain (l ++ [a, b])
  | [], _, _, _, hab => ⟨hab, trivial⟩
  | [x], _, _, h, hab => ⟨h.1, hab, trivial⟩
  | x :: y :: rest, a, b, h, hab => ⟨h.1, isChain_cons_append (y :: rest) a b h.2 hab⟩

theorem isChain_reverse : ∀ (l : List Pos), IsChain l → IsChain l.reverse
  | [], _ => trivial
  | [_], _ => trivial
  | a :: b :: rest, h => by
    have ih := isChain_reverse (b :: rest) h.2
    have e : (a :: b :: rest).reverse = rest.reverse ++ [b, a] := by simp
    rw [e]
    refine isChain_cons_append rest.reverse b a ?_ ?_
    · simpa using ih
    · obtain ⟨h1, h2, h3, h4, h5⟩ := h.1
      exact ⟨fun he => h1 he.symm, h3, h2, h5, h4⟩

theorem connected_symm (m : GridMap) (s g : Pos) (h : Connected m s g) : Connected m g s := by
  obtain ⟨l, h1, h2, h3, h4⟩ := h
  refine ⟨l.reverse, ?_, ?_, isChain_reverse l h3, fun c hc => h4 c (List.mem_reverse.1 hc)⟩
  · rw [List.head?_reverse]; exact h2
  · rw [List.getLast?_reverse]; exact h1

end RasterSim

namespace RasterSim

/-! ## Chains of free cells and their costs -/

theorem stepCost_symm (cardinal diagonal : Nat) (a b : Pos) :
    stepCost cardinal diagonal a b = stepCost cardinal diagonal b a := by
  unfold stepCost
  by_cases h : a.1 ≠ b.1 ∧ a.2 ≠ b.2
  · rw [if_pos h, if_pos ⟨fun e => h.1 e.symm, fun e => h.2 e.symm⟩]
  · rw [if_neg h, if_neg (fun q => h ⟨fun e => q.1 e.symm, fun e => q.2 e.symm⟩)]

theorem stepCost_range (a b : Pos) : 5 ≤ stepCost 5 7 a b ∧ stepCost 5 7 a b ≤ 7 := by
  unfold stepCost
  split_ifs <;> omega

theorem pathCost_cons_cons (cardinal diagonal : Nat) (a b : Pos) (l : List Pos) :
    pathCost cardinal diagonal (a :: b :: l) =
      stepCost cardinal diagonal a b + pathCost cardinal diagonal (b :: l) := rfl

/-- A free cell in front of a chain of free cells that starts next to it. -/
theorem freePath_cons (m : GridMap) (a b g : Pos) (l : List Pos) (h : FreePath m b g l)
    (hab : Adjacent a b) (ha : FreeCell m a) :
    FreePath m a g (a :: l) ∧ pathCost 5 7 (a :: l) = stepCost 5 7 a b + pathCost 5 7 l := by
  obtain ⟨h1, h2, h3, h4⟩ := h
  cases l with
  | nil => simp at h1
  | cons x l' =>
    have e : x = b := by simpa using h1
    subst e
    refine ⟨⟨rfl, ?_, ⟨hab, h3⟩, ?_⟩, rfl⟩
    · rw [List.getLast?_cons_cons]
      exact h2
    · intro q hq
      rcases List.mem_cons.1 hq with e | e
      · rw [e]; exact ha
      · exact h4 q e

theorem posOf_div_mod (w c : Nat) : (posOf w c).2 * w + (posOf w c).1 = c := by
  unfold posOf
  exact Nat.div_add_mod' c w

theorem freePath_head_free {m : GridMap} {a g : Pos} {l : List Pos} (h : FreePath m a g l) :
    FreeCell m a := by
  obtain ⟨q1, _, _, q4⟩ := h
  cases l with
  | nil => simp at q1
  | cons x l' =>
    have e : x = a := by simpa using q1
    rw [← e]
    exact q4 x (List.mem_cons_self _ _)

theorem isChain_append : ∀ (l1 l2 : List Pos) (a b : Pos), IsChain l1 → IsChain l2 →
    l1.getLast? = some a → l2.head? = some b → Adjacent a b → IsChain (l1 ++ l2)
  | [], _, _, _, _, _, h, _, _ => by simp at h
  | [x], l2, a, b, _, h2, ha, hb, hab => by
    have e : x = a := by simpa using ha
    subst e
    cases l2 with
    | nil => simp at hb
    | cons y l2' =>
      have e : y = b := by simpa using hb
      subst e
      exact ⟨hab, h2⟩
  | x :: y :: rest, l2, a, b, h1, h2, ha, hb, hab => by
    rw [List.getLast?_cons_cons] at ha
    exact ⟨h1.1, isChain_append (y :: rest) l2 a b h1.2 h2 ha hb hab⟩

theorem pathCost_le_length : ∀ (l : List Pos), pathCost 5 7 l + 7 ≤ 7 * l.length ∨ l = []
  | [] => Or.inr rfl
  | [_] => Or.inl (by simp [pathCost])
  | x :: y :: rest => by
    left
    rcases pathCost_le_length (y :: rest) with h | h
    · have := (stepCost_range x y).2
      rw [pathCost_cons_cons]
      simp only [List.length_cons] at h ⊢
      omega
    · cases h

/-- A quantity that changes by at most one from a cell to a neighbour, over the cells
with the property `P`: a chain of such cells is at least as long as the quantity
rises. -/
theorem chain_potential (φ : Pos → Nat) (P : Pos → Prop)
    (hstep : ∀ a b, P a → P b → Adjacent a b → φ b ≤ φ a + 1) :
    ∀ (l : List Pos) (a b : Pos), l.head? = some a → l.getLast? = some b → IsChain l →
      (∀ c, c ∈ l → P c) → φ b + 1 ≤ φ a + l.length
  | [], _, _, h, _, _, _ => by simp at h
  | [x], a, b, ha, hb, _, _ => by
    have e1 : x = a := by simpa using ha
    have e2 : x = b := by simpa using hb
    rw [← e1, ← e2]
    simp
  | x :: y :: rest, a, b, ha, hb, hc, hP => by
    have e1 : x = a := by simpa using ha
    subst e1
    rw [List.getLast?_cons_cons] at hb
    have ih := chain_potential φ P hstep (y :: rest) y b rfl hb hc.2
      (fun c hc' => hP c (List.mem_cons_of_mem _ hc'))
    have hs := hstep x y (hP x (List.mem_cons_self _ _))
      (hP y (List.mem_cons_of_mem _ (List.mem_cons_self _ _))) hc.1
    simp only [List.length_cons] at ih ⊢
    omega

theorem pathCost_ge_length : ∀ (l : List Pos), 5 * l.length ≤ pathCost 5 7 l + 5
  | [] => by simp
  | [_] => by simp
  | x :: y :: rest => by
    have := pathCost_ge_length (y :: rest)
    have h2 := (stepCost_range x y).1
    rw [pathCost_cons_cons]
    simp only [List.length_cons] at this ⊢
    omega

end RasterSim

namespace RasterSim

/-! ## A*: the main loop ends within its fuel -/

namespace AStar

open ListType

/-- One for a cell on no list. -/
def noneFlag (re : Nat → RasterElement) (c : Nat) : Nat :=
  if (re c).list = List_None then 1 else 0

/-- The quantity that every round of the main loop lowers: the length of the open
list plus twice the number of cells of the map that are on no list. -/
def potential (N : Nat) (s : Search) : Nat := s.n + 2 * sumBelow (noneFlag s.re) N

theorem astar_popFirst_list (s : Search) (c : Nat) :
    ((popFirst s).2.re c).list = if c = s.openList 1 then List_Closed else (s.re c).list := by
  unfold AStar.popFirst
  simp only
  split_ifs with hn1 hc hc
  · have hr := sinkLoop_rel (s.n - 1) (s.n - 1 + 1)
      { re := upd s.re (s.openList 1) { s.re (s.openList 1) with list := List_Closed }
        openList := upd s.openList 1 (s.openList (s.n - 1 + 1)), n := s.n - 1 } 1 (le_refl 1)
      (by omega) (le_refl _)
    rw [(hr.2.1 c).2.2.2.1]
    simp [hc]
  · have hr := sinkLoop_rel (s.n - 1) (s.n - 1 + 1)
      { re := upd s.re (s.openList 1) { s.re (s.openList 1) with list := List_Closed }
        openList := upd s.openList 1 (s.openList (s.n - 1 + 1)), n := s.n - 1 } 1 (le_refl 1)
      (by omega) (le_refl _)
    rw [(hr.2.1 c).2.2.2.1]
    simp [upd_apply, hc]
  · simp [hc]
  · simp [upd_apply, hc]

theorem astar_popFirst_n (s : Search) : (popFirst s).2.n = s.n - 1 := by
  unfold AStar.popFirst
  simp only
  split_ifs with hn1
  · have hr := sinkLoop_rel (s.n - 1) (s.n - 1 + 1)
      { re := upd s.re (s.openList 1) { s.re (s.openList 1) with list := List_Closed }
        openList := upd s.openList 1 (s.openList (s.n - 1 + 1)), n := s.n - 1 } 1 (le_refl 1)
      (by omega) (le_refl _)
    rw [hr.1]
  · rfl

/-- Taking the first cell off the open list lowers the potential. -/
theorem astar_potential_popFirst (N : Nat) (s : Search) (hn : s.n ≠ 0) :
    potential N (popFirst s).2 + 1 ≤ potential N s := by
  unfold potential
  rw [astar_popFirst_n]
  have := sumBelow_le (noneFlag (popFirst s).2.re) (noneFlag s.re) N (fun c _ => by
    unfold noneFlag
    rw [astar_popFirst_list]
    split_ifs <;> simp_all)
  omega

/-- One direction of the neighbour loop does not raise the potential. -/
theorem astar_potential_visitNeighbour {m : GridMap} {pStart hw t : Nat} {rank : Nat → Nat}
    {s : Search} (h : Inv m pStart hw t rank s) (pGoal pRE ni : Nat) (hni : ni < 8)
    (hp : pRE < m.width * m.height) (hcl : (s.re pRE).list = List_Closed) :
    potential (m.width * m.height) (visitNeighbour m.width m.height pGoal pRE s ni) ≤
      potential (m.width * m.height) s := by
  unfold AStar.visitNeighbour
  simp only
  obtain ⟨rx, ry, _⟩ := h.rep pRE hp
  split_ifs with hb hptr h1 h2 h3
  · exact le_refl _
  · push_neg at hb
    rw [rx, ry] at hb
    obtain ⟨hN, hadj⟩ := neighbour_facts m.width m.height pRE ni hni hb.1 hb.2.1 hb.2.2.1 hb.2.2.2
    have hnone : (s.re ((pRE : Int) + neighbourhood_offsets m.width ni).toNat).list = List_None := by
      cases hl : (s.re ((pRE : Int) + neighbourhood_offsets m.width ni).toNat).list
      · rfl
      · exact absurd hl h3
      · exact absurd hl h1
      · exact absurd hl h2
    obtain ⟨hw', _, _, hn, hl⟩ := inv_openNeighbour h pRE _ pGoal ni hp hcl hN hnone hadj
    unfold potential
    rw [hn]
    have := sumBelow_lt
      (noneFlag (openNeighbour s pRE ((pRE : Int) + neighbourhood_offsets m.width ni).toNat pGoal ni).re)
      (noneFlag s.re) ((pRE : Int) + neighbourhood_offsets m.width ni).toNat 1 (m.width * m.height)
      (fun c _ => by
        unfold noneFlag
        rw [hl]
        split_ifs <;> simp_all)
      hN (by
        unfold noneFlag
        rw [hl, hnone]
        simp)
    omega
  · push_neg at hb h3
    rw [rx, ry] at hb
    obtain ⟨hN, hadj⟩ := neighbour_facts m.width m.height pRE ni hni hb.1 hb.2.1 hb.2.2.1 hb.2.2.2
    obtain ⟨_, hl, hn⟩ := inv_improveNeighbour h pRE _ ni hp hcl hN h3 hadj
    unfold potential
    rw [hn]
    have := sumBelow_congr
      (noneFlag (improveNeighbour s pRE ((pRE : Int) + neighbourhood_offsets m.width ni).toNat ni).re)
      (noneFlag s.re) (m.width * m.height) (fun c _ => by unfold noneFlag; rw [hl])
    omega
  · exact le_refl _
  · exact le_refl _
  · exact le_refl _

/-- The neighbour loop does not raise the potential. -/
theorem astar_potential_visitNeighbours {m : GridMap} {pStart hw t : Nat} {rank : Nat → Nat}
    {s : Search} (h : Inv m pStart hw t rank s) (pGoal pRE : Nat)
    (hp : pRE < m.width * m.height) (hcl : (s.re pRE).list = List_Closed) :
    potential (m.width * m.height) (visitNeighbours m.width m.height pGoal pRE s) ≤
      potential (m.width * m.height) s := by
  have key : ∀ (l : List Nat), (∀ ni ∈ l, ni < 8) → ∀ (s : Search) (hw : Nat),
      Inv m pStart hw t rank s → (s.re pRE).list = List_Closed →
      potential (m.width * m.height) (l.foldl (AStar.visitNeighbour m.width m.height pGoal pRE) s) ≤
        potential (m.width * m.height) s := by
    intro l
    induction l with
    | nil => intro _ s hw hI hc; exact le_refl _
    | cons a l ih =>
      intro hl s hw hI hc
      obtain ⟨hw1, hI1, hc1⟩ := inv_visitNeighbour hI pGoal pRE a (hl a (List.mem_cons_self _ _)) hp hc
      have h1 := astar_potential_visitNeighbour hI pGoal pRE a (hl a (List.mem_cons_self _ _)) hp hc
      have h2 := ih (fun ni hni => hl ni (List.mem_cons_of_mem _ hni)) _ hw1 hI1 hc1
      exact le_trans h2 h1
  exact key (List.range 8) (fun ni hni => List.mem_range.1 hni) s hw h hcl

/-- The main loop ends when its fuel exceeds the potential. -/
theorem astar_mainLoop_ends (m : GridMap) (pStart pGoal F : Nat) (hg : pGoal < m.width * m.height) :
    ∀ (fuel : Nat) (s : Search), HeadInv m pStart F fuel s →
    potential (m.width * m.height) s < fuel →
    ∃ r, mainLoop m.width m.height pStart pGoal F fuel s = some r
  | 0, _, _, hφ => by omega
  | fuel + 1, s, hI, hφ => by
    simp only [mainLoop]
    by_cases hn : s.n = 0
    · rw [if_neg (by simpa using hn)]
      exact ⟨_, rfl⟩
    · rw [if_pos hn]
      have step : ∃ hw t rank, Inv m pStart hw t rank
          (visitNeighbours m.width m.height pGoal (popFirst s).1 (popFirst s).2) ∧ t + fuel ≤ F ∧
          potential (m.width * m.height)
            (visitNeighbours m.width m.height pGoal (popFirst s).1 (popFirst s).2) + 1 ≤
            potential (m.width * m.height) s := by
        have hpop := astar_potential_popFirst (m.width * m.height) s hn
        rcases hI with ⟨hI, hF⟩ | ⟨hw, t, rank, hI, ht⟩
        · obtain ⟨h1, h2, h3⟩ := init_popFirst hI
          obtain ⟨hw', h4⟩ := inv_visitNeighbours h1 pGoal (popFirst s).1 (by rw [h2]; exact hI.start.1)
            (by rw [h2]; exact h3)
          have h5 := astar_potential_visitNeighbours h1 pGoal (popFirst s).1
            (by rw [h2]; exact hI.start.1) (by rw [h2]; exact h3)
          exact ⟨hw', 1, _, h4, by omega, by omega⟩
        · obtain ⟨rank', h1, h2, h3, _⟩ := inv_popFirst hI hn
          obtain ⟨hw', h4⟩ := inv_visitNeighbours h1 pGoal (popFirst s).1 h2 h3
          have h5 := astar_potential_visitNeighbours h1 pGoal (popFirst s).1 h2 h3
          exact ⟨hw', t + 1, rank', h4, by omega, by omega⟩
      obtain ⟨hw, t, rank, hI2, ht, hφ2⟩ := step
      split_ifs with hgc
      · obtain ⟨l, hl1, _⟩ :=
          walkParents_spec hI2 F pGoal [] hg hgc (by have := (hI2.rank pGoal hg hgc).1; omega)
        rw [hl1]
        exact ⟨_, rfl⟩
      · exact astar_mainLoop_ends m pStart pGoal F hg fuel _ (Or.inr ⟨hw, t, rank, hI2, ht⟩) (by omega)

/-- The state in which `calculatePath` enters its main loop. -/
theorem astar_initialSearch_init (m : GridMap) (p : Planner) (start : Pos) (hrep : Represents m p)
    (hs : start.1 < m.width ∧ start.2 < m.height)
    (h2 : (p.rasterElements (start.2 * m.width + start.1)).list ≠ List_Unwalkable) :
    Init m (start.2 * m.width + start.1) (initialSearch p (start.2 * m.width + start.1)) := by
  obtain ⟨hw, hh, hrc⟩ := hrep
  have hsN := index_lt m.width m.height start.1 start.2 hs.1 hs.2
  set pStart := start.2 * m.width + start.1 with hpS
  set s0 := initialSearch p pStart with hs0
  have hl0 : ∀ c, (s0.re c).list = if c < m.width * m.height ∧
      (p.rasterElements c).list ≠ List_Unwalkable then List_None else (p.rasterElements c).list := by
    intro c
    simp only [hs0, initialSearch, upd_apply, hw, hh]
    split_ifs <;> simp_all
  have hxy0 : ∀ c, (s0.re c).x = (p.rasterElements c).x ∧ (s0.re c).y = (p.rasterElements c).y := by
    intro c
    simp only [hs0, initialSearch, upd_apply]
    split_ifs <;> simp_all
  refine ⟨?_, rfl, by simp [hs0, initialSearch], ⟨hsN, ?_⟩, ?_⟩
  · intro i hi
    rw [(hxy0 i).1, (hxy0 i).2, hl0]
    obtain ⟨r1, r2, r3⟩ := hrc i hi
    refine ⟨r1, r2, ?_⟩
    split_ifs with hc
    · constructor
      · intro hh'; cases hh'
      · intro hp; exact absurd (r3.2 hp) hc.2
    · have : (p.rasterElements i).list = List_Unwalkable := by
        by_contra hne; exact hc ⟨hi, hne⟩
      exact r3
  · rw [hl0, if_pos ⟨hsN, h2⟩]
  · intro c hc htc
    unfold Touched at htc
    rw [hl0] at htc
    split_ifs at htc with hc'
    · rcases htc with h3 | h3 <;> cases h3
    · have : (p.rasterElements c).list = List_Unwalkable := by
        by_contra hne; exact hc' ⟨hc, hne⟩
      rw [this] at htc
      rcases htc with h3 | h3 <;> cases h3

/-- `calculatePath` returns: the fuel of the model suffices for the main loop. -/
theorem astar_calculatePath_returns (m : GridMap) (p : Planner) (start goal : Pos)
    (hrep : Represents m p) (hs : start.1 < m.width ∧ start.2 < m.height)
    (hg : goal.1 < m.width ∧ goal.2 < m.height) :
    ∃ o, calculatePath p start goal = some o := by
  have hrep' := hrep
  obtain ⟨hw, hh, hrc⟩ := hrep
  unfold calculatePath
  simp only [hw, hh]
  have hgN := index_lt m.width m.height goal.1 goal.2 hg.1 hg.2
  split_ifs with h1 h2
  · exact ⟨_, rfl⟩
  · exact ⟨_, rfl⟩
  · have hinit := astar_initialSearch_init m p start hrep' hs h2
    have hφ : potential (m.width * m.height) (initialSearch p (start.2 * m.width + start.1)) <
        2 * (m.width * m.height) + 2 := by
      unfold potential
      have hb := sumBelow_bound (noneFlag (initialSearch p (start.2 * m.width + start.1)).re) 1
        (m.width * m.height) (fun c _ => by unfold noneFlag; split_ifs <;> omega)
      have hn : (initialSearch p (start.2 * m.width + start.1)).n = 1 := rfl
      omega
    obtain ⟨r, hr⟩ := astar_mainLoop_ends m (start.2 * m.width + start.1) (goal.2 * m.width + goal.1)
      (2 * (m.width * m.height) + 2) hgN (2 * (m.width * m.height) + 2) _
      (Or.inl ⟨hinit, le_refl _⟩) hφ
    rw [hr]
    cases r with
    | found s' path => exact ⟨_, rfl⟩
    | noPath s' => exact ⟨_, rfl⟩

/-- When no chain of free cells joins the free start and goal, `calculatePath` ends
with the error of line 297 and no path. -/
theorem astar_unconnected (m : GridMap) (p : Planner) (start goal : Pos)
    (hrep : Represents m p) (hs : FreeCell m start) (hg : FreeCell m goal)
    (hn : ¬ Connected m start goal) :
    ∃ o, calculatePath p start goal = some o ∧ o.path = [] ∧ o.error = "No Path found" := by
  have hrep' := hrep
  obtain ⟨hw, hh, hrc⟩ := hrep
  have hsN := index_lt m.width m.height start.1 start.2 hs.1 hs.2.1
  have hgN := index_lt m.width m.height goal.1 goal.2 hg.1 hg.2.1
  have hps : posOf m.width (start.2 * m.width + start.1) = start := posOf_index _ _ _ hs.1
  have hpg : posOf m.width (goal.2 * m.width + goal.1) = goal := posOf_index _ _ _ hg.1
  have hfree : ∀ c : Pos, FreeCell m c →
      (p.rasterElements (c.2 * m.width + c.1)).list ≠ List_Unwalkable := by
    intro c hc hl
    have h1 := (hrc _ (index_lt m.width m.height c.1 c.2 hc.1 hc.2.1)).2.2.1 hl
    have h2 := posOf_index m.width c.1 c.2 hc.1
    unfold posOf at h2
    rw [(Prod.mk.inj h2).1, (Prod.mk.inj h2).2, hc.2.2] at h1
    exact absurd h1 (by decide)
  obtain ⟨o, ho⟩ := astar_calculatePath_returns m p start goal hrep' ⟨hs.1, hs.2.1⟩ ⟨hg.1, hg.2.1⟩
  refine ⟨o, ho, ?_⟩
  unfold calculatePath at ho
  simp only [hw, hh] at ho
  rw [if_neg (hfree goal hg), if_neg (hfree start hs)] at ho
  have hinit := astar_initialSearch_init m p start hrep' ⟨hs.1, hs.2.1⟩ (hfree start hs)
  have hspec := mainLoop_spec m (start.2 * m.width + start.1) (goal.2 * m.width + goal.1)
    (2 * (m.width * m.height) + 2) hgN (2 * (m.width * m.height) + 2) _ (Or.inl ⟨hinit, le_refl _⟩)
  cases hml : mainLoop m.width m.height (start.2 * m.width + start.1) (goal.2 * m.width + goal.1)
      (2 * (m.width * m.height) + 2) (2 * (m.width * m.height) + 2)
      (initialSearch p (start.2 * m.width + start.1)) with
  | none => rw [hml] at ho; cases ho
  | some r =>
    have h3 := hspec r hml
    rw [hml] at ho
    cases r with
    | found s' path =>
      simp only at h3
      rw [hps, hpg] at h3
      exact absurd ⟨path, h3.2.1⟩ hn
    | noPath s' =>
      simp only [finish] at ho
      cases ho
      exact ⟨rfl, rfl⟩

end AStar

end RasterSim

namespace RasterSim

/-! ## A*: the open list never holds more cells than the map has -/

namespace AStar

open ListType

/-- The length of the open list plus the number of cells of the map that are on no
list. -/
def count (N : Nat) (s : Search) : Nat := s.n + sumBelow (noneFlag s.re) N

theorem astar_count_popFirst (N : Nat) (s : Search) (hn : s.n ≠ 0) :
    count N (popFirst s).2 + 1 ≤ count N s := by
  unfold count
  rw [astar_popFirst_n]
  have := sumBelow_le (noneFlag (popFirst s).2.re) (noneFlag s.re) N (fun c _ => by
    unfold noneFlag
    rw [astar_popFirst_list]
    split_ifs <;> simp_all)
  omega

/-- One direction of the neighbour loop does not raise the count: a cell that enters
the open list was on no list before. -/
theorem astar_count_visitNeighbour {m : GridMap} {pStart hw t : Nat} {rank : Nat → Nat}
    {s : Search} (h : Inv m pStart hw t rank s) (pGoal pRE ni : Nat) (hni : ni < 8)
    (hp : pRE < m.width * m.height) (hcl : (s.re pRE).list = List_Closed) :
    count (m.width * m.height) (visitNeighbour m.width m.height pGoal pRE s ni) ≤
      count (m.width * m.height) s := by
  unfold AStar.visitNeighbour
  simp only
  obtain ⟨rx, ry, _⟩ := h.rep pRE hp
  split_ifs with hb hptr h1 h2 h3
  · exact le_refl _
  · push_neg at hb
    rw [rx, ry] at hb
    obtain ⟨hN, hadj⟩ := neighbour_facts m.width m.height pRE ni hni hb.1 hb.2.1 hb.2.2.1 hb.2.2.2
    have hnone : (s.re ((pRE : Int) + neighbourhood_offsets m.width ni).toNat).list = List_None := by
      cases hl : (s.re ((pRE : Int) + neighbourhood_offsets m.width ni).toNat).list
      · rfl
      · exact absurd hl h3
      · exact absurd hl h1
      · exact absurd hl h2
    obtain ⟨hw', _, _, hn, hl⟩ := inv_openNeighbour h pRE _ pGoal ni hp hcl hN hnone hadj
    unfold count
    rw [hn]
    have := sumBelow_lt
      (noneFlag (openNeighbour s pRE ((pRE : Int) + neighbourhood_offsets m.width ni).toNat pGoal ni).re)
      (noneFlag s.re) ((pRE : Int) + neighbourhood_offsets m.width ni).toNat 1 (m.width * m.height)
      (fun c _ => by
        unfold noneFlag
        rw [hl]
        split_ifs <;> simp_all)
      hN (by
        unfold noneFlag
        rw [hl, hnone]
        simp)
    omega
  · push_neg at hb h3
    rw [rx, ry] at hb
    obtain ⟨hN, hadj⟩ := neighbour_facts m.width m.height pRE ni hni hb.1 hb.2.1 hb.2.2.1 hb.2.2.2
    obtain ⟨_, hl, hn⟩ := inv_improveNeighbour h pRE _ ni hp hcl hN h3 hadj
    unfold count
    rw [hn]
    have := sumBelow_congr
      (noneFlag (improveNeighbour s pRE ((pRE : Int) + neighbourhood_offsets m.width ni).toNat ni).re)
      (noneFlag s.re) (m.width * m.height) (fun c _ => by unfold noneFlag; rw [hl])
    omega
  · exact le_refl _
  · exact le_refl _
  · exact le_refl _

/-- Some directions of the neighbour loop, one after the other, keep the invariant and
do not raise the count. -/
theorem astar_count_fold {m : GridMap} {pStart t : Nat} {rank : Nat → Nat} (pGoal pRE : Nat)
    (hp : pRE < m.width * m.height) :
    ∀ (l : List Nat), (∀ ni ∈ l, ni < 8) → ∀ (s : Search) (hw : Nat),
      Inv m pStart hw t rank s → (s.re pRE).list = List_Closed →
      ∃ hw', Inv m pStart hw' t rank (l.foldl (visitNeighbour m.width m.height pGoal pRE) s) ∧
        count (m.width * m.height) (l.foldl (visitNeighbour m.width m.height pGoal pRE) s) ≤
          count (m.width * m.height) s := by
  intro l
  induction l with
  | nil => intro _ s hw hI _; exact ⟨hw, hI, le_refl _⟩
  | cons a l ih =>
    intro hl s hw hI hc
    obtain ⟨hw1, hI1, hc1⟩ := inv_visitNeighbour hI pGoal pRE a (hl a (List.mem_cons_self _ _)) hp hc
    have h1 := astar_count_visitNeighbour hI pGoal pRE a (hl a (List.mem_cons_self _ _)) hp hc
    obtain ⟨hw2, hI2, h2⟩ := ih (fun ni hni => hl ni (List.mem_cons_of_mem _ hni)) _ hw1 hI1 hc1
    exact ⟨hw2, hI2, le_trans h2 h1⟩

/-- One round of the main loop of `calculatePath`: the first cell is taken off the open
list and its eight neighbours are visited. -/
def round (width height pGoal : Nat) (s : Search) : Search :=
  visitNeighbours width height pGoal (popFirst s).1 (popFirst s).2

/-- The main loop goes on with the state `round` yields. -/
theorem astar_mainLoop_round (width height pStart pGoal walkFuel fuel : Nat) (s : Search) :
    mainLoop width height pStart pGoal walkFuel (fuel + 1) s =
      if s.n ≠ 0 then
        if ((round width height pGoal s).re pGoal).list = List_Closed then
          (walkParents (round width height pGoal s).re pStart walkFuel pGoal []).map
            (LoopEnd.found (round width height pGoal s))
        else mainLoop width height pStart pGoal walkFuel fuel (round width height pGoal s)
      else some (LoopEnd.noPath s) := rfl

/-- The states in which the main loop of `calculatePath` begins a round, from the state
`s0` in which it is entered. -/
inductive LoopHead (width height pGoal : Nat) (s0 : Search) : Search → Prop
  | entry : LoopHead width height pGoal s0 s0
  | next (s : Search) : LoopHead width height pGoal s0 s → s.n ≠ 0 →
      ((round width height pGoal s).re pGoal).list ≠ List_Closed →
      LoopHead width height pGoal s0 (round width height pGoal s)

/-- What holds when a round of the main loop begins. -/
def HeadCount (m : GridMap) (pStart : Nat) (s : Search) : Prop :=
  Init m pStart s ∨
    ((∃ hw t rank, Inv m pStart hw t rank s) ∧ count (m.width * m.height) s ≤ m.width * m.height)

/-- In a round of the main loop that begins with `HeadCount`, the open list holds no more
cells than the map has: at the start, after the first cell is taken off, and after each
of the eight directions; and `HeadCount` holds when the next round begins. -/
theorem astar_round_count {m : GridMap} {pStart : Nat} {s : Search} (pGoal : Nat)
    (h : HeadCount m pStart s) :
    s.n ≤ m.width * m.height ∧
      (s.n ≠ 0 →
        (∀ k, k ≤ 8 →
          ((List.range k).foldl (visitNeighbour m.width m.height pGoal (popFirst s).1)
            (popFirst s).2).n ≤ m.width * m.height) ∧
        HeadCount m pStart (round m.width m.height pGoal s)) := by
  have hpopped : s.n ≠ 0 → ∃ hw t rank, Inv m pStart hw t rank (popFirst s).2 ∧
      (popFirst s).1 < m.width * m.height ∧
      ((popFirst s).2.re (popFirst s).1).list = List_Closed ∧
      count (m.width * m.height) (popFirst s).2 ≤ m.width * m.height := by
    intro hn
    rcases h with hI | ⟨⟨hw, t, rank, hI⟩, hc⟩
    · obtain ⟨h1, h2, h3⟩ := init_popFirst hI
      refine ⟨1, 1, _, h1, by rw [h2]; exact hI.start.1, by rw [h2]; exact h3, ?_⟩
      unfold count
      rw [astar_popFirst_n, hI.n_eq]
      have hb := sumBelow_bound (noneFlag (popFirst s).2.re) 1 (m.width * m.height)
        (fun c _ => by unfold noneFlag; split_ifs <;> omega)
      omega
    · obtain ⟨rank', h1, h2, h3, _⟩ := inv_popFirst hI hn
      have := astar_count_popFirst (m.width * m.height) s hn
      exact ⟨hw, t + 1, rank', h1, h2, h3, by omega⟩
  refine ⟨?_, fun hn => ?_⟩
  · rcases h with hI | ⟨_, hc⟩
    · rw [hI.n_eq]
      have := hI.start.1
      omega
    · unfold count at hc
      omega
  · obtain ⟨hw, t, rank, hI, hp, hcl, hc⟩ := hpopped hn
    refine ⟨fun k hk => ?_, ?_⟩
    · obtain ⟨hw', _, h2⟩ := astar_count_fold pGoal (popFirst s).1 hp (List.range k)
        (fun ni hni => by have := List.mem_range.1 hni; omega) (popFirst s).2 hw hI hcl
      unfold count at h2 hc
      omega
    · obtain ⟨hw', h1, h2⟩ := astar_count_fold pGoal (popFirst s).1 hp (List.range 8)
        (fun ni hni => List.mem_range.1 hni) (popFirst s).2 hw hI hcl
      exact Or.inr ⟨⟨hw', t, rank, h1⟩, le_trans h2 hc⟩

theorem astar_loopHead_count {m : GridMap} {pStart pGoal : Nat} {s0 : Search}
    (h0 : Init m pStart s0) (s : Search) (hs : LoopHead m.width m.height pGoal s0 s) :
    HeadCount m pStart s := by
  induction hs with
  | entry => exact Or.inl h0
  | next s _ hn _ ih => exact ((astar_round_count pGoal ih).2 hn).2

end AStar

end RasterSim

namespace RasterSim

/-! ## The open list as an array of cells with back references

The three D* planners keep the open list in an array `openHeap[1 .. length]` and
store in every cell the slot it occupies. `SlotsOK` says that the two agree. -/

/-- The slots `1 .. len` of `oh` hold cells of the map that are members and know their
slot, and every member cell of the map occupies the slot it knows. -/
def SlotsOK (N : Nat) (oh idx : Nat → Nat) (len : Nat) (mem : Nat → Prop) : Prop :=
  (∀ i, 1 ≤ i → i ≤ len → oh i < N ∧ mem (oh i) ∧ idx (oh i) = i) ∧
  (∀ c, c < N → mem c → 1 ≤ idx c ∧ idx c ≤ len ∧ oh (idx c) = c)

/-- The array after the exchange of the slots `i` and `j`. -/
def swapHeap (oh : Nat → Nat) (i j : Nat) : Nat → Nat := upd (upd oh i (oh j)) j (oh i)

/-- The back references after the exchange of the slots `i` and `j`. -/
def swapIdx (oh idx : Nat → Nat) (i j : Nat) : Nat → Nat :=
  upd (upd idx (swapHeap oh i j i) i) (swapHeap oh i j j) j

theorem slotsOK_mem {N : Nat} {oh idx : Nat → Nat} {len : Nat} {mem mem' : Nat → Prop}
    (h : SlotsOK N oh idx len mem) (hm : ∀ c, c < N → (mem' c ↔ mem c)) :
    SlotsOK N oh idx len mem' :=
  ⟨fun i h1 h2 => ⟨(h.1 i h1 h2).1, (hm _ (h.1 i h1 h2).1).2 (h.1 i h1 h2).2.1, (h.1 i h1 h2).2.2⟩,
    fun c hc hmc => h.2 c hc ((hm c hc).1 hmc)⟩

theorem slotsOK_inj {N : Nat} {oh idx : Nat → Nat} {len : Nat} {mem : Nat → Prop}
    (h : SlotsOK N oh idx len mem) (i j : Nat) (hi1 : 1 ≤ i) (hi : i ≤ len) (hj1 : 1 ≤ j)
    (hj : j ≤ len) (he : oh i = oh j) : i = j := by
  have h1 := (h.1 i hi1 hi).2.2
  have h2 := (h.1 j hj1 hj).2.2
  rw [he] at h1
  omega

theorem swapHeap_apply (oh : Nat → Nat) (i j k : Nat) :
    swapHeap oh i j k = if k = j then oh i else if k = i then oh j else oh k := by
  simp only [swapHeap, upd_apply]

theorem swapIdx_apply (oh idx : Nat → Nat) (i j c : Nat) :
    swapIdx oh idx i j c =
      if c = oh i then j else if c = (if i = j then oh i else oh j) then i else idx c := by
  simp only [swapIdx, swapHeap, upd_apply]
  simp only [if_true]

/-- The exchange of two used slots keeps the open list in order. -/
theorem slotsOK_swap {N : Nat} {oh idx : Nat → Nat} {len : Nat} {mem : Nat → Prop}
    (h : SlotsOK N oh idx len mem) (i j : Nat) (hi1 : 1 ≤ i) (hi : i ≤ len) (hj1 : 1 ≤ j)
    (hj : j ≤ len) : SlotsOK N (swapHeap oh i j) (swapIdx oh idx i j) len mem := by
  constructor
  · intro k hk1 hk
    rw [swapHeap_apply, swapIdx_apply]
    by_cases hkj : k = j
    · subst hkj
      simp only [if_true]
      exact ⟨(h.1 i hi1 hi).1, (h.1 i hi1 hi).2.1, trivial⟩
    · rw [if_neg hkj]
      by_cases hki : k = i
      · subst hki
        rw [if_pos rfl, if_neg hkj]
        have hne : oh j ≠ oh k := fun he => hkj (slotsOK_inj h j k hj1 hj hk1 hk he).symm
        rw [if_neg hne, if_pos rfl]
        exact ⟨(h.1 j hj1 hj).1, (h.1 j hj1 hj).2.1, rfl⟩
      · rw [if_neg hki]
        have hne1 : oh k ≠ oh i := fun he => hki (slotsOK_inj h k i hk1 hk hi1 hi he)
        have hne2 : oh k ≠ (if i = j then oh i else oh j) := by
          split_ifs
          · exact hne1
          · exact fun he => hkj (slotsOK_inj h k j hk1 hk hj1 hj he)
        rw [if_neg hne1, if_neg hne2]
        exact h.1 k hk1 hk
  · intro c hc hm
    rw [swapIdx_apply]
    obtain ⟨c1, c2, c3⟩ := h.2 c hc hm
    by_cases hci : c = oh i
    · rw [if_pos hci, swapHeap_apply, if_pos rfl]
      exact ⟨hj1, hj, hci.symm⟩
    · rw [if_neg hci]
      by_cases hcj : c = (if i = j then oh i else oh j)
      · rw [if_pos hcj, swapHeap_apply]
        by_cases hij : i = j
        · rw [if_pos hij] at hcj; exact absurd hcj hci
        · rw [if_neg hij] at hcj
          rw [if_neg hij, if_pos rfl]
          exact ⟨hi1, hi, hcj.symm⟩
      · rw [if_neg hcj, swapHeap_apply]
        have hki : idx c ≠ i := fun he => hci (by rw [← c3, he])
        have hkj : idx c ≠ j := by
          intro he
          by_cases hij : i = j
          · exact hki (he.trans hij.symm)
          · rw [if_neg hij] at hcj
            exact hcj (by rw [← c3, he])
        rw [if_neg hkj, if_neg hki]
        exact ⟨c1, c2, c3⟩

/-- A cell that is no member yet is put into the slot after the last one. -/
theorem slotsOK_push {N : Nat} {oh idx : Nat → Nat} {len : Nat} {mem : Nat → Prop}
    (h : SlotsOK N oh idx len mem) (c : Nat) (hc : c < N) (hn : ¬ mem c) (mem' : Nat → Prop)
    (hm : ∀ d, d < N → (mem' d ↔ (d = c ∨ mem d))) :
    SlotsOK N (upd oh (len + 1) c) (upd idx c (len + 1)) (len + 1) mem' := by
  constructor
  · intro k hk1 hk
    simp only [upd_apply]
    by_cases hkl : k = len + 1
    · rw [if_pos hkl, if_pos rfl]
      exact ⟨hc, (hm c hc).2 (Or.inl rfl), hkl.symm⟩
    · rw [if_neg hkl]
      obtain ⟨a1, a2, a3⟩ := h.1 k hk1 (by omega)
      have hne : oh k ≠ c := fun he => hn (he ▸ a2)
      rw [if_neg hne]
      exact ⟨a1, (hm _ a1).2 (Or.inr a2), a3⟩
  · intro d hd hmd
    simp only [upd_apply]
    by_cases hdc : d = c
    · rw [if_pos hdc, if_pos rfl]
      exact ⟨by omega, le_refl _, hdc.symm⟩
    · rw [if_neg hdc]
      rcases (hm d hd).1 hmd with h1 | h1
      · exact absurd h1 hdc
      · obtain ⟨a1, a2, a3⟩ := h.2 d hd h1
        rw [if_neg (by omega)]
        exact ⟨a1, by omega, a3⟩

/-- Only the slots in use and the back references of the members matter. -/
theorem slotsOK_congr {N : Nat} {oh idx oh' idx' : Nat → Nat} {len : Nat} {mem : Nat → Prop}
    (h : SlotsOK N oh idx len mem) (ho : ∀ i, 1 ≤ i → i ≤ len → oh' i = oh i)
    (hi : ∀ d, d < N → mem d → idx' d = idx d) : SlotsOK N oh' idx' len mem := by
  constructor
  · intro i h1 h2
    obtain ⟨a1, a2, a3⟩ := h.1 i h1 h2
    rw [ho i h1 h2, hi _ a1 a2]
    exact ⟨a1, a2, a3⟩
  · intro c hc hm
    obtain ⟨a1, a2, a3⟩ := h.2 c hc hm
    rw [hi c hc hm, ho _ a1 a2]
    exact ⟨a1, a2, a3⟩

/-- The exchange of two used slots moves no back reference to or from zero. -/
theorem swapIdx_ne_zero {N : Nat} {oh idx : Nat → Nat} {len : Nat} {mem : Nat → Prop}
    (h : SlotsOK N oh idx len mem) (i j : Nat) (hi1 : 1 ≤ i) (hi : i ≤ len) (hj1 : 1 ≤ j)
    (hj : j ≤ len) (d : Nat) : swapIdx oh idx i j d ≠ 0 ↔ idx d ≠ 0 := by
  rw [swapIdx_apply]
  have e1 := (h.1 i hi1 hi).2.2
  have e2 := (h.1 j hj1 hj).2.2
  by_cases hdi : d = oh i
  · rw [if_pos hdi, hdi, e1]; omega
  · rw [if_neg hdi]
    by_cases hij : i = j
    · rw [if_pos hij, if_neg hdi]
    · rw [if_neg hij]
      by_cases hdj : d = oh j
      · rw [if_pos hdj, hdj, e2]; omega
      · rw [if_neg hdj]

/-- The first slot of an open list of at least two cells is given up: the cell of the
last slot takes it. -/
theorem slotsOK_pop {N : Nat} {oh idx : Nat → Nat} {len : Nat} {mem : Nat → Prop}
    (h : SlotsOK N oh idx len mem) (hl : 2 ≤ len) (mem' : Nat → Prop)
    (hm : ∀ d, d < N → (mem' d ↔ (d ≠ oh 1 ∧ mem d))) :
    SlotsOK N (upd oh 1 (oh len)) (upd idx (oh len) 1) (len - 1) mem' := by
  have hne : oh len ≠ oh 1 := fun he => by
    have := slotsOK_inj h len 1 (by omega) (le_refl _) (le_refl _) (by omega) he
    omega
  constructor
  · intro k hk1 hk
    simp only [upd_apply]
    by_cases hk1' : k = 1
    · rw [if_pos hk1', if_pos rfl]
      obtain ⟨a1, a2, _⟩ := h.1 len (by omega) (le_refl _)
      exact ⟨a1, (hm _ a1).2 ⟨hne, a2⟩, hk1'.symm⟩
    · rw [if_neg hk1']
      obtain ⟨a1, a2, a3⟩ := h.1 k hk1 (by omega)
      have hkl : oh k ≠ oh len := fun he => by
        have := slotsOK_inj h k len hk1 (by omega) (by omega) (le_refl _) he
        omega
      have hk0 : oh k ≠ oh 1 := fun he => hk1' (slotsOK_inj h k 1 hk1 (by omega) (le_refl _) (by omega) he)
      rw [if_neg hkl]
      exact ⟨a1, (hm _ a1).2 ⟨hk0, a2⟩, a3⟩
  · intro d hd hmd
    obtain ⟨hd1, hd2⟩ := (hm d hd).1 hmd
    obtain ⟨a1, a2, a3⟩ := h.2 d hd hd2
    simp only [upd_apply]
    by_cases hdl : d = oh len
    · rw [if_pos hdl, if_pos rfl]
      exact ⟨le_refl _, by omega, hdl.symm⟩
    · rw [if_neg hdl]
      have hk1 : idx d ≠ 1 := fun he => hd1 (by rw [← a3, he])
      have hkl : idx d ≠ len := fun he => hdl (by rw [← a3, he])
      rw [if_neg hk1]
      exact ⟨a1, by omega, a3⟩

/-- The only slot of an open list of one cell is given up. -/
theorem slotsOK_pop_last {N : Nat} {oh idx : Nat → Nat} {mem : Nat → Prop}
    (h : SlotsOK N oh idx 1 mem) (mem' : Nat → Prop)
    (hm : ∀ d, d < N → (mem' d ↔ (d ≠ oh 1 ∧ mem d))) (oh' idx' : Nat → Nat) :
    SlotsOK N oh' idx' 0 mem' := by
  constructor
  · intro k hk1 hk; omega
  · intro d hd hmd
    obtain ⟨hd1, hd2⟩ := (hm d hd).1 hmd
    obtain ⟨a1, a2, a3⟩ := h.2 d hd hd2
    have : idx d = 1 := by omega
    rw [this] at a3
    exact absurd a3.symm hd1

end RasterSim

namespace RasterSim

/-! ## The order of the keys in the open list

The loops `heapUp` and `heapDown` of the three D* planners differ in the keys they
compare only. Here they are written for an array of cells alone, with the keys of the
cells and the two tests as parameters, and shown to bring the keys into heap order. -/

section HeapOrder

variable {K : Type}

/-- The order `le` on the keys is transitive, and the tests of the two loops decide it:
`up a b` lets an item with key `a` change places with its parent with key `b`, `down a b`
lets an item with key `a` change places with its child with key `b`. -/
structure HeapTests (le : K → K → Prop) (up down : K → K → Bool) : Prop where
  trans : ∀ a b c, le a b → le b c → le a c
  up_true : ∀ a b, up a b = true → le a b
  up_false : ∀ a b, up a b = false → le b a
  down_true : ∀ a b, down a b = true → le b a
  down_false : ∀ a b, down a b = false → le a b

theorem heapTests_refl {le : K → K → Prop} {up down : K → K → Bool} (T : HeapTests le up down)
    (a : K) : le a a := by
  cases h : up a a
  · exact T.up_false a a h
  · exact T.up_true a a h

/-- The loop of `heapUp` on the array alone: the array at the end and the slot the item
has come to. -/
def absUp (up : K → K → Bool) (key : Nat → K) : Nat → (Nat → Nat) → Nat → (Nat → Nat) × Nat
  | 0, oh, i => (oh, i)
  | fuel + 1, oh, i =>
    if i ≠ 1 then
      if up (key (oh i)) (key (oh (i / 2))) then absUp up key fuel (swapHeap oh (i / 2) i) (i / 2)
      else (oh, i)
    else (oh, i)

/-- The slot the item in slot `i` is exchanged with in one round of `heapDown`. -/
def absTarget (down : K → K → Bool) (key : Nat → K) (oh : Nat → Nat) (len i : Nat) : Nat :=
  let i1 := if 2 * i ≤ len then (if down (key (oh i)) (key (oh (2 * i))) then 2 * i else i) else i
  if 2 * i + 1 ≤ len then (if down (key (oh i1)) (key (oh (2 * i + 1))) then 2 * i + 1 else i1)
  else i1

/-- The loop of `heapDown` on the array alone: the array at the end and the slot the
item has come to. -/
def absDown (down : K → K → Bool) (key : Nat → K) (len : Nat) :
    Nat → (Nat → Nat) → Nat → (Nat → Nat) × Nat
  | 0, oh, i => (oh, i)
  | fuel + 1, oh, i =>
    if i = absTarget down key oh len i then (oh, i)
    else absDown down key len fuel (swapHeap oh (absTarget down key oh len i) i)
      (absTarget down key oh len i)

/-- The key in every slot from the second one on is not below the key of its parent
slot. -/
def Ordered (le : K → K → Prop) (key : Nat → K) (oh : Nat → Nat) (len : Nat) : Prop :=
  ∀ j, 2 ≤ j → j ≤ len → le (key (oh (j / 2))) (key (oh j))

/-- The array is in order apart from slot `i`: all pairs of a slot and its parent that
leave out slot `i` are in order, and so are the parent of slot `i` and its children. -/
def OrderedBut (le : K → K → Prop) (key : Nat → K) (oh : Nat → Nat) (len i : Nat) : Prop :=
  (∀ j, 2 ≤ j → j ≤ len → j ≠ i → j / 2 ≠ i → le (key (oh (j / 2))) (key (oh j))) ∧
  (2 ≤ i → ∀ j, j ≤ len → j / 2 = i → le (key (oh (i / 2))) (key (oh j)))

/-- Slot `i` is in order with its parent. -/
def ParentOK (le : K → K → Prop) (key : Nat → K) (oh : Nat → Nat) (i : Nat) : Prop :=
  2 ≤ i → le (key (oh (i / 2))) (key (oh i))

/-- Slot `i` is in order with its children. -/
def ChildOK (le : K → K → Prop) (key : Nat → K) (oh : Nat → Nat) (len i : Nat) : Prop :=
  ∀ j, j ≤ len → j / 2 = i → le (key (oh i)) (key (oh j))

theorem ordered_of_parts {le : K → K → Prop} {key : Nat → K} {oh : Nat → Nat} {len i : Nat}
    (h : OrderedBut le key oh len i) (hp : ParentOK le key oh i) (hc : ChildOK le key oh len i) :
    Ordered le key oh len := by
  intro j hj1 hj2
  by_cases e1 : j = i
  · rw [e1]; exact hp (by omega)
  · by_cases e2 : j / 2 = i
    · rw [e2]; exact hc j hj2 e2
    · exact h.1 j hj1 hj2 e1 e2

theorem orderedBut_of_ordered {le : K → K → Prop} {up down : K → K → Bool}
    (T : HeapTests le up down) {key : Nat → K} {oh : Nat → Nat} {len : Nat}
    (h : Ordered le key oh len) (i : Nat) (hi : i ≤ len) : OrderedBut le key oh len i := by
  refine ⟨fun j h1 h2 _ _ => h j h1 h2, fun h2 j hj e => ?_⟩
  have a1 := h i h2 hi
  have a2 := h j (by omega) hj
  rw [e] at a2
  exact T.trans _ _ _ a1 a2

theorem parentOK_of_ordered {le : K → K → Prop} {key : Nat → K} {oh : Nat → Nat} {len : Nat}
    (h : Ordered le key oh len) (i : Nat) (hi : i ≤ len) : ParentOK le key oh i :=
  fun h2 => h i h2 hi

theorem childOK_of_ordered {le : K → K → Prop} {key : Nat → K} {oh : Nat → Nat} {len : Nat}
    (h : Ordered le key oh len) (i : Nat) (hi : 1 ≤ i) : ChildOK le key oh len i := by
  intro j hj e
  have := h j (by omega) hj
  rw [e] at this
  exact this

/-- The order depends on the keys of the cells in the slots only. -/
theorem ordered_congr {le : K → K → Prop} {key key' : Nat → K} {oh oh' : Nat → Nat} {len : Nat}
    (h : Ordered le key oh len) (he : ∀ j, 1 ≤ j → j ≤ len → key' (oh' j) = key (oh j)) :
    Ordered le key' oh' len := by
  intro j h1 h2
  rw [he j (by omega) h2, he (j / 2) (by omega) (by omega)]
  exact h j h1 h2

/-- The key of the cell in slot `i` alone has changed: the array is in order apart from
slot `i`. -/
theorem orderedBut_of_change {le : K → K → Prop} {up down : K → K → Bool}
    (T : HeapTests le up down) {key key' : Nat → K} {oh oh' : Nat → Nat} {len : Nat}
    (h : Ordered le key oh len) (i : Nat) (hi : i ≤ len)
    (he : ∀ j, 1 ≤ j → j ≤ len → j ≠ i → key' (oh' j) = key (oh j)) :
    OrderedBut le key' oh' len i := by
  have hb := orderedBut_of_ordered T h i hi
  constructor
  · intro j h1 h2 h3 h4
    rw [he j (by omega) h2 h3, he (j / 2) (by omega) (by omega) h4]
    exact hb.1 j h1 h2 h3 h4
  · intro h2 j hj e
    rw [he j (by omega) hj (by omega), he (i / 2) (by omega) (by omega) (by omega)]
    exact hb.2 h2 j hj e

/-- What the loop of `heapUp` achieves: the item is in order with its parent then, and
stays in order with its children if it was. -/
theorem absUp_spec {le : K → K → Prop} {up down : K → K → Bool} (T : HeapTests le up down)
    (key : Nat → K) (len : Nat) : ∀ (fuel : Nat) (oh : Nat → Nat) (i : Nat), 1 ≤ i → i ≤ len →
    i ≤ fuel → OrderedBut le key oh len i →
    1 ≤ (absUp up key fuel oh i).2 ∧ (absUp up key fuel oh i).2 ≤ i ∧
      (absUp up key fuel oh i).1 (absUp up key fuel oh i).2 = oh i ∧
      OrderedBut le key (absUp up key fuel oh i).1 len (absUp up key fuel oh i).2 ∧
      ParentOK le key (absUp up key fuel oh i).1 (absUp up key fuel oh i).2 ∧
      (ChildOK le key oh len i →
        ChildOK le key (absUp up key fuel oh i).1 len (absUp up key fuel oh i).2)
  | 0, oh, i, h1, _, h3, _ => by omega
  | fuel + 1, oh, i, h1, h2, h3, hb => by
    simp only [absUp]
    by_cases hi : i ≠ 1
    · rw [if_pos hi]
      cases hu : up (key (oh i)) (key (oh (i / 2)))
      · simp only [Bool.false_eq_true, if_false]
        exact ⟨h1, le_refl _, trivial, hb, fun _ => T.up_false _ _ hu, fun hc => hc⟩
      · simp only [if_true]
        have hxy := T.up_true _ _ hu
        have hpi : i / 2 ≠ i := by omega
        have s1 : swapHeap oh (i / 2) i (i / 2) = oh i := by
          rw [swapHeap_apply, if_neg hpi, if_pos rfl]
        have s2 : swapHeap oh (i / 2) i i = oh (i / 2) := by
          rw [swapHeap_apply, if_pos rfl]
        have s3 : ∀ j, j ≠ i → j ≠ i / 2 → swapHeap oh (i / 2) i j = oh j := by
          intro j e1 e2
          rw [swapHeap_apply, if_neg e1, if_neg e2]
        have hb' : OrderedBut le key (swapHeap oh (i / 2) i) len (i / 2) := by
          constructor
          · intro j j1 j2 j3 j4
            have j5 : j ≠ i := fun e => j4 (by rw [e])
            by_cases j6 : j / 2 = i
            · rw [j6, s2, s3 j j5 j3]
              exact hb.2 (by omega) j j2 j6
            · rw [s3 j j5 j3, s3 (j / 2) j6 j4]
              exact hb.1 j j1 j2 j5 j6
          · intro p2 j j2 j3
            have q1 : i / 2 / 2 ≠ i := by omega
            have q2 : i / 2 / 2 ≠ i / 2 := by omega
            rw [s3 _ q1 q2]
            have hpar := hb.1 (i / 2) p2 (by omega) hpi q1
            by_cases j5 : j = i
            · rw [j5, s2]; exact hpar
            · rw [s3 j j5 (by omega)]
              have hs := hb.1 j (by omega) j2 j5 (by omega)
              rw [j3] at hs
              exact T.trans _ _ _ hpar hs
        have hc' : ChildOK le key (swapHeap oh (i / 2) i) len (i / 2) := by
          intro j j2 j3
          rw [s1]
          by_cases j5 : j = i
          · rw [j5, s2]; exact hxy
          · rw [s3 j j5 (by omega)]
            have hs := hb.1 j (by omega) j2 j5 (by omega)
            rw [j3] at hs
            exact T.trans _ _ _ hxy hs
        obtain ⟨r1, r2, r3, r4, r5, r6⟩ := absUp_spec T key len fuel (swapHeap oh (i / 2) i) (i / 2)
          (by omega) (by omega) (by omega) hb'
        exact ⟨r1, by omega, r3.trans s1, r4, r5, fun _ => r6 hc'⟩
    · rw [if_neg hi]
      exact ⟨h1, le_refl _, rfl, hb, fun h2 => by omega, fun hc => hc⟩

/-- The slot the item goes to in one round of `heapDown`: either it stays, in order with
its children, or it goes to a child that is in order with the item and the other
child. -/
theorem absTarget_spec {le : K → K → Prop} {up down : K → K → Bool} (T : HeapTests le up down)
    (key : Nat → K) (oh : Nat → Nat) (len i : Nat) (hi : 1 ≤ i) :
    (absTarget down key oh len i = i ∧ ChildOK le key oh len i) ∨
    (absTarget down key oh len i ≠ i ∧ absTarget down key oh len i / 2 = i ∧
      absTarget down key oh len i ≤ len ∧
      le (key (oh (absTarget down key oh len i))) (key (oh i)) ∧
      ∀ j, j ≤ len → j / 2 = i → le (key (oh (absTarget down key oh len i))) (key (oh j))) := by
  have hch : ∀ j, j / 2 = i → j = 2 * i ∨ j = 2 * i + 1 := fun j e => by omega
  unfold absTarget
  simp only
  by_cases c1 : 2 * i ≤ len
  · rw [if_pos c1]
    cases d1 : down (key (oh i)) (key (oh (2 * i)))
    · simp only [Bool.false_eq_true, if_false]
      have l1 := T.down_false _ _ d1
      by_cases c2 : 2 * i + 1 ≤ len
      · rw [if_pos c2]
        cases d2 : down (key (oh i)) (key (oh (2 * i + 1)))
        · simp only [Bool.false_eq_true, if_false]
          have l2 := T.down_false _ _ d2
          refine Or.inl ⟨trivial, fun j _ e => ?_⟩
          rcases hch j e with e' | e' <;> rw [e'] <;> assumption
        · simp only [if_true]
          have l2 := T.down_true _ _ d2
          refine Or.inr ⟨by omega, by omega, c2, l2, fun j _ e => ?_⟩
          rcases hch j e with e' | e' <;> rw [e']
          · exact T.trans _ _ _ l2 l1
          · exact heapTests_refl T _
      · rw [if_neg c2]
        refine Or.inl ⟨rfl, fun j hj e => ?_⟩
        rcases hch j e with e' | e'
        · rw [e']; exact l1
        · omega
    · simp only [if_true]
      have l1 := T.down_true _ _ d1
      by_cases c2 : 2 * i + 1 ≤ len
      · rw [if_pos c2]
        cases d2 : down (key (oh (2 * i))) (key (oh (2 * i + 1)))
        · simp only [Bool.false_eq_true, if_false]
          have l2 := T.down_false _ _ d2
          refine Or.inr ⟨by omega, by omega, c1, l1, fun j _ e => ?_⟩
          rcases hch j e with e' | e' <;> rw [e']
          · exact heapTests_refl T _
          · exact l2
        · simp only [if_true]
          have l2 := T.down_true _ _ d2
          refine Or.inr ⟨by omega, by omega, c2, T.trans _ _ _ l2 l1, fun j _ e => ?_⟩
          rcases hch j e with e' | e' <;> rw [e']
          · exact l2
          · exact heapTests_refl T _
      · rw [if_neg c2]
        refine Or.inr ⟨by omega, by omega, c1, l1, fun j hj e => ?_⟩
        rcases hch j e with e' | e'
        · rw [e']; exact heapTests_refl T _
        · omega
  · rw [if_neg c1, if_neg (by omega)]
    refine Or.inl ⟨rfl, fun j hj e => ?_⟩
    rcases hch j e with e' | e' <;> omega

/-- What the loop of `heapDown` achieves: the item is in order with its children then,
and stays in order with its parent if it was. -/
theorem absDown_spec {le : K → K → Prop} {up down : K → K → Bool} (T : HeapTests le up down)
    (key : Nat → K) (len : Nat) : ∀ (fuel : Nat) (oh : Nat → Nat) (i : Nat), 1 ≤ i → i ≤ len →
    len + 1 ≤ i + fuel → OrderedBut le key oh len i →
    i ≤ (absDown down key len fuel oh i).2 ∧ (absDown down key len fuel oh i).2 ≤ len ∧
      (absDown down key len fuel oh i).1 (absDown down key len fuel oh i).2 = oh i ∧
      OrderedBut le key (absDown down key len fuel oh i).1 len (absDown down key len fuel oh i).2 ∧
      ChildOK le key (absDown down key len fuel oh i).1 len (absDown down key len fuel oh i).2 ∧
      (ParentOK le key oh i →
        ParentOK le key (absDown down key len fuel oh i).1 (absDown down key len fuel oh i).2)
  | 0, oh, i, h1, h2, h3, _ => by omega
  | fuel + 1, oh, i, h1, h2, h3, hb => by
    simp only [absDown]
    rcases absTarget_spec T key oh len i h1 with ⟨e, hc⟩ | ⟨t1, t2, t3, t4, t5⟩
    · rw [if_pos e.symm]
      exact ⟨le_refl _, h2, rfl, hb, hc, fun hp => hp⟩
    · rw [if_neg (fun e => t1 e.symm)]
      generalize absTarget down key oh len i = t at t1 t2 t3 t4 t5
      have s1 : swapHeap oh t i t = oh i := by
        rw [swapHeap_apply, if_neg t1, if_pos rfl]
      have s2 : swapHeap oh t i i = oh t := by
        rw [swapHeap_apply, if_pos rfl]
      have s3 : ∀ j, j ≠ i → j ≠ t → swapHeap oh t i j = oh j := by
        intro j e1 e2
        rw [swapHeap_apply, if_neg e1, if_neg e2]
      have hb' : OrderedBut le key (swapHeap oh t i) len t := by
        constructor
        · intro j j1 j2 j3 j4
          by_cases j5 : j = i
          · rw [j5, s2, s3 (i / 2) (by omega) (by omega)]
            exact hb.2 (by omega) t t3 t2
          · by_cases j6 : j / 2 = i
            · rw [j6, s2, s3 j j5 j3]
              exact t5 j j2 j6
            · rw [s3 j j5 j3, s3 (j / 2) j6 j4]
              exact hb.1 j j1 j2 j5 j6
        · intro p2 j j2 j3
          rw [t2, s2, s3 j (by omega) (by omega)]
          have := hb.1 j (by omega) j2 (by omega) (by omega)
          rw [j3] at this
          exact this
      have hp' : ParentOK le key (swapHeap oh t i) t := by
        intro _
        rw [t2, s2, s1]
        exact t4
      obtain ⟨r1, r2, r3, r4, r5, r6⟩ := absDown_spec T key len fuel (swapHeap oh t i) t
        (by omega) t3 (by omega) hb'
      exact ⟨by omega, r2, r3.trans s1, r4, r5, fun _ => r6 hp'⟩

/-- An item that is in order with its parent stays where it is in `heapUp`. -/
theorem absUp_stay {up : K → K → Bool} (key : Nat → K)
    (fuel : Nat) (oh : Nat → Nat) (i : Nat)
    (h : i ≠ 1 → up (key (oh i)) (key (oh (i / 2))) = false) :
    absUp up key fuel oh i = (oh, i) := by
  cases fuel with
  | zero => rfl
  | succ f =>
    simp only [absUp]
    by_cases hi : i ≠ 1
    · rw [if_pos hi, h hi]
      simp
    · rw [if_neg hi]

/-- The order is kept when the open list gets shorter. -/
theorem ordered_shrink {le : K → K → Prop} {key : Nat → K} {oh : Nat → Nat} {len len' : Nat}
    (h : Ordered le key oh len) (hl : len' ≤ len) : Ordered le key oh len' :=
  fun j h1 h2 => h j h1 (by omega)

/-- A cell put into the slot after the last one: the array is in order apart from this
slot, which has no children. -/
theorem orderedBut_push {le : K → K → Prop} {key : Nat → K} {oh : Nat → Nat} {len : Nat}
    (h : Ordered le key oh len) (c : Nat) :
    OrderedBut le key (upd oh (len + 1) c) (len + 1) (len + 1) ∧
      ChildOK le key (upd oh (len + 1) c) (len + 1) (len + 1) := by
  refine ⟨⟨fun j j1 j2 j3 _ => ?_, fun _ j j2 j3 => by omega⟩, fun j j2 j3 => by omega⟩
  rw [upd_other _ _ _ _ (by omega : j ≠ len + 1), upd_other _ _ _ _ (by omega : j / 2 ≠ len + 1)]
  exact h j j1 (by omega)

/-- The cell of the last slot put into slot `i`: the shorter array is in order apart
from slot `i`. -/
theorem orderedBut_take {le : K → K → Prop} {up down : K → K → Bool}
    (T : HeapTests le up down) {key : Nat → K} {oh : Nat → Nat} {len : Nat}
    (h : Ordered le key oh len) (i : Nat) (hi : i < len) :
    OrderedBut le key (upd oh i (oh len)) (len - 1) i :=
  orderedBut_of_change T (ordered_shrink h (Nat.sub_le len 1)) i (by omega)
    (fun j _ _ j3 => by rw [upd_other _ _ _ _ j3])

end HeapOrder

/-- The slots `1 .. len` of the open list hold at most `N` cells. -/
theorem slotsOK_len_le {N : Nat} {oh idx : Nat → Nat} {len : Nat} {mem : Nat → Prop}
    (h : SlotsOK N oh idx len mem) : len ≤ N := by
  have hinj : Set.InjOn oh (Finset.Icc 1 len : Finset Nat) := by
    intro a ha b hb e
    simp only [Finset.coe_Icc, Set.mem_Icc] at ha hb
    exact slotsOK_inj h a b ha.1 ha.2 hb.1 hb.2 e
  have hmaps : ∀ a ∈ Finset.Icc 1 len, oh a ∈ Finset.range N := by
    intro a ha
    simp only [Finset.mem_Icc] at ha
    exact Finset.mem_range.2 (h.1 a ha.1 ha.2).1
  have := Finset.card_le_card_of_injOn oh hmaps hinj
  simpa using this

/-- The cell of slot `i` is given up: the cell of the last slot takes its slot. -/
theorem slotsOK_take {N : Nat} {oh idx : Nat → Nat} {len : Nat} {mem : Nat → Prop}
    (h : SlotsOK N oh idx len mem) (i : Nat) (hi1 : 1 ≤ i) (hi : i < len) (mem' : Nat → Prop)
    (hm : ∀ d, d < N → (mem' d ↔ (d ≠ oh i ∧ mem d))) :
    SlotsOK N (upd oh i (oh len)) (upd idx (oh len) i) (len - 1) mem' := by
  have hne : oh len ≠ oh i := fun he => by
    have := slotsOK_inj h len i (by omega) (le_refl _) hi1 (by omega) he
    omega
  constructor
  · intro k hk1 hk
    simp only [upd_apply]
    by_cases hki : k = i
    · rw [if_pos hki, if_pos rfl]
      obtain ⟨a1, a2, _⟩ := h.1 len (by omega) (le_refl _)
      exact ⟨a1, (hm _ a1).2 ⟨hne, a2⟩, hki.symm⟩
    · rw [if_neg hki]
      obtain ⟨a1, a2, a3⟩ := h.1 k hk1 (by omega)
      have hkl : oh k ≠ oh len := fun he => by
        have := slotsOK_inj h k len hk1 (by omega) (by omega) (le_refl _) he
        omega
      have hk0 : oh k ≠ oh i :=
        fun he => hki (slotsOK_inj h k i hk1 (by omega) hi1 (by omega) he)
      rw [if_neg hkl]
      exact ⟨a1, (hm _ a1).2 ⟨hk0, a2⟩, a3⟩
  · intro d hd hmd
    obtain ⟨hd1, hd2⟩ := (hm d hd).1 hmd
    obtain ⟨a1, a2, a3⟩ := h.2 d hd hd2
    simp only [upd_apply]
    by_cases hdl : d = oh len
    · rw [if_pos hdl, if_pos rfl]
      exact ⟨hi1, by omega, hdl.symm⟩
    · rw [if_neg hdl]
      have hk1 : idx d ≠ i := fun he => hd1 (by rw [← a3, he])
      have hkl : idx d ≠ len := fun he => hdl (by rw [← a3, he])
      rw [if_neg hk1]
      exact ⟨a1, by omega, a3⟩

/-- The cell of the last slot is given up. -/
theorem slotsOK_drop_last {N : Nat} {oh idx : Nat → Nat} {len : Nat} {mem : Nat → Prop}
    (h : SlotsOK N oh idx len mem) (hl : 1 ≤ len) (mem' : Nat → Prop)
    (hm : ∀ d, d < N → (mem' d ↔ (d ≠ oh len ∧ mem d))) :
    SlotsOK N oh idx (len - 1) mem' := by
  constructor
  · intro k hk1 hk
    obtain ⟨a1, a2, a3⟩ := h.1 k hk1 (by omega)
    have hkl : oh k ≠ oh len := fun he => by
      have := slotsOK_inj h k len hk1 (by omega) (by omega) (le_refl _) he
      omega
    exact ⟨a1, (hm _ a1).2 ⟨hkl, a2⟩, a3⟩
  · intro d hd hmd
    obtain ⟨hd1, hd2⟩ := (hm d hd).1 hmd
    obtain ⟨a1, a2, a3⟩ := h.2 d hd hd2
    have hkl : idx d ≠ len := fun he => hd1 (by rw [← a3, he])
    exact ⟨a1, by omega, a3⟩

theorem upd_self {α : Type} (a : Nat → α) (i : Nat) : upd a i (a i) = a := by
  funext j
  rw [upd_apply]
  split_ifs with h
  · rw [h]
  · rfl

end RasterSim

namespace RasterSim

/-! ## D*: the path that is set is a chain from the start to the goal -/

theorem adjacent_symm {a b : Pos} (h : Adjacent a b) : Adjacent b a :=
  ⟨fun e => h.1 e.symm, h.2.2.1, h.2.1, h.2.2.2.2, h.2.2.2.1⟩

/-- A property that every round of a fold keeps holds at its end. -/
theorem foldl_keeps {α β : Type} (P : β → Prop) (f : β → α → β) :
    ∀ (l : List α) (b : β), (∀ b a, a ∈ l → P b → P (f b a)) → P b → P (l.foldl f b)
  | [], _, _, hb => hb
  | a :: l, b, h, hb =>
    foldl_keeps P f l (f b a) (fun b' a' ha' => h b' a' (List.mem_cons_of_mem _ ha'))
      (h b a (List.mem_cons_self _ _) hb)

/-- The entries of the neighbour list of lines 310-323: cells of the map whose stored
position is adjacent to the stored position of `pMin`. -/
theorem neighborsWithCost_mem (cardinal diagonal w h : Nat) (cellX cellY : Nat → Nat)
    (isBlocked : Nat → Bool) (pMin n c : Nat)
    (hm : (n, c) ∈ DStar.neighborsWithCost cardinal diagonal w h cellX cellY isBlocked pMin) :
    n < w * h ∧ Adjacent (cellX pMin, cellY pMin) (n % w, n / w) := by
  unfold DStar.neighborsWithCost at hm
  simp only [List.mem_flatMap, List.mem_filterMap] at hm
  obtain ⟨dy, hdy, dx, hdx, hsome⟩ := hm
  by_cases h1 : (cellY pMin : Int) + dy = (cellY pMin : Int) ∧ (cellX pMin : Int) + dx = (cellX pMin : Int)
  · rw [if_pos h1] at hsome; cases hsome
  rw [if_neg h1] at hsome
  by_cases h2 : (cellY pMin : Int) + dy < 0 ∨ (cellY pMin : Int) + dy ≥ (h : Int) ∨
      (cellX pMin : Int) + dx < 0 ∨ (cellX pMin : Int) + dx ≥ (w : Int)
  · rw [if_pos h2] at hsome; cases hsome
  rw [if_neg h2] at hsome
  simp only [Option.some.injEq, Prod.mk.injEq] at hsome
  obtain ⟨hn, _⟩ := hsome
  push_neg at h2
  obtain ⟨hy0, hy1, hx0, hx1⟩ := h2
  obtain ⟨x, hx⟩ := Int.eq_ofNat_of_zero_le hx0
  obtain ⟨y, hy⟩ := Int.eq_ofNat_of_zero_le hy0
  have hxw : x < w := by
    have : (x : Int) < w := by rw [← hx]; exact hx1
    exact_mod_cast this
  have hyh : y < h := by
    have : (y : Int) < h := by rw [← hy]; exact hy1
    exact_mod_cast this
  have hnn : n = y * w + x := by
    rw [← hn, hx, hy]
    have : ((y : Int) * (w : Int) + (x : Int)) = ((y * w + x : Nat) : Int) := by push_cast; ring
    rw [this, Int.toNat_ofNat]
  have hpos := posOf_index w x y hxw
  unfold posOf at hpos
  rw [← hnn] at hpos
  have hp1 : n % w = x := congrArg Prod.fst hpos
  have hp2 : n / w = y := congrArg Prod.snd hpos
  refine ⟨by rw [hnn]; exact index_lt w h x y hxw hyh, ?_⟩
  rw [hp1, hp2]
  have hdx' : dx = -1 ∨ dx = 0 ∨ dx = 1 := by simpa using hdx
  have hdy' : dy = -1 ∨ dy = 0 ∨ dy = 1 := by simpa using hdy
  unfold Adjacent
  simp only
  refine ⟨?_, ?_, ?_, ?_, ?_⟩
  · intro he
    have e1 := congrArg Prod.fst he
    have e2 := congrArg Prod.snd he
    simp only at e1 e2
    apply h1
    constructor
    · rw [hy, e2]
    · rw [hx, e1]
  all_goals omega

/-- Following the backpointers yields a chain from the cell it starts at to the goal. -/
theorem followBackPtrs_spec (blocked : Nat → Bool) (backPtr : Nat → Option Nat) (pos : Nat → Pos)
    (pGoal : Nat) (hback : ∀ c b, backPtr c = some b → Adjacent (pos c) (pos b)) :
    ∀ (remaining pCell : Nat) (path l : List Pos),
      DStar.followBackPtrs blocked backPtr pos pGoal remaining pCell path = Except.ok l →
      ∃ l', l = path ++ l' ∧ l'.head? = some (pos pCell) ∧ l'.getLast? = some (pos pGoal) ∧
        IsChain l' ∧ (pCell = pGoal → l' = [pos pCell])
  | remaining, pCell, path, l, h => by
    unfold DStar.followBackPtrs at h
    split_ifs at h with hb hg
    · subst hg
      simp only [Except.ok.injEq] at h
      exact ⟨[pos pCell], h.symm, rfl, rfl, trivial, fun _ => rfl⟩
    · cases hbp : backPtr pCell with
      | none => simp only [hbp] at h; cases h
      | some next =>
        simp only [hbp] at h
        cases remaining with
        | zero => simp only at h; cases h
        | succ r =>
          simp only at h
          obtain ⟨l', h1, h2, h3, h4, _⟩ :=
            followBackPtrs_spec blocked backPtr pos pGoal hback r next (path ++ [pos pCell]) l h
          refine ⟨pos pCell :: l', by rw [h1]; simp, rfl, ?_, ?_, fun he => absurd he hg⟩
          · cases l' with
            | nil => simp at h2
            | cons a t => simpa [List.getLast?_cons_cons] using h3
          · cases l' with
            | nil => simp at h2
            | cons a t =>
              simp only [List.head?_cons, Option.some.injEq] at h2
              subst h2
              exact ⟨hback pCell next hbp, h4⟩

namespace DStar

open ListType

/-- Two states with the same map size, cell positions and backpointers. -/
def Frame (p p' : Planner) : Prop :=
  p'.width = p.width ∧ p'.height = p.height ∧
  ∀ i, (p'.cells i).x = (p.cells i).x ∧ (p'.cells i).y = (p.cells i).y ∧
    (p'.cells i).backPtr = (p.cells i).backPtr

theorem dstar_frame_refl (p : Planner) : Frame p p := ⟨rfl, rfl, fun _ => ⟨rfl, rfl, rfl⟩⟩

theorem dstar_frame_trans {p1 p2 p3 : Planner} (h12 : Frame p1 p2) (h23 : Frame p2 p3) : Frame p1 p3 :=
  ⟨h23.1.trans h12.1, h23.2.1.trans h12.2.1, fun i =>
    ⟨(h23.2.2 i).1.trans (h12.2.2 i).1, (h23.2.2 i).2.1.trans (h12.2.2 i).2.1,
      (h23.2.2 i).2.2.trans (h12.2.2 i).2.2⟩⟩

theorem dstar_swapSlots_frame (p : Planner) (i j : Nat) : Frame p (swapSlots p i j) := by
  refine ⟨rfl, rfl, fun c => ?_⟩
  simp only [swapSlots, upd_apply]
  split_ifs <;> simp_all

theorem dstar_heapUpLoop_frame : ∀ (fuel : Nat) (p : Planner) (idx : Nat), Frame p (heapUpLoop fuel p idx)
  | 0, p, _ => dstar_frame_refl p
  | fuel + 1, p, idx => by
    simp only [heapUpLoop]
    split_ifs
    · exact dstar_frame_trans (dstar_swapSlots_frame p _ _) (dstar_heapUpLoop_frame fuel _ _)
    · exact dstar_frame_refl p
    · exact dstar_frame_refl p

theorem dstar_heapDownLoop_frame : ∀ (fuel : Nat) (p : Planner) (idx : Nat),
    Frame p (heapDownLoop fuel p idx)
  | 0, p, _ => dstar_frame_refl p
  | fuel + 1, p, idx => by
    simp only [heapDownLoop]
    split_ifs
    · exact dstar_frame_trans (dstar_swapSlots_frame p _ _) (dstar_heapDownLoop_frame fuel _ _)
    · exact dstar_frame_refl p

theorem dstar_heapUp_frame (p : Planner) (c : Nat) : Frame p (heapUp p c) := by
  unfold heapUp
  split_ifs
  · exact dstar_frame_refl p
  · exact dstar_heapUpLoop_frame _ _ _

theorem dstar_heapDown_frame (p : Planner) (c : Nat) : Frame p (heapDown p c) := by
  unfold heapDown
  split_ifs
  · exact dstar_frame_refl p
  · exact dstar_heapDownLoop_frame _ _ _

theorem dstar_frame_cells (p : Planner) (c : Nat) (c' : Cell) (heap : Nat → Nat) (len : Nat)
    (hx : c'.x = (p.cells c).x) (hy : c'.y = (p.cells c).y)
    (hb : c'.backPtr = (p.cells c).backPtr) :
    Frame p { p with cells := upd p.cells c c', openHeap := heap, openListLength := len } := by
  refine ⟨rfl, rfl, fun i => ?_⟩
  simp only [upd_apply]
  split_ifs with hi
  · subst hi; exact ⟨hx, hy, hb⟩
  · exact ⟨rfl, rfl, rfl⟩

theorem dstar_insert_frame (p : Planner) (c h : Nat) : Frame p (insert p c h) := by
  unfold insert
  simp only
  by_cases h1 : (p.cells c).list = List_Open
  · rw [if_pos h1]
    refine dstar_frame_trans (dstar_frame_trans ?_ (dstar_heapUp_frame _ c)) (dstar_heapDown_frame _ c)
    exact dstar_frame_cells p c _ _ _ rfl rfl rfl
  · rw [if_neg h1]
    refine dstar_frame_trans ?_ (dstar_heapUp_frame _ c)
    refine dstar_frame_cells p c _ _ _ ?_ ?_ ?_
    · simp only; split_ifs <;> rfl
    · simp only; split_ifs <;> rfl
    · simp only; split_ifs <;> rfl

/-- The state of the D* planner fits a map size: the cells carry the positions of
their indices and every backpointer leads to a cell at an adjacent position. -/
structure AlgInv (p : Planner) (size : Nat × Nat) : Prop where
  width : p.width = size.1
  height : p.height = size.2
  fits : size.1 ≤ USHORT ∧ size.2 ≤ USHORT
  coords : ∀ i, i < size.1 * size.2 → (p.cells i).x = i % size.1 ∧ (p.cells i).y = i / size.1
  back : ∀ c b, (p.cells c).backPtr = some b →
    Adjacent ((p.cells c).x, (p.cells c).y) ((p.cells b).x, (p.cells b).y)

theorem dstar_algInv_of_frame {p p' : Planner} {size : Nat × Nat} (h : AlgInv p size)
    (hf : Frame p p') : AlgInv p' size := by
  refine ⟨hf.1.trans h.width, hf.2.1.trans h.height, h.fits, ?_, ?_⟩
  · intro i hi
    rw [(hf.2.2 i).1, (hf.2.2 i).2.1]
    exact h.coords i hi
  · intro c b hb
    rw [(hf.2.2 c).2.2] at hb
    rw [(hf.2.2 c).1, (hf.2.2 c).2.1, (hf.2.2 b).1, (hf.2.2 b).2.1]
    exact h.back c b hb

/-- Setting a backpointer to a cell at an adjacent position keeps the invariant. -/
theorem dstar_algInv_setBack {p : Planner} {size : Nat × Nat} (h : AlgInv p size) (c b : Nat)
    (c' : Cell) (hx : c'.x = (p.cells c).x) (hy : c'.y = (p.cells c).y)
    (hb : c'.backPtr = some b)
    (hadj : Adjacent ((p.cells c).x, (p.cells c).y) ((p.cells b).x, (p.cells b).y)) :
    AlgInv { p with cells := upd p.cells c c' } size := by
  have hxy : ∀ i, ((upd p.cells c c') i).x = (p.cells i).x ∧ ((upd p.cells c c') i).y = (p.cells i).y := by
    intro i
    simp only [upd_apply]
    split_ifs with hi
    · subst hi; exact ⟨hx, hy⟩
    · exact ⟨rfl, rfl⟩
  refine ⟨h.width, h.height, h.fits, ?_, ?_⟩
  · intro i hi
    show ((upd p.cells c c') i).x = _ ∧ ((upd p.cells c c') i).y = _
    rw [(hxy i).1, (hxy i).2]
    exact h.coords i hi
  · intro c1 b1 hb1
    show Adjacent (((upd p.cells c c') c1).x, ((upd p.cells c c') c1).y)
      (((upd p.cells c c') b1).x, ((upd p.cells c c') b1).y)
    rw [(hxy c1).1, (hxy c1).2, (hxy b1).1, (hxy b1).2]
    have hb1' : ((upd p.cells c c') c1).backPtr = some b1 := hb1
    simp only [upd_apply] at hb1'
    split_ifs at hb1' with hc1
    · subst hc1
      rw [hb] at hb1'
      simp only [Option.some.injEq] at hb1'
      subst hb1'
      exact hadj
    · exact h.back c1 b1 hb1'

/-- The neighbours of a cell lie at positions adjacent to it. -/
theorem dstar_neighbors_adjacent {p : Planner} {size : Nat × Nat} (h : AlgInv p size)
    (pMin n c : Nat) (hm : (n, c) ∈ p.neighbors pMin) :
    Adjacent ((p.cells pMin).x, (p.cells pMin).y) ((p.cells n).x, (p.cells n).y) := by
  unfold Planner.neighbors at hm
  obtain ⟨h1, h2⟩ := neighborsWithCost_mem _ _ _ _ _ _ _ _ _ _ hm
  rw [h.width, h.height] at h1
  obtain ⟨c1, c2⟩ := h.coords n h1
  rw [c1, c2, ← h.width]
  exact h2

/-- Two states whose cells carry the same positions. -/
def SameXY (p q : Planner) : Prop :=
  ∀ i, (q.cells i).x = (p.cells i).x ∧ (q.cells i).y = (p.cells i).y

theorem dstar_sameXY_refl (p : Planner) : SameXY p p := fun _ => ⟨rfl, rfl⟩

theorem dstar_sameXY_trans {p1 p2 p3 : Planner} (h12 : SameXY p1 p2) (h23 : SameXY p2 p3) :
    SameXY p1 p3 :=
  fun i => ⟨(h23 i).1.trans (h12 i).1, (h23 i).2.trans (h12 i).2⟩

theorem dstar_sameXY_of_frame {p q : Planner} (h : Frame p q) : SameXY p q :=
  fun i => ⟨(h.2.2 i).1, (h.2.2 i).2.1⟩

theorem dstar_sameXY_upd (p : Planner) (c : Nat) (c' : Cell) (hx : c'.x = (p.cells c).x)
    (hy : c'.y = (p.cells c).y) : SameXY p { p with cells := upd p.cells c c' } := by
  intro i
  show ((upd p.cells c c') i).x = _ ∧ ((upd p.cells c c') i).y = _
  simp only [upd_apply]
  split_ifs with hi
  · subst hi; exact ⟨hx, hy⟩
  · exact ⟨rfl, rfl⟩

/-- The invariant of the loops over the neighbours of a cell. -/
def NbInv (p0 : Planner) (size : Nat × Nat) (q : Planner) : Prop := AlgInv q size ∧ SameXY p0 q

theorem dstar_nbInv_frame {p0 q q' : Planner} {size : Nat × Nat} (h : NbInv p0 size q)
    (hf : Frame q q') : NbInv p0 size q' :=
  ⟨dstar_algInv_of_frame h.1 hf, dstar_sameXY_trans h.2 (dstar_sameXY_of_frame hf)⟩

theorem dstar_nbInv_setBack {p0 q : Planner} {size : Nat × Nat} (h : NbInv p0 size q) (c b : Nat)
    (c' : Cell) (hx : c'.x = (q.cells c).x) (hy : c'.y = (q.cells c).y) (hb : c'.backPtr = some b)
    (hadj : Adjacent ((p0.cells c).x, (p0.cells c).y) ((p0.cells b).x, (p0.cells b).y)) :
    NbInv p0 size { q with cells := upd q.cells c c' } := by
  refine ⟨dstar_algInv_setBack h.1 c b c' hx hy hb ?_, dstar_sameXY_trans h.2 (dstar_sameXY_upd q c c' hx hy)⟩
  rw [(h.2 c).1, (h.2 c).2, (h.2 b).1, (h.2 b).2]
  exact hadj

theorem dstar_lowerFromNeighbors_inv {p : Planner} {size : Nat × Nat} (h : AlgInv p size)
    (pMin oldKMin : Nat) (nbs : List (Nat × Nat))
    (hn : ∀ nb ∈ nbs, Adjacent ((p.cells pMin).x, (p.cells pMin).y) ((p.cells nb.1).x, (p.cells nb.1).y)) :
    NbInv p size (lowerFromNeighbors p pMin oldKMin nbs) := by
  unfold lowerFromNeighbors
  split_ifs
  · refine foldl_keeps (NbInv p size) _ nbs p ?_ ⟨h, dstar_sameXY_refl p⟩
    intro q nb hnb hq
    simp only
    split_ifs
    · exact hq
    · exact dstar_nbInv_setBack hq pMin nb.1
        { q.cells pMin with h_cost := arcPlus nb.2 (q.cells nb.1).h_cost, backPtr := some nb.1 }
        rfl rfl rfl (hn nb hnb)
    · exact hq
    · exact hq
  · exact ⟨h, dstar_sameXY_refl p⟩

theorem dstar_adopt_inv {p0 q : Planner} {size : Nat × Nat} (h : NbInv p0 size q) (pMin n hc : Nat)
    (hadj : Adjacent ((p0.cells pMin).x, (p0.cells pMin).y) ((p0.cells n).x, (p0.cells n).y)) :
    NbInv p0 size (adopt q pMin n hc) := by
  unfold adopt
  exact dstar_nbInv_frame
    (dstar_nbInv_setBack h n pMin { q.cells n with backPtr := some pMin } rfl rfl rfl (adjacent_symm hadj))
    (dstar_insert_frame _ _ _)

theorem dstar_propagateLower_inv {p0 p : Planner} {size : Nat × Nat} (h : NbInv p0 size p)
    (pMin : Nat) (nbs : List (Nat × Nat))
    (hn : ∀ nb ∈ nbs, Adjacent ((p0.cells pMin).x, (p0.cells pMin).y) ((p0.cells nb.1).x, (p0.cells nb.1).y)) :
    NbInv p0 size (propagateLower p pMin nbs) := by
  unfold propagateLower
  refine foldl_keeps (NbInv p0 size) _ nbs p ?_ h
  intro q nb hnb hq
  simp only
  split_ifs
  · exact dstar_adopt_inv hq pMin nb.1 _ (hn nb hnb)
  · exact hq

theorem dstar_propagateRaise_inv {p0 p : Planner} {size : Nat × Nat} (h : NbInv p0 size p)
    (pMin oldKMin : Nat) (nbs : List (Nat × Nat))
    (hn : ∀ nb ∈ nbs, Adjacent ((p0.cells pMin).x, (p0.cells pMin).y) ((p0.cells nb.1).x, (p0.cells nb.1).y)) :
    NbInv p0 size (propagateRaise p pMin oldKMin nbs) := by
  unfold propagateRaise
  refine foldl_keeps (NbInv p0 size) _ nbs p ?_ h
  intro q nb hnb hq
  simp only
  split_ifs
  · exact dstar_adopt_inv hq pMin nb.1 _ (hn nb hnb)
  · exact dstar_nbInv_frame hq (dstar_insert_frame _ _ _)
  · exact dstar_nbInv_frame hq (dstar_insert_frame _ _ _)
  · exact hq
  · exact hq

theorem dstar_popMin_frame (p : Planner) : Frame p (popMin p).2 := by
  unfold popMin
  simp only
  split_ifs
  · refine dstar_frame_trans ?_ (dstar_heapDown_frame _ _)
    exact ⟨rfl, rfl, fun i => by simp only [upd_apply]; split_ifs <;> simp_all⟩
  · exact ⟨rfl, rfl, fun i => by simp only [upd_apply]; split_ifs <;> simp_all⟩

theorem dstar_processState_inv {p : Planner} {size : Nat × Nat} (h : AlgInv p size) :
    AlgInv (processState p).1 size := by
  unfold processState
  split_ifs
  · exact h
  · simp only
    have h1 : AlgInv (popMin p).2 size := dstar_algInv_of_frame h (dstar_popMin_frame p)
    have hn := fun nb hnb => dstar_neighbors_adjacent h1 (popMin p).1 (Prod.fst nb) (Prod.snd nb) hnb
    have h2 := dstar_lowerFromNeighbors_inv h1 (popMin p).1 (((popMin p).2.cells (popMin p).1).k_cost)
      ((popMin p).2.neighbors (popMin p).1) hn
    split_ifs
    · exact (dstar_propagateLower_inv h2 _ _ hn).1
    · exact (dstar_propagateRaise_inv h2 _ _ _ hn).1

theorem dstar_processLoop_inv (pStart : Nat) {size : Nat × Nat} :
    ∀ (fuel : Nat) (p p' : Planner) (e : LoopEnd), AlgInv p size →
      processLoop pStart fuel p = some (p', e) → AlgInv p' size
  | 0, _, _, _, _, h => by simp [processLoop] at h
  | fuel + 1, p, p', e, hp, h => by
    have h1 := dstar_processState_inv hp
    simp only [processLoop] at h
    split_ifs at h
    · cases h; exact h1
    · cases h; exact h1
    · exact dstar_processLoop_inv pStart fuel _ p' e h1 h

theorem dstar_resetState_inv {p : Planner} {size : Nat × Nat} (h : AlgInv p size) (pGoal : Nat) :
    AlgInv (resetState p pGoal) size := by
  have hxy : ∀ i, ((resetState p pGoal).cells i).x = (p.cells i).x ∧
      ((resetState p pGoal).cells i).y = (p.cells i).y := by
    intro i
    simp only [resetState, upd_apply]
    split_ifs <;> simp_all
  have hbp : ∀ i b, ((resetState p pGoal).cells i).backPtr = some b → (p.cells i).backPtr = some b := by
    intro i b
    simp only [resetState, upd_apply]
    split_ifs <;> simp_all
  refine ⟨h.width, h.height, h.fits, ?_, ?_⟩
  · intro i hi
    rw [(hxy i).1, (hxy i).2]
    exact h.coords i hi
  · intro c b hb
    rw [(hxy c).1, (hxy c).2, (hxy b).1, (hxy b).2]
    exact h.back c b (hbp c b hb)

theorem dstar_initMap_inv (m : GridMap) (hw : m.width ≤ USHORT) (hh : m.height ≤ USHORT) :
    AlgInv (initMap m) (m.width, m.height) := by
  refine ⟨rfl, rfl, ⟨hw, hh⟩, ?_, ?_⟩
  · intro i hi
    simp only [initMap]
    have hw0 : 0 < m.width := by
      rcases Nat.eq_zero_or_pos m.width with h0 | h0
      · rw [h0] at hi; simp at hi
      · exact h0
    have h1 : i % m.width < m.width := Nat.mod_lt _ hw0
    have h2 : i / m.width < m.height := Nat.div_lt_of_lt_mul hi
    exact ⟨Nat.mod_eq_of_lt (by omega), Nat.mod_eq_of_lt (by omega)⟩
  · intro c b hb
    simp [initMap] at hb

theorem dstar_frame_ite (p a b : Planner) (c : Prop) [Decidable c] (ha : Frame p a)
    (hb : Frame p b) : Frame p (if c then a else b) := by
  split_ifs
  · exact ha
  · exact hb

theorem dstar_setBlocked_frame (p q : Planner) (c : Nat) (b : Bool) (hq : Frame p q) :
    Frame p { q with cells := upd q.cells c { q.cells c with blocked := b } } :=
  dstar_frame_trans hq ⟨rfl, rfl, fun i => by simp only [upd_apply]; split_ifs <;> simp_all⟩

theorem dstar_around_frame (p : Planner) (l : List Nat) (q : Planner) (hq : Frame p q) :
    Frame p (l.foldl
      (fun p pNeighbor =>
        if (p.cells pNeighbor).list = List_Closed then insert p pNeighbor (p.cells pNeighbor).h_cost
        else p) q) := by
  refine foldl_keeps (Frame p) _ l q ?_ hq
  intro q' n _ hq'
  exact dstar_frame_ite _ _ _ _ (dstar_frame_trans hq' (dstar_insert_frame _ _ _)) hq'

theorem dstar_initMapUpdate_frame (p : Planner) (m : GridMap) (r : Region) :
    Frame p (initMapUpdate p m r) := by
  unfold initMapUpdate
  refine foldl_keeps (Frame p) _ r.points p ?_ (dstar_frame_refl p)
  intro q pos _ hq
  have h1 := dstar_setBlocked_frame p q (q.width * pos.2 + pos.1) (decide (m.pixel pos.1 pos.2 > 0)) hq
  refine dstar_frame_ite _ _ _ _ ?_ hq
  refine dstar_frame_ite _ _ _ _ (dstar_around_frame _ _ _ ?_) ?_
  · exact dstar_frame_ite _ _ _ _ (dstar_frame_trans h1 (dstar_insert_frame _ _ _)) h1
  · exact dstar_frame_ite _ _ _ _ (dstar_frame_trans h1 (dstar_insert_frame _ _ _)) h1

theorem dstar_extractPath_spec {p : Planner} {size : Nat × Nat} (h : AlgInv p size) (s g : Pos)
    (hs1 : s.1 < size.1) (hs2 : s.2 < size.2) (hg1 : g.1 < size.1) (hg2 : g.2 < size.2)
    (hne : (extractPath p (s.2 * size.1 + s.1) (g.2 * size.1 + g.1)).path ≠ []) :
    PathOK s g (extractPath p (s.2 * size.1 + s.1) (g.2 * size.1 + g.1)).path := by
  have hps : ((p.cells (s.2 * size.1 + s.1)).x, (p.cells (s.2 * size.1 + s.1)).y) = s := by
    obtain ⟨c1, c2⟩ := h.coords _ (index_lt size.1 size.2 s.1 s.2 hs1 hs2)
    have := posOf_index size.1 s.1 s.2 hs1
    unfold posOf at this
    rw [c1, c2]; exact this
  have hpg : ((p.cells (g.2 * size.1 + g.1)).x, (p.cells (g.2 * size.1 + g.1)).y) = g := by
    obtain ⟨c1, c2⟩ := h.coords _ (index_lt size.1 size.2 g.1 g.2 hg1 hg2)
    have := posOf_index size.1 g.1 g.2 hg1
    unfold posOf at this
    rw [c1, c2]; exact this
  unfold extractPath at hne ⊢
  cases hf : followBackPtrs (fun i => (p.cells i).blocked) (fun i => (p.cells i).backPtr)
      (fun i => ((p.cells i).x, (p.cells i).y)) (g.2 * size.1 + g.1) 1000000 (s.2 * size.1 + s.1) [] with
  | error e => rw [hf] at hne; exact absurd rfl hne
  | ok l =>
    obtain ⟨l', h1, h2, h3, h4, h5⟩ := followBackPtrs_spec _ _ _ _ h.back _ _ _ _ hf
    simp only [List.nil_append] at h1
    subst h1
    simp only at h2 h3 h5 ⊢
    rw [hps] at h2 h5
    rw [hpg] at h3
    refine ⟨h2, h3, h4, fun he => h5 ?_⟩
    rw [he]

theorem dstar_doCalculatePath_spec (fuel : Nat) {p : Planner} {size : Nat × Nat} (h : AlgInv p size)
    (u : Nat) (s g : Pos) (o : Outcome)
    (hs1 : s.1 < size.1) (hs2 : s.2 < size.2) (hg1 : g.1 < size.1) (hg2 : g.2 < size.2)
    (ho : doCalculatePath fuel p u s g = some o) :
    AlgInv o.planner size ∧ (o.path ≠ [] → PathOK s g o.path) := by
  unfold doCalculatePath at ho
  simp only at ho
  rw [h.width] at ho
  by_cases hb1 : (p.cells (s.2 * size.1 + s.1)).blocked = true
  · rw [if_pos hb1] at ho
    cases ho
    exact ⟨h, fun hne => absurd rfl hne⟩
  rw [if_neg hb1] at ho
  by_cases hb2 : (p.cells (g.2 * size.1 + g.1)).blocked = true
  · rw [if_pos hb2] at ho
    cases ho
    exact ⟨h, fun hne => absurd rfl hne⟩
  rw [if_neg hb2] at ho
  have hp1 : AlgInv (if needsReset u then resetState p (g.2 * size.1 + g.1) else p) size := by
    split_ifs
    · exact dstar_resetState_inv h _
    · exact h
  generalize (if needsReset u then resetState p (g.2 * size.1 + g.1) else p) = p1 at ho hp1
  have key : ∀ (looped : Option (Planner × LoopEnd)),
      (∀ p2 e, looped = some (p2, e) → AlgInv p2 size) →
      (match looped with
        | none => none
        | some (p2, LoopEnd.noPath) => some { planner := p2, path := [], error := "No Path found" }
        | some (p2, LoopEnd.ready) =>
          if (p2.cells (s.2 * size.1 + s.1)).list = List_New ∨
              (p2.cells (s.2 * size.1 + s.1)).h_cost ≥ OBSTACLE_COST then
            some { planner := p2, path := [], error := "No Path found" }
          else some (extractPath p2 (s.2 * size.1 + s.1) (g.2 * size.1 + g.1))) = some o →
      AlgInv o.planner size ∧ (o.path ≠ [] → PathOK s g o.path) := by
    intro looped hl hm
    cases looped with
    | none => cases hm
    | some r =>
      obtain ⟨p2, e⟩ := r
      have h2 := hl p2 e rfl
      cases e with
      | noPath =>
        simp only [Option.some.injEq] at hm
        subst hm
        exact ⟨h2, fun hne => absurd rfl hne⟩
      | ready =>
        simp only at hm
        split_ifs at hm
        · cases hm
          exact ⟨h2, fun hne => absurd rfl hne⟩
        · simp only [Option.some.injEq] at hm
          subst hm
          refine ⟨?_, fun hne => dstar_extractPath_spec h2 s g hs1 hs2 hg1 hg2 hne⟩
          unfold extractPath
          split <;> exact h2
  refine key _ ?_ ho
  intro p2 e hl
  split_ifs at hl
  · exact dstar_processLoop_inv _ fuel p1 p2 e hp1 hl
  · cases hl; exact hp1

/-- D* provides what the contract invariant needs. -/
theorem dstar_algSpec (fuel : Nat) : AlgSpec (algorithm fuel) AlgInv := by
  refine ⟨?_, ?_, ?_⟩
  · intro _ m hw hh _ _
    exact dstar_initMap_inv m hw hh
  · intro st m r h _ _
    exact dstar_algInv_of_frame h (dstar_initMapUpdate_frame st m r)
  · intro st size u s g r h hs1 hs2 hg1 hg2 hc
    simp only [algorithm] at hc
    cases ho : doCalculatePath fuel st u s g with
    | none => rw [ho] at hc; cases hc
    | some o =>
      rw [ho] at hc
      simp only [Option.map_some', Option.some.injEq] at hc
      subst hc
      exact dstar_doCalculatePath_spec fuel h u s g o hs1 hs2 hg1 hg2 ho

end DStar

end RasterSim

namespace RasterSim

/-! ## D*: the open list stays in order -/

namespace DStar

open ListType

/-- What a cell holds apart from its slot in the open list. -/
def Cell.core (c : Cell) : Option Nat × Nat × Nat × Nat × Nat × Bool × ListType :=
  (c.backPtr, c.x, c.y, c.h_cost, c.k_cost, c.blocked, c.list)

theorem dstar_core_backPtr {a b : Cell} (h : a.core = b.core) : a.backPtr = b.backPtr :=
  congrArg (fun t => t.1) h

theorem dstar_core_x {a b : Cell} (h : a.core = b.core) : a.x = b.x :=
  congrArg (fun t => t.2.1) h

theorem dstar_core_y {a b : Cell} (h : a.core = b.core) : a.y = b.y :=
  congrArg (fun t => t.2.2.1) h

theorem dstar_core_h {a b : Cell} (h : a.core = b.core) : a.h_cost = b.h_cost :=
  congrArg (fun t => t.2.2.2.1) h

theorem dstar_core_k {a b : Cell} (h : a.core = b.core) : a.k_cost = b.k_cost :=
  congrArg (fun t => t.2.2.2.2.1) h

theorem dstar_core_blocked {a b : Cell} (h : a.core = b.core) : a.blocked = b.blocked :=
  congrArg (fun t => t.2.2.2.2.2.1) h

theorem dstar_core_list {a b : Cell} (h : a.core = b.core) : a.list = b.list :=
  congrArg (fun t => t.2.2.2.2.2.2) h

theorem dstar_tuple {a : Cell} {b : Option Nat} {x y h k : Nat} {bl : Bool} {l : ListType}
    (e : a.core = (b, x, y, h, k, bl, l)) :
    a.backPtr = b ∧ a.x = x ∧ a.y = y ∧ a.h_cost = h ∧ a.k_cost = k ∧ a.blocked = bl ∧ a.list = l := by
  simp only [Cell.core, Prod.mk.injEq] at e
  exact e

/-- Two states that differ by moves inside the open list only. -/
structure HeapMove (p p' : Planner) : Prop where
  width : p'.width = p.width
  height : p'.height = p.height
  len : p'.openListLength = p.openListLength
  core : ∀ c, (p'.cells c).core = (p.cells c).core

/-- The open list of the state is in order: see `SlotsOK`. -/
def HeapOK (N : Nat) (p : Planner) : Prop :=
  SlotsOK N p.openHeap (fun c => (p.cells c).heapIndex) p.openListLength
    (fun c => (p.cells c).list = List_Open)

theorem dstar_heapMove_refl (p : Planner) : HeapMove p p := ⟨rfl, rfl, rfl, fun _ => rfl⟩

theorem dstar_heapMove_trans {p1 p2 p3 : Planner} (h12 : HeapMove p1 p2) (h23 : HeapMove p2 p3) :
    HeapMove p1 p3 :=
  ⟨h23.width.trans h12.width, h23.height.trans h12.height, h23.len.trans h12.len,
    fun c => (h23.core c).trans (h12.core c)⟩

theorem dstar_swapSlots_move (p : Planner) (i j : Nat) : HeapMove p (swapSlots p i j) := by
  refine ⟨rfl, rfl, rfl, fun c => ?_⟩
  simp only [swapSlots, upd_apply]
  split_ifs <;> simp_all [Cell.core]

theorem dstar_swapSlots_heap {N : Nat} {p : Planner} (h : HeapOK N p) (i j : Nat) (hi1 : 1 ≤ i)
    (hi : i ≤ p.openListLength) (hj1 : 1 ≤ j) (hj : j ≤ p.openListLength) :
    HeapOK N (swapSlots p i j) := by
  have hm := dstar_swapSlots_move p i j
  have e1 : (swapSlots p i j).openHeap = swapHeap p.openHeap i j := rfl
  have e2 : (fun c => ((swapSlots p i j).cells c).heapIndex) =
      swapIdx p.openHeap (fun c => (p.cells c).heapIndex) i j := by
    funext c
    simp only [swapSlots, swapIdx, swapHeap, upd_apply]
    split_ifs <;> rfl
  unfold HeapOK
  rw [e1, e2]
  exact slotsOK_mem (slotsOK_swap h i j hi1 hi hj1 hj) (fun c _ => by
    rw [dstar_core_list (hm.core c)])

theorem dstar_heapUpLoop_heap {N : Nat} : ∀ (fuel : Nat) (p : Planner) (idx : Nat), HeapOK N p →
    1 ≤ idx → idx ≤ p.openListLength →
    HeapMove p (heapUpLoop fuel p idx) ∧ HeapOK N (heapUpLoop fuel p idx)
  | 0, p, _, h, _, _ => ⟨dstar_heapMove_refl p, h⟩
  | fuel + 1, p, idx, h, h1, h2 => by
    simp only [heapUpLoop]
    split_ifs with ha hb
    · have hs := dstar_swapSlots_heap h (idx / 2) idx (by omega) (by omega) h1 h2
      have hm := dstar_swapSlots_move p (idx / 2) idx
      obtain ⟨r1, r2⟩ := dstar_heapUpLoop_heap fuel (swapSlots p (idx / 2) idx) (idx / 2) hs (by omega)
        (by rw [hm.len]; omega)
      exact ⟨dstar_heapMove_trans hm r1, r2⟩
    · exact ⟨dstar_heapMove_refl p, h⟩
    · exact ⟨dstar_heapMove_refl p, h⟩

theorem dstar_downTarget_cases (p : Planner) (idx : Nat) :
    downTarget p idx = idx ∨ (downTarget p idx = 2 * idx ∧ 2 * idx ≤ p.openListLength) ∨
      (downTarget p idx = 2 * idx + 1 ∧ 2 * idx + 1 ≤ p.openListLength) := by
  unfold downTarget
  simp only
  split_ifs <;> simp_all <;> omega

theorem dstar_heapDownLoop_heap {N : Nat} : ∀ (fuel : Nat) (p : Planner) (idx : Nat), HeapOK N p →
    1 ≤ idx → idx ≤ p.openListLength →
    HeapMove p (heapDownLoop fuel p idx) ∧ HeapOK N (heapDownLoop fuel p idx)
  | 0, p, _, h, _, _ => ⟨dstar_heapMove_refl p, h⟩
  | fuel + 1, p, idx, h, h1, h2 => by
    simp only [heapDownLoop]
    split_ifs with ha
    · have ht := dstar_downTarget_cases p idx
      have t1 : 1 ≤ downTarget p idx := by omega
      have t2 : downTarget p idx ≤ p.openListLength := by omega
      have hs := dstar_swapSlots_heap h (downTarget p idx) idx t1 t2 h1 h2
      have hm := dstar_swapSlots_move p (downTarget p idx) idx
      obtain ⟨r1, r2⟩ := dstar_heapDownLoop_heap fuel (swapSlots p (downTarget p idx) idx)
        (downTarget p idx) hs t1 (by rw [hm.len]; exact t2)
      exact ⟨dstar_heapMove_trans hm r1, r2⟩
    · exact ⟨dstar_heapMove_refl p, h⟩

theorem dstar_heapUp_heap {N : Nat} {p : Planner} (h : HeapOK N p) (c : Nat) (hc : c < N) :
    HeapMove p (heapUp p c) ∧ HeapOK N (heapUp p c) := by
  unfold heapUp
  split_ifs with ho
  · exact ⟨dstar_heapMove_refl p, h⟩
  · obtain ⟨a1, a2, _⟩ := h.2 c hc (by simpa using ho)
    exact dstar_heapUpLoop_heap _ p _ h a1 a2

theorem dstar_heapDown_heap {N : Nat} {p : Planner} (h : HeapOK N p) (c : Nat) (hc : c < N) :
    HeapMove p (heapDown p c) ∧ HeapOK N (heapDown p c) := by
  unfold heapDown
  split_ifs with ho
  · exact ⟨dstar_heapMove_refl p, h⟩
  · obtain ⟨a1, a2, _⟩ := h.2 c hc (by simpa using ho)
    exact dstar_heapDownLoop_heap _ p _ h a1 a2

/-- The `k_cost` that `insert` gives a cell. -/
def insertK (c : Cell) (h_cost : Nat) : Nat :=
  if c.list = List_Open then (if h_cost < c.k_cost then h_cost else c.k_cost)
  else if c.list = List_New then h_cost else min c.h_cost h_cost

/-- What `insert p c h` does, up to the order of the open list. -/
structure Inserted (N : Nat) (p p' : Planner) (c h_cost : Nat) : Prop where
  width : p'.width = p.width
  height : p'.height = p.height
  len : p'.openListLength =
    if (p.cells c).list = List_Open then p.openListLength else p.openListLength + 1
  other : ∀ d, d ≠ c → (p'.cells d).core = (p.cells d).core
  cell : (p'.cells c).core = ((p.cells c).backPtr, (p.cells c).x, (p.cells c).y, h_cost,
    insertK (p.cells c) h_cost, (p.cells c).blocked, List_Open)
  heap : HeapOK N p'

theorem dstar_insert_spec {N : Nat} {p : Planner} (h : HeapOK N p) (c : Nat) (hc : c < N)
    (h_cost : Nat) : Inserted N p (insert p c h_cost) c h_cost := by
  by_cases ho : (p.cells c).list = List_Open
  · -- the cell is on the open list
    set c1 : Cell :=
      { p.cells c with k_cost := if h_cost < (p.cells c).k_cost then h_cost else (p.cells c).k_cost,
                       h_cost := h_cost } with hc1
    set p1 : Planner := { p with cells := upd p.cells c c1 } with hp1
    have e : insert p c h_cost = heapDown (heapUp p1 c) c := by
      unfold insert
      rw [if_pos ho]
    rw [e]
    have hl1 : ∀ d, (p1.cells d).list = (p.cells d).list := by
      intro d; simp only [hp1, upd_apply]; split_ifs with hd
      · subst hd; rfl
      · rfl
    have hi1 : ∀ d, (p1.cells d).heapIndex = (p.cells d).heapIndex := by
      intro d; simp only [hp1, upd_apply]; split_ifs with hd
      · subst hd; rfl
      · rfl
    have hok1 : HeapOK N p1 := by
      unfold HeapOK
      have e : (fun d => (p1.cells d).heapIndex) = (fun d => (p.cells d).heapIndex) := funext hi1
      rw [e]
      exact slotsOK_mem h (fun d _ => by rw [hl1])
    obtain ⟨m1, ok2⟩ := dstar_heapUp_heap hok1 c hc
    obtain ⟨m2, ok3⟩ := dstar_heapDown_heap ok2 c hc
    have m := dstar_heapMove_trans m1 m2
    refine ⟨m.width, m.height, ?_, ?_, ?_, ok3⟩
    · rw [m.len, if_pos ho]
    · intro d hd
      rw [m.core d]
      simp only [hp1, upd_apply, if_neg hd]
    · rw [m.core c]
      simp only [hp1, hc1, upd_apply, if_true, Cell.core, insertK, ho]
  · -- the cell is new or closed
    set c1 : Cell :=
      if (p.cells c).list = List_New then { p.cells c with h_cost := h_cost, k_cost := h_cost }
      else { p.cells c with k_cost := min (p.cells c).h_cost h_cost, h_cost := h_cost } with hc1
    set c2 : Cell := { c1 with heapIndex := p.openListLength + 1, list := List_Open,
                               k_cost := min c1.k_cost h_cost } with hc2
    set p1 : Planner :=
      { p with openListLength := p.openListLength + 1,
               openHeap := upd p.openHeap (p.openListLength + 1) c,
               cells := upd p.cells c c2 } with hp1
    have e : insert p c h_cost = heapUp p1 c := by
      unfold insert
      rw [if_neg ho]
    rw [e]
    have hok1 : HeapOK N p1 := by
      unfold HeapOK
      have e : (fun d => (p1.cells d).heapIndex) =
          upd (fun d => (p.cells d).heapIndex) c (p.openListLength + 1) := by
        funext d
        simp only [hp1, upd_apply]
        split_ifs <;> rfl
      rw [e]
      refine slotsOK_push h c hc ho _ (fun d _ => ?_)
      simp only [hp1, upd_apply]
      split_ifs with hd
      · simp [hd, hc2]
      · simp [hd]
    obtain ⟨m1, ok2⟩ := dstar_heapUp_heap hok1 c hc
    refine ⟨m1.width, m1.height, ?_, ?_, ?_, ok2⟩
    · rw [m1.len, if_neg ho]
    · intro d hd
      rw [m1.core d]
      simp only [hp1, upd_apply, if_neg hd]
    · rw [m1.core c]
      simp only [hp1, upd_apply, if_true, Cell.core, insertK, ho, if_false, hc2, hc1]
      by_cases hn : (p.cells c).list = List_New
      · simp [hn]
      · simp [hn]

/-- What `popMin` does, up to the order of the open list. -/
structure Popped (N : Nat) (p p' : Planner) (pMin : Nat) : Prop where
  width : p'.width = p.width
  height : p'.height = p.height
  len : p'.openListLength + 1 = p.openListLength
  other : ∀ d, d ≠ pMin → (p'.cells d).core = (p.cells d).core
  cell : (p'.cells pMin).core = ((p.cells pMin).backPtr, (p.cells pMin).x, (p.cells pMin).y,
    (p.cells pMin).h_cost, (p.cells pMin).k_cost, (p.cells pMin).blocked, List_Closed)
  heap : HeapOK N p'

theorem dstar_popMin_spec {N : Nat} {p : Planner} (h : HeapOK N p) (hl : 1 ≤ p.openListLength) :
    (popMin p).1 = p.openHeap 1 ∧ Popped N p (popMin p).2 (p.openHeap 1) := by
  obtain ⟨a1, a2, a3⟩ := h.1 1 (le_refl 1) hl
  have hcoreMin : ((upd p.cells (p.openHeap 1)
      { p.cells (p.openHeap 1) with list := List_Closed, heapIndex := 0 }) (p.openHeap 1)).core =
      ((p.cells (p.openHeap 1)).backPtr, (p.cells (p.openHeap 1)).x, (p.cells (p.openHeap 1)).y,
        (p.cells (p.openHeap 1)).h_cost, (p.cells (p.openHeap 1)).k_cost,
        (p.cells (p.openHeap 1)).blocked, List_Closed) := by
    rw [upd_same]; rfl
  have hcore1 : ∀ d, d ≠ p.openHeap 1 → ((upd p.cells (p.openHeap 1)
      { p.cells (p.openHeap 1) with list := List_Closed, heapIndex := 0 }) d).core = (p.cells d).core :=
    fun d hd => by rw [upd_other _ _ _ _ hd]
  have hmem : ∀ d, d < N → (((upd p.cells (p.openHeap 1)
      { p.cells (p.openHeap 1) with list := List_Closed, heapIndex := 0 }) d).list = List_Open ↔
      (d ≠ p.openHeap 1 ∧ (p.cells d).list = List_Open)) := by
    intro d _
    by_cases hd : d = p.openHeap 1
    · rw [hd, (dstar_tuple hcoreMin).2.2.2.2.2.2]; simp
    · rw [dstar_core_list (hcore1 d hd)]; simp [hd]
  by_cases hne : p.openListLength - 1 ≠ 0
  · -- another cell takes the first slot
    have hl2 : 2 ≤ p.openListLength := by omega
    have hlast : p.openListLength - 1 + 1 = p.openListLength := by omega
    have hfne : p.openHeap p.openListLength ≠ p.openHeap 1 := by
      intro he
      have := slotsOK_inj h _ _ (by omega) (le_refl _) (le_refl 1) hl he
      omega
    have hfN : p.openHeap p.openListLength < N := (h.1 _ (by omega) (le_refl _)).1
    obtain ⟨p2, hp2, hcells, hheap, hlen, hw, hh⟩ : ∃ p2 : Planner,
        popMin p = (p.openHeap 1, heapDown p2 (p.openHeap p.openListLength)) ∧
        p2.cells = upd (upd p.cells (p.openHeap 1)
          { p.cells (p.openHeap 1) with list := List_Closed, heapIndex := 0 })
          (p.openHeap p.openListLength)
          { (upd p.cells (p.openHeap 1)
              { p.cells (p.openHeap 1) with list := List_Closed, heapIndex := 0 })
              (p.openHeap p.openListLength) with heapIndex := 1 } ∧
        p2.openHeap = upd p.openHeap 1 (p.openHeap p.openListLength) ∧
        p2.openListLength = p.openListLength - 1 ∧ p2.width = p.width ∧ p2.height = p.height := by
      refine ⟨{ p with cells := upd (upd p.cells (p.openHeap 1) { p.cells (p.openHeap 1) with list := List_Closed, heapIndex := 0 }) (p.openHeap p.openListLength) { (upd p.cells (p.openHeap 1) { p.cells (p.openHeap 1) with list := List_Closed, heapIndex := 0 }) (p.openHeap p.openListLength) with heapIndex := 1 }, openHeap := upd p.openHeap 1 (p.openHeap p.openListLength), openListLength := p.openListLength - 1 }, ?_, rfl, rfl, rfl, rfl, rfl⟩
      unfold popMin
      simp only [hlast, upd_same]
      rw [if_pos hne]
    have hcore2 : ∀ d, (p2.cells d).core = ((upd p.cells (p.openHeap 1)
        { p.cells (p.openHeap 1) with list := List_Closed, heapIndex := 0 }) d).core := by
      intro d
      rw [hcells, upd_apply]
      split_ifs with hd
      · rw [hd]; rfl
      · rfl
    have hidx2 : ∀ d, d ≠ p.openHeap 1 → (p2.cells d).heapIndex =
        (upd (fun c => (p.cells c).heapIndex) (p.openHeap p.openListLength) 1) d := by
      intro d hd
      rw [hcells]
      simp only [upd_apply]
      split_ifs with h1
      · rfl
      · rfl
    have hok2 : HeapOK N p2 := by
      unfold HeapOK
      have hpop := slotsOK_pop h hl2 (fun d => (p2.cells d).list = List_Open) (fun d hd => by
        show ((p2.cells d).list = List_Open ↔ (d ≠ p.openHeap 1 ∧ (p.cells d).list = List_Open))
        rw [dstar_core_list (hcore2 d)]
        exact hmem d hd)
      rw [hlen]
      refine slotsOK_congr hpop (fun i _ _ => by rw [hheap]) (fun d _ hd => ?_)
      have hd' : d ≠ p.openHeap 1 := by
        intro he
        rw [he, dstar_core_list (hcore2 _), (dstar_tuple hcoreMin).2.2.2.2.2.2] at hd
        cases hd
      exact hidx2 d hd'
    rw [hp2]
    obtain ⟨m, ok3⟩ := dstar_heapDown_heap hok2 _ hfN
    refine ⟨rfl, ?_, ?_, ?_, ?_, ?_, ok3⟩
    · rw [m.width, hw]
    · rw [m.height, hh]
    · rw [m.len, hlen]; omega
    · intro d hd
      rw [m.core d, hcore2 d, hcore1 d hd]
    · rw [m.core, hcore2, hcoreMin]
  · have hl1 : p.openListLength = 1 := by omega
    have e : popMin p = (p.openHeap 1,
        { p with cells := upd p.cells (p.openHeap 1)
                   { p.cells (p.openHeap 1) with list := List_Closed, heapIndex := 0 },
                 openListLength := p.openListLength - 1 }) := by
      unfold popMin
      simp only
      rw [if_neg hne]
    rw [e]
    refine ⟨rfl, rfl, rfl, ?_, hcore1, hcoreMin, ?_⟩
    · show p.openListLength - 1 + 1 = p.openListLength
      omega
    · unfold HeapOK
      have h' : SlotsOK N p.openHeap (fun c => (p.cells c).heapIndex) 1
          (fun c => (p.cells c).list = List_Open) := by
        have := h
        unfold HeapOK at this
        rw [hl1] at this
        exact this
      have e0 : p.openListLength - 1 = 0 := by omega
      show SlotsOK N _ _ (p.openListLength - 1) _
      rw [e0]
      exact slotsOK_pop_last h' _ hmem _ _

end DStar

end RasterSim

namespace RasterSim

/-- The order of the array in terms of the children of a slot: no slot is above those of
its two children that exist. -/
theorem ordered_iff_children {K : Type} (le : K → K → Prop) (key : Nat → K) (oh : Nat → Nat)
    (len : Nat) :
    Ordered le key oh len ↔ ∀ i, 1 ≤ i → i ≤ len →
      (2 * i ≤ len → le (key (oh i)) (key (oh (2 * i)))) ∧
      (2 * i + 1 ≤ len → le (key (oh i)) (key (oh (2 * i + 1)))) := by
  constructor
  · intro h i i1 _
    refine ⟨fun h2 => ?_, fun h2 => ?_⟩
    · have := h (2 * i) (by omega) h2
      rw [show 2 * i / 2 = i by omega] at this
      exact this
    · have := h (2 * i + 1) (by omega) h2
      rw [show (2 * i + 1) / 2 = i by omega] at this
      exact this
  · intro h j j1 j2
    obtain ⟨b1, b2⟩ := h (j / 2) (by omega) (by omega)
    rcases Nat.mod_two_eq_zero_or_one j with hj | hj
    · have e : 2 * (j / 2) = j := by omega
      have := b1 (by omega)
      rw [e] at this
      exact this
    · have e : 2 * (j / 2) + 1 = j := by omega
      have := b2 (by omega)
      rw [e] at this
      exact this

/-! ## D*: the `k_cost` of the open list stay in heap order -/

namespace DStar

open ListType

theorem dstar_tests :
    HeapTests (fun a b : Nat => a ≤ b) (fun a b => decide (a < b)) (fun a b => decide (a ≥ b)) := by
  refine ⟨fun a b c h1 h2 => Nat.le_trans h1 h2, ?_, ?_, ?_, ?_⟩
  · intro a b h
    simp only [decide_eq_true_eq] at h
    omega
  · intro a b h
    simp only [decide_eq_false_iff_not] at h
    omega
  · intro a b h
    simp only [decide_eq_true_eq] at h
    omega
  · intro a b h
    simp only [decide_eq_false_iff_not] at h
    omega

/-- The `k_cost` of the cells. -/
def Planner.ks (p : Planner) : Nat → Nat := fun c => (p.cells c).k_cost

theorem dstar_ks_of_move {p p' : Planner} (h : HeapMove p p') : p'.ks = p.ks :=
  funext fun c => dstar_core_k (h.core c)

theorem dstar_heapUpLoop_abs : ∀ (fuel : Nat) (p : Planner) (i : Nat),
    (heapUpLoop fuel p i).openHeap = (absUp (fun a b => decide (a < b)) p.ks fuel p.openHeap i).1
  | 0, _, _ => rfl
  | fuel + 1, p, i => by
    simp only [heapUpLoop, absUp]
    by_cases hi : i ≠ 1
    · rw [if_pos hi, if_pos hi]
      have e : p.kAt i = p.ks (p.openHeap i) := rfl
      have e2 : p.kAt (i / 2) = p.ks (p.openHeap (i / 2)) := rfl
      rw [e, e2]
      by_cases hu : p.ks (p.openHeap i) < p.ks (p.openHeap (i / 2))
      · rw [if_pos hu, if_pos (decide_eq_true hu),
          dstar_heapUpLoop_abs fuel (swapSlots p (i / 2) i) (i / 2),
          dstar_ks_of_move (dstar_swapSlots_move p (i / 2) i)]
        rfl
      · rw [if_neg hu, if_neg (by simpa using hu)]
    · rw [if_neg hi, if_neg hi]

theorem dstar_downTarget_abs (p : Planner) (i : Nat) :
    downTarget p i = absTarget (fun a b => decide (a ≥ b)) p.ks p.openHeap p.openListLength i := by
  unfold downTarget absTarget
  have e : ∀ j, p.kAt j = p.ks (p.openHeap j) := fun _ => rfl
  simp only [e, decide_eq_true_eq]

theorem dstar_heapDownLoop_abs : ∀ (fuel : Nat) (p : Planner) (i : Nat),
    (heapDownLoop fuel p i).openHeap =
      (absDown (fun a b => decide (a ≥ b)) p.ks p.openListLength fuel p.openHeap i).1
  | 0, _, _ => rfl
  | fuel + 1, p, i => by
    simp only [heapDownLoop, absDown]
    rw [← dstar_downTarget_abs]
    by_cases ht : i = downTarget p i
    · rw [if_neg (fun h => h ht), if_pos ht]
    · rw [if_pos ht, if_neg ht,
        dstar_heapDownLoop_abs fuel (swapSlots p (downTarget p i) i) (downTarget p i),
        dstar_ks_of_move (dstar_swapSlots_move p (downTarget p i) i)]
      rfl

/-- The exchange of two used slots leaves the `heapIndex` of the cells that are not on
the open list alone. -/
theorem dstar_swapSlots_idle {N : Nat} {p : Planner} (h : HeapOK N p) (i j : Nat) (hi1 : 1 ≤ i)
    (hi : i ≤ p.openListLength) (hj1 : 1 ≤ j) (hj : j ≤ p.openListLength) (d : Nat)
    (hd : (p.cells d).list ≠ List_Open) :
    ((swapSlots p i j).cells d).heapIndex = (p.cells d).heapIndex := by
  have e2 : (fun c => ((swapSlots p i j).cells c).heapIndex) =
      swapIdx p.openHeap (fun c => (p.cells c).heapIndex) i j := by
    funext c
    simp only [swapSlots, swapIdx, swapHeap, upd_apply]
    split_ifs <;> rfl
  have e := congrFun e2 d
  simp only at e
  rw [e, swapIdx_apply]
  have n1 : d ≠ p.openHeap i := fun he => hd (he ▸ (h.1 i hi1 hi).2.1)
  have n2 : d ≠ p.openHeap j := fun he => hd (he ▸ (h.1 j hj1 hj).2.1)
  have n3 : d ≠ (if i = j then p.openHeap i else p.openHeap j) := by
    split_ifs <;> assumption
  rw [if_neg n1, if_neg n3]

theorem dstar_heapUpLoop_idle {N : Nat} : ∀ (fuel : Nat) (p : Planner) (idx : Nat), HeapOK N p →
    1 ≤ idx → idx ≤ p.openListLength → ∀ d, (p.cells d).list ≠ List_Open →
    ((heapUpLoop fuel p idx).cells d).heapIndex = (p.cells d).heapIndex
  | 0, _, _, _, _, _, _, _ => rfl
  | fuel + 1, p, idx, h, h1, h2, d, hd => by
    simp only [heapUpLoop]
    split_ifs with ha hb
    · have hs := dstar_swapSlots_heap h (idx / 2) idx (by omega) (by omega) h1 h2
      have hm := dstar_swapSlots_move p (idx / 2) idx
      rw [dstar_heapUpLoop_idle fuel (swapSlots p (idx / 2) idx) (idx / 2) hs (by omega)
        (by rw [hm.len]; omega) d (by rw [dstar_core_list (hm.core d)]; exact hd)]
      exact dstar_swapSlots_idle h _ _ (by omega) (by omega) h1 h2 d hd
    · rfl
    · rfl

theorem dstar_heapDownLoop_idle {N : Nat} : ∀ (fuel : Nat) (p : Planner) (idx : Nat),
    HeapOK N p → 1 ≤ idx → idx ≤ p.openListLength → ∀ d, (p.cells d).list ≠ List_Open →
    ((heapDownLoop fuel p idx).cells d).heapIndex = (p.cells d).heapIndex
  | 0, _, _, _, _, _, _, _ => rfl
  | fuel + 1, p, idx, h, h1, h2, d, hd => by
    simp only [heapDownLoop]
    split_ifs with ha
    · have ht := dstar_downTarget_cases p idx
      have t1 : 1 ≤ downTarget p idx := by omega
      have t2 : downTarget p idx ≤ p.openListLength := by omega
      have hs := dstar_swapSlots_heap h (downTarget p idx) idx t1 t2 h1 h2
      have hm := dstar_swapSlots_move p (downTarget p idx) idx
      rw [dstar_heapDownLoop_idle fuel (swapSlots p (downTarget p idx) idx) (downTarget p idx) hs
        t1 (by rw [hm.len]; exact t2) d (by rw [dstar_core_list (hm.core d)]; exact hd)]
      exact dstar_swapSlots_idle h _ _ t1 t2 h1 h2 d hd
    · rfl

/-- Every cell of the map that is not on the open list has `heapIndex` 0. -/
def Zero (N : Nat) (p : Planner) : Prop :=
  ∀ c, c < N → (p.cells c).list ≠ List_Open → (p.cells c).heapIndex = 0

theorem dstar_heapUp_zero {N : Nat} {p : Planner} (h : HeapOK N p) (hz : Zero N p) (c : Nat)
    (hc : c < N) : Zero N (heapUp p c) := by
  intro d hd hl
  have hm := (dstar_heapUp_heap h c hc).1
  rw [dstar_core_list (hm.core d)] at hl
  rw [← hz d hd hl]
  unfold heapUp
  split_ifs with ho
  · rfl
  · obtain ⟨a1, a2, _⟩ := h.2 c hc (by simpa using ho)
    exact dstar_heapUpLoop_idle _ p _ h a1 a2 d hl

theorem dstar_heapDown_zero {N : Nat} {p : Planner} (h : HeapOK N p) (hz : Zero N p) (c : Nat)
    (hc : c < N) : Zero N (heapDown p c) := by
  intro d hd hl
  have hm := (dstar_heapDown_heap h c hc).1
  rw [dstar_core_list (hm.core d)] at hl
  rw [← hz d hd hl]
  unfold heapDown
  split_ifs with ho
  · rfl
  · obtain ⟨a1, a2, _⟩ := h.2 c hc (by simpa using ho)
    exact dstar_heapDownLoop_idle _ p _ h a1 a2 d hl

/-- What `heapUp` achieves for a cell on the open list (see `absUp_spec`). -/
theorem dstar_heapUp_order {N : Nat} {p : Planner} (h : HeapOK N p) (c : Nat) (hc : c < N)
    (hm : (p.cells c).list = List_Open)
    (hb : OrderedBut (fun a b : Nat => a ≤ b) p.ks p.openHeap p.openListLength
      (p.cells c).heapIndex) :
    OrderedBut (fun a b : Nat => a ≤ b) (heapUp p c).ks (heapUp p c).openHeap
        (heapUp p c).openListLength ((heapUp p c).cells c).heapIndex ∧
      ParentOK (fun a b : Nat => a ≤ b) (heapUp p c).ks (heapUp p c).openHeap
        ((heapUp p c).cells c).heapIndex ∧
      (ChildOK (fun a b : Nat => a ≤ b) p.ks p.openHeap p.openListLength (p.cells c).heapIndex →
        ChildOK (fun a b : Nat => a ≤ b) (heapUp p c).ks (heapUp p c).openHeap
          (heapUp p c).openListLength ((heapUp p c).cells c).heapIndex) := by
  obtain ⟨a1, a2, a3⟩ : 1 ≤ (p.cells c).heapIndex ∧ (p.cells c).heapIndex ≤ p.openListLength ∧
      p.openHeap (p.cells c).heapIndex = c := h.2 c hc hm
  obtain ⟨st, ok⟩ := dstar_heapUp_heap h c hc
  obtain ⟨r1, r2, r3, r4, r5, r6⟩ := absUp_spec dstar_tests p.ks p.openListLength
    (p.cells c).heapIndex p.openHeap (p.cells c).heapIndex a1 a2 (le_refl _) hb
  have eo : (heapUp p c).openHeap = (absUp (fun a b => decide (a < b)) p.ks
      (p.cells c).heapIndex p.openHeap (p.cells c).heapIndex).1 := by
    unfold heapUp
    rw [if_neg (by simpa using hm)]
    exact dstar_heapUpLoop_abs _ _ _
  have ek := dstar_ks_of_move st
  have el := st.len
  have ei : ((heapUp p c).cells c).heapIndex = (absUp (fun a b => decide (a < b)) p.ks
      (p.cells c).heapIndex p.openHeap (p.cells c).heapIndex).2 := by
    have := (ok.1 _ r1 (by rw [el]; omega)).2.2
    rw [eo, r3, a3] at this
    exact this
  rw [eo, ek, el, ei]
  exact ⟨r4, r5, r6⟩

/-- What `heapDown` achieves for a cell on the open list (see `absDown_spec`). -/
theorem dstar_heapDown_order {N : Nat} {p : Planner} (h : HeapOK N p) (c : Nat) (hc : c < N)
    (hm : (p.cells c).list = List_Open)
    (hb : OrderedBut (fun a b : Nat => a ≤ b) p.ks p.openHeap p.openListLength
      (p.cells c).heapIndex) :
    OrderedBut (fun a b : Nat => a ≤ b) (heapDown p c).ks (heapDown p c).openHeap
        (heapDown p c).openListLength ((heapDown p c).cells c).heapIndex ∧
      ChildOK (fun a b : Nat => a ≤ b) (heapDown p c).ks (heapDown p c).openHeap
        (heapDown p c).openListLength ((heapDown p c).cells c).heapIndex ∧
      (ParentOK (fun a b : Nat => a ≤ b) p.ks p.openHeap (p.cells c).heapIndex →
        ParentOK (fun a b : Nat => a ≤ b) (heapDown p c).ks (heapDown p c).openHeap
          ((heapDown p c).cells c).heapIndex) := by
  obtain ⟨a1, a2, a3⟩ : 1 ≤ (p.cells c).heapIndex ∧ (p.cells c).heapIndex ≤ p.openListLength ∧
      p.openHeap (p.cells c).heapIndex = c := h.2 c hc hm
  obtain ⟨st, ok⟩ := dstar_heapDown_heap h c hc
  obtain ⟨r1, r2, r3, r4, r5, r6⟩ := absDown_spec dstar_tests p.ks p.openListLength
    (p.openListLength + 1) p.openHeap (p.cells c).heapIndex a1 a2 (by omega) hb
  have eo : (heapDown p c).openHeap = (absDown (fun a b => decide (a ≥ b)) p.ks
      p.openListLength (p.openListLength + 1) p.openHeap (p.cells c).heapIndex).1 := by
    unfold heapDown
    rw [if_neg (by simpa using hm)]
    exact dstar_heapDownLoop_abs _ _ _
  have ek := dstar_ks_of_move st
  have el := st.len
  have ei : ((heapDown p c).cells c).heapIndex = (absDown (fun a b => decide (a ≥ b)) p.ks
      p.openListLength (p.openListLength + 1) p.openHeap (p.cells c).heapIndex).2 := by
    have hpos : 1 ≤ (absDown (fun a b => decide (a ≥ b)) p.ks p.openListLength
        (p.openListLength + 1) p.openHeap (p.cells c).heapIndex).2 := by omega
    have := (ok.1 _ hpos (by rw [el]; exact r2)).2.2
    rw [eo, r3, a3] at this
    exact this
  rw [eo, ek, el, ei]
  exact ⟨r4, r5, r6⟩

/-- The open list is in order: the slots and the back references agree (see `HeapOK`),
the cells that are not on the open list have `heapIndex` 0, and no `k_cost` is below
the `k_cost` of its parent slot. -/
def HeapInv (N : Nat) (p : Planner) : Prop :=
  HeapOK N p ∧ Zero N p ∧ Ordered (fun a b : Nat => a ≤ b) p.ks p.openHeap p.openListLength

/-- The first assignments of `insert` for a cell on the open list. -/
def rekey (p : Planner) (pCell : Nat) (h_cost : Nat) : Planner :=
  let c := p.cells pCell
  let c1 : Cell := { c with k_cost := if h_cost < c.k_cost then h_cost else c.k_cost, h_cost := h_cost }
  { p with cells := upd p.cells pCell c1 }

/-- The first assignments of `insert` for a cell that is not on the open list. -/
def pushed (p : Planner) (pCell : Nat) (h_cost : Nat) : Planner :=
  let c := p.cells pCell
  let c1 : Cell :=
    if c.list = List_New then { c with h_cost := h_cost, k_cost := h_cost }
    else { c with k_cost := min c.h_cost h_cost, h_cost := h_cost }
  let idx := p.openListLength + 1
  let c2 : Cell := { c1 with heapIndex := idx, list := List_Open, k_cost := min c1.k_cost h_cost }
  { p with openListLength := idx, openHeap := upd p.openHeap idx pCell, cells := upd p.cells pCell c2 }

theorem dstar_insert_open (p : Planner) (c h_cost : Nat) (ho : (p.cells c).list = List_Open) :
    insert p c h_cost = heapDown (heapUp (rekey p c h_cost) c) c := by
  unfold insert
  rw [if_pos ho]
  rfl

theorem dstar_insert_other (p : Planner) (c h_cost : Nat) (ho : ¬ (p.cells c).list = List_Open) :
    insert p c h_cost = heapUp (pushed p c h_cost) c := by
  unfold insert
  rw [if_neg ho]
  rfl

theorem dstar_rekey_cell (p : Planner) (c h_cost d : Nat) :
    ((rekey p c h_cost).cells d).list = (p.cells d).list ∧
    ((rekey p c h_cost).cells d).heapIndex = (p.cells d).heapIndex ∧
    (d ≠ c → (rekey p c h_cost).ks d = p.ks d) := by
  by_cases hd : d = c
  · rw [hd]
    refine ⟨?_, ?_, fun h => absurd rfl h⟩ <;> simp only [rekey, upd_same]
  · refine ⟨?_, ?_, fun _ => ?_⟩ <;> simp only [rekey, Planner.ks, upd_apply, if_neg hd]

theorem dstar_pushed_cell (p : Planner) (c h_cost : Nat) :
    ((pushed p c h_cost).cells c).list = List_Open ∧
    ((pushed p c h_cost).cells c).heapIndex = p.openListLength + 1 ∧
    (∀ d, d ≠ c → (pushed p c h_cost).cells d = p.cells d) := by
  refine ⟨?_, ?_, fun d hd => ?_⟩
  · simp only [pushed, upd_same]
  · simp only [pushed, upd_same]
  · simp only [pushed, upd_apply, if_neg hd]

theorem dstar_pushed_heap {N : Nat} {p : Planner} (h : HeapOK N p) (c : Nat) (hc : c < N)
    (h_cost : Nat) (ho : ¬ (p.cells c).list = List_Open) : HeapOK N (pushed p c h_cost) := by
  obtain ⟨q1, q2, q3⟩ := dstar_pushed_cell p c h_cost
  unfold HeapOK
  have e : (fun d => ((pushed p c h_cost).cells d).heapIndex) =
      upd (fun d => (p.cells d).heapIndex) c (p.openListLength + 1) := by
    funext d
    rw [upd_apply]
    split_ifs with hd
    · rw [hd, q2]
    · rw [q3 d hd]
  rw [e]
  show SlotsOK N (upd p.openHeap (p.openListLength + 1) c) _ (p.openListLength + 1) _
  refine slotsOK_push h c hc ho _ (fun d _ => ?_)
  by_cases hd : d = c
  · rw [hd, q1]
    exact ⟨fun _ => Or.inl rfl, fun _ => rfl⟩
  · rw [q3 d hd]
    exact ⟨fun hh => Or.inr hh, fun hh => hh.resolve_left hd⟩

/-- `insert` keeps the open list in order, for a cell that is new, open or closed. -/
theorem dstar_insert_inv {N : Nat} {p : Planner} (h : HeapInv N p) (c : Nat) (hc : c < N)
    (h_cost : Nat) : HeapInv N (insert p c h_cost) := by
  obtain ⟨hok, hz, hord⟩ := h
  by_cases ho : (p.cells c).list = List_Open
  · rw [dstar_insert_open p c h_cost ho]
    have hcell := dstar_rekey_cell p c h_cost
    have hok1 : HeapOK N (rekey p c h_cost) := by
      unfold HeapOK
      have e : (fun d => ((rekey p c h_cost).cells d).heapIndex) =
          (fun d => (p.cells d).heapIndex) := funext fun d => (hcell d).2.1
      rw [e]
      exact slotsOK_mem hok (fun d _ => by rw [(hcell d).1])
    have hz1 : Zero N (rekey p c h_cost) := by
      intro d hd hl
      rw [(hcell d).1] at hl
      rw [(hcell d).2.1]
      exact hz d hd hl
    have ho1 : ((rekey p c h_cost).cells c).list = List_Open := by rw [(hcell c).1]; exact ho
    obtain ⟨a1, a2, a3⟩ : 1 ≤ (p.cells c).heapIndex ∧ (p.cells c).heapIndex ≤ p.openListLength ∧
        p.openHeap (p.cells c).heapIndex = c := hok.2 c hc ho
    have hb : OrderedBut (fun a b : Nat => a ≤ b) (rekey p c h_cost).ks (rekey p c h_cost).openHeap
        (rekey p c h_cost).openListLength ((rekey p c h_cost).cells c).heapIndex := by
      rw [(hcell c).2.1]
      refine orderedBut_of_change dstar_tests hord _ a2 (fun j j1 j2 j3 => ?_)
      refine (hcell _).2.2 (fun e => j3 ?_)
      exact slotsOK_inj hok j _ j1 j2 a1 a2 (e.trans a3.symm)
    obtain ⟨m1, ok1⟩ := dstar_heapUp_heap hok1 c hc
    obtain ⟨u1, u2, _⟩ := dstar_heapUp_order hok1 c hc ho1 hb
    have ho2 : ((heapUp (rekey p c h_cost) c).cells c).list = List_Open := by
      rw [dstar_core_list (m1.core c)]; exact ho1
    obtain ⟨m2, ok2⟩ := dstar_heapDown_heap ok1 c hc
    obtain ⟨d1, d2, d3⟩ := dstar_heapDown_order ok1 c hc ho2 u1
    exact ⟨ok2, dstar_heapDown_zero ok1 (dstar_heapUp_zero hok1 hz1 c hc) c hc,
      ordered_of_parts d1 (d3 u2) d2⟩
  · rw [dstar_insert_other p c h_cost ho]
    obtain ⟨q1, q2, q3⟩ := dstar_pushed_cell p c h_cost
    have hok1 := dstar_pushed_heap hok c hc h_cost ho
    have hz1 : Zero N (pushed p c h_cost) := by
      intro d hd hl
      by_cases hdc : d = c
      · rw [hdc] at hl
        exact absurd q1 hl
      · rw [q3 d hdc] at hl ⊢
        exact hz d hd hl
    have hord1 : Ordered (fun a b : Nat => a ≤ b) (pushed p c h_cost).ks p.openHeap
        p.openListLength := by
      refine ordered_congr hord (fun j j1 j2 => ?_)
      have hne : p.openHeap j ≠ c := fun e => ho (e ▸ (hok.1 j j1 j2).2.1)
      show ((pushed p c h_cost).cells _).k_cost = _
      rw [q3 _ hne]
      rfl
    obtain ⟨b1, b2⟩ := orderedBut_push hord1 c
    have hb : OrderedBut (fun a b : Nat => a ≤ b) (pushed p c h_cost).ks (pushed p c h_cost).openHeap
        (pushed p c h_cost).openListLength ((pushed p c h_cost).cells c).heapIndex := by
      rw [q2]; exact b1
    have hch : ChildOK (fun a b : Nat => a ≤ b) (pushed p c h_cost).ks
        (pushed p c h_cost).openHeap (pushed p c h_cost).openListLength
        ((pushed p c h_cost).cells c).heapIndex := by
      rw [q2]; exact b2
    obtain ⟨m1, ok1⟩ := dstar_heapUp_heap hok1 c hc
    obtain ⟨u1, u2, u3⟩ := dstar_heapUp_order hok1 c hc q1 hb
    exact ⟨ok1, dstar_heapUp_zero hok1 hz1 c hc, ordered_of_parts u1 u2 (u3 hch)⟩

/-- The state of `popMin` before the last `heapDown`: the first cell is closed and the
cell of the last slot has taken the first slot. -/
def taken (p : Planner) : Planner :=
  let pMin := p.openHeap 1
  let p1 : Planner :=
    { p with cells := upd p.cells pMin { p.cells pMin with list := List_Closed, heapIndex := 0 }
             openListLength := p.openListLength - 1 }
  let first := p1.openHeap (p1.openListLength + 1)
  { p1 with openHeap := upd p1.openHeap 1 first
            cells := upd p1.cells first { p1.cells first with heapIndex := 1 } }

/-- The state of `popMin` when the open list had one cell. -/
def closedMin (p : Planner) : Planner :=
  let pMin := p.openHeap 1
  { p with cells := upd p.cells pMin { p.cells pMin with list := List_Closed, heapIndex := 0 }
           openListLength := p.openListLength - 1 }

theorem dstar_popMin_many (p : Planner) (hl : 2 ≤ p.openListLength) :
    popMin p = (p.openHeap 1, heapDown (taken p) (p.openHeap p.openListLength)) := by
  have hne : p.openListLength - 1 ≠ 0 := by omega
  have hlast : p.openListLength - 1 + 1 = p.openListLength := by omega
  unfold popMin taken
  simp only [hlast, upd_same]
  rw [if_pos hne]

theorem dstar_popMin_one (p : Planner) (hl : p.openListLength = 1) :
    popMin p = (p.openHeap 1, closedMin p) := by
  have hne : ¬ (p.openListLength - 1 ≠ 0) := by omega
  unfold popMin closedMin
  simp only
  rw [if_neg hne]

theorem dstar_taken_cell (p : Planner) (hl : 2 ≤ p.openListLength) (d : Nat) :
    (taken p).ks d = p.ks d ∧
    ((taken p).cells d).list = (if d = p.openHeap 1 then List_Closed else (p.cells d).list) ∧
    ((taken p).cells d).heapIndex = (if d = p.openHeap p.openListLength then 1
      else if d = p.openHeap 1 then 0 else (p.cells d).heapIndex) := by
  have hlast : p.openListLength - 1 + 1 = p.openListLength := by omega
  simp only [taken, Planner.ks, hlast, upd_apply]
  refine ⟨?_, ?_, ?_⟩ <;> split_ifs <;> simp_all

theorem dstar_taken_slots (p : Planner) (hl : 2 ≤ p.openListLength) :
    (taken p).openHeap = upd p.openHeap 1 (p.openHeap p.openListLength) ∧
    (taken p).openListLength = p.openListLength - 1 := by
  have hlast : p.openListLength - 1 + 1 = p.openListLength := by omega
  simp only [taken, hlast]
  exact ⟨trivial, trivial⟩

theorem dstar_closedMin_cell (p : Planner) (d : Nat) :
    (closedMin p).ks d = p.ks d ∧
    ((closedMin p).cells d).list = (if d = p.openHeap 1 then List_Closed else (p.cells d).list) ∧
    ((closedMin p).cells d).heapIndex = (if d = p.openHeap 1 then 0 else (p.cells d).heapIndex) := by
  simp only [closedMin, Planner.ks, upd_apply]
  refine ⟨?_, ?_, ?_⟩ <;> split_ifs <;> simp_all

/-- The extraction of the first cell at the start of `processState` keeps the open list
in order. -/
theorem dstar_popMin_inv {N : Nat} {p : Planner} (h : HeapInv N p) (hl : 1 ≤ p.openListLength) :
    HeapInv N (popMin p).2 := by
  obtain ⟨hok, hz, hord⟩ := h
  obtain ⟨f1, f2, f3⟩ : p.openHeap 1 < N ∧ (p.cells (p.openHeap 1)).list = List_Open ∧
      (p.cells (p.openHeap 1)).heapIndex = 1 := hok.1 1 (le_refl 1) hl
  by_cases hl2 : 2 ≤ p.openListLength
  · rw [dstar_popMin_many p hl2]
    show HeapInv N (heapDown (taken p) (p.openHeap p.openListLength))
    obtain ⟨l1, l2, l3⟩ : p.openHeap p.openListLength < N ∧
        (p.cells (p.openHeap p.openListLength)).list = List_Open ∧
        (p.cells (p.openHeap p.openListLength)).heapIndex = p.openListLength :=
      hok.1 _ (by omega) (le_refl _)
    have hne : p.openHeap p.openListLength ≠ p.openHeap 1 := by
      intro he
      have := slotsOK_inj hok _ _ (by omega) (le_refl _) (le_refl 1) hl he
      omega
    have hcell := dstar_taken_cell p hl2
    obtain ⟨s1, s2⟩ := dstar_taken_slots p hl2
    have hok2 : HeapOK N (taken p) := by
      unfold HeapOK
      have hpop := slotsOK_pop hok hl2 (fun d => ((taken p).cells d).list = List_Open)
        (fun d _ => by
          show (((taken p).cells d).list = List_Open ↔
            (d ≠ p.openHeap 1 ∧ (p.cells d).list = List_Open))
          rw [(hcell d).2.1]
          by_cases hd : d = p.openHeap 1
          · rw [if_pos hd]; simp [hd]
          · rw [if_neg hd]; simp [hd])
      rw [s1, s2]
      refine slotsOK_congr hpop (fun i _ _ => rfl) (fun d _ hd => ?_)
      show ((taken p).cells d).heapIndex = _
      rw [(hcell d).2.2, upd_apply]
      split_ifs with q1 q2
      · rfl
      · exfalso
        rw [(hcell d).2.1, if_pos q2] at hd
        cases hd
      · rfl
    have hz2 : Zero N (taken p) := by
      intro d hd hlist
      rw [(hcell d).2.1] at hlist
      rw [(hcell d).2.2]
      by_cases q : d = p.openHeap 1
      · rw [if_neg (fun e => hne (e.symm.trans q)), if_pos q]
      · rw [if_neg q] at hlist
        rw [if_neg (fun e : d = p.openHeap p.openListLength => hlist (by rw [e]; exact l2)), if_neg q]
        exact hz d hd hlist
    have hlo : ((taken p).cells (p.openHeap p.openListLength)).list = List_Open := by
      rw [(hcell _).2.1, if_neg hne]; exact l2
    have hli : ((taken p).cells (p.openHeap p.openListLength)).heapIndex = 1 := by
      rw [(hcell _).2.2, if_pos rfl]
    have hks : (taken p).ks = p.ks := funext fun d => (hcell d).1
    have hb : OrderedBut (fun a b : Nat => a ≤ b) (taken p).ks (taken p).openHeap
        (taken p).openListLength ((taken p).cells (p.openHeap p.openListLength)).heapIndex := by
      rw [hli, hks, s1, s2]
      exact orderedBut_take dstar_tests hord 1 (by omega)
    have hp : ParentOK (fun a b : Nat => a ≤ b) (taken p).ks (taken p).openHeap
        ((taken p).cells (p.openHeap p.openListLength)).heapIndex := by
      rw [hli]
      intro h2
      omega
    obtain ⟨m, ok3⟩ := dstar_heapDown_heap hok2 _ l1
    obtain ⟨d1, d2, d3⟩ := dstar_heapDown_order hok2 _ l1 hlo hb
    exact ⟨ok3, dstar_heapDown_zero hok2 hz2 _ l1, ordered_of_parts d1 (d3 hp) d2⟩
  · have hl1 : p.openListLength = 1 := by omega
    rw [dstar_popMin_one p hl1]
    show HeapInv N (closedMin p)
    have hcell := dstar_closedMin_cell p
    have e0 : (closedMin p).openListLength = 0 := by
      show p.openListLength - 1 = 0
      omega
    have hmem : ∀ d, d < N → (((closedMin p).cells d).list = List_Open ↔
        (d ≠ p.openHeap 1 ∧ (p.cells d).list = List_Open)) := by
      intro d _
      rw [(hcell d).2.1]
      by_cases hd : d = p.openHeap 1
      · rw [if_pos hd]; simp [hd]
      · rw [if_neg hd]; simp [hd]
    refine ⟨?_, ?_, ?_⟩
    · unfold HeapOK
      have h' : SlotsOK N p.openHeap (fun c => (p.cells c).heapIndex) 1
          (fun c => (p.cells c).list = List_Open) := by
        have := hok
        unfold HeapOK at this
        rw [hl1] at this
        exact this
      rw [e0]
      exact slotsOK_pop_last h' _ hmem _ _
    · intro d hd hlist
      rw [(hcell d).2.1] at hlist
      rw [(hcell d).2.2]
      by_cases q : d = p.openHeap 1
      · rw [if_pos q]
      · rw [if_neg q] at hlist ⊢
        exact hz d hd hlist
    · rw [e0]
      intro j j1 j2
      omega

/-- The map as `initMap` leaves it has an empty open list, which is in order. -/
theorem dstar_initMap_heapInv (m : GridMap) :
    HeapInv (m.width * m.height) (initMap m) := by
  refine ⟨⟨fun i h1 h2 => ?_, fun c _ hm => ?_⟩, fun c _ _ => ?_, fun j j1 j2 => ?_⟩
  · have : (initMap m).openListLength = 0 := rfl
    omega
  · have hm' : ((initMap m).cells c).list = List_Open := hm
    have : ((initMap m).cells c).list = List_New := rfl
    rw [this] at hm'
    cases hm'
  · rfl
  · have : (initMap m).openListLength = 0 := rfl
    omega

/-- The invariant of the open heap of D* in the words of the specification: the
`k_cost` in a slot is not above the `k_cost` in those of its two child slots that exist,
every slot `1 .. openListLength` holds a cell of the map that is on the open list and
whose `heapIndex` is the slot, the `heapIndex` of every cell on the open list is its
slot, and every cell of the map that is not on the open list has `heapIndex` 0. -/
def HeapInvariant (N : Nat) (p : Planner) : Prop :=
  (∀ i, 1 ≤ i → i ≤ p.openListLength →
    (2 * i ≤ p.openListLength → p.kAt i ≤ p.kAt (2 * i)) ∧
    (2 * i + 1 ≤ p.openListLength → p.kAt i ≤ p.kAt (2 * i + 1))) ∧
  (∀ i, 1 ≤ i → i ≤ p.openListLength →
    p.openHeap i < N ∧ (p.cells (p.openHeap i)).list = List_Open ∧
      (p.cells (p.openHeap i)).heapIndex = i) ∧
  (∀ c, c < N → (p.cells c).list = List_Open →
    1 ≤ (p.cells c).heapIndex ∧ (p.cells c).heapIndex ≤ p.openListLength ∧
      p.openHeap (p.cells c).heapIndex = c) ∧
  (∀ c, c < N → (p.cells c).list ≠ List_Open → (p.cells c).heapIndex = 0)

theorem dstar_heapInvariant_iff (N : Nat) (p : Planner) : HeapInvariant N p ↔ HeapInv N p := by
  constructor
  · rintro ⟨h1, h2, h3, h4⟩
    exact ⟨⟨h2, h3⟩, h4,
      (ordered_iff_children (fun a b : Nat => a ≤ b) p.ks p.openHeap p.openListLength).2 h1⟩
  · rintro ⟨⟨h2, h3⟩, h4, h1⟩
    exact ⟨(ordered_iff_children (fun a b : Nat => a ≤ b) p.ks p.openHeap p.openListLength).1 h1,
      h2, h3, h4⟩

end DStar

end RasterSim

namespace RasterSim

/-! ## D*: planning from scratch when no chain of free cells joins start and goal -/

/-- The cost of the arc between the cells `a` and `b` of the map as lines 315-320 of
`dstarplanner.cpp` compute it, for the two move costs of a planner. -/
def arcCost (cardinal diagonal : Nat) (m : GridMap) (a b : Nat) : Nat :=
  if m.pixel (b % m.width) (b / m.width) > 0 ∨ m.pixel (a % m.width) (a / m.width) > 0 then 2000000000
  else if b % m.width ≠ a % m.width ∧ b / m.width ≠ a / m.width then diagonal else cardinal

/-- The arc cost in an entry of the neighbour list of lines 310-323. -/
theorem neighborsWithCost_cost (cardinal diagonal w h : Nat) (cellX cellY : Nat → Nat)
    (isBlocked : Nat → Bool) (pMin n c : Nat)
    (hm : (n, c) ∈ DStar.neighborsWithCost cardinal diagonal w h cellX cellY isBlocked pMin) :
    c = if isBlocked n ∨ isBlocked pMin then 2000000000
      else if n % w ≠ cellX pMin ∧ n / w ≠ cellY pMin then diagonal else cardinal := by
  unfold DStar.neighborsWithCost at hm
  simp only [List.mem_flatMap, List.mem_filterMap] at hm
  obtain ⟨dy, hdy, dx, hdx, hsome⟩ := hm
  by_cases h1 : (cellY pMin : Int) + dy = (cellY pMin : Int) ∧ (cellX pMin : Int) + dx = (cellX pMin : Int)
  · rw [if_pos h1] at hsome; cases hsome
  rw [if_neg h1] at hsome
  by_cases h2 : (cellY pMin : Int) + dy < 0 ∨ (cellY pMin : Int) + dy ≥ (h : Int) ∨
      (cellX pMin : Int) + dx < 0 ∨ (cellX pMin : Int) + dx ≥ (w : Int)
  · rw [if_pos h2] at hsome; cases hsome
  rw [if_neg h2] at hsome
  simp only [Option.some.injEq, Prod.mk.injEq] at hsome
  obtain ⟨hn, hc⟩ := hsome
  push_neg at h2
  obtain ⟨hy0, hy1, hx0, hx1⟩ := h2
  obtain ⟨x, hx⟩ := Int.eq_ofNat_of_zero_le hx0
  obtain ⟨y, hy⟩ := Int.eq_ofNat_of_zero_le hy0
  have hxw : x < w := by
    have : (x : Int) < w := by rw [← hx]; exact hx1
    exact_mod_cast this
  have hnn : n = y * w + x := by
    rw [← hn, hx, hy]
    have : ((y : Int) * (w : Int) + (x : Int)) = ((y * w + x : Nat) : Int) := by push_cast; ring
    rw [this, Int.toNat_ofNat]
  have hpos := posOf_index w x y hxw
  unfold posOf at hpos
  rw [← hnn] at hpos
  have hp1 : n % w = x := congrArg Prod.fst hpos
  have hp2 : n / w = y := congrArg Prod.snd hpos
  rw [← hc, hn, hp1, hp2, hx, hy]
  simp only [Nat.cast_inj, ne_eq]

namespace DStar

open ListType

/-- The part of the state that a run of the planner leaves alone agrees with the map. -/
structure Static (m : GridMap) (p : Planner) : Prop where
  width : p.width = m.width
  height : p.height = m.height
  xy : ∀ c, c < m.width * m.height → (p.cells c).x = c % m.width ∧ (p.cells c).y = c / m.width
  blocked : ∀ c, c < m.width * m.height →
    ((p.cells c).blocked = true ↔ m.pixel (c % m.width) (c / m.width) > 0)

theorem dstar_static_of_core {m : GridMap} {p p' : Planner} (h : Static m p)
    (hw : p'.width = p.width) (hh : p'.height = p.height)
    (hx : ∀ c, (p'.cells c).x = (p.cells c).x) (hy : ∀ c, (p'.cells c).y = (p.cells c).y)
    (hb : ∀ c, (p'.cells c).blocked = (p.cells c).blocked) : Static m p' :=
  ⟨hw.trans h.width, hh.trans h.height, fun c hc => by rw [hx, hy]; exact h.xy c hc,
    fun c hc => by rw [hb]; exact h.blocked c hc⟩

/-- The entries of the neighbour list of a cell of the map: other cells of the map,
adjacent to it, with the arc cost of the map. -/
theorem dstar_neighbors_static {m : GridMap} {p : Planner} (h : Static m p) (pMin n c : Nat)
    (hp : pMin < m.width * m.height) (hm : (n, c) ∈ p.neighbors pMin) :
    n < m.width * m.height ∧ n ≠ pMin ∧ c = arcCost 10 14 m pMin n ∧
      Adjacent (posOf m.width pMin) (posOf m.width n) := by
  unfold Planner.neighbors at hm
  obtain ⟨h1, h2⟩ := neighborsWithCost_mem _ _ _ _ _ _ _ _ _ _ hm
  have h3 := neighborsWithCost_cost _ _ _ _ _ _ _ _ _ _ hm
  rw [h.width, h.height] at h1
  rw [h.width, (h.xy pMin hp).1, (h.xy pMin hp).2] at h2
  simp only [h.width, (h.xy pMin hp).1, (h.xy pMin hp).2] at h3
  refine ⟨h1, ?_, ?_, h2⟩
  · intro he
    rw [he] at h2
    exact h2.1 rfl
  · rw [h3]
    unfold arcCost
    have b1 := h.blocked n h1
    have b2 := h.blocked pMin hp
    by_cases c1 : (p.cells n).blocked = true
    · simp [c1, b1.1 c1]
    · by_cases c2 : (p.cells pMin).blocked = true
      · simp [c2, b2.1 c2]
      · have e1 : ¬ m.pixel (n % m.width) (n / m.width) > 0 := fun hh => c1 (b1.2 hh)
        have e2 : ¬ m.pixel (pMin % m.width) (pMin / m.width) > 0 := fun hh => c2 (b2.2 hh)
        simp only [c1, c2, e1, e2, or_self, if_false]
        rfl

theorem dstar_arcCost_cases (m : GridMap) (a b : Nat) :
    (arcCost 10 14 m a b = 2000000000 ∧
      (m.pixel (b % m.width) (b / m.width) > 0 ∨ m.pixel (a % m.width) (a / m.width) > 0)) ∨
    ((arcCost 10 14 m a b = 10 ∨ arcCost 10 14 m a b = 14) ∧
      ¬ m.pixel (b % m.width) (b / m.width) > 0 ∧ ¬ m.pixel (a % m.width) (a / m.width) > 0) := by
  unfold arcCost
  split_ifs with h1 h2
  · exact Or.inl ⟨rfl, h1⟩
  · push_neg at h1; exact Or.inr ⟨Or.inr rfl, by omega, by omega⟩
  · push_neg at h1; exact Or.inr ⟨Or.inl rfl, by omega, by omega⟩

theorem dstar_arcPlus_mono (a h1 h2 : Nat) (h : h1 ≤ h2) (hb : h2 < 2000000014) :
    arcPlus a h1 ≤ arcPlus a h2 := by
  unfold arcPlus uadd OBSTACLE_COST
  split_ifs with ha
  · rw [Nat.mod_eq_of_lt (by omega), Nat.mod_eq_of_lt (by omega)]
    omega
  · exact le_refl _

/-- The invariant of a run from scratch: the open list is in order, open cells carry
`k = h`, a backpointer leads to a cell that offers at most `h`, a blocked cell carries
at least the obstacle cost, and a free cell that is not new any more is joined to the
goal by free cells. -/
structure Scratch (m : GridMap) (pGoal : Nat) (p : Planner) : Prop where
  static : Static m p
  heap : HeapOK (m.width * m.height) p
  kh : ∀ c, c < m.width * m.height → (p.cells c).list = List_Open →
    (p.cells c).k_cost = (p.cells c).h_cost
  back : ∀ c b, c < m.width * m.height → (p.cells c).backPtr = some b →
    (p.cells c).list ≠ List_New ∧ b < m.width * m.height ∧ (p.cells b).list ≠ List_New ∧
      arcPlus (arcCost 10 14 m b c) (p.cells b).h_cost ≤ (p.cells c).h_cost
  hbound : ∀ c, c < m.width * m.height → (p.cells c).list ≠ List_New →
    (p.cells c).h_cost < 2000000014
  obst : ∀ c, c < m.width * m.height → (p.cells c).list ≠ List_New →
    (p.cells c).blocked = true → 2000000000 ≤ (p.cells c).h_cost
  conn : ∀ c, c < m.width * m.height → (p.cells c).list ≠ List_New →
    (p.cells c).blocked = false → Connected m (posOf m.width pGoal) (posOf m.width c)

/-- The weight of a cell in the potential: its `h_cost`, or `2^32` while it is new. -/
def weight (p : Planner) (c : Nat) : Nat :=
  if (p.cells c).list = List_New then 4294967296 else (p.cells c).h_cost

/-- The quantity that every round of `processState` lowers in a run from scratch. -/
def potential (N : Nat) (p : Planner) : Nat := 2 * sumBelow (weight p) N + p.openListLength

theorem dstar_freeCell {m : GridMap} {p : Planner} (h : Static m p) (c : Nat)
    (hc : c < m.width * m.height) (hb : (p.cells c).blocked = false) :
    FreeCell m (posOf m.width c) := by
  have hw0 : 0 < m.width := by
    rcases Nat.eq_zero_or_pos m.width with h0 | h0
    · rw [h0] at hc; simp at hc
    · exact h0
  refine ⟨Nat.mod_lt _ hw0, (Nat.div_lt_iff_lt_mul hw0).2 (by rw [Nat.mul_comm]; exact hc), ?_⟩
  by_contra hne
  have : m.pixel (c % m.width) (c / m.width) > 0 := by
    unfold posOf at hne; simp only at hne; omega
  have := (h.blocked c hc).2 this
  rw [hb] at this
  cases this

/-- Changing a backpointer leaves the open list in order. -/
theorem dstar_setBack_heap {N : Nat} {p : Planner} (h : HeapOK N p) (c : Nat) (b : Option Nat) :
    HeapOK N { p with cells := upd p.cells c { p.cells c with backPtr := b } } := by
  unfold HeapOK
  have e : (fun d => ((upd p.cells c { p.cells c with backPtr := b }) d).heapIndex) =
      (fun d => (p.cells d).heapIndex) := by
    funext d
    rw [upd_apply]
    split_ifs with hd
    · rw [hd]
    · rfl
  show SlotsOK N p.openHeap (fun d => ((upd p.cells c { p.cells c with backPtr := b }) d).heapIndex)
    p.openListLength (fun d => ((upd p.cells c { p.cells c with backPtr := b }) d).list = List_Open)
  rw [e]
  refine slotsOK_mem h (fun d _ => ?_)
  rw [upd_apply]
  split_ifs with hd
  · rw [hd]
  · exact Iff.rfl

/-- One neighbour of a closed free cell `pMin` takes `pMin` as its backpointer and a
lower `h_cost`: the invariant is kept and the potential falls. -/
theorem dstar_adopt_scratch {m : GridMap} {pGoal : Nat} {p : Planner} (hS : Scratch m pGoal p)
    (pMin nb : Nat) (hpMin : pMin < m.width * m.height) (hnb : nb < m.width * m.height)
    (hne : nb ≠ pMin) (hcl : (p.cells pMin).list = List_Closed)
    (hfree : (p.cells pMin).blocked = false) (hh : (p.cells pMin).h_cost < 2000000000)
    (hadj : Adjacent (posOf m.width pMin) (posOf m.width nb))
    (hlow : (p.cells nb).list = List_New ∨
      arcPlus (arcCost 10 14 m pMin nb) (p.cells pMin).h_cost < (p.cells nb).h_cost) :
    Scratch m pGoal (adopt p pMin nb (arcPlus (arcCost 10 14 m pMin nb) (p.cells pMin).h_cost)) ∧
      potential (m.width * m.height)
        (adopt p pMin nb (arcPlus (arcCost 10 14 m pMin nb) (p.cells pMin).h_cost)) + 1 ≤
        potential (m.width * m.height) p ∧
      ((adopt p pMin nb (arcPlus (arcCost 10 14 m pMin nb) (p.cells pMin).h_cost)).cells pMin).core =
        (p.cells pMin).core := by
  set hnew := arcPlus (arcCost 10 14 m pMin nb) (p.cells pMin).h_cost with hhnew
  have ins := dstar_insert_spec (dstar_setBack_heap hS.heap nb (some pMin)) nb hnb hnew
  have e0 : ∀ d, d ≠ nb →
      ((upd p.cells nb { p.cells nb with backPtr := some pMin }) d).core = (p.cells d).core :=
    fun d hd => by rw [upd_other _ _ _ _ hd]
  set p' := adopt p pMin nb hnew with hp'
  have hother : ∀ d, d ≠ nb → (p'.cells d).core = (p.cells d).core := fun d hd =>
    (ins.other d hd).trans (e0 d hd)
  -- the new values of the neighbour
  have hbnd : hnew < 2000000014 ∧ ((p.cells nb).blocked = true → 2000000000 ≤ hnew) := by
    have hb := hS.static.blocked nb hnb
    have hb2 := hS.static.blocked pMin hpMin
    rw [hhnew]
    unfold arcPlus uadd OBSTACLE_COST
    rcases dstar_arcCost_cases m pMin nb with ⟨c1, c2⟩ | ⟨c1, c2, c3⟩
    · rw [c1]
      simp
    · constructor
      · rcases c1 with c1 | c1 <;> rw [c1] <;> simp <;> omega
      · intro hbl
        exact absurd (hb.1 hbl) c2
  have hk : insertK { p.cells nb with backPtr := some pMin } hnew = hnew := by
    unfold insertK
    show (if (p.cells nb).list = List_Open then
        (if hnew < (p.cells nb).k_cost then hnew else (p.cells nb).k_cost)
      else if (p.cells nb).list = List_New then hnew else min (p.cells nb).h_cost hnew) = hnew
    split_ifs with h1 h2 h3
    · rfl
    · rcases hlow with h4 | h4
      · rw [h1] at h4; cases h4
      · rw [hS.kh nb hnb h1] at h2
        exact absurd h4 h2
    · rfl
    · rcases hlow with h4 | h4
      · exact absurd h4 h3
      · exact Nat.min_eq_right (le_of_lt h4)
  have hcell := ins.cell
  simp only [upd_same] at hcell
  obtain ⟨m1, m2, m3, m4, m5, m6, m7⟩ := dstar_tuple hcell
  have n1 : (p'.cells nb).backPtr = some pMin := m1
  have n2 : (p'.cells nb).x = (p.cells nb).x := m2
  have n3 : (p'.cells nb).y = (p.cells nb).y := m3
  have n4 : (p'.cells nb).h_cost = hnew := m4
  have n5 : (p'.cells nb).k_cost = hnew := m5.trans hk
  have n6 : (p'.cells nb).blocked = (p.cells nb).blocked := m6
  have n7 : (p'.cells nb).list = List_Open := m7
  have hlist : ∀ d, (p'.cells d).list ≠ List_New ↔ (d = nb ∨ (p.cells d).list ≠ List_New) := by
    intro d
    by_cases hd : d = nb
    · rw [hd, n7]; simp
    · rw [dstar_core_list (hother d hd)]; simp [hd]
  have hmin : (p'.cells pMin).core = (p.cells pMin).core := hother pMin (fun e => hne e.symm)
  have hstat : Static m p' := by
    refine dstar_static_of_core hS.static ins.width ins.height (fun c => ?_) (fun c => ?_) (fun c => ?_)
    · by_cases hc : c = nb
      · rw [hc, n2]
      · rw [dstar_core_x (hother c hc)]
    · by_cases hc : c = nb
      · rw [hc, n3]
      · rw [dstar_core_y (hother c hc)]
    · by_cases hc : c = nb
      · rw [hc, n6]
      · rw [dstar_core_blocked (hother c hc)]
  refine ⟨⟨hstat, ins.heap, ?_, ?_, ?_, ?_, ?_⟩, ?_, hmin⟩
  · -- k = h on the open list
    intro c hc hopen
    by_cases hcn : c = nb
    · rw [hcn, n4, n5]
    · rw [dstar_core_list (hother c hcn)] at hopen
      rw [dstar_core_k (hother c hcn), dstar_core_h (hother c hcn)]
      exact hS.kh c hc hopen
  · -- backpointers
    intro c b hc hb
    by_cases hcn : c = nb
    · rw [hcn, n1] at hb
      cases hb
      rw [hcn]
      refine ⟨(hlist nb).2 (Or.inl rfl), hpMin, ?_, ?_⟩
      · rw [dstar_core_list hmin, hcl]; simp
      · rw [dstar_core_h hmin, n4]
    · rw [dstar_core_backPtr (hother c hcn)] at hb
      obtain ⟨b1, b2, b3, b4⟩ := hS.back c b hc hb
      refine ⟨(hlist c).2 (Or.inr b1), b2, (hlist b).2 (Or.inr b3), ?_⟩
      rw [dstar_core_h (hother c hcn)]
      by_cases hbn : b = nb
      · rw [hbn, n4]
        rw [hbn] at b3 b4
        rcases hlow with h4 | h4
        · exact absurd h4 b3
        · exact le_trans (dstar_arcPlus_mono _ _ _ (le_of_lt h4) (hS.hbound nb hnb b3)) b4
      · rw [dstar_core_h (hother b hbn)]
        exact b4
  · -- the bound on h
    intro c hc hl
    by_cases hcn : c = nb
    · rw [hcn, n4]; exact hbnd.1
    · rw [dstar_core_h (hother c hcn)]
      rw [dstar_core_list (hother c hcn)] at hl
      exact hS.hbound c hc hl
  · -- blocked cells
    intro c hc hl hb
    by_cases hcn : c = nb
    · rw [hcn, n4]
      rw [hcn, n6] at hb
      exact hbnd.2 hb
    · rw [dstar_core_h (hother c hcn)]
      rw [dstar_core_list (hother c hcn)] at hl
      rw [dstar_core_blocked (hother c hcn)] at hb
      exact hS.obst c hc hl hb
  · -- free cells are joined to the goal
    intro c hc hl hb
    by_cases hcn : c = nb
    · rw [hcn]
      rw [hcn, n6] at hb
      have h1 := hS.conn pMin hpMin (by rw [hcl]; simp) hfree
      exact connected_extend m _ _ _ h1 hadj (dstar_freeCell hS.static nb hnb hb)
    · rw [dstar_core_list (hother c hcn)] at hl
      rw [dstar_core_blocked (hother c hcn)] at hb
      exact hS.conn c hc hl hb
  · -- the potential
    unfold potential
    have hsum := sumBelow_lt (weight p') (weight p) nb 1 (m.width * m.height)
      (fun c _ => by
        unfold weight
        by_cases hcn : c = nb
        · rw [hcn, n7, n4, if_neg (by decide)]
          split_ifs with h5
          · have := hbnd.1; omega
          · rcases hlow with h4 | h4
            · exact absurd h4 h5
            · exact le_of_lt h4
        · rw [dstar_core_list (hother c hcn), dstar_core_h (hother c hcn)])
      hnb (by
        unfold weight
        rw [n7, n4, if_neg (by decide)]
        split_ifs with h5
        · have := hbnd.1; omega
        · rcases hlow with h4 | h4
          · exact absurd h4 h5
          · exact h4)
    have hlen : p'.openListLength ≤ p.openListLength + 1 := by
      have hl : p'.openListLength = _ := ins.len
      rw [hl]
      split_ifs
      · exact Nat.le_succ _
      · exact le_refl _
    omega

/-- The neighbours of a closed free cell with `k = h` below the obstacle cost are
worked through (lines 340-350): the invariant is kept, the potential does not rise. -/
theorem dstar_propagateLower_scratch {m : GridMap} {pGoal : Nat} {p : Planner}
    (hS : Scratch m pGoal p) (pMin : Nat) (hpMin : pMin < m.width * m.height)
    (hcl : (p.cells pMin).list = List_Closed) (hfree : (p.cells pMin).blocked = false)
    (hh : (p.cells pMin).h_cost < 2000000000) (nbs : List (Nat × Nat))
    (hnbs : ∀ nb, nb ∈ nbs → nb.1 < m.width * m.height ∧ nb.1 ≠ pMin ∧
      nb.2 = arcCost 10 14 m pMin nb.1 ∧ Adjacent (posOf m.width pMin) (posOf m.width nb.1)) :
    Scratch m pGoal (propagateLower p pMin nbs) ∧
      potential (m.width * m.height) (propagateLower p pMin nbs) ≤ potential (m.width * m.height) p := by
  unfold propagateLower
  have key := foldl_keeps
    (fun q : Planner => Scratch m pGoal q ∧
      potential (m.width * m.height) q ≤ potential (m.width * m.height) p ∧
      (q.cells pMin).core = (p.cells pMin).core)
    (fun (p : Planner) (nb : Nat × Nat) =>
      if (p.cells nb.1).list = List_New ∨
          (p.cells nb.1).h_cost > arcPlus nb.2 (p.cells pMin).h_cost ∨
          ((p.cells nb.1).backPtr = some pMin ∧
            (p.cells nb.1).h_cost ≠ arcPlus nb.2 (p.cells pMin).h_cost) then
        adopt p pMin nb.1 (arcPlus nb.2 (p.cells pMin).h_cost)
      else p)
    nbs p
    (fun q nb hnb ⟨hq, hpot, hcore⟩ => by
      obtain ⟨g1, g2, g3, g4⟩ := hnbs nb hnb
      simp only
      split_ifs with hc
      · rw [g3]
        rw [g3] at hc
        have hlow : (q.cells nb.1).list = List_New ∨
            arcPlus (arcCost 10 14 m pMin nb.1) (q.cells pMin).h_cost < (q.cells nb.1).h_cost := by
          rcases hc with hc | hc | ⟨hc1, hc2⟩
          · exact Or.inl hc
          · exact Or.inr hc
          · right
            have := (hq.back nb.1 pMin g1 hc1).2.2.2
            omega
        obtain ⟨r1, r2, r3⟩ := dstar_adopt_scratch hq pMin nb.1 hpMin g1 g2
          (by rw [dstar_core_list hcore]; exact hcl)
          (by rw [dstar_core_blocked hcore]; exact hfree)
          (by rw [dstar_core_h hcore]; exact hh) g4 hlow
        exact ⟨r1, by omega, r3.trans hcore⟩
      · exact ⟨hq, hpot, hcore⟩)
    ⟨hS, le_refl _, rfl⟩
  exact ⟨key.1, key.2.1⟩

/-- Taking the first cell off the open list keeps the invariant; the potential falls
by one. -/
theorem dstar_popped_scratch {m : GridMap} {pGoal : Nat} {p p' : Planner} (hS : Scratch m pGoal p)
    (pMin : Nat) (hP : Popped (m.width * m.height) p p' pMin)
    (hopen : (p.cells pMin).list = List_Open) :
    Scratch m pGoal p' ∧ potential (m.width * m.height) p' + 1 = potential (m.width * m.height) p ∧
      (p'.cells pMin).list = List_Closed ∧ (p'.cells pMin).h_cost = (p.cells pMin).h_cost ∧
      (p'.cells pMin).k_cost = (p.cells pMin).k_cost ∧
      (p'.cells pMin).blocked = (p.cells pMin).blocked := by
  obtain ⟨m1, m2, m3, m4, m5, m6, m7⟩ := dstar_tuple hP.cell
  have hb : ∀ d, (p'.cells d).backPtr = (p.cells d).backPtr := fun d => by
    by_cases hd : d = pMin
    · rw [hd, m1]
    · exact dstar_core_backPtr (hP.other d hd)
  have hx : ∀ d, (p'.cells d).x = (p.cells d).x := fun d => by
    by_cases hd : d = pMin
    · rw [hd, m2]
    · exact dstar_core_x (hP.other d hd)
  have hy : ∀ d, (p'.cells d).y = (p.cells d).y := fun d => by
    by_cases hd : d = pMin
    · rw [hd, m3]
    · exact dstar_core_y (hP.other d hd)
  have hh : ∀ d, (p'.cells d).h_cost = (p.cells d).h_cost := fun d => by
    by_cases hd : d = pMin
    · rw [hd, m4]
    · exact dstar_core_h (hP.other d hd)
  have hk : ∀ d, (p'.cells d).k_cost = (p.cells d).k_cost := fun d => by
    by_cases hd : d = pMin
    · rw [hd, m5]
    · exact dstar_core_k (hP.other d hd)
  have hbl : ∀ d, (p'.cells d).blocked = (p.cells d).blocked := fun d => by
    by_cases hd : d = pMin
    · rw [hd, m6]
    · exact dstar_core_blocked (hP.other d hd)
  have hnew : ∀ d, (p'.cells d).list = List_New ↔ (p.cells d).list = List_New := fun d => by
    by_cases hd : d = pMin
    · rw [hd, m7, hopen]; simp
    · rw [dstar_core_list (hP.other d hd)]
  have hop : ∀ d, (p'.cells d).list = List_Open → (p.cells d).list = List_Open := fun d ho => by
    by_cases hd : d = pMin
    · rw [hd, m7] at ho; cases ho
    · rw [dstar_core_list (hP.other d hd)] at ho; exact ho
  refine ⟨⟨dstar_static_of_core hS.static hP.width hP.height hx hy hbl, hP.heap, ?_, ?_, ?_, ?_, ?_⟩,
    ?_, m7, m4, m5, m6⟩
  · intro c hc ho
    rw [hk, hh]
    exact hS.kh c hc (hop c ho)
  · intro c b hc hbp
    rw [hb] at hbp
    obtain ⟨b1, b2, b3, b4⟩ := hS.back c b hc hbp
    rw [hh, hh]
    exact ⟨fun e => b1 ((hnew c).1 e), b2, fun e => b3 ((hnew b).1 e), b4⟩
  · intro c hc hl
    rw [hh]
    exact hS.hbound c hc (fun e => hl ((hnew c).2 e))
  · intro c hc hl hb'
    rw [hh]
    rw [hbl] at hb'
    exact hS.obst c hc (fun e => hl ((hnew c).2 e)) hb'
  · intro c hc hl hb'
    rw [hbl] at hb'
    exact hS.conn c hc (fun e => hl ((hnew c).2 e)) hb'
  · unfold potential
    have := sumBelow_congr (weight p') (weight p) (m.width * m.height) (fun c _ => by
      unfold weight
      rw [hh]
      by_cases hn : (p.cells c).list = List_New
      · rw [if_pos hn, if_pos ((hnew c).2 hn)]
      · rw [if_neg hn, if_neg (fun e => hn ((hnew c).1 e))])
    have := hP.len
    omega

/-- One round of `processState` in a run from scratch, entered with a first cell
below the obstacle cost: the invariant is kept and the potential falls. -/
theorem dstar_processState_scratch {m : GridMap} {pGoal : Nat} {p : Planner}
    (hS : Scratch m pGoal p) (hl : 1 ≤ p.openListLength)
    (hk : (p.cells (p.openHeap 1)).k_cost < 2000000000) :
    Scratch m pGoal (processState p).1 ∧
      potential (m.width * m.height) (processState p).1 + 1 ≤ potential (m.width * m.height) p ∧
      (processState p).2 = getKMin (processState p).1 := by
  obtain ⟨a1, a2, a3⟩ := hS.heap.1 1 (le_refl 1) hl
  obtain ⟨hpm1, hP⟩ := dstar_popMin_spec hS.heap hl
  obtain ⟨hS1, hpot, c1, c2, c3, c4⟩ := dstar_popped_scratch hS (p.openHeap 1) hP a2
  have hkh := hS.kh _ a1 a2
  have hfree : (p.cells (p.openHeap 1)).blocked = false := by
    cases hb : (p.cells (p.openHeap 1)).blocked
    · rfl
    · have := hS.obst _ a1 (by rw [a2]; simp) hb
      omega
  unfold processState
  rw [if_neg (by omega)]
  simp only
  rw [hpm1]
  have hlf : lowerFromNeighbors (popMin p).2 (p.openHeap 1)
      (((popMin p).2.cells (p.openHeap 1)).k_cost) ((popMin p).2.neighbors (p.openHeap 1)) =
      (popMin p).2 := by
    unfold lowerFromNeighbors
    rw [if_neg (by rw [c2, c3]; omega)]
  rw [hlf, if_pos (by rw [c2, c3]; exact hkh)]
  obtain ⟨r1, r2⟩ := dstar_propagateLower_scratch hS1 (p.openHeap 1) a1 c1 (by rw [c4]; exact hfree)
    (by rw [c2]; omega) ((popMin p).2.neighbors (p.openHeap 1))
    (fun nb hnb => dstar_neighbors_static hS1.static (p.openHeap 1) nb.1 nb.2 a1 hnb)
  exact ⟨r1, by omega, trivial⟩

/-- A free cell that no chain of free cells joins to the goal stays new. -/
theorem dstar_start_new {m : GridMap} {pGoal pStart : Nat} {p : Planner} (hS : Scratch m pGoal p)
    (hs : pStart < m.width * m.height) (hf : m.pixel (pStart % m.width) (pStart / m.width) = 0)
    (hn : ¬ Connected m (posOf m.width pGoal) (posOf m.width pStart)) :
    (p.cells pStart).list = List_New := by
  by_contra hl
  have hb : (p.cells pStart).blocked = false := by
    cases hb : (p.cells pStart).blocked
    · rfl
    · have := (hS.static.blocked pStart hs).1 hb
      omega
  exact hn (hS.conn pStart hs hl hb)

/-- The `processState` loop of a run from scratch ends without a path when no chain
of free cells joins start and goal and the fuel exceeds the potential. -/
theorem dstar_processLoop_ends {m : GridMap} {pGoal pStart : Nat}
    (hs : pStart < m.width * m.height) (hf : m.pixel (pStart % m.width) (pStart / m.width) = 0)
    (hn : ¬ Connected m (posOf m.width pGoal) (posOf m.width pStart)) :
    ∀ (fuel : Nat) (p : Planner), Scratch m pGoal p →
      (p.openListLength = 0 ∨ (p.cells (p.openHeap 1)).k_cost < 2000000000) →
      potential (m.width * m.height) p < fuel →
      ∃ p', processLoop pStart fuel p = some (p', LoopEnd.noPath)
  | 0, _, _, _, hφ => by omega
  | fuel + 1, p, hS, hk, hφ => by
    unfold processLoop
    by_cases hl : p.openListLength = 0
    · have e : processState p = (p, OBSTACLE_COST) := by
        unfold processState
        rw [if_pos (by omega)]
      rw [e]
      simp only
      rw [if_neg (fun h => h.1 (dstar_start_new hS hs hf hn)), if_pos (le_refl _)]
      exact ⟨_, rfl⟩
    · have hk' : (p.cells (p.openHeap 1)).k_cost < 2000000000 := by
        rcases hk with hk | hk
        · exact absurd hk hl
        · exact hk
      obtain ⟨r1, r2, r3⟩ := dstar_processState_scratch hS (by omega) hk'
      have e : processState p = ((processState p).1, getKMin (processState p).1) := by
        rw [← r3]
      rw [e]
      simp only
      rw [if_neg (fun h => h.1 (dstar_start_new r1 hs hf hn))]
      by_cases hkm : getKMin (processState p).1 ≥ OBSTACLE_COST
      · rw [if_pos hkm]
        exact ⟨_, rfl⟩
      · rw [if_neg hkm]
        refine dstar_processLoop_ends hs hf hn fuel _ r1 ?_ (by omega)
        unfold getKMin at hkm
        split_ifs at hkm with h0
        · exact Or.inl h0
        · right
          unfold OBSTACLE_COST at hkm
          omega

/-- `initMap` yields a state whose static part agrees with the map when the
coordinates fit `unsigned short`. -/
theorem dstar_initMap_static (m : GridMap) (hw : m.width ≤ USHORT) (hh : m.height ≤ USHORT) :
    Static m (initMap m) := by
  refine ⟨rfl, rfl, fun c hc => ?_, fun c hc => ?_⟩
  · have hw0 : 0 < m.width := by
      rcases Nat.eq_zero_or_pos m.width with h0 | h0
      · rw [h0] at hc; simp at hc
      · exact h0
    have h1 : c % m.width < USHORT := lt_of_lt_of_le (Nat.mod_lt _ hw0) hw
    have h2 : c / m.width < USHORT :=
      lt_of_lt_of_le ((Nat.div_lt_iff_lt_mul hw0).2 (by rw [Nat.mul_comm]; exact hc)) hh
    exact ⟨Nat.mod_eq_of_lt h1, Nat.mod_eq_of_lt h2⟩
  · show decide (m.pixel (c % m.width) (c / m.width) > 0) = true ↔ _
    simp

/-- The re-initialisation of lines 175-186 starts a run from scratch. -/
theorem dstar_resetState_scratch {m : GridMap} {p : Planner} (hst : Static m p) (pGoal : Nat)
    (hg : pGoal < m.width * m.height) (hgf : m.pixel (pGoal % m.width) (pGoal / m.width) = 0) :
    Scratch m pGoal (resetState p pGoal) ∧ (resetState p pGoal).openListLength = 1 ∧
      (resetState p pGoal).openHeap 1 = pGoal ∧ ((resetState p pGoal).cells pGoal).k_cost = 0 ∧
      potential (m.width * m.height) (resetState p pGoal) ≤ 2 * (m.width * m.height * 4294967296) + 1 := by
  have hN : p.width * p.height = m.width * m.height := by rw [hst.width, hst.height]
  have hgoal : ((resetState p pGoal).cells pGoal).core =
      (none, (p.cells pGoal).x, (p.cells pGoal).y, 0, 0, (p.cells pGoal).blocked, List_Open) := by
    unfold resetState
    simp only [upd_same, hN, hg, if_true, Cell.core]
  have hgi : ((resetState p pGoal).cells pGoal).heapIndex = 1 := by
    unfold resetState
    simp only [upd_same]
  have hoth : ∀ c, c < m.width * m.height → c ≠ pGoal → ((resetState p pGoal).cells c).core =
      (none, (p.cells c).x, (p.cells c).y, 0, (p.cells c).k_cost, (p.cells c).blocked, List_New) := by
    intro c hc hne
    unfold resetState
    simp only [upd_apply, if_neg hne, hN, hc, if_true, Cell.core]
  have hx : ∀ c, ((resetState p pGoal).cells c).x = (p.cells c).x := by
    intro c
    unfold resetState
    simp only [upd_apply]
    split_ifs <;> simp_all
  have hy : ∀ c, ((resetState p pGoal).cells c).y = (p.cells c).y := by
    intro c
    unfold resetState
    simp only [upd_apply]
    split_ifs <;> simp_all
  have hb : ∀ c, ((resetState p pGoal).cells c).blocked = (p.cells c).blocked := by
    intro c
    unfold resetState
    simp only [upd_apply]
    split_ifs <;> simp_all
  have hst' : Static m (resetState p pGoal) := dstar_static_of_core hst rfl rfl hx hy hb
  obtain ⟨g1, g2, g3, g4, g5, g6, g7⟩ := dstar_tuple hgoal
  have hopen : ∀ c, c < m.width * m.height → ((resetState p pGoal).cells c).list ≠ List_New →
      c = pGoal := by
    intro c hc hl
    by_contra hne
    exact hl (dstar_tuple (hoth c hc hne)).2.2.2.2.2.2
  have hgb : ((resetState p pGoal).cells pGoal).blocked = false := by
    cases hbl : ((resetState p pGoal).cells pGoal).blocked
    · rfl
    · have := (hst'.blocked pGoal hg).1 hbl
      omega
  refine ⟨⟨hst', ?_, ?_, ?_, ?_, ?_, ?_⟩, rfl, by unfold resetState; simp only [upd_same], g5, ?_⟩
  · constructor
    · intro i h1 h2
      have hi : i = 1 := by
        have : (resetState p pGoal).openListLength = 1 := rfl
        omega
      subst hi
      have e : (resetState p pGoal).openHeap 1 = pGoal := by unfold resetState; simp only [upd_same]
      rw [e]
      exact ⟨hg, g7, hgi⟩
    · intro c hc hm
      have hcg : c = pGoal := hopen c hc (by
        have hm' : ((resetState p pGoal).cells c).list = List_Open := hm
        rw [hm']; simp)
      rw [hcg]
      have e : (resetState p pGoal).openHeap 1 = pGoal := by unfold resetState; simp only [upd_same]
      show 1 ≤ ((resetState p pGoal).cells pGoal).heapIndex ∧
        ((resetState p pGoal).cells pGoal).heapIndex ≤ (resetState p pGoal).openListLength ∧
        (resetState p pGoal).openHeap ((resetState p pGoal).cells pGoal).heapIndex = pGoal
      rw [hgi]
      exact ⟨le_refl _, le_refl _, e⟩
  · intro c hc ho
    have hcg : c = pGoal := hopen c hc (by rw [ho]; simp)
    rw [hcg, g4, g5]
  · intro c b hc hbp
    exfalso
    by_cases hcg : c = pGoal
    · rw [hcg, g1] at hbp; cases hbp
    · rw [(dstar_tuple (hoth c hc hcg)).1] at hbp; cases hbp
  · intro c hc hl
    rw [hopen c hc hl, g4]
    omega
  · intro c hc hl hbl
    rw [hopen c hc hl, hgb] at hbl
    cases hbl
  · intro c hc hl _
    rw [hopen c hc hl]
    exact connected_self m _ (dstar_freeCell hst' pGoal hg hgb)
  · unfold potential
    have h1 := sumBelow_bound (weight (resetState p pGoal)) 4294967296 (m.width * m.height)
      (fun c hc => by
        unfold weight
        split_ifs with hl
        · exact le_refl _
        · rw [hopen c hc hl, g4]; omega)
    have h2 : (resetState p pGoal).openListLength = 1 := rfl
    omega

/-- Planning from scratch when no chain of free cells joins the free start and goal:
with enough fuel `doCalculatePath` ends with the error "No Path found". -/
theorem dstar_unconnected (m : GridMap) (p : Planner) (start goal : Pos) (updates fuel : Nat)
    (hst : Static m p) (hs : FreeCell m start) (hg : FreeCell m goal)
    (hn : ¬ Connected m start goal) (hu : needsReset updates = true)
    (hf : 2 * (m.width * m.height * 4294967296) + 1 < fuel) :
    ∃ o, doCalculatePath fuel p updates start goal = some o ∧ o.path = [] ∧
      o.error = "No Path found" := by
  have hsN := index_lt m.width m.height start.1 start.2 hs.1 hs.2.1
  have hgN := index_lt m.width m.height goal.1 goal.2 hg.1 hg.2.1
  have hps : posOf m.width (start.2 * m.width + start.1) = start := posOf_index _ _ _ hs.1
  have hpg : posOf m.width (goal.2 * m.width + goal.1) = goal := posOf_index _ _ _ hg.1
  have hsf : m.pixel ((start.2 * m.width + start.1) % m.width) ((start.2 * m.width + start.1) / m.width) = 0 := by
    have h1 := congrArg Prod.fst hps
    have h2 := congrArg Prod.snd hps
    unfold posOf at h1 h2
    simp only at h1 h2
    rw [h1, h2]
    exact hs.2.2
  have hgf : m.pixel ((goal.2 * m.width + goal.1) % m.width) ((goal.2 * m.width + goal.1) / m.width) = 0 := by
    have h1 := congrArg Prod.fst hpg
    have h2 := congrArg Prod.snd hpg
    unfold posOf at h1 h2
    simp only at h1 h2
    rw [h1, h2]
    exact hg.2.2
  have hnc : ¬ Connected m (posOf m.width (goal.2 * m.width + goal.1))
      (posOf m.width (start.2 * m.width + start.1)) := by
    rw [hps, hpg]
    exact fun h => hn (connected_symm m _ _ h)
  have hsb : (p.cells (start.2 * m.width + start.1)).blocked = false := by
    cases hb : (p.cells (start.2 * m.width + start.1)).blocked
    · rfl
    · have := (hst.blocked _ hsN).1 hb
      omega
  have hgb : (p.cells (goal.2 * m.width + goal.1)).blocked = false := by
    cases hb : (p.cells (goal.2 * m.width + goal.1)).blocked
    · rfl
    · have := (hst.blocked _ hgN).1 hb
      omega
  obtain ⟨hS, r1, r2, r3, r4⟩ := dstar_resetState_scratch hst (goal.2 * m.width + goal.1) hgN hgf
  have hnew := dstar_start_new hS hsN hsf hnc
  obtain ⟨p', hp'⟩ := dstar_processLoop_ends hsN hsf hnc fuel _ hS
    (Or.inr (by rw [r2, r3]; omega)) (by omega)
  unfold doCalculatePath
  simp only [hst.width, hsb, hgb, hu, if_true, Bool.false_eq_true, if_false]
  rw [if_pos (Or.inl hnew), hp']
  exact ⟨_, rfl, rfl, rfl⟩

end DStar

end RasterSim

namespace RasterSim

/-! ## D*: the open list is in order in every state the contract leads to -/

/-- The cells of `around` are cells of the map. -/
theorem around_lt (w h cx cy n : Nat) (hn : n ∈ DStar.around w h cx cy) : n < w * h := by
  unfold DStar.around at hn
  simp only [List.mem_flatMap, List.mem_filterMap] at hn
  obtain ⟨dy, _, dx, _, hsome⟩ := hn
  by_cases h1 : (cy : Int) + dy < 0 ∨ (cy : Int) + dy ≥ (h : Int)
  · rw [if_pos h1] at hsome; cases hsome
  rw [if_neg h1] at hsome
  by_cases h2 : (cx : Int) + dx < 0 ∨ (cx : Int) + dx ≥ (w : Int)
  · rw [if_pos h2] at hsome; cases hsome
  rw [if_neg h2] at hsome
  simp only [Option.some.injEq] at hsome
  push_neg at h1 h2
  obtain ⟨x, hx⟩ := Int.eq_ofNat_of_zero_le h2.1
  obtain ⟨y, hy⟩ := Int.eq_ofNat_of_zero_le h1.1
  have hxw : x < w := by
    have : (x : Int) < w := by rw [← hx]; exact h2.2
    exact_mod_cast this
  have hyh : y < h := by
    have : (y : Int) < h := by rw [← hy]; exact h1.2
    exact_mod_cast this
  have hnn : n = y * w + x := by
    rw [← hsome, hx, hy]
    have : ((y : Int) * (w : Int) + (x : Int)) = ((y * w + x : Nat) : Int) := by push_cast; ring
    rw [this, Int.toNat_ofNat]
  rw [hnn]
  exact index_lt w h x y hxw hyh

/-- The positions of a region lie inside its bounds. -/
theorem region_points_le (r : Region) (pos : Pos) (hp : pos ∈ r.points) :
    pos.1 ≤ r.right ∧ pos.2 ≤ r.bottom := by
  unfold Region.points at hp
  simp only [List.mem_flatMap, List.mem_map, List.mem_range] at hp
  obtain ⟨dy, hdy, dx, hdx, he⟩ := hp
  rw [← he]
  simp only
  omega

theorem index_lt_comm (w h x y : Nat) (hx : x < w) (hy : y < h) : w * y + x < w * h := by
  rw [Nat.mul_comm w y]
  exact index_lt w h x y hx hy

namespace DStar

open ListType

/-- A change of cells that keeps the slots, the lists and the `k_cost` keeps the open
list in order. -/
theorem dstar_heapInv_congr {N : Nat} {p p' : Planner} (h : HeapInv N p)
    (e1 : p'.openHeap = p.openHeap) (e2 : p'.openListLength = p.openListLength)
    (e3 : ∀ d, (p'.cells d).list = (p.cells d).list ∧
      (p'.cells d).heapIndex = (p.cells d).heapIndex ∧ p'.ks d = p.ks d) :
    HeapInv N p' := by
  obtain ⟨hok, hz, hord⟩ := h
  refine ⟨?_, ?_, ?_⟩
  · unfold HeapOK
    have e : (fun d => (p'.cells d).heapIndex) = (fun d => (p.cells d).heapIndex) :=
      funext fun d => (e3 d).2.1
    rw [e, e1, e2]
    exact slotsOK_mem hok (fun d _ => by rw [(e3 d).1])
  · intro d hd hl
    rw [(e3 d).1] at hl
    rw [(e3 d).2.1]
    exact hz d hd hl
  · rw [e1, e2]
    exact ordered_congr hord (fun j _ _ => (e3 _).2.2)

/-- A new value of a cell with the same list, slot and `k_cost` keeps the open list in
order. -/
theorem dstar_heapInv_upd {N : Nat} {p : Planner} (h : HeapInv N p) (c : Nat) (v : Cell)
    (hl : v.list = (p.cells c).list) (hi : v.heapIndex = (p.cells c).heapIndex)
    (hk : v.k_cost = (p.cells c).k_cost) : HeapInv N { p with cells := upd p.cells c v } := by
  refine dstar_heapInv_congr h rfl rfl (fun d => ?_)
  simp only [Planner.ks, upd_apply]
  split_ifs with hd
  · rw [hd]
    exact ⟨hl, hi, hk⟩
  · exact ⟨rfl, rfl, rfl⟩

theorem dstar_lowerFromNeighbors_heap {N : Nat} {p : Planner} (h : HeapInv N p)
    (pMin oldKMin : Nat) (nbs : List (Nat × Nat)) :
    HeapInv N (lowerFromNeighbors p pMin oldKMin nbs) := by
  unfold lowerFromNeighbors
  split_ifs
  · refine foldl_keeps (HeapInv N) _ nbs p ?_ h
    intro q nb _ hq
    simp only
    split_ifs
    · exact hq
    · exact dstar_heapInv_upd hq pMin _ rfl rfl rfl
    · exact hq
    · exact hq
  · exact h

theorem dstar_adopt_heap {N : Nat} {q : Planner} (h : HeapInv N q) (pMin n hc : Nat)
    (hn : n < N) : HeapInv N (adopt q pMin n hc) := by
  unfold adopt
  exact dstar_insert_inv
    (dstar_heapInv_upd h n { q.cells n with backPtr := some pMin } rfl rfl rfl) n hn hc

theorem dstar_propagateLower_heap {N : Nat} {p : Planner} (h : HeapInv N p) (pMin : Nat)
    (nbs : List (Nat × Nat)) (hn : ∀ nb ∈ nbs, nb.1 < N) :
    HeapInv N (propagateLower p pMin nbs) := by
  unfold propagateLower
  refine foldl_keeps (HeapInv N) _ nbs p ?_ h
  intro q nb hnb hq
  simp only
  split_ifs
  · exact dstar_adopt_heap hq pMin nb.1 _ (hn nb hnb)
  · exact hq

theorem dstar_propagateRaise_heap {N : Nat} {p : Planner} (h : HeapInv N p)
    (pMin oldKMin : Nat) (nbs : List (Nat × Nat)) (hp : pMin < N) (hn : ∀ nb ∈ nbs, nb.1 < N) :
    HeapInv N (propagateRaise p pMin oldKMin nbs) := by
  unfold propagateRaise
  refine foldl_keeps (HeapInv N) _ nbs p ?_ h
  intro q nb hnb hq
  simp only
  split_ifs
  · exact dstar_adopt_heap hq pMin nb.1 _ (hn nb hnb)
  · exact dstar_insert_inv hq pMin hp _
  · exact dstar_insert_inv hq nb.1 (hn nb hnb) _
  · exact hq
  · exact hq

/-- `processState` keeps the open list in order. -/
theorem dstar_processState_heap {p : Planner} {size : Nat × Nat} (h : AlgInv p size)
    (hh : HeapInv (size.1 * size.2) p) : HeapInv (size.1 * size.2) (processState p).1 := by
  unfold processState
  split_ifs with hl
  · exact hh
  · simp only
    have hl1 : 1 ≤ p.openListLength := by omega
    have h1 : AlgInv (popMin p).2 size := dstar_algInv_of_frame h (dstar_popMin_frame p)
    have hh1 : HeapInv (size.1 * size.2) (popMin p).2 := dstar_popMin_inv hh hl1
    have hmin : (popMin p).1 < size.1 * size.2 := by
      rw [(dstar_popMin_spec hh.1 hl1).1]
      exact (hh.1.1 1 (le_refl 1) hl1).1
    have hn : ∀ nb ∈ (popMin p).2.neighbors (popMin p).1, nb.1 < size.1 * size.2 := by
      intro nb hnb
      have := (neighborsWithCost_mem _ _ _ _ _ _ _ _ nb.1 nb.2 hnb).1
      rw [h1.width, h1.height] at this
      exact this
    have hh2 := dstar_lowerFromNeighbors_heap hh1 (popMin p).1
      (((popMin p).2.cells (popMin p).1).k_cost) ((popMin p).2.neighbors (popMin p).1)
    split_ifs
    · exact dstar_propagateLower_heap hh2 _ _ hn
    · exact dstar_propagateRaise_heap hh2 _ _ _ hmin hn

theorem dstar_processLoop_heap (pStart : Nat) {size : Nat × Nat} :
    ∀ (fuel : Nat) (p p' : Planner) (e : LoopEnd), AlgInv p size → HeapInv (size.1 * size.2) p →
      processLoop pStart fuel p = some (p', e) → HeapInv (size.1 * size.2) p'
  | 0, _, _, _, _, _, h => by simp [processLoop] at h
  | fuel + 1, p, p', e, hp, hh, h => by
    have h1 := dstar_processState_inv hp
    have hh1 := dstar_processState_heap hp hh
    simp only [processLoop] at h
    split_ifs at h
    · cases h; exact hh1
    · cases h; exact hh1
    · exact dstar_processLoop_heap pStart fuel _ p' e h1 hh1 h

/-- The re-initialisation leaves the open list in order, with the goal as its only
cell. -/
theorem dstar_resetState_heap (p : Planner) (pGoal : Nat) (hg : pGoal < p.width * p.height) :
    HeapInv (p.width * p.height) (resetState p pGoal) := by
  have hl : (resetState p pGoal).openListLength = 1 := rfl
  have ho : (resetState p pGoal).openHeap 1 = pGoal := by
    show upd p.openHeap 1 pGoal 1 = _
    rw [upd_same]
  have hcell : ∀ c, c < p.width * p.height →
      ((resetState p pGoal).cells c).list = (if c = pGoal then List_Open else List_New) ∧
      ((resetState p pGoal).cells c).heapIndex = (if c = pGoal then 1 else 0) := by
    intro c hc
    simp only [resetState, upd_apply]
    split_ifs <;> simp_all
  refine ⟨⟨fun i i1 i2 => ?_, fun c hc hm => ?_⟩, fun c hc hlist => ?_, fun j j1 j2 => ?_⟩
  · rw [hl] at i2
    have hi : i = 1 := by omega
    rw [hi, ho]
    obtain ⟨q1, q2⟩ := hcell pGoal hg
    rw [if_pos rfl] at q1 q2
    exact ⟨hg, q1, q2⟩
  · have hm' : ((resetState p pGoal).cells c).list = List_Open := hm
    obtain ⟨q1, q2⟩ := hcell c hc
    by_cases hcg : c = pGoal
    · rw [if_pos hcg] at q2
      show 1 ≤ ((resetState p pGoal).cells c).heapIndex ∧
        ((resetState p pGoal).cells c).heapIndex ≤ (resetState p pGoal).openListLength ∧
        (resetState p pGoal).openHeap ((resetState p pGoal).cells c).heapIndex = c
      rw [q2, hl, ho]
      exact ⟨le_refl _, le_refl _, hcg.symm⟩
    · rw [if_neg hcg] at q1
      rw [q1] at hm'
      cases hm'
  · obtain ⟨q1, q2⟩ := hcell c hc
    by_cases hcg : c = pGoal
    · rw [if_pos hcg] at q1
      exact absurd q1 hlist
    · rw [if_neg hcg] at q2
      exact q2
  · rw [hl] at j2
    omega

/-- The partial update of the map keeps the open list in order. -/
theorem dstar_initMapUpdate_heap {p : Planner} {size : Nat × Nat} (h : AlgInv p size)
    (hh : HeapInv (size.1 * size.2) p) (m : GridMap) (r : Region) (hr : r.right < size.1)
    (hb : r.bottom < size.2) : HeapInv (size.1 * size.2) (initMapUpdate p m r) := by
  unfold initMapUpdate
  refine (foldl_keeps (fun q => Frame p q ∧ HeapInv (size.1 * size.2) q) _ r.points p ?_
    ⟨dstar_frame_refl p, hh⟩).2
  intro q pos hpos hq
  obtain ⟨hf, hq2⟩ := hq
  have hqi : AlgInv q size := dstar_algInv_of_frame h hf
  obtain ⟨b1, b2⟩ := region_points_le r pos hpos
  have hcell : q.width * pos.2 + pos.1 < size.1 * size.2 := by
    rw [hqi.width]
    exact index_lt_comm _ _ _ _ (by omega) (by omega)
  have around_keeps : ∀ (l : List Nat) (q0 : Planner), Frame p q0 → HeapInv (size.1 * size.2) q0 →
      (∀ n ∈ l, n < size.1 * size.2) →
      Frame p (l.foldl (fun p pNeighbor =>
          if (p.cells pNeighbor).list = List_Closed then
            insert p pNeighbor (p.cells pNeighbor).h_cost
          else p) q0) ∧
        HeapInv (size.1 * size.2) (l.foldl (fun p pNeighbor =>
          if (p.cells pNeighbor).list = List_Closed then
            insert p pNeighbor (p.cells pNeighbor).h_cost
          else p) q0) := by
    intro l q0 f0 h0 hl
    refine foldl_keeps (fun q => Frame p q ∧ HeapInv (size.1 * size.2) q) _ l q0 ?_ ⟨f0, h0⟩
    intro q1 n hn hq1
    split_ifs
    · exact ⟨dstar_frame_trans hq1.1 (dstar_insert_frame _ _ _), dstar_insert_inv hq1.2 n (hl n hn) _⟩
    · exact hq1
  simp only
  split_ifs with c1 c2 c3 c4
  · -- the cell was closed and is free now
    have f1 := dstar_setBlocked_frame p q (q.width * pos.2 + pos.1)
      (decide (m.pixel pos.1 pos.2 > 0)) hf
    have g1 := dstar_heapInv_upd hq2 (q.width * pos.2 + pos.1)
      { q.cells (q.width * pos.2 + pos.1) with blocked := decide (m.pixel pos.1 pos.2 > 0) }
      rfl rfl rfl
    refine around_keeps _ _ (dstar_frame_trans f1 (dstar_insert_frame _ _ _))
      (dstar_insert_inv g1 _ hcell _) (fun n hn => ?_)
    have := around_lt _ _ _ _ n hn
    rw [(dstar_frame_trans f1 (dstar_insert_frame _ _ _)).1,
      (dstar_frame_trans f1 (dstar_insert_frame _ _ _)).2.1, h.width, h.height] at this
    exact this
  · have f1 := dstar_setBlocked_frame p q (q.width * pos.2 + pos.1)
      (decide (m.pixel pos.1 pos.2 > 0)) hf
    have g1 := dstar_heapInv_upd hq2 (q.width * pos.2 + pos.1)
      { q.cells (q.width * pos.2 + pos.1) with blocked := decide (m.pixel pos.1 pos.2 > 0) }
      rfl rfl rfl
    exact ⟨dstar_frame_trans f1 (dstar_insert_frame _ _ _), dstar_insert_inv g1 _ hcell _⟩
  · have f1 := dstar_setBlocked_frame p q (q.width * pos.2 + pos.1)
      (decide (m.pixel pos.1 pos.2 > 0)) hf
    have g1 := dstar_heapInv_upd hq2 (q.width * pos.2 + pos.1)
      { q.cells (q.width * pos.2 + pos.1) with blocked := decide (m.pixel pos.1 pos.2 > 0) }
      rfl rfl rfl
    refine around_keeps _ _ f1 g1 (fun n hn => ?_)
    have := around_lt _ _ _ _ n hn
    rw [f1.1, f1.2.1, h.width, h.height] at this
    exact this
  · have f1 := dstar_setBlocked_frame p q (q.width * pos.2 + pos.1)
      (decide (m.pixel pos.1 pos.2 > 0)) hf
    have g1 := dstar_heapInv_upd hq2 (q.width * pos.2 + pos.1)
      { q.cells (q.width * pos.2 + pos.1) with blocked := decide (m.pixel pos.1 pos.2 > 0) }
      rfl rfl rfl
    exact ⟨f1, g1⟩
  · exact ⟨hf, hq2⟩

/-- A property of the state that the re-initialisation establishes and the loop of
`processState` keeps holds for the state `doCalculatePath` leaves. -/
theorem dstar_doCalculatePath_state (Q : Planner → Prop) (fuel : Nat) (p : Planner) (u : Nat)
    (s g : Pos) (o : Outcome) (hq : Q p) (hr : Q (resetState p (g.2 * p.width + g.1)))
    (hl : ∀ p1 p2 e, Q p1 → processLoop (s.2 * p.width + s.1) fuel p1 = some (p2, e) → Q p2)
    (ho : doCalculatePath fuel p u s g = some o) : Q o.planner := by
  unfold doCalculatePath at ho
  simp only at ho
  by_cases hb1 : (p.cells (s.2 * p.width + s.1)).blocked = true
  · rw [if_pos hb1] at ho
    cases ho
    exact hq
  rw [if_neg hb1] at ho
  by_cases hb2 : (p.cells (g.2 * p.width + g.1)).blocked = true
  · rw [if_pos hb2] at ho
    cases ho
    exact hq
  rw [if_neg hb2] at ho
  have hp1 : Q (if needsReset u then resetState p (g.2 * p.width + g.1) else p) := by
    split_ifs
    · exact hr
    · exact hq
  generalize (if needsReset u then resetState p (g.2 * p.width + g.1) else p) = p1 at ho hp1
  have key : ∀ (looped : Option (Planner × LoopEnd)),
      (∀ p2 e, looped = some (p2, e) → Q p2) →
      (match looped with
        | none => none
        | some (p2, LoopEnd.noPath) => some { planner := p2, path := [], error := "No Path found" }
        | some (p2, LoopEnd.ready) =>
          if (p2.cells (s.2 * p.width + s.1)).list = List_New ∨
              (p2.cells (s.2 * p.width + s.1)).h_cost ≥ OBSTACLE_COST then
            some { planner := p2, path := [], error := "No Path found" }
          else some (extractPath p2 (s.2 * p.width + s.1) (g.2 * p.width + g.1))) = some o →
      Q o.planner := by
    intro looped hlo hm
    cases looped with
    | none => cases hm
    | some r =>
      obtain ⟨p2, e⟩ := r
      have h2 := hlo p2 e rfl
      cases e with
      | noPath =>
        simp only [Option.some.injEq] at hm
        subst hm
        exact h2
      | ready =>
        simp only at hm
        split_ifs at hm
        · cases hm
          exact h2
        · simp only [Option.some.injEq] at hm
          subst hm
          unfold extractPath
          split <;> exact h2
  refine key _ ?_ ho
  intro p2 e hlo
  split_ifs at hlo
  · exact hl p1 p2 e hp1 hlo
  · cases hlo
    exact hp1

/-- The invariant of the states of D* behind the contract: the state fits the map size
and its open list is in order. -/
def ReachInv (p : Planner) (size : Nat × Nat) : Prop :=
  AlgInv p size ∧ HeapInv (size.1 * size.2) p

theorem dstar_reachSpec (fuel : Nat) : AlgSpec (algorithm fuel) ReachInv := by
  refine algSpec_and (dstar_algSpec fuel) ?_ ?_ ?_
  · intro _ m _ _ _ _
    exact dstar_initMap_heapInv m
  · intro st m r hi hh hr hb
    exact dstar_initMapUpdate_heap hi hh m r hr hb
  · intro st size u s g r hi hh s1 s2 g1 g2 hc
    simp only [algorithm] at hc
    cases ho : doCalculatePath fuel st u s g with
    | none => rw [ho] at hc; cases hc
    | some o =>
      rw [ho] at hc
      simp only [Option.map_some', Option.some.injEq] at hc
      subst hc
      show HeapInv (size.1 * size.2) o.planner
      have hreset : AlgInv (resetState st (g.2 * st.width + g.1)) size ∧
          HeapInv (size.1 * size.2) (resetState st (g.2 * st.width + g.1)) := by
        refine ⟨dstar_resetState_inv hi _, ?_⟩
        have hlt : g.2 * st.width + g.1 < st.width * st.height := by
          rw [hi.width, hi.height]
          exact index_lt _ _ _ _ g1 g2
        have := dstar_resetState_heap st (g.2 * st.width + g.1) hlt
        rw [show st.width * st.height = size.1 * size.2 by rw [hi.width, hi.height]] at this
        exact this
      exact (dstar_doCalculatePath_state (fun q => AlgInv q size ∧ HeapInv (size.1 * size.2) q)
        fuel st u s g o ⟨hi, hh⟩ hreset
        (fun p1 p2 e h1 hl => ⟨dstar_processLoop_inv _ fuel p1 p2 e h1.1 hl,
          dstar_processLoop_heap _ fuel p1 p2 e h1.1 h1.2 hl⟩) ho).2

/-- In every state of a D* planner object the open list is in order and holds no more
cells than the map has. -/
theorem dstar_reachable_heap (fuel : Nat) (init : Planner) (h0 : init.openListLength = 0)
    (p : AbstractPlanner Planner) (hp : Reachable (algorithm fuel) init p) :
    p.alg.openListLength ≤ p.mapSize.1 * p.mapSize.2 ∧
      (p.mapSize.1 ≠ 0 ∧ p.mapSize.2 ≠ 0 → HeapInv (p.mapSize.1 * p.mapSize.2) p.alg) := by
  refine ⟨?_, fun hne => ((contract_reachable (dstar_reachSpec fuel) init p hp).alg hne).2⟩
  refine reachable_inv (dstar_reachSpec fuel)
    (fun st size => st.openListLength ≤ size.1 * size.2) ?_ ?_ ?_ p hp
  · intro st size hi
    exact slotsOK_len_le hi.2.1
  · intro st m _ size _
    show (initMap m).openListLength ≤ _
    exact Nat.zero_le _
  · intro size _
    show init.openListLength ≤ _
    rw [h0]
    exact Nat.zero_le _

end DStar

end RasterSim

namespace RasterSim

/-! ## D*: `k_cost` never exceeds `h_cost` on the open list -/

namespace DStar

open ListType

theorem dstar_heapUpLoop_move : ∀ (fuel : Nat) (p : Planner) (idx : Nat),
    HeapMove p (heapUpLoop fuel p idx)
  | 0, p, _ => dstar_heapMove_refl p
  | fuel + 1, p, idx => by
    simp only [heapUpLoop]
    split_ifs
    · exact dstar_heapMove_trans (dstar_swapSlots_move p (idx / 2) idx)
        (dstar_heapUpLoop_move fuel _ _)
    · exact dstar_heapMove_refl p
    · exact dstar_heapMove_refl p

theorem dstar_heapDownLoop_move : ∀ (fuel : Nat) (p : Planner) (idx : Nat),
    HeapMove p (heapDownLoop fuel p idx)
  | 0, p, _ => dstar_heapMove_refl p
  | fuel + 1, p, idx => by
    simp only [heapDownLoop]
    split_ifs
    · exact dstar_heapMove_trans (dstar_swapSlots_move p (downTarget p idx) idx)
        (dstar_heapDownLoop_move fuel _ _)
    · exact dstar_heapMove_refl p

theorem dstar_heapUp_move (p : Planner) (c : Nat) : HeapMove p (heapUp p c) := by
  unfold heapUp
  split_ifs
  · exact dstar_heapMove_refl p
  · exact dstar_heapUpLoop_move _ p _

theorem dstar_heapDown_move (p : Planner) (c : Nat) : HeapMove p (heapDown p c) := by
  unfold heapDown
  split_ifs
  · exact dstar_heapMove_refl p
  · exact dstar_heapDownLoop_move _ p _

/-- What `insert` does to the cells, whatever the state of the open list: the cell
gets the new `h_cost`, the `k_cost` of `insertK` and the tag OPEN, and the other cells
keep all but their `heapIndex`. -/
theorem dstar_insert_core (p : Planner) (c h_cost : Nat) :
    ((insert p c h_cost).cells c).core = ((p.cells c).backPtr, (p.cells c).x, (p.cells c).y,
      h_cost, insertK (p.cells c) h_cost, (p.cells c).blocked, List_Open) ∧
    ∀ d, d ≠ c → ((insert p c h_cost).cells d).core = (p.cells d).core := by
  by_cases ho : (p.cells c).list = List_Open
  · rw [dstar_insert_open p c h_cost ho]
    have m := dstar_heapMove_trans (dstar_heapUp_move (rekey p c h_cost) c)
      (dstar_heapDown_move (heapUp (rekey p c h_cost) c) c)
    constructor
    · rw [m.core c]
      simp only [rekey, upd_same, Cell.core, insertK, if_pos ho]
      rw [ho]
    · intro d hd
      rw [m.core d]
      simp only [rekey, upd_apply, if_neg hd]
  · rw [dstar_insert_other p c h_cost ho]
    have m := dstar_heapUp_move (pushed p c h_cost) c
    constructor
    · rw [m.core c]
      by_cases hn : (p.cells c).list = List_New
      · simp only [pushed, upd_same, Cell.core, insertK, if_neg ho, if_pos hn, Nat.min_self]
      · simp only [pushed, upd_same, Cell.core, insertK, if_neg ho, if_neg hn]
        congr 5
        omega
    · intro d hd
      rw [m.core d, (dstar_pushed_cell p c h_cost).2.2 d hd]

/-- What `popMin` does to the cells, whatever the state of the open list. -/
theorem dstar_popMin_core (p : Planner) :
    (popMin p).1 = p.openHeap 1 ∧
    ((popMin p).2.cells (p.openHeap 1)).core = ((p.cells (p.openHeap 1)).backPtr,
      (p.cells (p.openHeap 1)).x, (p.cells (p.openHeap 1)).y, (p.cells (p.openHeap 1)).h_cost,
      (p.cells (p.openHeap 1)).k_cost, (p.cells (p.openHeap 1)).blocked, List_Closed) ∧
    ∀ d, d ≠ p.openHeap 1 → ((popMin p).2.cells d).core = (p.cells d).core := by
  unfold popMin
  simp only
  split_ifs with hl
  · refine ⟨rfl, ?_, fun d hd => ?_⟩
    · rw [(dstar_heapDown_move _ _).core]
      simp only [upd_apply]
      split_ifs <;> simp_all [Cell.core]
    · rw [(dstar_heapDown_move _ _).core]
      simp only [upd_apply]
      split_ifs <;> simp_all [Cell.core]
  · refine ⟨rfl, ?_, fun d hd => ?_⟩
    · simp only [upd_same, Cell.core]
    · simp only [upd_apply, if_neg hd]

/-- Every cell with the tag OPEN has `k_cost ≤ h_cost`. -/
def KeyBelow (p : Planner) : Prop :=
  ∀ c, (p.cells c).list = List_Open → (p.cells c).k_cost ≤ (p.cells c).h_cost

theorem dstar_insertK_le (c : Cell) (h_cost : Nat) : insertK c h_cost ≤ h_cost := by
  unfold insertK
  split_ifs <;> omega

theorem dstar_insert_keyBelow (p : Planner) (c h_cost : Nat) (h : KeyBelow p) :
    KeyBelow (insert p c h_cost) := by
  obtain ⟨h1, h2⟩ := dstar_insert_core p c h_cost
  intro d hd
  by_cases e : d = c
  · subst e
    have hk : ((insert p d h_cost).cells d).k_cost = insertK (p.cells d) h_cost :=
      congrArg (fun t => t.2.2.2.2.1) h1
    have hh : ((insert p d h_cost).cells d).h_cost = h_cost := congrArg (fun t => t.2.2.2.1) h1
    rw [hk, hh]
    exact dstar_insertK_le _ _
  · have hc := h2 d e
    rw [dstar_core_k hc, dstar_core_h hc]
    rw [dstar_core_list hc] at hd
    exact h d hd

theorem dstar_popMin_keyBelow (p : Planner) (h : KeyBelow p) :
    KeyBelow (popMin p).2 ∧ ((popMin p).2.cells (popMin p).1).list = List_Closed := by
  obtain ⟨h0, h1, h2⟩ := dstar_popMin_core p
  have hl : ((popMin p).2.cells (p.openHeap 1)).list = List_Closed :=
    congrArg (fun t => t.2.2.2.2.2.2) h1
  constructor
  · intro d hd
    by_cases e : d = p.openHeap 1
    · subst e
      rw [hl] at hd
      cases hd
    · have hc := h2 d e
      rw [dstar_core_k hc, dstar_core_h hc]
      rw [dstar_core_list hc] at hd
      exact h d hd
  · rw [h0, hl]

theorem dstar_lowerFromNeighbors_keyBelow (p : Planner) (pMin k : Nat) (nbs : List (Nat × Nat))
    (h : KeyBelow p) (hc : (p.cells pMin).list = List_Closed) :
    KeyBelow (lowerFromNeighbors p pMin k nbs) := by
  unfold lowerFromNeighbors
  split_ifs
  · refine (foldl_keeps (fun q => KeyBelow q ∧ (q.cells pMin).list = List_Closed) _ nbs p ?_
      ⟨h, hc⟩).1
    intro q nb _ hq
    simp only
    split_ifs
    · exact hq
    · refine ⟨fun d hd => ?_, ?_⟩
      · by_cases e : d = pMin
        · subst e
          simp only [upd_same] at hd
          rw [hq.2] at hd
          cases hd
        · simp only [upd_apply, if_neg e] at hd ⊢
          exact hq.1 d hd
      · simp only [upd_same]
        exact hq.2
    · exact hq
    · exact hq
  · exact h

theorem dstar_adopt_keyBelow (p : Planner) (pMin n hc : Nat) (h : KeyBelow p) :
    KeyBelow (adopt p pMin n hc) := by
  unfold adopt
  refine dstar_insert_keyBelow _ n hc ?_
  intro d hd
  by_cases e : d = n
  · subst e
    simp only [upd_same] at hd ⊢
    exact h d hd
  · simp only [upd_apply, if_neg e] at hd ⊢
    exact h d hd

theorem dstar_propagateLower_keyBelow (p : Planner) (pMin : Nat) (nbs : List (Nat × Nat))
    (h : KeyBelow p) : KeyBelow (propagateLower p pMin nbs) := by
  unfold propagateLower
  refine foldl_keeps KeyBelow _ nbs p ?_ h
  intro q nb _ hq
  simp only
  split_ifs
  · exact dstar_adopt_keyBelow _ _ _ _ hq
  · exact hq

theorem dstar_propagateRaise_keyBelow (p : Planner) (pMin k : Nat) (nbs : List (Nat × Nat))
    (h : KeyBelow p) : KeyBelow (propagateRaise p pMin k nbs) := by
  unfold propagateRaise
  refine foldl_keeps KeyBelow _ nbs p ?_ h
  intro q nb _ hq
  simp only
  split_ifs
  · exact dstar_adopt_keyBelow _ _ _ _ hq
  · exact dstar_insert_keyBelow _ _ _ hq
  · exact dstar_insert_keyBelow _ _ _ hq
  · exact hq
  · exact hq

theorem dstar_processState_keyBelow (p : Planner) (h : KeyBelow p) :
    KeyBelow (processState p).1 := by
  unfold processState
  split_ifs
  · exact h
  · obtain ⟨h1, h2⟩ := dstar_popMin_keyBelow p h
    have h3 := dstar_lowerFromNeighbors_keyBelow (popMin p).2 (popMin p).1
      (((popMin p).2.cells (popMin p).1).k_cost) ((popMin p).2.neighbors (popMin p).1) h1 h2
    simp only
    split_ifs
    · exact dstar_propagateLower_keyBelow _ _ _ h3
    · exact dstar_propagateRaise_keyBelow _ _ _ _ h3

theorem dstar_processLoop_keyBelow (pStart : Nat) :
    ∀ (fuel : Nat) (p p' : Planner) (e : LoopEnd), KeyBelow p →
      processLoop pStart fuel p = some (p', e) → KeyBelow p'
  | 0, _, _, _, _, hl => by simp [processLoop] at hl
  | fuel + 1, p, p', e, hp, hl => by
    have h1 := dstar_processState_keyBelow p hp
    simp only [processLoop] at hl
    split_ifs at hl
    · cases hl; exact h1
    · cases hl; exact h1
    · exact dstar_processLoop_keyBelow pStart fuel _ p' e h1 hl

theorem dstar_keyBelow_upd (q : Planner) (c : Nat) (v : Cell)
    (hv : v.list = List_Open → v.k_cost ≤ v.h_cost) (h : KeyBelow q) :
    KeyBelow { q with cells := upd q.cells c v } := by
  intro d hd
  by_cases e : d = c
  · subst e
    simp only [upd_same] at hd ⊢
    exact hv hd
  · simp only [upd_apply, if_neg e] at hd ⊢
    exact h d hd

theorem dstar_resetState_keyBelow (p : Planner) (pGoal : Nat) (h : KeyBelow p) :
    KeyBelow (resetState p pGoal) := by
  intro d hd
  unfold resetState at hd ⊢
  simp only [upd_apply] at hd ⊢
  by_cases e : d = pGoal
  · rw [if_pos e]
  · rw [if_neg e] at hd ⊢
    by_cases hlt : d < p.width * p.height
    · rw [if_pos hlt] at hd
      cases hd
    · rw [if_neg hlt] at hd ⊢
      exact h d hd

theorem dstar_initMapUpdate_keyBelow (p : Planner) (m : GridMap) (r : Region) (h : KeyBelow p) :
    KeyBelow (initMapUpdate p m r) := by
  unfold initMapUpdate
  refine foldl_keeps KeyBelow _ r.points p ?_ h
  intro q pos _ hq
  simp only
  have hset := dstar_keyBelow_upd q (q.width * pos.2 + pos.1)
    { q.cells (q.width * pos.2 + pos.1) with blocked := decide (m.pixel pos.1 pos.2 > 0) }
    (fun hl => hq _ hl) hq
  split_ifs
  · refine foldl_keeps KeyBelow _ _ _ ?_ (dstar_insert_keyBelow _ _ _ hset)
    intro q' n _ hq'
    split_ifs
    · exact dstar_insert_keyBelow _ _ _ hq'
    · exact hq'
  · exact dstar_insert_keyBelow _ _ _ hset
  · refine foldl_keeps KeyBelow _ _ _ ?_ hset
    intro q' n _ hq'
    split_ifs
    · exact dstar_insert_keyBelow _ _ _ hq'
    · exact hq'
  · exact hset
  · exact hq

theorem dstar_doCalculatePath_keyBelow (fuel : Nat) (p : Planner) (u : Nat) (s g : Pos)
    (o : Outcome) (h : KeyBelow p) (ho : doCalculatePath fuel p u s g = some o) :
    KeyBelow o.planner :=
  dstar_doCalculatePath_state KeyBelow fuel p u s g o h (dstar_resetState_keyBelow p _ h)
    (fun p1 p2 e h1 hl => dstar_processLoop_keyBelow _ fuel p1 p2 e h1 hl) ho

theorem dstar_initMap_keyBelow (m : GridMap) : KeyBelow (initMap m) := by
  intro d hd
  cases hd

end DStar

end RasterSim

namespace RasterSim

/-! ## Focused D*: the path that is set is a chain from the start to the goal -/

namespace FocussedDStar

open ListType

/-- Two states with the same map size, cell positions and backpointers. -/
def Frame (p p' : Planner) : Prop :=
  p'.width = p.width ∧ p'.height = p.height ∧
  ∀ i, (p'.cells i).x = (p.cells i).x ∧ (p'.cells i).y = (p.cells i).y ∧
    (p'.cells i).backPtr = (p.cells i).backPtr

theorem fdstar_frame_refl (p : Planner) : Frame p p := ⟨rfl, rfl, fun _ => ⟨rfl, rfl, rfl⟩⟩

theorem fdstar_frame_trans {p1 p2 p3 : Planner} (h12 : Frame p1 p2) (h23 : Frame p2 p3) : Frame p1 p3 :=
  ⟨h23.1.trans h12.1, h23.2.1.trans h12.2.1, fun i =>
    ⟨(h23.2.2 i).1.trans (h12.2.2 i).1, (h23.2.2 i).2.1.trans (h12.2.2 i).2.1,
      (h23.2.2 i).2.2.trans (h12.2.2 i).2.2⟩⟩

theorem fdstar_frame_ite (p a b : Planner) (c : Prop) [Decidable c] (ha : Frame p a)
    (hb : Frame p b) : Frame p (if c then a else b) := by
  split_ifs
  · exact ha
  · exact hb

theorem fdstar_swapSlots_frame (p : Planner) (i j : Nat) : Frame p (swapSlots p i j) := by
  refine ⟨rfl, rfl, fun c => ?_⟩
  simp only [swapSlots, upd_apply]
  split_ifs <;> simp_all

theorem fdstar_heapUpLoop_frame : ∀ (fuel : Nat) (p : Planner) (idx : Nat), Frame p (heapUpLoop fuel p idx)
  | 0, p, _ => fdstar_frame_refl p
  | fuel + 1, p, idx => by
    simp only [heapUpLoop]
    split_ifs
    · exact fdstar_frame_trans (fdstar_swapSlots_frame p _ _) (fdstar_heapUpLoop_frame fuel _ _)
    · exact fdstar_frame_refl p
    · exact fdstar_frame_refl p

theorem fdstar_heapDownLoop_frame : ∀ (fuel : Nat) (p : Planner) (idx : Nat),
    Frame p (heapDownLoop fuel p idx)
  | 0, p, _ => fdstar_frame_refl p
  | fuel + 1, p, idx => by
    simp only [heapDownLoop]
    split_ifs
    · exact fdstar_frame_trans (fdstar_swapSlots_frame p _ _) (fdstar_heapDownLoop_frame fuel _ _)
    · exact fdstar_frame_refl p

theorem fdstar_heapUp_frame (p : Planner) (c : Nat) : Frame p (heapUp p c) := by
  unfold heapUp
  split_ifs
  · exact fdstar_frame_refl p
  · exact fdstar_heapUpLoop_frame _ _ _

theorem fdstar_heapDown_frame (p : Planner) (c : Nat) : Frame p (heapDown p c) := by
  unfold heapDown
  split_ifs
  · exact fdstar_frame_refl p
  · exact fdstar_heapDownLoop_frame _ _ _

/-- A change of one cell that keeps its position and backpointer, together with any
change of the other members but the map size. -/
theorem fdstar_frame_cells (p : Planner) (c : Nat) (c' : Cell) (heap : Nat → Nat) (len rob d : Nat)
    (hx : c'.x = (p.cells c).x) (hy : c'.y = (p.cells c).y)
    (hb : c'.backPtr = (p.cells c).backPtr) :
    Frame p { p with cells := upd p.cells c c', openHeap := heap, openListLength := len
                     pRobot := rob, d_curr := d } := by
  refine ⟨rfl, rfl, fun i => ?_⟩
  simp only [upd_apply]
  split_ifs with hi
  · subst hi; exact ⟨hx, hy, hb⟩
  · exact ⟨rfl, rfl, rfl⟩

theorem fdstar_insert_frame (p : Planner) (c h : Nat) : Frame p (insert p c h) := by
  unfold insert
  simp only
  refine fdstar_frame_trans ?_ (fdstar_frame_cells _ c _ _ _ _ _ rfl rfl rfl)
  refine fdstar_frame_ite _ _ _ _ ?_ ?_
  · refine fdstar_frame_trans (fdstar_frame_trans ?_ (fdstar_heapUp_frame _ c)) (fdstar_heapDown_frame _ c)
    exact fdstar_frame_cells p c _ _ _ _ _ rfl rfl rfl
  · refine fdstar_frame_trans ?_ (fdstar_heapUp_frame _ c)
    exact fdstar_frame_cells p c _ _ _ _ _ rfl rfl rfl

theorem fdstar_minStateLoop_frame : ∀ (fuel : Nat) (p p' : Planner) (c : Nat),
    minStateLoop fuel p = some (p', c) → Frame p p'
  | 0, _, _, _, h => by simp [minStateLoop] at h
  | fuel + 1, p, p', c, h => by
    simp only [minStateLoop] at h
    split_ifs at h
    · simp only [Option.some.injEq, Prod.mk.injEq] at h
      rw [← h.1]; exact fdstar_frame_refl p
    · refine fdstar_frame_trans ?_ (fdstar_minStateLoop_frame fuel _ p' c h)
      refine fdstar_frame_trans (fdstar_frame_trans ?_ (fdstar_heapUp_frame _ _)) (fdstar_heapDown_frame _ _)
      exact fdstar_frame_cells p _ _ _ _ _ _ rfl rfl rfl

theorem fdstar_getMinState_frame (p p' : Planner) (c : Option Nat)
    (h : getMinState p = some (p', c)) : Frame p p' := by
  unfold getMinState at h
  split_ifs at h
  · cases hm : minStateLoop (p.openListLength + 1) p with
    | none => rw [hm] at h; cases h
    | some r =>
      rw [hm] at h
      simp only [Option.map_some', Option.some.injEq, Prod.mk.injEq] at h
      rw [← h.1]
      exact fdstar_minStateLoop_frame _ p r.1 r.2 hm
  · simp only [Option.some.injEq, Prod.mk.injEq] at h
    rw [← h.1]; exact fdstar_frame_refl p

theorem fdstar_getMinVal_frame (p p' : Planner) (v : Cost)
    (h : getMinVal p = some (p', v)) : Frame p p' := by
  unfold getMinVal at h
  cases hm : getMinState p with
  | none => rw [hm] at h; cases h
  | some r =>
    obtain ⟨q, c⟩ := r
    rw [hm] at h
    have hq := fdstar_getMinState_frame p q c hm
    cases c with
    | none =>
      simp only [Option.map_some', Option.some.injEq, Prod.mk.injEq] at h
      rw [← h.1]; exact hq
    | some c =>
      simp only [Option.map_some', Option.some.injEq, Prod.mk.injEq] at h
      rw [← h.1]; exact hq

/-- The state of the Focused D* planner fits a map size: the cells carry the positions
of their indices and every backpointer leads to a cell at an adjacent position. -/
structure AlgInv (p : Planner) (size : Nat × Nat) : Prop where
  width : p.width = size.1
  height : p.height = size.2
  fits : size.1 ≤ USHORT ∧ size.2 ≤ USHORT
  coords : ∀ i, i < size.1 * size.2 → (p.cells i).x = i % size.1 ∧ (p.cells i).y = i / size.1
  back : ∀ c b, (p.cells c).backPtr = some b →
    Adjacent ((p.cells c).x, (p.cells c).y) ((p.cells b).x, (p.cells b).y)

theorem fdstar_algInv_of_frame {p p' : Planner} {size : Nat × Nat} (h : AlgInv p size)
    (hf : Frame p p') : AlgInv p' size := by
  refine ⟨hf.1.trans h.width, hf.2.1.trans h.height, h.fits, ?_, ?_⟩
  · intro i hi
    rw [(hf.2.2 i).1, (hf.2.2 i).2.1]
    exact h.coords i hi
  · intro c b hb
    rw [(hf.2.2 c).2.2] at hb
    rw [(hf.2.2 c).1, (hf.2.2 c).2.1, (hf.2.2 b).1, (hf.2.2 b).2.1]
    exact h.back c b hb

/-- Setting a backpointer to a cell at an adjacent position keeps the invariant. -/
theorem fdstar_algInv_setBack {p : Planner} {size : Nat × Nat} (h : AlgInv p size) (c b : Nat)
    (c' : Cell) (hx : c'.x = (p.cells c).x) (hy : c'.y = (p.cells c).y)
    (hb : c'.backPtr = some b)
    (hadj : Adjacent ((p.cells c).x, (p.cells c).y) ((p.cells b).x, (p.cells b).y)) :
    AlgInv { p with cells := upd p.cells c c' } size := by
  have hxy : ∀ i, ((upd p.cells c c') i).x = (p.cells i).x ∧ ((upd p.cells c c') i).y = (p.cells i).y := by
    intro i
    simp only [upd_apply]
    split_ifs with hi
    · subst hi; exact ⟨hx, hy⟩
    · exact ⟨rfl, rfl⟩
  refine ⟨h.width, h.height, h.fits, ?_, ?_⟩
  · intro i hi
    show ((upd p.cells c c') i).x = _ ∧ ((upd p.cells c c') i).y = _
    rw [(hxy i).1, (hxy i).2]
    exact h.coords i hi
  · intro c1 b1 hb1
    show Adjacent (((upd p.cells c c') c1).x, ((upd p.cells c c') c1).y)
      (((upd p.cells c c') b1).x, ((upd p.cells c c') b1).y)
    rw [(hxy c1).1, (hxy c1).2, (hxy b1).1, (hxy b1).2]
    have hb1' : ((upd p.cells c c') c1).backPtr = some b1 := hb1
    simp only [upd_apply] at hb1'
    split_ifs at hb1' with hc1
    · subst hc1
      rw [hb] at hb1'
      simp only [Option.some.injEq] at hb1'
      subst hb1'
      exact hadj
    · exact h.back c1 b1 hb1'

/-- The neighbours of a cell lie at positions adjacent to it. -/
theorem fdstar_neighbors_adjacent {p : Planner} {size : Nat × Nat} (h : AlgInv p size)
    (pMin n c : Nat) (hm : (n, c) ∈ p.neighbors pMin) :
    Adjacent ((p.cells pMin).x, (p.cells pMin).y) ((p.cells n).x, (p.cells n).y) := by
  unfold Planner.neighbors at hm
  obtain ⟨h1, h2⟩ := neighborsWithCost_mem _ _ _ _ _ _ _ _ _ _ hm
  rw [h.width, h.height] at h1
  obtain ⟨c1, c2⟩ := h.coords n h1
  rw [c1, c2, ← h.width]
  exact h2

/-- Two states whose cells carry the same positions. -/
def SameXY (p q : Planner) : Prop :=
  ∀ i, (q.cells i).x = (p.cells i).x ∧ (q.cells i).y = (p.cells i).y

theorem fdstar_sameXY_refl (p : Planner) : SameXY p p := fun _ => ⟨rfl, rfl⟩

theorem fdstar_sameXY_trans {p1 p2 p3 : Planner} (h12 : SameXY p1 p2) (h23 : SameXY p2 p3) :
    SameXY p1 p3 :=
  fun i => ⟨(h23 i).1.trans (h12 i).1, (h23 i).2.trans (h12 i).2⟩

theorem fdstar_sameXY_of_frame {p q : Planner} (h : Frame p q) : SameXY p q :=
  fun i => ⟨(h.2.2 i).1, (h.2.2 i).2.1⟩

theorem fdstar_sameXY_upd (p : Planner) (c : Nat) (c' : Cell) (hx : c'.x = (p.cells c).x)
    (hy : c'.y = (p.cells c).y) : SameXY p { p with cells := upd p.cells c c' } := by
  intro i
  show ((upd p.cells c c') i).x = _ ∧ ((upd p.cells c c') i).y = _
  simp only [upd_apply]
  split_ifs with hi
  · subst hi; exact ⟨hx, hy⟩
  · exact ⟨rfl, rfl⟩

/-- The invariant of the loops over the neighbours of a cell. -/
def NbInv (p0 : Planner) (size : Nat × Nat) (q : Planner) : Prop := AlgInv q size ∧ SameXY p0 q

theorem fdstar_nbInv_frame {p0 q q' : Planner} {size : Nat × Nat} (h : NbInv p0 size q)
    (hf : Frame q q') : NbInv p0 size q' :=
  ⟨fdstar_algInv_of_frame h.1 hf, fdstar_sameXY_trans h.2 (fdstar_sameXY_of_frame hf)⟩

theorem fdstar_nbInv_setBack {p0 q : Planner} {size : Nat × Nat} (h : NbInv p0 size q) (c b : Nat)
    (c' : Cell) (hx : c'.x = (q.cells c).x) (hy : c'.y = (q.cells c).y) (hb : c'.backPtr = some b)
    (hadj : Adjacent ((p0.cells c).x, (p0.cells c).y) ((p0.cells b).x, (p0.cells b).y)) :
    NbInv p0 size { q with cells := upd q.cells c c' } := by
  refine ⟨fdstar_algInv_setBack h.1 c b c' hx hy hb ?_, fdstar_sameXY_trans h.2 (fdstar_sameXY_upd q c c' hx hy)⟩
  rw [(h.2 c).1, (h.2 c).2, (h.2 b).1, (h.2 b).2]
  exact hadj

theorem fdstar_lowerFromNeighbors_inv {p : Planner} {size : Nat × Nat} (h : AlgInv p size)
    (pMin : Nat) (val : Cost) (k_val : Nat) (nbs : List (Nat × Nat))
    (hn : ∀ nb ∈ nbs, Adjacent ((p.cells pMin).x, (p.cells pMin).y) ((p.cells nb.1).x, (p.cells nb.1).y)) :
    NbInv p size (lowerFromNeighbors p pMin val k_val nbs) := by
  unfold lowerFromNeighbors
  split_ifs
  · refine foldl_keeps (NbInv p size) _ nbs p ?_ ⟨h, fdstar_sameXY_refl p⟩
    intro q nb hnb hq
    simp only
    split_ifs
    · exact hq
    · exact fdstar_nbInv_setBack hq pMin nb.1
        { q.cells pMin with h_cost := arcPlus nb.2 (q.cells nb.1).h_cost, backPtr := some nb.1 }
        rfl rfl rfl (hn nb hnb)
    · exact hq
    · exact hq
  · exact ⟨h, fdstar_sameXY_refl p⟩

theorem fdstar_adopt_inv {p0 q : Planner} {size : Nat × Nat} (h : NbInv p0 size q) (pMin n hc : Nat)
    (hadj : Adjacent ((p0.cells pMin).x, (p0.cells pMin).y) ((p0.cells n).x, (p0.cells n).y)) :
    NbInv p0 size (adopt q pMin n hc) := by
  unfold adopt
  exact fdstar_nbInv_frame
    (fdstar_nbInv_setBack h n pMin { q.cells n with backPtr := some pMin } rfl rfl rfl (adjacent_symm hadj))
    (fdstar_insert_frame _ _ _)

theorem fdstar_propagateLower_inv {p0 p : Planner} {size : Nat × Nat} (h : NbInv p0 size p)
    (pMin : Nat) (nbs : List (Nat × Nat))
    (hn : ∀ nb ∈ nbs, Adjacent ((p0.cells pMin).x, (p0.cells pMin).y) ((p0.cells nb.1).x, (p0.cells nb.1).y)) :
    NbInv p0 size (propagateLower p pMin nbs) := by
  unfold propagateLower
  refine foldl_keeps (NbInv p0 size) _ nbs p ?_ h
  intro q nb hnb hq
  simp only
  split_ifs
  · exact fdstar_adopt_inv hq pMin nb.1 _ (hn nb hnb)
  · exact hq

theorem fdstar_propagateRaise_inv {p0 p : Planner} {size : Nat × Nat} (h : NbInv p0 size p)
    (pMin : Nat) (val : Cost) (nbs : List (Nat × Nat))
    (hn : ∀ nb ∈ nbs, Adjacent ((p0.cells pMin).x, (p0.cells pMin).y) ((p0.cells nb.1).x, (p0.cells nb.1).y)) :
    NbInv p0 size (propagateRaise p pMin val nbs) := by
  unfold propagateRaise
  refine foldl_keeps (NbInv p0 size) _ nbs p ?_ h
  intro q nb hnb hq
  simp only
  split_ifs
  · exact fdstar_adopt_inv hq pMin nb.1 _ (hn nb hnb)
  · exact fdstar_nbInv_frame hq (fdstar_insert_frame _ _ _)
  · exact fdstar_nbInv_frame hq (fdstar_insert_frame _ _ _)
  · exact hq
  · exact hq

theorem fdstar_popMin_frame (p : Planner) (pMin : Nat) : Frame p (popMin p pMin) := by
  unfold popMin
  simp only
  split_ifs
  · refine fdstar_frame_trans ?_ (fdstar_heapDown_frame _ _)
    exact ⟨rfl, rfl, fun i => by simp only [upd_apply]; split_ifs <;> simp_all⟩
  · exact ⟨rfl, rfl, fun i => by simp only [upd_apply]; split_ifs <;> simp_all⟩

theorem fdstar_processState_inv {p p' : Planner} {size : Nat × Nat} (v : Cost) (h : AlgInv p size)
    (hp : processState p = some (p', v)) : AlgInv p' size := by
  unfold processState at hp
  cases hm : getMinState p with
  | none => rw [hm] at hp; cases hp
  | some r =>
    obtain ⟨p0, c⟩ := r
    rw [hm] at hp
    have h0 := fdstar_algInv_of_frame h (fdstar_getMinState_frame p p0 c hm)
    cases c with
    | none =>
      simp only [Option.some.injEq, Prod.mk.injEq] at hp
      rw [← hp.1]; exact h0
    | some pMin =>
      simp only at hp
      have h1 : AlgInv (popMin p0 pMin) size := fdstar_algInv_of_frame h0 (fdstar_popMin_frame p0 pMin)
      have hn := fun nb hnb => fdstar_neighbors_adjacent h1 pMin (Prod.fst nb) (Prod.snd nb) hnb
      have h2 := fdstar_lowerFromNeighbors_inv h1 pMin
        { c1 := ((popMin p0 pMin).cells pMin).f_cost, c2 := ((popMin p0 pMin).cells pMin).k_cost }
        (((popMin p0 pMin).cells pMin).k_cost) ((popMin p0 pMin).neighbors pMin) hn
      refine fdstar_algInv_of_frame ?_ (fdstar_getMinVal_frame _ p' v hp)
      split_ifs
      · exact (fdstar_propagateLower_inv h2 _ _ hn).1
      · exact (fdstar_propagateRaise_inv h2 _ _ _ hn).1

theorem fdstar_initialLoop_inv (pStart : Nat) {size : Nat × Nat} :
    ∀ (fuel : Nat) (p p' : Planner), AlgInv p size → initialLoop pStart fuel p = some p' →
      AlgInv p' size
  | 0, _, _, _, h => by simp [initialLoop] at h
  | fuel + 1, p, p', hp, h => by
    simp only [initialLoop] at h
    cases hs : processState p with
    | none => rw [hs] at h; cases h
    | some r =>
      obtain ⟨p1, val⟩ := r
      rw [hs] at h
      have h1 := fdstar_processState_inv val hp hs
      simp only at h
      split_ifs at h
      · cases h; exact h1
      · cases h; exact h1
      · cases h; exact h1
      · exact fdstar_initialLoop_inv pStart fuel _ p' h1 h

theorem fdstar_replanLoop_inv (pStart : Nat) {size : Nat × Nat} :
    ∀ (fuel : Nat) (p p' : Planner) (e : LoopEnd), AlgInv p size →
      replanLoop pStart fuel p = some (p', e) → AlgInv p' size
  | 0, _, _, _, _, h => by simp [replanLoop] at h
  | fuel + 1, p, p', e, hp, h => by
    simp only [replanLoop] at h
    split_ifs at h with hlen
    · cases hs : processState p with
      | none => rw [hs] at h; cases h
      | some r =>
        obtain ⟨p1, val⟩ := r
        rw [hs] at h
        have h1 := fdstar_processState_inv val hp hs
        simp only at h
        split_ifs at h
        · cases h; exact h1
        · cases h; exact h1
        · exact fdstar_replanLoop_inv pStart fuel _ p' e h1 h
    · cases h; exact hp

theorem fdstar_resetState_inv {p : Planner} {size : Nat × Nat} (h : AlgInv p size) (pStart pGoal : Nat) :
    AlgInv (resetState p pStart pGoal) size := by
  have hxy : ∀ i, ((resetState p pStart pGoal).cells i).x = (p.cells i).x ∧
      ((resetState p pStart pGoal).cells i).y = (p.cells i).y := by
    intro i
    simp only [resetState, upd_apply]
    split_ifs <;> simp_all
  have hbp : ∀ i b, ((resetState p pStart pGoal).cells i).backPtr = some b →
      (p.cells i).backPtr = some b := by
    intro i b
    simp only [resetState, upd_apply]
    split_ifs <;> simp_all
  refine ⟨h.width, h.height, h.fits, ?_, ?_⟩
  · intro i hi
    rw [(hxy i).1, (hxy i).2]
    exact h.coords i hi
  · intro c b hb
    rw [(hxy c).1, (hxy c).2, (hxy b).1, (hxy b).2]
    exact h.back c b (hbp c b hb)

theorem fdstar_initMap_inv (old : Planner) (m : GridMap) (hw : m.width ≤ USHORT)
    (hh : m.height ≤ USHORT) : AlgInv (initMap old m) (m.width, m.height) := by
  refine ⟨rfl, rfl, ⟨hw, hh⟩, ?_, ?_⟩
  · intro i hi
    simp only [initMap]
    have hw0 : 0 < m.width := by
      rcases Nat.eq_zero_or_pos m.width with h0 | h0
      · rw [h0] at hi; simp at hi
      · exact h0
    have h1 : i % m.width < m.width := Nat.mod_lt _ hw0
    have h2 : i / m.width < m.height := Nat.div_lt_of_lt_mul hi
    exact ⟨Nat.mod_eq_of_lt (by omega), Nat.mod_eq_of_lt (by omega)⟩
  · intro c b hb
    simp [initMap] at hb

theorem fdstar_setBlocked_frame (p q : Planner) (c : Nat) (b : Bool) (hq : Frame p q) :
    Frame p { q with cells := upd q.cells c { q.cells c with blocked := b } } :=
  fdstar_frame_trans hq ⟨rfl, rfl, fun i => by simp only [upd_apply]; split_ifs <;> simp_all⟩

theorem fdstar_around_frame (p : Planner) (l : List Nat) (q : Planner) (hq : Frame p q) :
    Frame p (l.foldl
      (fun p pNeighbor =>
        if (p.cells pNeighbor).list = List_Closed then insert p pNeighbor (p.cells pNeighbor).h_cost
        else p) q) := by
  refine foldl_keeps (Frame p) _ l q ?_ hq
  intro q' n _ hq'
  exact fdstar_frame_ite _ _ _ _ (fdstar_frame_trans hq' (fdstar_insert_frame _ _ _)) hq'

theorem fdstar_initMapUpdate_frame (p : Planner) (m : GridMap) (r : Region) :
    Frame p (initMapUpdate p m r) := by
  unfold initMapUpdate
  refine foldl_keeps (Frame p) _ r.points p ?_ (fdstar_frame_refl p)
  intro q pos _ hq
  have h1 := fdstar_setBlocked_frame p q (q.width * pos.2 + pos.1) (decide (m.pixel pos.1 pos.2 > 0)) hq
  refine fdstar_frame_ite _ _ _ _ ?_ hq
  refine fdstar_frame_ite _ _ _ _ (fdstar_around_frame _ _ _ ?_) ?_
  · exact fdstar_frame_ite _ _ _ _ (fdstar_frame_trans h1 (fdstar_insert_frame _ _ _)) h1
  · exact fdstar_frame_ite _ _ _ _ (fdstar_frame_trans h1 (fdstar_insert_frame _ _ _)) h1

theorem fdstar_extractPath_spec {p : Planner} {size : Nat × Nat} (h : AlgInv p size) (s g : Pos)
    (hs1 : s.1 < size.1) (hs2 : s.2 < size.2) (hg1 : g.1 < size.1) (hg2 : g.2 < size.2) :
    AlgInv (extractPath p (s.2 * size.1 + s.1) (g.2 * size.1 + g.1)).planner size ∧
    ((extractPath p (s.2 * size.1 + s.1) (g.2 * size.1 + g.1)).path ≠ [] →
      PathOK s g (extractPath p (s.2 * size.1 + s.1) (g.2 * size.1 + g.1)).path) := by
  have hps : ((p.cells (s.2 * size.1 + s.1)).x, (p.cells (s.2 * size.1 + s.1)).y) = s := by
    obtain ⟨c1, c2⟩ := h.coords _ (index_lt size.1 size.2 s.1 s.2 hs1 hs2)
    have := posOf_index size.1 s.1 s.2 hs1
    unfold posOf at this
    rw [c1, c2]; exact this
  have hpg : ((p.cells (g.2 * size.1 + g.1)).x, (p.cells (g.2 * size.1 + g.1)).y) = g := by
    obtain ⟨c1, c2⟩ := h.coords _ (index_lt size.1 size.2 g.1 g.2 hg1 hg2)
    have := posOf_index size.1 g.1 g.2 hg1
    unfold posOf at this
    rw [c1, c2]; exact this
  unfold extractPath
  cases hf : DStar.followBackPtrs (fun i => (p.cells i).blocked) (fun i => (p.cells i).backPtr)
      (fun i => ((p.cells i).x, (p.cells i).y)) (g.2 * size.1 + g.1) 1000000 (s.2 * size.1 + s.1) [] with
  | error e => exact ⟨h, fun hne => absurd rfl hne⟩
  | ok l =>
    refine ⟨h, fun _ => ?_⟩
    obtain ⟨l', h1, h2, h3, h4, h5⟩ := followBackPtrs_spec _ _ _ _ h.back _ _ _ _ hf
    simp only [List.nil_append] at h1
    subst h1
    simp only at h2 h3 h5 ⊢
    rw [hps] at h2 h5
    rw [hpg] at h3
    refine ⟨h2, h3, h4, fun he => h5 ?_⟩
    rw [he]

theorem fdstar_doCalculatePath_spec (fuel : Nat) {p : Planner} {size : Nat × Nat} (h : AlgInv p size)
    (u : Nat) (s g : Pos) (o : Outcome)
    (hs1 : s.1 < size.1) (hs2 : s.2 < size.2) (hg1 : g.1 < size.1) (hg2 : g.2 < size.2)
    (ho : doCalculatePath fuel p u s g = some o) :
    AlgInv o.planner size ∧ (o.path ≠ [] → PathOK s g o.path) := by
  unfold doCalculatePath at ho
  simp only at ho
  rw [h.width] at ho
  by_cases hb1 : (p.cells (s.2 * size.1 + s.1)).blocked = true
  · rw [if_pos hb1] at ho
    cases ho
    exact ⟨h, fun hne => absurd rfl hne⟩
  rw [if_neg hb1] at ho
  by_cases hb2 : (p.cells (g.2 * size.1 + g.1)).blocked = true
  · rw [if_pos hb2] at ho
    cases ho
    exact ⟨h, fun hne => absurd rfl hne⟩
  rw [if_neg hb2] at ho
  have hp1 : AlgInv (if needsReset u then resetState p (s.2 * size.1 + s.1) (g.2 * size.1 + g.1) else p)
      size := by
    split_ifs
    · exact fdstar_resetState_inv h _ _
    · exact h
  generalize (if needsReset u then resetState p (s.2 * size.1 + s.1) (g.2 * size.1 + g.1) else p) = p1
    at ho hp1
  have hex := fun (q : Planner) (hq : AlgInv q size) => fdstar_extractPath_spec hq s g hs1 hs2 hg1 hg2
  by_cases hfull : (u / 8) % 2 = 1 ∨ (u / 2) % 2 = 1
  · rw [if_pos hfull] at ho
    cases hl : initialLoop (s.2 * size.1 + s.1) fuel p1 with
    | none => rw [hl] at ho; cases ho
    | some p2 =>
      rw [hl] at ho
      have h2 := fdstar_initialLoop_inv _ fuel p1 p2 hp1 hl
      simp only at ho
      split_ifs at ho
      · cases ho
        exact ⟨h2, fun hne => absurd rfl hne⟩
      · simp only [Option.some.injEq] at ho
        subst ho
        exact hex p2 h2
  · rw [if_neg hfull] at ho
    have hp2 : AlgInv (if s.2 * size.1 + s.1 ≠ p1.pRobot then
        { p1 with d_curr := uadd (uadd p1.d_curr (dist (p1.cells (s.2 * size.1 + s.1)) (p1.cells p1.pRobot))) 1
                  pRobot := s.2 * size.1 + s.1 }
        else p1) size := by
      split_ifs
      · exact ⟨hp1.width, hp1.height, hp1.fits, hp1.coords, hp1.back⟩
      · exact hp1
    generalize (if s.2 * size.1 + s.1 ≠ p1.pRobot then
        { p1 with d_curr := uadd (uadd p1.d_curr (dist (p1.cells (s.2 * size.1 + s.1)) (p1.cells p1.pRobot))) 1
                  pRobot := s.2 * size.1 + s.1 }
        else p1) = p2 at ho hp2
    cases hv : getMinVal p2 with
    | none => rw [hv] at ho; cases ho
    | some r =>
      obtain ⟨p3, val⟩ := r
      rw [hv] at ho
      have h3 := fdstar_algInv_of_frame hp2 (fdstar_getMinVal_frame p2 p3 val hv)
      simp only at ho
      have key : ∀ (looped : Option (Planner × LoopEnd)),
          (∀ p4 e, looped = some (p4, e) → AlgInv p4 size) →
          (match looped with
            | none => none
            | some (p4, LoopEnd.noPath) => some { planner := p4, path := [], error := "No Path found" }
            | some (p4, LoopEnd.ready) =>
              if (p4.cells (s.2 * size.1 + s.1)).list = List_New ∨
                  (p4.cells (s.2 * size.1 + s.1)).h_cost ≥ OBSTACLE_COST then
                some { planner := p4, path := [], error := "No Path found" }
              else some (extractPath p4 (s.2 * size.1 + s.1) (g.2 * size.1 + g.1))) = some o →
          AlgInv o.planner size ∧ (o.path ≠ [] → PathOK s g o.path) := by
        intro looped hl hm
        cases looped with
        | none => cases hm
        | some r =>
          obtain ⟨p4, e⟩ := r
          have h4 := hl p4 e rfl
          cases e with
          | noPath =>
            simp only [Option.some.injEq] at hm
            subst hm
            exact ⟨h4, fun hne => absurd rfl hne⟩
          | ready =>
            simp only at hm
            split_ifs at hm
            · cases hm
              exact ⟨h4, fun hne => absurd rfl hne⟩
            · simp only [Option.some.injEq] at hm
              subst hm
              exact hex p4 h4
      refine key _ ?_ ho
      intro p4 e hl
      split_ifs at hl
      · exact fdstar_replanLoop_inv _ fuel p3 p4 e h3 hl
      · cases hl; exact h3

/-- Focused D* provides what the contract invariant needs. -/
theorem fdstar_algSpec (fuel : Nat) : AlgSpec (algorithm fuel) AlgInv := by
  refine ⟨?_, ?_, ?_⟩
  · intro st m hw hh _ _
    exact fdstar_initMap_inv st m hw hh
  · intro st m r h _ _
    exact fdstar_algInv_of_frame h (fdstar_initMapUpdate_frame st m r)
  · intro st size u s g r h hs1 hs2 hg1 hg2 hc
    simp only [algorithm] at hc
    cases ho : doCalculatePath fuel st u s g with
    | none => rw [ho] at hc; cases hc
    | some o =>
      rw [ho] at hc
      simp only [Option.map_some', Option.some.injEq] at hc
      subst hc
      exact fdstar_doCalculatePath_spec fuel h u s g o hs1 hs2 hg1 hg2 ho

end FocussedDStar

end RasterSim

namespace RasterSim

/-! ## Focussed D*: the open list stays in order -/

namespace FocussedDStar

open ListType

/-- What a cell holds apart from its slot in the open list. -/
def Cell.core (c : Cell) :
    Option Nat × Nat × Nat × ListType × Bool × Option Nat × Nat × Nat × Nat × Nat :=
  (c.backPtr, c.x, c.y, c.list, c.blocked, c.pFocus, c.h_cost, c.k_cost, c.f_cost, c.fB_cost)

theorem fdstar_core_backPtr {a b : Cell} (h : a.core = b.core) : a.backPtr = b.backPtr :=
  congrArg (fun t => t.1) h

theorem fdstar_core_x {a b : Cell} (h : a.core = b.core) : a.x = b.x :=
  congrArg (fun t => t.2.1) h

theorem fdstar_core_y {a b : Cell} (h : a.core = b.core) : a.y = b.y :=
  congrArg (fun t => t.2.2.1) h

theorem fdstar_core_list {a b : Cell} (h : a.core = b.core) : a.list = b.list :=
  congrArg (fun t => t.2.2.2.1) h

theorem fdstar_core_blocked {a b : Cell} (h : a.core = b.core) : a.blocked = b.blocked :=
  congrArg (fun t => t.2.2.2.2.1) h

theorem fdstar_core_pFocus {a b : Cell} (h : a.core = b.core) : a.pFocus = b.pFocus :=
  congrArg (fun t => t.2.2.2.2.2.1) h

theorem fdstar_core_h {a b : Cell} (h : a.core = b.core) : a.h_cost = b.h_cost :=
  congrArg (fun t => t.2.2.2.2.2.2.1) h

theorem fdstar_core_k {a b : Cell} (h : a.core = b.core) : a.k_cost = b.k_cost :=
  congrArg (fun t => t.2.2.2.2.2.2.2.1) h

/-- Two states that differ by moves inside the open list only. -/
structure HeapMove (p p' : Planner) : Prop where
  width : p'.width = p.width
  height : p'.height = p.height
  len : p'.openListLength = p.openListLength
  pRobot : p'.pRobot = p.pRobot
  d_curr : p'.d_curr = p.d_curr
  fullInit : p'.fullInit = p.fullInit
  core : ∀ c, (p'.cells c).core = (p.cells c).core

/-- The open list of the state is in order: see `SlotsOK`. -/
def HeapOK (N : Nat) (p : Planner) : Prop :=
  SlotsOK N p.openHeap (fun c => (p.cells c).heapIndex) p.openListLength
    (fun c => (p.cells c).list = List_Open)

theorem fdstar_heapMove_refl (p : Planner) : HeapMove p p :=
  ⟨rfl, rfl, rfl, rfl, rfl, rfl, fun _ => rfl⟩

theorem fdstar_heapMove_trans {p1 p2 p3 : Planner} (h12 : HeapMove p1 p2) (h23 : HeapMove p2 p3) :
    HeapMove p1 p3 :=
  ⟨h23.width.trans h12.width, h23.height.trans h12.height, h23.len.trans h12.len,
    h23.pRobot.trans h12.pRobot, h23.d_curr.trans h12.d_curr, h23.fullInit.trans h12.fullInit,
    fun c => (h23.core c).trans (h12.core c)⟩

theorem fdstar_swapSlots_move (p : Planner) (i j : Nat) : HeapMove p (swapSlots p i j) := by
  refine ⟨rfl, rfl, rfl, rfl, rfl, rfl, fun c => ?_⟩
  simp only [swapSlots, upd_apply]
  split_ifs <;> simp_all [Cell.core]

theorem fdstar_swapSlots_heap {N : Nat} {p : Planner} (h : HeapOK N p) (i j : Nat) (hi1 : 1 ≤ i)
    (hi : i ≤ p.openListLength) (hj1 : 1 ≤ j) (hj : j ≤ p.openListLength) :
    HeapOK N (swapSlots p i j) := by
  have hm := fdstar_swapSlots_move p i j
  have e1 : (swapSlots p i j).openHeap = swapHeap p.openHeap i j := rfl
  have e2 : (fun c => ((swapSlots p i j).cells c).heapIndex) =
      swapIdx p.openHeap (fun c => (p.cells c).heapIndex) i j := by
    funext c
    simp only [swapSlots, swapIdx, swapHeap, upd_apply]
    split_ifs <;> rfl
  unfold HeapOK
  rw [e1, e2]
  exact slotsOK_mem (slotsOK_swap h i j hi1 hi hj1 hj) (fun c _ => by
    rw [fdstar_core_list (hm.core c)])

theorem fdstar_heapUpLoop_heap {N : Nat} : ∀ (fuel : Nat) (p : Planner) (idx : Nat), HeapOK N p →
    1 ≤ idx → idx ≤ p.openListLength →
    HeapMove p (heapUpLoop fuel p idx) ∧ HeapOK N (heapUpLoop fuel p idx)
  | 0, p, _, h, _, _ => ⟨fdstar_heapMove_refl p, h⟩
  | fuel + 1, p, idx, h, h1, h2 => by
    simp only [heapUpLoop]
    split_ifs with ha hb
    · have hs := fdstar_swapSlots_heap h (idx / 2) idx (by omega) (by omega) h1 h2
      have hm := fdstar_swapSlots_move p (idx / 2) idx
      obtain ⟨r1, r2⟩ := fdstar_heapUpLoop_heap fuel (swapSlots p (idx / 2) idx) (idx / 2) hs (by omega)
        (by rw [hm.len]; omega)
      exact ⟨fdstar_heapMove_trans hm r1, r2⟩
    · exact ⟨fdstar_heapMove_refl p, h⟩
    · exact ⟨fdstar_heapMove_refl p, h⟩

theorem fdstar_downTarget_cases (p : Planner) (idx : Nat) :
    downTarget p idx = idx ∨ (downTarget p idx = 2 * idx ∧ 2 * idx ≤ p.openListLength) ∨
      (downTarget p idx = 2 * idx + 1 ∧ 2 * idx + 1 ≤ p.openListLength) := by
  unfold downTarget
  simp only
  split_ifs <;> simp_all

theorem fdstar_heapDownLoop_heap {N : Nat} : ∀ (fuel : Nat) (p : Planner) (idx : Nat), HeapOK N p →
    1 ≤ idx → idx ≤ p.openListLength →
    HeapMove p (heapDownLoop fuel p idx) ∧ HeapOK N (heapDownLoop fuel p idx)
  | 0, p, _, h, _, _ => ⟨fdstar_heapMove_refl p, h⟩
  | fuel + 1, p, idx, h, h1, h2 => by
    simp only [heapDownLoop]
    split_ifs with ha
    · have ht := fdstar_downTarget_cases p idx
      have t1 : 1 ≤ downTarget p idx := by omega
      have t2 : downTarget p idx ≤ p.openListLength := by omega
      have hs := fdstar_swapSlots_heap h (downTarget p idx) idx t1 t2 h1 h2
      have hm := fdstar_swapSlots_move p (downTarget p idx) idx
      obtain ⟨r1, r2⟩ := fdstar_heapDownLoop_heap fuel (swapSlots p (downTarget p idx) idx)
        (downTarget p idx) hs t1 (by rw [hm.len]; exact t2)
      exact ⟨fdstar_heapMove_trans hm r1, r2⟩
    · exact ⟨fdstar_heapMove_refl p, h⟩

theorem fdstar_heapUp_heap {N : Nat} {p : Planner} (h : HeapOK N p) (c : Nat) (hc : c < N) :
    HeapMove p (heapUp p c) ∧ HeapOK N (heapUp p c) := by
  unfold heapUp
  split_ifs with ho
  · exact ⟨fdstar_heapMove_refl p, h⟩
  · obtain ⟨a1, a2, _⟩ := h.2 c hc (by simpa using ho)
    exact fdstar_heapUpLoop_heap _ p _ h a1 a2

theorem fdstar_heapDown_heap {N : Nat} {p : Planner} (h : HeapOK N p) (c : Nat) (hc : c < N) :
    HeapMove p (heapDown p c) ∧ HeapOK N (heapDown p c) := by
  unfold heapDown
  split_ifs with ho
  · exact ⟨fdstar_heapMove_refl p, h⟩
  · obtain ⟨a1, a2, _⟩ := h.2 c hc (by simpa using ho)
    exact fdstar_heapDownLoop_heap _ p _ h a1 a2

/-- A change of a cell that touches neither its list nor its slot leaves the open list
in order. -/
theorem fdstar_setCell_heap {N : Nat} {p : Planner} (h : HeapOK N p) (c : Nat) (v : Cell)
    (hl : v.list = (p.cells c).list) (hi : v.heapIndex = (p.cells c).heapIndex) :
    HeapOK N { p with cells := upd p.cells c v } := by
  unfold HeapOK
  have e : (fun d => ((upd p.cells c v) d).heapIndex) = (fun d => (p.cells d).heapIndex) := by
    funext d
    rw [upd_apply]
    split_ifs with hd
    · rw [hd, hi]
    · rfl
  show SlotsOK N p.openHeap (fun d => ((upd p.cells c v) d).heapIndex) p.openListLength
    (fun d => ((upd p.cells c v) d).list = List_Open)
  rw [e]
  refine slotsOK_mem h (fun d _ => ?_)
  rw [upd_apply]
  split_ifs with hd
  · rw [hd, hl]
  · exact Iff.rfl

/-- The `k_cost` that `insert` gives a cell. -/
def insertK (c : Cell) (h_cost : Nat) : Nat :=
  if c.list = List_Open then (if h_cost < c.k_cost then h_cost else c.k_cost)
  else if c.list = List_New then h_cost else min c.h_cost h_cost

/-- What `insert p c h` does, up to the order of the open list and the costs `f` and
`fB`. -/
structure Inserted (N : Nat) (p p' : Planner) (c h_cost : Nat) : Prop where
  width : p'.width = p.width
  height : p'.height = p.height
  pRobot : p'.pRobot = p.pRobot
  d_curr : p'.d_curr = p.d_curr
  fullInit : p'.fullInit = p.fullInit
  len : p'.openListLength =
    if (p.cells c).list = List_Open then p.openListLength else p.openListLength + 1
  other : ∀ d, d ≠ c → (p'.cells d).core = (p.cells d).core
  c_back : (p'.cells c).backPtr = (p.cells c).backPtr
  c_x : (p'.cells c).x = (p.cells c).x
  c_y : (p'.cells c).y = (p.cells c).y
  c_blocked : (p'.cells c).blocked = (p.cells c).blocked
  c_list : (p'.cells c).list = List_Open
  c_focus : (p'.cells c).pFocus = some p.pRobot
  c_h : (p'.cells c).h_cost = h_cost
  c_k : (p'.cells c).k_cost = insertK (p.cells c) h_cost
  heap : HeapOK N p'

/-- The last assignments of `insert`: the new `h_cost` and the focus. -/
def finishInsert (p1 : Planner) (c h_cost : Nat) : Planner :=
  { p1 with cells := upd p1.cells c { p1.cells c with h_cost := h_cost, pFocus := some p1.pRobot } }

theorem fdstar_insert_finish {N : Nat} {p p1 : Planner} (c h_cost : Nat) (hc : c < N)
    (hw : p1.width = p.width) (hh : p1.height = p.height) (hr : p1.pRobot = p.pRobot)
    (hd : p1.d_curr = p.d_curr) (hfi : p1.fullInit = p.fullInit)
    (hlen : p1.openListLength =
      if (p.cells c).list = List_Open then p.openListLength else p.openListLength + 1)
    (hother : ∀ d, d ≠ c → (p1.cells d).core = (p.cells d).core)
    (hb : (p1.cells c).backPtr = (p.cells c).backPtr) (hx : (p1.cells c).x = (p.cells c).x)
    (hy : (p1.cells c).y = (p.cells c).y) (hbl : (p1.cells c).blocked = (p.cells c).blocked)
    (hl : (p1.cells c).list = List_Open) (hk : (p1.cells c).k_cost = insertK (p.cells c) h_cost)
    (hok : HeapOK N p1) :
    Inserted N p (finishInsert p1 c h_cost) c h_cost := by
  unfold finishInsert
  refine ⟨hw, hh, hr, hd, hfi, hlen, ?_, ?_, ?_, ?_, ?_, ?_, ?_, ?_, ?_, ?_⟩
  · intro d hd'
    show ((upd p1.cells c _) d).core = _
    rw [upd_other _ _ _ _ hd']
    exact hother d hd'
  · show ((upd p1.cells c _) c).backPtr = _
    rw [upd_same]; exact hb
  · show ((upd p1.cells c _) c).x = _
    rw [upd_same]; exact hx
  · show ((upd p1.cells c _) c).y = _
    rw [upd_same]; exact hy
  · show ((upd p1.cells c _) c).blocked = _
    rw [upd_same]; exact hbl
  · show ((upd p1.cells c _) c).list = _
    rw [upd_same]; exact hl
  · show ((upd p1.cells c _) c).pFocus = _
    rw [upd_same]; exact congrArg some hr
  · show ((upd p1.cells c _) c).h_cost = _
    rw [upd_same]
  · show ((upd p1.cells c _) c).k_cost = _
    rw [upd_same]; exact hk
  · exact fdstar_setCell_heap hok c _ rfl rfl

theorem fdstar_insert_spec {N : Nat} {p : Planner} (h : HeapOK N p) (c : Nat) (hc : c < N)
    (h_cost : Nat) : Inserted N p (insert p c h_cost) c h_cost := by
  by_cases ho : (p.cells c).list = List_Open
  · -- the cell is on the open list
    obtain ⟨p1, hp1, hcell, hrest⟩ : ∃ p1 : Planner,
        insert p c h_cost = finishInsert (heapDown (heapUp p1 c) c) c h_cost ∧
        p1.cells = upd p.cells c { p.cells c with
          k_cost := (if h_cost < (p.cells c).k_cost then h_cost else (p.cells c).k_cost),
          f_cost := uadd (if h_cost < (p.cells c).k_cost then h_cost else (p.cells c).k_cost)
            (dist (p.cells c) (p.cells p.pRobot)),
          fB_cost := uadd (uadd (if h_cost < (p.cells c).k_cost then h_cost else (p.cells c).k_cost)
            (dist (p.cells c) (p.cells p.pRobot))) p.d_curr } ∧
        (p1.width = p.width ∧ p1.height = p.height ∧ p1.pRobot = p.pRobot ∧ p1.d_curr = p.d_curr ∧
          p1.fullInit = p.fullInit ∧ p1.openListLength = p.openListLength ∧
          p1.openHeap = p.openHeap) := by
      refine ⟨{ p with cells := upd p.cells c { p.cells c with k_cost := (if h_cost < (p.cells c).k_cost then h_cost else (p.cells c).k_cost), f_cost := uadd (if h_cost < (p.cells c).k_cost then h_cost else (p.cells c).k_cost) (dist (p.cells c) (p.cells p.pRobot)), fB_cost := uadd (uadd (if h_cost < (p.cells c).k_cost then h_cost else (p.cells c).k_cost) (dist (p.cells c) (p.cells p.pRobot))) p.d_curr } }, ?_, rfl, rfl, rfl, rfl, rfl, rfl, rfl, rfl⟩
      unfold insert finishInsert
      simp only
      rw [if_pos ho]
    obtain ⟨w1, w2, w3, w4, w5, w6, w7⟩ := hrest
    have hcore1 : ∀ d, d ≠ c → (p1.cells d).core = (p.cells d).core := fun d hd => by
      rw [hcell, upd_other _ _ _ _ hd]
    have hc1 := congrFun hcell c
    rw [upd_same] at hc1
    have hok1 : HeapOK N p1 := by
      have := fdstar_setCell_heap h c (p1.cells c) (by rw [hc1]) (by rw [hc1])
      unfold HeapOK at this ⊢
      rw [w6, w7]
      have e : p1.cells = upd p.cells c (p1.cells c) := by
        rw [hcell]
        funext d
        simp only [upd_apply]
        split_ifs <;> rfl
      rw [e]
      exact this
    obtain ⟨m1, ok2⟩ := fdstar_heapUp_heap hok1 c hc
    obtain ⟨m2, ok3⟩ := fdstar_heapDown_heap ok2 c hc
    have m := fdstar_heapMove_trans m1 m2
    rw [hp1]
    refine fdstar_insert_finish c h_cost hc (m.width.trans w1) (m.height.trans w2)
      (m.pRobot.trans w3) (m.d_curr.trans w4) (m.fullInit.trans w5) ?_ ?_ ?_ ?_ ?_ ?_ ?_ ?_ ok3
    · rw [m.len, w6, if_pos ho]
    · intro d hd
      rw [m.core d]
      exact hcore1 d hd
    · rw [fdstar_core_backPtr (m.core c), hc1]
    · rw [fdstar_core_x (m.core c), hc1]
    · rw [fdstar_core_y (m.core c), hc1]
    · rw [fdstar_core_blocked (m.core c), hc1]
    · rw [fdstar_core_list (m.core c), hc1]; exact ho
    · rw [fdstar_core_k (m.core c), hc1]
      unfold insertK
      rw [if_pos ho]
  · -- the cell is new or closed
    obtain ⟨p1, hp1, hcell, hrest⟩ : ∃ p1 : Planner,
        insert p c h_cost = finishInsert (heapUp p1 c) c h_cost ∧
        p1.cells = upd p.cells c { p.cells c with
          k_cost := (if (p.cells c).list = List_New then h_cost else min (p.cells c).h_cost h_cost),
          f_cost := uadd (if (p.cells c).list = List_New then h_cost else min (p.cells c).h_cost h_cost)
            (dist (p.cells c) (p.cells p.pRobot)),
          fB_cost := uadd (uadd (if (p.cells c).list = List_New then h_cost else min (p.cells c).h_cost h_cost)
            (dist (p.cells c) (p.cells p.pRobot))) p.d_curr,
          heapIndex := p.openListLength + 1, list := List_Open } ∧
        (p1.width = p.width ∧ p1.height = p.height ∧ p1.pRobot = p.pRobot ∧ p1.d_curr = p.d_curr ∧
          p1.fullInit = p.fullInit ∧ p1.openListLength = p.openListLength + 1 ∧
          p1.openHeap = upd p.openHeap (p.openListLength + 1) c) := by
      refine ⟨{ p with openListLength := p.openListLength + 1, openHeap := upd p.openHeap (p.openListLength + 1) c, cells := upd p.cells c { p.cells c with k_cost := (if (p.cells c).list = List_New then h_cost else min (p.cells c).h_cost h_cost), f_cost := uadd (if (p.cells c).list = List_New then h_cost else min (p.cells c).h_cost h_cost) (dist (p.cells c) (p.cells p.pRobot)), fB_cost := uadd (uadd (if (p.cells c).list = List_New then h_cost else min (p.cells c).h_cost h_cost) (dist (p.cells c) (p.cells p.pRobot))) p.d_curr, heapIndex := p.openListLength + 1, list := List_Open } }, ?_, rfl, rfl, rfl, rfl, rfl, rfl, rfl, rfl⟩
      unfold insert finishInsert
      simp only
      rw [if_neg ho]
    obtain ⟨w1, w2, w3, w4, w5, w6, w7⟩ := hrest
    have hcore1 : ∀ d, d ≠ c → (p1.cells d).core = (p.cells d).core := fun d hd => by
      rw [hcell, upd_other _ _ _ _ hd]
    have hc1 := congrFun hcell c
    rw [upd_same] at hc1
    have hok1 : HeapOK N p1 := by
      unfold HeapOK
      have e : (fun d => (p1.cells d).heapIndex) =
          upd (fun d => (p.cells d).heapIndex) c (p.openListLength + 1) := by
        funext d
        rw [hcell]
        simp only [upd_apply]
        split_ifs <;> rfl
      rw [e, w6, w7]
      refine slotsOK_push h c hc ho _ (fun d _ => ?_)
      show ((p1.cells d).list = List_Open ↔ (d = c ∨ (p.cells d).list = List_Open))
      by_cases hd : d = c
      · rw [hd, hc1]; exact ⟨fun _ => Or.inl rfl, fun _ => rfl⟩
      · rw [fdstar_core_list (hcore1 d hd)]; exact ⟨fun h => Or.inr h, fun h => h.resolve_left hd⟩
    obtain ⟨m1, ok2⟩ := fdstar_heapUp_heap hok1 c hc
    rw [hp1]
    refine fdstar_insert_finish c h_cost hc (m1.width.trans w1) (m1.height.trans w2)
      (m1.pRobot.trans w3) (m1.d_curr.trans w4) (m1.fullInit.trans w5) ?_ ?_ ?_ ?_ ?_ ?_ ?_ ?_ ok2
    · rw [m1.len, w6, if_neg ho]
    · intro d hd
      rw [m1.core d]
      exact hcore1 d hd
    · rw [fdstar_core_backPtr (m1.core c), hc1]
    · rw [fdstar_core_x (m1.core c), hc1]
    · rw [fdstar_core_y (m1.core c), hc1]
    · rw [fdstar_core_blocked (m1.core c), hc1]
    · rw [fdstar_core_list (m1.core c), hc1]
    · rw [fdstar_core_k (m1.core c), hc1]
      unfold insertK
      rw [if_neg ho]

/-- What `popMin` does, up to the order of the open list. -/
structure Popped (N : Nat) (p p' : Planner) (pMin : Nat) : Prop where
  width : p'.width = p.width
  height : p'.height = p.height
  pRobot : p'.pRobot = p.pRobot
  d_curr : p'.d_curr = p.d_curr
  fullInit : p'.fullInit = p.fullInit
  len : p'.openListLength + 1 = p.openListLength
  other : ∀ d, d ≠ pMin → (p'.cells d).core = (p.cells d).core
  c_back : (p'.cells pMin).backPtr = (p.cells pMin).backPtr
  c_x : (p'.cells pMin).x = (p.cells pMin).x
  c_y : (p'.cells pMin).y = (p.cells pMin).y
  c_blocked : (p'.cells pMin).blocked = (p.cells pMin).blocked
  c_list : (p'.cells pMin).list = List_Closed
  c_h : (p'.cells pMin).h_cost = (p.cells pMin).h_cost
  c_k : (p'.cells pMin).k_cost = (p.cells pMin).k_cost
  heap : HeapOK N p'

theorem fdstar_popMin_spec {N : Nat} {p : Planner} (h : HeapOK N p) (hl : 1 ≤ p.openListLength) :
    Popped N p (popMin p (p.openHeap 1)) (p.openHeap 1) := by
  obtain ⟨a1, a2, a3⟩ := h.1 1 (le_refl 1) hl
  have hMin : (upd p.cells (p.openHeap 1)
      { p.cells (p.openHeap 1) with list := List_Closed, heapIndex := 0 }) (p.openHeap 1) =
      { p.cells (p.openHeap 1) with list := List_Closed, heapIndex := 0 } := upd_same _ _ _
  have hcore1 : ∀ d, d ≠ p.openHeap 1 → ((upd p.cells (p.openHeap 1)
      { p.cells (p.openHeap 1) with list := List_Closed, heapIndex := 0 }) d).core = (p.cells d).core :=
    fun d hd => by rw [upd_other _ _ _ _ hd]
  have hmem : ∀ d, d < N → (((upd p.cells (p.openHeap 1)
      { p.cells (p.openHeap 1) with list := List_Closed, heapIndex := 0 }) d).list = List_Open ↔
      (d ≠ p.openHeap 1 ∧ (p.cells d).list = List_Open)) := by
    intro d _
    by_cases hd : d = p.openHeap 1
    · rw [hd, hMin]
      exact ⟨(fun h => by cases h), fun h => absurd rfl h.1⟩
    · rw [fdstar_core_list (hcore1 d hd)]
      exact ⟨fun h => ⟨hd, h⟩, fun h => h.2⟩
  by_cases hne : p.openListLength - 1 ≠ 0
  · -- another cell takes the first slot
    have hl2 : 2 ≤ p.openListLength := by omega
    have hlast : p.openListLength - 1 + 1 = p.openListLength := by omega
    have hfne : p.openHeap p.openListLength ≠ p.openHeap 1 := by
      intro he
      have := slotsOK_inj h _ _ (by omega) (le_refl _) (le_refl 1) hl he
      omega
    have hfN : p.openHeap p.openListLength < N := (h.1 _ (by omega) (le_refl _)).1
    obtain ⟨p2, hp2, hcells, hheap, hlen, hw, hh, hr, hd, hfi⟩ : ∃ p2 : Planner,
        popMin p (p.openHeap 1) = heapDown p2 (p.openHeap p.openListLength) ∧
        p2.cells = upd (upd p.cells (p.openHeap 1)
          { p.cells (p.openHeap 1) with list := List_Closed, heapIndex := 0 })
          (p.openHeap p.openListLength)
          { (upd p.cells (p.openHeap 1)
              { p.cells (p.openHeap 1) with list := List_Closed, heapIndex := 0 })
              (p.openHeap p.openListLength) with heapIndex := 1 } ∧
        p2.openHeap = upd p.openHeap 1 (p.openHeap p.openListLength) ∧
        p2.openListLength = p.openListLength - 1 ∧ p2.width = p.width ∧ p2.height = p.height ∧
        p2.pRobot = p.pRobot ∧ p2.d_curr = p.d_curr ∧ p2.fullInit = p.fullInit := by
      refine ⟨{ p with cells := upd (upd p.cells (p.openHeap 1) { p.cells (p.openHeap 1) with list := List_Closed, heapIndex := 0 }) (p.openHeap p.openListLength) { (upd p.cells (p.openHeap 1) { p.cells (p.openHeap 1) with list := List_Closed, heapIndex := 0 }) (p.openHeap p.openListLength) with heapIndex := 1 }, openHeap := upd p.openHeap 1 (p.openHeap p.openListLength), openListLength := p.openListLength - 1 }, ?_, rfl, rfl, rfl, rfl, rfl, rfl, rfl, rfl⟩
      unfold popMin
      simp only [hlast, upd_same]
      rw [if_pos hne]
    have hcore2 : ∀ d, (p2.cells d).core = ((upd p.cells (p.openHeap 1)
        { p.cells (p.openHeap 1) with list := List_Closed, heapIndex := 0 }) d).core := by
      intro d
      rw [hcells, upd_apply]
      split_ifs with hd
      · rw [hd]; rfl
      · rfl
    have hidx2 : ∀ d, d ≠ p.openHeap 1 → (p2.cells d).heapIndex =
        (upd (fun c => (p.cells c).heapIndex) (p.openHeap p.openListLength) 1) d := by
      intro d hd
      rw [hcells]
      simp only [upd_apply]
      split_ifs with h1
      · rfl
      · rfl
    have hok2 : HeapOK N p2 := by
      unfold HeapOK
      have hpop := slotsOK_pop h hl2 (fun d => (p2.cells d).list = List_Open) (fun d hd => by
        show ((p2.cells d).list = List_Open ↔ (d ≠ p.openHeap 1 ∧ (p.cells d).list = List_Open))
        rw [fdstar_core_list (hcore2 d)]
        exact hmem d hd)
      rw [hlen]
      refine slotsOK_congr hpop (fun i _ _ => by rw [hheap]) (fun d _ hd => ?_)
      have hd' : d ≠ p.openHeap 1 := by
        intro he
        have hd2 : (p2.cells d).list = List_Open := hd
        rw [he, fdstar_core_list (hcore2 _), hMin] at hd2
        cases hd2
      exact hidx2 d hd'
    rw [hp2]
    obtain ⟨m, ok3⟩ := fdstar_heapDown_heap hok2 _ hfN
    have hc2 : (p2.cells (p.openHeap 1)).core =
        ({ p.cells (p.openHeap 1) with list := List_Closed, heapIndex := 0 } : Cell).core := by
      rw [hcore2, hMin]
    refine ⟨m.width.trans hw, m.height.trans hh, m.pRobot.trans hr, m.d_curr.trans hd,
      m.fullInit.trans hfi, ?_, ?_, ?_, ?_, ?_, ?_, ?_, ?_, ?_, ok3⟩
    · rw [m.len, hlen]; omega
    · intro d hd
      rw [m.core d, hcore2 d, hcore1 d hd]
    · rw [fdstar_core_backPtr (m.core _), fdstar_core_backPtr hc2]
    · rw [fdstar_core_x (m.core _), fdstar_core_x hc2]
    · rw [fdstar_core_y (m.core _), fdstar_core_y hc2]
    · rw [fdstar_core_blocked (m.core _), fdstar_core_blocked hc2]
    · rw [fdstar_core_list (m.core _), fdstar_core_list hc2]
    · rw [fdstar_core_h (m.core _), fdstar_core_h hc2]
    · rw [fdstar_core_k (m.core _), fdstar_core_k hc2]
  · have hl1 : p.openListLength = 1 := by omega
    have e : popMin p (p.openHeap 1) =
        { p with cells := upd p.cells (p.openHeap 1)
                   { p.cells (p.openHeap 1) with list := List_Closed, heapIndex := 0 },
                 openListLength := p.openListLength - 1 } := by
      unfold popMin
      simp only
      rw [if_neg hne]
    rw [e]
    refine ⟨rfl, rfl, rfl, rfl, rfl, ?_, hcore1, ?_, ?_, ?_, ?_, ?_, ?_, ?_, ?_⟩
    · show p.openListLength - 1 + 1 = p.openListLength
      omega
    · show ((upd p.cells (p.openHeap 1) _) (p.openHeap 1)).backPtr = _
      rw [hMin]
    · show ((upd p.cells (p.openHeap 1) _) (p.openHeap 1)).x = _
      rw [hMin]
    · show ((upd p.cells (p.openHeap 1) _) (p.openHeap 1)).y = _
      rw [hMin]
    · show ((upd p.cells (p.openHeap 1) _) (p.openHeap 1)).blocked = _
      rw [hMin]
    · show ((upd p.cells (p.openHeap 1) _) (p.openHeap 1)).list = _
      rw [hMin]
    · show ((upd p.cells (p.openHeap 1) _) (p.openHeap 1)).h_cost = _
      rw [hMin]
    · show ((upd p.cells (p.openHeap 1) _) (p.openHeap 1)).k_cost = _
      rw [hMin]
    · unfold HeapOK
      have h' : SlotsOK N p.openHeap (fun c => (p.cells c).heapIndex) 1
          (fun c => (p.cells c).list = List_Open) := by
        have := h
        unfold HeapOK at this
        rw [hl1] at this
        exact this
      have e0 : p.openListLength - 1 = 0 := by omega
      show SlotsOK N _ _ (p.openListLength - 1) _
      rw [e0]
      exact slotsOK_pop_last h' _ hmem _ _

end FocussedDStar

end RasterSim

namespace RasterSim

/-! ## Focussed D*: the costs of the open list stay in heap order -/

namespace FocussedDStar

open ListType

/-- The three costs that `Cell::operator<` compares, in the order of the comparison. -/
def Cell.rank (c : Cell) : Nat × Nat × Nat := (c.fB_cost, c.f_cost, c.k_cost)

/-- `Cell::operator<` on the three costs. -/
def rankLt (a b : Nat × Nat × Nat) : Bool :=
  if a.1 = b.1 then (if a.2.1 = b.2.1 then a.2.2 < b.2.2 else a.2.1 < b.2.1) else a.1 < b.1

/-- `Cell::operator>=` on the three costs. -/
def rankGe (a b : Nat × Nat × Nat) : Bool := !(rankLt a b)

/-- The costs `a` are not above the costs `b`: `b < a` does not hold. -/
def rankLe (a b : Nat × Nat × Nat) : Prop := rankLt b a = false

theorem fdstar_lt_rank (a b : Cell) : Cell.lt a b = rankLt a.rank b.rank := rfl

theorem fdstar_ge_rank (a b : Cell) : Cell.ge a b = rankGe a.rank b.rank := rfl

theorem fdstar_tests : HeapTests rankLe rankLt rankGe := by
  refine ⟨?_, ?_, ?_, ?_, ?_⟩
  · rintro ⟨a1, a2, a3⟩ ⟨b1, b2, b3⟩ ⟨c1, c2, c3⟩
    unfold rankLe rankLt
    intro h1 h2
    simp only at h1 h2 ⊢
    split_ifs at h1 h2 ⊢ <;> simp_all <;> omega
  · rintro ⟨a1, a2, a3⟩ ⟨b1, b2, b3⟩
    unfold rankLe rankLt
    intro h1
    simp only at h1 ⊢
    split_ifs at h1 ⊢ <;> simp_all <;> omega
  · intro a b h
    exact h
  · intro a b
    unfold rankLe rankGe
    intro h
    simpa using h
  · rintro ⟨a1, a2, a3⟩ ⟨b1, b2, b3⟩
    unfold rankLe rankGe rankLt
    intro h1
    simp only at h1 ⊢
    split_ifs at h1 ⊢ <;> simp_all <;> omega

theorem fdstar_core_rank {a b : Cell} (h : a.core = b.core) : a.rank = b.rank :=
  congrArg (fun t => (t.2.2.2.2.2.2.2.2.2, t.2.2.2.2.2.2.2.2.1, t.2.2.2.2.2.2.2.1)) h

/-- The costs of the cells that the open list is ordered by. -/
def Planner.ranks (p : Planner) : Nat → Nat × Nat × Nat := fun c => (p.cells c).rank

theorem fdstar_ranks_of_move {p p' : Planner} (h : HeapMove p p') : p'.ranks = p.ranks :=
  funext fun c => fdstar_core_rank (h.core c)

theorem fdstar_heapUpLoop_abs : ∀ (fuel : Nat) (p : Planner) (i : Nat),
    (heapUpLoop fuel p i).openHeap = (absUp rankLt p.ranks fuel p.openHeap i).1
  | 0, _, _ => rfl
  | fuel + 1, p, i => by
    simp only [heapUpLoop, absUp]
    by_cases hi : i ≠ 1
    · rw [if_pos hi, if_pos hi]
      have e : Cell.lt (p.at i) (p.at (i / 2)) =
          rankLt (p.ranks (p.openHeap i)) (p.ranks (p.openHeap (i / 2))) := rfl
      rw [e]
      cases hu : rankLt (p.ranks (p.openHeap i)) (p.ranks (p.openHeap (i / 2)))
      · simp only [Bool.false_eq_true, if_false]
      · simp only [if_true]
        rw [fdstar_heapUpLoop_abs fuel (swapSlots p (i / 2) i) (i / 2),
          fdstar_ranks_of_move (fdstar_swapSlots_move p (i / 2) i)]
        rfl
    · rw [if_neg hi, if_neg hi]

theorem fdstar_downTarget_abs (p : Planner) (i : Nat) :
    downTarget p i = absTarget rankGe p.ranks p.openHeap p.openListLength i := rfl

theorem fdstar_heapDownLoop_abs : ∀ (fuel : Nat) (p : Planner) (i : Nat),
    (heapDownLoop fuel p i).openHeap =
      (absDown rankGe p.ranks p.openListLength fuel p.openHeap i).1
  | 0, _, _ => rfl
  | fuel + 1, p, i => by
    simp only [heapDownLoop, absDown]
    rw [← fdstar_downTarget_abs]
    by_cases ht : i = downTarget p i
    · rw [if_neg (fun h => h ht), if_pos ht]
    · rw [if_pos ht, if_neg ht,
        fdstar_heapDownLoop_abs fuel (swapSlots p (downTarget p i) i) (downTarget p i),
        fdstar_ranks_of_move (fdstar_swapSlots_move p (downTarget p i) i)]
      rfl

/-- The exchange of two used slots leaves the `heapIndex` of the cells that are not on
the open list alone. -/
theorem fdstar_swapSlots_idle {N : Nat} {p : Planner} (h : HeapOK N p) (i j : Nat) (hi1 : 1 ≤ i)
    (hi : i ≤ p.openListLength) (hj1 : 1 ≤ j) (hj : j ≤ p.openListLength) (d : Nat)
    (hd : (p.cells d).list ≠ List_Open) :
    ((swapSlots p i j).cells d).heapIndex = (p.cells d).heapIndex := by
  have e2 : (fun c => ((swapSlots p i j).cells c).heapIndex) =
      swapIdx p.openHeap (fun c => (p.cells c).heapIndex) i j := by
    funext c
    simp only [swapSlots, swapIdx, swapHeap, upd_apply]
    split_ifs <;> rfl
  have e := congrFun e2 d
  simp only at e
  rw [e, swapIdx_apply]
  have n1 : d ≠ p.openHeap i := fun he => hd (he ▸ (h.1 i hi1 hi).2.1)
  have n2 : d ≠ p.openHeap j := fun he => hd (he ▸ (h.1 j hj1 hj).2.1)
  have n3 : d ≠ (if i = j then p.openHeap i else p.openHeap j) := by
    split_ifs <;> assumption
  rw [if_neg n1, if_neg n3]

theorem fdstar_heapUpLoop_idle {N : Nat} : ∀ (fuel : Nat) (p : Planner) (idx : Nat), HeapOK N p →
    1 ≤ idx → idx ≤ p.openListLength → ∀ d, (p.cells d).list ≠ List_Open →
    ((heapUpLoop fuel p idx).cells d).heapIndex = (p.cells d).heapIndex
  | 0, _, _, _, _, _, _, _ => rfl
  | fuel + 1, p, idx, h, h1, h2, d, hd => by
    simp only [heapUpLoop]
    split_ifs with ha hb
    · have hs := fdstar_swapSlots_heap h (idx / 2) idx (by omega) (by omega) h1 h2
      have hm := fdstar_swapSlots_move p (idx / 2) idx
      rw [fdstar_heapUpLoop_idle fuel (swapSlots p (idx / 2) idx) (idx / 2) hs (by omega)
        (by rw [hm.len]; omega) d (by rw [fdstar_core_list (hm.core d)]; exact hd)]
      exact fdstar_swapSlots_idle h _ _ (by omega) (by omega) h1 h2 d hd
    · rfl
    · rfl

theorem fdstar_heapDownLoop_idle {N : Nat} : ∀ (fuel : Nat) (p : Planner) (idx : Nat),
    HeapOK N p → 1 ≤ idx → idx ≤ p.openListLength → ∀ d, (p.cells d).list ≠ List_Open →
    ((heapDownLoop fuel p idx).cells d).heapIndex = (p.cells d).heapIndex
  | 0, _, _, _, _, _, _, _ => rfl
  | fuel + 1, p, idx, h, h1, h2, d, hd => by
    simp only [heapDownLoop]
    split_ifs with ha
    · have ht := fdstar_downTarget_cases p idx
      have t1 : 1 ≤ downTarget p idx := by omega
      have t2 : downTarget p idx ≤ p.openListLength := by omega
      have hs := fdstar_swapSlots_heap h (downTarget p idx) idx t1 t2 h1 h2
      have hm := fdstar_swapSlots_move p (downTarget p idx) idx
      rw [fdstar_heapDownLoop_idle fuel (swapSlots p (downTarget p idx) idx) (downTarget p idx) hs
        t1 (by rw [hm.len]; exact t2) d (by rw [fdstar_core_list (hm.core d)]; exact hd)]
      exact fdstar_swapSlots_idle h _ _ t1 t2 h1 h2 d hd
    · rfl

/-- Every cell of the map that is not on the open list has `heapIndex` 0. -/
def Zero (N : Nat) (p : Planner) : Prop :=
  ∀ c, c < N → (p.cells c).list ≠ List_Open → (p.cells c).heapIndex = 0

theorem fdstar_heapUp_zero {N : Nat} {p : Planner} (h : HeapOK N p) (hz : Zero N p) (c : Nat)
    (hc : c < N) : Zero N (heapUp p c) := by
  intro d hd hl
  have hm := (fdstar_heapUp_heap h c hc).1
  rw [fdstar_core_list (hm.core d)] at hl
  rw [← hz d hd hl]
  unfold heapUp
  split_ifs with ho
  · rfl
  · obtain ⟨a1, a2, _⟩ := h.2 c hc (by simpa using ho)
    exact fdstar_heapUpLoop_idle _ p _ h a1 a2 d hl

theorem fdstar_heapDown_zero {N : Nat} {p : Planner} (h : HeapOK N p) (hz : Zero N p) (c : Nat)
    (hc : c < N) : Zero N (heapDown p c) := by
  intro d hd hl
  have hm := (fdstar_heapDown_heap h c hc).1
  rw [fdstar_core_list (hm.core d)] at hl
  rw [← hz d hd hl]
  unfold heapDown
  split_ifs with ho
  · rfl
  · obtain ⟨a1, a2, _⟩ := h.2 c hc (by simpa using ho)
    exact fdstar_heapDownLoop_idle _ p _ h a1 a2 d hl

/-- What `heapUp` achieves for a cell on the open list (see `absUp_spec`). -/
theorem fdstar_heapUp_order {N : Nat} {p : Planner} (h : HeapOK N p) (c : Nat) (hc : c < N)
    (hm : (p.cells c).list = List_Open)
    (hb : OrderedBut rankLe p.ranks p.openHeap p.openListLength
      (p.cells c).heapIndex) :
    OrderedBut rankLe (heapUp p c).ranks (heapUp p c).openHeap
        (heapUp p c).openListLength ((heapUp p c).cells c).heapIndex ∧
      ParentOK rankLe (heapUp p c).ranks (heapUp p c).openHeap
        ((heapUp p c).cells c).heapIndex ∧
      (ChildOK rankLe p.ranks p.openHeap p.openListLength (p.cells c).heapIndex →
        ChildOK rankLe (heapUp p c).ranks (heapUp p c).openHeap
          (heapUp p c).openListLength ((heapUp p c).cells c).heapIndex) := by
  obtain ⟨a1, a2, a3⟩ : 1 ≤ (p.cells c).heapIndex ∧ (p.cells c).heapIndex ≤ p.openListLength ∧
      p.openHeap (p.cells c).heapIndex = c := h.2 c hc hm
  obtain ⟨st, ok⟩ := fdstar_heapUp_heap h c hc
  obtain ⟨r1, r2, r3, r4, r5, r6⟩ := absUp_spec fdstar_tests p.ranks p.openListLength
    (p.cells c).heapIndex p.openHeap (p.cells c).heapIndex a1 a2 (le_refl _) hb
  have eo : (heapUp p c).openHeap = (absUp rankLt p.ranks
      (p.cells c).heapIndex p.openHeap (p.cells c).heapIndex).1 := by
    unfold heapUp
    rw [if_neg (by simpa using hm)]
    exact fdstar_heapUpLoop_abs _ _ _
  have ek := fdstar_ranks_of_move st
  have el := st.len
  have ei : ((heapUp p c).cells c).heapIndex = (absUp rankLt p.ranks
      (p.cells c).heapIndex p.openHeap (p.cells c).heapIndex).2 := by
    have := (ok.1 _ r1 (by rw [el]; omega)).2.2
    rw [eo, r3, a3] at this
    exact this
  rw [eo, ek, el, ei]
  exact ⟨r4, r5, r6⟩

/-- What `heapDown` achieves for a cell on the open list (see `absDown_spec`). -/
theorem fdstar_heapDown_order {N : Nat} {p : Planner} (h : HeapOK N p) (c : Nat) (hc : c < N)
    (hm : (p.cells c).list = List_Open)
    (hb : OrderedBut rankLe p.ranks p.openHeap p.openListLength
      (p.cells c).heapIndex) :
    OrderedBut rankLe (heapDown p c).ranks (heapDown p c).openHeap
        (heapDown p c).openListLength ((heapDown p c).cells c).heapIndex ∧
      ChildOK rankLe (heapDown p c).ranks (heapDown p c).openHeap
        (heapDown p c).openListLength ((heapDown p c).cells c).heapIndex ∧
      (ParentOK rankLe p.ranks p.openHeap (p.cells c).heapIndex →
        ParentOK rankLe (heapDown p c).ranks (heapDown p c).openHeap
          ((heapDown p c).cells c).heapIndex) := by
  obtain ⟨a1, a2, a3⟩ : 1 ≤ (p.cells c).heapIndex ∧ (p.cells c).heapIndex ≤ p.openListLength ∧
      p.openHeap (p.cells c).heapIndex = c := h.2 c hc hm
  obtain ⟨st, ok⟩ := fdstar_heapDown_heap h c hc
  obtain ⟨r1, r2, r3, r4, r5, r6⟩ := absDown_spec fdstar_tests p.ranks p.openListLength
    (p.openListLength + 1) p.openHeap (p.cells c).heapIndex a1 a2 (by omega) hb
  have eo : (heapDown p c).openHeap = (absDown rankGe p.ranks
      p.openListLength (p.openListLength + 1) p.openHeap (p.cells c).heapIndex).1 := by
    unfold heapDown
    rw [if_neg (by simpa using hm)]
    exact fdstar_heapDownLoop_abs _ _ _
  have ek := fdstar_ranks_of_move st
  have el := st.len
  have ei : ((heapDown p c).cells c).heapIndex = (absDown rankGe p.ranks
      p.openListLength (p.openListLength + 1) p.openHeap (p.cells c).heapIndex).2 := by
    have hpos : 1 ≤ (absDown rankGe p.ranks p.openListLength
        (p.openListLength + 1) p.openHeap (p.cells c).heapIndex).2 := by omega
    have := (ok.1 _ hpos (by rw [el]; exact r2)).2.2
    rw [eo, r3, a3] at this
    exact this
  rw [eo, ek, el, ei]
  exact ⟨r4, r5, r6⟩

/-- The open list is in order: the slots and the back references agree (see `HeapOK`),
the cells that are not on the open list have `heapIndex` 0, and the costs of no cell
are below the costs of the cell in its parent slot. -/
def HeapInv (N : Nat) (p : Planner) : Prop :=
  HeapOK N p ∧ Zero N p ∧ Ordered rankLe p.ranks p.openHeap p.openListLength


/-- A change of cells that keeps the slots, the lists and the costs of the order keeps
the open list in order. -/
theorem fdstar_heapInv_congr {N : Nat} {p p' : Planner} (h : HeapInv N p)
    (e1 : p'.openHeap = p.openHeap) (e2 : p'.openListLength = p.openListLength)
    (e3 : ∀ d, (p'.cells d).list = (p.cells d).list ∧
      (p'.cells d).heapIndex = (p.cells d).heapIndex ∧ p'.ranks d = p.ranks d) :
    HeapInv N p' := by
  obtain ⟨hok, hz, hord⟩ := h
  refine ⟨?_, ?_, ?_⟩
  · unfold HeapOK
    have e : (fun d => (p'.cells d).heapIndex) = (fun d => (p.cells d).heapIndex) :=
      funext fun d => (e3 d).2.1
    rw [e, e1, e2]
    exact slotsOK_mem hok (fun d _ => by rw [(e3 d).1])
  · intro d hd hl
    rw [(e3 d).1] at hl
    rw [(e3 d).2.1]
    exact hz d hd hl
  · rw [e1, e2]
    exact ordered_congr hord (fun j _ _ => (e3 _).2.2)

/-- The costs of a cell of the open list have changed: `heapUp` and then `heapDown`
put the open list in order again. -/
theorem fdstar_resift {N : Nat} {p p1 : Planner} (h : HeapInv N p) (c : Nat) (hc : c < N)
    (ho : (p.cells c).list = List_Open) (e1 : p1.openHeap = p.openHeap)
    (e2 : p1.openListLength = p.openListLength)
    (e3 : ∀ d, (p1.cells d).list = (p.cells d).list ∧
      (p1.cells d).heapIndex = (p.cells d).heapIndex)
    (e4 : ∀ d, d ≠ c → p1.ranks d = p.ranks d) :
    HeapInv N (heapDown (heapUp p1 c) c) := by
  obtain ⟨hok, hz, hord⟩ := h
  have hok1 : HeapOK N p1 := by
    unfold HeapOK
    have e : (fun d => (p1.cells d).heapIndex) = (fun d => (p.cells d).heapIndex) :=
      funext fun d => (e3 d).2
    rw [e, e1, e2]
    exact slotsOK_mem hok (fun d _ => by rw [(e3 d).1])
  have hz1 : Zero N p1 := by
    intro d hd hl
    rw [(e3 d).1] at hl
    rw [(e3 d).2]
    exact hz d hd hl
  have ho1 : (p1.cells c).list = List_Open := by rw [(e3 c).1]; exact ho
  obtain ⟨a1, a2, a3⟩ : 1 ≤ (p.cells c).heapIndex ∧ (p.cells c).heapIndex ≤ p.openListLength ∧
      p.openHeap (p.cells c).heapIndex = c := hok.2 c hc ho
  have hb : OrderedBut rankLe p1.ranks p1.openHeap p1.openListLength (p1.cells c).heapIndex := by
    rw [(e3 c).2, e1, e2]
    refine orderedBut_of_change fdstar_tests hord _ a2 (fun j j1 j2 j3 => ?_)
    refine e4 _ (fun e => j3 ?_)
    exact slotsOK_inj hok j _ j1 j2 a1 a2 (e.trans a3.symm)
  obtain ⟨m1, ok1⟩ := fdstar_heapUp_heap hok1 c hc
  obtain ⟨u1, u2, _⟩ := fdstar_heapUp_order hok1 c hc ho1 hb
  have ho2 : ((heapUp p1 c).cells c).list = List_Open := by
    rw [fdstar_core_list (m1.core c)]; exact ho1
  obtain ⟨m2, ok2⟩ := fdstar_heapDown_heap ok1 c hc
  obtain ⟨d1, d2, d3⟩ := fdstar_heapDown_order ok1 c hc ho2 u1
  exact ⟨ok2, fdstar_heapDown_zero ok1 (fdstar_heapUp_zero hok1 hz1 c hc) c hc,
    ordered_of_parts d1 (d3 u2) d2⟩

/-- The first assignments of `insert` for a cell on the open list. -/
def rekey (p : Planner) (cell : Nat) (h_cost : Nat) : Planner :=
  let c := p.cells cell
  let k := if h_cost < c.k_cost then h_cost else c.k_cost
  let f := uadd k (dist c (p.cells p.pRobot))
  let c1 : Cell := { c with k_cost := k, f_cost := f, fB_cost := uadd f p.d_curr }
  { p with cells := upd p.cells cell c1 }

/-- The first assignments of `insert` for a cell that is not on the open list. -/
def pushed (p : Planner) (cell : Nat) (h_cost : Nat) : Planner :=
  let c := p.cells cell
  let k := if c.list = List_New then h_cost else min c.h_cost h_cost
  let f := uadd k (dist c (p.cells p.pRobot))
  let idx := p.openListLength + 1
  let c1 : Cell :=
    { c with k_cost := k, f_cost := f, fB_cost := uadd f p.d_curr, heapIndex := idx, list := List_Open }
  { p with openListLength := idx, openHeap := upd p.openHeap idx cell, cells := upd p.cells cell c1 }

theorem fdstar_insert_open (p : Planner) (c h_cost : Nat) (ho : (p.cells c).list = List_Open) :
    insert p c h_cost = finishInsert (heapDown (heapUp (rekey p c h_cost) c) c) c h_cost := by
  unfold insert finishInsert
  simp only
  rw [if_pos ho]
  rfl

theorem fdstar_insert_other (p : Planner) (c h_cost : Nat) (ho : ¬ (p.cells c).list = List_Open) :
    insert p c h_cost = finishInsert (heapUp (pushed p c h_cost) c) c h_cost := by
  unfold insert finishInsert
  simp only
  rw [if_neg ho]
  rfl

theorem fdstar_finishInsert_inv {N : Nat} {p : Planner} (h : HeapInv N p) (c h_cost : Nat) :
    HeapInv N (finishInsert p c h_cost) := by
  refine fdstar_heapInv_congr h rfl rfl (fun d => ?_)
  by_cases hd : d = c
  · rw [hd]
    refine ⟨?_, ?_, ?_⟩ <;> simp only [finishInsert, Planner.ranks, Cell.rank, upd_same]
  · refine ⟨?_, ?_, ?_⟩ <;> simp only [finishInsert, Planner.ranks, upd_apply, if_neg hd]

theorem fdstar_rekey_cell (p : Planner) (c h_cost d : Nat) :
    ((rekey p c h_cost).cells d).list = (p.cells d).list ∧
    ((rekey p c h_cost).cells d).heapIndex = (p.cells d).heapIndex ∧
    (d ≠ c → (rekey p c h_cost).ranks d = p.ranks d) := by
  by_cases hd : d = c
  · rw [hd]
    refine ⟨?_, ?_, fun h => absurd rfl h⟩ <;> simp only [rekey, upd_same]
  · refine ⟨?_, ?_, fun _ => ?_⟩ <;> simp only [rekey, Planner.ranks, upd_apply, if_neg hd]

theorem fdstar_pushed_cell (p : Planner) (c h_cost : Nat) :
    ((pushed p c h_cost).cells c).list = List_Open ∧
    ((pushed p c h_cost).cells c).heapIndex = p.openListLength + 1 ∧
    (∀ d, d ≠ c → (pushed p c h_cost).cells d = p.cells d) := by
  refine ⟨?_, ?_, fun d hd => ?_⟩
  · simp only [pushed, upd_same]
  · simp only [pushed, upd_same]
  · simp only [pushed, upd_apply, if_neg hd]

theorem fdstar_pushed_heap {N : Nat} {p : Planner} (h : HeapOK N p) (c : Nat) (hc : c < N)
    (h_cost : Nat) (ho : ¬ (p.cells c).list = List_Open) : HeapOK N (pushed p c h_cost) := by
  obtain ⟨q1, q2, q3⟩ := fdstar_pushed_cell p c h_cost
  unfold HeapOK
  have e : (fun d => ((pushed p c h_cost).cells d).heapIndex) =
      upd (fun d => (p.cells d).heapIndex) c (p.openListLength + 1) := by
    funext d
    rw [upd_apply]
    split_ifs with hd
    · rw [hd, q2]
    · rw [q3 d hd]
  rw [e]
  show SlotsOK N (upd p.openHeap (p.openListLength + 1) c) _ (p.openListLength + 1) _
  refine slotsOK_push h c hc ho _ (fun d _ => ?_)
  by_cases hd : d = c
  · rw [hd, q1]
    exact ⟨fun _ => Or.inl rfl, fun _ => rfl⟩
  · rw [q3 d hd]
    exact ⟨fun hh => Or.inr hh, fun hh => hh.resolve_left hd⟩

/-- `insert` keeps the open list in order, for a cell that is new, open or closed. -/
theorem fdstar_insert_inv {N : Nat} {p : Planner} (h : HeapInv N p) (c : Nat) (hc : c < N)
    (h_cost : Nat) : HeapInv N (insert p c h_cost) := by
  by_cases ho : (p.cells c).list = List_Open
  · rw [fdstar_insert_open p c h_cost ho]
    have hcell := fdstar_rekey_cell p c h_cost
    exact fdstar_finishInsert_inv (@fdstar_resift N p (rekey p c h_cost) h c hc ho rfl rfl
      (fun d => ⟨(hcell d).1, (hcell d).2.1⟩) (fun d hd => (hcell d).2.2 hd)) c h_cost
  · rw [fdstar_insert_other p c h_cost ho]
    refine fdstar_finishInsert_inv ?_ c h_cost
    obtain ⟨hok, hz, hord⟩ := h
    obtain ⟨q1, q2, q3⟩ := fdstar_pushed_cell p c h_cost
    have hok1 := fdstar_pushed_heap hok c hc h_cost ho
    have hz1 : Zero N (pushed p c h_cost) := by
      intro d hd hl
      by_cases hdc : d = c
      · rw [hdc] at hl
        exact absurd q1 hl
      · rw [q3 d hdc] at hl ⊢
        exact hz d hd hl
    have hord1 : Ordered rankLe (pushed p c h_cost).ranks p.openHeap p.openListLength := by
      refine ordered_congr hord (fun j j1 j2 => ?_)
      have hne : p.openHeap j ≠ c := fun e => ho (e ▸ (hok.1 j j1 j2).2.1)
      show ((pushed p c h_cost).cells _).rank = _
      rw [q3 _ hne]
      rfl
    obtain ⟨b1, b2⟩ := orderedBut_push hord1 c
    have hb : OrderedBut rankLe (pushed p c h_cost).ranks (pushed p c h_cost).openHeap
        (pushed p c h_cost).openListLength ((pushed p c h_cost).cells c).heapIndex := by
      rw [q2]; exact b1
    have hch : ChildOK rankLe (pushed p c h_cost).ranks
        (pushed p c h_cost).openHeap (pushed p c h_cost).openListLength
        ((pushed p c h_cost).cells c).heapIndex := by
      rw [q2]; exact b2
    obtain ⟨m1, ok1⟩ := fdstar_heapUp_heap hok1 c hc
    obtain ⟨u1, u2, u3⟩ := fdstar_heapUp_order hok1 c hc q1 hb
    exact ⟨ok1, fdstar_heapUp_zero hok1 hz1 c hc, ordered_of_parts u1 u2 (u3 hch)⟩

/-- The assignments of `getMinState` to the first cell of the open list when its focus
is not the robot's cell. -/
def refocus (p : Planner) : Planner :=
  let pMin := p.openHeap 1
  let c := p.cells pMin
  let f := uadd c.k_cost (dist c (p.cells p.pRobot))
  let c1 : Cell := { c with f_cost := f, fB_cost := uadd f p.d_curr, pFocus := some p.pRobot }
  { p with cells := upd p.cells pMin c1 }

theorem fdstar_minStateLoop_step (fuel : Nat) (p : Planner) :
    minStateLoop (fuel + 1) p =
      if (p.cells (p.openHeap 1)).pFocus = some p.pRobot then some (p, p.openHeap 1)
      else minStateLoop fuel (heapDown (heapUp (refocus p) (p.openHeap 1)) (p.openHeap 1)) := rfl

/-- The new costs of the first cell in `getMinState`, with `heapUp` and `heapDown`,
keep the open list in order. -/
theorem fdstar_refocus_inv {N : Nat} {p : Planner} (h : HeapInv N p) (hl : 1 ≤ p.openListLength) :
    HeapInv N (heapDown (heapUp (refocus p) (p.openHeap 1)) (p.openHeap 1)) := by
  obtain ⟨f1, f2, f3⟩ : p.openHeap 1 < N ∧ (p.cells (p.openHeap 1)).list = List_Open ∧
      (p.cells (p.openHeap 1)).heapIndex = 1 := h.1.1 1 (le_refl 1) hl
  refine fdstar_resift h _ f1 f2 rfl rfl (fun d => ?_) (fun d hd => ?_)
  · by_cases hd : d = p.openHeap 1
    · rw [hd]
      refine ⟨?_, ?_⟩ <;> simp only [refocus, upd_same]
    · refine ⟨?_, ?_⟩ <;> simp only [refocus, upd_apply, if_neg hd]
  · simp only [refocus, Planner.ranks, upd_apply, if_neg hd]

theorem fdstar_minStateLoop_inv {N : Nat} : ∀ (fuel : Nat) (p p' : Planner) (c : Nat),
    HeapInv N p → 1 ≤ p.openListLength → minStateLoop fuel p = some (p', c) →
    HeapInv N p' ∧ p'.openListLength = p.openListLength ∧ c = p'.openHeap 1
  | 0, _, _, _, _, _, h => by simp [minStateLoop] at h
  | fuel + 1, p, p', c, hi, hl, h => by
    rw [fdstar_minStateLoop_step] at h
    split_ifs at h with hf
    · simp only [Option.some.injEq, Prod.mk.injEq] at h
      obtain ⟨h1, h2⟩ := h
      subst h1
      exact ⟨hi, rfl, h2.symm⟩
    · have hi1 := fdstar_refocus_inv hi hl
      obtain ⟨f1, _, _⟩ : p.openHeap 1 < N ∧ (p.cells (p.openHeap 1)).list = List_Open ∧
          (p.cells (p.openHeap 1)).heapIndex = 1 := hi.1.1 1 (le_refl 1) hl
      have hok0 : HeapOK N (refocus p) := by
        refine fdstar_setCell_heap hi.1 _ _ ?_ ?_ <;> rfl
      obtain ⟨m1, ok1⟩ := fdstar_heapUp_heap hok0 _ f1
      obtain ⟨m2, _⟩ := fdstar_heapDown_heap ok1 _ f1
      have hlen : (heapDown (heapUp (refocus p) (p.openHeap 1)) (p.openHeap 1)).openListLength =
          p.openListLength := by
        rw [m2.len, m1.len]
        rfl
      obtain ⟨r1, r2, r3⟩ := fdstar_minStateLoop_inv fuel _ p' c hi1 (by rw [hlen]; exact hl) h
      exact ⟨r1, r2.trans hlen, r3⟩

/-- `getMinState` keeps the open list in order and returns its first cell. -/
theorem fdstar_getMinState_inv {N : Nat} {p p' : Planner} {c : Option Nat} (hi : HeapInv N p)
    (h : getMinState p = some (p', c)) :
    HeapInv N p' ∧ p'.openListLength = p.openListLength ∧
      (1 ≤ p.openListLength → c = some (p'.openHeap 1)) := by
  unfold getMinState at h
  split_ifs at h with hl
  · cases hm : minStateLoop (p.openListLength + 1) p with
    | none => rw [hm] at h; simp at h
    | some r =>
      rw [hm] at h
      simp only [Option.map_some', Option.some.injEq, Prod.mk.injEq] at h
      obtain ⟨h1, h2⟩ := h
      obtain ⟨r1, r2, r3⟩ := fdstar_minStateLoop_inv _ p r.1 r.2 hi hl hm
      rw [← h1, ← h2]
      exact ⟨r1, r2, fun _ => congrArg some r3⟩
  · simp only [Option.some.injEq, Prod.mk.injEq] at h
    obtain ⟨h1, h2⟩ := h
    subst h1
    exact ⟨hi, rfl, fun hl' => absurd hl' (by omega)⟩

/-- The state of `popMin` before the last `heapDown`: the first cell is closed and the
cell of the last slot has taken the first slot. -/
def taken (p : Planner) : Planner :=
  let pMin := p.openHeap 1
  let p1 : Planner :=
    { p with cells := upd p.cells pMin { p.cells pMin with list := List_Closed, heapIndex := 0 }
             openListLength := p.openListLength - 1 }
  let first := p1.openHeap (p1.openListLength + 1)
  { p1 with openHeap := upd p1.openHeap 1 first
            cells := upd p1.cells first { p1.cells first with heapIndex := 1 } }

/-- The state of `popMin` when the open list had one cell. -/
def closedMin (p : Planner) : Planner :=
  let pMin := p.openHeap 1
  { p with cells := upd p.cells pMin { p.cells pMin with list := List_Closed, heapIndex := 0 }
           openListLength := p.openListLength - 1 }

theorem fdstar_popMin_many (p : Planner) (hl : 2 ≤ p.openListLength) :
    popMin p (p.openHeap 1) = heapDown (taken p) (p.openHeap p.openListLength) := by
  have hne : p.openListLength - 1 ≠ 0 := by omega
  have hlast : p.openListLength - 1 + 1 = p.openListLength := by omega
  unfold popMin taken
  simp only [hlast, upd_same]
  rw [if_pos hne]

theorem fdstar_popMin_one (p : Planner) (hl : p.openListLength = 1) :
    popMin p (p.openHeap 1) = closedMin p := by
  have hne : ¬ (p.openListLength - 1 ≠ 0) := by omega
  unfold popMin closedMin
  simp only
  rw [if_neg hne]

theorem fdstar_taken_cell (p : Planner) (hl : 2 ≤ p.openListLength) (d : Nat) :
    (taken p).ranks d = p.ranks d ∧
    ((taken p).cells d).list = (if d = p.openHeap 1 then List_Closed else (p.cells d).list) ∧
    ((taken p).cells d).heapIndex = (if d = p.openHeap p.openListLength then 1
      else if d = p.openHeap 1 then 0 else (p.cells d).heapIndex) := by
  have hlast : p.openListLength - 1 + 1 = p.openListLength := by omega
  simp only [taken, Planner.ranks, Cell.rank, hlast, upd_apply]
  refine ⟨?_, ?_, ?_⟩ <;> split_ifs <;> simp_all

theorem fdstar_taken_slots (p : Planner) (hl : 2 ≤ p.openListLength) :
    (taken p).openHeap = upd p.openHeap 1 (p.openHeap p.openListLength) ∧
    (taken p).openListLength = p.openListLength - 1 := by
  have hlast : p.openListLength - 1 + 1 = p.openListLength := by omega
  simp only [taken, hlast]
  exact ⟨trivial, trivial⟩

theorem fdstar_closedMin_cell (p : Planner) (d : Nat) :
    (closedMin p).ranks d = p.ranks d ∧
    ((closedMin p).cells d).list = (if d = p.openHeap 1 then List_Closed else (p.cells d).list) ∧
    ((closedMin p).cells d).heapIndex = (if d = p.openHeap 1 then 0 else (p.cells d).heapIndex) := by
  simp only [closedMin, Planner.ranks, Cell.rank, upd_apply]
  refine ⟨?_, ?_, ?_⟩ <;> split_ifs <;> simp_all

/-- The extraction of the first cell at the start of `processState` keeps the open list
in order. -/
theorem fdstar_popMin_inv {N : Nat} {p : Planner} (h : HeapInv N p) (hl : 1 ≤ p.openListLength) :
    HeapInv N (popMin p (p.openHeap 1)) := by
  obtain ⟨hok, hz, hord⟩ := h
  obtain ⟨f1, f2, f3⟩ : p.openHeap 1 < N ∧ (p.cells (p.openHeap 1)).list = List_Open ∧
      (p.cells (p.openHeap 1)).heapIndex = 1 := hok.1 1 (le_refl 1) hl
  by_cases hl2 : 2 ≤ p.openListLength
  · rw [fdstar_popMin_many p hl2]
    show HeapInv N (heapDown (taken p) (p.openHeap p.openListLength))
    obtain ⟨l1, l2, l3⟩ : p.openHeap p.openListLength < N ∧
        (p.cells (p.openHeap p.openListLength)).list = List_Open ∧
        (p.cells (p.openHeap p.openListLength)).heapIndex = p.openListLength :=
      hok.1 _ (by omega) (le_refl _)
    have hne : p.openHeap p.openListLength ≠ p.openHeap 1 := by
      intro he
      have := slotsOK_inj hok _ _ (by omega) (le_refl _) (le_refl 1) hl he
      omega
    have hcell := fdstar_taken_cell p hl2
    obtain ⟨s1, s2⟩ := fdstar_taken_slots p hl2
    have hok2 : HeapOK N (taken p) := by
      unfold HeapOK
      have hpop := slotsOK_pop hok hl2 (fun d => ((taken p).cells d).list = List_Open)
        (fun d _ => by
          show (((taken p).cells d).list = List_Open ↔
            (d ≠ p.openHeap 1 ∧ (p.cells d).list = List_Open))
          rw [(hcell d).2.1]
          by_cases hd : d = p.openHeap 1
          · rw [if_pos hd]; simp [hd]
          · rw [if_neg hd]; simp [hd])
      rw [s1, s2]
      refine slotsOK_congr hpop (fun i _ _ => rfl) (fun d _ hd => ?_)
      show ((taken p).cells d).heapIndex = _
      rw [(hcell d).2.2, upd_apply]
      split_ifs with q1 q2
      · rfl
      · exfalso
        rw [(hcell d).2.1, if_pos q2] at hd
        cases hd
      · rfl
    have hz2 : Zero N (taken p) := by
      intro d hd hlist
      rw [(hcell d).2.1] at hlist
      rw [(hcell d).2.2]
      by_cases q : d = p.openHeap 1
      · rw [if_neg (fun e => hne (e.symm.trans q)), if_pos q]
      · rw [if_neg q] at hlist
        rw [if_neg (fun e : d = p.openHeap p.openListLength => hlist (by rw [e]; exact l2)), if_neg q]
        exact hz d hd hlist
    have hlo : ((taken p).cells (p.openHeap p.openListLength)).list = List_Open := by
      rw [(hcell _).2.1, if_neg hne]; exact l2
    have hli : ((taken p).cells (p.openHeap p.openListLength)).heapIndex = 1 := by
      rw [(hcell _).2.2, if_pos rfl]
    have hks : (taken p).ranks = p.ranks := funext fun d => (hcell d).1
    have hb : OrderedBut rankLe (taken p).ranks (taken p).openHeap
        (taken p).openListLength ((taken p).cells (p.openHeap p.openListLength)).heapIndex := by
      rw [hli, hks, s1, s2]
      exact orderedBut_take fdstar_tests hord 1 (by omega)
    have hp : ParentOK rankLe (taken p).ranks (taken p).openHeap
        ((taken p).cells (p.openHeap p.openListLength)).heapIndex := by
      rw [hli]
      intro h2
      omega
    obtain ⟨m, ok3⟩ := fdstar_heapDown_heap hok2 _ l1
    obtain ⟨d1, d2, d3⟩ := fdstar_heapDown_order hok2 _ l1 hlo hb
    exact ⟨ok3, fdstar_heapDown_zero hok2 hz2 _ l1, ordered_of_parts d1 (d3 hp) d2⟩
  · have hl1 : p.openListLength = 1 := by omega
    rw [fdstar_popMin_one p hl1]
    show HeapInv N (closedMin p)
    have hcell := fdstar_closedMin_cell p
    have e0 : (closedMin p).openListLength = 0 := by
      show p.openListLength - 1 = 0
      omega
    have hmem : ∀ d, d < N → (((closedMin p).cells d).list = List_Open ↔
        (d ≠ p.openHeap 1 ∧ (p.cells d).list = List_Open)) := by
      intro d _
      rw [(hcell d).2.1]
      by_cases hd : d = p.openHeap 1
      · rw [if_pos hd]; simp [hd]
      · rw [if_neg hd]; simp [hd]
    refine ⟨?_, ?_, ?_⟩
    · unfold HeapOK
      have h' : SlotsOK N p.openHeap (fun c => (p.cells c).heapIndex) 1
          (fun c => (p.cells c).list = List_Open) := by
        have := hok
        unfold HeapOK at this
        rw [hl1] at this
        exact this
      rw [e0]
      exact slotsOK_pop_last h' _ hmem _ _
    · intro d hd hlist
      rw [(hcell d).2.1] at hlist
      rw [(hcell d).2.2]
      by_cases q : d = p.openHeap 1
      · rw [if_pos q]
      · rw [if_neg q] at hlist ⊢
        exact hz d hd hlist
    · rw [e0]
      intro j j1 j2
      omega

/-- The map as `initMap` leaves it has an empty open list, which is in order. -/
theorem fdstar_initMap_heapInv (old : Planner) (m : GridMap) :
    HeapInv (m.width * m.height) (initMap old m) := by
  refine ⟨⟨fun i h1 h2 => ?_, fun c _ hm => ?_⟩, fun c _ _ => ?_, fun j j1 j2 => ?_⟩
  · have : (initMap old m).openListLength = 0 := rfl
    omega
  · have hm' : ((initMap old m).cells c).list = List_Open := hm
    have : ((initMap old m).cells c).list = List_New := rfl
    rw [this] at hm'
    cases hm'
  · rfl
  · have : (initMap old m).openListLength = 0 := rfl
    omega

/-- The invariant of the open heap of Focussed D* in the words of the specification: the
cell in a slot is not above (`Cell::operator>=` holds for the child) the cells in those
of its two child slots that exist, every slot `1 .. openListLength` holds a cell of the
map that is on the open list and whose `heapIndex` is the slot, the `heapIndex` of every
cell on the open list is its slot, and every cell of the map that is not on the open list
has `heapIndex` 0. -/
def HeapInvariant (N : Nat) (p : Planner) : Prop :=
  (∀ i, 1 ≤ i → i ≤ p.openListLength →
    (2 * i ≤ p.openListLength → Cell.ge (p.at (2 * i)) (p.at i) = true) ∧
    (2 * i + 1 ≤ p.openListLength → Cell.ge (p.at (2 * i + 1)) (p.at i) = true)) ∧
  (∀ i, 1 ≤ i → i ≤ p.openListLength →
    p.openHeap i < N ∧ (p.cells (p.openHeap i)).list = List_Open ∧
      (p.cells (p.openHeap i)).heapIndex = i) ∧
  (∀ c, c < N → (p.cells c).list = List_Open →
    1 ≤ (p.cells c).heapIndex ∧ (p.cells c).heapIndex ≤ p.openListLength ∧
      p.openHeap (p.cells c).heapIndex = c) ∧
  (∀ c, c < N → (p.cells c).list ≠ List_Open → (p.cells c).heapIndex = 0)

theorem fdstar_heapInvariant_iff (N : Nat) (p : Planner) : HeapInvariant N p ↔ HeapInv N p := by
  have hge : ∀ a b : Cell, Cell.ge a b = true ↔ rankLe b.rank a.rank := by
    intro a b
    unfold rankLe
    rw [← fdstar_lt_rank]
    unfold Cell.ge
    cases Cell.lt a b <;> simp
  constructor
  · rintro ⟨h1, h2, h3, h4⟩
    refine ⟨⟨h2, h3⟩, h4,
      (ordered_iff_children rankLe p.ranks p.openHeap p.openListLength).2 (fun i i1 i2 => ?_)⟩
    obtain ⟨b1, b2⟩ := h1 i i1 i2
    exact ⟨fun h => (hge _ _).1 (b1 h), fun h => (hge _ _).1 (b2 h)⟩
  · rintro ⟨⟨h2, h3⟩, h4, h1⟩
    refine ⟨fun i i1 i2 => ?_, h2, h3, h4⟩
    obtain ⟨b1, b2⟩ :=
      (ordered_iff_children rankLe p.ranks p.openHeap p.openListLength).1 h1 i i1 i2
    exact ⟨fun h => (hge _ _).2 (b1 h), fun h => (hge _ _).2 (b2 h)⟩

end FocussedDStar

end RasterSim

namespace RasterSim

/-! ## Focussed D*: planning from scratch when no chain of free cells joins start and goal -/

namespace FocussedDStar

open ListType

/-- The part of the state that a run of the planner leaves alone agrees with the map. -/
structure Static (m : GridMap) (p : Planner) : Prop where
  width : p.width = m.width
  height : p.height = m.height
  xy : ∀ c, c < m.width * m.height → (p.cells c).x = c % m.width ∧ (p.cells c).y = c / m.width
  blocked : ∀ c, c < m.width * m.height →
    ((p.cells c).blocked = true ↔ m.pixel (c % m.width) (c / m.width) > 0)

theorem fdstar_static_of_core {m : GridMap} {p p' : Planner} (h : Static m p)
    (hw : p'.width = p.width) (hh : p'.height = p.height)
    (hx : ∀ c, (p'.cells c).x = (p.cells c).x) (hy : ∀ c, (p'.cells c).y = (p.cells c).y)
    (hb : ∀ c, (p'.cells c).blocked = (p.cells c).blocked) : Static m p' :=
  ⟨hw.trans h.width, hh.trans h.height, fun c hc => by rw [hx, hy]; exact h.xy c hc,
    fun c hc => by rw [hb]; exact h.blocked c hc⟩

/-- The entries of the neighbour list of a cell of the map: other cells of the map,
adjacent to it, with the arc cost of the map. -/
theorem fdstar_neighbors_static {m : GridMap} {p : Planner} (h : Static m p) (pMin n c : Nat)
    (hp : pMin < m.width * m.height) (hm : (n, c) ∈ p.neighbors pMin) :
    n < m.width * m.height ∧ n ≠ pMin ∧ c = arcCost 5 7 m pMin n ∧
      Adjacent (posOf m.width pMin) (posOf m.width n) := by
  unfold Planner.neighbors at hm
  obtain ⟨h1, h2⟩ := neighborsWithCost_mem _ _ _ _ _ _ _ _ _ _ hm
  have h3 := neighborsWithCost_cost _ _ _ _ _ _ _ _ _ _ hm
  rw [h.width, h.height] at h1
  rw [h.width, (h.xy pMin hp).1, (h.xy pMin hp).2] at h2
  simp only [h.width, (h.xy pMin hp).1, (h.xy pMin hp).2] at h3
  refine ⟨h1, ?_, ?_, h2⟩
  · intro he
    rw [he] at h2
    exact h2.1 rfl
  · rw [h3]
    unfold arcCost
    have b1 := h.blocked n h1
    have b2 := h.blocked pMin hp
    by_cases c1 : (p.cells n).blocked = true
    · simp [c1, b1.1 c1]
    · by_cases c2 : (p.cells pMin).blocked = true
      · simp [c2, b2.1 c2]
      · have e1 : ¬ m.pixel (n % m.width) (n / m.width) > 0 := fun hh => c1 (b1.2 hh)
        have e2 : ¬ m.pixel (pMin % m.width) (pMin / m.width) > 0 := fun hh => c2 (b2.2 hh)
        simp only [c1, c2, e1, e2, or_self, if_false]
        rfl

theorem fdstar_arcCost_cases (m : GridMap) (a b : Nat) :
    (arcCost 5 7 m a b = 2000000000 ∧
      (m.pixel (b % m.width) (b / m.width) > 0 ∨ m.pixel (a % m.width) (a / m.width) > 0)) ∨
    ((arcCost 5 7 m a b = 5 ∨ arcCost 5 7 m a b = 7) ∧
      ¬ m.pixel (b % m.width) (b / m.width) > 0 ∧ ¬ m.pixel (a % m.width) (a / m.width) > 0) := by
  unfold arcCost
  split_ifs with h1 h2
  · exact Or.inl ⟨rfl, h1⟩
  · push_neg at h1; exact Or.inr ⟨Or.inr rfl, by omega, by omega⟩
  · push_neg at h1; exact Or.inr ⟨Or.inl rfl, by omega, by omega⟩

theorem fdstar_arcPlus_mono (a h1 h2 : Nat) (h : h1 ≤ h2) (hb : h2 < 2000000014) :
    arcPlus a h1 ≤ arcPlus a h2 := by
  unfold arcPlus uadd OBSTACLE_COST
  split_ifs with ha
  · rw [Nat.mod_eq_of_lt (by omega), Nat.mod_eq_of_lt (by omega)]
    omega
  · exact le_refl _

/-- The invariant of a run from scratch: see `DStar.Scratch`. -/
structure Scratch (m : GridMap) (pGoal : Nat) (p : Planner) : Prop where
  static : Static m p
  heap : HeapOK (m.width * m.height) p
  kh : ∀ c, c < m.width * m.height → (p.cells c).list = List_Open →
    (p.cells c).k_cost = (p.cells c).h_cost
  back : ∀ c b, c < m.width * m.height → (p.cells c).backPtr = some b →
    (p.cells c).list ≠ List_New ∧ b < m.width * m.height ∧ (p.cells b).list ≠ List_New ∧
      arcPlus (arcCost 5 7 m b c) (p.cells b).h_cost ≤ (p.cells c).h_cost
  hbound : ∀ c, c < m.width * m.height → (p.cells c).list ≠ List_New →
    (p.cells c).h_cost < 2000000014
  obst : ∀ c, c < m.width * m.height → (p.cells c).list ≠ List_New →
    (p.cells c).blocked = true → 2000000000 ≤ (p.cells c).h_cost
  conn : ∀ c, c < m.width * m.height → (p.cells c).list ≠ List_New →
    (p.cells c).blocked = false → Connected m (posOf m.width pGoal) (posOf m.width c)

/-- Every cell on the open list carries the current position of the robot as its
focus. -/
def Focused (N : Nat) (p : Planner) : Prop :=
  ∀ c, c < N → (p.cells c).list = List_Open → (p.cells c).pFocus = some p.pRobot

/-- The weight of a cell in the potential: its `h_cost`, or `2^32` while it is new. -/
def weight (p : Planner) (c : Nat) : Nat :=
  if (p.cells c).list = List_New then 4294967296 else (p.cells c).h_cost

/-- The quantity that every round of `processState` lowers in a run from scratch. -/
def potential (N : Nat) (p : Planner) : Nat := 2 * sumBelow (weight p) N + p.openListLength

theorem fdstar_freeCell {m : GridMap} {p : Planner} (h : Static m p) (c : Nat)
    (hc : c < m.width * m.height) (hb : (p.cells c).blocked = false) :
    FreeCell m (posOf m.width c) := by
  have hw0 : 0 < m.width := by
    rcases Nat.eq_zero_or_pos m.width with h0 | h0
    · rw [h0] at hc; simp at hc
    · exact h0
  refine ⟨Nat.mod_lt _ hw0, (Nat.div_lt_iff_lt_mul hw0).2 (by rw [Nat.mul_comm]; exact hc), ?_⟩
  by_contra hne
  have : m.pixel (c % m.width) (c / m.width) > 0 := by
    unfold posOf at hne; simp only at hne; omega
  have := (h.blocked c hc).2 this
  rw [hb] at this
  cases this

/-- The invariant and the potential read only the size, the open list and the fields
`backPtr`, `x`, `y`, `list`, `blocked`, `h_cost` and `k_cost` of the cells. -/
theorem fdstar_scratch_congr {m : GridMap} {pGoal : Nat} {p p' : Planner} (hS : Scratch m pGoal p)
    (hok : HeapOK (m.width * m.height) p') (hw : p'.width = p.width) (hh : p'.height = p.height)
    (hlen : p'.openListLength = p.openListLength)
    (hb : ∀ c, (p'.cells c).backPtr = (p.cells c).backPtr)
    (hx : ∀ c, (p'.cells c).x = (p.cells c).x) (hy : ∀ c, (p'.cells c).y = (p.cells c).y)
    (hl : ∀ c, (p'.cells c).list = (p.cells c).list)
    (hbl : ∀ c, (p'.cells c).blocked = (p.cells c).blocked)
    (hhc : ∀ c, (p'.cells c).h_cost = (p.cells c).h_cost)
    (hk : ∀ c, (p'.cells c).k_cost = (p.cells c).k_cost) :
    Scratch m pGoal p' ∧ potential (m.width * m.height) p' = potential (m.width * m.height) p := by
  refine ⟨⟨fdstar_static_of_core hS.static hw hh hx hy hbl, hok, ?_, ?_, ?_, ?_, ?_⟩, ?_⟩
  · intro c hc ho
    rw [hl] at ho
    rw [hk, hhc]
    exact hS.kh c hc ho
  · intro c b hc hbp
    rw [hb] at hbp
    rw [hl, hl, hhc, hhc]
    exact hS.back c b hc hbp
  · intro c hc hn
    rw [hl] at hn
    rw [hhc]
    exact hS.hbound c hc hn
  · intro c hc hn hb'
    rw [hl] at hn
    rw [hbl] at hb'
    rw [hhc]
    exact hS.obst c hc hn hb'
  · intro c hc hn hb'
    rw [hl] at hn
    rw [hbl] at hb'
    exact hS.conn c hc hn hb'
  · unfold potential
    rw [hlen, sumBelow_congr (weight p') (weight p) _ (fun c _ => by unfold weight; rw [hl, hhc])]

/-- One neighbour of a closed free cell `pMin` takes `pMin` as its backpointer and a
lower `h_cost`: the invariant is kept and the potential falls. -/
theorem fdstar_adopt_scratch {m : GridMap} {pGoal : Nat} {p : Planner} (hS : Scratch m pGoal p)
    (hF : Focused (m.width * m.height) p)
    (pMin nb : Nat) (hpMin : pMin < m.width * m.height) (hnb : nb < m.width * m.height)
    (hne : nb ≠ pMin) (hcl : (p.cells pMin).list = List_Closed)
    (hfree : (p.cells pMin).blocked = false) (hh : (p.cells pMin).h_cost < 2000000000)
    (hadj : Adjacent (posOf m.width pMin) (posOf m.width nb))
    (hlow : (p.cells nb).list = List_New ∨
      arcPlus (arcCost 5 7 m pMin nb) (p.cells pMin).h_cost < (p.cells nb).h_cost) :
    Scratch m pGoal (adopt p pMin nb (arcPlus (arcCost 5 7 m pMin nb) (p.cells pMin).h_cost)) ∧
      Focused (m.width * m.height)
        (adopt p pMin nb (arcPlus (arcCost 5 7 m pMin nb) (p.cells pMin).h_cost)) ∧
      potential (m.width * m.height)
        (adopt p pMin nb (arcPlus (arcCost 5 7 m pMin nb) (p.cells pMin).h_cost)) + 1 ≤
        potential (m.width * m.height) p ∧
      ((adopt p pMin nb (arcPlus (arcCost 5 7 m pMin nb) (p.cells pMin).h_cost)).cells pMin).core =
        (p.cells pMin).core ∧
      (adopt p pMin nb (arcPlus (arcCost 5 7 m pMin nb) (p.cells pMin).h_cost)).pRobot = p.pRobot ∧
      (adopt p pMin nb (arcPlus (arcCost 5 7 m pMin nb) (p.cells pMin).h_cost)).fullInit =
        p.fullInit := by
  set hnew := arcPlus (arcCost 5 7 m pMin nb) (p.cells pMin).h_cost with hhnew
  have ins := fdstar_insert_spec
    (fdstar_setCell_heap hS.heap nb { p.cells nb with backPtr := some pMin } rfl rfl) nb hnb hnew
  have e0 : ∀ d, d ≠ nb →
      ((upd p.cells nb { p.cells nb with backPtr := some pMin }) d).core = (p.cells d).core :=
    fun d hd => by rw [upd_other _ _ _ _ hd]
  set p' := adopt p pMin nb hnew with hp'
  have hother : ∀ d, d ≠ nb → (p'.cells d).core = (p.cells d).core := fun d hd =>
    (ins.other d hd).trans (e0 d hd)
  -- the new values of the neighbour
  have hbnd : hnew < 2000000014 ∧ ((p.cells nb).blocked = true → 2000000000 ≤ hnew) := by
    have hb := hS.static.blocked nb hnb
    have hb2 := hS.static.blocked pMin hpMin
    rw [hhnew]
    unfold arcPlus uadd OBSTACLE_COST
    rcases fdstar_arcCost_cases m pMin nb with ⟨c1, c2⟩ | ⟨c1, c2, c3⟩
    · rw [c1]
      simp
    · constructor
      · rcases c1 with c1 | c1 <;> rw [c1] <;> simp <;> omega
      · intro hbl
        exact absurd (hb.1 hbl) c2
  have hk : insertK { p.cells nb with backPtr := some pMin } hnew = hnew := by
    unfold insertK
    show (if (p.cells nb).list = List_Open then
        (if hnew < (p.cells nb).k_cost then hnew else (p.cells nb).k_cost)
      else if (p.cells nb).list = List_New then hnew else min (p.cells nb).h_cost hnew) = hnew
    split_ifs with h1 h2 h3
    · rfl
    · rcases hlow with h4 | h4
      · rw [h1] at h4; cases h4
      · rw [hS.kh nb hnb h1] at h2
        exact absurd h4 h2
    · rfl
    · rcases hlow with h4 | h4
      · exact absurd h4 h3
      · exact Nat.min_eq_right (le_of_lt h4)
  have eN : (upd p.cells nb { p.cells nb with backPtr := some pMin }) nb =
      { p.cells nb with backPtr := some pMin } := upd_same _ _ _
  have n1 : (p'.cells nb).backPtr = some pMin := by
    have := ins.c_back
    simp only [upd_same] at this
    exact this
  have n2 : (p'.cells nb).x = (p.cells nb).x := by
    have := ins.c_x
    simp only [upd_same] at this
    exact this
  have n3 : (p'.cells nb).y = (p.cells nb).y := by
    have := ins.c_y
    simp only [upd_same] at this
    exact this
  have n4 : (p'.cells nb).h_cost = hnew := ins.c_h
  have n5 : (p'.cells nb).k_cost = hnew := by
    have := ins.c_k
    simp only [upd_same] at this
    exact this.trans hk
  have n6 : (p'.cells nb).blocked = (p.cells nb).blocked := by
    have := ins.c_blocked
    simp only [upd_same] at this
    exact this
  have n7 : (p'.cells nb).list = List_Open := ins.c_list
  have n8 : (p'.cells nb).pFocus = some p.pRobot := ins.c_focus
  have hrob : p'.pRobot = p.pRobot := ins.pRobot
  have hlist : ∀ d, (p'.cells d).list ≠ List_New ↔ (d = nb ∨ (p.cells d).list ≠ List_New) := by
    intro d
    by_cases hd : d = nb
    · rw [hd, n7]; simp
    · rw [fdstar_core_list (hother d hd)]; simp [hd]
  have hmin : (p'.cells pMin).core = (p.cells pMin).core := hother pMin (fun e => hne e.symm)
  have hstat : Static m p' := by
    refine fdstar_static_of_core hS.static ins.width ins.height (fun c => ?_) (fun c => ?_) (fun c => ?_)
    · by_cases hc : c = nb
      · rw [hc, n2]
      · rw [fdstar_core_x (hother c hc)]
    · by_cases hc : c = nb
      · rw [hc, n3]
      · rw [fdstar_core_y (hother c hc)]
    · by_cases hc : c = nb
      · rw [hc, n6]
      · rw [fdstar_core_blocked (hother c hc)]
  refine ⟨⟨hstat, ins.heap, ?_, ?_, ?_, ?_, ?_⟩, ?_, ?_, hmin, hrob, ins.fullInit⟩
  · -- k = h on the open list
    intro c hc hopen
    by_cases hcn : c = nb
    · rw [hcn, n4, n5]
    · rw [fdstar_core_list (hother c hcn)] at hopen
      rw [fdstar_core_k (hother c hcn), fdstar_core_h (hother c hcn)]
      exact hS.kh c hc hopen
  · -- backpointers
    intro c b hc hb
    by_cases hcn : c = nb
    · rw [hcn, n1] at hb
      cases hb
      rw [hcn]
      refine ⟨(hlist nb).2 (Or.inl rfl), hpMin, ?_, ?_⟩
      · rw [fdstar_core_list hmin, hcl]; simp
      · rw [fdstar_core_h hmin, n4]
    · rw [fdstar_core_backPtr (hother c hcn)] at hb
      obtain ⟨b1, b2, b3, b4⟩ := hS.back c b hc hb
      refine ⟨(hlist c).2 (Or.inr b1), b2, (hlist b).2 (Or.inr b3), ?_⟩
      rw [fdstar_core_h (hother c hcn)]
      by_cases hbn : b = nb
      · rw [hbn, n4]
        rw [hbn] at b3 b4
        rcases hlow with h4 | h4
        · exact absurd h4 b3
        · exact le_trans (fdstar_arcPlus_mono _ _ _ (le_of_lt h4) (hS.hbound nb hnb b3)) b4
      · rw [fdstar_core_h (hother b hbn)]
        exact b4
  · -- the bound on h
    intro c hc hl
    by_cases hcn : c = nb
    · rw [hcn, n4]; exact hbnd.1
    · rw [fdstar_core_h (hother c hcn)]
      rw [fdstar_core_list (hother c hcn)] at hl
      exact hS.hbound c hc hl
  · -- blocked cells
    intro c hc hl hb
    by_cases hcn : c = nb
    · rw [hcn, n4]
      rw [hcn, n6] at hb
      exact hbnd.2 hb
    · rw [fdstar_core_h (hother c hcn)]
      rw [fdstar_core_list (hother c hcn)] at hl
      rw [fdstar_core_blocked (hother c hcn)] at hb
      exact hS.obst c hc hl hb
  · -- free cells are joined to the goal
    intro c hc hl hb
    by_cases hcn : c = nb
    · rw [hcn]
      rw [hcn, n6] at hb
      have h1 := hS.conn pMin hpMin (by rw [hcl]; simp) hfree
      exact connected_extend m _ _ _ h1 hadj (fdstar_freeCell hS.static nb hnb hb)
    · rw [fdstar_core_list (hother c hcn)] at hl
      rw [fdstar_core_blocked (hother c hcn)] at hb
      exact hS.conn c hc hl hb
  · -- the focus
    intro c hc ho
    rw [hrob]
    by_cases hcn : c = nb
    · rw [hcn, n8]
    · rw [fdstar_core_list (hother c hcn)] at ho
      rw [fdstar_core_pFocus (hother c hcn)]
      exact hF c hc ho
  · -- the potential
    unfold potential
    have hsum := sumBelow_lt (weight p') (weight p) nb 1 (m.width * m.height)
      (fun c _ => by
        unfold weight
        by_cases hcn : c = nb
        · rw [hcn, n7, n4, if_neg (by decide)]
          split_ifs with h5
          · have := hbnd.1; omega
          · rcases hlow with h4 | h4
            · exact absurd h4 h5
            · exact le_of_lt h4
        · rw [fdstar_core_list (hother c hcn), fdstar_core_h (hother c hcn)])
      hnb (by
        unfold weight
        rw [n7, n4, if_neg (by decide)]
        split_ifs with h5
        · have := hbnd.1; omega
        · rcases hlow with h4 | h4
          · exact absurd h4 h5
          · exact h4)
    have hlen : p'.openListLength ≤ p.openListLength + 1 := by
      have hl : p'.openListLength = _ := ins.len
      rw [hl]
      split_ifs
      · exact Nat.le_succ _
      · exact le_refl _
    omega

/-- The neighbours of a closed free cell with `k = h` below the obstacle cost are
worked through (lines 380-390): the invariant is kept, the potential does not rise. -/
theorem fdstar_propagateLower_scratch {m : GridMap} {pGoal : Nat} {p : Planner}
    (hS : Scratch m pGoal p) (hF : Focused (m.width * m.height) p)
    (pMin : Nat) (hpMin : pMin < m.width * m.height)
    (hcl : (p.cells pMin).list = List_Closed) (hfree : (p.cells pMin).blocked = false)
    (hh : (p.cells pMin).h_cost < 2000000000) (nbs : List (Nat × Nat))
    (hnbs : ∀ nb, nb ∈ nbs → nb.1 < m.width * m.height ∧ nb.1 ≠ pMin ∧
      nb.2 = arcCost 5 7 m pMin nb.1 ∧ Adjacent (posOf m.width pMin) (posOf m.width nb.1)) :
    Scratch m pGoal (propagateLower p pMin nbs) ∧
      Focused (m.width * m.height) (propagateLower p pMin nbs) ∧
      potential (m.width * m.height) (propagateLower p pMin nbs) ≤ potential (m.width * m.height) p ∧
      (propagateLower p pMin nbs).pRobot = p.pRobot ∧
      (propagateLower p pMin nbs).fullInit = p.fullInit := by
  unfold propagateLower
  have key := foldl_keeps
    (fun q : Planner => Scratch m pGoal q ∧ Focused (m.width * m.height) q ∧
      potential (m.width * m.height) q ≤ potential (m.width * m.height) p ∧
      (q.cells pMin).core = (p.cells pMin).core ∧ q.pRobot = p.pRobot ∧ q.fullInit = p.fullInit)
    (fun (p : Planner) (nb : Nat × Nat) =>
      if (p.cells nb.1).list = List_New ∨
          (p.cells nb.1).h_cost > arcPlus nb.2 (p.cells pMin).h_cost ∨
          ((p.cells nb.1).backPtr = some pMin ∧
            (p.cells nb.1).h_cost ≠ arcPlus nb.2 (p.cells pMin).h_cost) then
        adopt p pMin nb.1 (arcPlus nb.2 (p.cells pMin).h_cost)
      else p)
    nbs p
    (fun q nb hnb ⟨hq, hfq, hpot, hcore, hrob, hfi⟩ => by
      obtain ⟨g1, g2, g3, g4⟩ := hnbs nb hnb
      simp only
      split_ifs with hc
      · rw [g3]
        rw [g3] at hc
        have hlow : (q.cells nb.1).list = List_New ∨
            arcPlus (arcCost 5 7 m pMin nb.1) (q.cells pMin).h_cost < (q.cells nb.1).h_cost := by
          rcases hc with hc | hc | ⟨hc1, hc2⟩
          · exact Or.inl hc
          · exact Or.inr hc
          · right
            have := (hq.back nb.1 pMin g1 hc1).2.2.2
            omega
        obtain ⟨r1, r2, r3, r4, r5, r6⟩ := fdstar_adopt_scratch hq hfq pMin nb.1 hpMin g1 g2
          (by rw [fdstar_core_list hcore]; exact hcl)
          (by rw [fdstar_core_blocked hcore]; exact hfree)
          (by rw [fdstar_core_h hcore]; exact hh) g4 hlow
        exact ⟨r1, r2, by omega, r4.trans hcore, r5.trans hrob, r6.trans hfi⟩
      · exact ⟨hq, hfq, hpot, hcore, hrob, hfi⟩)
    ⟨hS, hF, le_refl _, rfl, rfl, rfl⟩
  exact ⟨key.1, key.2.1, key.2.2.1, key.2.2.2.2.1, key.2.2.2.2.2⟩

/-- Taking the first cell off the open list keeps the invariant; the potential falls
by one. -/
theorem fdstar_popped_scratch {m : GridMap} {pGoal : Nat} {p p' : Planner} (hS : Scratch m pGoal p)
    (hF : Focused (m.width * m.height) p)
    (pMin : Nat) (hP : Popped (m.width * m.height) p p' pMin)
    (hopen : (p.cells pMin).list = List_Open) :
    Scratch m pGoal p' ∧ Focused (m.width * m.height) p' ∧
      potential (m.width * m.height) p' + 1 = potential (m.width * m.height) p := by
  have hb : ∀ d, (p'.cells d).backPtr = (p.cells d).backPtr := fun d => by
    by_cases hd : d = pMin
    · rw [hd, hP.c_back]
    · exact fdstar_core_backPtr (hP.other d hd)
  have hx : ∀ d, (p'.cells d).x = (p.cells d).x := fun d => by
    by_cases hd : d = pMin
    · rw [hd, hP.c_x]
    · exact fdstar_core_x (hP.other d hd)
  have hy : ∀ d, (p'.cells d).y = (p.cells d).y := fun d => by
    by_cases hd : d = pMin
    · rw [hd, hP.c_y]
    · exact fdstar_core_y (hP.other d hd)
  have hh : ∀ d, (p'.cells d).h_cost = (p.cells d).h_cost := fun d => by
    by_cases hd : d = pMin
    · rw [hd, hP.c_h]
    · exact fdstar_core_h (hP.other d hd)
  have hk : ∀ d, (p'.cells d).k_cost = (p.cells d).k_cost := fun d => by
    by_cases hd : d = pMin
    · rw [hd, hP.c_k]
    · exact fdstar_core_k (hP.other d hd)
  have hbl : ∀ d, (p'.cells d).blocked = (p.cells d).blocked := fun d => by
    by_cases hd : d = pMin
    · rw [hd, hP.c_blocked]
    · exact fdstar_core_blocked (hP.other d hd)
  have hnew : ∀ d, (p'.cells d).list = List_New ↔ (p.cells d).list = List_New := fun d => by
    by_cases hd : d = pMin
    · rw [hd, hP.c_list, hopen]; simp
    · rw [fdstar_core_list (hP.other d hd)]
  have hop : ∀ d, (p'.cells d).list = List_Open → (p.cells d).list = List_Open ∧ d ≠ pMin :=
    fun d ho => by
      by_cases hd : d = pMin
      · rw [hd, hP.c_list] at ho; cases ho
      · rw [fdstar_core_list (hP.other d hd)] at ho; exact ⟨ho, hd⟩
  refine ⟨⟨fdstar_static_of_core hS.static hP.width hP.height hx hy hbl, hP.heap, ?_, ?_, ?_, ?_, ?_⟩,
    ?_, ?_⟩
  · intro c hc ho
    rw [hk, hh]
    exact hS.kh c hc (hop c ho).1
  · intro c b hc hbp
    rw [hb] at hbp
    obtain ⟨b1, b2, b3, b4⟩ := hS.back c b hc hbp
    rw [hh, hh]
    exact ⟨fun e => b1 ((hnew c).1 e), b2, fun e => b3 ((hnew b).1 e), b4⟩
  · intro c hc hl
    rw [hh]
    exact hS.hbound c hc (fun e => hl ((hnew c).2 e))
  · intro c hc hl hb'
    rw [hh]
    rw [hbl] at hb'
    exact hS.obst c hc (fun e => hl ((hnew c).2 e)) hb'
  · intro c hc hl hb'
    rw [hbl] at hb'
    exact hS.conn c hc (fun e => hl ((hnew c).2 e)) hb'
  · intro c hc ho
    obtain ⟨o1, o2⟩ := hop c ho
    rw [fdstar_core_pFocus (hP.other c o2), hP.pRobot]
    exact hF c hc o1
  · unfold potential
    have := sumBelow_congr (weight p') (weight p) (m.width * m.height) (fun c _ => by
      unfold weight
      rw [hh]
      by_cases hn : (p.cells c).list = List_New
      · rw [if_pos hn, if_pos ((hnew c).2 hn)]
      · rw [if_neg hn, if_neg (fun e => hn ((hnew c).1 e))])
    have := hP.len
    omega

/-- `getMinState` on a focussed open list returns its first cell and changes nothing. -/
theorem fdstar_getMinState_focused {N : Nat} {p : Planner} (hok : HeapOK N p) (hF : Focused N p)
    (hl : 1 ≤ p.openListLength) : getMinState p = some (p, some (p.openHeap 1)) := by
  obtain ⟨a1, a2, _⟩ := hok.1 1 (le_refl 1) hl
  unfold getMinState
  rw [if_pos (by omega)]
  unfold minStateLoop
  rw [if_pos (hF _ a1 a2)]
  rfl

/-- `getMinVal` on a focussed open list. -/
theorem fdstar_getMinVal_focused {N : Nat} {p : Planner} (hok : HeapOK N p) (hF : Focused N p) :
    ∃ val, getMinVal p = some (p, val) ∧
      (p.openListLength = 0 ∨ val.c2 = (p.cells (p.openHeap 1)).k_cost) := by
  by_cases hl : p.openListLength = 0
  · refine ⟨Cost.noVal, ?_, Or.inl hl⟩
    unfold getMinVal getMinState
    rw [if_neg (by omega)]
    rfl
  · refine ⟨{ c1 := (p.cells (p.openHeap 1)).f_cost, c2 := (p.cells (p.openHeap 1)).k_cost }, ?_,
      Or.inr rfl⟩
    unfold getMinVal
    rw [fdstar_getMinState_focused hok hF (by omega)]
    rfl

/-- `getMinState` on an open list of one cell: the cell gets the focus. -/
theorem fdstar_getMinState_single {m : GridMap} {pGoal : Nat} {p : Planner} (hS : Scratch m pGoal p)
    (hl : p.openListLength = 1) :
    ∃ p', getMinState p = some (p', some (p'.openHeap 1)) ∧ Scratch m pGoal p' ∧
      Focused (m.width * m.height) p' ∧
      potential (m.width * m.height) p' = potential (m.width * m.height) p ∧
      p'.openListLength = 1 ∧
      (p'.cells (p'.openHeap 1)).k_cost = (p.cells (p.openHeap 1)).k_cost ∧
      p'.fullInit = p.fullInit := by
  obtain ⟨a1, a2, a3⟩ := hS.heap.1 1 (le_refl 1) (by omega)
  have honly : ∀ c, c < m.width * m.height → (p.cells c).list = List_Open → c = p.openHeap 1 := by
    intro c hc ho
    obtain ⟨b1, b2, b3⟩ := hS.heap.2 c hc ho
    have : (p.cells c).heapIndex = 1 := by
      have b1' : 1 ≤ (p.cells c).heapIndex := b1
      have b2' : (p.cells c).heapIndex ≤ p.openListLength := b2
      omega
    have b3' : p.openHeap (p.cells c).heapIndex = c := b3
    rw [this] at b3'
    exact b3'.symm
  by_cases hfoc : (p.cells (p.openHeap 1)).pFocus = some p.pRobot
  · refine ⟨p, ?_, hS, ?_, rfl, hl, rfl, rfl⟩
    · unfold getMinState
      rw [if_pos (by omega)]
      unfold minStateLoop
      rw [if_pos hfoc]
      rfl
    · intro c hc ho
      rw [honly c hc ho]
      exact hfoc
  · -- the cell is refocussed; the heap of one cell does not move
    obtain ⟨p1, hp1, hcells, w1, w2, w3, w4, w5, w6⟩ : ∃ p1 : Planner,
        getMinState p = (minStateLoop 1 p1).map (fun r => (r.1, some r.2)) ∧
        p1.cells = upd p.cells (p.openHeap 1) { p.cells (p.openHeap 1) with
          f_cost := uadd (p.cells (p.openHeap 1)).k_cost
            (dist (p.cells (p.openHeap 1)) (p.cells p.pRobot)),
          fB_cost := uadd (uadd (p.cells (p.openHeap 1)).k_cost
            (dist (p.cells (p.openHeap 1)) (p.cells p.pRobot))) p.d_curr,
          pFocus := some p.pRobot } ∧
        p1.width = p.width ∧ p1.height = p.height ∧ p1.openListLength = p.openListLength ∧
        p1.openHeap = p.openHeap ∧ p1.pRobot = p.pRobot ∧ p1.fullInit = p.fullInit := by
      refine ⟨{ p with cells := upd p.cells (p.openHeap 1) { p.cells (p.openHeap 1) with f_cost := uadd (p.cells (p.openHeap 1)).k_cost (dist (p.cells (p.openHeap 1)) (p.cells p.pRobot)), fB_cost := uadd (uadd (p.cells (p.openHeap 1)).k_cost (dist (p.cells (p.openHeap 1)) (p.cells p.pRobot))) p.d_curr, pFocus := some p.pRobot } }, ?_, rfl, rfl, rfl, rfl, rfl, rfl, rfl⟩
      unfold getMinState
      have e2 : p.openListLength + 1 = 2 := by omega
      rw [if_pos (by omega), e2]
      rw [minStateLoop]
      simp only
      rw [if_neg hfoc]
      have hup : ∀ q : Planner, (q.cells (p.openHeap 1)).heapIndex = 1 → q.openListLength = 1 →
          heapDown (heapUp q (p.openHeap 1)) (p.openHeap 1) = q := by
        intro q hq1 hq2
        have e1 : heapUp q (p.openHeap 1) = q := by
          unfold heapUp
          split_ifs
          · rfl
          · rw [hq1]
            unfold heapUpLoop
            simp
        rw [e1]
        unfold heapDown
        split_ifs
        · rfl
        · rw [hq1, hq2]
          unfold heapDownLoop downTarget
          simp [hq2]
      rw [hup]
      · simp only [upd_same]; exact a3
      · exact hl
    have hc1 := congrFun hcells (p.openHeap 1)
    rw [upd_same] at hc1
    have hoth : ∀ d, d ≠ p.openHeap 1 → p1.cells d = p.cells d := fun d hd => by
      rw [hcells, upd_other _ _ _ _ hd]
    have hfld : ∀ d, (p1.cells d).backPtr = (p.cells d).backPtr ∧ (p1.cells d).x = (p.cells d).x ∧
        (p1.cells d).y = (p.cells d).y ∧ (p1.cells d).list = (p.cells d).list ∧
        (p1.cells d).blocked = (p.cells d).blocked ∧ (p1.cells d).h_cost = (p.cells d).h_cost ∧
        (p1.cells d).k_cost = (p.cells d).k_cost ∧ (p1.cells d).heapIndex = (p.cells d).heapIndex := by
      intro d
      by_cases hd : d = p.openHeap 1
      · rw [hd, hc1]
        exact ⟨rfl, rfl, rfl, rfl, rfl, rfl, rfl, rfl⟩
      · rw [hoth d hd]
        exact ⟨rfl, rfl, rfl, rfl, rfl, rfl, rfl, rfl⟩
    have hok1 : HeapOK (m.width * m.height) p1 := by
      unfold HeapOK
      rw [w3, w4]
      have e : (fun d => (p1.cells d).heapIndex) = (fun d => (p.cells d).heapIndex) :=
        funext (fun d => (hfld d).2.2.2.2.2.2.2)
      rw [e]
      exact slotsOK_mem hS.heap (fun d _ => by rw [(hfld d).2.2.2.1])
    obtain ⟨hS1, hpot1⟩ := fdstar_scratch_congr hS hok1 w1 w2 w3 (fun d => (hfld d).1)
      (fun d => (hfld d).2.1) (fun d => (hfld d).2.2.1) (fun d => (hfld d).2.2.2.1)
      (fun d => (hfld d).2.2.2.2.1) (fun d => (hfld d).2.2.2.2.2.1)
      (fun d => (hfld d).2.2.2.2.2.2.1)
    have hF1 : Focused (m.width * m.height) p1 := by
      intro c hc ho
      rw [(hfld c).2.2.2.1] at ho
      rw [honly c hc ho, hc1, w5]
    refine ⟨p1, ?_, hS1, hF1, hpot1, by rw [w3, hl], ?_, w6⟩
    · rw [hp1]
      have := fdstar_getMinState_focused hok1 hF1 (by rw [w3, hl])
      unfold getMinState at this
      rw [if_pos (by rw [w3, hl]; decide), w3, hl] at this
      unfold minStateLoop at this ⊢
      rw [w4] at this ⊢
      have hf1 : (p1.cells (p.openHeap 1)).pFocus = some p1.pRobot := by rw [hc1, w5]
      rw [if_pos hf1]
      rfl
    · rw [w4, (hfld _).2.2.2.2.2.2.1]

/-- One round of `processState` in a run from scratch, when `getMinState` has found a
first cell below the obstacle cost on a focussed open list: the invariant is kept and
the potential falls. -/
theorem fdstar_processState_scratch {m : GridMap} {pGoal : Nat} {p p0 : Planner}
    (hg : getMinState p = some (p0, some (p0.openHeap 1)))
    (hS : Scratch m pGoal p0) (hF : Focused (m.width * m.height) p0) (hl : 1 ≤ p0.openListLength)
    (hk : (p0.cells (p0.openHeap 1)).k_cost < 2000000000) :
    ∃ p3 val, processState p = some (p3, val) ∧ Scratch m pGoal p3 ∧
      Focused (m.width * m.height) p3 ∧
      potential (m.width * m.height) p3 + 1 ≤ potential (m.width * m.height) p0 ∧
      (p3.openListLength = 0 ∨ val.c2 = (p3.cells (p3.openHeap 1)).k_cost) ∧
      getMinState p3 = (if p3.openListLength = 0 then some (p3, none)
        else some (p3, some (p3.openHeap 1))) ∧
      p3.fullInit = p0.fullInit := by
  obtain ⟨a1, a2, a3⟩ := hS.heap.1 1 (le_refl 1) hl
  have hP := fdstar_popMin_spec hS.heap hl
  obtain ⟨hS1, hF1, hpot⟩ := fdstar_popped_scratch hS hF (p0.openHeap 1) hP a2
  have hkh := hS.kh _ a1 a2
  have hfree : (p0.cells (p0.openHeap 1)).blocked = false := by
    cases hb : (p0.cells (p0.openHeap 1)).blocked
    · rfl
    · have := hS.obst _ a1 (by rw [a2]; simp) hb
      omega
  unfold processState
  rw [hg]
  simp only
  have hlf : ∀ val, lowerFromNeighbors (popMin p0 (p0.openHeap 1)) (p0.openHeap 1) val
      (((popMin p0 (p0.openHeap 1)).cells (p0.openHeap 1)).k_cost)
      ((popMin p0 (p0.openHeap 1)).neighbors (p0.openHeap 1)) = popMin p0 (p0.openHeap 1) := by
    intro val
    unfold lowerFromNeighbors
    rw [if_neg (by rw [hP.c_h, hP.c_k]; omega)]
  rw [hlf, if_pos (by rw [hP.c_h, hP.c_k]; exact hkh)]
  obtain ⟨r1, r2, r3, r4, r5⟩ := fdstar_propagateLower_scratch hS1 hF1 (p0.openHeap 1) a1 hP.c_list
    (by rw [hP.c_blocked]; exact hfree) (by rw [hP.c_h]; omega)
    ((popMin p0 (p0.openHeap 1)).neighbors (p0.openHeap 1))
    (fun nb hnb => fdstar_neighbors_static hS1.static (p0.openHeap 1) nb.1 nb.2 a1 hnb)
  obtain ⟨val, hv1, hv2⟩ := fdstar_getMinVal_focused r1.heap r2
  refine ⟨_, val, hv1, r1, r2, by omega, hv2, ?_, r5.trans hP.fullInit⟩
  split_ifs with h0
  · unfold getMinState
    rw [if_neg (by omega)]
  · exact fdstar_getMinState_focused r1.heap r2 (by omega)

/-- A free cell that no chain of free cells joins to the goal stays new. -/
theorem fdstar_start_new {m : GridMap} {pGoal pStart : Nat} {p : Planner} (hS : Scratch m pGoal p)
    (hs : pStart < m.width * m.height) (hf : m.pixel (pStart % m.width) (pStart / m.width) = 0)
    (hn : ¬ Connected m (posOf m.width pGoal) (posOf m.width pStart)) :
    (p.cells pStart).list = List_New := by
  by_contra hl
  have hb : (p.cells pStart).blocked = false := by
    cases hb : (p.cells pStart).blocked
    · rfl
    · have := (hS.static.blocked pStart hs).1 hb
      omega
  exact hn (hS.conn pStart hs hl hb)

/-- The first `processState` loop of a run from scratch ends when the fuel exceeds the
potential, in a state that still satisfies the invariant. -/
theorem fdstar_initialLoop_ends {m : GridMap} {pGoal : Nat} (pStart : Nat) :
    ∀ (fuel : Nat) (p p0 : Planner), getMinState p = some (p0, some (p0.openHeap 1)) →
      Scratch m pGoal p0 → Focused (m.width * m.height) p0 → 1 ≤ p0.openListLength →
      (p0.cells (p0.openHeap 1)).k_cost < 2000000000 →
      potential (m.width * m.height) p0 < fuel →
      ∃ p', initialLoop pStart fuel p = some p' ∧ Scratch m pGoal p'
  | 0, _, _, _, _, _, _, _, hφ => by omega
  | fuel + 1, p, p0, hg, hS, hF, hl, hk, hφ => by
    obtain ⟨p3, val, e, r1, r2, r3, r4, r5, _⟩ := fdstar_processState_scratch hg hS hF hl hk
    unfold initialLoop
    rw [e]
    simp only
    by_cases c1 : (!p3.fullInit) = true ∧ (p3.cells pStart).list = List_Closed
    · rw [if_pos c1]
      exact ⟨p3, rfl, r1⟩
    · rw [if_neg c1]
      by_cases c2 : p3.openListLength = 0
      · rw [if_pos c2]
        exact ⟨p3, rfl, r1⟩
      · rw [if_neg c2]
        by_cases c3 : val.c2 ≥ OBSTACLE_COST
        · rw [if_pos c3]
          exact ⟨p3, rfl, r1⟩
        · rw [if_neg c3]
          rw [if_neg c2] at r5
          refine fdstar_initialLoop_ends pStart fuel p3 p3 r5 r1 r2 (by omega) ?_ (by omega)
          rcases r4 with r4 | r4
          · exact absurd r4 c2
          · rw [← r4]
            unfold OBSTACLE_COST at c3
            omega

/-- `initMap` yields a state whose static part agrees with the map when the
coordinates fit `unsigned short`. -/
theorem fdstar_initMap_static (old : Planner) (m : GridMap) (hw : m.width ≤ USHORT)
    (hh : m.height ≤ USHORT) : Static m (initMap old m) := by
  refine ⟨rfl, rfl, fun c hc => ?_, fun c hc => ?_⟩
  · have hw0 : 0 < m.width := by
      rcases Nat.eq_zero_or_pos m.width with h0 | h0
      · rw [h0] at hc; simp at hc
      · exact h0
    have h1 : c % m.width < USHORT := lt_of_lt_of_le (Nat.mod_lt _ hw0) hw
    have h2 : c / m.width < USHORT :=
      lt_of_lt_of_le ((Nat.div_lt_iff_lt_mul hw0).2 (by rw [Nat.mul_comm]; exact hc)) hh
    exact ⟨Nat.mod_eq_of_lt h1, Nat.mod_eq_of_lt h2⟩
  · show decide (m.pixel (c % m.width) (c / m.width) > 0) = true ↔ _
    simp

/-- The re-initialisation of lines 171-185 starts a run from scratch. -/
theorem fdstar_resetState_scratch {m : GridMap} {p : Planner} (hst : Static m p)
    (pStart pGoal : Nat)
    (hg : pGoal < m.width * m.height) (hgf : m.pixel (pGoal % m.width) (pGoal / m.width) = 0) :
    Scratch m pGoal (resetState p pStart pGoal) ∧ (resetState p pStart pGoal).openListLength = 1 ∧
      (resetState p pStart pGoal).openHeap 1 = pGoal ∧
      ((resetState p pStart pGoal).cells pGoal).k_cost = 0 ∧
      potential (m.width * m.height) (resetState p pStart pGoal) ≤
        2 * (m.width * m.height * 4294967296) + 1 := by
  have hN : p.width * p.height = m.width * m.height := by rw [hst.width, hst.height]
  have hgoal : ((resetState p pStart pGoal).cells pGoal).backPtr = none ∧
      ((resetState p pStart pGoal).cells pGoal).h_cost = 0 ∧
      ((resetState p pStart pGoal).cells pGoal).k_cost = 0 ∧
      ((resetState p pStart pGoal).cells pGoal).list = List_Open ∧
      ((resetState p pStart pGoal).cells pGoal).heapIndex = 1 := by
    unfold resetState
    simp only [upd_same, hN, hg, if_true]
    exact ⟨trivial, trivial, trivial, trivial, trivial⟩
  have hoth : ∀ c, c < m.width * m.height → c ≠ pGoal →
      ((resetState p pStart pGoal).cells c).backPtr = none ∧
      ((resetState p pStart pGoal).cells c).list = List_New := by
    intro c hc hne
    unfold resetState
    simp only [upd_apply, if_neg hne, hN, hc, if_true]
    exact ⟨trivial, trivial⟩
  have hx : ∀ c, ((resetState p pStart pGoal).cells c).x = (p.cells c).x := by
    intro c
    unfold resetState
    simp only [upd_apply]
    split_ifs <;> simp_all
  have hy : ∀ c, ((resetState p pStart pGoal).cells c).y = (p.cells c).y := by
    intro c
    unfold resetState
    simp only [upd_apply]
    split_ifs <;> simp_all
  have hb : ∀ c, ((resetState p pStart pGoal).cells c).blocked = (p.cells c).blocked := by
    intro c
    unfold resetState
    simp only [upd_apply]
    split_ifs <;> simp_all
  have hst' : Static m (resetState p pStart pGoal) := fdstar_static_of_core hst rfl rfl hx hy hb
  obtain ⟨g1, g4, g5, g7, hgi⟩ := hgoal
  have hopen : ∀ c, c < m.width * m.height →
      ((resetState p pStart pGoal).cells c).list ≠ List_New → c = pGoal := by
    intro c hc hl
    by_contra hne
    exact hl (hoth c hc hne).2
  have hgb : ((resetState p pStart pGoal).cells pGoal).blocked = false := by
    cases hbl : ((resetState p pStart pGoal).cells pGoal).blocked
    · rfl
    · have := (hst'.blocked pGoal hg).1 hbl
      omega
  have e : (resetState p pStart pGoal).openHeap 1 = pGoal := by
    unfold resetState; simp only [upd_same]
  refine ⟨⟨hst', ?_, ?_, ?_, ?_, ?_, ?_⟩, rfl, e, g5, ?_⟩
  · constructor
    · intro i h1 h2
      have hi : i = 1 := by
        have : (resetState p pStart pGoal).openListLength = 1 := rfl
        omega
      subst hi
      rw [e]
      exact ⟨hg, g7, hgi⟩
    · intro c hc hm
      have hcg : c = pGoal := hopen c hc (by
        have hm' : ((resetState p pStart pGoal).cells c).list = List_Open := hm
        rw [hm']; simp)
      rw [hcg]
      show 1 ≤ ((resetState p pStart pGoal).cells pGoal).heapIndex ∧
        ((resetState p pStart pGoal).cells pGoal).heapIndex ≤
          (resetState p pStart pGoal).openListLength ∧
        (resetState p pStart pGoal).openHeap ((resetState p pStart pGoal).cells pGoal).heapIndex = pGoal
      rw [hgi]
      exact ⟨le_refl _, le_refl _, e⟩
  · intro c hc ho
    have hcg : c = pGoal := hopen c hc (by rw [ho]; simp)
    rw [hcg, g4, g5]
  · intro c b hc hbp
    exfalso
    by_cases hcg : c = pGoal
    · rw [hcg, g1] at hbp; cases hbp
    · rw [(hoth c hc hcg).1] at hbp; cases hbp
  · intro c hc hl
    rw [hopen c hc hl, g4]
    omega
  · intro c hc hl hbl
    rw [hopen c hc hl, hgb] at hbl
    cases hbl
  · intro c hc hl _
    rw [hopen c hc hl]
    exact connected_self m _ (fdstar_freeCell hst' pGoal hg hgb)
  · unfold potential
    have h1 := sumBelow_bound (weight (resetState p pStart pGoal)) 4294967296 (m.width * m.height)
      (fun c hc => by
        unfold weight
        split_ifs with hl
        · exact le_refl _
        · rw [hopen c hc hl, g4]; omega)
    have h2 : (resetState p pStart pGoal).openListLength = 1 := rfl
    omega

/-- Planning from scratch when no chain of free cells joins the free start and goal:
with enough fuel `doCalculatePath` ends with the error "No Path found". -/
theorem fdstar_unconnected (m : GridMap) (p : Planner) (start goal : Pos) (updates fuel : Nat)
    (hst : Static m p) (hs : FreeCell m start) (hg : FreeCell m goal)
    (hn : ¬ Connected m start goal) (hu : (updates / 8) % 2 = 1 ∨ (updates / 2) % 2 = 1)
    (hf : 2 * (m.width * m.height * 4294967296) + 1 < fuel) :
    ∃ o, doCalculatePath fuel p updates start goal = some o ∧ o.path = [] ∧
      o.error = "No Path found" := by
  have hsN := index_lt m.width m.height start.1 start.2 hs.1 hs.2.1
  have hgN := index_lt m.width m.height goal.1 goal.2 hg.1 hg.2.1
  have hps : posOf m.width (start.2 * m.width + start.1) = start := posOf_index _ _ _ hs.1
  have hpg : posOf m.width (goal.2 * m.width + goal.1) = goal := posOf_index _ _ _ hg.1
  have hsf : m.pixel ((start.2 * m.width + start.1) % m.width) ((start.2 * m.width + start.1) / m.width) = 0 := by
    have h1 := congrArg Prod.fst hps
    have h2 := congrArg Prod.snd hps
    unfold posOf at h1 h2
    simp only at h1 h2
    rw [h1, h2]
    exact hs.2.2
  have hgf : m.pixel ((goal.2 * m.width + goal.1) % m.width) ((goal.2 * m.width + goal.1) / m.width) = 0 := by
    have h1 := congrArg Prod.fst hpg
    have h2 := congrArg Prod.snd hpg
    unfold posOf at h1 h2
    simp only at h1 h2
    rw [h1, h2]
    exact hg.2.2
  have hnc : ¬ Connected m (posOf m.width (goal.2 * m.width + goal.1))
      (posOf m.width (start.2 * m.width + start.1)) := by
    rw [hps, hpg]
    exact fun h => hn (connected_symm m _ _ h)
  have hsb : (p.cells (start.2 * m.width + start.1)).blocked = false := by
    cases hb : (p.cells (start.2 * m.width + start.1)).blocked
    · rfl
    · have := (hst.blocked _ hsN).1 hb
      omega
  have hgb : (p.cells (goal.2 * m.width + goal.1)).blocked = false := by
    cases hb : (p.cells (goal.2 * m.width + goal.1)).blocked
    · rfl
    · have := (hst.blocked _ hgN).1 hb
      omega
  have hnr : needsReset updates = true := by
    unfold needsReset
    rcases hu with hu | hu
    · simp [hu]
    · simp [hu]
  obtain ⟨hS, r1, r2, r3, r4⟩ := fdstar_resetState_scratch hst (start.2 * m.width + start.1)
    (goal.2 * m.width + goal.1) hgN hgf
  obtain ⟨p0, q1, q2, q3, q4, q5, q6, _⟩ := fdstar_getMinState_single hS r1
  obtain ⟨p', hp', hS'⟩ := fdstar_initialLoop_ends (start.2 * m.width + start.1) fuel _ p0 q1 q2 q3
    (by omega) (by rw [q6, r2, r3]; omega) (by omega)
  have hnew := fdstar_start_new hS' hsN hsf hnc
  unfold doCalculatePath
  simp only [hst.width, hsb, hgb, hnr, if_true, Bool.false_eq_true, if_false]
  rw [if_pos hu, hp']
  simp only
  rw [if_pos (Or.inl (by rw [hnew]; decide))]
  exact ⟨_, rfl, rfl, rfl⟩

end FocussedDStar

end RasterSim

namespace RasterSim

/-! ## Focussed D*: the open list is in order in every state the contract leads to -/

namespace FocussedDStar

open ListType

/-- A new value of a cell with the same list, slot and costs of the order keeps the open list in
order. -/
theorem fdstar_heapInv_upd {N : Nat} {p : Planner} (h : HeapInv N p) (c : Nat) (v : Cell)
    (hl : v.list = (p.cells c).list) (hi : v.heapIndex = (p.cells c).heapIndex)
    (hk : v.rank = (p.cells c).rank) : HeapInv N { p with cells := upd p.cells c v } := by
  refine fdstar_heapInv_congr h rfl rfl (fun d => ?_)
  simp only [Planner.ranks, upd_apply]
  split_ifs with hd
  · rw [hd]
    exact ⟨hl, hi, hk⟩
  · exact ⟨rfl, rfl, rfl⟩

theorem fdstar_lowerFromNeighbors_heap {N : Nat} {p : Planner} (h : HeapInv N p)
    (pMin : Nat) (val : Cost) (k_val : Nat) (nbs : List (Nat × Nat)) :
    HeapInv N (lowerFromNeighbors p pMin val k_val nbs) := by
  unfold lowerFromNeighbors
  split_ifs
  · refine foldl_keeps (HeapInv N) _ nbs p ?_ h
    intro q nb _ hq
    simp only
    split_ifs
    · exact hq
    · exact fdstar_heapInv_upd hq pMin _ rfl rfl rfl
    · exact hq
    · exact hq
  · exact h

theorem fdstar_adopt_heap {N : Nat} {q : Planner} (h : HeapInv N q) (pMin n hc : Nat)
    (hn : n < N) : HeapInv N (adopt q pMin n hc) := by
  unfold adopt
  exact fdstar_insert_inv
    (fdstar_heapInv_upd h n { q.cells n with backPtr := some pMin } rfl rfl rfl) n hn hc

theorem fdstar_propagateLower_heap {N : Nat} {p : Planner} (h : HeapInv N p) (pMin : Nat)
    (nbs : List (Nat × Nat)) (hn : ∀ nb ∈ nbs, nb.1 < N) :
    HeapInv N (propagateLower p pMin nbs) := by
  unfold propagateLower
  refine foldl_keeps (HeapInv N) _ nbs p ?_ h
  intro q nb hnb hq
  simp only
  split_ifs
  · exact fdstar_adopt_heap hq pMin nb.1 _ (hn nb hnb)
  · exact hq

theorem fdstar_propagateRaise_heap {N : Nat} {p : Planner} (h : HeapInv N p)
    (pMin : Nat) (val : Cost) (nbs : List (Nat × Nat)) (hp : pMin < N) (hn : ∀ nb ∈ nbs, nb.1 < N) :
    HeapInv N (propagateRaise p pMin val nbs) := by
  unfold propagateRaise
  refine foldl_keeps (HeapInv N) _ nbs p ?_ h
  intro q nb hnb hq
  simp only
  split_ifs
  · exact fdstar_adopt_heap hq pMin nb.1 _ (hn nb hnb)
  · exact fdstar_insert_inv hq pMin hp _
  · exact fdstar_insert_inv hq nb.1 (hn nb hnb) _
  · exact hq
  · exact hq

theorem fdstar_getMinVal_heap {N : Nat} {p p' : Planner} {v : Cost} (h : HeapInv N p)
    (hv : getMinVal p = some (p', v)) : HeapInv N p' := by
  unfold getMinVal at hv
  cases hm : getMinState p with
  | none => rw [hm] at hv; cases hv
  | some r =>
    obtain ⟨p0, c⟩ := r
    rw [hm] at hv
    have h0 := (fdstar_getMinState_inv h hm).1
    cases c with
    | none =>
      simp only [Option.map_some', Option.some.injEq, Prod.mk.injEq] at hv
      rw [← hv.1]
      exact h0
    | some pMin =>
      simp only [Option.map_some', Option.some.injEq, Prod.mk.injEq] at hv
      rw [← hv.1]
      exact h0

/-- `processState` keeps the open list in order. -/
theorem fdstar_processState_heap {p p' : Planner} {size : Nat × Nat} (v : Cost)
    (h : AlgInv p size) (hh : HeapInv (size.1 * size.2) p)
    (hp : processState p = some (p', v)) : HeapInv (size.1 * size.2) p' := by
  unfold processState at hp
  cases hm : getMinState p with
  | none => rw [hm] at hp; cases hp
  | some r =>
    obtain ⟨p0, c⟩ := r
    rw [hm] at hp
    have h0 := fdstar_algInv_of_frame h (fdstar_getMinState_frame p p0 c hm)
    obtain ⟨hh0, hlen, hc⟩ := fdstar_getMinState_inv hh hm
    cases c with
    | none =>
      simp only [Option.some.injEq, Prod.mk.injEq] at hp
      rw [← hp.1]
      exact hh0
    | some pMin =>
      simp only at hp
      have hl1 : 1 ≤ p.openListLength := by
        by_contra hcon
        unfold getMinState at hm
        rw [if_neg (by omega)] at hm
        simp only [Option.some.injEq, Prod.mk.injEq] at hm
        cases hm.2
      have hpm : pMin = p0.openHeap 1 := by
        have := hc hl1
        simp only [Option.some.injEq] at this
        exact this
      have hl0 : 1 ≤ p0.openListLength := by rw [hlen]; exact hl1
      have h1 : AlgInv (popMin p0 pMin) size :=
        fdstar_algInv_of_frame h0 (fdstar_popMin_frame p0 pMin)
      have hh1 : HeapInv (size.1 * size.2) (popMin p0 pMin) := by
        rw [hpm]
        exact fdstar_popMin_inv hh0 hl0
      have hmin : pMin < size.1 * size.2 := by
        rw [hpm]
        exact (hh0.1.1 1 (le_refl 1) hl0).1
      have hn : ∀ nb ∈ (popMin p0 pMin).neighbors pMin, nb.1 < size.1 * size.2 := by
        intro nb hnb
        have := (neighborsWithCost_mem _ _ _ _ _ _ _ _ nb.1 nb.2 hnb).1
        rw [h1.width, h1.height] at this
        exact this
      have hh2 := fdstar_lowerFromNeighbors_heap hh1 pMin
        { c1 := ((popMin p0 pMin).cells pMin).f_cost, c2 := ((popMin p0 pMin).cells pMin).k_cost }
        (((popMin p0 pMin).cells pMin).k_cost) ((popMin p0 pMin).neighbors pMin)
      refine fdstar_getMinVal_heap ?_ hp
      split_ifs
      · exact fdstar_propagateLower_heap hh2 _ _ hn
      · exact fdstar_propagateRaise_heap hh2 _ _ _ hmin hn

theorem fdstar_initialLoop_heap (pStart : Nat) {size : Nat × Nat} :
    ∀ (fuel : Nat) (p p' : Planner), AlgInv p size → HeapInv (size.1 * size.2) p →
      initialLoop pStart fuel p = some p' → HeapInv (size.1 * size.2) p'
  | 0, _, _, _, _, h => by simp [initialLoop] at h
  | fuel + 1, p, p', hp, hh, h => by
    simp only [initialLoop] at h
    cases hs : processState p with
    | none => rw [hs] at h; cases h
    | some r =>
      obtain ⟨p1, val⟩ := r
      rw [hs] at h
      have h1 := fdstar_processState_inv val hp hs
      have hh1 := fdstar_processState_heap val hp hh hs
      simp only at h
      split_ifs at h
      · cases h; exact hh1
      · cases h; exact hh1
      · cases h; exact hh1
      · exact fdstar_initialLoop_heap pStart fuel _ p' h1 hh1 h

theorem fdstar_replanLoop_heap (pStart : Nat) {size : Nat × Nat} :
    ∀ (fuel : Nat) (p p' : Planner) (e : LoopEnd), AlgInv p size →
      HeapInv (size.1 * size.2) p → replanLoop pStart fuel p = some (p', e) →
      HeapInv (size.1 * size.2) p'
  | 0, _, _, _, _, _, h => by simp [replanLoop] at h
  | fuel + 1, p, p', e, hp, hh, h => by
    simp only [replanLoop] at h
    split_ifs at h with hlen
    · cases hs : processState p with
      | none => rw [hs] at h; cases h
      | some r =>
        obtain ⟨p1, val⟩ := r
        rw [hs] at h
        have h1 := fdstar_processState_inv val hp hs
        have hh1 := fdstar_processState_heap val hp hh hs
        simp only at h
        split_ifs at h
        · cases h; exact hh1
        · cases h; exact hh1
        · exact fdstar_replanLoop_heap pStart fuel _ p' e h1 hh1 h
    · cases h; exact hh

/-- The re-initialisation leaves the open list in order, with the goal as its only
cell. -/
theorem fdstar_resetState_heap (p : Planner) (pStart pGoal : Nat)
    (hg : pGoal < p.width * p.height) :
    HeapInv (p.width * p.height) (resetState p pStart pGoal) := by
  have hl : (resetState p pStart pGoal).openListLength = 1 := rfl
  have ho : (resetState p pStart pGoal).openHeap 1 = pGoal := by
    show upd p.openHeap 1 pGoal 1 = _
    rw [upd_same]
  have hcell : ∀ c, c < p.width * p.height →
      ((resetState p pStart pGoal).cells c).list = (if c = pGoal then List_Open else List_New) ∧
      ((resetState p pStart pGoal).cells c).heapIndex = (if c = pGoal then 1 else 0) := by
    intro c hc
    simp only [resetState, upd_apply]
    split_ifs <;> simp_all
  refine ⟨⟨fun i i1 i2 => ?_, fun c hc hm => ?_⟩, fun c hc hlist => ?_, fun j j1 j2 => ?_⟩
  · rw [hl] at i2
    have hi : i = 1 := by omega
    rw [hi, ho]
    obtain ⟨q1, q2⟩ := hcell pGoal hg
    rw [if_pos rfl] at q1 q2
    exact ⟨hg, q1, q2⟩
  · have hm' : ((resetState p pStart pGoal).cells c).list = List_Open := hm
    obtain ⟨q1, q2⟩ := hcell c hc
    by_cases hcg : c = pGoal
    · rw [if_pos hcg] at q2
      show 1 ≤ ((resetState p pStart pGoal).cells c).heapIndex ∧
        ((resetState p pStart pGoal).cells c).heapIndex ≤ (resetState p pStart pGoal).openListLength ∧
        (resetState p pStart pGoal).openHeap ((resetState p pStart pGoal).cells c).heapIndex = c
      rw [q2, hl, ho]
      exact ⟨le_refl _, le_refl _, hcg.symm⟩
    · rw [if_neg hcg] at q1
      rw [q1] at hm'
      cases hm'
  · obtain ⟨q1, q2⟩ := hcell c hc
    by_cases hcg : c = pGoal
    · rw [if_pos hcg] at q1
      exact absurd q1 hlist
    · rw [if_neg hcg] at q2
      exact q2
  · rw [hl] at j2
    omega

/-- The partial update of the map keeps the open list in order. -/
theorem fdstar_initMapUpdate_heap {p : Planner} {size : Nat × Nat} (h : AlgInv p size)
    (hh : HeapInv (size.1 * size.2) p) (m : GridMap) (r : Region) (hr : r.right < size.1)
    (hb : r.bottom < size.2) : HeapInv (size.1 * size.2) (initMapUpdate p m r) := by
  unfold initMapUpdate
  refine (foldl_keeps (fun q => Frame p q ∧ HeapInv (size.1 * size.2) q) _ r.points p ?_
    ⟨fdstar_frame_refl p, hh⟩).2
  intro q pos hpos hq
  obtain ⟨hf, hq2⟩ := hq
  have hqi : AlgInv q size := fdstar_algInv_of_frame h hf
  obtain ⟨b1, b2⟩ := region_points_le r pos hpos
  have hcell : q.width * pos.2 + pos.1 < size.1 * size.2 := by
    rw [hqi.width]
    exact index_lt_comm _ _ _ _ (by omega) (by omega)
  have around_keeps : ∀ (l : List Nat) (q0 : Planner), Frame p q0 → HeapInv (size.1 * size.2) q0 →
      (∀ n ∈ l, n < size.1 * size.2) →
      Frame p (l.foldl (fun p pNeighbor =>
          if (p.cells pNeighbor).list = List_Closed then
            insert p pNeighbor (p.cells pNeighbor).h_cost
          else p) q0) ∧
        HeapInv (size.1 * size.2) (l.foldl (fun p pNeighbor =>
          if (p.cells pNeighbor).list = List_Closed then
            insert p pNeighbor (p.cells pNeighbor).h_cost
          else p) q0) := by
    intro l q0 f0 h0 hl
    refine foldl_keeps (fun q => Frame p q ∧ HeapInv (size.1 * size.2) q) _ l q0 ?_ ⟨f0, h0⟩
    intro q1 n hn hq1
    split_ifs
    · exact ⟨fdstar_frame_trans hq1.1 (fdstar_insert_frame _ _ _), fdstar_insert_inv hq1.2 n (hl n hn) _⟩
    · exact hq1
  simp only
  split_ifs with c1 c2 c3 c4
  · -- the cell was closed and is free now
    have f1 := fdstar_setBlocked_frame p q (q.width * pos.2 + pos.1)
      (decide (m.pixel pos.1 pos.2 > 0)) hf
    have g1 := fdstar_heapInv_upd hq2 (q.width * pos.2 + pos.1)
      { q.cells (q.width * pos.2 + pos.1) with blocked := decide (m.pixel pos.1 pos.2 > 0) }
      rfl rfl rfl
    refine around_keeps _ _ (fdstar_frame_trans f1 (fdstar_insert_frame _ _ _))
      (fdstar_insert_inv g1 _ hcell _) (fun n hn => ?_)
    have := around_lt _ _ _ _ n hn
    rw [(fdstar_frame_trans f1 (fdstar_insert_frame _ _ _)).1,
      (fdstar_frame_trans f1 (fdstar_insert_frame _ _ _)).2.1, h.width, h.height] at this
    exact this
  · have f1 := fdstar_setBlocked_frame p q (q.width * pos.2 + pos.1)
      (decide (m.pixel pos.1 pos.2 > 0)) hf
    have g1 := fdstar_heapInv_upd hq2 (q.width * pos.2 + pos.1)
      { q.cells (q.width * pos.2 + pos.1) with blocked := decide (m.pixel pos.1 pos.2 > 0) }
      rfl rfl rfl
    exact ⟨fdstar_frame_trans f1 (fdstar_insert_frame _ _ _), fdstar_insert_inv g1 _ hcell _⟩
  · have f1 := fdstar_setBlocked_frame p q (q.width * pos.2 + pos.1)
      (decide (m.pixel pos.1 pos.2 > 0)) hf
    have g1 := fdstar_heapInv_upd hq2 (q.width * pos.2 + pos.1)
      { q.cells (q.width * pos.2 + pos.1) with blocked := decide (m.pixel pos.1 pos.2 > 0) }
      rfl rfl rfl
    refine around_keeps _ _ f1 g1 (fun n hn => ?_)
    have := around_lt _ _ _ _ n hn
    rw [f1.1, f1.2.1, h.width, h.height] at this
    exact this
  · have f1 := fdstar_setBlocked_frame p q (q.width * pos.2 + pos.1)
      (decide (m.pixel pos.1 pos.2 > 0)) hf
    have g1 := fdstar_heapInv_upd hq2 (q.width * pos.2 + pos.1)
      { q.cells (q.width * pos.2 + pos.1) with blocked := decide (m.pixel pos.1 pos.2 > 0) }
      rfl rfl rfl
    exact ⟨f1, g1⟩
  · exact ⟨hf, hq2⟩

/-- A property of the state that the re-initialisation establishes and the loops of
`processState`, `getMinVal` and the move of the robot keep holds for the state
`doCalculatePath` leaves. -/
theorem fdstar_doCalculatePath_state (Q : Planner → Prop) (fuel : Nat) (p : Planner) (u : Nat)
    (s g : Pos) (o : Outcome) (hq : Q p)
    (hr : Q (resetState p (s.2 * p.width + s.1) (g.2 * p.width + g.1)))
    (hi : ∀ p1 p2, Q p1 → initialLoop (s.2 * p.width + s.1) fuel p1 = some p2 → Q p2)
    (hl : ∀ p1 p2 e, Q p1 → replanLoop (s.2 * p.width + s.1) fuel p1 = some (p2, e) → Q p2)
    (hv : ∀ p1 p2 v, Q p1 → getMinVal p1 = some (p2, v) → Q p2)
    (hm : ∀ (p1 : Planner) (d r : Nat), Q p1 → Q { p1 with d_curr := d, pRobot := r })
    (ho : doCalculatePath fuel p u s g = some o) : Q o.planner := by
  unfold doCalculatePath at ho
  simp only at ho
  by_cases hb1 : (p.cells (s.2 * p.width + s.1)).blocked = true
  · rw [if_pos hb1] at ho
    cases ho
    exact hq
  rw [if_neg hb1] at ho
  by_cases hb2 : (p.cells (g.2 * p.width + g.1)).blocked = true
  · rw [if_pos hb2] at ho
    cases ho
    exact hq
  rw [if_neg hb2] at ho
  have hp1 : Q (if needsReset u then resetState p (s.2 * p.width + s.1) (g.2 * p.width + g.1)
      else p) := by
    split_ifs
    · exact hr
    · exact hq
  generalize (if needsReset u then resetState p (s.2 * p.width + s.1) (g.2 * p.width + g.1)
    else p) = p1 at ho hp1
  have hex : ∀ q : Planner, Q q → Q (extractPath q (s.2 * p.width + s.1) (g.2 * p.width + g.1)).planner := by
    intro q hq'
    unfold extractPath
    split <;> exact hq'
  by_cases hfull : (u / 8) % 2 = 1 ∨ (u / 2) % 2 = 1
  · rw [if_pos hfull] at ho
    cases hlo : initialLoop (s.2 * p.width + s.1) fuel p1 with
    | none => rw [hlo] at ho; cases ho
    | some p2 =>
      rw [hlo] at ho
      have h2 := hi p1 p2 hp1 hlo
      simp only at ho
      split_ifs at ho
      · cases ho
        exact h2
      · simp only [Option.some.injEq] at ho
        subst ho
        exact hex p2 h2
  · rw [if_neg hfull] at ho
    have hp2 : Q (if s.2 * p.width + s.1 ≠ p1.pRobot then
        { p1 with d_curr := uadd (uadd p1.d_curr (dist (p1.cells (s.2 * p.width + s.1)) (p1.cells p1.pRobot))) 1
                  pRobot := s.2 * p.width + s.1 }
        else p1) := by
      split_ifs
      · exact hm p1 _ _ hp1
      · exact hp1
    generalize (if s.2 * p.width + s.1 ≠ p1.pRobot then
        { p1 with d_curr := uadd (uadd p1.d_curr (dist (p1.cells (s.2 * p.width + s.1)) (p1.cells p1.pRobot))) 1
                  pRobot := s.2 * p.width + s.1 }
        else p1) = p2 at ho hp2
    cases hval : getMinVal p2 with
    | none => rw [hval] at ho; cases ho
    | some r =>
      obtain ⟨p3, val⟩ := r
      rw [hval] at ho
      have h3 := hv p2 p3 val hp2 hval
      simp only at ho
      have key : ∀ (looped : Option (Planner × LoopEnd)),
          (∀ p4 e, looped = some (p4, e) → Q p4) →
          (match looped with
            | none => none
            | some (p4, LoopEnd.noPath) => some { planner := p4, path := [], error := "No Path found" }
            | some (p4, LoopEnd.ready) =>
              if (p4.cells (s.2 * p.width + s.1)).list = List_New ∨
                  (p4.cells (s.2 * p.width + s.1)).h_cost ≥ OBSTACLE_COST then
                some { planner := p4, path := [], error := "No Path found" }
              else some (extractPath p4 (s.2 * p.width + s.1) (g.2 * p.width + g.1))) = some o →
          Q o.planner := by
        intro looped hlo hmm
        cases looped with
        | none => cases hmm
        | some r =>
          obtain ⟨p4, e⟩ := r
          have h4 := hlo p4 e rfl
          cases e with
          | noPath =>
            simp only [Option.some.injEq] at hmm
            subst hmm
            exact h4
          | ready =>
            simp only at hmm
            split_ifs at hmm
            · cases hmm
              exact h4
            · simp only [Option.some.injEq] at hmm
              subst hmm
              exact hex p4 h4
      refine key _ ?_ ho
      intro p4 e hlo
      split_ifs at hlo
      · exact hl p3 p4 e h3 hlo
      · cases hlo
        exact h3

/-- The invariant of the states of Focussed D* behind the contract: the state fits the
map size and its open list is in order. -/
def ReachInv (p : Planner) (size : Nat × Nat) : Prop :=
  AlgInv p size ∧ HeapInv (size.1 * size.2) p

theorem fdstar_reachSpec (fuel : Nat) : AlgSpec (algorithm fuel) ReachInv := by
  refine algSpec_and (fdstar_algSpec fuel) ?_ ?_ ?_
  · intro st m _ _ _ _
    exact fdstar_initMap_heapInv st m
  · intro st m r hi hh hr hb
    exact fdstar_initMapUpdate_heap hi hh m r hr hb
  · intro st size u s g r hi hh s1 s2 g1 g2 hc
    simp only [algorithm] at hc
    cases ho : doCalculatePath fuel st u s g with
    | none => rw [ho] at hc; cases hc
    | some o =>
      rw [ho] at hc
      simp only [Option.map_some', Option.some.injEq] at hc
      subst hc
      show HeapInv (size.1 * size.2) o.planner
      have hreset : AlgInv (resetState st (s.2 * st.width + s.1) (g.2 * st.width + g.1)) size ∧
          HeapInv (size.1 * size.2)
            (resetState st (s.2 * st.width + s.1) (g.2 * st.width + g.1)) := by
        refine ⟨fdstar_resetState_inv hi _ _, ?_⟩
        have hlt : g.2 * st.width + g.1 < st.width * st.height := by
          rw [hi.width, hi.height]
          exact index_lt _ _ _ _ g1 g2
        have := fdstar_resetState_heap st (s.2 * st.width + s.1) (g.2 * st.width + g.1) hlt
        rw [show st.width * st.height = size.1 * size.2 by rw [hi.width, hi.height]] at this
        exact this
      exact (fdstar_doCalculatePath_state
        (fun q => AlgInv q size ∧ HeapInv (size.1 * size.2) q)
        fuel st u s g o ⟨hi, hh⟩ hreset
        (fun p1 p2 h1 hl => ⟨fdstar_initialLoop_inv _ fuel p1 p2 h1.1 hl,
          fdstar_initialLoop_heap _ fuel p1 p2 h1.1 h1.2 hl⟩)
        (fun p1 p2 e h1 hl => ⟨fdstar_replanLoop_inv _ fuel p1 p2 e h1.1 hl,
          fdstar_replanLoop_heap _ fuel p1 p2 e h1.1 h1.2 hl⟩)
        (fun p1 p2 v h1 hv => ⟨fdstar_algInv_of_frame h1.1 (fdstar_getMinVal_frame p1 p2 v hv),
          fdstar_getMinVal_heap h1.2 hv⟩)
        (fun p1 d r h1 => ⟨⟨h1.1.width, h1.1.height, h1.1.fits, h1.1.coords, h1.1.back⟩,
          fdstar_heapInv_congr h1.2 rfl rfl (fun _ => ⟨rfl, rfl, rfl⟩)⟩) ho).2

/-- In every state of a Focussed D* planner object the open list is in order and holds
no more cells than the map has. -/
theorem fdstar_reachable_heap (fuel : Nat) (init : Planner) (h0 : init.openListLength = 0)
    (p : AbstractPlanner Planner) (hp : Reachable (algorithm fuel) init p) :
    p.alg.openListLength ≤ p.mapSize.1 * p.mapSize.2 ∧
      (p.mapSize.1 ≠ 0 ∧ p.mapSize.2 ≠ 0 → HeapInv (p.mapSize.1 * p.mapSize.2) p.alg) := by
  refine ⟨?_, fun hne => ((contract_reachable (fdstar_reachSpec fuel) init p hp).alg hne).2⟩
  refine reachable_inv (fdstar_reachSpec fuel)
    (fun st size => st.openListLength ≤ size.1 * size.2) ?_ ?_ ?_ p hp
  · intro st size hi
    exact slotsOK_len_le hi.2.1
  · intro st m _ size _
    show (initMap st m).openListLength ≤ _
    exact Nat.zero_le _
  · intro size _
    show init.openListLength ≤ _
    rw [h0]
    exact Nat.zero_le _

end FocussedDStar

end RasterSim

namespace RasterSim

/-! ## Focussed D*: single stepping -/

namespace FocussedDStar

open ListType

/-- How a `processState` loop of `doCalculatePath` ends when single stepping may be on:
`notReady` stands for the `break` after `setError("Not yet ready...")`. -/
inductive StepEnd
  | ready
  | noPath
  | notReady
  deriving DecidableEq, Repr

/-- The loop of lines 195-205 with the parameter `singleStep`. `none` when the fuel does
not suffice. -/
def initialLoopWith (singleStep : Bool) (pStart : Nat) : Nat → Planner → Option (Planner × StepEnd)
  | 0, _ => none
  | fuel + 1, p =>
    match processState p with
    | none => none
    | some (p1, val) =>
      if !p1.fullInit ∧ (p1.cells pStart).list = List_Closed then some (p1, StepEnd.ready)
      else if p1.openListLength = 0 then some (p1, StepEnd.ready)
      else if val.c2 ≥ OBSTACLE_COST then some (p1, StepEnd.ready)
      else if singleStep then some (p1, StepEnd.notReady)
      else initialLoopWith singleStep pStart fuel p1

/-- The loop of lines 219-234 with the parameter `singleStep`. `none` when the fuel does
not suffice. -/
def replanLoopWith (singleStep : Bool) (pStart : Nat) : Nat → Planner → Option (Planner × StepEnd)
  | 0, _ => none
  | fuel + 1, p =>
    if p.openListLength > 0 then
      match processState p with
      | none => none
      | some (p1, val) =>
        if (p1.cells pStart).list ≠ List_New ∧ Cost.le (getCost p1 pStart) val then
          some (p1, StepEnd.ready)
        else if val.c2 ≥ OBSTACLE_COST then some (p1, StepEnd.noPath)
        else if singleStep then some (p1, StepEnd.notReady)
        else replanLoopWith singleStep pStart fuel p1
    else some (p, StepEnd.ready)

/-- `FocussedDStarPlanner::doCalculatePath(updates, singleStep)` for a given value of
the member `inhibitStep` (which the function clears); the arrays are allocated. `none`
when the fuel does not suffice. -/
def doCalculatePathWith (fuel : Nat) (p : Planner) (updates : Nat) (startPos goalPos : Pos)
    (inhibitStep singleStep : Bool) : Option Outcome :=
  let width := p.width
  let pStart := startPos.2 * width + startPos.1
  let pGoal := goalPos.2 * width + goalPos.1
  if (p.cells pStart).blocked then
    some { planner := p, path := [], error := "Start position blocked" }
  else if (p.cells pGoal).blocked then
    some { planner := p, path := [], error := "Goal position blocked" }
  else
    let p1 := if needsReset updates then resetState p pStart pGoal else p
    if inhibitStep then some { planner := p1, path := [], error := "Single stepping enabled..." }
    else if (updates / 8) % 2 = 1 ∨ (updates / 2) % 2 = 1 then
      match initialLoopWith singleStep pStart fuel p1 with
      | none => none
      | some (p2, StepEnd.notReady) => some { planner := p2, path := [], error := "Not yet ready..." }
      | some (p2, _) =>
        if (p2.cells pStart).list ≠ List_Closed ∨ (p2.cells pStart).h_cost ≥ OBSTACLE_COST then
          some { planner := p2, path := [], error := "No Path found" }
        else some (extractPath p2 pStart pGoal)
    else
      let p2 : Planner :=
        if pStart ≠ p1.pRobot then
          { p1 with d_curr := uadd (uadd p1.d_curr (dist (p1.cells pStart) (p1.cells p1.pRobot))) 1
                    pRobot := pStart }
        else p1
      match getMinVal p2 with
      | none => none
      | some (p3, val) =>
        let looped : Option (Planner × StepEnd) :=
          if (p3.cells pStart).list = List_New ∨ Cost.lt val (getCost p3 pStart) then
            replanLoopWith singleStep pStart fuel p3
          else some (p3, StepEnd.ready)
        match looped with
        | none => none
        | some (p4, StepEnd.noPath) => some { planner := p4, path := [], error := "No Path found" }
        | some (p4, StepEnd.notReady) => some { planner := p4, path := [], error := "Not yet ready..." }
        | some (p4, StepEnd.ready) =>
          if (p4.cells pStart).list = List_New ∨ (p4.cells pStart).h_cost ≥ OBSTACLE_COST then
            some { planner := p4, path := [], error := "No Path found" }
          else some (extractPath p4 pStart pGoal)

/-- `calculatePath(updates)` while the action "Single stepping" is checked: `inhibitStep`
and `singleStep` are both set. -/
def calculatePathStepping (fuel : Nat) (p : Planner) (updates : Nat) (startPos goalPos : Pos) :
    Option Outcome :=
  doCalculatePathWith fuel p updates startPos goalPos true true

/-- `doSingleStep()`: `doCalculatePath(0, true)`; `inhibitStep` is clear since the
last `calculatePath`. -/
def doSingleStep (fuel : Nat) (p : Planner) (startPos goalPos : Pos) : Option Outcome :=
  doCalculatePathWith fuel p 0 startPos goalPos false true

/-- Single steps until "Not yet ready..." is no longer reported, at most `n + 1` of
them: the outcome of the last step and the number of steps made. -/
def stepUntilReady (fuel : Nat) (startPos goalPos : Pos) : Nat → Planner → Nat → Option (Outcome × Nat)
  | 0, p, k => (doSingleStep fuel p startPos goalPos).map fun o => (o, k + 1)
  | n + 1, p, k =>
    match doSingleStep fuel p startPos goalPos with
    | none => none
    | some o =>
      if o.error = "Not yet ready..." then stepUntilReady fuel startPos goalPos n o.planner (k + 1)
      else some (o, k + 1)

/-- What is compared of a search state: for the cells `0 .. n - 1` the list tag, `h_cost`,
`k_cost` and the backpointer, and the cells in the slots of the open heap. -/
structure SearchView where
  tags : List ListType
  h : List Nat
  k : List Nat
  backPtrs : List (Option Nat)
  heap : List Nat
  deriving DecidableEq, Repr

/-- The view of the search state of a planner with `n` cells. -/
def Planner.view (p : Planner) (n : Nat) : SearchView :=
  { tags := (List.range n).map fun c => (p.cells c).list
    h := (List.range n).map fun c => (p.cells c).h_cost
    k := (List.range n).map fun c => (p.cells c).k_cost
    backPtrs := (List.range n).map fun c => (p.cells c).backPtr
    heap := (List.range p.openListLength).map fun i => p.openHeap (i + 1) }

theorem fdstar_initialLoopWith_off (pStart : Nat) : ∀ (fuel : Nat) (p : Planner),
    initialLoopWith false pStart fuel p = (initialLoop pStart fuel p).map fun q => (q, StepEnd.ready)
  | 0, _ => rfl
  | fuel + 1, p => by
    simp only [initialLoopWith, initialLoop, Bool.false_eq_true, if_false]
    cases hs : processState p with
    | none => rfl
    | some r =>
      obtain ⟨p1, val⟩ := r
      simp only
      by_cases h1 : !p1.fullInit ∧ (p1.cells pStart).list = List_Closed
      · rw [if_pos h1, if_pos h1]; rfl
      rw [if_neg h1, if_neg h1]
      by_cases h2 : p1.openListLength = 0
      · rw [if_pos h2, if_pos h2]; rfl
      rw [if_neg h2, if_neg h2]
      by_cases h3 : val.c2 ≥ OBSTACLE_COST
      · rw [if_pos h3, if_pos h3]; rfl
      rw [if_neg h3, if_neg h3]
      exact fdstar_initialLoopWith_off pStart fuel p1

/-- The end of a loop without single stepping as a `StepEnd`. -/
def LoopEnd.toStep : LoopEnd → StepEnd
  | LoopEnd.ready => StepEnd.ready
  | LoopEnd.noPath => StepEnd.noPath

theorem fdstar_replanLoopWith_off (pStart : Nat) : ∀ (fuel : Nat) (p : Planner),
    replanLoopWith false pStart fuel p =
      (replanLoop pStart fuel p).map fun r => (r.1, r.2.toStep)
  | 0, _ => rfl
  | fuel + 1, p => by
    simp only [replanLoopWith, replanLoop, Bool.false_eq_true, if_false]
    by_cases hl : p.openListLength > 0
    · rw [if_pos hl, if_pos hl]
      cases hs : processState p with
      | none => rfl
      | some r =>
        obtain ⟨p1, val⟩ := r
        simp only
        by_cases h1 : (p1.cells pStart).list ≠ List_New ∧ Cost.le (getCost p1 pStart) val = true
        · rw [if_pos h1, if_pos h1]; rfl
        rw [if_neg h1, if_neg h1]
        by_cases h3 : val.c2 ≥ OBSTACLE_COST
        · rw [if_pos h3, if_pos h3]; rfl
        rw [if_neg h3, if_neg h3]
        exact fdstar_replanLoopWith_off pStart fuel p1
    · rw [if_neg hl, if_neg hl]
      rfl

/-- With `inhibitStep` and `singleStep` both clear, `doCalculatePathWith` is
`doCalculatePath`. -/
theorem fdstar_doCalculatePathWith_off (fuel : Nat) (p : Planner) (u : Nat) (s g : Pos) :
    doCalculatePathWith fuel p u s g false false = doCalculatePath fuel p u s g := by
  unfold doCalculatePathWith doCalculatePath
  simp only [Bool.false_eq_true, if_false]
  by_cases h1 : (p.cells (s.2 * p.width + s.1)).blocked = true
  · rw [if_pos h1, if_pos h1]
  rw [if_neg h1, if_neg h1]
  by_cases h2 : (p.cells (g.2 * p.width + g.1)).blocked = true
  · rw [if_pos h2, if_pos h2]
  rw [if_neg h2, if_neg h2]
  generalize (if needsReset u = true then resetState p (s.2 * p.width + s.1) (g.2 * p.width + g.1)
    else p) = p1
  by_cases h3 : (u / 8) % 2 = 1 ∨ (u / 2) % 2 = 1
  · rw [if_pos h3, if_pos h3, fdstar_initialLoopWith_off]
    cases initialLoop (s.2 * p.width + s.1) fuel p1 with
    | none => rfl
    | some p2 => rfl
  rw [if_neg h3, if_neg h3]
  generalize (if s.2 * p.width + s.1 ≠ p1.pRobot then
      ({ p1 with d_curr := uadd (uadd p1.d_curr (dist (p1.cells (s.2 * p.width + s.1)) (p1.cells p1.pRobot))) 1
                 pRobot := s.2 * p.width + s.1 } : Planner)
    else p1) = p2
  cases hv : getMinVal p2 with
  | none => rfl
  | some r =>
    obtain ⟨p3, val⟩ := r
    simp only
    by_cases h4 : (p3.cells (s.2 * p.width + s.1)).list = List_New ∨
        Cost.lt val (getCost p3 (s.2 * p.width + s.1)) = true
    · rw [if_pos h4, if_pos h4, fdstar_replanLoopWith_off]
      cases replanLoop (s.2 * p.width + s.1) fuel p3 with
      | none => rfl
      | some r =>
        obtain ⟨p4, e⟩ := r
        cases e <;> rfl
    · rw [if_neg h4, if_neg h4]

end FocussedDStar

end RasterSim

namespace RasterSim

/-! ## Focussed D*: `getMinState` ends, and what it returns -/

/-- In an array in heap order the item in slot 1 is not above any other item. -/
theorem ordered_root_le {K : Type} {le : K → K → Prop} {key : Nat → K} {oh : Nat → Nat}
    {len : Nat} (hrefl : ∀ a, le a a) (htrans : ∀ a b c, le a b → le b c → le a c)
    (h : Ordered le key oh len) : ∀ j, 1 ≤ j → j ≤ len → le (key (oh 1)) (key (oh j)) := by
  intro j
  induction j using Nat.strong_induction_on with
  | _ j ih =>
    intro h1 h2
    by_cases hj : j = 1
    · rw [hj]
      exact hrefl _
    · have hp := h j (by omega) h2
      have := ih (j / 2) (by omega) (by omega) (by omega)
      exact htrans _ _ _ this hp

namespace FocussedDStar

open ListType

theorem fdstar_heapUpLoop_move : ∀ (fuel : Nat) (p : Planner) (idx : Nat),
    HeapMove p (heapUpLoop fuel p idx)
  | 0, p, _ => fdstar_heapMove_refl p
  | fuel + 1, p, idx => by
    simp only [heapUpLoop]
    split_ifs
    · exact fdstar_heapMove_trans (fdstar_swapSlots_move p (idx / 2) idx)
        (fdstar_heapUpLoop_move fuel _ _)
    · exact fdstar_heapMove_refl p
    · exact fdstar_heapMove_refl p

theorem fdstar_heapDownLoop_move : ∀ (fuel : Nat) (p : Planner) (idx : Nat),
    HeapMove p (heapDownLoop fuel p idx)
  | 0, p, _ => fdstar_heapMove_refl p
  | fuel + 1, p, idx => by
    simp only [heapDownLoop]
    split_ifs
    · exact fdstar_heapMove_trans (fdstar_swapSlots_move p (downTarget p idx) idx)
        (fdstar_heapDownLoop_move fuel _ _)
    · exact fdstar_heapMove_refl p

theorem fdstar_heapUp_move (p : Planner) (c : Nat) : HeapMove p (heapUp p c) := by
  unfold heapUp
  split_ifs
  · exact fdstar_heapMove_refl p
  · exact fdstar_heapUpLoop_move _ p _

theorem fdstar_heapDown_move (p : Planner) (c : Nat) : HeapMove p (heapDown p c) := by
  unfold heapDown
  split_ifs
  · exact fdstar_heapMove_refl p
  · exact fdstar_heapDownLoop_move _ p _

/-- The cells of the map on the open list whose focus is not the robot's cell. -/
def stale (N : Nat) (p : Planner) : Finset Nat :=
  (Finset.range N).filter fun c => (p.cells c).list = List_Open ∧ (p.cells c).pFocus ≠ some p.pRobot

theorem fdstar_stale_le {N : Nat} {p : Planner} (h : HeapOK N p) :
    (stale N p).card ≤ p.openListLength := by
  have := Finset.card_le_card_of_injOn (s := stale N p) (t := Finset.Icc 1 p.openListLength)
    (fun c => (p.cells c).heapIndex) ?_ ?_
  · simpa using this
  · intro c hc
    have hc' := Finset.mem_filter.1 hc
    obtain ⟨a1, a2, _⟩ := h.2 c (Finset.mem_range.1 hc'.1) hc'.2.1
    exact Finset.mem_Icc.2 ⟨a1, a2⟩
  · intro c hc d hd e
    have hc' := Finset.mem_filter.1 (Finset.mem_coe.1 hc)
    have hd' := Finset.mem_filter.1 (Finset.mem_coe.1 hd)
    obtain ⟨_, _, a3⟩ := h.2 c (Finset.mem_range.1 hc'.1) hc'.2.1
    obtain ⟨_, _, b3⟩ := h.2 d (Finset.mem_range.1 hd'.1) hd'.2.1
    have a3' : p.openHeap (p.cells c).heapIndex = c := a3
    have b3' : p.openHeap (p.cells d).heapIndex = d := b3
    have e' : (p.cells c).heapIndex = (p.cells d).heapIndex := e
    rw [← a3', ← b3', e']

/-- One round of the loop of `getMinState`. -/
def refocusStep (p : Planner) : Planner :=
  heapDown (heapUp (refocus p) (p.openHeap 1)) (p.openHeap 1)

/-- What a call of `getMinState` may have done to a cell by the state `p'`: nothing
but a move inside the open list, or (for a cell on the open list whose focus was not
the robot's cell) the assignment of `f_cost = k_cost + dist(cell, robot)`,
`fB_cost = f_cost + d_curr` and of the robot's cell as focus. -/
def CellRefocused (p p' : Planner) (d : Nat) : Prop :=
  (p'.cells d).core = (p.cells d).core ∨
  ((p.cells d).list = List_Open ∧ (p.cells d).pFocus ≠ some p.pRobot ∧
    (p'.cells d).core = ((p.cells d).backPtr, (p.cells d).x, (p.cells d).y, (p.cells d).list,
      (p.cells d).blocked, some p.pRobot, (p.cells d).h_cost, (p.cells d).k_cost,
      uadd (p.cells d).k_cost (dist (p.cells d) (p.cells p.pRobot)),
      uadd (uadd (p.cells d).k_cost (dist (p.cells d) (p.cells p.pRobot))) p.d_curr))

/-- The state `p'` comes from `p` by rounds of the loop of `getMinState`. -/
structure Refocused (p p' : Planner) : Prop where
  pRobot : p'.pRobot = p.pRobot
  d_curr : p'.d_curr = p.d_curr
  len : p'.openListLength = p.openListLength
  cells : ∀ d, CellRefocused p p' d

theorem fdstar_refocused_refl (p : Planner) : Refocused p p :=
  ⟨rfl, rfl, rfl, fun _ => Or.inl rfl⟩

theorem fdstar_dist_core {a a' b b' : Cell} (ha : a'.core = a.core ∨ (a'.x = a.x ∧ a'.y = a.y))
    (hb : b'.core = b.core ∨ (b'.x = b.x ∧ b'.y = b.y)) : dist a' b' = dist a b := by
  have hax : a'.x = a.x ∧ a'.y = a.y := by
    rcases ha with h | h
    · exact ⟨fdstar_core_x h, fdstar_core_y h⟩
    · exact h
  have hbx : b'.x = b.x ∧ b'.y = b.y := by
    rcases hb with h | h
    · exact ⟨fdstar_core_x h, fdstar_core_y h⟩
    · exact h
  unfold dist
  rw [hax.1, hax.2, hbx.1, hbx.2]

theorem fdstar_cellRefocused_xy {p p' : Planner} {d : Nat} (h : CellRefocused p p' d) :
    (p'.cells d).core = (p.cells d).core ∨
      ((p'.cells d).x = (p.cells d).x ∧ (p'.cells d).y = (p.cells d).y) := by
  rcases h with h | ⟨_, _, h⟩
  · exact Or.inl h
  · exact Or.inr ⟨congrArg (fun t => t.2.1) h, congrArg (fun t => t.2.2.1) h⟩

theorem fdstar_refocused_trans {p1 p2 p3 : Planner} (h12 : Refocused p1 p2)
    (h23 : Refocused p2 p3) : Refocused p1 p3 := by
  refine ⟨h23.pRobot.trans h12.pRobot, h23.d_curr.trans h12.d_curr, h23.len.trans h12.len,
    fun d => ?_⟩
  rcases h12.cells d with a | ⟨a1, a2, a3⟩
  · rcases h23.cells d with b | ⟨b1, b2, b3⟩
    · exact Or.inl (b.trans a)
    · right
      refine ⟨(fdstar_core_list a) ▸ b1, ?_, ?_⟩
      · rw [← fdstar_core_pFocus a, ← h12.pRobot]
        exact b2
      · rw [b3, fdstar_core_backPtr a, fdstar_core_x a, fdstar_core_y a, fdstar_core_list a,
          fdstar_core_blocked a, fdstar_core_h a, fdstar_core_k a, h12.pRobot, h12.d_curr,
          fdstar_dist_core (Or.inl a) (fdstar_cellRefocused_xy (h12.cells p1.pRobot))]
  · rcases h23.cells d with b | ⟨b1, b2, b3⟩
    · right
      exact ⟨a1, a2, b.trans a3⟩
    · exfalso
      apply b2
      rw [h12.pRobot]
      exact congrArg (fun t => t.2.2.2.2.2.1) a3

theorem fdstar_refocus_core (p : Planner) (d : Nat) :
    ((refocus p).cells d).core =
      if d = p.openHeap 1 then
        ((p.cells d).backPtr, (p.cells d).x, (p.cells d).y, (p.cells d).list,
          (p.cells d).blocked, some p.pRobot, (p.cells d).h_cost, (p.cells d).k_cost,
          uadd (p.cells d).k_cost (dist (p.cells d) (p.cells p.pRobot)),
          uadd (uadd (p.cells d).k_cost (dist (p.cells d) (p.cells p.pRobot))) p.d_curr)
      else (p.cells d).core := by
  by_cases hd : d = p.openHeap 1
  · rw [if_pos hd, hd]
    simp only [refocus, upd_same, Cell.core]
  · rw [if_neg hd]
    simp only [refocus, upd_apply, if_neg hd]

theorem fdstar_refocusStep_move (p : Planner) : HeapMove (refocus p) (refocusStep p) :=
  fdstar_heapMove_trans (fdstar_heapUp_move _ _) (fdstar_heapDown_move _ _)

/-- One round of the loop re-keys the first cell of the open list. -/
theorem fdstar_refocusStep_spec {N : Nat} {p : Planner} (h : HeapInv N p)
    (hl : 1 ≤ p.openListLength) (hf : (p.cells (p.openHeap 1)).pFocus ≠ some p.pRobot) :
    Refocused p (refocusStep p) ∧ HeapInv N (refocusStep p) ∧
      (stale N (refocusStep p)).card + 1 = (stale N p).card := by
  obtain ⟨f1, f2, _⟩ : p.openHeap 1 < N ∧ (p.cells (p.openHeap 1)).list = List_Open ∧
      (p.cells (p.openHeap 1)).heapIndex = 1 := h.1.1 1 (le_refl 1) hl
  have hm := fdstar_refocusStep_move p
  have hrob : (refocusStep p).pRobot = p.pRobot := hm.pRobot
  have hcore : ∀ d, ((refocusStep p).cells d).core = ((refocus p).cells d).core := hm.core
  refine ⟨⟨hrob, hm.d_curr, hm.len, fun d => ?_⟩, fdstar_refocus_inv h hl, ?_⟩
  · rw [CellRefocused, hcore d, fdstar_refocus_core]
    by_cases hd : d = p.openHeap 1
    · rw [if_pos hd]
      right
      rw [hd]
      exact ⟨f2, hf, rfl⟩
    · rw [if_neg hd]
      left
      rfl
  · have hmem : p.openHeap 1 ∈ stale N p := by
      simp only [stale, Finset.mem_filter, Finset.mem_range]
      exact ⟨f1, f2, hf⟩
    have he : stale N (refocusStep p) = (stale N p).erase (p.openHeap 1) := by
      ext d
      simp only [stale, Finset.mem_filter, Finset.mem_range, Finset.mem_erase]
      rw [fdstar_core_list (hcore d), fdstar_core_pFocus (hcore d), hrob]
      have hc := fdstar_refocus_core p d
      by_cases hd : d = p.openHeap 1
      · rw [if_pos hd] at hc
        have hfoc : ((refocus p).cells d).pFocus = some p.pRobot :=
          congrArg (fun t => t.2.2.2.2.2.1) hc
        rw [hfoc]
        constructor
        · rintro ⟨_, _, h3⟩
          exact absurd rfl h3
        · rintro ⟨h1, _⟩
          exact absurd hd h1
      · rw [if_neg hd] at hc
        rw [fdstar_core_list hc, fdstar_core_pFocus hc]
        constructor
        · rintro ⟨h1, h2, h3⟩
          exact ⟨hd, h1, h2, h3⟩
        · rintro ⟨_, h1, h2, h3⟩
          exact ⟨h1, h2, h3⟩
    rw [he, Finset.card_erase_of_mem hmem]
    have : 0 < (stale N p).card := Finset.card_pos.2 ⟨_, hmem⟩
    omega

/-- The loop of `getMinState` ends within as many rounds as there are cells on the open
list whose focus is not the robot's cell, and returns the first cell of the open list,
whose focus is the robot's cell. -/
theorem fdstar_minStateLoop_ends {N : Nat} : ∀ (fuel : Nat) (p : Planner), HeapInv N p →
    1 ≤ p.openListLength → (stale N p).card < fuel →
    ∃ p', minStateLoop fuel p = some (p', p'.openHeap 1) ∧ Refocused p p' ∧ HeapInv N p' ∧
      (p'.cells (p'.openHeap 1)).pFocus = some p'.pRobot
  | 0, _, _, _, hs => by omega
  | fuel + 1, p, hi, hl, hs => by
    rw [fdstar_minStateLoop_step]
    by_cases hf : (p.cells (p.openHeap 1)).pFocus = some p.pRobot
    · rw [if_pos hf]
      exact ⟨p, rfl, fdstar_refocused_refl p, hi, hf⟩
    · rw [if_neg hf]
      obtain ⟨r1, r2, r3⟩ := fdstar_refocusStep_spec hi hl hf
      obtain ⟨p', h1, h2, h3, h4⟩ := fdstar_minStateLoop_ends fuel (refocusStep p) r2
        (by rw [r1.len]; exact hl) (by omega)
      exact ⟨p', h1, fdstar_refocused_trans r1 h2, h3, h4⟩

/-- `getMinState` returns: `NULL` on an empty open list, and else the first cell of the
open list after the re-keying, whose focus is the robot's cell and whose costs are not
above those of any cell on the open list. -/
theorem fdstar_getMinState_returns {N : Nat} {p : Planner} (hi : HeapInv N p) :
    ∃ p' c, getMinState p = some (p', c) ∧ Refocused p p' ∧ HeapInv N p' ∧
      (c = none ↔ p.openListLength = 0) ∧
      ∀ pMin, c = some pMin → pMin = p'.openHeap 1 ∧
        (p'.cells pMin).pFocus = some p'.pRobot ∧
        ∀ i, 1 ≤ i → i ≤ p'.openListLength → rankLe (p'.cells pMin).rank (p'.cells (p'.openHeap i)).rank := by
  unfold getMinState
  by_cases hl : p.openListLength > 0
  · rw [if_pos hl]
    obtain ⟨p', h1, h2, h3, h4⟩ := fdstar_minStateLoop_ends (p.openListLength + 1) p hi hl
      (Nat.lt_succ_of_le (fdstar_stale_le hi.1))
    rw [h1]
    refine ⟨p', some (p'.openHeap 1), rfl, h2, h3, ?_, ?_⟩
    · constructor
      · intro h; cases h
      · intro h; omega
    · intro pMin hp
      simp only [Option.some.injEq] at hp
      subst hp
      refine ⟨rfl, h4, fun i i1 i2 => ?_⟩
      exact ordered_root_le (heapTests_refl fdstar_tests) fdstar_tests.trans h3.2.2 i i1 i2
  · rw [if_neg hl]
    refine ⟨p, none, rfl, fdstar_refocused_refl p, hi, ?_, ?_⟩
    · constructor
      · intro _; omega
      · intro _; rfl
    · intro pMin hp
      cases hp

end FocussedDStar

end RasterSim

namespace RasterSim

/-! ## Focussed D*: the invariant of an exhaustive run from scratch -/

/-- A fold whose rounds keep `P` and, while `P` holds, establish `Q` for their own item
and undo it for no item: `P` holds at the end, and `Q` for every item. -/
theorem foldl_keeps_establish {α β : Type} (P : β → Prop) (Q : α → β → Prop) (f : β → α → β) :
    ∀ (l : List α) (b : β), (∀ b a, a ∈ l → P b → P (f b a) ∧ Q a (f b a)) →
      (∀ b a a', a ∈ l → P b → Q a' b → Q a' (f b a)) → P b →
      P (l.foldl f b) ∧ ∀ a, a ∈ l → Q a (l.foldl f b)
  | [], b, _, _, hb => ⟨hb, fun a ha => by simp at ha⟩
  | a0 :: l, b, h1, h2, hb => by
    simp only [List.foldl_cons]
    obtain ⟨p1, q1⟩ := h1 b a0 (List.mem_cons_self _ _) hb
    obtain ⟨ih1, ih2⟩ := foldl_keeps_establish P Q f l (f b a0)
      (fun b' a' ha' => h1 b' a' (List.mem_cons_of_mem _ ha'))
      (fun b' a' a'' ha' => h2 b' a' a'' (List.mem_cons_of_mem _ ha')) p1
    refine ⟨ih1, fun a ha => ?_⟩
    rcases List.mem_cons.1 ha with e | e
    · subst e
      exact (foldl_keeps (fun b' => P b' ∧ Q a b') f l (f b a)
        (fun b' a' ha' hb' => ⟨(h1 b' a' (List.mem_cons_of_mem _ ha') hb'.1).1,
          h2 b' a' a (List.mem_cons_of_mem _ ha') hb'.1 hb'.2⟩) ⟨p1, q1⟩).2
    · exact ih2 a e

/-- Every cell of the map at a position adjacent to the stored position of `pMin` has
an entry in the neighbour list of lines 310-323. -/
theorem neighborsWithCost_complete (cardinal diagonal w h : Nat) (cellX cellY : Nat → Nat)
    (isBlocked : Nat → Bool) (pMin n : Nat) (hn : n < w * h)
    (hadj : Adjacent (cellX pMin, cellY pMin) (n % w, n / w)) :
    ∃ c, (n, c) ∈ DStar.neighborsWithCost cardinal diagonal w h cellX cellY isBlocked pMin := by
  obtain ⟨hne, a1, a2, a3, a4⟩ := hadj
  simp only at a1 a2 a3 a4
  have hw0 : 0 < w := by
    rcases Nat.eq_zero_or_pos w with h0 | h0
    · rw [h0] at hn; simp at hn
    · exact h0
  have hnx : n % w < w := Nat.mod_lt _ hw0
  have hny : n / w < h := Nat.div_lt_of_lt_mul hn
  have en := Nat.div_add_mod' n w
  generalize n % w = nx at hne a1 a2 hnx en
  generalize n / w = ny at hne a3 a4 hny en
  generalize hdx : ((nx : Nat) : Int) - (cellX pMin : Int) = dx
  generalize hdy : ((ny : Nat) : Int) - (cellY pMin : Int) = dy
  have hdxm : dx ∈ ([-1, 0, 1] : List Int) := by
    simp only [List.mem_cons, List.mem_singleton, List.not_mem_nil, or_false]
    omega
  have hdym : dy ∈ ([-1, 0, 1] : List Int) := by
    simp only [List.mem_cons, List.mem_singleton, List.not_mem_nil, or_false]
    omega
  have ex : (cellX pMin : Int) + dx = (nx : Int) := by omega
  have ey : (cellY pMin : Int) + dy = (ny : Int) := by omega
  have h1 : ¬ ((cellY pMin : Int) + dy = (cellY pMin : Int) ∧
      (cellX pMin : Int) + dx = (cellX pMin : Int)) := by
    rintro ⟨q1, q2⟩
    apply hne
    have e1 : cellX pMin = nx := by omega
    have e2 : cellY pMin = ny := by omega
    rw [e1, e2]
  have h2 : ¬ ((cellY pMin : Int) + dy < 0 ∨ (cellY pMin : Int) + dy ≥ (h : Int) ∨
      (cellX pMin : Int) + dx < 0 ∨ (cellX pMin : Int) + dx ≥ (w : Int)) := by
    rw [ex, ey]
    omega
  have hidx : (((cellY pMin : Int) + dy) * (w : Int) + ((cellX pMin : Int) + dx)).toNat = n := by
    rw [ex, ey]
    have : ((ny : Int) * (w : Int) + (nx : Int)) = ((ny * w + nx : Nat) : Int) := by
      push_cast
      ring
    rw [this, Int.toNat_ofNat]
    exact en
  unfold DStar.neighborsWithCost
  simp only [List.mem_flatMap, List.mem_filterMap]
  refine ⟨if isBlocked (((cellY pMin : Int) + dy) * (w : Int) + ((cellX pMin : Int) + dx)).toNat ∨
      isBlocked pMin then 2000000000
    else if (cellX pMin : Int) + dx ≠ (cellX pMin : Int) ∧
      (cellY pMin : Int) + dy ≠ (cellY pMin : Int) then diagonal else cardinal,
    dy, hdym, dx, hdxm, ?_⟩
  rw [if_neg h1, if_neg h2]
  simp only [Option.some.injEq, Prod.mk.injEq]
  exact ⟨hidx, trivial⟩

namespace FocussedDStar

open ListType

/-- The costs `insert` gives the cell: `f = k + dist(cell, robot)` and
`fB = f + d_curr`. -/
theorem fdstar_insert_rank (p : Planner) (c h_cost : Nat) :
    ((insert p c h_cost).cells c).f_cost =
      uadd (insertK (p.cells c) h_cost) (dist (p.cells c) (p.cells p.pRobot)) ∧
    ((insert p c h_cost).cells c).fB_cost =
      uadd (uadd (insertK (p.cells c) h_cost) (dist (p.cells c) (p.cells p.pRobot))) p.d_curr := by
  by_cases ho : (p.cells c).list = List_Open
  · rw [fdstar_insert_open p c h_cost ho]
    have hm := fdstar_heapMove_trans (fdstar_heapUp_move (rekey p c h_cost) c)
      (fdstar_heapDown_move (heapUp (rekey p c h_cost) c) c)
    have hcore := hm.core c
    have e1 : ((finishInsert (heapDown (heapUp (rekey p c h_cost) c) c) c h_cost).cells c).f_cost =
        ((heapDown (heapUp (rekey p c h_cost) c) c).cells c).f_cost := by
      simp only [finishInsert, upd_same]
    have e2 : ((finishInsert (heapDown (heapUp (rekey p c h_cost) c) c) c h_cost).cells c).fB_cost =
        ((heapDown (heapUp (rekey p c h_cost) c) c).cells c).fB_cost := by
      simp only [finishInsert, upd_same]
    have e3 : ((heapDown (heapUp (rekey p c h_cost) c) c).cells c).f_cost =
        ((rekey p c h_cost).cells c).f_cost := congrArg (fun t => t.2.2.2.2.2.2.2.2.1) hcore
    have e4 : ((heapDown (heapUp (rekey p c h_cost) c) c).cells c).fB_cost =
        ((rekey p c h_cost).cells c).fB_cost := congrArg (fun t => t.2.2.2.2.2.2.2.2.2) hcore
    rw [e1, e2, e3, e4]
    simp only [rekey, upd_same, insertK, if_pos ho]
    exact ⟨trivial, trivial⟩
  · rw [fdstar_insert_other p c h_cost ho]
    have hm := fdstar_heapUp_move (pushed p c h_cost) c
    have hcore := hm.core c
    have e1 : ((finishInsert (heapUp (pushed p c h_cost) c) c h_cost).cells c).f_cost =
        ((heapUp (pushed p c h_cost) c).cells c).f_cost := by
      simp only [finishInsert, upd_same]
    have e2 : ((finishInsert (heapUp (pushed p c h_cost) c) c h_cost).cells c).fB_cost =
        ((heapUp (pushed p c h_cost) c).cells c).fB_cost := by
      simp only [finishInsert, upd_same]
    have e3 : ((heapUp (pushed p c h_cost) c).cells c).f_cost =
        ((pushed p c h_cost).cells c).f_cost := congrArg (fun t => t.2.2.2.2.2.2.2.2.1) hcore
    have e4 : ((heapUp (pushed p c h_cost) c).cells c).fB_cost =
        ((pushed p c h_cost).cells c).fB_cost := congrArg (fun t => t.2.2.2.2.2.2.2.2.2) hcore
    rw [e1, e2, e3, e4]
    simp only [pushed, upd_same, insertK, if_neg ho]
    exact ⟨trivial, trivial⟩

/-- The neighbour list reads the size and the fields `x`, `y` and `blocked` only. -/
theorem fdstar_neighbors_congr {p p' : Planner} (hw : p'.width = p.width)
    (hh : p'.height = p.height) (hx : ∀ c, (p'.cells c).x = (p.cells c).x)
    (hy : ∀ c, (p'.cells c).y = (p.cells c).y)
    (hb : ∀ c, (p'.cells c).blocked = (p.cells c).blocked) (pMin : Nat) :
    p'.neighbors pMin = p.neighbors pMin := by
  unfold Planner.neighbors
  rw [hw, hh, show (fun i => (p'.cells i).x) = (fun i => (p.cells i).x) from funext hx,
    show (fun i => (p'.cells i).y) = (fun i => (p.cells i).y) from funext hy,
    show (fun i => (p'.cells i).blocked) = (fun i => (p.cells i).blocked) from funext hb]

/-- Every cell of the map next to a cell of the map stands in its neighbour list, with
the arc cost of the map. -/
theorem fdstar_neighbors_complete {m : GridMap} {p : Planner} (h : Static m p) (pMin n : Nat)
    (hp : pMin < m.width * m.height) (hn : n < m.width * m.height)
    (hadj : Adjacent (posOf m.width pMin) (posOf m.width n)) :
    (n, arcCost 5 7 m pMin n) ∈ p.neighbors pMin := by
  obtain ⟨c, hc⟩ := neighborsWithCost_complete 5 7 m.width m.height (fun i => (p.cells i).x)
    (fun i => (p.cells i).y) (fun i => (p.cells i).blocked) pMin n hn (by
      simp only
      rw [(h.xy pMin hp).1, (h.xy pMin hp).2]
      exact hadj)
  have hm : (n, c) ∈ p.neighbors pMin := by
    unfold Planner.neighbors
    rw [h.width, h.height]
    exact hc
  rw [← (fdstar_neighbors_static h pMin n c hp hm).2.2.1]
  exact hm

/-- The invariant of an exhaustive run from scratch, on top of `Scratch`: the open list
is in heap order; `d_curr` is zero and the cells on the open list but the goal carry
`f = k + dist(cell, robot)` and `fB = f`; the goal keeps `h = 0`; a closed cell has `h`
below the obstacle cost, and none of its neighbours is new or has an `h` above its cost
over the cell (the cell `ex`, whose neighbours are being worked through, left aside);
and an `h` below the obstacle cost is the cost of a chain of free cells to the goal. -/
structure Full (m : GridMap) (pGoal : Nat) (ex : Option Nat) (p : Planner) : Prop where
  scratch : Scratch m pGoal p
  focused : Focused (m.width * m.height) p
  heap : HeapInv (m.width * m.height) p
  dcurr : p.d_curr = 0
  robot : p.pRobot < m.width * m.height
  goalIn : pGoal < m.width * m.height
  goalH : (p.cells pGoal).h_cost = 0
  goalList : (p.cells pGoal).list ≠ List_New
  keyed : ∀ c, c < m.width * m.height → (p.cells c).list = List_Open → c ≠ pGoal →
    (p.cells c).f_cost = uadd (p.cells c).k_cost (dist (p.cells c) (p.cells p.pRobot)) ∧
    (p.cells c).fB_cost = uadd (p.cells c).f_cost p.d_curr
  closedLow : ∀ x, x < m.width * m.height → (p.cells x).list = List_Closed →
    (p.cells x).h_cost < 2000000000
  closed : ∀ x, x < m.width * m.height → (p.cells x).list = List_Closed → some x ≠ ex →
    ∀ n, n < m.width * m.height → Adjacent (posOf m.width x) (posOf m.width n) →
      (p.cells n).list ≠ List_New ∧
      (p.cells n).h_cost ≤ arcPlus (arcCost 5 7 m x n) (p.cells x).h_cost
  real : ∀ c, c < m.width * m.height → (p.cells c).list ≠ List_New →
    (p.cells c).h_cost < 2000000000 →
    ∃ l, FreePath m (posOf m.width c) (posOf m.width pGoal) l ∧
      pathCost 5 7 l = (p.cells c).h_cost

/-- Taking the first cell off the open list keeps the invariant, with that cell as the
cell whose neighbours are yet to be worked through. -/
theorem fdstar_popped_full {m : GridMap} {pGoal : Nat} {p p' : Planner}
    (hI : Full m pGoal none p) (r : Nat)
    (hP : Popped (m.width * m.height) p p' r) (hH : HeapInv (m.width * m.height) p')
    (hopen : (p.cells r).list = List_Open) (hk : (p.cells r).k_cost < 2000000000)
    (hr : r < m.width * m.height) :
    Full m pGoal (some r) p' := by
  obtain ⟨hS1, hF1, _⟩ := fdstar_popped_scratch hI.scratch hI.focused r hP hopen
  have hx : ∀ d, (p'.cells d).x = (p.cells d).x := fun d => by
    by_cases hd : d = r
    · rw [hd, hP.c_x]
    · exact fdstar_core_x (hP.other d hd)
  have hy : ∀ d, (p'.cells d).y = (p.cells d).y := fun d => by
    by_cases hd : d = r
    · rw [hd, hP.c_y]
    · exact fdstar_core_y (hP.other d hd)
  have hh : ∀ d, (p'.cells d).h_cost = (p.cells d).h_cost := fun d => by
    by_cases hd : d = r
    · rw [hd, hP.c_h]
    · exact fdstar_core_h (hP.other d hd)
  have hnew : ∀ d, (p'.cells d).list ≠ List_New → (p.cells d).list ≠ List_New := fun d h => by
    by_cases hd : d = r
    · rw [hd, hopen]; simp
    · rw [← fdstar_core_list (hP.other d hd)]; exact h
  have hnew' : ∀ d, (p.cells d).list ≠ List_New → (p'.cells d).list ≠ List_New := fun d h => by
    by_cases hd : d = r
    · rw [hd, hP.c_list]; simp
    · rw [fdstar_core_list (hP.other d hd)]; exact h
  have hcl : ∀ d, d ≠ r → (p'.cells d).list = List_Closed → (p.cells d).list = List_Closed :=
    fun d hd h => by rw [← fdstar_core_list (hP.other d hd)]; exact h
  refine ⟨hS1, hF1, hH, hP.d_curr.trans hI.dcurr, hP.pRobot ▸ hI.robot, hI.goalIn,
    (hh pGoal).trans hI.goalH,
    hnew' pGoal hI.goalList, ?_, ?_, ?_, ?_⟩
  · intro c hc ho hcg
    have hcr : c ≠ r := by
      intro e
      rw [e, hP.c_list] at ho
      cases ho
    have hco := hP.other c hcr
    rw [fdstar_core_list hco] at ho
    obtain ⟨k1, k2⟩ := hI.keyed c hc ho hcg
    have hf : (p'.cells c).f_cost = (p.cells c).f_cost := congrArg (fun t => t.2.2.2.2.2.2.2.2.1) hco
    have hfB : (p'.cells c).fB_cost = (p.cells c).fB_cost :=
      congrArg (fun t => t.2.2.2.2.2.2.2.2.2) hco
    have hd : dist (p'.cells c) (p'.cells p'.pRobot) = dist (p.cells c) (p.cells p.pRobot) := by
      rw [hP.pRobot]
      exact fdstar_dist_core (Or.inr ⟨hx c, hy c⟩) (Or.inr ⟨hx _, hy _⟩)
    rw [hf, hfB, fdstar_core_k hco, hd, hP.d_curr]
    exact ⟨k1, k2⟩
  · intro x hx' hc
    rw [hh]
    by_cases hxr : x = r
    · rw [hxr, ← hI.scratch.kh r hr hopen]
      exact hk
    · exact hI.closedLow x hx' (hcl x hxr hc)
  · intro x hx' hc hex n hn hadj
    have hxr : x ≠ r := fun e => hex (by rw [e])
    obtain ⟨c1, c2⟩ := hI.closed x hx' (hcl x hxr hc) (by simp) n hn hadj
    rw [hh, hh]
    exact ⟨hnew' n c1, c2⟩
  · intro c hc hn hlow
    rw [hh] at hlow ⊢
    exact hI.real c hc (hnew c hn) hlow

/-- The cost of the arc between two free cells of the map is the cost of the move
between their positions. -/
theorem fdstar_arcCost_free (m : GridMap) (a b : Nat)
    (ha : m.pixel (a % m.width) (a / m.width) = 0) (hb : m.pixel (b % m.width) (b / m.width) = 0) :
    arcCost 5 7 m a b = stepCost 5 7 (posOf m.width b) (posOf m.width a) := by
  unfold arcCost stepCost posOf
  rw [if_neg (by omega)]

/-- A neighbour takes the cell whose neighbours are worked through as its parent: the
invariant is kept, the other cells are left alone, and the neighbour is on the open
list with its cost over the cell as `h`. -/
theorem fdstar_adopt_full {m : GridMap} {pGoal : Nat} {q q' : Planner} (r nb : Nat)
    (hI : Full m pGoal (some r) q) (hr : r < m.width * m.height) (hnb : nb < m.width * m.height)
    (hne : nb ≠ r) (hcl : (q.cells r).list = List_Closed) (hfree : (q.cells r).blocked = false)
    (hadj : Adjacent (posOf m.width r) (posOf m.width nb))
    (hlow : (q.cells nb).list = List_New ∨
      arcPlus (arcCost 5 7 m r nb) (q.cells r).h_cost < (q.cells nb).h_cost)
    (hq' : q' = adopt q r nb (arcPlus (arcCost 5 7 m r nb) (q.cells r).h_cost)) :
    Full m pGoal (some r) q' ∧
      potential (m.width * m.height) q' + 1 ≤ potential (m.width * m.height) q ∧
      (∀ d, d ≠ nb → (q'.cells d).core = (q.cells d).core) ∧ nb ≠ pGoal ∧
      (q'.cells nb).list = List_Open ∧
      (q'.cells nb).h_cost = arcPlus (arcCost 5 7 m r nb) (q.cells r).h_cost ∧
      q'.pRobot = q.pRobot ∧ q'.fullInit = q.fullInit := by
  have hS := hI.scratch
  have hh := hI.closedLow r hr hcl
  obtain ⟨r1, r2, r3, r4, r5, r6⟩ :=
    fdstar_adopt_scratch hS hI.focused r nb hr hnb hne hcl hfree hh hadj hlow
  have hheap := fdstar_adopt_heap hI.heap r nb
    (arcPlus (arcCost 5 7 m r nb) (q.cells r).h_cost) hnb
  have ins := fdstar_insert_spec
    (fdstar_setCell_heap hS.heap nb { q.cells nb with backPtr := some r } rfl rfl) nb hnb
    (arcPlus (arcCost 5 7 m r nb) (q.cells r).h_cost)
  have rk := fdstar_insert_rank
    { q with cells := upd q.cells nb { q.cells nb with backPtr := some r } } nb
    (arcPlus (arcCost 5 7 m r nb) (q.cells r).h_cost)
  rw [← hq'] at r1 r2 r3 r4 r5 r6 hheap
  have ins' : Inserted (m.width * m.height)
      { q with cells := upd q.cells nb { q.cells nb with backPtr := some r } } q' nb
      (arcPlus (arcCost 5 7 m r nb) (q.cells r).h_cost) := by
    rw [hq']; exact ins
  have rk' : (q'.cells nb).f_cost =
      uadd (insertK { q.cells nb with backPtr := some r }
          (arcPlus (arcCost 5 7 m r nb) (q.cells r).h_cost))
        (dist { q.cells nb with backPtr := some r }
          ((upd q.cells nb { q.cells nb with backPtr := some r }) q.pRobot)) ∧
      (q'.cells nb).fB_cost =
      uadd (uadd (insertK { q.cells nb with backPtr := some r }
          (arcPlus (arcCost 5 7 m r nb) (q.cells r).h_cost))
        (dist { q.cells nb with backPtr := some r }
          ((upd q.cells nb { q.cells nb with backPtr := some r }) q.pRobot))) q.d_curr := by
    rw [hq']
    have := rk
    simp only [upd_same] at this
    exact this
  clear ins rk
  set hnew := arcPlus (arcCost 5 7 m r nb) (q.cells r).h_cost with hhnew
  have e0 : ∀ d, d ≠ nb →
      ((upd q.cells nb { q.cells nb with backPtr := some r }) d).core = (q.cells d).core :=
    fun d hd => by rw [upd_other _ _ _ _ hd]
  have hother : ∀ d, d ≠ nb → (q'.cells d).core = (q.cells d).core := fun d hd =>
    (ins'.other d hd).trans (e0 d hd)
  have hk : insertK { q.cells nb with backPtr := some r } hnew = hnew := by
    unfold insertK
    show (if (q.cells nb).list = List_Open then
        (if hnew < (q.cells nb).k_cost then hnew else (q.cells nb).k_cost)
      else if (q.cells nb).list = List_New then hnew else min (q.cells nb).h_cost hnew) = hnew
    split_ifs with h1 h2 h3
    · rfl
    · rcases hlow with h4 | h4
      · rw [h1] at h4; cases h4
      · rw [hS.kh nb hnb h1] at h2
        exact absurd h4 h2
    · rfl
    · rcases hlow with h4 | h4
      · exact absurd h4 h3
      · exact Nat.min_eq_right (le_of_lt h4)
  have n2 : (q'.cells nb).x = (q.cells nb).x := by
    have := ins'.c_x
    simp only [upd_same] at this
    exact this
  have n3 : (q'.cells nb).y = (q.cells nb).y := by
    have := ins'.c_y
    simp only [upd_same] at this
    exact this
  have n4 : (q'.cells nb).h_cost = hnew := ins'.c_h
  have n5 : (q'.cells nb).k_cost = hnew := by
    have := ins'.c_k
    simp only [upd_same] at this
    exact this.trans hk
  have n6 : (q'.cells nb).blocked = (q.cells nb).blocked := by
    have := ins'.c_blocked
    simp only [upd_same] at this
    exact this
  have n7 : (q'.cells nb).list = List_Open := ins'.c_list
  have hrob : q'.pRobot = q.pRobot := ins'.pRobot
  have hx : ∀ d, (q'.cells d).x = (q.cells d).x := fun d => by
    by_cases hd : d = nb
    · rw [hd, n2]
    · exact fdstar_core_x (hother d hd)
  have hy : ∀ d, (q'.cells d).y = (q.cells d).y := fun d => by
    by_cases hd : d = nb
    · rw [hd, n3]
    · exact fdstar_core_y (hother d hd)
  have hng : nb ≠ pGoal := by
    intro e
    rw [e] at hlow
    rcases hlow with h4 | h4
    · exact hI.goalList h4
    · rw [hI.goalH] at h4
      omega
  have hnew' : ∀ d, (q.cells d).list ≠ List_New → (q'.cells d).list ≠ List_New := fun d h => by
    by_cases hd : d = nb
    · rw [hd, n7]; simp
    · rw [fdstar_core_list (hother d hd)]; exact h
  refine ⟨⟨r1, r2, hheap, ins'.d_curr.trans hI.dcurr, hrob ▸ hI.robot, hI.goalIn,
    ?_, ?_, ?_, ?_, ?_, ?_⟩, r3,
    hother, hng, n7, n4, hrob, r6⟩
  · rw [fdstar_core_h (hother pGoal (fun e => hng e.symm))]
    exact hI.goalH
  · exact hnew' pGoal hI.goalList
  · -- the costs of the cells on the open list
    intro c hc ho hcg
    have hd : dist (q'.cells c) (q'.cells q'.pRobot) = dist (q.cells c) (q.cells q.pRobot) := by
      rw [hrob]
      exact fdstar_dist_core (Or.inr ⟨hx c, hy c⟩) (Or.inr ⟨hx _, hy _⟩)
    by_cases hcn : c = nb
    · have hd2 : dist { q.cells nb with backPtr := some r }
          ((upd q.cells nb { q.cells nb with backPtr := some r }) q.pRobot) =
          dist (q.cells nb) (q.cells q.pRobot) := by
        refine fdstar_dist_core (Or.inr ⟨rfl, rfl⟩) ?_
        by_cases hrn : q.pRobot = nb
        · rw [hrn, upd_same]
          exact Or.inr ⟨rfl, rfl⟩
        · rw [upd_other _ _ _ _ hrn]
          exact Or.inl rfl
      rw [hd, hcn, rk'.1, rk'.2, n5, hk, hd2, ins'.d_curr]
      exact ⟨rfl, rfl⟩
    · have hco := hother c hcn
      rw [fdstar_core_list hco] at ho
      obtain ⟨k1, k2⟩ := hI.keyed c hc ho hcg
      have hf : (q'.cells c).f_cost = (q.cells c).f_cost :=
        congrArg (fun t => t.2.2.2.2.2.2.2.2.1) hco
      have hfB : (q'.cells c).fB_cost = (q.cells c).fB_cost :=
        congrArg (fun t => t.2.2.2.2.2.2.2.2.2) hco
      rw [hf, hfB, fdstar_core_k hco, hd, ins'.d_curr]
      exact ⟨k1, k2⟩
  · -- closed cells have a low cost
    intro x hx' hc
    have hxn : x ≠ nb := by
      intro e
      rw [e, n7] at hc
      cases hc
    rw [fdstar_core_list (hother x hxn)] at hc
    rw [fdstar_core_h (hother x hxn)]
    exact hI.closedLow x hx' hc
  · -- the neighbours of closed cells
    intro x hx' hc hex n hn hadj'
    have hxn : x ≠ nb := by
      intro e
      rw [e, n7] at hc
      cases hc
    rw [fdstar_core_list (hother x hxn)] at hc
    rw [fdstar_core_h (hother x hxn)]
    obtain ⟨c1, c2⟩ := hI.closed x hx' hc hex n hn hadj'
    refine ⟨hnew' n c1, ?_⟩
    by_cases hnn : n = nb
    · rw [hnn, n4]
      rw [hnn] at c1 c2
      rcases hlow with h4 | h4
      · exact absurd h4 c1
      · omega
    · rw [fdstar_core_h (hother n hnn)]
      exact c2
  · -- costs below the obstacle cost are costs of chains
    intro c hc hn hl
    by_cases hcn : c = nb
    · rw [hcn, n4] at hl ⊢
      have hb1 := hS.static.blocked nb hnb
      have hb2 := hS.static.blocked r hr
      rcases fdstar_arcCost_cases m r nb with ⟨c1, _⟩ | ⟨c1, c2, c3⟩
      · exfalso
        rw [hhnew, c1] at hl
        unfold arcPlus OBSTACLE_COST at hl
        simp at hl
      · obtain ⟨l, hl1, hl2⟩ := hI.real r hr (by rw [hcl]; simp) hh
        have hfn : FreeCell m (posOf m.width nb) := by
          refine fdstar_freeCell hS.static nb hnb ?_
          cases hb : (q.cells nb).blocked
          · rfl
          · exact absurd (hb1.1 hb) c2
        obtain ⟨f1, f2⟩ := freePath_cons m _ _ _ l hl1 (adjacent_symm hadj) hfn
        refine ⟨_, f1, ?_⟩
        rw [f2, hl2, ← fdstar_arcCost_free m r nb (by omega) (by omega), hhnew]
        unfold arcPlus uadd OBSTACLE_COST
        rcases c1 with c1 | c1 <;> rw [c1] <;> simp <;> omega
    · rw [fdstar_core_list (hother c hcn)] at hn
      rw [fdstar_core_h (hother c hcn)] at hl ⊢
      exact hI.real c hc hn hl

/-- The loop of lines 380-390 over the neighbours of the cell taken off the open list
completes the invariant: afterwards no neighbour of that cell is new or has an `h`
above its cost over the cell. -/
theorem fdstar_propagateLower_full {m : GridMap} {pGoal : Nat} {p : Planner} (r : Nat)
    (hI : Full m pGoal (some r) p) (hr : r < m.width * m.height)
    (hcl : (p.cells r).list = List_Closed) (hfree : (p.cells r).blocked = false) :
    Full m pGoal none (propagateLower p r (p.neighbors r)) ∧
      potential (m.width * m.height) (propagateLower p r (p.neighbors r)) ≤
        potential (m.width * m.height) p ∧
      ((propagateLower p r (p.neighbors r)).cells r).list = List_Closed ∧
      ((propagateLower p r (p.neighbors r)).cells pGoal).list = (p.cells pGoal).list ∧
      (propagateLower p r (p.neighbors r)).pRobot = p.pRobot ∧
      (propagateLower p r (p.neighbors r)).fullInit = p.fullInit := by
  have hnbs := fun nb hnb => fdstar_neighbors_static hI.scratch.static r nb.1 nb.2 hr hnb
  have hcomp := fun n hn hadj => fdstar_neighbors_complete hI.scratch.static r n hr hn hadj
  generalize p.neighbors r = nbs at hnbs hcomp
  unfold propagateLower
  have key := foldl_keeps_establish
    (fun q : Planner => Full m pGoal (some r) q ∧
      potential (m.width * m.height) q ≤ potential (m.width * m.height) p ∧
      (q.cells r).core = (p.cells r).core ∧ (q.cells pGoal).list = (p.cells pGoal).list ∧
      q.pRobot = p.pRobot ∧ q.fullInit = p.fullInit)
    (fun (nb : Nat × Nat) (q : Planner) => (q.cells nb.1).list ≠ List_New ∧
      (q.cells nb.1).h_cost ≤ arcPlus nb.2 (p.cells r).h_cost)
    (fun (p : Planner) (nb : Nat × Nat) =>
      if (p.cells nb.1).list = List_New ∨
          (p.cells nb.1).h_cost > arcPlus nb.2 (p.cells r).h_cost ∨
          ((p.cells nb.1).backPtr = some r ∧
            (p.cells nb.1).h_cost ≠ arcPlus nb.2 (p.cells r).h_cost) then
        adopt p r nb.1 (arcPlus nb.2 (p.cells r).h_cost)
      else p)
    nbs p
    (fun q nb hnb ⟨hq, hpot, hcore, hgl, hrob, hfi⟩ => by
      obtain ⟨g1, g2, g3, g4⟩ := hnbs nb hnb
      simp only
      split_ifs with hc
      · rw [g3]
        rw [g3] at hc
        have hlow : (q.cells nb.1).list = List_New ∨
            arcPlus (arcCost 5 7 m r nb.1) (q.cells r).h_cost < (q.cells nb.1).h_cost := by
          rcases hc with hc | hc | ⟨hc1, hc2⟩
          · exact Or.inl hc
          · exact Or.inr hc
          · right
            have := (hq.scratch.back nb.1 r g1 hc1).2.2.2
            omega
        obtain ⟨r1, r2, r3, r4, r5, r6, r7, r8⟩ := fdstar_adopt_full r nb.1 hq hr g1 g2
          (by rw [fdstar_core_list hcore]; exact hcl)
          (by rw [fdstar_core_blocked hcore]; exact hfree) g4 hlow rfl
        refine ⟨⟨r1, by omega, (r3 r (fun e => g2 e.symm)).trans hcore, ?_, r7.trans hrob,
          r8.trans hfi⟩, ?_, ?_⟩
        · rw [fdstar_core_list (r3 pGoal (fun e => r4 e.symm))]
          exact hgl
        · rw [r5]; simp
        · rw [r6, fdstar_core_h hcore]
      · push_neg at hc
        refine ⟨⟨hq, hpot, hcore, hgl, hrob, hfi⟩, hc.1, ?_⟩
        rw [← fdstar_core_h hcore]
        exact hc.2.1)
    (fun q nb a' hnb ⟨hq, hpot, hcore, hgl, hrob, hfi⟩ ⟨q1, q2⟩ => by
      obtain ⟨g1, g2, g3, g4⟩ := hnbs nb hnb
      simp only
      split_ifs with hc
      · rw [g3]
        rw [g3] at hc
        have hlow : (q.cells nb.1).list = List_New ∨
            arcPlus (arcCost 5 7 m r nb.1) (q.cells r).h_cost < (q.cells nb.1).h_cost := by
          rcases hc with hc | hc | ⟨hc1, hc2⟩
          · exact Or.inl hc
          · exact Or.inr hc
          · right
            have := (hq.scratch.back nb.1 r g1 hc1).2.2.2
            omega
        obtain ⟨r1, r2, r3, r4, r5, r6, r7, r8⟩ := fdstar_adopt_full r nb.1 hq hr g1 g2
          (by rw [fdstar_core_list hcore]; exact hcl)
          (by rw [fdstar_core_blocked hcore]; exact hfree) g4 hlow rfl
        by_cases ha : a'.1 = nb.1
        · rw [ha, r5, r6]
          rw [ha] at q1 q2
          refine ⟨by simp, ?_⟩
          rcases hlow with h4 | h4
          · exact absurd h4 q1
          · omega
        · rw [fdstar_core_list (r3 a'.1 ha), fdstar_core_h (r3 a'.1 ha)]
          exact ⟨q1, q2⟩
      · exact ⟨q1, q2⟩)
    ⟨hI, le_refl _, rfl, rfl, rfl, rfl⟩
  obtain ⟨⟨k1, k2, k3, k4, k5, k6⟩, kq⟩ := key
  refine ⟨⟨k1.scratch, k1.focused, k1.heap, k1.dcurr, k1.robot, k1.goalIn, k1.goalH, k1.goalList,
    k1.keyed, k1.closedLow, ?_, k1.real⟩, k2, ?_, k4, k5, k6⟩
  · intro x hx hc _ n hn hadj
    by_cases hxr : x = r
    · rw [hxr] at hadj ⊢
      have := kq (n, arcCost 5 7 m r n) (hcomp n hn hadj)
      simp only at this
      rw [fdstar_core_h k3]
      exact this
    · exact k1.closed x hx hc (fun e => hxr (Option.some.inj e)) n hn hadj
  · rw [fdstar_core_list k3]
    exact hcl

/-- One round of `processState` in an exhaustive run from scratch keeps the invariant
and closes the first cell of the open list; the goal stays closed. -/
theorem fdstar_processState_full {m : GridMap} {pGoal : Nat} {p p0 : Planner}
    (hg : getMinState p = some (p0, some (p0.openHeap 1)))
    (hI : Full m pGoal none p0) (hl : 1 ≤ p0.openListLength)
    (hk : (p0.cells (p0.openHeap 1)).k_cost < 2000000000) :
    ∃ p3 val, processState p = some (p3, val) ∧ Full m pGoal none p3 ∧
      potential (m.width * m.height) p3 + 1 ≤ potential (m.width * m.height) p0 ∧
      (p3.openListLength = 0 ∨ val.c2 = (p3.cells (p3.openHeap 1)).k_cost) ∧
      getMinState p3 = (if p3.openListLength = 0 then some (p3, none)
        else some (p3, some (p3.openHeap 1))) ∧
      p3.fullInit = p0.fullInit ∧
      (p3.cells pGoal).list =
        (if pGoal = p0.openHeap 1 then List_Closed else (p0.cells pGoal).list) := by
  have hS := hI.scratch
  obtain ⟨a1, a2, a3⟩ := hS.heap.1 1 (le_refl 1) hl
  have hP := fdstar_popMin_spec hS.heap hl
  have hH := fdstar_popMin_inv hI.heap hl
  obtain ⟨hS1, hF1, hpot⟩ := fdstar_popped_scratch hS hI.focused (p0.openHeap 1) hP a2
  have hI1 := fdstar_popped_full hI (p0.openHeap 1) hP hH a2 hk a1
  have hkh := hS.kh _ a1 a2
  have hfree : (p0.cells (p0.openHeap 1)).blocked = false := by
    cases hb : (p0.cells (p0.openHeap 1)).blocked
    · rfl
    · have := hS.obst _ a1 (by rw [a2]; simp) hb
      omega
  unfold processState
  rw [hg]
  simp only
  have hlf : ∀ val, lowerFromNeighbors (popMin p0 (p0.openHeap 1)) (p0.openHeap 1) val
      (((popMin p0 (p0.openHeap 1)).cells (p0.openHeap 1)).k_cost)
      ((popMin p0 (p0.openHeap 1)).neighbors (p0.openHeap 1)) = popMin p0 (p0.openHeap 1) := by
    intro val
    unfold lowerFromNeighbors
    rw [if_neg (by rw [hP.c_h, hP.c_k]; omega)]
  rw [hlf, if_pos (by rw [hP.c_h, hP.c_k]; exact hkh)]
  obtain ⟨r1, r2, r3, r4, r5, r6⟩ := fdstar_propagateLower_full (p0.openHeap 1) hI1 a1 hP.c_list
    (by rw [hP.c_blocked]; exact hfree)
  obtain ⟨val, hv1, hv2⟩ := fdstar_getMinVal_focused r1.scratch.heap r1.focused
  refine ⟨_, val, hv1, r1, by omega, hv2, ?_, r6.trans hP.fullInit, ?_⟩
  · split_ifs with h0
    · unfold getMinState
      rw [if_neg (by omega)]
    · exact fdstar_getMinState_focused r1.scratch.heap r1.focused (by omega)
  · rw [r4]
    by_cases e : pGoal = p0.openHeap 1
    · rw [if_pos e, e, hP.c_list]
    · rw [if_neg e, fdstar_core_list (hP.other pGoal e)]

/-- With `_fullInit` set, the first `processState` loop of a run from scratch goes on
until the open list is empty or the `k` of its first cell is not below the obstacle
cost; it ends when the fuel exceeds the potential, and the invariant holds then. -/
theorem fdstar_initialLoop_full {m : GridMap} {pGoal : Nat} (pStart : Nat) :
    ∀ (fuel : Nat) (p p0 : Planner), getMinState p = some (p0, some (p0.openHeap 1)) →
      Full m pGoal none p0 → 1 ≤ p0.openListLength →
      (p0.cells (p0.openHeap 1)).k_cost < 2000000000 → p0.fullInit = true →
      ((p0.cells pGoal).list = List_Closed ∨ pGoal = p0.openHeap 1) →
      potential (m.width * m.height) p0 < fuel →
      ∃ p', initialLoop pStart fuel p = some p' ∧ Full m pGoal none p' ∧
        (p'.cells pGoal).list = List_Closed ∧
        (p'.openListLength = 0 ∨ 2000000000 ≤ (p'.cells (p'.openHeap 1)).k_cost)
  | 0, _, _, _, _, _, _, _, _, hφ => by omega
  | fuel + 1, p, p0, hg, hI, hl, hk, hfi, hgo, hφ => by
    obtain ⟨p3, val, e, r1, r3, r4, r5, r6, r7⟩ := fdstar_processState_full hg hI hl hk
    have hgc : (p3.cells pGoal).list = List_Closed := by
      rw [r7]
      rcases hgo with h | h
      · rw [h]; simp
      · rw [if_pos h]
    unfold initialLoop
    rw [e]
    simp only
    have c1 : ¬ ((!p3.fullInit) = true ∧ (p3.cells pStart).list = List_Closed) := by
      rw [r6, hfi]
      simp
    rw [if_neg c1]
    by_cases c2 : p3.openListLength = 0
    · rw [if_pos c2]
      exact ⟨p3, rfl, r1, hgc, Or.inl c2⟩
    · rw [if_neg c2]
      have r4' : val.c2 = (p3.cells (p3.openHeap 1)).k_cost := by
        rcases r4 with r4 | r4
        · exact absurd r4 c2
        · exact r4
      by_cases c3 : val.c2 ≥ OBSTACLE_COST
      · rw [if_pos c3]
        refine ⟨p3, rfl, r1, hgc, Or.inr ?_⟩
        rw [← r4']
        exact c3
      · rw [if_neg c3]
        rw [if_neg c2] at r5
        refine fdstar_initialLoop_full pStart fuel p3 p3 r5 r1 (by omega) ?_ (r6.trans hfi)
          (Or.inl hgc) (by omega)
        rw [← r4']
        unfold OBSTACLE_COST at c3
        omega

/-- The distance of `dist` between two cells with coordinates below 65536. -/
theorem fdstar_dist_le (a b : Cell) (h1 : a.x < 65536) (h2 : a.y < 65536) (h3 : b.x < 65536)
    (h4 : b.y < 65536) : dist a b ≤ 458745 := by
  unfold dist
  simp only
  omega

/-- The stored coordinates of a cell of a map of at most 65536 columns and rows. -/
theorem fdstar_static_xy_lt {m : GridMap} {p : Planner} (h : Static m p) (hw : m.width ≤ USHORT)
    (hh : m.height ≤ USHORT) (c : Nat) (hc : c < m.width * m.height) :
    (p.cells c).x < 65536 ∧ (p.cells c).y < 65536 := by
  have hw0 : 0 < m.width := by
    rcases Nat.eq_zero_or_pos m.width with h0 | h0
    · rw [h0] at hc; simp at hc
    · exact h0
  rw [(h.xy c hc).1, (h.xy c hc).2]
  have h1 := Nat.mod_lt c hw0
  have h2 : c / m.width < m.height := (Nat.div_lt_iff_lt_mul hw0).2 (by rw [Nat.mul_comm]; exact hc)
  unfold USHORT at hw hh
  omega

/-- When the loop has ended, a cell that is still on the open list has an `h` of at
least the obstacle cost less the largest value of `dist`. -/
theorem fdstar_full_open {m : GridMap} {pGoal : Nat} {p : Planner} (hI : Full m pGoal none p)
    (hw : m.width ≤ USHORT) (hh : m.height ≤ USHORT)
    (hgc : (p.cells pGoal).list = List_Closed)
    (hend : p.openListLength = 0 ∨ 2000000000 ≤ (p.cells (p.openHeap 1)).k_cost)
    (c : Nat) (hc : c < m.width * m.height) (ho : (p.cells c).list = List_Open) :
    1999541255 ≤ (p.cells c).h_cost := by
  have hS := hI.scratch
  obtain ⟨b1, b2, b3⟩ : 1 ≤ (p.cells c).heapIndex ∧ (p.cells c).heapIndex ≤ p.openListLength ∧
    p.openHeap (p.cells c).heapIndex = c := hS.heap.2 c hc ho
  obtain ⟨a1, a2, _⟩ : p.openHeap 1 < m.width * m.height ∧
    (p.cells (p.openHeap 1)).list = List_Open ∧ (p.cells (p.openHeap 1)).heapIndex = 1 :=
    hS.heap.1 1 (le_refl 1) (by omega)
  have hkr : 2000000000 ≤ (p.cells (p.openHeap 1)).k_cost := by
    rcases hend with h | h
    · omega
    · exact h
  have hcg : c ≠ pGoal := by
    intro e
    rw [e, hgc] at ho
    cases ho
  have hrg : p.openHeap 1 ≠ pGoal := by
    intro e
    rw [e, hgc] at a2
    cases a2
  obtain ⟨k1, k2⟩ := hI.keyed c hc ho hcg
  obtain ⟨k3, k4⟩ := hI.keyed _ a1 a2 hrg
  have ord := ordered_root_le (heapTests_refl fdstar_tests) fdstar_tests.trans hI.heap.2.2
    (p.cells c).heapIndex b1 b2
  rw [b3] at ord
  obtain ⟨x1, x2⟩ := fdstar_static_xy_lt hS.static hw hh c hc
  obtain ⟨x3, x4⟩ := fdstar_static_xy_lt hS.static hw hh _ a1
  obtain ⟨x5, x6⟩ := fdstar_static_xy_lt hS.static hw hh _ hI.robot
  have d1 := fdstar_dist_le (p.cells c) (p.cells p.pRobot) x1 x2 x5 x6
  have d2 := fdstar_dist_le (p.cells (p.openHeap 1)) (p.cells p.pRobot) x3 x4 x5 x6
  have hb := hS.hbound _ a1 (by rw [a2]; simp)
  rw [hI.dcurr] at k2 k4
  rw [hS.kh c hc ho] at k1
  rw [hS.kh _ a1 a2] at k3 hkr
  rw [k1] at k2
  rw [k3] at k4
  by_contra hlt
  unfold uadd at k2 k4
  rw [Nat.add_zero, Nat.mod_mod, Nat.mod_eq_of_lt (by omega)] at k2 k4
  unfold rankLe rankLt Planner.ranks Cell.rank at ord
  simp only at ord
  rw [k2, k4] at ord
  rw [if_neg (by omega)] at ord
  simp only [decide_eq_false_iff_not] at ord
  omega

/-- When the loop has ended, every cell that a chain of free cells of a cost below
1999541255 joins to the goal is closed, and its `h` is not above the cost of the
chain. -/
theorem fdstar_full_settled {m : GridMap} {pGoal : Nat} {p : Planner} (hI : Full m pGoal none p)
    (hw : m.width ≤ USHORT) (hh : m.height ≤ USHORT)
    (hgc : (p.cells pGoal).list = List_Closed)
    (hend : p.openListLength = 0 ∨ 2000000000 ≤ (p.cells (p.openHeap 1)).k_cost) :
    ∀ (l : List Pos) (a : Pos), FreePath m a (posOf m.width pGoal) l →
      pathCost 5 7 l < 1999541255 →
      (p.cells (a.2 * m.width + a.1)).list = List_Closed ∧
        (p.cells (a.2 * m.width + a.1)).h_cost ≤ pathCost 5 7 l
  | [], a, h, _ => by
    have := h.1
    simp at this
  | [x], a, h, _ => by
    obtain ⟨h1, h2, _, _⟩ := h
    simp only [List.head?_cons, Option.some.injEq] at h1
    simp only [List.getLast?_singleton, Option.some.injEq] at h2
    rw [← h1, h2, posOf_div_mod, hI.goalH]
    exact ⟨hgc, Nat.zero_le _⟩
  | x :: b :: rest, a, h, hc => by
    obtain ⟨h1, h2, h3, h4⟩ := h
    simp only [List.head?_cons, Option.some.injEq] at h1
    subst h1
    have hb : FreePath m b (posOf m.width pGoal) (b :: rest) := by
      refine ⟨rfl, ?_, h3.2, fun c hc' => h4 c (List.mem_cons_of_mem _ hc')⟩
      rw [List.getLast?_cons_cons] at h2
      exact h2
    have hcost : pathCost 5 7 (x :: b :: rest) = stepCost 5 7 x b + pathCost 5 7 (b :: rest) := rfl
    obtain ⟨i1, i2⟩ := fdstar_full_settled hI hw hh hgc hend (b :: rest) b hb (by omega)
    have fx := h4 x (List.mem_cons_self _ _)
    have fb := h4 b (List.mem_cons_of_mem _ (List.mem_cons_self _ _))
    have hxN := index_lt m.width m.height x.1 x.2 fx.1 fx.2.1
    have hbN := index_lt m.width m.height b.1 b.2 fb.1 fb.2.1
    have hpx : posOf m.width (x.2 * m.width + x.1) = x := posOf_index _ _ _ fx.1
    have hpb : posOf m.width (b.2 * m.width + b.1) = b := posOf_index _ _ _ fb.1
    have hadj : Adjacent (posOf m.width (b.2 * m.width + b.1))
        (posOf m.width (x.2 * m.width + x.1)) := by
      rw [hpx, hpb]
      exact adjacent_symm h3.1
    obtain ⟨c1, c2⟩ := hI.closed _ hbN i1 (by simp) _ hxN hadj
    have harc : arcCost 5 7 m (b.2 * m.width + b.1) (x.2 * m.width + x.1) = stepCost 5 7 x b := by
      have e1 := congrArg Prod.fst hpx
      have e2 := congrArg Prod.snd hpx
      have e3 := congrArg Prod.fst hpb
      have e4 := congrArg Prod.snd hpb
      unfold posOf at e1 e2 e3 e4
      simp only at e1 e2 e3 e4
      rw [fdstar_arcCost_free m _ _ (by rw [e3, e4]; exact fb.2.2) (by rw [e1, e2]; exact fx.2.2),
        hpx, hpb]
    have hr := stepCost_range x b
    have hle : (p.cells (x.2 * m.width + x.1)).h_cost ≤ pathCost 5 7 (x :: b :: rest) := by
      rw [harc] at c2
      unfold arcPlus uadd OBSTACLE_COST at c2
      rw [if_pos (by omega), Nat.mod_eq_of_lt (by omega)] at c2
      omega
    refine ⟨?_, hle⟩
    cases hlist : (p.cells (x.2 * m.width + x.1)).list
    · exact absurd hlist c1
    · have := fdstar_full_open hI hw hh hgc hend _ hxN hlist
      omega
    · rfl

/-- What `getMinState` may do to a cell leaves its list and its `h` alone. -/
theorem fdstar_cellRefocused_list {p p' : Planner} {d : Nat} (h : CellRefocused p p' d) :
    (p'.cells d).list = (p.cells d).list ∧ (p'.cells d).h_cost = (p.cells d).h_cost := by
  rcases h with h | ⟨_, _, h⟩
  · exact ⟨fdstar_core_list h, fdstar_core_h h⟩
  · exact ⟨congrArg (fun t => t.2.2.2.1) h, congrArg (fun t => t.2.2.2.2.2.2.1) h⟩

/-- The state after the re-initialisation and the first `getMinState` satisfies the
invariant of an exhaustive run, with the goal as the only cell on the open list. -/
theorem fdstar_resetState_full {m : GridMap} {p : Planner} (hst : Static m p)
    (pStart pGoal : Nat) (hs : pStart < m.width * m.height) (hg : pGoal < m.width * m.height)
    (hgf : m.pixel (pGoal % m.width) (pGoal / m.width) = 0) :
    ∃ p0, getMinState (resetState p pStart pGoal) = some (p0, some (p0.openHeap 1)) ∧
      Full m pGoal none p0 ∧ p0.openListLength = 1 ∧ p0.openHeap 1 = pGoal ∧
      (p0.cells pGoal).k_cost = 0 ∧ p0.fullInit = p.fullInit ∧
      potential (m.width * m.height) p0 ≤ 2 * (m.width * m.height * 4294967296) + 1 ∧
      p0.pRobot = pStart ∧ ∀ x, x < m.width * m.height → (p0.cells x).list ≠ List_Closed := by
  obtain ⟨hS, r1, r2, r3, r4⟩ := fdstar_resetState_scratch hst pStart pGoal hg hgf
  obtain ⟨p0, q1, q2, q3, q4, q5, q6, q7⟩ := fdstar_getMinState_single hS r1
  have hH0 : HeapInv (m.width * m.height) (resetState p pStart pGoal) := by
    have := fdstar_resetState_heap p pStart pGoal (by rw [hst.width, hst.height]; exact hg)
    rw [hst.width, hst.height] at this
    exact this
  obtain ⟨p0', c, g1, g2, g3, _, _⟩ := fdstar_getMinState_returns hH0
  rw [q1] at g1
  simp only [Option.some.injEq, Prod.mk.injEq] at g1
  obtain ⟨e1, _⟩ := g1
  subst e1
  have hlist : ∀ d, (p0.cells d).list = ((resetState p pStart pGoal).cells d).list :=
    fun d => (fdstar_cellRefocused_list (g2.cells d)).1
  have hh : ∀ d, (p0.cells d).h_cost = ((resetState p pStart pGoal).cells d).h_cost :=
    fun d => (fdstar_cellRefocused_list (g2.cells d)).2
  have hoth : ∀ c, c < m.width * m.height → c ≠ pGoal → (p0.cells c).list = List_New := by
    intro c hc hne
    rw [hlist]
    unfold resetState
    simp only [upd_apply, if_neg hne, hst.width, hst.height, hc, if_true]
  have hgo : (p0.cells pGoal).list = List_Open ∧ (p0.cells pGoal).h_cost = 0 := by
    rw [hlist, hh]
    unfold resetState
    simp only [upd_same]
    exact ⟨trivial, trivial⟩
  have hroot : p0.openHeap 1 = pGoal := by
    obtain ⟨a1, a2, _⟩ : p0.openHeap 1 < m.width * m.height ∧
      (p0.cells (p0.openHeap 1)).list = List_Open ∧ (p0.cells (p0.openHeap 1)).heapIndex = 1 :=
      q2.heap.1 1 (le_refl 1) (by omega)
    by_contra hne
    rw [hoth _ a1 hne] at a2
    cases a2
  have hk0 : (p0.cells pGoal).k_cost = 0 := by
    rw [← hroot, q6, r2]
    exact r3
  have hrob : p0.pRobot = pStart := g2.pRobot
  refine ⟨p0, q1, ⟨q2, q3, g3, g2.d_curr, by rw [hrob]; exact hs, hg, hgo.2, by rw [hgo.1]; simp,
    ?_, ?_, ?_, ?_⟩, q5, hroot, hk0, q7, by omega, hrob, ?_⟩
  · intro c hc ho hcg
    rw [hoth c hc hcg] at ho
    cases ho
  · intro x hx hc
    by_cases hxg : x = pGoal
    · rw [hxg, hgo.1] at hc
      cases hc
    · rw [hoth x hx hxg] at hc
      cases hc
  · intro x hx hc
    by_cases hxg : x = pGoal
    · rw [hxg, hgo.1] at hc
      cases hc
    · rw [hoth x hx hxg] at hc
      cases hc
  · intro c hc hn _
    have hcg : c = pGoal := by
      by_contra hne
      exact hn (hoth c hc hne)
    rw [hcg, hgo.2]
    have hfree : FreeCell m (posOf m.width pGoal) := by
      refine fdstar_freeCell q2.static pGoal hg ?_
      cases hb : (p0.cells pGoal).blocked
      · rfl
      · have := (q2.static.blocked pGoal hg).1 hb
        omega
    refine ⟨[posOf m.width pGoal], ⟨rfl, rfl, trivial, ?_⟩, rfl⟩
    intro x hx
    rw [List.mem_singleton] at hx
    rw [hx]
    exact hfree
  · intro x hx hc
    by_cases hxg : x = pGoal
    · rw [hxg, hgo.1] at hc
      cases hc
    · rw [hoth x hx hxg] at hc
      cases hc

theorem fdstar_extractPath_planner (p : Planner) (pStart pGoal : Nat) :
    (extractPath p pStart pGoal).planner = p := by
  unfold extractPath
  split <;> rfl

/-- A call of `doCalculatePath` for a new map or goal with `_fullInit` set, free start
and goal, on a map of at most 65536 columns and rows: the call returns, and in the
state it leaves behind every cell that a chain of free cells of a cost below
1999541255 joins to the goal is CLOSED with an `h` not above the cost of the chain,
while the `h` of every CLOSED cell is below the obstacle cost and the cost of a chain
of free cells from the cell to the goal. -/
theorem fdstar_exhaustive (m : GridMap) (p : Planner) (start goal : Pos) (updates fuel : Nat)
    (hst : Static m p) (hw : m.width ≤ USHORT) (hh : m.height ≤ USHORT)
    (hfi : p.fullInit = true) (hs : FreeCell m start) (hg : FreeCell m goal)
    (hu : (updates / 8) % 2 = 1 ∨ (updates / 2) % 2 = 1)
    (hf : 2 * (m.width * m.height * 4294967296) + 1 < fuel) :
    ∃ o, doCalculatePath fuel p updates start goal = some o ∧
      (∀ (l : List Pos) (a : Pos), FreePath m a goal l → pathCost 5 7 l < 1999541255 →
        (o.planner.cells (a.2 * m.width + a.1)).list = List_Closed ∧
          (o.planner.cells (a.2 * m.width + a.1)).h_cost ≤ pathCost 5 7 l) ∧
      (∀ c, c < m.width * m.height → (o.planner.cells c).list = List_Closed →
        (o.planner.cells c).h_cost < 2000000000 ∧
          ∃ l, FreePath m (posOf m.width c) goal l ∧
            pathCost 5 7 l = (o.planner.cells c).h_cost) := by
  have hsN := index_lt m.width m.height start.1 start.2 hs.1 hs.2.1
  have hgN := index_lt m.width m.height goal.1 goal.2 hg.1 hg.2.1
  have hpg : posOf m.width (goal.2 * m.width + goal.1) = goal := posOf_index _ _ _ hg.1
  have hps : posOf m.width (start.2 * m.width + start.1) = start := posOf_index _ _ _ hs.1
  have hsf : m.pixel ((start.2 * m.width + start.1) % m.width)
      ((start.2 * m.width + start.1) / m.width) = 0 := by
    have h1 := congrArg Prod.fst hps
    have h2 := congrArg Prod.snd hps
    unfold posOf at h1 h2
    simp only at h1 h2
    rw [h1, h2]
    exact hs.2.2
  have hgf : m.pixel ((goal.2 * m.width + goal.1) % m.width)
      ((goal.2 * m.width + goal.1) / m.width) = 0 := by
    have h1 := congrArg Prod.fst hpg
    have h2 := congrArg Prod.snd hpg
    unfold posOf at h1 h2
    simp only at h1 h2
    rw [h1, h2]
    exact hg.2.2
  have hsb : (p.cells (start.2 * m.width + start.1)).blocked = false := by
    cases hb : (p.cells (start.2 * m.width + start.1)).blocked
    · rfl
    · have := (hst.blocked _ hsN).1 hb
      omega
  have hgb : (p.cells (goal.2 * m.width + goal.1)).blocked = false := by
    cases hb : (p.cells (goal.2 * m.width + goal.1)).blocked
    · rfl
    · have := (hst.blocked _ hgN).1 hb
      omega
  have hnr : needsReset updates = true := by
    unfold needsReset
    rcases hu with hu | hu
    · simp [hu]
    · simp [hu]
  obtain ⟨p0, q1, q2, q3, q4, q5, q6, q7, _, _⟩ := fdstar_resetState_full hst
    (start.2 * m.width + start.1) (goal.2 * m.width + goal.1) hsN hgN hgf
  obtain ⟨p', hp', hI, hgc, hend⟩ := fdstar_initialLoop_full (start.2 * m.width + start.1) fuel _ p0
    q1 q2 (by omega) (by rw [q4, q5]; omega) (q6.trans hfi) (Or.inr q4.symm) (by omega)
  have hres : ∃ o, doCalculatePath fuel p updates start goal = some o ∧ o.planner = p' := by
    unfold doCalculatePath
    simp only [hst.width, hsb, hgb, hnr, if_true, Bool.false_eq_true, if_false]
    rw [if_pos hu, hp']
    simp only
    split_ifs
    · exact ⟨_, rfl, rfl⟩
    · exact ⟨_, rfl, fdstar_extractPath_planner _ _ _⟩
  obtain ⟨o, ho1, ho2⟩ := hres
  refine ⟨o, ho1, ?_, ?_⟩
  · intro l a hl hc
    rw [ho2]
    rw [← hpg] at hl
    exact fdstar_full_settled hI hw hh hgc hend l a hl hc
  · intro c hc hcl
    rw [ho2] at hcl ⊢
    have h1 := hI.closedLow c hc hcl
    obtain ⟨l, h2, h3⟩ := hI.real c hc (by rw [hcl]; simp) h1
    rw [hpg] at h2
    exact ⟨h1, l, h2, h3⟩

end FocussedDStar

end RasterSim

namespace RasterSim

/-! ## A winding map whose far end costs more than the obstacle cost to reach -/

/-- The map of `W` columns and `H` rows in which every second row is a wall with one
gap, by turns at its right and at its left end. -/
def serpentine (W H : Nat) : GridMap :=
  { width := W, height := H
    pixel := fun x y =>
      if y % 2 = 1 ∧ (if (y / 2) % 2 = 0 then x + 1 < W else 0 < x) then 1 else 0 }

/-- A lower bound for the number of moves from the cell (0,0) to a free cell of a
winding map of 65536 columns. -/
def serpentineRank (c : Pos) : Nat :=
  if c.2 % 2 = 0 then (c.2 / 2) * 65535 + (if (c.2 / 2) % 2 = 0 then c.1 else 65535 - c.1)
  else (c.2 / 2 + 1) * 65535

/-- The place of a free cell on the way from the cell (0,0) through a winding map of
65536 columns. -/
def serpentinePlace (c : Pos) : Nat :=
  c.2 * 65536 + (if c.2 % 2 = 0 ∧ (c.2 / 2) % 2 = 1 then 65535 - c.1 else c.1)

theorem serpentine_free (H : Nat) (c : Pos) :
    FreeCell (serpentine 65536 H) c ↔
      c.1 < 65536 ∧ c.2 < H ∧
        (c.2 % 2 = 1 → (if (c.2 / 2) % 2 = 0 then c.1 = 65535 else c.1 = 0)) := by
  unfold FreeCell serpentine
  simp only
  constructor
  · rintro ⟨h1, h2, h3⟩
    refine ⟨h1, h2, fun h => ?_⟩
    split_ifs at h3 ⊢ with a b
    all_goals omega
  · rintro ⟨h1, h2, h3⟩
    refine ⟨h1, h2, ?_⟩
    by_cases a : (c.2 / 2) % 2 = 0
    · rw [if_pos a] at h3
      simp only [a, if_true]
      rw [if_neg (fun b => by have := h3 b.1; omega)]
    · rw [if_neg a] at h3
      simp only [a, if_false]
      rw [if_neg (fun b => by have := h3 b.1; omega)]

theorem serpentine_step (H : Nat) (a b : Pos) (ha : FreeCell (serpentine 65536 H) a)
    (hb : FreeCell (serpentine 65536 H) b) (hab : Adjacent a b) :
    serpentineRank b ≤ serpentineRank a + 1 := by
  obtain ⟨a1, a2, a3⟩ := (serpentine_free H a).1 ha
  obtain ⟨b1, b2, b3⟩ := (serpentine_free H b).1 hb
  obtain ⟨_, c1, c2, c3, c4⟩ := hab
  unfold serpentineRank
  split_ifs at a3 b3 ⊢
  all_goals omega

/-- Every free cell but (0,0) has a free neighbour at a lower place. -/
theorem serpentine_back (H : Nat) (x y : Nat) (hc : FreeCell (serpentine 65536 H) (x, y))
    (h0 : x ≠ 0 ∨ y ≠ 0) :
    ∃ c', FreeCell (serpentine 65536 H) c' ∧ Adjacent c' (x, y) ∧
      serpentinePlace c' < serpentinePlace (x, y) := by
  obtain ⟨c1, c2, c3⟩ := (serpentine_free H (x, y)).1 hc
  simp only at c1 c2 c3
  have key : ∀ a b : Nat, a < 65536 → b < H →
      (b % 2 = 1 → (if (b / 2) % 2 = 0 then a = 65535 else a = 0)) →
      (a ≠ x ∨ b ≠ y) → a ≤ x + 1 → x ≤ a + 1 → b ≤ y + 1 → y ≤ b + 1 →
      serpentinePlace (a, b) < serpentinePlace (x, y) →
      ∃ c', FreeCell (serpentine 65536 H) c' ∧ Adjacent c' (x, y) ∧
        serpentinePlace c' < serpentinePlace (x, y) := by
    intro a b k1 k2 k3 k4 k5 k6 k7 k8 k9
    refine ⟨(a, b), (serpentine_free H _).2 ⟨k1, k2, k3⟩, ⟨?_, k5, k6, k7, k8⟩, k9⟩
    intro q
    have q1 := congrArg Prod.fst q
    have q2 := congrArg Prod.snd q
    simp only at q1 q2
    omega
  by_cases e : y % 2 = 0
  · by_cases j : (y / 2) % 2 = 0
    · by_cases hx : x = 0
      · refine key 0 (y - 1) (by omega) (by omega) (fun _ => ?_) (by omega) (by omega) (by omega)
          (by omega) (by omega) ?_
        · rw [if_neg (by omega)]
        · unfold serpentinePlace
          simp only
          split_ifs <;> omega
      · refine key (x - 1) y (by omega) (by omega) (fun h => ?_) (by omega) (by omega) (by omega)
          (by omega) (by omega) ?_
        · omega
        · unfold serpentinePlace
          simp only
          split_ifs <;> omega
    · by_cases hx : x = 65535
      · refine key 65535 (y - 1) (by omega) (by omega) (fun _ => ?_) (by omega) (by omega)
          (by omega) (by omega) (by omega) ?_
        · rw [if_pos (by omega)]
        · unfold serpentinePlace
          simp only
          split_ifs <;> omega
      · refine key (x + 1) y (by omega) (by omega) (fun h => ?_) (by omega) (by omega) (by omega)
          (by omega) (by omega) ?_
        · omega
        · unfold serpentinePlace
          simp only
          split_ifs <;> omega
  · have c3' := c3 (by omega)
    refine key x (y - 1) (by omega) (by omega) (fun h => ?_) (by omega) (by omega) (by omega)
      (by omega) (by omega) ?_
    · omega
    · unfold serpentinePlace
      simp only
      split_ifs <;> omega

/-- Every free cell of a winding map of 65536 columns is joined to the cell (0,0) by a
chain of free cells. -/
theorem serpentine_connected (H : Nat) : ∀ (n : Nat) (c : Pos), serpentinePlace c ≤ n →
    FreeCell (serpentine 65536 H) c → Connected (serpentine 65536 H) (0, 0) c
  | 0, (x, y), hn, hc => by
    by_cases h0 : x ≠ 0 ∨ y ≠ 0
    · obtain ⟨c', _, _, h3⟩ := serpentine_back H x y hc h0
      omega
    · push_neg at h0
      rw [h0.1, h0.2] at hc ⊢
      exact connected_self _ _ hc
  | n + 1, (x, y), hn, hc => by
    by_cases h0 : x ≠ 0 ∨ y ≠ 0
    · obtain ⟨c', h1, h2, h3⟩ := serpentine_back H x y hc h0
      exact connected_extend _ _ c' _ (serpentine_connected H n c' (by omega) h1) h2 hc
    · push_neg at h0
      rw [h0.1, h0.2] at hc ⊢
      exact connected_self _ _ hc

/-- A chain of free cells from the cell (0,0) of a winding map of 65536 columns costs
at least five times the rank of its last cell. -/
theorem serpentine_cost (H : Nat) (l : List Pos) (c : Pos)
    (hl : FreePath (serpentine 65536 H) (0, 0) c l) : 5 * serpentineRank c ≤ pathCost 5 7 l := by
  have h1 := chain_potential serpentineRank (FreeCell (serpentine 65536 H))
    (serpentine_step H) l (0, 0) c hl.1 hl.2.1 hl.2.2.1 hl.2.2.2
  have h2 := pathCost_ge_length l
  have h3 : serpentineRank (0, 0) = 0 := rfl
  omega

end RasterSim

namespace RasterSim

/-! ## Focussed D*: the cells leave the open list in the order of their costs -/

namespace FocussedDStar

open ListType

/-- The value of `dist` for the cells `a` and `b` of a map of width `w`, from their
indices. -/
def gridDist (w a b : Nat) : Nat :=
  let dx := (((a % w : Nat) : Int) - ((b % w : Nat) : Int)).natAbs
  let dy := (((a / w : Nat) : Int) - ((b / w : Nat) : Int)).natAbs
  let dMin := min dx dy
  let dMax := max dx dy
  7 * dMin + 5 * (dMax - dMin)

theorem fdstar_dist_grid {m : GridMap} {p : Planner} (h : Static m p) (a b : Nat)
    (ha : a < m.width * m.height) (hb : b < m.width * m.height) :
    dist (p.cells a) (p.cells b) = gridDist m.width a b := by
  unfold dist gridDist
  rw [(h.xy a ha).1, (h.xy a ha).2, (h.xy b hb).1, (h.xy b hb).2]

theorem fdstar_gridDist_self (w a : Nat) : gridDist w a a = 0 := by
  unfold gridDist
  simp

/-- The distance to a third cell changes by at most the cost of the move between two
adjacent cells. -/
theorem fdstar_gridDist_step (w a b z : Nat) (h : Adjacent (posOf w a) (posOf w b)) :
    gridDist w a z ≤ gridDist w b z + (if b % w ≠ a % w ∧ b / w ≠ a / w then 7 else 5) := by
  obtain ⟨_, h1, h2, h3, h4⟩ := h
  unfold posOf at h1 h2 h3 h4
  simp only at h1 h2 h3 h4
  unfold gridDist
  simp only
  generalize a % w = ax at h1 h2 ⊢
  generalize a / w = ay at h3 h4 ⊢
  generalize b % w = bx at h1 h2 ⊢
  generalize b / w = bY at h3 h4 ⊢
  generalize z % w = zx
  generalize z / w = zy
  split_ifs <;> omega

theorem fdstar_gridDist_le {m : GridMap} (hw : m.width ≤ USHORT) (hh : m.height ≤ USHORT)
    (a b : Nat) (ha : a < m.width * m.height) (hb : b < m.width * m.height) :
    gridDist m.width a b ≤ 458745 := by
  have hw0 : 0 < m.width := by
    rcases Nat.eq_zero_or_pos m.width with h0 | h0
    · rw [h0] at ha; simp at ha
    · exact h0
  have a1 := Nat.mod_lt a hw0
  have b1 := Nat.mod_lt b hw0
  have a2 : a / m.width < m.height := (Nat.div_lt_iff_lt_mul hw0).2 (by rw [Nat.mul_comm]; exact ha)
  have b2 : b / m.width < m.height := (Nat.div_lt_iff_lt_mul hw0).2 (by rw [Nat.mul_comm]; exact hb)
  unfold USHORT at hw hh
  unfold gridDist
  simp only
  generalize a % m.width = ax at a1 ⊢
  generalize a / m.width = ay at a2 ⊢
  generalize b % m.width = bx at b1 ⊢
  generalize b / m.width = bY at b2 ⊢
  omega

/-- The pair `(a1, a2)` is not above the pair `(b1, b2)` in the order of `Cost`. -/
def lexLe (a1 a2 b1 b2 : Nat) : Prop := a1 < b1 ∨ (a1 = b1 ∧ a2 ≤ b2)

/-- The cost of no closed cell is above the cost of a cell on the open list whose `k` is
below the obstacle cost. -/
def Mono (m : GridMap) (p : Planner) : Prop :=
  ∀ x y, x < m.width * m.height → y < m.width * m.height → (p.cells x).list = List_Closed →
    (p.cells y).list = List_Open → (p.cells y).k_cost < 2000000000 →
    lexLe ((p.cells x).h_cost + gridDist m.width x p.pRobot) (p.cells x).h_cost
      (p.cells y).f_cost (p.cells y).k_cost

/-- The cost of no closed cell is above the cost of the cell `r`. -/
def Below (m : GridMap) (p : Planner) (r : Nat) : Prop :=
  ∀ x, x < m.width * m.height → (p.cells x).list = List_Closed →
    lexLe ((p.cells x).h_cost + gridDist m.width x p.pRobot) (p.cells x).h_cost
      ((p.cells r).h_cost + gridDist m.width r p.pRobot) (p.cells r).h_cost

/-- The costs of a cell on the open list in a run from scratch. -/
theorem fdstar_full_costs {m : GridMap} {pGoal : Nat} {ex : Option Nat} {p : Planner}
    (hI : Full m pGoal ex p) (hw : m.width ≤ USHORT) (hh : m.height ≤ USHORT) (y : Nat)
    (hy : y < m.width * m.height) (ho : (p.cells y).list = List_Open) (hyg : y ≠ pGoal) :
    (p.cells y).f_cost = (p.cells y).k_cost + gridDist m.width y p.pRobot ∧
    (p.cells y).fB_cost = (p.cells y).f_cost ∧ (p.cells y).k_cost = (p.cells y).h_cost ∧
    (p.cells y).k_cost < 2000000014 := by
  obtain ⟨k1, k2⟩ := hI.keyed y hy ho hyg
  have hkh := hI.scratch.kh y hy ho
  have hb := hI.scratch.hbound y hy (by rw [ho]; simp)
  have hd := fdstar_gridDist_le hw hh y p.pRobot hy hI.robot
  rw [fdstar_dist_grid hI.scratch.static y p.pRobot hy hI.robot] at k1
  rw [hI.dcurr] at k2
  unfold uadd at k1 k2
  rw [Nat.mod_eq_of_lt (by omega)] at k1
  rw [Nat.add_zero, Nat.mod_eq_of_lt (by omega)] at k2
  exact ⟨k1, k2, hkh, by omega⟩

/-- Taking the first cell off the open list: no closed cell costs more than a cell that
stays on the open list, nor more than the cell taken. -/
theorem fdstar_popped_mono {m : GridMap} {pGoal : Nat} {p p' : Planner}
    (hI : Full m pGoal none p) (hM : Mono m p) (hw : m.width ≤ USHORT) (hh : m.height ≤ USHORT)
    (hl : 1 ≤ p.openListLength) (hk : (p.cells (p.openHeap 1)).k_cost < 2000000000)
    (hgo : (p.cells pGoal).list = List_Closed ∨ (pGoal = p.openHeap 1 ∧ p.openListLength = 1 ∧
      ∀ x, x < m.width * m.height → (p.cells x).list ≠ List_Closed))
    (hP : Popped (m.width * m.height) p p' (p.openHeap 1)) :
    Mono m p' ∧ Below m p' (p.openHeap 1) := by
  have hS := hI.scratch
  obtain ⟨a1, a2, _⟩ : p.openHeap 1 < m.width * m.height ∧
    (p.cells (p.openHeap 1)).list = List_Open ∧ (p.cells (p.openHeap 1)).heapIndex = 1 :=
    hS.heap.1 1 (le_refl 1) hl
  have hh' : ∀ d, (p'.cells d).h_cost = (p.cells d).h_cost := fun d => by
    by_cases hd : d = p.openHeap 1
    · rw [hd, hP.c_h]
    · exact fdstar_core_h (hP.other d hd)
  -- the cell taken is not above the cells that stay, and not below the closed cells
  have R : ∀ y, y < m.width * m.height → (p.cells y).list = List_Open → y ≠ p.openHeap 1 →
      (p.cells y).k_cost < 2000000000 →
      lexLe ((p.cells (p.openHeap 1)).h_cost + gridDist m.width (p.openHeap 1) p.pRobot)
        (p.cells (p.openHeap 1)).h_cost (p.cells y).f_cost (p.cells y).k_cost := by
    intro y hy ho hyr hky
    obtain ⟨b1, b2, b3⟩ : 1 ≤ (p.cells y).heapIndex ∧ (p.cells y).heapIndex ≤ p.openListLength ∧
      p.openHeap (p.cells y).heapIndex = y := hS.heap.2 y hy ho
    rcases hgo with hgc | ⟨_, hone, _⟩
    · have hrg : p.openHeap 1 ≠ pGoal := by
        intro e
        rw [e, hgc] at a2
        cases a2
      have hyg : y ≠ pGoal := by
        intro e
        rw [e, hgc] at ho
        cases ho
      obtain ⟨c1, c2, c3, _⟩ := fdstar_full_costs hI hw hh _ a1 a2 hrg
      obtain ⟨d1, d2, d3, _⟩ := fdstar_full_costs hI hw hh y hy ho hyg
      have ord := ordered_root_le (heapTests_refl fdstar_tests) fdstar_tests.trans hI.heap.2.2
        (p.cells y).heapIndex b1 b2
      rw [b3] at ord
      unfold rankLe rankLt Planner.ranks Cell.rank at ord
      simp only at ord
      rw [c2, d2] at ord
      unfold lexLe
      rw [← c3, ← c1]
      by_cases e : (p.cells y).f_cost = (p.cells (p.openHeap 1)).f_cost
      · rw [if_pos e, if_pos e] at ord
        simp only [decide_eq_false_iff_not] at ord
        right
        exact ⟨e.symm, by omega⟩
      · rw [if_neg e] at ord
        simp only [decide_eq_false_iff_not] at ord
        left
        omega
    · exfalso
      apply hyr
      have : (p.cells y).heapIndex = 1 := by omega
      rw [this] at b3
      exact b3.symm
  have B0 : ∀ x, x < m.width * m.height → (p.cells x).list = List_Closed →
      lexLe ((p.cells x).h_cost + gridDist m.width x p.pRobot) (p.cells x).h_cost
        ((p.cells (p.openHeap 1)).h_cost + gridDist m.width (p.openHeap 1) p.pRobot)
        (p.cells (p.openHeap 1)).h_cost := by
    intro x hx hc
    rcases hgo with hgc | ⟨_, _, hnc⟩
    · have hrg : p.openHeap 1 ≠ pGoal := by
        intro e
        rw [e, hgc] at a2
        cases a2
      obtain ⟨c1, _, c3, _⟩ := fdstar_full_costs hI hw hh _ a1 a2 hrg
      have := hM x _ hx a1 hc a2 hk
      rw [c1, c3] at this
      exact this
    · exact absurd hc (hnc x hx)
  constructor
  · intro x y hx hy hc ho hky
    have hyr : y ≠ p.openHeap 1 := by
      intro e
      rw [e, hP.c_list] at ho
      cases ho
    have hco := hP.other y hyr
    rw [fdstar_core_list hco] at ho
    rw [fdstar_core_k hco] at hky
    have hf : (p'.cells y).f_cost = (p.cells y).f_cost :=
      congrArg (fun t => t.2.2.2.2.2.2.2.2.1) hco
    rw [hf, fdstar_core_k hco, hh', hP.pRobot]
    by_cases hxr : x = p.openHeap 1
    · rw [hxr]
      exact R y hy ho hyr hky
    · rw [fdstar_core_list (hP.other x hxr)] at hc
      exact hM x y hx hy hc ho hky
  · intro x hx hc
    rw [hh', hh', hP.pRobot]
    by_cases hxr : x = p.openHeap 1
    · rw [hxr]
      exact Or.inr ⟨rfl, le_refl _⟩
    · rw [fdstar_core_list (hP.other x hxr)] at hc
      exact B0 x hx hc

/-- The loop of lines 380-390 over the neighbours of the cell taken off the open list
keeps the order of the costs. -/
theorem fdstar_propagateLower_mono {m : GridMap} {pGoal : Nat} {p : Planner} (r : Nat)
    (hI : Full m pGoal (some r) p) (hr : r < m.width * m.height)
    (hcl : (p.cells r).list = List_Closed) (hfree : (p.cells r).blocked = false)
    (hw : m.width ≤ USHORT) (hh : m.height ≤ USHORT) (hM : Mono m p) (hB : Below m p r) :
    Mono m (propagateLower p r (p.neighbors r)) := by
  have hnbs := fun nb hnb => fdstar_neighbors_static hI.scratch.static r nb.1 nb.2 hr hnb
  generalize p.neighbors r = nbs at hnbs
  unfold propagateLower
  have key := foldl_keeps
    (fun q : Planner => Full m pGoal (some r) q ∧ (q.cells r).core = (p.cells r).core ∧
      q.pRobot = p.pRobot ∧ Mono m q ∧ Below m q r)
    (fun (p : Planner) (nb : Nat × Nat) =>
      if (p.cells nb.1).list = List_New ∨
          (p.cells nb.1).h_cost > arcPlus nb.2 (p.cells r).h_cost ∨
          ((p.cells nb.1).backPtr = some r ∧
            (p.cells nb.1).h_cost ≠ arcPlus nb.2 (p.cells r).h_cost) then
        adopt p r nb.1 (arcPlus nb.2 (p.cells r).h_cost)
      else p)
    nbs p
    (fun q nb hnb ⟨hq, hcore, hrob, hMq, hBq⟩ => by
      obtain ⟨g1, g2, g3, g4⟩ := hnbs nb hnb
      simp only
      split_ifs with hc
      · rw [g3]
        rw [g3] at hc
        have hlow : (q.cells nb.1).list = List_New ∨
            arcPlus (arcCost 5 7 m r nb.1) (q.cells r).h_cost < (q.cells nb.1).h_cost := by
          rcases hc with hc | hc | ⟨hc1, hc2⟩
          · exact Or.inl hc
          · exact Or.inr hc
          · right
            have := (hq.scratch.back nb.1 r g1 hc1).2.2.2
            omega
        have hclq : (q.cells r).list = List_Closed := by rw [fdstar_core_list hcore]; exact hcl
        obtain ⟨r1, _, r3, r4, r5, r6, r7, _⟩ := fdstar_adopt_full r nb.1 hq hr g1 g2 hclq
          (by rw [fdstar_core_blocked hcore]; exact hfree) g4 hlow rfl
        have hrl := hq.closedLow r hr hclq
        have hcr := r3 r (fun e => g2 e.symm)
        refine ⟨r1, hcr.trans hcore, r7.trans hrob, ?_, ?_⟩
        · -- the order of the costs
          intro x y hx hy hxc hyo hky
          have hxn : x ≠ nb.1 := by
            intro e
            rw [e, r5] at hxc
            cases hxc
          rw [fdstar_core_list (r3 x hxn)] at hxc
          rw [fdstar_core_h (r3 x hxn), r7]
          by_cases hyn : y = nb.1
          · obtain ⟨d1, _, d3, _⟩ := fdstar_full_costs r1 hw hh nb.1 g1 r5 r4
            rw [hyn] at hky ⊢
            rw [d1, d3, r6, r7]
            rw [d3, r6] at hky
            have hB1 := hBq x hx hxc
            have hst := fdstar_gridDist_step m.width r nb.1 q.pRobot g4
            rcases fdstar_arcCost_cases m r nb.1 with ⟨c1, _⟩ | ⟨c1, c2, c3⟩
            · exfalso
              rw [c1] at hky
              unfold arcPlus OBSTACLE_COST at hky
              simp at hky
            · have harc : arcCost 5 7 m r nb.1 =
                  if nb.1 % m.width ≠ r % m.width ∧ nb.1 / m.width ≠ r / m.width then 7 else 5 := by
                unfold arcCost
                rw [if_neg (by omega)]
              have hval : arcPlus (arcCost 5 7 m r nb.1) (q.cells r).h_cost =
                  arcCost 5 7 m r nb.1 + (q.cells r).h_cost := by
                unfold arcPlus uadd OBSTACLE_COST
                rcases c1 with c1 | c1 <;> rw [c1] <;> simp <;> omega
              rw [hval]
              rw [← harc] at hst
              unfold lexLe at hB1 ⊢
              omega
          · have hco := r3 y hyn
            rw [fdstar_core_list hco] at hyo
            rw [fdstar_core_k hco] at hky ⊢
            have hf : ((adopt q r nb.1 (arcPlus (arcCost 5 7 m r nb.1) (q.cells r).h_cost)).cells
                y).f_cost = (q.cells y).f_cost := congrArg (fun t => t.2.2.2.2.2.2.2.2.1) hco
            rw [hf]
            exact hMq x y hx hy hxc hyo hky
        · intro x hx hxc
          have hxn : x ≠ nb.1 := by
            intro e
            rw [e, r5] at hxc
            cases hxc
          rw [fdstar_core_list (r3 x hxn)] at hxc
          rw [fdstar_core_h (r3 x hxn), fdstar_core_h hcr, r7]
          exact hBq x hx hxc
      · exact ⟨hq, hcore, hrob, hMq, hBq⟩)
    ⟨hI, rfl, rfl, hM, hB⟩
  exact key.2.2.2.1

/-- The costs `f` and `k` of the first cell of the open list, `Cost()` if it is empty. -/
def firstCost (p : Planner) : Cost :=
  if p.openListLength = 0 then Cost.noVal
  else { c1 := (p.cells (p.openHeap 1)).f_cost, c2 := (p.cells (p.openHeap 1)).k_cost }

/-- One round of `processState` in a run from scratch keeps the invariant and the order
of the costs; the state it returns is the one `getMinVal` returns. -/
theorem fdstar_processState_mono {m : GridMap} {pGoal : Nat} {p p0 : Planner}
    (hg : getMinState p = some (p0, some (p0.openHeap 1)))
    (hI : Full m pGoal none p0) (hM : Mono m p0) (hw : m.width ≤ USHORT)
    (hh : m.height ≤ USHORT) (hl : 1 ≤ p0.openListLength)
    (hk : (p0.cells (p0.openHeap 1)).k_cost < 2000000000)
    (hgo : (p0.cells pGoal).list = List_Closed ∨ (pGoal = p0.openHeap 1 ∧ p0.openListLength = 1 ∧
      ∀ x, x < m.width * m.height → (p0.cells x).list ≠ List_Closed)) :
    ∃ p3 val, processState p = some (p3, val) ∧ Full m pGoal none p3 ∧ Mono m p3 ∧
      (p3.cells pGoal).list = List_Closed ∧ getMinVal p3 = some (p3, val) ∧
      val = firstCost p3 ∧
      (p3.openListLength ≠ 0 → getMinState p3 = some (p3, some (p3.openHeap 1))) := by
  have hS := hI.scratch
  obtain ⟨a1, a2, a3⟩ := hS.heap.1 1 (le_refl 1) hl
  have hP := fdstar_popMin_spec hS.heap hl
  have hH := fdstar_popMin_inv hI.heap hl
  have hI1 := fdstar_popped_full hI (p0.openHeap 1) hP hH a2 hk a1
  obtain ⟨hM1, hB1⟩ := fdstar_popped_mono hI hM hw hh hl hk hgo hP
  have hkh := hS.kh _ a1 a2
  have hfree : (p0.cells (p0.openHeap 1)).blocked = false := by
    cases hb : (p0.cells (p0.openHeap 1)).blocked
    · rfl
    · have := hS.obst _ a1 (by rw [a2]; simp) hb
      omega
  unfold processState
  rw [hg]
  simp only
  have hlf : ∀ val, lowerFromNeighbors (popMin p0 (p0.openHeap 1)) (p0.openHeap 1) val
      (((popMin p0 (p0.openHeap 1)).cells (p0.openHeap 1)).k_cost)
      ((popMin p0 (p0.openHeap 1)).neighbors (p0.openHeap 1)) = popMin p0 (p0.openHeap 1) := by
    intro val
    unfold lowerFromNeighbors
    rw [if_neg (by rw [hP.c_h, hP.c_k]; omega)]
  rw [hlf, if_pos (by rw [hP.c_h, hP.c_k]; exact hkh)]
  obtain ⟨r1, _, _, r4, _, _⟩ := fdstar_propagateLower_full (p0.openHeap 1) hI1 a1 hP.c_list
    (by rw [hP.c_blocked]; exact hfree)
  have rM := fdstar_propagateLower_mono (p0.openHeap 1) hI1 a1 hP.c_list
    (by rw [hP.c_blocked]; exact hfree) hw hh hM1 hB1
  have hgc : ((propagateLower (popMin p0 (p0.openHeap 1)) (p0.openHeap 1)
      ((popMin p0 (p0.openHeap 1)).neighbors (p0.openHeap 1))).cells pGoal).list = List_Closed := by
    rw [r4]
    rcases hgo with h | ⟨h, _, _⟩
    · by_cases e : pGoal = p0.openHeap 1
      · rw [e, hP.c_list]
      · rw [fdstar_core_list (hP.other pGoal e)]
        exact h
    · rw [h, hP.c_list]
  generalize propagateLower (popMin p0 (p0.openHeap 1)) (p0.openHeap 1)
      ((popMin p0 (p0.openHeap 1)).neighbors (p0.openHeap 1)) = p3 at r1 rM hgc ⊢
  by_cases h0 : p3.openListLength = 0
  · have e : getMinVal p3 = some (p3, Cost.noVal) := by
      unfold getMinVal getMinState
      rw [if_neg (by omega)]
      rfl
    exact ⟨p3, Cost.noVal, e, r1, rM, hgc, e, by unfold firstCost; rw [if_pos h0],
      fun h => absurd h0 h⟩
  · have e1 := fdstar_getMinState_focused r1.scratch.heap r1.focused (by omega)
    have e : getMinVal p3 = some (p3, firstCost p3) := by
      unfold getMinVal firstCost
      rw [e1, if_neg h0]
      rfl
    exact ⟨p3, _, e, r1, rM, hgc, e, rfl, fun _ => e1⟩

/-- The first `processState` loop of a run from scratch, whenever it returns: the
invariant holds, the costs are in order, the goal is closed, and `getMinVal` returns
the state as it is. -/
theorem fdstar_initialLoop_mono {m : GridMap} {pGoal : Nat} (pStart : Nat)
    (hw : m.width ≤ USHORT) (hh : m.height ≤ USHORT) :
    ∀ (fuel : Nat) (p p0 p' : Planner), getMinState p = some (p0, some (p0.openHeap 1)) →
      Full m pGoal none p0 → Mono m p0 → 1 ≤ p0.openListLength →
      (p0.cells (p0.openHeap 1)).k_cost < 2000000000 →
      ((p0.cells pGoal).list = List_Closed ∨ (pGoal = p0.openHeap 1 ∧ p0.openListLength = 1 ∧
        ∀ x, x < m.width * m.height → (p0.cells x).list ≠ List_Closed)) →
      initialLoop pStart fuel p = some p' →
      Full m pGoal none p' ∧ Mono m p' ∧ (p'.cells pGoal).list = List_Closed ∧
        getMinVal p' = some (p', firstCost p')
  | 0, _, _, _, _, _, _, _, _, _, h => by simp [initialLoop] at h
  | fuel + 1, p, p0, p', hg, hI, hM, hl, hk, hgo, h => by
    obtain ⟨p3, val, e, r1, r2, r3, r4, r5, r6⟩ := fdstar_processState_mono hg hI hM hw hh hl hk hgo
    rw [initialLoop, e] at h
    simp only at h
    split_ifs at h with c1 c2 c3
    · cases h; exact ⟨r1, r2, r3, r5 ▸ r4⟩
    · cases h; exact ⟨r1, r2, r3, r5 ▸ r4⟩
    · cases h; exact ⟨r1, r2, r3, r5 ▸ r4⟩
    · refine fdstar_initialLoop_mono pStart hw hh fuel p3 p3 p' (r6 c2) r1 r2 (by omega) ?_
        (Or.inl r3) h
      rw [r5] at c3
      unfold firstCost at c3
      rw [if_neg c2] at c3
      unfold OBSTACLE_COST at c3
      simp only at c3
      omega

/-- In a state of a run from scratch in which the robot's cell is closed, the value of
`getMinVal` is not below the cost of the robot's cell. -/
theorem fdstar_mono_settled {m : GridMap} {pGoal : Nat} {p : Planner} (hI : Full m pGoal none p)
    (hM : Mono m p) (hw : m.width ≤ USHORT) (hh : m.height ≤ USHORT)
    (hgc : (p.cells pGoal).list = List_Closed)
    (hsc : (p.cells p.pRobot).list = List_Closed) :
    Cost.lt (firstCost p) (getCost p p.pRobot) = false := by
  have hs := hI.robot
  have hlow := hI.closedLow _ hs hsc
  have hd : dist (p.cells p.pRobot) (p.cells p.pRobot) = 0 := by
    rw [fdstar_dist_grid hI.scratch.static _ _ hs hs, fdstar_gridDist_self]
  have hc : getCost p p.pRobot =
      { c1 := (p.cells p.pRobot).h_cost, c2 := (p.cells p.pRobot).h_cost } := by
    unfold getCost
    rw [hd]
    unfold uadd
    rw [Nat.add_zero, Nat.mod_eq_of_lt (by omega)]
  rw [hc]
  unfold Cost.lt firstCost
  by_cases h0 : p.openListLength = 0
  · rw [if_pos h0]
    unfold Cost.noVal UINT_MAX
    simp only
    rw [if_neg (by omega)]
    simp only [decide_eq_false_iff_not]
    omega
  · rw [if_neg h0]
    simp only
    obtain ⟨a1, a2, _⟩ : p.openHeap 1 < m.width * m.height ∧
      (p.cells (p.openHeap 1)).list = List_Open ∧ (p.cells (p.openHeap 1)).heapIndex = 1 :=
      hI.scratch.heap.1 1 (le_refl 1) (by omega)
    have hrg : p.openHeap 1 ≠ pGoal := by
      intro e
      rw [e, hgc] at a2
      cases a2
    obtain ⟨c1, _, _, _⟩ := fdstar_full_costs hI hw hh _ a1 a2 hrg
    by_cases hk : (p.cells (p.openHeap 1)).k_cost < 2000000000
    · have := hM _ _ hs a1 hsc a2 hk
      rw [fdstar_gridDist_self] at this
      unfold lexLe at this
      split_ifs with e
      · simp only [decide_eq_false_iff_not]
        omega
      · simp only [decide_eq_false_iff_not]
        omega
    · rw [if_neg (by omega)]
      simp only [decide_eq_false_iff_not]
      omega

end FocussedDStar

end RasterSim

namespace RasterSim

/-! ## D* Lite: the path that is set is a chain from the start to the goal -/

/-- What every round of a fold establishes for its own item and no round undoes holds
at the end for every item. -/
theorem foldl_establish {α β : Type} (Q : α → β → Prop) (f : β → α → β)
    (hset : ∀ b a, Q a (f b a)) (hkeep : ∀ b a a', Q a' b → Q a' (f b a)) :
    ∀ (l : List α) (b : β) (a : α), a ∈ l → Q a (l.foldl f b)
  | [], _, _, h => by simp at h
  | a0 :: l, b, a, h => by
    simp only [List.foldl_cons]
    rcases List.mem_cons.1 h with h1 | h1
    · subst h1
      exact foldl_keeps (Q a) f l (f b a) (fun b' a' _ hb' => hkeep b' a' a hb') (hset b a)
    · exact foldl_establish Q f hset hkeep l (f b a0) a h1

namespace DStarLite

/-- The edge flag is set in the `neighborhoodIndex` of the cell. -/
def HasFlag (cells : Nat → Cell) (c flag : Nat) : Prop :=
  ((cells c).neighborhoodIndex / flag) % 2 = 1

/-- One of the four edge flags. -/
def IsFlag (f : Nat) : Prop := f = 1 ∨ f = 2 ∨ f = 4 ∨ f = 8

theorem dlite_setFlag_xy (cells : Nat → Cell) (i flag c : Nat) :
    ((setFlag cells i flag) c).x = (cells c).x ∧ ((setFlag cells i flag) c).y = (cells c).y := by
  by_cases hc : c = i
  · subst hc; simp [setFlag, upd_apply]
  · simp [setFlag, upd_apply, hc]

theorem dlite_setFlag_sets (cells : Nat → Cell) (i flag : Nat) (hf : IsFlag flag) :
    HasFlag (setFlag cells i flag) i flag := by
  simp only [HasFlag, setFlag, upd_apply, if_pos]
  rcases hf with h | h | h | h <;> subst h <;> split_ifs <;> omega

theorem dlite_setFlag_keeps (cells : Nat → Cell) (i flag c f : Nat) (hflag : IsFlag flag)
    (hf : IsFlag f) (h : HasFlag cells c f) : HasFlag (setFlag cells i flag) c f := by
  simp only [HasFlag, setFlag, upd_apply] at h ⊢
  by_cases hc : c = i
  · subst hc
    rw [if_pos rfl]
    simp only
    rcases hflag with h1 | h1 | h1 | h1 <;> subst h1 <;>
      rcases hf with h2 | h2 | h2 | h2 <;> subst h2 <;> split_ifs <;> omega
  · rw [if_neg hc]
    exact h

/-- The offsets of the neighbourhood table: each entry after the first one is a move
by at most one cell in each direction that the edge flags of the index allow. -/
theorem dlite_buildNeighborhoods_mem (w n : Nat) (spec : NeighborSpec)
    (h : spec ∈ (buildNeighborhoods w n).tail) :
    ∃ x y : Int, (x = -1 ∨ x = 0 ∨ x = 1) ∧ (y = -1 ∨ y = 0 ∨ y = 1) ∧ ¬ (x = 0 ∧ y = 0) ∧
      ¬ ((n / XMinEdge) % 2 = 1 ∧ x = -1) ∧ ¬ ((n / XMaxEdge) % 2 = 1 ∧ x = 1) ∧
      ¬ ((n / YMinEdge) % 2 = 1 ∧ y = -1) ∧ ¬ ((n / YMaxEdge) % 2 = 1 ∧ y = 1) ∧
      spec.ptrOffset = y * (w : Int) + x := by
  unfold buildNeighborhoods at h
  by_cases hn : n < 16
  · rw [if_pos hn] at h
    simp only [List.tail_cons, List.mem_flatMap, List.mem_filterMap] at h
    obtain ⟨y, hy, x, hx, hsome⟩ := h
    by_cases h0 : x = 0 ∧ y = 0
    · rw [if_pos h0] at hsome; cases hsome
    rw [if_neg h0] at hsome
    by_cases h1 : (n / XMinEdge) % 2 = 1 ∧ x = -1
    · rw [if_pos h1] at hsome; cases hsome
    rw [if_neg h1] at hsome
    by_cases h2 : (n / XMaxEdge) % 2 = 1 ∧ x = 1
    · rw [if_pos h2] at hsome; cases hsome
    rw [if_neg h2] at hsome
    by_cases h3 : (n / YMinEdge) % 2 = 1 ∧ y = -1
    · rw [if_pos h3] at hsome; cases hsome
    rw [if_neg h3] at hsome
    by_cases h4 : (n / YMaxEdge) % 2 = 1 ∧ y = 1
    · rw [if_pos h4] at hsome; cases hsome
    rw [if_neg h4] at hsome
    simp only [Option.some.injEq] at hsome
    refine ⟨x, y, by simpa using hx, by simpa using hy, h0, h1, h2, h3, h4, ?_⟩
    rw [← hsome]
  · rw [if_neg hn] at h
    simp at h

/-- Two states with the same map size, neighbourhood table, start and goal cells, and
the same position and `neighborhoodIndex` in every cell. -/
def Frame (p p' : Planner) : Prop :=
  p'.width = p.width ∧ p'.height = p.height ∧ p'.neighborhoods = p.neighborhoods ∧
  p'.pStart = p.pStart ∧ p'.pGoal = p.pGoal ∧
  ∀ i, (p'.cells i).x = (p.cells i).x ∧ (p'.cells i).y = (p.cells i).y ∧
    (p'.cells i).neighborhoodIndex = (p.cells i).neighborhoodIndex

theorem dlite_frame_refl (p : Planner) : Frame p p :=
  ⟨rfl, rfl, rfl, rfl, rfl, fun _ => ⟨rfl, rfl, rfl⟩⟩

theorem dlite_frame_trans {p1 p2 p3 : Planner} (h12 : Frame p1 p2) (h23 : Frame p2 p3) : Frame p1 p3 :=
  ⟨h23.1.trans h12.1, h23.2.1.trans h12.2.1, h23.2.2.1.trans h12.2.2.1,
    h23.2.2.2.1.trans h12.2.2.2.1, h23.2.2.2.2.1.trans h12.2.2.2.2.1, fun i =>
    ⟨(h23.2.2.2.2.2 i).1.trans (h12.2.2.2.2.2 i).1, (h23.2.2.2.2.2 i).2.1.trans (h12.2.2.2.2.2 i).2.1,
      (h23.2.2.2.2.2 i).2.2.trans (h12.2.2.2.2.2 i).2.2⟩⟩

theorem dlite_frame_ite (p a b : Planner) (c : Prop) [Decidable c] (ha : Frame p a)
    (hb : Frame p b) : Frame p (if c then a else b) := by
  split_ifs
  · exact ha
  · exact hb

theorem dlite_frame_ite_fst (p : Planner) (a b : Planner × Nat) (c : Prop) [Decidable c]
    (ha : Frame p a.1) (hb : Frame p b.1) : Frame p (if c then a else b).1 := by
  split_ifs
  · exact ha
  · exact hb

/-- A change of one cell that keeps its position and `neighborhoodIndex`. -/
theorem dlite_frame_upd (p q : Planner) (c : Nat) (c' : Cell) (hq : Frame p q)
    (hx : c'.x = (q.cells c).x) (hy : c'.y = (q.cells c).y)
    (hn : c'.neighborhoodIndex = (q.cells c).neighborhoodIndex) :
    Frame p { q with cells := upd q.cells c c' } := by
  refine dlite_frame_trans hq ⟨rfl, rfl, rfl, rfl, rfl, fun i => ?_⟩
  simp only [upd_apply]
  split_ifs with hi
  · subst hi; exact ⟨hx, hy, hn⟩
  · exact ⟨rfl, rfl, rfl⟩

theorem dlite_swapSlots_frame (p : Planner) (i j : Nat) : Frame p (swapSlots p i j) := by
  refine ⟨rfl, rfl, rfl, rfl, rfl, fun c => ?_⟩
  simp only [swapSlots, upd_apply]
  split_ifs <;> simp_all

theorem dlite_heapUpLoop_frame : ∀ (fuel : Nat) (p : Planner) (idx : Nat), Frame p (heapUpLoop fuel p idx)
  | 0, p, _ => dlite_frame_refl p
  | fuel + 1, p, idx => by
    simp only [heapUpLoop]
    split_ifs
    · exact dlite_frame_trans (dlite_swapSlots_frame p _ _) (dlite_heapUpLoop_frame fuel _ _)
    · exact dlite_frame_refl p
    · exact dlite_frame_refl p

theorem dlite_heapDownLoop_frame : ∀ (fuel : Nat) (p : Planner) (idx : Nat),
    Frame p (heapDownLoop fuel p idx)
  | 0, p, _ => dlite_frame_refl p
  | fuel + 1, p, idx => by
    simp only [heapDownLoop]
    split_ifs
    · exact dlite_frame_refl p
    · exact dlite_frame_trans (dlite_swapSlots_frame p _ _) (dlite_heapDownLoop_frame fuel _ _)

theorem dlite_heapUp_frame (p : Planner) (c : Nat) : Frame p (heapUp p c) := by
  unfold heapUp
  split_ifs
  · exact dlite_frame_refl p
  · exact dlite_heapUpLoop_frame _ _ _

theorem dlite_heapDown_frame (p : Planner) (c : Nat) : Frame p (heapDown p c) := by
  unfold heapDown
  split_ifs
  · exact dlite_frame_refl p
  · exact dlite_heapDownLoop_frame _ _ _

theorem dlite_insert_frame (p : Planner) (c : Nat) : Frame p (insert p c) := by
  unfold insert
  refine dlite_frame_ite _ _ _ _ ?_ ?_
  · exact dlite_frame_trans (dlite_heapDown_frame _ _) (dlite_heapUp_frame _ _)
  · refine dlite_frame_trans ?_ (dlite_heapUp_frame _ _)
    exact ⟨rfl, rfl, rfl, rfl, rfl, fun i => by simp only [upd_apply]; split_ifs <;> simp_all⟩

theorem dlite_remove_frame (p : Planner) (c : Nat) : Frame p (remove p c) := by
  unfold remove
  refine dlite_frame_ite _ _ _ _ (dlite_frame_refl p) ?_
  refine dlite_frame_upd p _ c _ ?_ rfl rfl rfl
  refine dlite_frame_ite _ _ _ _ ?_ ?_
  · refine dlite_frame_trans (dlite_frame_trans ?_ (dlite_heapUp_frame _ _)) (dlite_heapDown_frame _ _)
    exact ⟨rfl, rfl, rfl, rfl, rfl, fun i => by simp only [upd_apply]; split_ifs <;> simp_all⟩
  · exact ⟨rfl, rfl, rfl, rfl, rfl, fun i => ⟨rfl, rfl, rfl⟩⟩

theorem dlite_updateVertex_frame (p q : Planner) (c : Nat) (hq : Frame p q) :
    Frame p (updateVertex q c) := by
  unfold updateVertex
  refine dlite_frame_ite _ _ _ _ ?_ (dlite_frame_trans hq (dlite_remove_frame _ _))
  refine dlite_frame_trans ?_ (dlite_insert_frame _ _)
  exact dlite_frame_upd p q c _ hq rfl rfl rfl

theorem dlite_cellBlocked_frame (p : Planner) (c : Nat) : Frame p (cellBlocked p c) := by
  unfold cellBlocked
  refine dlite_updateVertex_frame p _ c ?_
  refine dlite_frame_upd p _ c _ ?_ rfl rfl rfl
  refine foldl_keeps (Frame p) _ _ p ?_ (dlite_frame_refl p)
  intro q spec _ hq
  refine dlite_frame_ite _ _ _ _ hq (dlite_frame_ite _ _ _ _ hq (dlite_frame_ite _ _ _ _ ?_ hq))
  exact dlite_updateVertex_frame p _ _ (dlite_frame_upd p q _ _ hq rfl rfl rfl)

theorem dlite_cellFreed_frame (p : Planner) (c : Nat) : Frame p (cellFreed p c) := by
  unfold cellFreed
  have hfold : Frame p ((p.neighborsOf c).foldl
      (fun (acc : Planner × Nat) spec =>
        let p := acc.1
        let newCellRhs := acc.2
        let pNeighbor := neighborOf c spec
        if pNeighbor = p.pGoal ∨ (p.cells pNeighbor).blocked then acc
        else
          let newRhs := (p.cells pNeighbor).g_cost
          let newRhs := if newRhs < OBSTACLE_COST then uadd newRhs spec.baseCost else newRhs
          let newCellRhs := if newRhs < newCellRhs then newRhs else newCellRhs
          let newRhs := (p.cells c).g_cost
          let newRhs := if newRhs < OBSTACLE_COST then uadd newRhs spec.baseCost else newRhs
          if newRhs < (p.cells pNeighbor).rhs then
            (updateVertex { p with cells := upd p.cells pNeighbor { p.cells pNeighbor with rhs := newRhs } }
              pNeighbor, newCellRhs)
          else (p, newCellRhs))
      (p, (p.cells c).rhs)).1 := by
    refine foldl_keeps (fun (acc : Planner × Nat) => Frame p acc.1) _ _ _ ?_ (dlite_frame_refl p)
    intro acc spec _ hacc
    refine dlite_frame_ite_fst _ _ _ _ hacc (dlite_frame_ite_fst _ _ _ _ ?_ hacc)
    exact dlite_updateVertex_frame p _ _ (dlite_frame_upd p acc.1 _ _ hacc rfl rfl rfl)
  refine dlite_frame_ite _ _ _ _ ?_ hfold
  exact dlite_updateVertex_frame p _ _ (dlite_frame_upd p _ _ _ hfold rfl rfl rfl)

theorem dlite_initMapUpdate_frame (p : Planner) (m : GridMap) (r : Region) :
    Frame p (initMapUpdate p m r) := by
  unfold initMapUpdate
  refine foldl_keeps (Frame p) _ r.points p ?_ (dlite_frame_refl p)
  intro q pos _ hq
  have h1 := dlite_frame_upd p q (q.width * pos.2 + pos.1)
    { q.cells (q.width * pos.2 + pos.1) with blocked := decide (m.pixel pos.1 pos.2 > 0) } hq rfl rfl rfl
  refine dlite_frame_ite _ _ _ _ ?_ hq
  exact dlite_frame_ite _ _ _ _ (dlite_frame_trans h1 (dlite_cellBlocked_frame _ _))
    (dlite_frame_trans h1 (dlite_cellFreed_frame _ _))

theorem dlite_lowerCell_frame (p : Planner) (c : Nat) : Frame p (lowerCell p c) := by
  unfold lowerCell
  have h1 := dlite_frame_upd p p c { p.cells c with g_cost := (p.cells c).rhs } (dlite_frame_refl p)
    rfl rfl rfl
  have h2 := dlite_frame_trans h1 (dlite_remove_frame _ c)
  refine dlite_frame_ite _ _ _ _ ?_ h2
  refine foldl_keeps (Frame p) _ _ _ ?_ h2
  intro q spec _ hq
  refine dlite_frame_ite _ _ _ _ hq (dlite_frame_ite _ _ _ _ ?_ hq)
  exact dlite_updateVertex_frame p _ _ (dlite_frame_upd p q _ _ hq rfl rfl rfl)

theorem dlite_raiseCell_frame (p : Planner) (c : Nat) : Frame p (raiseCell p c) := by
  unfold raiseCell
  have h1 := dlite_frame_upd p p c { p.cells c with g_cost := OBSTACLE_COST } (dlite_frame_refl p)
    rfl rfl rfl
  refine foldl_keeps (Frame p) _ _ _ ?_ h1
  intro q spec _ hq
  refine dlite_frame_ite _ _ _ _ hq (dlite_updateVertex_frame p _ _ ?_)
  exact dlite_frame_ite _ _ _ _ (dlite_frame_upd p q _ _ hq rfl rfl rfl) hq

theorem dlite_popStep_frame (p : Planner) : Frame p (popStep p) := by
  unfold popStep
  refine dlite_frame_ite _ _ _ _ ?_
    (dlite_frame_ite _ _ _ _ (dlite_lowerCell_frame _ _) (dlite_raiseCell_frame _ _))
  refine dlite_frame_trans ?_ (dlite_insert_frame _ _)
  exact dlite_frame_upd p p _ _ (dlite_frame_refl p) rfl rfl rfl

theorem dlite_shortestPathLoop_frame (maxSteps : Nat) :
    ∀ (fuel : Nat) (p p' : Planner) (step : Nat) (b : Bool),
      shortestPathLoop maxSteps fuel p step = some (p', b) → Frame p p'
  | 0, _, _, _, _, h => by simp [shortestPathLoop] at h
  | fuel + 1, p, p', step, b, h => by
    simp only [shortestPathLoop] at h
    split_ifs at h
    · cases h; exact dlite_frame_refl p
    · cases h; exact dlite_frame_refl p
    · exact dlite_frame_trans (dlite_popStep_frame p)
        (dlite_shortestPathLoop_frame maxSteps fuel _ p' _ b h)
    · cases h; exact dlite_frame_refl p

theorem dlite_resetState_frame (p : Planner) : Frame p (resetState p) := by
  refine ⟨rfl, rfl, rfl, rfl, rfl, fun i => ?_⟩
  simp only [resetState, upd_apply]
  split_ifs <;> simp_all

/-- The state of the D* Lite planner fits a map size: the neighbourhood table is the
one of the width, the cells carry the positions of their indices, and the cells on an
edge of the map carry the flag of this edge. -/
structure AlgInv (p : Planner) (size : Nat × Nat) : Prop where
  width : p.width = size.1
  height : p.height = size.2
  fits : size.1 ≤ USHORT ∧ size.2 ≤ USHORT
  table : p.neighborhoods = buildNeighborhoods size.1
  coords : ∀ i, i < size.1 * size.2 → (p.cells i).x = i % size.1 ∧ (p.cells i).y = i / size.1
  xMin : ∀ i, i < size.1 * size.2 → i % size.1 = 0 → HasFlag p.cells i XMinEdge
  xMax : ∀ i, i < size.1 * size.2 → i % size.1 + 1 = size.1 → HasFlag p.cells i XMaxEdge
  yMin : ∀ i, i < size.1 * size.2 → i / size.1 = 0 → HasFlag p.cells i YMinEdge
  yMax : ∀ i, i < size.1 * size.2 → i / size.1 + 1 = size.2 → HasFlag p.cells i YMaxEdge

theorem dlite_algInv_of_frame {p p' : Planner} {size : Nat × Nat} (h : AlgInv p size)
    (hf : Frame p p') : AlgInv p' size := by
  obtain ⟨f1, f2, f3, _, _, f6⟩ := hf
  have hflag : ∀ i f, HasFlag p.cells i f → HasFlag p'.cells i f := by
    intro i f hi
    unfold HasFlag at hi ⊢
    rw [(f6 i).2.2]; exact hi
  refine ⟨f1.trans h.width, f2.trans h.height, h.fits, f3.trans h.table, ?_,
    fun i hi he => hflag i _ (h.xMin i hi he), fun i hi he => hflag i _ (h.xMax i hi he),
    fun i hi he => hflag i _ (h.yMin i hi he), fun i hi he => hflag i _ (h.yMax i hi he)⟩
  intro i hi
  rw [(f6 i).1, (f6 i).2.1]
  exact h.coords i hi

theorem dlite_move_range (cx w : Nat) (x : Int) (hx : x = -1 ∨ x = 0 ∨ x = 1) (hcx : cx < w)
    (e1 : cx = 0 → x ≠ -1) (e2 : cx + 1 = w → x ≠ 1) :
    0 ≤ (cx : Int) + x ∧ (cx : Int) + x < w := by
  rcases hx with h | h | h <;> subst h <;> constructor <;> omega

theorem dlite_move_adjacent (cx cy nx ny : Nat) (x y : Int)
    (hx : x = -1 ∨ x = 0 ∨ x = 1) (hy : y = -1 ∨ y = 0 ∨ y = 1) (h0 : ¬ (x = 0 ∧ y = 0))
    (m1 : (nx : Int) = (cx : Int) + x) (m2 : (ny : Int) = (cy : Int) + y) :
    Adjacent (cx, cy) (nx, ny) := by
  unfold Adjacent
  simp only
  refine ⟨?_, by omega, by omega, by omega, by omega⟩
  intro he
  have q1 := congrArg Prod.fst he
  have q2 := congrArg Prod.snd he
  simp only at q1 q2
  apply h0
  constructor <;> omega

/-- The neighbours of a cell of the map are cells of the map at adjacent positions. -/
theorem dlite_neighbor_adjacent {p : Planner} {size : Nat × Nat} (h : AlgInv p size) (c : Nat)
    (hc : c < size.1 * size.2) (spec : NeighborSpec) (hs : spec ∈ p.neighborsOf c) :
    neighborOf c spec < size.1 * size.2 ∧
    Adjacent ((p.cells c).x, (p.cells c).y)
      ((p.cells (neighborOf c spec)).x, (p.cells (neighborOf c spec)).y) := by
  unfold Planner.neighborsOf at hs
  rw [h.table] at hs
  obtain ⟨x, y, hx, hy, h0, h1, h2, h3, h4, hoff⟩ := dlite_buildNeighborhoods_mem _ _ _ hs
  have hw0 : 0 < size.1 := by
    rcases Nat.eq_zero_or_pos size.1 with e | e
    · rw [e] at hc; simp at hc
    · exact e
  have hcx : c % size.1 < size.1 := Nat.mod_lt _ hw0
  have hcy : c / size.1 < size.2 := Nat.div_lt_of_lt_mul hc
  have e1 : c % size.1 = 0 → x ≠ -1 := fun e ex => h1 ⟨h.xMin c hc e, ex⟩
  have e2 : c % size.1 + 1 = size.1 → x ≠ 1 := fun e ex => h2 ⟨h.xMax c hc e, ex⟩
  have e3 : c / size.1 = 0 → y ≠ -1 := fun e ey => h3 ⟨h.yMin c hc e, ey⟩
  have e4 : c / size.1 + 1 = size.2 → y ≠ 1 := fun e ey => h4 ⟨h.yMax c hc e, ey⟩
  obtain ⟨hx0, hx1⟩ := dlite_move_range _ _ x hx hcx e1 e2
  obtain ⟨hy0, hy1⟩ := dlite_move_range _ _ y hy hcy e3 e4
  obtain ⟨m1, m2, _⟩ := index_move size.1 c x y hx0 hx1 hy0
  have hn : neighborOf c spec = ((c : Int) + (y * (size.1 : Int) + x)).toNat := by
    unfold neighborOf; rw [hoff]
  rw [← hn] at m1 m2
  have hnx : neighborOf c spec % size.1 < size.1 := Nat.mod_lt _ hw0
  have hny : neighborOf c spec / size.1 < size.2 := by
    have : ((neighborOf c spec / size.1 : Nat) : Int) < size.2 := by rw [m2]; exact hy1
    exact_mod_cast this
  have hlt : neighborOf c spec < size.1 * size.2 := by
    have hi := index_lt size.1 size.2 _ _ hnx hny
    rw [Nat.div_add_mod'] at hi
    exact hi
  refine ⟨hlt, ?_⟩
  obtain ⟨c1, c2⟩ := h.coords c hc
  obtain ⟨n1, n2⟩ := h.coords _ hlt
  rw [c1, c2, n1, n2]
  exact dlite_move_adjacent _ _ _ _ x y hx hy h0 m1 m2

/-- The cell `nextCell` yields is a neighbour of the cell. -/
theorem dlite_nextCell_mem (p : Planner) (c n : Nat) (h : nextCell p c = some n) :
    ∃ spec, spec ∈ p.neighborsOf c ∧ n = neighborOf c spec := by
  unfold nextCell at h
  have key := foldl_keeps
    (fun (acc : Option Nat × Nat) => ∀ n, acc.1 = some n → ∃ spec, spec ∈ p.neighborsOf c ∧ n = neighborOf c spec)
    (fun (acc : Option Nat × Nat) spec =>
      let pNeighbor := neighborOf c spec
      if !(p.cells pNeighbor).blocked ∧ (p.cells pNeighbor).g_cost < OBSTACLE_COST then
        let cost := uadd (p.cells pNeighbor).g_cost spec.baseCost
        if cost < acc.2 then (some pNeighbor, cost) else acc
      else acc)
    (p.neighborsOf c) (none, OBSTACLE_COST) ?_ ?_
  · exact key n h
  · intro acc spec hspec hacc n' hn'
    simp only at hn'
    split_ifs at hn'
    · simp only [Option.some.injEq] at hn'
      exact ⟨spec, hspec, hn'.symm⟩
    · exact hacc n' hn'
    · exact hacc n' hn'
  · intro n' hn'
    cases hn'

/-- The path extraction yields a chain from the cell it starts at to the goal. -/
theorem dlite_extractLoop_spec {p : Planner} {size : Nat × Nat} (h : AlgInv p size) :
    ∀ (remaining pCell : Nat) (path l : List Pos), pCell < size.1 * size.2 →
      extractLoop p remaining pCell path = Except.ok l →
      ∃ l', l = path ++ l' ∧ l'.head? = some ((p.cells pCell).x, (p.cells pCell).y) ∧
        l'.getLast? = some ((p.cells p.pGoal).x, (p.cells p.pGoal).y) ∧ IsChain l' ∧
        (pCell = p.pGoal → l' = [((p.cells pCell).x, (p.cells pCell).y)])
  | remaining, pCell, path, l, hc, he => by
    unfold extractLoop at he
    simp only at he
    split_ifs at he with hg
    · simp only [Except.ok.injEq] at he
      rw [← hg]
      exact ⟨[((p.cells pCell).x, (p.cells pCell).y)], he.symm, rfl, rfl, trivial, fun _ => rfl⟩
    · cases remaining with
      | zero => simp only at he; cases he
      | succ r =>
        simp only at he
        cases hn : nextCell p pCell with
        | none => rw [hn] at he; simp only at he; cases he
        | some next =>
          rw [hn] at he
          simp only at he
          obtain ⟨spec, hspec, hnext⟩ := dlite_nextCell_mem p pCell next hn
          obtain ⟨hlt, hadj⟩ := dlite_neighbor_adjacent h pCell hc spec hspec
          rw [← hnext] at hlt hadj
          obtain ⟨l', h1, h2, h3, h4, _⟩ := dlite_extractLoop_spec h r next _ l hlt he
          refine ⟨((p.cells pCell).x, (p.cells pCell).y) :: l', by rw [h1]; simp, rfl, ?_, ?_,
            fun e => absurd e hg⟩
          · cases l' with
            | nil => simp at h2
            | cons a t => simpa [List.getLast?_cons_cons] using h3
          · cases l' with
            | nil => simp at h2
            | cons a t =>
              simp only [List.head?_cons, Option.some.injEq] at h2
              subst h2
              exact ⟨hadj, h4⟩

theorem dlite_extract_spec {p : Planner} {size : Nat × Nat} (h : AlgInv p size) (s g : Pos)
    (b : Bool) (hs1 : s.1 < size.1) (hs2 : s.2 < size.2) (hg1 : g.1 < size.1) (hg2 : g.2 < size.2)
    (hps : p.pStart = s.2 * size.1 + s.1) (hpg : p.pGoal = g.2 * size.1 + g.1) :
    AlgInv (doDebugAndPathExtract p b).planner size ∧
    ((doDebugAndPathExtract p b).path ≠ [] → PathOK s g (doDebugAndPathExtract p b).path) := by
  have hsl := index_lt size.1 size.2 s.1 s.2 hs1 hs2
  have hgl := index_lt size.1 size.2 g.1 g.2 hg1 hg2
  have hposs : ((p.cells p.pStart).x, (p.cells p.pStart).y) = s := by
    rw [hps]
    obtain ⟨c1, c2⟩ := h.coords _ hsl
    have := posOf_index size.1 s.1 s.2 hs1
    unfold posOf at this
    rw [c1, c2]; exact this
  have hposg : ((p.cells p.pGoal).x, (p.cells p.pGoal).y) = g := by
    rw [hpg]
    obtain ⟨c1, c2⟩ := h.coords _ hgl
    have := posOf_index size.1 g.1 g.2 hg1
    unfold posOf at this
    rw [c1, c2]; exact this
  unfold doDebugAndPathExtract
  by_cases hb : b = true
  · rw [if_pos hb]
    by_cases hr : (p.cells p.pStart).rhs < OBSTACLE_COST
    · rw [if_pos hr]
      cases hf : extractLoop p 100000 p.pStart [] with
      | error e => exact ⟨h, fun hne => absurd rfl hne⟩
      | ok l =>
        refine ⟨h, fun _ => ?_⟩
        obtain ⟨l', h1, h2, h3, h4, h5⟩ := dlite_extractLoop_spec h _ _ _ _ (by rw [hps]; exact hsl) hf
        simp only [List.nil_append] at h1
        subst h1
        rw [hposs] at h2 h5
        rw [hposg] at h3
        refine ⟨h2, h3, h4, fun he => h5 ?_⟩
        rw [hps, hpg, he]
    · rw [if_neg hr]
      exact ⟨h, fun hne => absurd rfl hne⟩
  · rw [if_neg hb]
    exact ⟨h, fun hne => absurd rfl hne⟩

theorem dlite_doCalculatePath_spec (fuel : Nat) {p : Planner} {size : Nat × Nat} (h : AlgInv p size)
    (u : Nat) (s g : Pos) (maxSteps : Nat) (o : Outcome)
    (hs1 : s.1 < size.1) (hs2 : s.2 < size.2) (hg1 : g.1 < size.1) (hg2 : g.2 < size.2)
    (ho : doCalculatePath fuel p u s g maxSteps = some o) :
    AlgInv o.planner size ∧ (o.path ≠ [] → PathOK s g o.path) := by
  unfold doCalculatePath at ho
  simp only at ho
  have hp1 : AlgInv { p with pStart := s.2 * p.width + s.1, pGoal := g.2 * p.width + g.1 } size :=
    ⟨h.width, h.height, h.fits, h.table, h.coords, h.xMin, h.xMax, h.yMin, h.yMax⟩
  have hs : ({ p with pStart := s.2 * p.width + s.1, pGoal := g.2 * p.width + g.1 } : Planner).pStart
      = s.2 * size.1 + s.1 := by simp only [h.width]
  have hg : ({ p with pStart := s.2 * p.width + s.1, pGoal := g.2 * p.width + g.1 } : Planner).pGoal
      = g.2 * size.1 + g.1 := by simp only [h.width]
  generalize ({ p with pStart := s.2 * p.width + s.1, pGoal := g.2 * p.width + g.1 } : Planner) = p1
    at ho hp1 hs hg
  by_cases hb1 : (p.cells (s.2 * p.width + s.1)).blocked = true
  · rw [if_pos hb1] at ho
    cases ho
    exact ⟨hp1, fun hne => absurd rfl hne⟩
  rw [if_neg hb1] at ho
  by_cases hb2 : (p.cells (g.2 * p.width + g.1)).blocked = true
  · rw [if_pos hb2] at ho
    cases ho
    exact ⟨hp1, fun hne => absurd rfl hne⟩
  rw [if_neg hb2] at ho
  have hf2 : Frame p1 (if needsReset u then resetState p1 else p1) :=
    dlite_frame_ite _ _ _ _ (dlite_resetState_frame p1) (dlite_frame_refl p1)
  generalize (if needsReset u then resetState p1 else p1) = p2 at ho hf2
  have hf3 : Frame p1 (if p2.pRobot ≠ p2.pStart then
      { p2 with k_m := uadd p2.k_m (h_cost (p2.cells p2.pStart) (p2.cells p2.pRobot)), pRobot := p2.pStart }
      else p2) := by
    refine dlite_frame_ite _ _ _ _ (dlite_frame_trans hf2 ?_) hf2
    exact ⟨rfl, rfl, rfl, rfl, rfl, fun _ => ⟨rfl, rfl, rfl⟩⟩
  generalize (if p2.pRobot ≠ p2.pStart then
      { p2 with k_m := uadd p2.k_m (h_cost (p2.cells p2.pStart) (p2.cells p2.pRobot)), pRobot := p2.pStart }
      else p2) = p3 at ho hf3
  cases hc : computeShortestPath fuel p3 maxSteps with
  | none => rw [hc] at ho; cases ho
  | some r =>
    obtain ⟨p4, success⟩ := r
    rw [hc] at ho
    simp only [Option.some.injEq] at ho
    subst ho
    have hf4 := dlite_frame_trans hf3 (dlite_shortestPathLoop_frame maxSteps fuel p3 p4 0 success hc)
    exact dlite_extract_spec (dlite_algInv_of_frame hp1 hf4) s g success hs1 hs2 hg1 hg2
      (hf4.2.2.2.1.trans hs) (hf4.2.2.2.2.1.trans hg)

theorem dlite_rowLoop (w h : Nat) (cells0 : Nat → Cell) :
    (∀ c, (((List.range w).foldl
        (fun cells i => setFlag (setFlag cells i YMinEdge) ((h - 1) * w + i) YMaxEdge) cells0) c).x
          = (cells0 c).x ∧
      (((List.range w).foldl
        (fun cells i => setFlag (setFlag cells i YMinEdge) ((h - 1) * w + i) YMaxEdge) cells0) c).y
          = (cells0 c).y) ∧
    (∀ i, i < w →
      HasFlag ((List.range w).foldl
        (fun cells i => setFlag (setFlag cells i YMinEdge) ((h - 1) * w + i) YMaxEdge) cells0) i YMinEdge ∧
      HasFlag ((List.range w).foldl
        (fun cells i => setFlag (setFlag cells i YMinEdge) ((h - 1) * w + i) YMaxEdge) cells0)
        ((h - 1) * w + i) YMaxEdge) := by
  have f4 : IsFlag YMinEdge := Or.inr (Or.inr (Or.inl rfl))
  have f8 : IsFlag YMaxEdge := Or.inr (Or.inr (Or.inr rfl))
  constructor
  · intro c
    refine foldl_keeps (fun (cells : Nat → Cell) => (cells c).x = (cells0 c).x ∧ (cells c).y = (cells0 c).y)
      _ _ _ ?_ ⟨rfl, rfl⟩
    intro b a _ hb
    rw [(dlite_setFlag_xy _ _ _ c).1, (dlite_setFlag_xy _ _ _ c).2,
      (dlite_setFlag_xy _ _ _ c).1, (dlite_setFlag_xy _ _ _ c).2]
    exact hb
  · intro i hi
    refine foldl_establish
      (fun (i : Nat) (cells : Nat → Cell) => HasFlag cells i YMinEdge ∧ HasFlag cells ((h - 1) * w + i) YMaxEdge)
      _ ?_ ?_ (List.range w) cells0 i (List.mem_range.2 hi)
    · intro b a
      exact ⟨dlite_setFlag_keeps _ _ _ _ _ f8 f4 (dlite_setFlag_sets _ _ _ f4),
        dlite_setFlag_sets _ _ _ f8⟩
    · intro b a a' hq
      exact ⟨dlite_setFlag_keeps _ _ _ _ _ f8 f4 (dlite_setFlag_keeps _ _ _ _ _ f4 f4 hq.1),
        dlite_setFlag_keeps _ _ _ _ _ f8 f8 (dlite_setFlag_keeps _ _ _ _ _ f4 f8 hq.2)⟩

theorem dlite_colLoop (w h : Nat) (cells1 : Nat → Cell) :
    (∀ c, (((List.range h).foldl
        (fun cells i => setFlag (setFlag cells (i * w) XMinEdge) (i * w + (w - 1)) XMaxEdge) cells1) c).x
          = (cells1 c).x ∧
      (((List.range h).foldl
        (fun cells i => setFlag (setFlag cells (i * w) XMinEdge) (i * w + (w - 1)) XMaxEdge) cells1) c).y
          = (cells1 c).y) ∧
    (∀ c f, IsFlag f → HasFlag cells1 c f →
      HasFlag ((List.range h).foldl
        (fun cells i => setFlag (setFlag cells (i * w) XMinEdge) (i * w + (w - 1)) XMaxEdge) cells1) c f) ∧
    (∀ i, i < h →
      HasFlag ((List.range h).foldl
        (fun cells i => setFlag (setFlag cells (i * w) XMinEdge) (i * w + (w - 1)) XMaxEdge) cells1)
        (i * w) XMinEdge ∧
      HasFlag ((List.range h).foldl
        (fun cells i => setFlag (setFlag cells (i * w) XMinEdge) (i * w + (w - 1)) XMaxEdge) cells1)
        (i * w + (w - 1)) XMaxEdge) := by
  have f1 : IsFlag XMinEdge := Or.inl rfl
  have f2 : IsFlag XMaxEdge := Or.inr (Or.inl rfl)
  refine ⟨?_, ?_, ?_⟩
  · intro c
    refine foldl_keeps (fun (cells : Nat → Cell) => (cells c).x = (cells1 c).x ∧ (cells c).y = (cells1 c).y)
      _ _ _ ?_ ⟨rfl, rfl⟩
    intro b a _ hb
    rw [(dlite_setFlag_xy _ _ _ c).1, (dlite_setFlag_xy _ _ _ c).2,
      (dlite_setFlag_xy _ _ _ c).1, (dlite_setFlag_xy _ _ _ c).2]
    exact hb
  · intro c f hf hc
    refine foldl_keeps (fun (cells : Nat → Cell) => HasFlag cells c f) _ _ _ ?_ hc
    intro b a _ hb
    exact dlite_setFlag_keeps _ _ _ _ _ f2 hf (dlite_setFlag_keeps _ _ _ _ _ f1 hf hb)
  · intro i hi
    refine foldl_establish
      (fun (i : Nat) (cells : Nat → Cell) => HasFlag cells (i * w) XMinEdge ∧ HasFlag cells (i * w + (w - 1)) XMaxEdge)
      _ ?_ ?_ (List.range h) cells1 i (List.mem_range.2 hi)
    · intro b a
      exact ⟨dlite_setFlag_keeps _ _ _ _ _ f2 f1 (dlite_setFlag_sets _ _ _ f1),
        dlite_setFlag_sets _ _ _ f2⟩
    · intro b a a' hq
      exact ⟨dlite_setFlag_keeps _ _ _ _ _ f2 f1 (dlite_setFlag_keeps _ _ _ _ _ f1 f1 hq.1),
        dlite_setFlag_keeps _ _ _ _ _ f2 f2 (dlite_setFlag_keeps _ _ _ _ _ f1 f2 hq.2)⟩

theorem dlite_initMap_inv (old : Planner) (m : GridMap) (hw : m.width ≤ USHORT)
    (hh : m.height ≤ USHORT) : AlgInv (initMap old m) (m.width, m.height) := by
  have f4 : IsFlag YMinEdge := Or.inr (Or.inr (Or.inl rfl))
  have f8 : IsFlag YMaxEdge := Or.inr (Or.inr (Or.inr rfl))
  unfold initMap
  simp only
  generalize hc0 : (fun i =>
      if i < m.width * m.height then
        ({ (old.memory 0).cells i with
          x := (i % m.width) % USHORT, y := (i / m.width) % USHORT, neighborhoodIndex := 0
          blocked := decide (m.pixel (i % m.width) (i / m.width) > 0), key := { k1 := 0, k2 := 0 } } : Cell)
      else rawCell) = cells0
  obtain ⟨r1, r2⟩ := dlite_rowLoop m.width m.height cells0
  generalize ((List.range m.width).foldl
    (fun cells i => setFlag (setFlag cells i YMinEdge) ((m.height - 1) * m.width + i) YMaxEdge) cells0)
    = cells1 at r1 r2 ⊢
  obtain ⟨q1, q2, q3⟩ := dlite_colLoop m.width m.height cells1
  generalize ((List.range m.height).foldl
    (fun cells i => setFlag (setFlag cells (i * m.width) XMinEdge) (i * m.width + (m.width - 1)) XMaxEdge)
    cells1) = cells2 at q1 q2 q3 ⊢
  refine ⟨rfl, rfl, ⟨hw, hh⟩, rfl, ?_, ?_, ?_, ?_, ?_⟩
  · intro i hi
    simp only at hi ⊢
    rw [(q1 i).1, (q1 i).2, (r1 i).1, (r1 i).2, ← hc0]
    simp only [if_pos hi]
    have hw0 : 0 < m.width := by
      rcases Nat.eq_zero_or_pos m.width with h0 | h0
      · rw [h0] at hi; simp at hi
      · exact h0
    have h1 : i % m.width < m.width := Nat.mod_lt _ hw0
    have h2 : i / m.width < m.height := Nat.div_lt_of_lt_mul hi
    exact ⟨Nat.mod_eq_of_lt (Nat.lt_of_lt_of_le h1 hw), Nat.mod_eq_of_lt (Nat.lt_of_lt_of_le h2 hh)⟩
  · intro i hi he
    simp only at hi he ⊢
    have h2 : i / m.width < m.height := Nat.div_lt_of_lt_mul hi
    have e := Nat.div_add_mod' i m.width
    rw [he, Nat.add_zero] at e
    have := (q3 (i / m.width) h2).1
    rw [e] at this
    exact this
  · intro i hi he
    simp only at hi he ⊢
    have h2 : i / m.width < m.height := Nat.div_lt_of_lt_mul hi
    have e := Nat.div_add_mod' i m.width
    have he' : i % m.width = m.width - 1 := by
      generalize i % m.width = r at he
      omega
    rw [he'] at e
    have := (q3 (i / m.width) h2).2
    rw [e] at this
    exact this
  · intro i hi he
    simp only at hi he ⊢
    have e := Nat.div_add_mod' i m.width
    rw [he, Nat.zero_mul, Nat.zero_add] at e
    have hw0 : 0 < m.width := by
      rcases Nat.eq_zero_or_pos m.width with h0 | h0
      · rw [h0] at hi; simp at hi
      · exact h0
    have h1 : i % m.width < m.width := Nat.mod_lt _ hw0
    rw [e] at h1
    exact q2 i _ f4 (r2 i h1).1
  · intro i hi he
    simp only at hi he ⊢
    have e := Nat.div_add_mod' i m.width
    have he' : i / m.width = m.height - 1 := by rw [← he, Nat.add_sub_cancel]
    rw [he'] at e
    have hw0 : 0 < m.width := by
      rcases Nat.eq_zero_or_pos m.width with h0 | h0
      · rw [h0] at hi; simp at hi
      · exact h0
    have h1 : i % m.width < m.width := Nat.mod_lt _ hw0
    have := q2 _ _ f8 (r2 (i % m.width) h1).2
    rw [e] at this
    exact this

/-- D* Lite provides what the contract invariant needs. -/
theorem dlite_algSpec (fuel : Nat) : AlgSpec (algorithm fuel) AlgInv := by
  refine ⟨?_, ?_, ?_⟩
  · intro st m hw hh _ _
    exact dlite_initMap_inv st m hw hh
  · intro st m r h _ _
    exact dlite_algInv_of_frame h (dlite_initMapUpdate_frame st m r)
  · intro st size u s g r h hs1 hs2 hg1 hg2 hc
    simp only [algorithm] at hc
    cases ho : doCalculatePath fuel st u s g 0 with
    | none => rw [ho] at hc; cases hc
    | some o =>
      rw [ho] at hc
      simp only [Option.map_some', Option.some.injEq] at hc
      subst hc
      exact dlite_doCalculatePath_spec fuel h u s g 0 o hs1 hs2 hg1 hg2 ho

end DStarLite

end RasterSim

namespace RasterSim

namespace DStarLite

/-! ## D* Lite: the edge flags and the neighbourhood table of `initMap` -/

/-- The eight directions `(dx, dy)` in the order of the loops of lines 125-126. -/
def directions : List (Int × Int) :=
  [(-1, -1), (0, -1), (1, -1), (-1, 0), (1, 0), (-1, 1), (0, 1), (1, 1)]

/-- The direction leaves the grid at a cell with the edge flags `i`. -/
def excluded (i : Nat) (d : Int × Int) : Bool :=
  decide (((i / XMinEdge) % 2 = 1 ∧ d.1 = -1) ∨ ((i / XMaxEdge) % 2 = 1 ∧ d.1 = 1) ∨
    ((i / YMinEdge) % 2 = 1 ∧ d.2 = -1) ∨ ((i / YMaxEdge) % 2 = 1 ∧ d.2 = 1))

/-- The table entry of a direction: the offset `dy * w + dx` and the cost 5 or 7. -/
def specOf (w : Nat) (d : Int × Int) : NeighborSpec :=
  { ptrOffset := d.2 * (w : Int) + d.1, baseCost := if d.1 = 0 ∨ d.2 = 0 then 5 else 7 }

/-- The edge the flag stands for, for the cell with index `c` of a `w`×`h` grid. -/
def OnEdge (w h c f : Nat) : Prop :=
  (f = XMinEdge → c % w = 0) ∧ (f = XMaxEdge → c % w + 1 = w) ∧
  (f = YMinEdge → c / w = 0) ∧ (f = YMaxEdge → c / w + 1 = h)

theorem dlite_table_eq (w i : Nat) (hi : i < 16) :
    buildNeighborhoods w i =
      { ptrOffset := 0, baseCost := 0 } ::
        ((directions.filter fun d => !excluded i d).map (specOf w)) := by
  interval_cases i <;> rfl

theorem dlite_setFlag_only (cells : Nat → Cell) (i flag c f : Nat) (hflag : IsFlag flag)
    (hf : IsFlag f) (h : HasFlag (setFlag cells i flag) c f) :
    HasFlag cells c f ∨ (c = i ∧ f = flag) := by
  simp only [HasFlag, setFlag, upd_apply] at h ⊢
  by_cases hc : c = i
  · subst hc
    rw [if_pos rfl] at h
    simp only at h
    rcases hflag with h1 | h1 | h1 | h1 <;> subst h1 <;>
      rcases hf with h2 | h2 | h2 | h2 <;> subst h2 <;> split_ifs at h <;> omega
  · rw [if_neg hc] at h
    exact Or.inl h

theorem dlite_setFlag_lt (cells : Nat → Cell) (i flag c : Nat) (hflag : IsFlag flag)
    (h : (cells c).neighborhoodIndex < 16) : ((setFlag cells i flag) c).neighborhoodIndex < 16 := by
  simp only [setFlag, upd_apply]
  by_cases hc : c = i
  · subst hc
    rw [if_pos rfl]
    simp only
    rcases hflag with h1 | h1 | h1 | h1 <;> subst h1 <;> split_ifs <;> omega
  · rw [if_neg hc]
    exact h

/-- Every flag that is set stands at a cell of its edge, and the index is below 16. -/
def FlagsOnly (w h : Nat) (cells : Nat → Cell) : Prop :=
  ∀ c, (cells c).neighborhoodIndex < 16 ∧ ∀ f, IsFlag f → HasFlag cells c f → OnEdge w h c f

theorem dlite_flagsOnly_set {w h : Nat} (cells : Nat → Cell) (i flag : Nat) (hflag : IsFlag flag)
    (hi : OnEdge w h i flag) (hc : FlagsOnly w h cells) : FlagsOnly w h (setFlag cells i flag) := by
  intro c
  refine ⟨dlite_setFlag_lt cells i flag c hflag (hc c).1, fun f hf hs => ?_⟩
  rcases dlite_setFlag_only cells i flag c f hflag hf hs with h1 | ⟨h1, h2⟩
  · exact (hc c).2 f hf h1
  · rw [h1, h2]
    exact hi

theorem dlite_onEdge_row (w h i : Nat) (hi : i < w) (hh : 1 ≤ h) :
    OnEdge w h i YMinEdge ∧ OnEdge w h ((h - 1) * w + i) YMaxEdge := by
  have e1 : i / w = 0 := Nat.div_eq_of_lt hi
  have e2 : ((h - 1) * w + i) / w = h - 1 := by
    rw [Nat.add_comm, Nat.add_mul_div_right _ _ (by omega : 0 < w), e1, Nat.zero_add]
  refine ⟨⟨?_, ?_, fun _ => e1, ?_⟩, ⟨?_, ?_, ?_, fun _ => ?_⟩⟩
  · intro e; cases e
  · intro e; cases e
  · intro e; cases e
  · intro e; cases e
  · intro e; cases e
  · intro e; cases e
  · rw [e2]; omega

theorem dlite_onEdge_col (w h i : Nat) (hw : 1 ≤ w) :
    OnEdge w h (i * w) XMinEdge ∧ OnEdge w h (i * w + (w - 1)) XMaxEdge := by
  have e1 : (i * w) % w = 0 := Nat.mul_mod_left i w
  have e2 : (i * w + (w - 1)) % w = w - 1 := by
    rw [Nat.add_comm, Nat.add_mul_mod_self_right]
    exact Nat.mod_eq_of_lt (by omega)
  refine ⟨⟨fun _ => e1, ?_, ?_, ?_⟩, ⟨?_, fun _ => ?_, ?_, ?_⟩⟩
  · intro e; cases e
  · intro e; cases e
  · intro e; cases e
  · intro e; cases e
  · rw [e2]; omega
  · intro e; cases e
  · intro e; cases e

/-- The edge flags after `initMap`: in a grid with at least one cell, the cell with the
index `c` (the cell at `(c % w, c / w)`) carries a flag exactly when it lies on the
edge of the flag, and its `neighborhoodIndex` is one of the 16 flag combinations. -/
theorem dlite_initMap_flags (old : Planner) (m : GridMap) (hw : 1 ≤ m.width)
    (hh : 1 ≤ m.height) (c : Nat) (hc : c < m.width * m.height) :
    ((initMap old m).cells c).neighborhoodIndex < 16 ∧
    (HasFlag (initMap old m).cells c XMinEdge ↔ c % m.width = 0) ∧
    (HasFlag (initMap old m).cells c XMaxEdge ↔ c % m.width + 1 = m.width) ∧
    (HasFlag (initMap old m).cells c YMinEdge ↔ c / m.width = 0) ∧
    (HasFlag (initMap old m).cells c YMaxEdge ↔ c / m.width + 1 = m.height) := by
  have f1 : IsFlag XMinEdge := Or.inl rfl
  have f2 : IsFlag XMaxEdge := Or.inr (Or.inl rfl)
  have f4 : IsFlag YMinEdge := Or.inr (Or.inr (Or.inl rfl))
  have f8 : IsFlag YMaxEdge := Or.inr (Or.inr (Or.inr rfl))
  unfold initMap
  simp only
  generalize hc0 : (fun i =>
      if i < m.width * m.height then
        ({ (old.memory 0).cells i with
          x := (i % m.width) % USHORT, y := (i / m.width) % USHORT, neighborhoodIndex := 0
          blocked := decide (m.pixel (i % m.width) (i / m.width) > 0), key := { k1 := 0, k2 := 0 } } : Cell)
      else rawCell) = cells0
  have o0 : FlagsOnly m.width m.height cells0 := by
    intro d
    have hz : (cells0 d).neighborhoodIndex = 0 := by
      rw [← hc0]
      simp only
      split_ifs <;> rfl
    refine ⟨by rw [hz]; decide, fun f hf hs => ?_⟩
    unfold HasFlag at hs
    rw [hz] at hs
    rcases hf with e | e | e | e <;> subst e <;> simp at hs
  have o1 : FlagsOnly m.width m.height ((List.range m.width).foldl
      (fun cells i => setFlag (setFlag cells i YMinEdge) ((m.height - 1) * m.width + i) YMaxEdge)
      cells0) := by
    refine foldl_keeps (FlagsOnly m.width m.height) _ _ _ ?_ o0
    intro b a ha hb
    have hr := dlite_onEdge_row m.width m.height a (List.mem_range.1 ha) hh
    exact dlite_flagsOnly_set _ _ _ f8 hr.2 (dlite_flagsOnly_set _ _ _ f4 hr.1 hb)
  obtain ⟨_, r2⟩ := dlite_rowLoop m.width m.height cells0
  generalize ((List.range m.width).foldl
    (fun cells i => setFlag (setFlag cells i YMinEdge) ((m.height - 1) * m.width + i) YMaxEdge) cells0)
    = cells1 at r2 o1 ⊢
  have o2 : FlagsOnly m.width m.height ((List.range m.height).foldl
      (fun cells i => setFlag (setFlag cells (i * m.width) XMinEdge) (i * m.width + (m.width - 1)) XMaxEdge)
      cells1) := by
    refine foldl_keeps (FlagsOnly m.width m.height) _ _ _ ?_ o1
    intro b a _ hb
    have hr := dlite_onEdge_col m.width m.height a hw
    exact dlite_flagsOnly_set _ _ _ f2 hr.2 (dlite_flagsOnly_set _ _ _ f1 hr.1 hb)
  obtain ⟨_, q2, q3⟩ := dlite_colLoop m.width m.height cells1
  generalize ((List.range m.height).foldl
    (fun cells i => setFlag (setFlag cells (i * m.width) XMinEdge) (i * m.width + (m.width - 1)) XMaxEdge)
    cells1) = cells2 at q2 q3 o2 ⊢
  have h1 : c % m.width < m.width := Nat.mod_lt _ (by omega)
  have h2 : c / m.width < m.height := Nat.div_lt_of_lt_mul hc
  have e := Nat.div_add_mod' c m.width
  refine ⟨(o2 c).1, ⟨fun hf => ((o2 c).2 _ f1 hf).1 rfl, fun he => ?_⟩,
    ⟨fun hf => ((o2 c).2 _ f2 hf).2.1 rfl, fun he => ?_⟩,
    ⟨fun hf => ((o2 c).2 _ f4 hf).2.2.1 rfl, fun he => ?_⟩,
    ⟨fun hf => ((o2 c).2 _ f8 hf).2.2.2 rfl, fun he => ?_⟩⟩
  · rw [he, Nat.add_zero] at e
    have := (q3 (c / m.width) h2).1
    rw [e] at this
    exact this
  · have he' : c % m.width = m.width - 1 := by
      generalize c % m.width = r at he
      omega
    rw [he'] at e
    have := (q3 (c / m.width) h2).2
    rw [e] at this
    exact this
  · rw [he, Nat.zero_mul, Nat.zero_add] at e
    rw [e] at h1
    exact q2 c _ f4 (r2 c h1).1
  · have he' : c / m.width = m.height - 1 := by rw [← he, Nat.add_sub_cancel]
    rw [he'] at e
    have := q2 _ _ f8 (r2 (c % m.width) h1).2
    rw [e] at this
    exact this

theorem dlite_directions_mem (d : Int × Int) :
    d ∈ directions ↔
      (d.1 = -1 ∨ d.1 = 0 ∨ d.1 = 1) ∧ (d.2 = -1 ∨ d.2 = 0 ∨ d.2 = 1) ∧ ¬ (d.1 = 0 ∧ d.2 = 0) := by
  obtain ⟨x, y⟩ := d
  simp only [directions, List.mem_cons, Prod.mk.injEq, List.mem_singleton, List.not_mem_nil,
    or_false]
  omega

/-- The entries of the table after the first one, for the flag combination `i`. -/
theorem dlite_table_mem (w i : Nat) (hi : i < 16) (spec : NeighborSpec) :
    spec ∈ (buildNeighborhoods w i).tail ↔
      ∃ d, d ∈ directions ∧ excluded i d = false ∧ spec = specOf w d := by
  rw [dlite_table_eq w i hi]
  simp only [List.tail_cons, List.mem_map, List.mem_filter, Bool.not_eq_true']
  constructor
  · rintro ⟨d, ⟨h1, h2⟩, h3⟩
    exact ⟨d, h1, h2, h3.symm⟩
  · rintro ⟨d, h1, h2, h3⟩
    exact ⟨d, ⟨h1, h2⟩, h3.symm⟩

/-- The edge flags of the cell `c` are those of its position in a `w`×`h` grid. -/
def FlagsExact (w h : Nat) (p : Planner) (c : Nat) : Prop :=
  (p.cells c).neighborhoodIndex < 16 ∧
  (HasFlag p.cells c XMinEdge ↔ c % w = 0) ∧
  (HasFlag p.cells c XMaxEdge ↔ c % w + 1 = w) ∧
  (HasFlag p.cells c YMinEdge ↔ c / w = 0) ∧
  (HasFlag p.cells c YMaxEdge ↔ c / w + 1 = h)

/-- With the table of `initMap` and the edge flags of its position, the neighbours a
cell reaches through its table are exactly the cells of the grid at the adjacent
positions, each with the cost 5 of a straight or 7 of a diagonal move. -/
theorem dlite_neighbors_iff (p : Planner) (w h : Nat) (hw : 1 ≤ w)
    (ht : p.neighborhoods = buildNeighborhoods w) (c : Nat) (hc : c < w * h)
    (hf : FlagsExact w h p c) (n cost : Nat) :
    (∃ spec, spec ∈ p.neighborsOf c ∧ neighborOf c spec = n ∧ spec.baseCost = cost) ↔
      (n < w * h ∧ Adjacent (c % w, c / w) (n % w, n / w) ∧
        cost = stepCost 5 7 (c % w, c / w) (n % w, n / w)) := by
  obtain ⟨hidx, x1, x2, y1, y2⟩ := hf
  have htab : p.neighborsOf c = (buildNeighborhoods w (p.cells c).neighborhoodIndex).tail := by
    unfold Planner.neighborsOf
    rw [ht]
  unfold HasFlag at x1 x2 y1 y2
  rw [htab]
  generalize (p.cells c).neighborhoodIndex = idx at hidx x1 x2 y1 y2
  have hcx : c % w < w := Nat.mod_lt _ (by omega)
  have hcy : c / w < h := Nat.div_lt_of_lt_mul hc
  have ec := Nat.div_add_mod' c w
  constructor
  · rintro ⟨spec, hs, hn, hcost⟩
    obtain ⟨d, hd, hex, hspec⟩ := (dlite_table_mem w idx hidx spec).1 hs
    obtain ⟨dx, dy⟩ := d
    obtain ⟨hx, hy, h0⟩ := (dlite_directions_mem (dx, dy)).1 hd
    simp only at hx hy h0
    simp only [excluded, decide_eq_false_iff_not, not_or] at hex
    obtain ⟨n1, n2, n3, n4⟩ := hex
    have e1 : c % w = 0 → dx ≠ -1 := fun e ex => n1 ⟨x1.2 e, ex⟩
    have e2 : c % w + 1 = w → dx ≠ 1 := fun e ex => n2 ⟨x2.2 e, ex⟩
    have e3 : c / w = 0 → dy ≠ -1 := fun e ey => n3 ⟨y1.2 e, ey⟩
    have e4 : c / w + 1 = h → dy ≠ 1 := fun e ey => n4 ⟨y2.2 e, ey⟩
    obtain ⟨hx0, hx1⟩ := dlite_move_range _ _ dx hx hcx e1 e2
    obtain ⟨hy0, hy1⟩ := dlite_move_range _ _ dy hy hcy e3 e4
    obtain ⟨m1, m2, _⟩ := index_move w c dx dy hx0 hx1 hy0
    have hn' : n = ((c : Int) + (dy * (w : Int) + dx)).toNat := by
      rw [← hn, hspec]
      rfl
    rw [← hn'] at m1 m2
    have hnx : n % w < w := Nat.mod_lt _ (by omega)
    have hny : n / w < h := by
      have : ((n / w : Nat) : Int) < h := by rw [m2]; exact hy1
      exact_mod_cast this
    have hlt : n < w * h := by
      have hi := index_lt w h _ _ hnx hny
      rw [Nat.div_add_mod'] at hi
      exact hi
    refine ⟨hlt, dlite_move_adjacent _ _ _ _ dx dy hx hy h0 m1 m2, ?_⟩
    rw [← hcost, hspec]
    simp only [specOf, stepCost]
    split_ifs <;> omega
  · rintro ⟨hlt, hadj, hcost⟩
    obtain ⟨hne, a1, a2, a3, a4⟩ := hadj
    simp only at a1 a2 a3 a4
    have hnx : n % w < w := Nat.mod_lt _ (by omega)
    have hny : n / w < h := Nat.div_lt_of_lt_mul hlt
    have en := Nat.div_add_mod' n w
    have hne' : ¬ (n % w = c % w ∧ n / w = c / w) := by
      rintro ⟨q1, q2⟩
      apply hne
      rw [q1, q2]
    generalize hdx : ((n % w : Nat) : Int) - ((c % w : Nat) : Int) = dx
    generalize hdy : ((n / w : Nat) : Int) - ((c / w : Nat) : Int) = dy
    have hd : (dx, dy) ∈ directions := by
      rw [dlite_directions_mem]
      simp only
      omega
    have hex : excluded idx (dx, dy) = false := by
      simp only [excluded, decide_eq_false_iff_not, not_or]
      refine ⟨fun ⟨f, e⟩ => ?_, fun ⟨f, e⟩ => ?_, fun ⟨f, e⟩ => ?_, fun ⟨f, e⟩ => ?_⟩
      · have := x1.1 f
        have e' : dx = -1 := e
        generalize n % w = a at hdx hnx
        generalize c % w = b at hdx this
        omega
      · have := x2.1 f
        have e' : dx = 1 := e
        generalize n % w = a at hdx hnx
        generalize c % w = b at hdx this
        omega
      · have := y1.1 f
        have e' : dy = -1 := e
        generalize n / w = a at hdy hny
        generalize c / w = b at hdy this
        omega
      · have := y2.1 f
        have e' : dy = 1 := e
        generalize n / w = a at hdy hny
        generalize c / w = b at hdy this
        omega
    refine ⟨specOf w (dx, dy), (dlite_table_mem w idx hidx _).2 ⟨_, hd, hex, rfl⟩, ?_, ?_⟩
    · show ((c : Int) + (dy * (w : Int) + dx)).toNat = n
      have e1 : (c : Int) = ((c / w : Nat) : Int) * w + ((c % w : Nat) : Int) := by
        exact_mod_cast ec.symm
      have e2 : (n : Int) = ((n / w : Nat) : Int) * w + ((n % w : Nat) : Int) := by
        exact_mod_cast en.symm
      have e3 : (c : Int) + (dy * (w : Int) + dx) = (n : Int) := by
        rw [← hdx, ← hdy, e2]
        nth_rewrite 1 [e1]
        ring
      rw [e3]
      rfl
    · rw [hcost]
      simp only [specOf, stepCost]
      split_ifs <;> omega

/-- After `initMap` the neighbours a cell reaches through its table are exactly the
cells of the grid at the adjacent positions, each with the cost 5 of a straight or 7 of
a diagonal move. -/
theorem dlite_initMap_neighbors (old : Planner) (m : GridMap) (hw : 1 ≤ m.width)
    (hh : 1 ≤ m.height) (c : Nat) (hc : c < m.width * m.height) (n cost : Nat) :
    (∃ spec, spec ∈ (initMap old m).neighborsOf c ∧ neighborOf c spec = n ∧ spec.baseCost = cost) ↔
      (n < m.width * m.height ∧ Adjacent (c % m.width, c / m.width) (n % m.width, n / m.width) ∧
        cost = stepCost 5 7 (c % m.width, c / m.width) (n % m.width, n / m.width)) :=
  dlite_neighbors_iff (initMap old m) m.width m.height hw rfl c hc
    (dlite_initMap_flags old m hw hh c hc) n cost

end DStarLite

end RasterSim

namespace RasterSim

/-! ## D* Lite: bounded runs of `computeShortestPath` -/

namespace DStarLite

/-- The test at the head of the loop of `computeShortestPath`: the open list is not
empty and the loop goes on. -/
def wantsStep (p : Planner) : Prop := p.openListLength ≠ 0 ∧ keepGoing p = true

instance (p : Planner) : Decidable (wantsStep p) :=
  inferInstanceAs (Decidable (p.openListLength ≠ 0 ∧ keepGoing p = true))

/-- At most `n` rounds of the loop of `computeShortestPath`, with the flag
`complete`. -/
def bounded : Nat → Planner → Planner × Bool
  | 0, p => if wantsStep p then (p, false) else (p, true)
  | n + 1, p => if wantsStep p then bounded n (popStep p) else (p, true)

theorem dlite_bounded_done (n : Nat) (p : Planner) (h : ¬ wantsStep p) : bounded n p = (p, true) := by
  cases n <;> simp only [bounded, if_neg h]

theorem dlite_bounded_split : ∀ (n1 n2 : Nat) (p : Planner),
    bounded (n1 + n2) p = bounded n2 (bounded n1 p).1
  | 0, n2, p => by
    rw [Nat.zero_add]
    simp only [bounded]
    split_ifs <;> rfl
  | n1 + 1, n2, p => by
    have e : n1 + 1 + n2 = (n1 + n2) + 1 := by omega
    rw [e]
    simp only [bounded]
    by_cases h : wantsStep p
    · rw [if_pos h, if_pos h]
      exact dlite_bounded_split n1 n2 (popStep p)
    · rw [if_neg h, if_neg h]
      exact (dlite_bounded_done n2 p h).symm

/-- The loop of `computeShortestPath` with a step budget `N ≥ 1`, `n` steps of which are
left, ends within `n + 1` rounds. -/
theorem dlite_loop_bounded (N : Nat) (hN : N ≠ 0) : ∀ (n fuel : Nat) (p : Planner) (step : Nat),
    step + n = N → n < fuel → shortestPathLoop N fuel p step = some (bounded n p)
  | n, 0, _, _, _, hf => by omega
  | 0, fuel + 1, p, step, hs, _ => by
    simp only [shortestPathLoop, bounded]
    by_cases h1 : p.openListLength ≠ 0
    · rw [if_pos h1]
      by_cases h2 : keepGoing p = true
      · have hw : wantsStep p := ⟨h1, h2⟩
        have h3 : N ≠ 0 ∧ step + 1 > N := ⟨hN, by omega⟩
        simp only [h2, Bool.not_true, Bool.false_eq_true, if_false, if_pos h3, if_pos hw]
      · have hw : ¬ wantsStep p := fun h => h2 h.2
        simp only [Bool.not_eq_true] at h2
        simp only [h2, Bool.not_false, if_true, if_neg hw]
    · have hw : ¬ wantsStep p := fun h => h1 h.1
      rw [if_neg h1, if_neg hw]
  | n + 1, fuel + 1, p, step, hs, hf => by
    simp only [shortestPathLoop, bounded]
    by_cases h1 : p.openListLength ≠ 0
    · rw [if_pos h1]
      by_cases h2 : keepGoing p = true
      · have hw : wantsStep p := ⟨h1, h2⟩
        have h3 : ¬ (N ≠ 0 ∧ step + 1 > N) := fun h => by omega
        simp only [h2, Bool.not_true, Bool.false_eq_true, if_false, if_neg h3, if_pos hw]
        exact dlite_loop_bounded N hN n fuel (popStep p) (step + 1) (by omega) (by omega)
      · have hw : ¬ wantsStep p := fun h => h2 h.2
        simp only [Bool.not_eq_true] at h2
        simp only [h2, Bool.not_false, if_true, if_neg hw]
    · have hw : ¬ wantsStep p := fun h => h1 h.1
      rw [if_neg h1, if_neg hw]

theorem dlite_computeShortestPath_bounded (N fuel : Nat) (p : Planner) (hN : 1 ≤ N) (hf : N < fuel) :
    computeShortestPath fuel p N = some (bounded N p) :=
  dlite_loop_bounded N (by omega) N fuel p 0 (by omega) hf

end DStarLite

end RasterSim

namespace RasterSim

/-! ## The heuristic of D* Lite and Focussed D* -/

/-- The heuristic of D* Lite as a function of two positions. -/
def DStarLite.heuristic (a b : Pos) : Nat :=
  DStarLite.h_cost { DStarLite.rawCell with x := a.1, y := a.2 } { DStarLite.rawCell with x := b.1, y := b.2 }

/-- The position one move from `a` towards `b`: each coordinate that differs moves by one. -/
def towards (a b : Pos) : Pos :=
  (if a.1 < b.1 then a.1 + 1 else if b.1 < a.1 then a.1 - 1 else a.1,
   if a.2 < b.2 then a.2 + 1 else if b.2 < a.2 then a.2 - 1 else a.2)

/-- The positions met on `n` moves from `a` towards `b`, `a` included. -/
def walk : Nat → Pos → Pos → List Pos
  | 0, a, _ => [a]
  | n + 1, a, b => a :: walk n (towards a b) b

/-- The number of moves from `a` to `b`: the larger coordinate difference. -/
def moves (a b : Pos) : Nat :=
  max ((a.1 : Int) - (b.1 : Int)).natAbs ((a.2 : Int) - (b.2 : Int)).natAbs

theorem octile_eq (a b : Pos) :
    DStarLite.heuristic a b =
      7 * min ((a.1 : Int) - (b.1 : Int)).natAbs ((a.2 : Int) - (b.2 : Int)).natAbs +
      5 * (max ((a.1 : Int) - (b.1 : Int)).natAbs ((a.2 : Int) - (b.2 : Int)).natAbs -
        min ((a.1 : Int) - (b.1 : Int)).natAbs ((a.2 : Int) - (b.2 : Int)).natAbs) := rfl

theorem octile_symm (a b : Pos) : DStarLite.heuristic a b = DStarLite.heuristic b a := by
  rw [octile_eq, octile_eq]
  omega

theorem octile_zero (a b : Pos) : DStarLite.heuristic a b = 0 ↔ a = b := by
  rw [octile_eq]
  constructor
  · intro h
    apply Prod.ext <;> omega
  · intro h
    subst h
    simp

theorem octile_step (a b c : Pos) (hadj : Adjacent b c) :
    DStarLite.heuristic a c ≤ DStarLite.heuristic a b + stepCost 5 7 b c := by
  obtain ⟨_, h1, h2, h3, h4⟩ := hadj
  rw [octile_eq, octile_eq]
  unfold stepCost
  split_ifs <;> omega

theorem octile_chain (a : Pos) :
    ∀ (l : List Pos) (b c : Pos), l.head? = some b → l.getLast? = some c → IsChain l →
      DStarLite.heuristic a c ≤ DStarLite.heuristic a b + pathCost 5 7 l
  | [], b, c, h, _, _ => by simp at h
  | [x], b, c, hh, hl, _ => by
    simp at hh hl
    subst hh; subst hl
    simp [pathCost]
  | x :: y :: rest, b, c, hh, hl, hc => by
    simp at hh
    subst hh
    have hl' : (y :: rest).getLast? = some c := by
      simpa [List.getLast?_cons_cons] using hl
    have ih := octile_chain a (y :: rest) y c rfl hl' hc.2
    have hs := octile_step a x y hc.1
    simp only [pathCost]
    omega

/-- One move towards `b` from another position: an adjacent position between the two,
one move nearer, and the heuristic falls by the cost of the move. -/
theorem towards_spec (a b : Pos) (n : Nat) (h : moves a b = n + 1) :
    Adjacent a (towards a b) ∧ moves (towards a b) b = n ∧
    stepCost 5 7 a (towards a b) + DStarLite.heuristic (towards a b) b = DStarLite.heuristic a b ∧
    (min a.1 b.1 ≤ (towards a b).1 ∧ (towards a b).1 ≤ max a.1 b.1) ∧
    (min a.2 b.2 ≤ (towards a b).2 ∧ (towards a b).2 ≤ max a.2 b.2) := by
  obtain ⟨a1, a2⟩ := a
  obtain ⟨b1, b2⟩ := b
  unfold moves at h
  simp only at h
  refine ⟨⟨?_, ?_, ?_, ?_, ?_⟩, ?_, ?_, ?_, ?_⟩
  · intro e
    have e1 := congrArg Prod.fst e
    have e2 := congrArg Prod.snd e
    simp only [towards] at e1 e2
    split_ifs at e1 e2 <;> omega
  · simp only [towards]; split_ifs <;> omega
  · simp only [towards]; split_ifs <;> omega
  · simp only [towards]; split_ifs <;> omega
  · simp only [towards]; split_ifs <;> omega
  · simp only [moves, towards]; split_ifs <;> omega
  · rw [octile_eq, octile_eq]
    simp only [stepCost, towards]
    split_ifs <;> omega
  · simp only [towards]; split_ifs <;> omega
  · simp only [towards]; split_ifs <;> omega

/-- The walk from `a` to `b` is a chain from `a` to `b` between the two positions whose
cost is the heuristic. -/
theorem walk_spec : ∀ (n : Nat) (a b : Pos), moves a b = n →
    (walk n a b).head? = some a ∧ (walk n a b).getLast? = some b ∧ IsChain (walk n a b) ∧
    pathCost 5 7 (walk n a b) = DStarLite.heuristic a b ∧
    ∀ c ∈ walk n a b, (min a.1 b.1 ≤ c.1 ∧ c.1 ≤ max a.1 b.1) ∧
      (min a.2 b.2 ≤ c.2 ∧ c.2 ≤ max a.2 b.2)
  | 0, a, b, h => by
    have hab : a = b := by
      unfold moves at h
      apply Prod.ext <;> omega
    subst hab
    refine ⟨rfl, rfl, trivial, ?_, ?_⟩
    · rw [(octile_zero a a).2 rfl]
      rfl
    · intro c hc
      simp only [walk, List.mem_singleton] at hc
      subst hc
      simp
  | n + 1, a, b, h => by
    obtain ⟨hadj, hm, hcost, hb1, hb2⟩ := towards_spec a b n h
    obtain ⟨ih1, ih2, ih3, ih4, ih5⟩ := walk_spec n (towards a b) b hm
    have hw : walk (n + 1) a b = a :: walk n (towards a b) b := rfl
    cases hr : walk n (towards a b) b with
    | nil => rw [hr] at ih1; cases ih1
    | cons t rest =>
      rw [hr] at ih1 ih2 ih3 ih4 ih5
      have ht : t = towards a b := by
        simp only [List.head?_cons, Option.some.injEq] at ih1
        exact ih1
      rw [hw, hr]
      refine ⟨rfl, ?_, ⟨?_, ih3⟩, ?_, ?_⟩
      · rw [List.getLast?_cons_cons]
        exact ih2
      · rw [ht]
        exact hadj
      · simp only [pathCost]
        rw [ih4, ht]
        exact hcost
      · intro c hc
        rcases List.mem_cons.1 hc with e | e
        · subst e
          omega
        · have := ih5 c e
          omega

end RasterSim

namespace RasterSim

/-! ## D* Lite: the open list stays in order -/

namespace DStarLite

/-- What a cell holds apart from its slot in the open list. -/
def Cell.core (c : Cell) : Nat × Nat × Nat × Bool × Nat × Nat × Key :=
  (c.x, c.y, c.neighborhoodIndex, c.blocked, c.g_cost, c.rhs, c.key)

theorem dlite_core_x {a b : Cell} (h : a.core = b.core) : a.x = b.x :=
  congrArg (fun t => t.1) h

theorem dlite_core_y {a b : Cell} (h : a.core = b.core) : a.y = b.y :=
  congrArg (fun t => t.2.1) h

theorem dlite_core_ni {a b : Cell} (h : a.core = b.core) :
    a.neighborhoodIndex = b.neighborhoodIndex :=
  congrArg (fun t => t.2.2.1) h

theorem dlite_core_blocked {a b : Cell} (h : a.core = b.core) : a.blocked = b.blocked :=
  congrArg (fun t => t.2.2.2.1) h

theorem dlite_core_g {a b : Cell} (h : a.core = b.core) : a.g_cost = b.g_cost :=
  congrArg (fun t => t.2.2.2.2.1) h

theorem dlite_core_rhs {a b : Cell} (h : a.core = b.core) : a.rhs = b.rhs :=
  congrArg (fun t => t.2.2.2.2.2.1) h

theorem dlite_core_key {a b : Cell} (h : a.core = b.core) : a.key = b.key :=
  congrArg (fun t => t.2.2.2.2.2.2) h

/-- Two states that differ in the open list only. -/
structure Keeps (p p' : Planner) : Prop where
  width : p'.width = p.width
  height : p'.height = p.height
  pGoal : p'.pGoal = p.pGoal
  pStart : p'.pStart = p.pStart
  pRobot : p'.pRobot = p.pRobot
  k_m : p'.k_m = p.k_m
  neighborhoods : p'.neighborhoods = p.neighborhoods
  core : ∀ c, (p'.cells c).core = (p.cells c).core

theorem dlite_keeps_refl (p : Planner) : Keeps p p :=
  ⟨rfl, rfl, rfl, rfl, rfl, rfl, rfl, fun _ => rfl⟩

theorem dlite_keeps_trans {p1 p2 p3 : Planner} (h12 : Keeps p1 p2) (h23 : Keeps p2 p3) :
    Keeps p1 p3 :=
  ⟨h23.width.trans h12.width, h23.height.trans h12.height, h23.pGoal.trans h12.pGoal,
    h23.pStart.trans h12.pStart, h23.pRobot.trans h12.pRobot, h23.k_m.trans h12.k_m,
    h23.neighborhoods.trans h12.neighborhoods, fun c => (h23.core c).trans (h12.core c)⟩

theorem dlite_keeps_frame {p p' : Planner} (h : Keeps p p') : Frame p p' :=
  ⟨h.width, h.height, h.neighborhoods, h.pStart, h.pGoal, fun i =>
    ⟨dlite_core_x (h.core i), dlite_core_y (h.core i), dlite_core_ni (h.core i)⟩⟩

/-- The open list of the state is in order (see `SlotsOK`): the cells on it are those
with a slot other than zero, the cell `ex` left aside while it is being removed. -/
def HeapOK (N : Nat) (ex : Option Nat) (p : Planner) : Prop :=
  SlotsOK N p.openHeap (fun c => (p.cells c).heapIndex) p.openListLength
    (fun c => some c ≠ ex ∧ (p.cells c).heapIndex ≠ 0)

/-- Two states that differ by moves inside the open list only. -/
structure HeapStep (p p' : Planner) : Prop where
  keeps : Keeps p p'
  len : p'.openListLength = p.openListLength
  mem : ∀ c, (p'.cells c).heapIndex ≠ 0 ↔ (p.cells c).heapIndex ≠ 0

theorem dlite_heapStep_refl (p : Planner) : HeapStep p p :=
  ⟨dlite_keeps_refl p, rfl, fun _ => Iff.rfl⟩

theorem dlite_heapStep_trans {p1 p2 p3 : Planner} (h12 : HeapStep p1 p2) (h23 : HeapStep p2 p3) :
    HeapStep p1 p3 :=
  ⟨dlite_keeps_trans h12.keeps h23.keeps, h23.len.trans h12.len,
    fun c => (h23.mem c).trans (h12.mem c)⟩

theorem dlite_swapSlots_step {N : Nat} {ex : Option Nat} {p : Planner} (h : HeapOK N ex p)
    (i j : Nat) (hi1 : 1 ≤ i) (hi : i ≤ p.openListLength) (hj1 : 1 ≤ j)
    (hj : j ≤ p.openListLength) :
    HeapStep p (swapSlots p i j) ∧ HeapOK N ex (swapSlots p i j) := by
  have e1 : (swapSlots p i j).openHeap = swapHeap p.openHeap i j := rfl
  have e2 : (fun c => ((swapSlots p i j).cells c).heapIndex) =
      swapIdx p.openHeap (fun c => (p.cells c).heapIndex) i j := by
    funext c
    simp only [swapSlots, swapIdx, swapHeap, upd_apply]
    split_ifs <;> rfl
  have hmem : ∀ c, ((swapSlots p i j).cells c).heapIndex ≠ 0 ↔ (p.cells c).heapIndex ≠ 0 := by
    intro c
    have := swapIdx_ne_zero h i j hi1 hi hj1 hj c
    rw [← e2] at this
    exact this
  have hk : Keeps p (swapSlots p i j) := by
    refine ⟨rfl, rfl, rfl, rfl, rfl, rfl, rfl, fun c => ?_⟩
    simp only [swapSlots, upd_apply]
    split_ifs <;> simp_all [Cell.core]
  refine ⟨⟨hk, rfl, hmem⟩, ?_⟩
  unfold HeapOK
  rw [e1, e2]
  refine slotsOK_mem (slotsOK_swap h i j hi1 hi hj1 hj) (fun c _ => ?_)
  have := hmem c
  exact ⟨fun hh => ⟨hh.1, this.1 hh.2⟩, fun hh => ⟨hh.1, this.2 hh.2⟩⟩

theorem dlite_heapUpLoop_step {N : Nat} {ex : Option Nat} : ∀ (fuel : Nat) (p : Planner) (idx : Nat),
    HeapOK N ex p → 1 ≤ idx → idx ≤ p.openListLength →
    HeapStep p (heapUpLoop fuel p idx) ∧ HeapOK N ex (heapUpLoop fuel p idx)
  | 0, p, _, h, _, _ => ⟨dlite_heapStep_refl p, h⟩
  | fuel + 1, p, idx, h, h1, h2 => by
    simp only [heapUpLoop]
    split_ifs with ha hb
    · obtain ⟨hm, hs⟩ := dlite_swapSlots_step h (idx / 2) idx (by omega) (by omega) h1 h2
      obtain ⟨r1, r2⟩ := dlite_heapUpLoop_step fuel (swapSlots p (idx / 2) idx) (idx / 2) hs (by omega)
        (by rw [hm.len]; omega)
      exact ⟨dlite_heapStep_trans hm r1, r2⟩
    · exact ⟨dlite_heapStep_refl p, h⟩
    · exact ⟨dlite_heapStep_refl p, h⟩

theorem dlite_downTarget_cases (p : Planner) (idx : Nat) :
    downTarget p idx = idx ∨ (downTarget p idx = 2 * idx ∧ 2 * idx ≤ p.openListLength) ∨
      (downTarget p idx = 2 * idx + 1 ∧ 2 * idx + 1 ≤ p.openListLength) := by
  unfold downTarget
  simp only
  split_ifs <;> simp_all

theorem dlite_heapDownLoop_step {N : Nat} {ex : Option Nat} :
    ∀ (fuel : Nat) (p : Planner) (idx : Nat), HeapOK N ex p → 1 ≤ idx → idx ≤ p.openListLength →
    HeapStep p (heapDownLoop fuel p idx) ∧ HeapOK N ex (heapDownLoop fuel p idx)
  | 0, p, _, h, _, _ => ⟨dlite_heapStep_refl p, h⟩
  | fuel + 1, p, idx, h, h1, h2 => by
    simp only [heapDownLoop]
    split_ifs with ha
    · exact ⟨dlite_heapStep_refl p, h⟩
    · have ht := dlite_downTarget_cases p idx
      have t1 : 1 ≤ downTarget p idx := by omega
      have t2 : downTarget p idx ≤ p.openListLength := by omega
      obtain ⟨hm, hs⟩ := dlite_swapSlots_step h (downTarget p idx) idx t1 t2 h1 h2
      obtain ⟨r1, r2⟩ := dlite_heapDownLoop_step fuel (swapSlots p (downTarget p idx) idx)
        (downTarget p idx) hs t1 (by rw [hm.len]; exact t2)
      exact ⟨dlite_heapStep_trans hm r1, r2⟩

theorem dlite_heapUp_step {N : Nat} {ex : Option Nat} {p : Planner} (h : HeapOK N ex p) (c : Nat)
    (hc : c < N) (hex : some c ≠ ex) :
    HeapStep p (heapUp p c) ∧ HeapOK N ex (heapUp p c) := by
  unfold heapUp
  split_ifs with ho
  · exact ⟨dlite_heapStep_refl p, h⟩
  · obtain ⟨a1, a2, _⟩ := h.2 c hc ⟨hex, ho⟩
    exact dlite_heapUpLoop_step _ p _ h a1 a2

theorem dlite_heapDown_step {N : Nat} {ex : Option Nat} {p : Planner} (h : HeapOK N ex p) (c : Nat)
    (hc : c < N) (hex : some c ≠ ex) :
    HeapStep p (heapDown p c) ∧ HeapOK N ex (heapDown p c) := by
  unfold heapDown
  split_ifs with ho
  · exact ⟨dlite_heapStep_refl p, h⟩
  · obtain ⟨a1, a2, _⟩ := h.2 c hc ⟨hex, ho⟩
    exact dlite_heapDownLoop_step _ p _ h a1 a2

/-- `insert` puts the cell on the open list, or moves it there, and changes nothing
else. -/
theorem dlite_insert_spec {N : Nat} {p : Planner} (h : HeapOK N none p) (c : Nat) (hc : c < N) :
    Keeps p (insert p c) ∧ HeapOK N none (insert p c) ∧
      ∀ d, ((insert p c).cells d).heapIndex ≠ 0 ↔ (d = c ∨ (p.cells d).heapIndex ≠ 0) := by
  by_cases ho : (p.cells c).heapIndex ≠ 0
  · have e : insert p c = heapUp (heapDown p c) c := by
      unfold insert
      rw [if_pos ho]
    rw [e]
    obtain ⟨m1, ok1⟩ := dlite_heapDown_step h c hc (by simp)
    obtain ⟨m2, ok2⟩ := dlite_heapUp_step ok1 c hc (by simp)
    have m := dlite_heapStep_trans m1 m2
    refine ⟨m.keeps, ok2, fun d => ?_⟩
    rw [m.mem d]
    constructor
    · exact fun hh => Or.inr hh
    · rintro (hh | hh)
      · rw [hh]; exact ho
      · exact hh
  · have ho' : (p.cells c).heapIndex = 0 := by
      by_contra hne; exact ho hne
    obtain ⟨p1, hp1, hcells, w1, w2, w3⟩ : ∃ p1 : Planner, insert p c = heapUp p1 c ∧
        p1.cells = upd p.cells c { p.cells c with heapIndex := p.openListLength + 1 } ∧
        p1.openListLength = p.openListLength + 1 ∧
        p1.openHeap = upd p.openHeap (p.openListLength + 1) c ∧ Keeps p p1 := by
      refine ⟨{ p with openListLength := p.openListLength + 1, openHeap := upd p.openHeap (p.openListLength + 1) c, cells := upd p.cells c { p.cells c with heapIndex := p.openListLength + 1 } }, ?_, rfl, rfl, rfl, ?_⟩
      · unfold insert
        rw [if_neg ho]
      · refine ⟨rfl, rfl, rfl, rfl, rfl, rfl, rfl, fun d => ?_⟩
        show ((upd p.cells c _) d).core = _
        rw [upd_apply]
        split_ifs with hd
        · rw [hd]; rfl
        · rfl
    have hidx : (fun d => (p1.cells d).heapIndex) =
        upd (fun d => (p.cells d).heapIndex) c (p.openListLength + 1) := by
      funext d
      rw [hcells]
      simp only [upd_apply]
      split_ifs <;> rfl
    have hmem1 : ∀ d, (p1.cells d).heapIndex ≠ 0 ↔ (d = c ∨ (p.cells d).heapIndex ≠ 0) := by
      intro d
      rw [show (p1.cells d).heapIndex = upd (fun d => (p.cells d).heapIndex) c
        (p.openListLength + 1) d from congrFun hidx d, upd_apply]
      by_cases hd : d = c
      · rw [if_pos hd]
        exact ⟨fun _ => Or.inl hd, fun _ => by omega⟩
      · rw [if_neg hd]
        exact ⟨fun hh => Or.inr hh, fun hh => hh.resolve_left hd⟩
    have hok1 : HeapOK N none p1 := by
      unfold HeapOK
      rw [hidx, w1, w2]
      refine slotsOK_push h c hc (fun hh => ho hh.2) _ (fun d _ => ?_)
      have := hmem1 d
      constructor
      · intro hh
        rcases this.1 hh.2 with h1 | h1
        · exact Or.inl h1
        · exact Or.inr ⟨by simp, h1⟩
      · rintro (hh | hh)
        · exact ⟨by simp, this.2 (Or.inl hh)⟩
        · exact ⟨by simp, this.2 (Or.inr hh.2)⟩
    rw [hp1]
    obtain ⟨m2, ok2⟩ := dlite_heapUp_step hok1 c hc (by simp)
    refine ⟨dlite_keeps_trans w3 m2.keeps, ok2, fun d => ?_⟩
    rw [m2.mem d]
    exact hmem1 d

theorem udec_pos (n : Nat) (h : 1 ≤ n) : udec n = n - 1 := by
  unfold udec
  rw [if_neg (by omega)]

/-- `remove` takes the first cell off the open list and changes nothing else. -/
theorem dlite_remove_first {N : Nat} {p : Planner} (h : HeapOK N none p)
    (hl : 1 ≤ p.openListLength) :
    Keeps p (remove p (p.openHeap 1)) ∧ HeapOK N none (remove p (p.openHeap 1)) ∧
      ∀ d, ((remove p (p.openHeap 1)).cells d).heapIndex ≠ 0 ↔
        (d ≠ p.openHeap 1 ∧ (p.cells d).heapIndex ≠ 0) := by
  obtain ⟨a1, a2, a3⟩ := h.1 1 (le_refl 1) hl
  have a3' : (p.cells (p.openHeap 1)).heapIndex = 1 := a3
  have hne0 : ¬ (p.cells (p.openHeap 1)).heapIndex = 0 := by omega
  by_cases hne : p.openListLength - 1 ≠ 0
  · have hl2 : 2 ≤ p.openListLength := by omega
    have hfne : p.openHeap p.openListLength ≠ p.openHeap 1 := by
      intro he
      have := slotsOK_inj h _ _ (by omega) (le_refl _) (le_refl 1) hl he
      omega
    have hfN : p.openHeap p.openListLength < N := (h.1 _ (by omega) (le_refl _)).1
    have hlast := (h.1 _ (by omega : 1 ≤ p.openListLength) (le_refl _)).2.2
    have hlast' : (p.cells (p.openHeap p.openListLength)).heapIndex = p.openListLength := hlast
    obtain ⟨p3, hp3, hcells, w1, w2, w3⟩ : ∃ p3 : Planner,
        remove p (p.openHeap 1) =
          { heapDown (heapUp p3 (p.openHeap p.openListLength)) (p.openHeap p.openListLength) with
            cells := upd (heapDown (heapUp p3 (p.openHeap p.openListLength))
              (p.openHeap p.openListLength)).cells (p.openHeap 1)
              { (heapDown (heapUp p3 (p.openHeap p.openListLength))
                  (p.openHeap p.openListLength)).cells (p.openHeap 1) with heapIndex := 0 } } ∧
        p3.cells = upd p.cells (p.openHeap p.openListLength)
          { p.cells (p.openHeap p.openListLength) with heapIndex := 1 } ∧
        p3.openListLength = p.openListLength - 1 ∧
        p3.openHeap = upd p.openHeap 1 (p.openHeap p.openListLength) ∧ Keeps p p3 := by
      refine ⟨{ p with openListLength := p.openListLength - 1, openHeap := upd p.openHeap 1 (p.openHeap p.openListLength), cells := upd p.cells (p.openHeap p.openListLength) { p.cells (p.openHeap p.openListLength) with heapIndex := 1 } }, ?_, rfl, rfl, rfl, ?_⟩
      · unfold remove
        rw [if_neg hne0]
        simp only
        rw [udec_pos _ hl, if_pos hne, a3']
      · refine ⟨rfl, rfl, rfl, rfl, rfl, rfl, rfl, fun d => ?_⟩
        show ((upd p.cells _ _) d).core = _
        rw [upd_apply]
        split_ifs with hd
        · rw [hd]; rfl
        · rfl
    have hidx : (fun d => (p3.cells d).heapIndex) =
        upd (fun d => (p.cells d).heapIndex) (p.openHeap p.openListLength) 1 := by
      funext d
      rw [hcells]
      simp only [upd_apply]
      split_ifs <;> rfl
    have hmem3 : ∀ d, (p3.cells d).heapIndex ≠ 0 ↔ (p.cells d).heapIndex ≠ 0 := by
      intro d
      rw [show (p3.cells d).heapIndex = upd (fun d => (p.cells d).heapIndex)
        (p.openHeap p.openListLength) 1 d from congrFun hidx d, upd_apply]
      by_cases hd : d = p.openHeap p.openListLength
      · rw [if_pos hd, hd, hlast']
        exact ⟨fun _ => by omega, fun _ => by omega⟩
      · rw [if_neg hd]
    have hok3 : HeapOK N (some (p.openHeap 1)) p3 := by
      unfold HeapOK
      rw [hidx, w1, w2]
      refine slotsOK_pop h hl2 _ (fun d _ => ?_)
      have := hmem3 d
      constructor
      · intro hh
        exact ⟨fun e => hh.1 (by rw [e]), by simp, this.1 hh.2⟩
      · intro hh
        exact ⟨fun e => hh.1 (Option.some.inj e), this.2 hh.2.2⟩
    have hex : some (p.openHeap p.openListLength) ≠ some (p.openHeap 1) :=
      fun e => hfne (Option.some.inj e)
    obtain ⟨m1, ok1⟩ := dlite_heapUp_step hok3 _ hfN hex
    obtain ⟨m2, ok2⟩ := dlite_heapDown_step ok1 _ hfN hex
    have m := dlite_heapStep_trans m1 m2
    rw [hp3]
    set pH := heapDown (heapUp p3 (p.openHeap p.openListLength)) (p.openHeap p.openListLength)
      with hpH
    have hidxF : ∀ d, ((upd pH.cells (p.openHeap 1)
        { pH.cells (p.openHeap 1) with heapIndex := 0 }) d).heapIndex =
        if d = p.openHeap 1 then 0 else (pH.cells d).heapIndex := by
      intro d
      rw [upd_apply]
      split_ifs <;> rfl
    refine ⟨?_, ?_, fun d => ?_⟩
    · refine ⟨m.keeps.width.trans w3.width, m.keeps.height.trans w3.height,
        m.keeps.pGoal.trans w3.pGoal, m.keeps.pStart.trans w3.pStart,
        m.keeps.pRobot.trans w3.pRobot, m.keeps.k_m.trans w3.k_m,
        m.keeps.neighborhoods.trans w3.neighborhoods, fun d => ?_⟩
      show ((upd pH.cells (p.openHeap 1) _) d).core = _
      rw [upd_apply]
      split_ifs with hd
      · rw [hd]
        exact (m.keeps.core _).trans (w3.core _)
      · exact (m.keeps.core _).trans (w3.core _)
    · unfold HeapOK
      show SlotsOK N pH.openHeap
        (fun d => ((upd pH.cells (p.openHeap 1) { pH.cells (p.openHeap 1) with heapIndex := 0 }) d).heapIndex)
        pH.openListLength
        (fun d => some d ≠ none ∧
          ((upd pH.cells (p.openHeap 1) { pH.cells (p.openHeap 1) with heapIndex := 0 }) d).heapIndex ≠ 0)
      refine slotsOK_mem (slotsOK_congr ok2 (fun i _ _ => rfl) (fun d _ hd => ?_)) (fun d _ => ?_)
      · rw [hidxF, if_neg (fun e => hd.1 (by rw [e]))]
      · rw [hidxF]
        by_cases hd : d = p.openHeap 1
        · rw [if_pos hd]
          exact ⟨fun hh => absurd rfl hh.2, fun hh => absurd (by rw [hd]) hh.1⟩
        · rw [if_neg hd]
          exact ⟨fun hh => ⟨fun e => hd (Option.some.inj e), hh.2⟩, fun hh => ⟨by simp, hh.2⟩⟩
    · show ((upd pH.cells (p.openHeap 1) _) d).heapIndex ≠ 0 ↔ _
      rw [hidxF]
      by_cases hd : d = p.openHeap 1
      · rw [if_pos hd]
        exact ⟨fun hh => absurd rfl hh, fun hh => absurd hd hh.1⟩
      · rw [if_neg hd, m.mem d, hmem3 d]
        exact ⟨fun hh => ⟨hd, hh⟩, fun hh => hh.2⟩
  · have hl1 : p.openListLength = 1 := by omega
    have e : remove p (p.openHeap 1) =
        { p with openListLength := p.openListLength - 1,
                 cells := upd p.cells (p.openHeap 1) { p.cells (p.openHeap 1) with heapIndex := 0 } } := by
      unfold remove
      rw [if_neg hne0]
      simp only
      rw [udec_pos _ hl, if_neg hne]
    rw [e]
    have hidxF : ∀ d, ((upd p.cells (p.openHeap 1)
        { p.cells (p.openHeap 1) with heapIndex := 0 }) d).heapIndex =
        if d = p.openHeap 1 then 0 else (p.cells d).heapIndex := by
      intro d
      rw [upd_apply]
      split_ifs <;> rfl
    have hmemF : ∀ d, ((upd p.cells (p.openHeap 1)
        { p.cells (p.openHeap 1) with heapIndex := 0 }) d).heapIndex ≠ 0 ↔
        (d ≠ p.openHeap 1 ∧ (p.cells d).heapIndex ≠ 0) := by
      intro d
      rw [hidxF]
      by_cases hd : d = p.openHeap 1
      · rw [if_pos hd]
        exact ⟨fun hh => absurd rfl hh, fun hh => absurd hd hh.1⟩
      · rw [if_neg hd]
        exact ⟨fun hh => ⟨hd, hh⟩, fun hh => hh.2⟩
    refine ⟨?_, ?_, hmemF⟩
    · refine ⟨rfl, rfl, rfl, rfl, rfl, rfl, rfl, fun d => ?_⟩
      show ((upd p.cells (p.openHeap 1) _) d).core = _
      rw [upd_apply]
      split_ifs with hd
      · rw [hd]; rfl
      · rfl
    · unfold HeapOK
      have h' : SlotsOK N p.openHeap (fun c => (p.cells c).heapIndex) 1
          (fun c => some c ≠ none ∧ (p.cells c).heapIndex ≠ 0) := by
        have := h
        unfold HeapOK at this
        rw [hl1] at this
        exact this
      have e0 : p.openListLength - 1 = 0 := by omega
      show SlotsOK N _ _ (p.openListLength - 1) _
      rw [e0]
      refine slotsOK_pop_last h' _ (fun d _ => ?_) _ _
      have := hmemF d
      exact ⟨fun hh => ⟨(this.1 hh.2).1, by simp, (this.1 hh.2).2⟩,
        fun hh => ⟨by simp, this.2 ⟨hh.1, hh.2.2⟩⟩⟩

end DStarLite

end RasterSim

namespace RasterSim

/-! ## D* Lite: the keys of the open list stay in heap order -/

namespace DStarLite

/-- The key `a` is not above the key `b`: `b < a` does not hold. -/
def Key.le (a b : Key) : Prop := Key.lt b a = false

theorem dlite_tests : HeapTests Key.le Key.lt Key.ge := by
  refine ⟨?_, ?_, ?_, ?_, ?_⟩
  · intro a b c
    unfold Key.le Key.lt
    intro h1 h2
    split_ifs at h1 h2 ⊢ <;> simp_all <;> omega
  · intro a b
    unfold Key.le Key.lt
    intro h1
    split_ifs at h1 ⊢ <;> simp_all <;> omega
  · intro a b h
    exact h
  · intro a b
    unfold Key.le Key.ge
    intro h
    simpa using h
  · intro a b
    unfold Key.le Key.ge Key.lt
    intro h1
    split_ifs at h1 ⊢ <;> simp_all <;> omega

/-- The cached keys of the cells. -/
def Planner.keys (p : Planner) : Nat → Key := fun c => (p.cells c).key

theorem dlite_keys_of_keeps {p p' : Planner} (h : Keeps p p') : p'.keys = p.keys :=
  funext fun c => dlite_core_key (h.core c)

theorem dlite_swapSlots_keys (p : Planner) (i j : Nat) : (swapSlots p i j).keys = p.keys := by
  funext c
  simp only [Planner.keys, swapSlots, upd_apply]
  split_ifs <;> simp_all

theorem dlite_heapUpLoop_abs : ∀ (fuel : Nat) (p : Planner) (i : Nat),
    (heapUpLoop fuel p i).openHeap = (absUp Key.lt p.keys fuel p.openHeap i).1
  | 0, _, _ => rfl
  | fuel + 1, p, i => by
    simp only [heapUpLoop, absUp]
    by_cases hi : i ≠ 1
    · rw [if_pos hi, if_pos hi]
      have e : p.keyAt i = p.keys (p.openHeap i) := rfl
      have e2 : p.keyAt (i / 2) = p.keys (p.openHeap (i / 2)) := rfl
      rw [e, e2]
      cases hu : Key.lt (p.keys (p.openHeap i)) (p.keys (p.openHeap (i / 2)))
      · simp only [Bool.false_eq_true, if_false]
      · simp only [if_true]
        rw [dlite_heapUpLoop_abs fuel (swapSlots p (i / 2) i) (i / 2), dlite_swapSlots_keys]
        rfl
    · rw [if_neg hi, if_neg hi]

theorem dlite_downTarget_abs (p : Planner) (i : Nat) :
    downTarget p i = absTarget Key.ge p.keys p.openHeap p.openListLength i := rfl

theorem dlite_heapDownLoop_abs : ∀ (fuel : Nat) (p : Planner) (i : Nat),
    (heapDownLoop fuel p i).openHeap =
      (absDown Key.ge p.keys p.openListLength fuel p.openHeap i).1
  | 0, _, _ => rfl
  | fuel + 1, p, i => by
    simp only [heapDownLoop, absDown]
    rw [← dlite_downTarget_abs]
    by_cases ht : i = downTarget p i
    · rw [if_pos ht, if_pos ht]
    · rw [if_neg ht, if_neg ht,
        dlite_heapDownLoop_abs fuel (swapSlots p (downTarget p i) i) (downTarget p i),
        dlite_swapSlots_keys]
      rfl

/-- What `heapUp` achieves for a cell on the open list (see `absUp_spec`). -/
theorem dlite_heapUp_order {N : Nat} {ex : Option Nat} {p : Planner} (h : HeapOK N ex p)
    (c : Nat) (hc : c < N) (hex : some c ≠ ex) (hm : (p.cells c).heapIndex ≠ 0)
    (hb : OrderedBut Key.le p.keys p.openHeap p.openListLength (p.cells c).heapIndex) :
    OrderedBut Key.le (heapUp p c).keys (heapUp p c).openHeap (heapUp p c).openListLength
        ((heapUp p c).cells c).heapIndex ∧
      ParentOK Key.le (heapUp p c).keys (heapUp p c).openHeap ((heapUp p c).cells c).heapIndex ∧
      (ChildOK Key.le p.keys p.openHeap p.openListLength (p.cells c).heapIndex →
        ChildOK Key.le (heapUp p c).keys (heapUp p c).openHeap (heapUp p c).openListLength
          ((heapUp p c).cells c).heapIndex) := by
  obtain ⟨a1, a2, a3⟩ : 1 ≤ (p.cells c).heapIndex ∧ (p.cells c).heapIndex ≤ p.openListLength ∧
      p.openHeap (p.cells c).heapIndex = c := h.2 c hc ⟨hex, hm⟩
  obtain ⟨st, ok⟩ := dlite_heapUp_step h c hc hex
  obtain ⟨r1, r2, r3, r4, r5, r6⟩ := absUp_spec dlite_tests p.keys p.openListLength
    (p.cells c).heapIndex p.openHeap (p.cells c).heapIndex a1 a2 (le_refl _) hb
  have eo : (heapUp p c).openHeap =
      (absUp Key.lt p.keys (p.cells c).heapIndex p.openHeap (p.cells c).heapIndex).1 := by
    unfold heapUp
    rw [if_neg hm]
    exact dlite_heapUpLoop_abs _ _ _
  have ek := dlite_keys_of_keeps st.keeps
  have el := st.len
  have ei : ((heapUp p c).cells c).heapIndex =
      (absUp Key.lt p.keys (p.cells c).heapIndex p.openHeap (p.cells c).heapIndex).2 := by
    have := (ok.1 _ r1 (by rw [el]; omega)).2.2
    rw [eo, r3, a3] at this
    exact this
  rw [eo, ek, el, ei]
  exact ⟨r4, r5, r6⟩

/-- What `heapDown` achieves for a cell on the open list (see `absDown_spec`). -/
theorem dlite_heapDown_order {N : Nat} {ex : Option Nat} {p : Planner} (h : HeapOK N ex p)
    (c : Nat) (hc : c < N) (hex : some c ≠ ex) (hm : (p.cells c).heapIndex ≠ 0)
    (hb : OrderedBut Key.le p.keys p.openHeap p.openListLength (p.cells c).heapIndex) :
    OrderedBut Key.le (heapDown p c).keys (heapDown p c).openHeap (heapDown p c).openListLength
        ((heapDown p c).cells c).heapIndex ∧
      ChildOK Key.le (heapDown p c).keys (heapDown p c).openHeap (heapDown p c).openListLength
        ((heapDown p c).cells c).heapIndex ∧
      (ParentOK Key.le p.keys p.openHeap (p.cells c).heapIndex →
        ParentOK Key.le (heapDown p c).keys (heapDown p c).openHeap
          ((heapDown p c).cells c).heapIndex) := by
  obtain ⟨a1, a2, a3⟩ : 1 ≤ (p.cells c).heapIndex ∧ (p.cells c).heapIndex ≤ p.openListLength ∧
      p.openHeap (p.cells c).heapIndex = c := h.2 c hc ⟨hex, hm⟩
  obtain ⟨st, ok⟩ := dlite_heapDown_step h c hc hex
  obtain ⟨r1, r2, r3, r4, r5, r6⟩ := absDown_spec dlite_tests p.keys p.openListLength
    (p.openListLength + 1) p.openHeap (p.cells c).heapIndex a1 a2 (by omega) hb
  have eo : (heapDown p c).openHeap =
      (absDown Key.ge p.keys p.openListLength (p.openListLength + 1) p.openHeap
        (p.cells c).heapIndex).1 := by
    unfold heapDown
    rw [if_neg hm]
    exact dlite_heapDownLoop_abs _ _ _
  have ek := dlite_keys_of_keeps st.keeps
  have el := st.len
  have ei : ((heapDown p c).cells c).heapIndex =
      (absDown Key.ge p.keys p.openListLength (p.openListLength + 1) p.openHeap
        (p.cells c).heapIndex).2 := by
    have hpos : 1 ≤ (absDown Key.ge p.keys p.openListLength (p.openListLength + 1) p.openHeap
        (p.cells c).heapIndex).2 := by omega
    have := (ok.1 _ hpos (by rw [el]; exact r2)).2.2
    rw [eo, r3, a3] at this
    exact this
  rw [eo, ek, el, ei]
  exact ⟨r4, r5, r6⟩

/-- The open list is in order: the slots and the back references agree (see `HeapOK`),
and no key is below the key of its parent slot. -/
def HeapInv (N : Nat) (p : Planner) : Prop :=
  HeapOK N none p ∧ Ordered Key.le p.keys p.openHeap p.openListLength

/-- The assignment `pCell->key = key`. -/
def setKey (p : Planner) (c : Nat) (k : Key) : Planner :=
  { p with cells := upd p.cells c { p.cells c with key := k } }

theorem dlite_setKey_index (p : Planner) (c : Nat) (k : Key) (d : Nat) :
    ((setKey p c k).cells d).heapIndex = (p.cells d).heapIndex := by
  show ((upd p.cells c _) d).heapIndex = _
  rw [upd_apply]
  split_ifs with h
  · rw [h]
  · rfl

theorem dlite_setKey_keys (p : Planner) (c : Nat) (k : Key) (d : Nat) (hd : d ≠ c) :
    (setKey p c k).keys d = p.keys d := by
  show ((upd p.cells c _) d).key = _
  rw [upd_other _ _ _ _ hd]
  rfl

theorem dlite_setKey_heapOK {N : Nat} {ex : Option Nat} {p : Planner} (h : HeapOK N ex p)
    (c : Nat) (k : Key) : HeapOK N ex (setKey p c k) := by
  unfold HeapOK
  have e : (fun d => ((setKey p c k).cells d).heapIndex) = fun d => (p.cells d).heapIndex :=
    funext (dlite_setKey_index p c k)
  rw [e]
  exact slotsOK_mem h (fun d _ => by rw [dlite_setKey_index])

/-- After a change of the cached key of one cell, `insert` brings the open list into
order again, whether the cell was on it or not. -/
theorem dlite_insert_inv {N : Nat} {p : Planner} (h : HeapInv N p) (c : Nat) (hc : c < N)
    (k : Key) : HeapInv N (insert (setKey p c k) c) := by
  have hok := dlite_setKey_heapOK h.1 c k
  refine ⟨(dlite_insert_spec hok c hc).2.1, ?_⟩
  by_cases ho : ((setKey p c k).cells c).heapIndex ≠ 0
  · have e : insert (setKey p c k) c = heapUp (heapDown (setKey p c k) c) c := by
      unfold insert
      rw [if_pos ho]
    rw [e]
    obtain ⟨a1, a2, a3⟩ := hok.2 c hc ⟨by simp, ho⟩
    have a3' : p.openHeap ((setKey p c k).cells c).heapIndex = c := a3
    have hb : OrderedBut Key.le (setKey p c k).keys (setKey p c k).openHeap
        (setKey p c k).openListLength ((setKey p c k).cells c).heapIndex := by
      refine orderedBut_of_change dlite_tests h.2 _ a2 (fun j j1 j2 j3 => ?_)
      refine dlite_setKey_keys p c k _ (fun e => j3 ?_)
      exact slotsOK_inj h.1 j _ j1 j2 a1 a2 (e.trans a3'.symm)
    obtain ⟨st1, ok1⟩ := dlite_heapDown_step hok c hc (by simp)
    obtain ⟨d1, d2, _⟩ := dlite_heapDown_order hok c hc (by simp) ho hb
    have ho1 : ((heapDown (setKey p c k) c).cells c).heapIndex ≠ 0 := (st1.mem c).2 ho
    obtain ⟨u1, u2, u3⟩ := dlite_heapUp_order ok1 c hc (by simp) ho1 d1
    exact ordered_of_parts u1 u2 (u3 d2)
  · have ho' : ((setKey p c k).cells c).heapIndex = 0 := by
      by_contra hne; exact ho hne
    have ho0 : (p.cells c).heapIndex = 0 := by
      rw [← dlite_setKey_index p c k c]; exact ho'
    have hord : Ordered Key.le (setKey p c k).keys p.openHeap p.openListLength := by
      refine ordered_congr h.2 (fun j j1 j2 => dlite_setKey_keys p c k _ (fun e => ?_))
      have : (p.cells (p.openHeap j)).heapIndex = j := (h.1.1 j j1 j2).2.2
      rw [e, ho0] at this
      omega
    obtain ⟨p1, hp1, hcells, w1, w2, w3⟩ : ∃ p1 : Planner,
        insert (setKey p c k) c = heapUp p1 c ∧
        (p1.cells c).heapIndex = p.openListLength + 1 ∧
        p1.openListLength = p.openListLength + 1 ∧
        p1.openHeap = upd p.openHeap (p.openListLength + 1) c ∧
        p1.keys = (setKey p c k).keys ∧ HeapOK N none p1 := by
      refine ⟨{ setKey p c k with openListLength := p.openListLength + 1, openHeap := upd p.openHeap (p.openListLength + 1) c, cells := upd (setKey p c k).cells c { (setKey p c k).cells c with heapIndex := p.openListLength + 1 } }, ?_, ?_, rfl, rfl, ?_, ?_⟩
      · unfold insert
        rw [if_neg ho]
        rfl
      · show ((upd (setKey p c k).cells c _) c).heapIndex = _
        rw [upd_same]
      · funext d
        show ((upd (setKey p c k).cells c _) d).key = _
        rw [upd_apply]
        split_ifs with hd
        · rw [hd]; rfl
        · rfl
      · have hidx : (fun d => ((upd (setKey p c k).cells c
            { (setKey p c k).cells c with heapIndex := p.openListLength + 1 }) d).heapIndex) =
            upd (fun d => ((setKey p c k).cells d).heapIndex) c (p.openListLength + 1) := by
          funext d
          simp only [upd_apply]
          split_ifs <;> rfl
        unfold HeapOK
        show SlotsOK N (upd p.openHeap (p.openListLength + 1) c) _ (p.openListLength + 1) _
        rw [hidx]
        refine slotsOK_push hok c hc (fun hh => ho hh.2) _ (fun d _ => ?_)
        have hd' := congrFun hidx d
        simp only at hd'
        show (some d ≠ none ∧ ((upd (setKey p c k).cells c _) d).heapIndex ≠ 0) ↔ _
        rw [hd', upd_apply]
        by_cases hd : d = c
        · rw [if_pos hd]
          exact ⟨fun _ => Or.inl hd, fun _ => ⟨by simp, by omega⟩⟩
        · rw [if_neg hd]
          exact ⟨fun hh => Or.inr hh, fun hh => hh.resolve_left hd⟩
    obtain ⟨hw3, hok1⟩ := w3
    rw [hp1]
    obtain ⟨b1, b2⟩ := orderedBut_push hord c
    have hm1 : (p1.cells c).heapIndex ≠ 0 := by rw [hcells]; omega
    have hb : OrderedBut Key.le p1.keys p1.openHeap p1.openListLength (p1.cells c).heapIndex := by
      rw [hw3, w2, w1, hcells]; exact b1
    have hch : ChildOK Key.le p1.keys p1.openHeap p1.openListLength (p1.cells c).heapIndex := by
      rw [hw3, w2, w1, hcells]; exact b2
    obtain ⟨u1, u2, u3⟩ := dlite_heapUp_order hok1 c hc (by simp) hm1 hb
    exact ordered_of_parts u1 u2 (u3 hch)

/-- The last assignment of `remove`: `cell.heapIndex = 0`. -/
def clearIndex (p : Planner) (c : Nat) : Planner :=
  { p with cells := upd p.cells c { p.cells c with heapIndex := 0 } }

/-- The first assignments of `remove` when the open list does not get empty: the last
cell takes the slot of the cell `c`. -/
def place (p : Planner) (c : Nat) : Planner :=
  { p with openListLength := p.openListLength - 1,
           openHeap := upd p.openHeap (p.cells c).heapIndex (p.openHeap p.openListLength),
           cells := upd p.cells (p.openHeap p.openListLength)
             { p.cells (p.openHeap p.openListLength) with heapIndex := (p.cells c).heapIndex } }

theorem dlite_clearIndex_index (p : Planner) (c d : Nat) :
    ((clearIndex p c).cells d).heapIndex = if d = c then 0 else (p.cells d).heapIndex := by
  show ((upd p.cells c _) d).heapIndex = _
  rw [upd_apply]
  split_ifs <;> rfl

theorem dlite_clearIndex_keeps (p : Planner) (c : Nat) : Keeps p (clearIndex p c) := by
  refine ⟨rfl, rfl, rfl, rfl, rfl, rfl, rfl, fun d => ?_⟩
  show ((upd p.cells c _) d).core = _
  rw [upd_apply]
  split_ifs with hd
  · rw [hd]; rfl
  · rfl

theorem dlite_clearIndex_heapOK {N : Nat} {p : Planner} {c : Nat} (h : HeapOK N (some c) p) :
    HeapOK N none (clearIndex p c) := by
  unfold HeapOK
  show SlotsOK N p.openHeap (fun d => ((clearIndex p c).cells d).heapIndex) p.openListLength
    (fun d => some d ≠ none ∧ ((clearIndex p c).cells d).heapIndex ≠ 0)
  refine slotsOK_mem (slotsOK_congr h (fun i _ _ => rfl) (fun d _ hd => ?_)) (fun d _ => ?_)
  · rw [dlite_clearIndex_index, if_neg (fun e => hd.1 (by rw [e]))]
  · rw [dlite_clearIndex_index]
    by_cases hd : d = c
    · rw [if_pos hd]
      exact ⟨fun hh => absurd rfl hh.2, fun hh => absurd (by rw [hd]) hh.1⟩
    · rw [if_neg hd]
      exact ⟨fun hh => ⟨fun e => hd (Option.some.inj e), hh.2⟩, fun hh => ⟨by simp, hh.2⟩⟩

theorem dlite_place_keeps (p : Planner) (c : Nat) : Keeps p (place p c) := by
  refine ⟨rfl, rfl, rfl, rfl, rfl, rfl, rfl, fun d => ?_⟩
  show ((upd p.cells _ _) d).core = _
  rw [upd_apply]
  split_ifs with hd
  · rw [hd]; rfl
  · rfl

theorem dlite_place_index (p : Planner) (c d : Nat) :
    ((place p c).cells d).heapIndex =
      if d = p.openHeap p.openListLength then (p.cells c).heapIndex else (p.cells d).heapIndex := by
  show ((upd p.cells _ _) d).heapIndex = _
  rw [upd_apply]
  split_ifs <;> rfl

theorem dlite_remove_eq (p : Planner) (c : Nat) (hm : (p.cells c).heapIndex ≠ 0)
    (hl : p.openListLength - 1 ≠ 0) :
    remove p c = clearIndex (heapDown (heapUp (place p c) (p.openHeap p.openListLength))
      (p.openHeap p.openListLength)) c := by
  unfold remove
  rw [if_neg hm]
  simp only
  rw [udec_pos _ (by omega), if_pos hl]
  rfl

theorem dlite_remove_eq_last (p : Planner) (c : Nat) (hm : (p.cells c).heapIndex ≠ 0)
    (h1 : 1 ≤ p.openListLength) (hl : ¬ p.openListLength - 1 ≠ 0) :
    remove p c = clearIndex { p with openListLength := p.openListLength - 1 } c := by
  unfold remove
  rw [if_neg hm]
  simp only
  rw [udec_pos _ h1, if_neg hl]
  rfl

/-- `remove` takes a cell off the open list, wherever it is, and leaves the open list in
order; a cell that is not on the open list is left alone. -/
theorem dlite_remove_spec {N : Nat} {p : Planner} (h : HeapInv N p) (c : Nat) (hc : c < N) :
    Keeps p (remove p c) ∧ HeapInv N (remove p c) ∧
      ∀ d, ((remove p c).cells d).heapIndex ≠ 0 ↔ (d ≠ c ∧ (p.cells d).heapIndex ≠ 0) := by
  by_cases hm : (p.cells c).heapIndex = 0
  · have e : remove p c = p := by
      unfold remove
      rw [if_pos hm]
    rw [e]
    refine ⟨dlite_keeps_refl p, h, fun d => ⟨fun hh => ⟨fun e => hh (by rw [e]; exact hm), hh⟩,
      fun hh => hh.2⟩⟩
  obtain ⟨a1, a2, a3⟩ : 1 ≤ (p.cells c).heapIndex ∧ (p.cells c).heapIndex ≤ p.openListLength ∧
      p.openHeap (p.cells c).heapIndex = c := h.1.2 c hc ⟨by simp, hm⟩
  have hmemF : ∀ (q : Planner), (∀ d, d ≠ c → ((q.cells d).heapIndex ≠ 0 ↔ (p.cells d).heapIndex ≠ 0)) →
      ∀ d, ((clearIndex q c).cells d).heapIndex ≠ 0 ↔ (d ≠ c ∧ (p.cells d).heapIndex ≠ 0) := by
    intro q hq d
    rw [dlite_clearIndex_index]
    by_cases hd : d = c
    · rw [if_pos hd]
      exact ⟨fun hh => absurd rfl hh, fun hh => absurd hd hh.1⟩
    · rw [if_neg hd, hq d hd]
      exact ⟨fun hh => ⟨hd, hh⟩, fun hh => hh.2⟩
  by_cases hl : p.openListLength - 1 ≠ 0
  · -- the open list does not get empty
    rw [dlite_remove_eq p c hm hl]
    have hlastN : p.openHeap p.openListLength < N := (h.1.1 _ (by omega) (le_refl _)).1
    have hlastI : (p.cells (p.openHeap p.openListLength)).heapIndex = p.openListLength :=
      (h.1.1 _ (by omega) (le_refl _)).2.2
    have hidx : (fun d => ((place p c).cells d).heapIndex) =
        upd (fun d => (p.cells d).heapIndex) (p.openHeap p.openListLength) (p.cells c).heapIndex := by
      funext d
      rw [dlite_place_index, upd_apply]
    have hmemP : ∀ d, ((place p c).cells d).heapIndex ≠ 0 ↔ (p.cells d).heapIndex ≠ 0 := by
      intro d
      rw [dlite_place_index]
      by_cases hd : d = p.openHeap p.openListLength
      · rw [if_pos hd, hd, hlastI]
        exact ⟨fun _ => by omega, fun _ => hm⟩
      · rw [if_neg hd]
    have hkP := dlite_keys_of_keeps (dlite_place_keeps p c)
    by_cases hi : (p.cells c).heapIndex = p.openListLength
    · -- the cell is the last one: the two loops do nothing
      have hcl : p.openHeap p.openListLength = c := by rw [← hi]; exact a3
      have hP : HeapOK N (some c) (place p c) := by
        unfold HeapOK
        show SlotsOK N (upd p.openHeap (p.cells c).heapIndex (p.openHeap p.openListLength))
          (fun d => ((place p c).cells d).heapIndex) (p.openListLength - 1)
          (fun d => some d ≠ some c ∧ ((place p c).cells d).heapIndex ≠ 0)
        have hbase := slotsOK_drop_last h.1 (by omega : 1 ≤ p.openListLength)
          (fun d => some d ≠ some c ∧ ((place p c).cells d).heapIndex ≠ 0) (fun d _ => by
            show (some d ≠ some c ∧ ((place p c).cells d).heapIndex ≠ 0) ↔ _
            rw [hmemP d, hcl]
            exact ⟨fun hh => ⟨fun e => hh.1 (by rw [e]), by simp, hh.2⟩,
              fun hh => ⟨fun e => hh.1 (Option.some.inj e), hh.2.2⟩⟩)
        refine slotsOK_congr hbase (fun i _ i2 => ?_) (fun d _ hd => ?_)
        · rw [upd_other _ _ _ _ (by omega)]
        · rw [dlite_place_index, hcl, if_neg (fun e => hd.1 (by rw [e]))]
      have hup : heapUp (place p c) (p.openHeap p.openListLength) = place p c := by
        unfold heapUp
        have e1 : ((place p c).cells (p.openHeap p.openListLength)).heapIndex =
            p.openListLength := by
          rw [dlite_place_index, if_pos rfl, hi]
        rw [e1, if_neg (by omega)]
        obtain ⟨f, hf⟩ : ∃ f, p.openListLength = f + 1 := ⟨p.openListLength - 1, by omega⟩
        have hord := h.2 p.openListLength (by omega) (le_refl _)
        have k1 : (place p c).keyAt p.openListLength = p.keys (p.openHeap p.openListLength) := by
          show (place p c).keys ((place p c).openHeap p.openListLength) = _
          rw [hkP]
          show p.keys (upd p.openHeap _ _ p.openListLength) = _
          rw [hi, upd_same]
        have k2 : (place p c).keyAt (p.openListLength / 2) =
            p.keys (p.openHeap (p.openListLength / 2)) := by
          show (place p c).keys ((place p c).openHeap (p.openListLength / 2)) = _
          rw [hkP]
          show p.keys (upd p.openHeap _ _ (p.openListLength / 2)) = _
          rw [hi, upd_other _ _ _ _ (by omega)]
        have hno : Key.lt ((place p c).keyAt p.openListLength)
            ((place p c).keyAt (p.openListLength / 2)) = false := by
          rw [k1, k2]; exact hord
        generalize hq : place p c = q at hno ⊢
        rw [hf] at hno ⊢
        simp only [heapUpLoop]
        rw [if_pos (by omega), hno]
        simp
      have hdown : heapDown (place p c) (p.openHeap p.openListLength) = place p c := by
        unfold heapDown
        have e1 : ((place p c).cells (p.openHeap p.openListLength)).heapIndex =
            p.openListLength := by
          rw [dlite_place_index, if_pos rfl, hi]
        rw [e1, if_neg (by omega)]
        have e2 : (place p c).openListLength = p.openListLength - 1 := rfl
        have ht : downTarget (place p c) p.openListLength = p.openListLength := by
          unfold downTarget
          simp only
          rw [e2, if_neg (by omega), if_neg (by omega)]
        rw [e2]
        generalize hq : place p c = q at ht ⊢
        simp only [heapDownLoop]
        rw [if_pos ht.symm]
      rw [hup, hdown]
      refine ⟨dlite_keeps_trans (dlite_place_keeps p c) (dlite_clearIndex_keeps _ c),
        ⟨dlite_clearIndex_heapOK hP, ?_⟩, hmemF _ (fun d _ => hmemP d)⟩
      show Ordered Key.le (clearIndex (place p c) c).keys (place p c).openHeap
        (p.openListLength - 1)
      rw [dlite_keys_of_keeps (dlite_clearIndex_keeps _ c), hkP]
      refine ordered_congr (ordered_shrink h.2 (Nat.sub_le _ 1)) (fun j _ j2 => ?_)
      show p.keys (upd p.openHeap _ _ j) = _
      rw [upd_other _ _ _ _ (by omega)]
    · -- the last cell takes the slot of the cell
      have hlt : (p.cells c).heapIndex < p.openListLength := by omega
      have hne : p.openHeap p.openListLength ≠ c := by
        intro e
        have := hlastI
        rw [e] at this
        exact hi this
      have hP : HeapOK N (some c) (place p c) := by
        unfold HeapOK
        show SlotsOK N (upd p.openHeap (p.cells c).heapIndex (p.openHeap p.openListLength))
          (fun d => ((place p c).cells d).heapIndex) (p.openListLength - 1)
          (fun d => some d ≠ some c ∧ ((place p c).cells d).heapIndex ≠ 0)
        rw [hidx]
        refine slotsOK_take h.1 _ a1 hlt _ (fun d _ => ?_)
        rw [hmemP d, a3]
        exact ⟨fun hh => ⟨fun e => hh.1 (by rw [e]), by simp, hh.2⟩,
          fun hh => ⟨fun e => hh.1 (Option.some.inj e), hh.2.2⟩⟩
      have hex : some (p.openHeap p.openListLength) ≠ some c := fun e => hne (Option.some.inj e)
      have hmL : ((place p c).cells (p.openHeap p.openListLength)).heapIndex ≠ 0 := by
        rw [dlite_place_index, if_pos rfl]; exact hm
      have hbP : OrderedBut Key.le (place p c).keys (place p c).openHeap
          (place p c).openListLength
          ((place p c).cells (p.openHeap p.openListLength)).heapIndex := by
        rw [hkP, dlite_place_index, if_pos rfl]
        exact orderedBut_take dlite_tests h.2 _ hlt
      obtain ⟨st1, ok1⟩ := dlite_heapUp_step hP _ hlastN hex
      obtain ⟨u1, u2, _⟩ := dlite_heapUp_order hP _ hlastN hex hmL hbP
      have hmL1 := (st1.mem (p.openHeap p.openListLength)).2 hmL
      obtain ⟨st2, ok2⟩ := dlite_heapDown_step ok1 _ hlastN hex
      obtain ⟨d1, d2, d3⟩ := dlite_heapDown_order ok1 _ hlastN hex hmL1 u1
      have hord := ordered_of_parts d1 (d3 u2) d2
      have st := dlite_heapStep_trans st1 st2
      refine ⟨dlite_keeps_trans (dlite_keeps_trans (dlite_place_keeps p c) st.keeps)
        (dlite_clearIndex_keeps _ c), ⟨dlite_clearIndex_heapOK ok2, ?_⟩,
        hmemF _ (fun d _ => (st.mem d).trans (hmemP d))⟩
      show Ordered Key.le (clearIndex _ c).keys _ _
      rw [dlite_keys_of_keeps (dlite_clearIndex_keeps _ c)]
      exact hord
  · -- the open list gets empty
    rw [dlite_remove_eq_last p c hm (by omega) hl]
    have hl1 : p.openListLength = 1 := by omega
    have hc1 : p.openHeap p.openListLength = c := by
      have : (p.cells c).heapIndex = p.openListLength := by omega
      rw [← this]; exact a3
    have hP : HeapOK N (some c) { p with openListLength := p.openListLength - 1 } := by
      unfold HeapOK
      show SlotsOK N p.openHeap (fun d => (p.cells d).heapIndex) (p.openListLength - 1)
        (fun d => some d ≠ some c ∧ (p.cells d).heapIndex ≠ 0)
      refine slotsOK_drop_last h.1 (by omega) _ (fun d _ => ?_)
      rw [hc1]
      exact ⟨fun hh => ⟨fun e => hh.1 (by rw [e]), by simp, hh.2⟩,
        fun hh => ⟨fun e => hh.1 (Option.some.inj e), hh.2.2⟩⟩
    have hk1 : Keeps p { p with openListLength := p.openListLength - 1 } :=
      ⟨rfl, rfl, rfl, rfl, rfl, rfl, rfl, fun _ => rfl⟩
    refine ⟨dlite_keeps_trans hk1 (dlite_clearIndex_keeps _ c),
      ⟨dlite_clearIndex_heapOK hP, ?_⟩,
      hmemF _ (fun d _ => Iff.rfl)⟩
    intro j j1 j2
    have : (clearIndex { p with openListLength := p.openListLength - 1 } c).openListLength =
        p.openListLength - 1 := rfl
    rw [this] at j2
    omega

theorem dlite_setKey_self (p : Planner) (c : Nat) : setKey p c (p.cells c).key = p := by
  show { p with cells := upd p.cells c (p.cells c) } = p
  rw [upd_self]

theorem dlite_resetState_index (p : Planner) (d : Nat) (hd : d < p.width * p.height) :
    ((resetState p).cells d).heapIndex = if d = p.pGoal then 1 else 0 := by
  simp only [resetState, upd_apply]
  split_ifs <;> simp_all

/-- The re-initialisation leaves the open list in order, with the goal as its only
cell. -/
theorem dlite_resetState_heapInv (p : Planner) (hg : p.pGoal < p.width * p.height) :
    HeapInv (p.width * p.height) (resetState p) := by
  have hl : (resetState p).openListLength = 1 := rfl
  have ho : (resetState p).openHeap 1 = p.pGoal := by
    show upd p.openHeap 1 p.pGoal 1 = _
    rw [upd_same]
  refine ⟨⟨fun i i1 i2 => ?_, fun c hc hm => ?_⟩, fun j j1 j2 => ?_⟩
  · rw [hl] at i2
    have hi : i = 1 := by omega
    rw [hi, ho]
    have := dlite_resetState_index p p.pGoal hg
    rw [if_pos rfl] at this
    exact ⟨hg, ⟨by simp, by rw [this]; omega⟩, this⟩
  · have hidx := dlite_resetState_index p c hc
    have hm2 : ((resetState p).cells c).heapIndex ≠ 0 := hm.2
    by_cases hcg : c = p.pGoal
    · rw [if_pos hcg] at hidx
      show 1 ≤ ((resetState p).cells c).heapIndex ∧ ((resetState p).cells c).heapIndex ≤
        (resetState p).openListLength ∧ (resetState p).openHeap ((resetState p).cells c).heapIndex = c
      rw [hidx, hl, ho]
      exact ⟨le_refl _, le_refl _, hcg.symm⟩
    · rw [if_neg hcg] at hidx
      exact absurd hidx hm2
  · rw [hl] at j2
    omega

/-- The invariant of the open heap of D* Lite in the words of the specification: every
slot `1 .. openListLength` holds a cell of the map whose `heapIndex` is the slot, the
cached key in a slot is not above the cached keys of the children of the slot that exist,
and every cell of the map that is in no slot has `heapIndex` 0. -/
def HeapInvariant (N : Nat) (p : Planner) : Prop :=
  (∀ i, 1 ≤ i → i ≤ p.openListLength →
    p.openHeap i < N ∧ (p.cells (p.openHeap i)).heapIndex = i) ∧
  (∀ i, 1 ≤ i → i ≤ p.openListLength →
    (2 * i ≤ p.openListLength → Key.ge (p.keyAt (2 * i)) (p.keyAt i) = true) ∧
    (2 * i + 1 ≤ p.openListLength → Key.ge (p.keyAt (2 * i + 1)) (p.keyAt i) = true)) ∧
  (∀ c, c < N → (∀ i, 1 ≤ i → i ≤ p.openListLength → p.openHeap i ≠ c) →
    (p.cells c).heapIndex = 0)

theorem dlite_heapInvariant_iff (N : Nat) (p : Planner) : HeapInvariant N p ↔ HeapInv N p := by
  have hge : ∀ a b : Key, Key.ge a b = true ↔ Key.lt a b = false := by
    intro a b
    unfold Key.ge
    cases Key.lt a b <;> simp
  constructor
  · rintro ⟨h1, h2, h3⟩
    refine ⟨⟨fun i i1 i2 => ?_, fun c hc hm => ?_⟩, fun j j1 j2 => ?_⟩
    · obtain ⟨a1, a2⟩ := h1 i i1 i2
      exact ⟨a1, ⟨by simp, by rw [a2]; omega⟩, a2⟩
    · have hm2 : (p.cells c).heapIndex ≠ 0 := hm.2
      by_contra hcon
      apply hm2
      apply h3 c hc
      intro i i1 i2 e
      apply hcon
      have := (h1 i i1 i2).2
      rw [e] at this
      show 1 ≤ (p.cells c).heapIndex ∧ (p.cells c).heapIndex ≤ p.openListLength ∧
        p.openHeap (p.cells c).heapIndex = c
      rw [this]
      exact ⟨i1, i2, e⟩
    · show Key.lt (p.keys (p.openHeap j)) (p.keys (p.openHeap (j / 2))) = false
      obtain ⟨b1, b2⟩ := h2 (j / 2) (by omega) (by omega)
      rcases Nat.mod_two_eq_zero_or_one j with hj | hj
      · have e : 2 * (j / 2) = j := by omega
        have := b1 (by omega)
        rw [e] at this
        exact (hge _ _).1 this
      · have e : 2 * (j / 2) + 1 = j := by omega
        have := b2 (by omega)
        rw [e] at this
        exact (hge _ _).1 this
  · rintro ⟨⟨h1, h2⟩, h3⟩
    refine ⟨fun i i1 i2 => ⟨(h1 i i1 i2).1, (h1 i i1 i2).2.2⟩, fun i i1 i2 => ⟨fun hc => ?_, fun hc => ?_⟩,
      fun c hc hno => ?_⟩
    · have := h3 (2 * i) (by omega) hc
      rw [show 2 * i / 2 = i by omega] at this
      exact (hge _ _).2 this
    · have := h3 (2 * i + 1) (by omega) hc
      rw [show (2 * i + 1) / 2 = i by omega] at this
      exact (hge _ _).2 this
    · by_contra hne
      obtain ⟨a1, a2, a3⟩ := h2 c hc ⟨by simp, hne⟩
      exact hno _ a1 a2 a3

end DStarLite

end RasterSim

namespace RasterSim

/-! ## D* Lite: the open list is in order in every state the contract leads to -/

namespace DStarLite

/-- A change of cells that keeps the slots and the cached keys keeps the open list in
order. -/
theorem dlite_heapInv_congr {N : Nat} {p p' : Planner} (h : HeapInv N p)
    (e1 : p'.openHeap = p.openHeap) (e2 : p'.openListLength = p.openListLength)
    (e3 : ∀ d, (p'.cells d).heapIndex = (p.cells d).heapIndex ∧ (p'.cells d).key = (p.cells d).key) :
    HeapInv N p' := by
  obtain ⟨hok, hord⟩ := h
  refine ⟨?_, ?_⟩
  · unfold HeapOK
    have e : (fun d => (p'.cells d).heapIndex) = (fun d => (p.cells d).heapIndex) :=
      funext fun d => (e3 d).1
    rw [e, e1, e2]
    refine slotsOK_mem hok (fun d _ => ?_)
    show (some d ≠ none ∧ (p'.cells d).heapIndex ≠ 0) ↔ (some d ≠ none ∧ (p.cells d).heapIndex ≠ 0)
    rw [(e3 d).1]
  · rw [e1, e2]
    exact ordered_congr hord (fun j _ _ => (e3 _).2)

/-- The state `q` has the frame of `p`, and its open list is in order. -/
def Both (p : Planner) (N : Nat) (q : Planner) : Prop := Frame p q ∧ HeapInv N q

/-- A new value of a cell with the same position, flags, slot and cached key. -/
theorem dlite_upd_both {p q : Planner} {N : Nat} (h : Both p N q) (c : Nat) (v : Cell)
    (hx : v.x = (q.cells c).x) (hy : v.y = (q.cells c).y)
    (hn : v.neighborhoodIndex = (q.cells c).neighborhoodIndex)
    (hi : v.heapIndex = (q.cells c).heapIndex) (hk : v.key = (q.cells c).key) :
    Both p N { q with cells := upd q.cells c v } := by
  refine ⟨dlite_frame_upd p q c v h.1 hx hy hn, dlite_heapInv_congr h.2 rfl rfl (fun d => ?_)⟩
  simp only [upd_apply]
  split_ifs with hd
  · rw [hd]
    exact ⟨hi, hk⟩
  · exact ⟨rfl, rfl⟩

/-- `updateVertex` keeps the open list in order. -/
theorem dlite_updateVertex_inv {N : Nat} {p : Planner} (h : HeapInv N p) (c : Nat) (hc : c < N) :
    HeapInv N (updateVertex p c) := by
  unfold updateVertex
  split_ifs
  · exact dlite_insert_inv h c hc _
  · exact (dlite_remove_spec h c hc).2.1

theorem dlite_updateVertex_both {p q : Planner} {N : Nat} (h : Both p N q) (c : Nat)
    (hc : c < N) : Both p N (updateVertex q c) :=
  ⟨dlite_updateVertex_frame p q c h.1, dlite_updateVertex_inv h.2 c hc⟩

theorem dlite_both_ite {p a b : Planner} {N : Nat} (c : Prop) [Decidable c] (ha : Both p N a)
    (hb : Both p N b) : Both p N (if c then a else b) := by
  split_ifs
  · exact ha
  · exact hb

theorem dlite_both_ite_fst {p : Planner} {N : Nat} (a b : Planner × Nat) (c : Prop)
    [Decidable c] (ha : Both p N a.1) (hb : Both p N b.1) : Both p N (if c then a else b).1 := by
  split_ifs
  · exact ha
  · exact hb

/-- The cells a neighbourhood list leads to from a cell of the map are cells of the
map. -/
theorem dlite_neighborhood_range {p : Planner} {size : Nat × Nat} (h : AlgInv p size) (c : Nat)
    (hc : c < size.1 * size.2) (spec : NeighborSpec)
    (hs : spec ∈ p.neighborhoods (p.cells c).neighborhoodIndex) :
    neighborOf c spec < size.1 * size.2 := by
  have htab : p.neighborhoods (p.cells c).neighborhoodIndex =
      buildNeighborhoods size.1 (p.cells c).neighborhoodIndex := by rw [h.table]
  by_cases hi : (p.cells c).neighborhoodIndex < 16
  · have hcons : ∃ t, p.neighborhoods (p.cells c).neighborhoodIndex =
        ({ ptrOffset := 0, baseCost := 0 } : NeighborSpec) :: t := by
      rw [htab]
      unfold buildNeighborhoods
      rw [if_pos hi]
      exact ⟨_, rfl⟩
    obtain ⟨t, ht⟩ := hcons
    rw [ht] at hs
    rcases List.mem_cons.1 hs with e | e
    · rw [e]
      unfold neighborOf
      simp only [add_zero, Int.toNat_ofNat]
      exact hc
    · refine (dlite_neighbor_adjacent h c hc spec ?_).1
      unfold Planner.neighborsOf
      rw [ht]
      exact e
  · exfalso
    rw [htab] at hs
    unfold buildNeighborhoods at hs
    rw [if_neg hi] at hs
    cases hs

theorem dlite_cellBlocked_both {p0 p : Planner} {size : Nat × Nat} (h : AlgInv p size)
    (hb : Both p0 (size.1 * size.2) p) (c : Nat) (hc : c < size.1 * size.2) :
    Both p0 (size.1 * size.2) (cellBlocked p c) := by
  unfold cellBlocked
  have hfold : Both p0 (size.1 * size.2) ((p.neighborsOf c).foldl
      (fun p spec =>
        let pNeighbor := neighborOf c spec
        if pNeighbor = p.pGoal then p
        else if (p.cells pNeighbor).blocked then p
        else
          let newRhs := minNeighborCost p pNeighbor
          if (p.cells pNeighbor).rhs ≠ newRhs then
            updateVertex { p with cells := upd p.cells pNeighbor { p.cells pNeighbor with rhs := newRhs } }
              pNeighbor
          else p)
      p) := by
    refine foldl_keeps (Both p0 (size.1 * size.2)) _ _ p ?_ hb
    intro q spec hs hq
    have hn := (dlite_neighbor_adjacent h c hc spec hs).1
    refine dlite_both_ite _ hq (dlite_both_ite _ hq (dlite_both_ite _ ?_ hq))
    refine dlite_updateVertex_both ?_ _ hn
    exact dlite_upd_both hq _ _ rfl rfl rfl rfl rfl
  refine dlite_updateVertex_both ?_ c hc
  exact dlite_upd_both hfold c _ rfl rfl rfl rfl rfl

theorem dlite_cellFreed_both {p0 p : Planner} {size : Nat × Nat} (h : AlgInv p size)
    (hb : Both p0 (size.1 * size.2) p) (c : Nat) (hc : c < size.1 * size.2) :
    Both p0 (size.1 * size.2) (cellFreed p c) := by
  unfold cellFreed
  have hfold : Both p0 (size.1 * size.2) ((p.neighborsOf c).foldl
      (fun (acc : Planner × Nat) spec =>
        let p := acc.1
        let newCellRhs := acc.2
        let pNeighbor := neighborOf c spec
        if pNeighbor = p.pGoal ∨ (p.cells pNeighbor).blocked then acc
        else
          let newRhs := (p.cells pNeighbor).g_cost
          let newRhs := if newRhs < OBSTACLE_COST then uadd newRhs spec.baseCost else newRhs
          let newCellRhs := if newRhs < newCellRhs then newRhs else newCellRhs
          let newRhs := (p.cells c).g_cost
          let newRhs := if newRhs < OBSTACLE_COST then uadd newRhs spec.baseCost else newRhs
          if newRhs < (p.cells pNeighbor).rhs then
            (updateVertex { p with cells := upd p.cells pNeighbor { p.cells pNeighbor with rhs := newRhs } }
              pNeighbor, newCellRhs)
          else (p, newCellRhs))
      (p, (p.cells c).rhs)).1 := by
    refine foldl_keeps (fun (acc : Planner × Nat) => Both p0 (size.1 * size.2) acc.1) _ _ _ ?_ hb
    intro acc spec hs hacc
    have hn := (dlite_neighbor_adjacent h c hc spec hs).1
    refine dlite_both_ite_fst _ _ _ hacc (dlite_both_ite_fst _ _ _ ?_ hacc)
    refine dlite_updateVertex_both ?_ _ hn
    exact dlite_upd_both hacc _ _ rfl rfl rfl rfl rfl
  refine dlite_both_ite _ ?_ hfold
  refine dlite_updateVertex_both ?_ c hc
  exact dlite_upd_both hfold c _ rfl rfl rfl rfl rfl

/-- The partial update of the map keeps the open list in order. -/
theorem dlite_initMapUpdate_heap {p : Planner} {size : Nat × Nat} (h : AlgInv p size)
    (hh : HeapInv (size.1 * size.2) p) (m : GridMap) (r : Region) (hr : r.right < size.1)
    (hb : r.bottom < size.2) : HeapInv (size.1 * size.2) (initMapUpdate p m r) := by
  unfold initMapUpdate
  refine (foldl_keeps (Both p (size.1 * size.2)) _ r.points p ?_ ⟨dlite_frame_refl p, hh⟩).2
  intro q pos hpos hq
  have hqi : AlgInv q size := dlite_algInv_of_frame h hq.1
  obtain ⟨b1, b2⟩ := region_points_le r pos hpos
  have hcell : q.width * pos.2 + pos.1 < size.1 * size.2 := by
    rw [hqi.width]
    exact index_lt_comm _ _ _ _ (by omega) (by omega)
  have h1 := dlite_upd_both hq (q.width * pos.2 + pos.1)
    { q.cells (q.width * pos.2 + pos.1) with blocked := decide (m.pixel pos.1 pos.2 > 0) }
    rfl rfl rfl rfl rfl
  have hi1 := dlite_algInv_of_frame h h1.1
  refine dlite_both_ite _ ?_ hq
  exact dlite_both_ite _ (dlite_cellBlocked_both hi1 h1 _ hcell)
    (dlite_cellFreed_both hi1 h1 _ hcell)

theorem dlite_lowerCell_both {p0 p : Planner} {size : Nat × Nat} (h : AlgInv p size)
    (hb : Both p0 (size.1 * size.2) p) (c : Nat) (hc : c < size.1 * size.2) :
    Both p0 (size.1 * size.2) (lowerCell p c) := by
  unfold lowerCell
  have h1 := dlite_upd_both hb c { p.cells c with g_cost := (p.cells c).rhs } rfl rfl rfl rfl rfl
  have h2 : Both p0 (size.1 * size.2)
      (remove { p with cells := upd p.cells c { p.cells c with g_cost := (p.cells c).rhs } } c) :=
    ⟨dlite_frame_trans h1.1 (dlite_remove_frame _ c), (dlite_remove_spec h1.2 c hc).2.1⟩
  have hi2 : AlgInv
      (remove { p with cells := upd p.cells c { p.cells c with g_cost := (p.cells c).rhs } } c)
      size :=
    dlite_algInv_of_frame h (dlite_frame_trans
      (dlite_frame_upd p p c { p.cells c with g_cost := (p.cells c).rhs } (dlite_frame_refl p)
        rfl rfl rfl) (dlite_remove_frame _ c))
  refine dlite_both_ite _ ?_ h2
  refine foldl_keeps (Both p0 (size.1 * size.2)) _ _ _ ?_ h2
  intro q spec hs hq
  have hn := (dlite_neighbor_adjacent hi2 c hc spec hs).1
  refine dlite_both_ite _ hq (dlite_both_ite _ ?_ hq)
  refine dlite_updateVertex_both ?_ _ hn
  exact dlite_upd_both hq _ _ rfl rfl rfl rfl rfl

theorem dlite_raiseCell_both {p0 p : Planner} {size : Nat × Nat} (h : AlgInv p size)
    (hb : Both p0 (size.1 * size.2) p) (c : Nat) (hc : c < size.1 * size.2) :
    Both p0 (size.1 * size.2) (raiseCell p c) := by
  unfold raiseCell
  have h1 := dlite_upd_both hb c { p.cells c with g_cost := OBSTACLE_COST } rfl rfl rfl rfl rfl
  have hi1 : AlgInv { p with cells := upd p.cells c { p.cells c with g_cost := OBSTACLE_COST } }
      size :=
    dlite_algInv_of_frame h
      (dlite_frame_upd p p c { p.cells c with g_cost := OBSTACLE_COST } (dlite_frame_refl p)
        rfl rfl rfl)
  refine foldl_keeps (Both p0 (size.1 * size.2)) _ _ _ ?_ h1
  intro q spec hs hq
  have hn := dlite_neighborhood_range hi1 c hc spec hs
  refine dlite_both_ite _ hq (dlite_updateVertex_both ?_ _ hn)
  exact dlite_both_ite _ (dlite_upd_both hq _ _ rfl rfl rfl rfl rfl) hq

theorem dlite_popStep_both {p0 p : Planner} {size : Nat × Nat} (h : AlgInv p size)
    (hb : Both p0 (size.1 * size.2) p) (hl : p.openListLength ≠ 0) :
    Both p0 (size.1 * size.2) (popStep p) := by
  have hc : p.openHeap 1 < size.1 * size.2 := (hb.2.1.1 1 (le_refl 1) (by omega)).1
  unfold popStep
  refine dlite_both_ite _ ?_
    (dlite_both_ite _ (dlite_lowerCell_both h hb _ hc) (dlite_raiseCell_both h hb _ hc))
  refine ⟨dlite_frame_trans ?_ (dlite_insert_frame _ _), dlite_insert_inv hb.2 _ hc _⟩
  exact dlite_frame_upd p0 p _ _ hb.1 rfl rfl rfl

theorem dlite_shortestPathLoop_heap (maxSteps : Nat) {size : Nat × Nat} :
    ∀ (fuel : Nat) (p p' : Planner) (step : Nat) (b : Bool), AlgInv p size →
      HeapInv (size.1 * size.2) p → shortestPathLoop maxSteps fuel p step = some (p', b) →
      HeapInv (size.1 * size.2) p'
  | 0, _, _, _, _, _, _, h => by simp [shortestPathLoop] at h
  | fuel + 1, p, p', step, b, hi, hh, h => by
    simp only [shortestPathLoop] at h
    split_ifs at h with hl
    · cases h; exact hh
    · cases h; exact hh
    · have hb := dlite_popStep_both hi ⟨dlite_frame_refl p, hh⟩ hl
      exact dlite_shortestPathLoop_heap maxSteps fuel _ p' _ b
        (dlite_algInv_of_frame hi hb.1) hb.2 h
    · cases h; exact hh

/-- `doCalculatePath` keeps the open list in order. -/
theorem dlite_doCalculatePath_heap (fuel : Nat) {p : Planner} {size : Nat × Nat}
    (h : AlgInv p size) (hh : HeapInv (size.1 * size.2) p) (u : Nat) (s g : Pos)
    (maxSteps : Nat) (o : Outcome) (hg1 : g.1 < size.1) (hg2 : g.2 < size.2)
    (ho : doCalculatePath fuel p u s g maxSteps = some o) :
    HeapInv (size.1 * size.2) o.planner := by
  unfold doCalculatePath at ho
  simp only at ho
  have hp1 : AlgInv { p with pStart := s.2 * p.width + s.1, pGoal := g.2 * p.width + g.1 } size :=
    ⟨h.width, h.height, h.fits, h.table, h.coords, h.xMin, h.xMax, h.yMin, h.yMax⟩
  have hh1 : HeapInv (size.1 * size.2)
      { p with pStart := s.2 * p.width + s.1, pGoal := g.2 * p.width + g.1 } :=
    dlite_heapInv_congr hh rfl rfl (fun _ => ⟨rfl, rfl⟩)
  have hg : ({ p with pStart := s.2 * p.width + s.1, pGoal := g.2 * p.width + g.1 } : Planner).pGoal
      = g.2 * size.1 + g.1 := by simp only [h.width]
  generalize ({ p with pStart := s.2 * p.width + s.1, pGoal := g.2 * p.width + g.1 } : Planner) = p1
    at ho hp1 hh1 hg
  by_cases hb1 : (p.cells (s.2 * p.width + s.1)).blocked = true
  · rw [if_pos hb1] at ho
    cases ho
    exact hh1
  rw [if_neg hb1] at ho
  by_cases hb2 : (p.cells (g.2 * p.width + g.1)).blocked = true
  · rw [if_pos hb2] at ho
    cases ho
    exact hh1
  rw [if_neg hb2] at ho
  have hreset : HeapInv (size.1 * size.2) (resetState p1) := by
    have hlt : p1.pGoal < p1.width * p1.height := by
      rw [hg, hp1.width, hp1.height]
      exact index_lt _ _ _ _ hg1 hg2
    have := dlite_resetState_heapInv p1 hlt
    rw [show p1.width * p1.height = size.1 * size.2 by rw [hp1.width, hp1.height]] at this
    exact this
  have hb2' : Both p1 (size.1 * size.2) (if needsReset u then resetState p1 else p1) :=
    dlite_both_ite _ ⟨dlite_resetState_frame p1, hreset⟩ ⟨dlite_frame_refl p1, hh1⟩
  generalize (if needsReset u then resetState p1 else p1) = p2 at ho hb2'
  have hb3 : Both p1 (size.1 * size.2) (if p2.pRobot ≠ p2.pStart then
      { p2 with k_m := uadd p2.k_m (h_cost (p2.cells p2.pStart) (p2.cells p2.pRobot)), pRobot := p2.pStart }
      else p2) := by
    refine dlite_both_ite _ ⟨dlite_frame_trans hb2'.1 ?_, ?_⟩ hb2'
    · exact ⟨rfl, rfl, rfl, rfl, rfl, fun _ => ⟨rfl, rfl, rfl⟩⟩
    · exact dlite_heapInv_congr hb2'.2 rfl rfl (fun _ => ⟨rfl, rfl⟩)
  generalize (if p2.pRobot ≠ p2.pStart then
      { p2 with k_m := uadd p2.k_m (h_cost (p2.cells p2.pStart) (p2.cells p2.pRobot)), pRobot := p2.pStart }
      else p2) = p3 at ho hb3
  cases hc : computeShortestPath fuel p3 maxSteps with
  | none => rw [hc] at ho; cases ho
  | some r =>
    obtain ⟨p4, success⟩ := r
    rw [hc] at ho
    simp only [Option.some.injEq] at ho
    subst ho
    have h4 := dlite_shortestPathLoop_heap maxSteps fuel p3 p4 0 success
      (dlite_algInv_of_frame hp1 hb3.1) hb3.2 hc
    unfold doDebugAndPathExtract
    split_ifs
    · split <;> exact h4
    · exact h4
    · exact h4

/-- A call of `doCalculatePath` that re-initialises the state (the change mask holds
`NewMap` or `UpdatedGoal`, and neither start nor goal is blocked) leaves the open list in
order, whatever the heap array and the members `heapIndex`, `g_cost` and `rhs` held
before. -/
theorem dlite_doCalculatePath_reset_heap (fuel : Nat) {p : Planner} {size : Nat × Nat}
    (h : AlgInv p size) (u : Nat) (hu : needsReset u = true) (s g : Pos)
    (maxSteps : Nat) (o : Outcome) (hg1 : g.1 < size.1) (hg2 : g.2 < size.2)
    (ho : doCalculatePath fuel p u s g maxSteps = some o)
    (hne1 : o.error ≠ "Start position blocked") (hne2 : o.error ≠ "Goal position blocked") :
    HeapInv (size.1 * size.2) o.planner := by
  unfold doCalculatePath at ho
  simp only at ho
  have hp1 : AlgInv { p with pStart := s.2 * p.width + s.1, pGoal := g.2 * p.width + g.1 } size :=
    ⟨h.width, h.height, h.fits, h.table, h.coords, h.xMin, h.xMax, h.yMin, h.yMax⟩
  have hg : ({ p with pStart := s.2 * p.width + s.1, pGoal := g.2 * p.width + g.1 } : Planner).pGoal
      = g.2 * size.1 + g.1 := by simp only [h.width]
  generalize ({ p with pStart := s.2 * p.width + s.1, pGoal := g.2 * p.width + g.1 } : Planner) = p1
    at ho hp1 hg
  by_cases hb1 : (p.cells (s.2 * p.width + s.1)).blocked = true
  · rw [if_pos hb1] at ho
    cases ho
    exact absurd rfl hne1
  rw [if_neg hb1] at ho
  by_cases hb2 : (p.cells (g.2 * p.width + g.1)).blocked = true
  · rw [if_pos hb2] at ho
    cases ho
    exact absurd rfl hne2
  rw [if_neg hb2, if_pos hu] at ho
  have hreset : HeapInv (size.1 * size.2) (resetState p1) := by
    have hlt : p1.pGoal < p1.width * p1.height := by
      rw [hg, hp1.width, hp1.height]
      exact index_lt _ _ _ _ hg1 hg2
    have := dlite_resetState_heapInv p1 hlt
    rw [show p1.width * p1.height = size.1 * size.2 by rw [hp1.width, hp1.height]] at this
    exact this
  have hb2' : Both p1 (size.1 * size.2) (resetState p1) := ⟨dlite_resetState_frame p1, hreset⟩
  generalize resetState p1 = p2 at ho hb2'
  have hb3 : Both p1 (size.1 * size.2) (if p2.pRobot ≠ p2.pStart then
      { p2 with k_m := uadd p2.k_m (h_cost (p2.cells p2.pStart) (p2.cells p2.pRobot)), pRobot := p2.pStart }
      else p2) := by
    refine dlite_both_ite _ ⟨dlite_frame_trans hb2'.1 ?_, ?_⟩ hb2'
    · exact ⟨rfl, rfl, rfl, rfl, rfl, fun _ => ⟨rfl, rfl, rfl⟩⟩
    · exact dlite_heapInv_congr hb2'.2 rfl rfl (fun _ => ⟨rfl, rfl⟩)
  generalize (if p2.pRobot ≠ p2.pStart then
      { p2 with k_m := uadd p2.k_m (h_cost (p2.cells p2.pStart) (p2.cells p2.pRobot)), pRobot := p2.pStart }
      else p2) = p3 at ho hb3
  cases hc : computeShortestPath fuel p3 maxSteps with
  | none => rw [hc] at ho; cases ho
  | some r =>
    obtain ⟨p4, success⟩ := r
    rw [hc] at ho
    simp only [Option.some.injEq] at ho
    subst ho
    have h4 := dlite_shortestPathLoop_heap maxSteps fuel p3 p4 0 success
      (dlite_algInv_of_frame hp1 hb3.1) hb3.2 hc
    unfold doDebugAndPathExtract
    split_ifs
    · split <;> exact h4
    · exact h4
    · exact h4

end DStarLite

end RasterSim

namespace RasterSim

/-! ## D* Lite: the invariant of a run from scratch -/

/-- A fold that keeps the least of the values of the items it does not skip. -/
theorem foldl_min_spec {α : Type} (skip : α → Prop) (val : α → Nat) (f : Nat → α → Nat)
    (h1 : ∀ acc a, ¬ skip a → val a < acc → f acc a = val a)
    (h2 : ∀ acc a, ¬ (¬ skip a ∧ val a < acc) → f acc a = acc) :
    ∀ (l : List α) (init : Nat),
      l.foldl f init ≤ init ∧ (∀ a, a ∈ l → ¬ skip a → l.foldl f init ≤ val a) ∧
      (l.foldl f init = init ∨ ∃ a, a ∈ l ∧ ¬ skip a ∧ l.foldl f init = val a ∧ val a < init)
  | [], init => ⟨le_refl _, fun a ha => by simp at ha, Or.inl rfl⟩
  | a0 :: l, init => by
    simp only [List.foldl_cons]
    obtain ⟨i1, i2, i3⟩ := foldl_min_spec skip val f h1 h2 l (f init a0)
    by_cases hc : ¬ skip a0 ∧ val a0 < init
    · have e := h1 init a0 hc.1 hc.2
      rw [e] at i1 i2 i3 ⊢
      refine ⟨by omega, ?_, ?_⟩
      · intro a ha hs
        rcases List.mem_cons.1 ha with q | q
        · rw [q]; exact i1
        · exact i2 a q hs
      · rcases i3 with q | ⟨a, q1, q2, q3, q4⟩
        · exact Or.inr ⟨a0, List.mem_cons_self _ _, hc.1, q, hc.2⟩
        · exact Or.inr ⟨a, List.mem_cons_of_mem _ q1, q2, q3, by omega⟩
    · have e := h2 init a0 hc
      rw [e] at i1 i2 i3 ⊢
      refine ⟨i1, ?_, ?_⟩
      · intro a ha hs
        rcases List.mem_cons.1 ha with q | q
        · rw [q]
          have : ¬ val a0 < init := fun hlt => hc ⟨by rw [← q]; exact hs, hlt⟩
          omega
        · exact i2 a q hs
      · rcases i3 with q | ⟨a, q1, q2, q3, q4⟩
        · exact Or.inl q
        · exact Or.inr ⟨a, List.mem_cons_of_mem _ q1, q2, q3, q4⟩

/-- A fold that keeps the first item of least value among those it does not skip,
together with that value. -/
theorem foldl_argmin_spec {α : Type} (skip : α → Prop) (tgt val : α → Nat)
    (f : Option Nat × Nat → α → Option Nat × Nat)
    (h1 : ∀ acc a, ¬ skip a → val a < acc.2 → f acc a = (some (tgt a), val a))
    (h2 : ∀ acc a, ¬ (¬ skip a ∧ val a < acc.2) → f acc a = acc) :
    ∀ (l : List α) (init : Option Nat × Nat),
      (l.foldl f init).2 ≤ init.2 ∧ (∀ a, a ∈ l → ¬ skip a → (l.foldl f init).2 ≤ val a) ∧
      (l.foldl f init = init ∨
        ∃ a, a ∈ l ∧ ¬ skip a ∧ l.foldl f init = (some (tgt a), val a) ∧ val a < init.2)
  | [], init => ⟨le_refl _, fun a ha => by simp at ha, Or.inl rfl⟩
  | a0 :: l, init => by
    simp only [List.foldl_cons]
    obtain ⟨i1, i2, i3⟩ := foldl_argmin_spec skip tgt val f h1 h2 l (f init a0)
    by_cases hc : ¬ skip a0 ∧ val a0 < init.2
    · have e := h1 init a0 hc.1 hc.2
      rw [e] at i1 i2 i3 ⊢
      simp only at i1 i3
      refine ⟨by omega, ?_, ?_⟩
      · intro a ha hs
        rcases List.mem_cons.1 ha with q | q
        · rw [q]; exact i1
        · exact i2 a q hs
      · rcases i3 with q | ⟨a, q1, q2, q3, q4⟩
        · exact Or.inr ⟨a0, List.mem_cons_self _ _, hc.1, q, hc.2⟩
        · exact Or.inr ⟨a, List.mem_cons_of_mem _ q1, q2, q3, by omega⟩
    · have e := h2 init a0 hc
      rw [e] at i1 i2 i3 ⊢
      refine ⟨i1, ?_, ?_⟩
      · intro a ha hs
        rcases List.mem_cons.1 ha with q | q
        · rw [q]
          have : ¬ val a0 < init.2 := fun hlt => hc ⟨by rw [← q]; exact hs, hlt⟩
          omega
        · exact i2 a q hs
      · rcases i3 with q | ⟨a, q1, q2, q3, q4⟩
        · exact Or.inl q
        · exact Or.inr ⟨a, List.mem_cons_of_mem _ q1, q2, q3, q4⟩

namespace DStarLite

theorem dlite_key_irrefl (a : Key) : Key.lt a a = false := by
  unfold Key.lt
  simp

theorem dlite_calculateKey_congr (c c' s s' : Cell) (km : Nat) (hg : c.g_cost = c'.g_cost)
    (hr : c.rhs = c'.rhs) (hx : c.x = c'.x) (hy : c.y = c'.y) (hsx : s.x = s'.x)
    (hsy : s.y = s'.y) : calculateKey c s km = calculateKey c' s' km := by
  unfold calculateKey h_cost
  rw [hg, hr, hx, hy, hsx, hsy]

/-- The cost of a cell over a neighbour with the cost `g` (lines 268-270, 331-333):
`g` plus the cost of the move, unless `g` is the obstacle cost or above. -/
def arcOf (g cost : Nat) : Nat := if g < OBSTACLE_COST then uadd g cost else g

theorem dlite_arcOf_lt (g cost : Nat) (hg : g < OBSTACLE_COST) (hc : cost ≤ 7) :
    arcOf g cost = g + cost := by
  unfold arcOf uadd
  rw [if_pos hg]
  unfold OBSTACLE_COST at hg
  omega

theorem dlite_arcOf_ge (g cost : Nat) (hg : ¬ g < OBSTACLE_COST) : arcOf g cost = g := by
  unfold arcOf
  rw [if_neg hg]

/-- What `minNeighborCost` yields: the least cost of the cell over a free neighbour,
or the obstacle cost when none is below it. -/
theorem dlite_minNeighborCost_spec (p : Planner) (c : Nat) :
    minNeighborCost p c ≤ OBSTACLE_COST ∧
    (∀ spec, spec ∈ p.neighborsOf c → (p.cells (neighborOf c spec)).blocked = false →
      minNeighborCost p c ≤ arcOf (p.cells (neighborOf c spec)).g_cost spec.baseCost) ∧
    (minNeighborCost p c = OBSTACLE_COST ∨
      ∃ spec, spec ∈ p.neighborsOf c ∧ (p.cells (neighborOf c spec)).blocked = false ∧
        minNeighborCost p c = arcOf (p.cells (neighborOf c spec)).g_cost spec.baseCost ∧
        arcOf (p.cells (neighborOf c spec)).g_cost spec.baseCost < OBSTACLE_COST) := by
  have key := foldl_min_spec (fun spec => (p.cells (neighborOf c spec)).blocked = true)
    (fun spec => arcOf (p.cells (neighborOf c spec)).g_cost spec.baseCost)
    (fun newRhs spec =>
      let pNeighbor2 := neighborOf c spec
      if (p.cells pNeighbor2).blocked then newRhs
      else
        let rhs := (p.cells pNeighbor2).g_cost
        let rhs := if rhs < OBSTACLE_COST then uadd rhs spec.baseCost else rhs
        if rhs < newRhs then rhs else newRhs)
    ?_ ?_ (p.neighborsOf c) OBSTACLE_COST
  · obtain ⟨k1, k2, k3⟩ := key
    refine ⟨k1, fun spec hs hb => k2 spec hs (by rw [hb]; simp), ?_⟩
    rcases k3 with q | ⟨spec, q1, q2, q3, q4⟩
    · exact Or.inl q
    · exact Or.inr ⟨spec, q1, by simpa using q2, q3, q4⟩
  · intro acc spec hs hv
    simp only
    rw [if_neg hs]
    exact if_pos hv
  · intro acc spec hn
    simp only
    by_cases hs : (p.cells (neighborOf c spec)).blocked = true
    · rw [if_pos hs]
    · rw [if_neg hs]
      exact if_neg (fun hv => hn ⟨hs, hv⟩)

/-- What `nextCell` yields: the first free neighbour with `g` below the obstacle cost
over which the cost is least, when that cost is below the obstacle cost. -/
theorem dlite_nextCell_spec (p : Planner) (c : Nat) :
    (nextCell p c = none ∧
      ∀ spec, spec ∈ p.neighborsOf c → (p.cells (neighborOf c spec)).blocked = false →
        (p.cells (neighborOf c spec)).g_cost < OBSTACLE_COST →
        OBSTACLE_COST ≤ uadd (p.cells (neighborOf c spec)).g_cost spec.baseCost) ∨
    (∃ spec, spec ∈ p.neighborsOf c ∧ (p.cells (neighborOf c spec)).blocked = false ∧
      (p.cells (neighborOf c spec)).g_cost < OBSTACLE_COST ∧
      nextCell p c = some (neighborOf c spec) ∧
      uadd (p.cells (neighborOf c spec)).g_cost spec.baseCost < OBSTACLE_COST ∧
      ∀ spec2, spec2 ∈ p.neighborsOf c → (p.cells (neighborOf c spec2)).blocked = false →
        (p.cells (neighborOf c spec2)).g_cost < OBSTACLE_COST →
        uadd (p.cells (neighborOf c spec)).g_cost spec.baseCost ≤
          uadd (p.cells (neighborOf c spec2)).g_cost spec2.baseCost) := by
  have key := foldl_argmin_spec
    (fun spec => ¬ ((p.cells (neighborOf c spec)).blocked = false ∧
      (p.cells (neighborOf c spec)).g_cost < OBSTACLE_COST))
    (fun spec => neighborOf c spec)
    (fun spec => uadd (p.cells (neighborOf c spec)).g_cost spec.baseCost)
    (fun (acc : Option Nat × Nat) spec =>
      let pNeighbor := neighborOf c spec
      if !(p.cells pNeighbor).blocked ∧ (p.cells pNeighbor).g_cost < OBSTACLE_COST then
        let cost := uadd (p.cells pNeighbor).g_cost spec.baseCost
        if cost < acc.2 then (some pNeighbor, cost) else acc
      else acc)
    ?_ ?_ (p.neighborsOf c) (none, OBSTACLE_COST)
  · obtain ⟨_, k2, k3⟩ := key
    rcases k3 with q | ⟨spec, q1, q2, q3, q4⟩
    · left
      refine ⟨?_, ?_⟩
      · unfold nextCell
        rw [q]
      · intro spec hs hb hg
        have := k2 spec hs (fun hn => hn ⟨hb, hg⟩)
        rw [q] at this
        exact this
    · right
      have q2' := not_not.1 q2
      refine ⟨spec, q1, q2'.1, q2'.2, ?_, q4, ?_⟩
      · unfold nextCell
        rw [q3]
      · intro spec2 hs hb hg
        have := k2 spec2 hs (fun hn => hn ⟨hb, hg⟩)
        rw [q3] at this
        exact this
  · intro acc spec hs hv
    have hs' := not_not.1 hs
    simp only
    rw [if_pos ⟨by rw [hs'.1]; rfl, hs'.2⟩]
    exact if_pos hv
  · intro acc spec hn
    simp only
    by_cases hs : (!(p.cells (neighborOf c spec)).blocked) = true ∧
        (p.cells (neighborOf c spec)).g_cost < OBSTACLE_COST
    · rw [if_pos hs]
      refine if_neg (fun hv => hn ⟨?_, hv⟩)
      refine not_not.2 ⟨?_, hs.2⟩
      simpa using hs.1
    · rw [if_neg hs]

/-- What a cell holds apart from its slot in the open list and its cached key. -/
def Cell.vals (c : Cell) : Nat × Nat × Nat × Bool × Nat × Nat :=
  (c.x, c.y, c.neighborhoodIndex, c.blocked, c.g_cost, c.rhs)

theorem dlite_vals_of_core {a b : Cell} (h : a.core = b.core) : a.vals = b.vals := by
  unfold Cell.vals
  rw [dlite_core_x h, dlite_core_y h, dlite_core_ni h, dlite_core_blocked h, dlite_core_g h,
    dlite_core_rhs h]

theorem dlite_vals_x {a b : Cell} (h : a.vals = b.vals) : a.x = b.x :=
  congrArg (fun t => t.1) h

theorem dlite_vals_y {a b : Cell} (h : a.vals = b.vals) : a.y = b.y :=
  congrArg (fun t => t.2.1) h

theorem dlite_vals_ni {a b : Cell} (h : a.vals = b.vals) :
    a.neighborhoodIndex = b.neighborhoodIndex :=
  congrArg (fun t => t.2.2.1) h

theorem dlite_vals_blocked {a b : Cell} (h : a.vals = b.vals) : a.blocked = b.blocked :=
  congrArg (fun t => t.2.2.2.1) h

theorem dlite_vals_g {a b : Cell} (h : a.vals = b.vals) : a.g_cost = b.g_cost :=
  congrArg (fun t => t.2.2.2.2.1) h

theorem dlite_vals_rhs {a b : Cell} (h : a.vals = b.vals) : a.rhs = b.rhs :=
  congrArg (fun t => t.2.2.2.2.2) h

/-- Two states that differ in the open list and the cached keys only. -/
structure Quiet (p p' : Planner) : Prop where
  width : p'.width = p.width
  height : p'.height = p.height
  pGoal : p'.pGoal = p.pGoal
  pStart : p'.pStart = p.pStart
  pRobot : p'.pRobot = p.pRobot
  k_m : p'.k_m = p.k_m
  neighborhoods : p'.neighborhoods = p.neighborhoods
  vals : ∀ c, (p'.cells c).vals = (p.cells c).vals

theorem dlite_quiet_refl (p : Planner) : Quiet p p :=
  ⟨rfl, rfl, rfl, rfl, rfl, rfl, rfl, fun _ => rfl⟩

theorem dlite_quiet_trans {p1 p2 p3 : Planner} (h12 : Quiet p1 p2) (h23 : Quiet p2 p3) :
    Quiet p1 p3 :=
  ⟨h23.width.trans h12.width, h23.height.trans h12.height, h23.pGoal.trans h12.pGoal,
    h23.pStart.trans h12.pStart, h23.pRobot.trans h12.pRobot, h23.k_m.trans h12.k_m,
    h23.neighborhoods.trans h12.neighborhoods, fun c => (h23.vals c).trans (h12.vals c)⟩

theorem dlite_quiet_of_keeps {p p' : Planner} (h : Keeps p p') : Quiet p p' :=
  ⟨h.width, h.height, h.pGoal, h.pStart, h.pRobot, h.k_m, h.neighborhoods,
    fun c => dlite_vals_of_core (h.core c)⟩

theorem dlite_quiet_frame {p p' : Planner} (h : Quiet p p') : Frame p p' :=
  ⟨h.width, h.height, h.neighborhoods, h.pStart, h.pGoal, fun i =>
    ⟨dlite_vals_x (h.vals i), dlite_vals_y (h.vals i), dlite_vals_ni (h.vals i)⟩⟩

theorem dlite_quiet_neighborsOf {p p' : Planner} (h : Quiet p p') (c : Nat) :
    p'.neighborsOf c = p.neighborsOf c := by
  unfold Planner.neighborsOf
  rw [h.neighborhoods, dlite_vals_ni (h.vals c)]

theorem dlite_setKey_quiet (p : Planner) (c : Nat) (k : Key) : Quiet p (setKey p c k) := by
  refine ⟨rfl, rfl, rfl, rfl, rfl, rfl, rfl, fun d => ?_⟩
  show ((upd p.cells c _) d).vals = _
  rw [upd_apply]
  split_ifs with h
  · rw [h]
    rfl
  · rfl

/-- What `updateVertex` does to a state with the open list in order: the cell is on the
open list afterwards exactly if its `g` and `rhs` differ, then under its current key;
nothing else changes but the places in the open list. -/
theorem dlite_updateVertex_spec {N : Nat} {p : Planner} (h : HeapInv N p) (c : Nat) (hc : c < N) :
    Quiet p (updateVertex p c) ∧ HeapInv N (updateVertex p c) ∧
    (∀ d, ((updateVertex p c).cells d).heapIndex ≠ 0 ↔
      if d = c then (p.cells c).g_cost ≠ (p.cells c).rhs else (p.cells d).heapIndex ≠ 0) ∧
    (∀ d, d ≠ c → ((updateVertex p c).cells d).key = (p.cells d).key) ∧
    ((p.cells c).g_cost ≠ (p.cells c).rhs →
      ((updateVertex p c).cells c).key = calculateKey (p.cells c) (p.cells p.pStart) p.k_m) := by
  by_cases hg : (p.cells c).g_cost ≠ (p.cells c).rhs
  · have e : updateVertex p c =
        insert (setKey p c (calculateKey (p.cells c) (p.cells p.pStart) p.k_m)) c := by
      unfold updateVertex
      rw [if_pos hg]
      rfl
    rw [e]
    have hok := dlite_setKey_heapOK h.1 c (calculateKey (p.cells c) (p.cells p.pStart) p.k_m)
    obtain ⟨s1, _, s3⟩ := dlite_insert_spec hok c hc
    refine ⟨dlite_quiet_trans (dlite_setKey_quiet p c _) (dlite_quiet_of_keeps s1),
      dlite_insert_inv h c hc _, ?_, ?_, ?_⟩
    · intro d
      rw [s3 d, dlite_setKey_index]
      by_cases hd : d = c
      · rw [if_pos hd]
        exact ⟨fun _ => hg, fun _ => Or.inl hd⟩
      · rw [if_neg hd]
        exact ⟨fun q => q.resolve_left hd, fun q => Or.inr q⟩
    · intro d hd
      rw [dlite_core_key (s1.core d)]
      exact dlite_setKey_keys p c _ d hd
    · intro _
      rw [dlite_core_key (s1.core c)]
      show ((upd p.cells c _) c).key = _
      rw [upd_same]
  · have e : updateVertex p c = remove p c := by
      unfold updateVertex
      rw [if_neg hg]
    rw [e]
    obtain ⟨s1, s2, s3⟩ := dlite_remove_spec h c hc
    refine ⟨dlite_quiet_of_keeps s1, s2, ?_, ?_, fun q => absurd q hg⟩
    · intro d
      rw [s3 d]
      by_cases hd : d = c
      · rw [if_pos hd]
        exact ⟨fun q => absurd hd q.1, fun q => absurd q hg⟩
      · rw [if_neg hd]
        exact ⟨fun q => q.2, fun q => ⟨hd, q⟩⟩
    · intro d _
      exact dlite_core_key (s1.core d)

end DStarLite

end RasterSim

namespace RasterSim

/-! ## D* Lite: one round of `computeShortestPath` in a run from scratch -/

namespace DStarLite

/-- The state holds the map `m`: sizes, table, positions and edge flags are those of
the grid, and a cell is blocked exactly if its pixel is not zero. -/
structure Static (m : GridMap) (p : Planner) : Prop where
  alg : AlgInv p (m.width, m.height)
  flags : ∀ c, c < m.width * m.height → FlagsExact m.width m.height p c
  blocked : ∀ c, c < m.width * m.height →
    ((p.cells c).blocked = true ↔ m.pixel (c % m.width) (c / m.width) > 0)

theorem dlite_static_of_frame {m : GridMap} {p p' : Planner} (h : Static m p) (hf : Frame p p')
    (hb : ∀ c, (p'.cells c).blocked = (p.cells c).blocked) : Static m p' := by
  refine ⟨dlite_algInv_of_frame h.alg hf, fun c hc => ?_, fun c hc => ?_⟩
  · have := h.flags c hc
    unfold FlagsExact HasFlag at this ⊢
    rw [(hf.2.2.2.2.2 c).2.2]
    exact this
  · rw [hb c]
    exact h.blocked c hc

theorem dlite_static_pos {m : GridMap} {p : Planner} (h : Static m p) (c : Nat)
    (hc : c < m.width * m.height) : 1 ≤ m.width := by
  rcases Nat.eq_zero_or_pos m.width with h0 | h0
  · rw [h0] at hc; simp at hc
  · exact h0

/-- The neighbours of a cell in a state that holds the map: the cells of the grid at
the adjacent positions, with the cost 5 or 7 of the move. -/
theorem dlite_static_neighbors {m : GridMap} {p : Planner} (h : Static m p) (c : Nat)
    (hc : c < m.width * m.height) (n cost : Nat) :
    (∃ spec, spec ∈ p.neighborsOf c ∧ neighborOf c spec = n ∧ spec.baseCost = cost) ↔
      (n < m.width * m.height ∧ Adjacent (posOf m.width c) (posOf m.width n) ∧
        cost = stepCost 5 7 (posOf m.width c) (posOf m.width n)) :=
  dlite_neighbors_iff p m.width m.height (dlite_static_pos h c hc) h.alg.table c hc
    (h.flags c hc) n cost

theorem dlite_static_neighbor {m : GridMap} {p : Planner} (h : Static m p) (c : Nat)
    (hc : c < m.width * m.height) (spec : NeighborSpec) (hs : spec ∈ p.neighborsOf c) :
    neighborOf c spec < m.width * m.height ∧ neighborOf c spec ≠ c ∧
      Adjacent (posOf m.width c) (posOf m.width (neighborOf c spec)) ∧
      spec.baseCost = stepCost 5 7 (posOf m.width c) (posOf m.width (neighborOf c spec)) ∧
      5 ≤ spec.baseCost ∧ spec.baseCost ≤ 7 := by
  obtain ⟨h1, h2, h3⟩ := (dlite_static_neighbors h c hc _ _).1 ⟨spec, hs, rfl, rfl⟩
  refine ⟨h1, ?_, h2, h3, ?_⟩
  · intro he
    rw [he] at h2
    exact h2.1 rfl
  · rw [h3]
    exact stepCost_range _ _

/-- Being a neighbour is symmetric, with the same cost in both directions. -/
theorem dlite_static_symm {m : GridMap} {p : Planner} (h : Static m p) (c : Nat)
    (hc : c < m.width * m.height) (spec : NeighborSpec) (hs : spec ∈ p.neighborsOf c) :
    ∃ spec2, spec2 ∈ p.neighborsOf (neighborOf c spec) ∧
      neighborOf (neighborOf c spec) spec2 = c ∧ spec2.baseCost = spec.baseCost := by
  obtain ⟨h1, _, h2, h3, _⟩ := dlite_static_neighbor h c hc spec hs
  refine (dlite_static_neighbors h _ h1 c spec.baseCost).2 ⟨hc, adjacent_symm h2, ?_⟩
  rw [h3]
  exact stepCost_symm _ _ _ _

theorem dlite_static_free {m : GridMap} {p : Planner} (h : Static m p) (c : Nat)
    (hc : c < m.width * m.height) :
    (p.cells c).blocked = false ↔ FreeCell m (posOf m.width c) := by
  have hw0 := dlite_static_pos h c hc
  have hb := h.blocked c hc
  unfold FreeCell posOf
  simp only
  constructor
  · intro e
    refine ⟨Nat.mod_lt _ hw0, Nat.div_lt_of_lt_mul hc, ?_⟩
    by_contra hne
    have : m.pixel (c % m.width) (c / m.width) > 0 := by omega
    have := hb.2 this
    rw [e] at this
    cases this
  · rintro ⟨_, _, e⟩
    cases hq : (p.cells c).blocked
    · rfl
    · have := hb.1 hq
      omega

/-- The invariant of a run from scratch (`resetState`, then rounds of
`computeShortestPath`): the open list is in order and holds the cells whose `g` and
`rhs` differ, under their current keys; no `rhs` is above its `g`, no `g` above the
obstacle cost; an `rhs` below the obstacle cost is the cost of a chain of free cells to
the goal; and the `rhs` of a free cell other than the goal is the least cost over its
free neighbours. -/
structure Scratch (m : GridMap) (p : Planner) : Prop where
  static : Static m p
  heap : HeapInv (m.width * m.height) p
  goal : p.pGoal < m.width * m.height
  goalFree : (p.cells p.pGoal).blocked = false
  goalRhs : (p.cells p.pGoal).rhs = 0
  start : p.pStart < m.width * m.height
  km : p.k_m = 0
  le : ∀ c, c < m.width * m.height → (p.cells c).rhs ≤ (p.cells c).g_cost
  gmax : ∀ c, c < m.width * m.height → (p.cells c).g_cost ≤ OBSTACLE_COST
  incons : ∀ c, c < m.width * m.height →
    ((p.cells c).heapIndex ≠ 0 ↔ (p.cells c).g_cost ≠ (p.cells c).rhs)
  keys : ∀ c, c < m.width * m.height → (p.cells c).heapIndex ≠ 0 →
    (p.cells c).key = calculateKey (p.cells c) (p.cells p.pStart) p.k_m
  real : ∀ c, c < m.width * m.height → (p.cells c).rhs < OBSTACLE_COST →
    ∃ l, FreePath m (posOf m.width c) (posOf m.width p.pGoal) l ∧
      pathCost 5 7 l = (p.cells c).rhs
  bellman : ∀ c, c < m.width * m.height → (p.cells c).blocked = false → c ≠ p.pGoal →
    (p.cells c).rhs = minNeighborCost p c

/-- The quantity that every round of `computeShortestPath` lowers in a run from
scratch: the sum of the `g_cost` of the cells of the map. -/
def potential (N : Nat) (p : Planner) : Nat := sumBelow (fun c => (p.cells c).g_cost) N

/-- The cell with another `g_cost`. -/
def withG (c : Cell) (v : Nat) : Cell := { c with g_cost := v }

/-- The assignment `pCell->g_cost = v`. -/
def setG (p : Planner) (c v : Nat) : Planner :=
  { p with cells := upd p.cells c (withG (p.cells c) v) }

/-- Lines 266-267: the popped cell takes its `rhs` as `g` and leaves the open list. -/
def settle (p : Planner) (pCell : Nat) : Planner :=
  remove (setG p pCell (p.cells pCell).rhs) pCell

/-- Lines 269-280: one neighbour of the popped cell. -/
def lowerStep (pCell : Nat) (p : Planner) (spec : NeighborSpec) : Planner :=
  let pNeighbor := neighborOf pCell spec
  if (p.cells pNeighbor).blocked ∨ pNeighbor = p.pGoal then p
  else
    let newCost := (p.cells pCell).g_cost
    let newCost := if newCost < OBSTACLE_COST then uadd newCost spec.baseCost else newCost
    if (p.cells pNeighbor).rhs > newCost then
      updateVertex { p with cells := upd p.cells pNeighbor { p.cells pNeighbor with rhs := newCost } }
        pNeighbor
    else p

/-- The cell with another `rhs`. -/
def withRhs (c : Cell) (v : Nat) : Cell := { c with rhs := v }

/-- The assignment `pNeighbor->rhs = newCost`. -/
def setRhs (p : Planner) (c v : Nat) : Planner :=
  { p with cells := upd p.cells c (withRhs (p.cells c) v) }

theorem dlite_lowerCell_eq (p : Planner) (pCell : Nat) :
    lowerCell p pCell =
      if !((settle p pCell).cells pCell).blocked then
        ((settle p pCell).neighborsOf pCell).foldl (lowerStep pCell) (settle p pCell)
      else settle p pCell := rfl

/-- The states in the loop over the neighbours of the popped cell `u`, `p2` being the
state before the loop. -/
structure Lowered (N : Nat) (p2 : Planner) (u : Nat) (q : Planner) : Prop where
  frame : Frame p2 q
  km : q.k_m = p2.k_m
  heap : HeapInv N q
  g : ∀ c, (q.cells c).g_cost = (p2.cells c).g_cost
  blocked : ∀ c, (q.cells c).blocked = (p2.cells c).blocked
  rhs : ∀ c, (q.cells c).rhs = (p2.cells c).rhs ∨
    ∃ spec, spec ∈ p2.neighborsOf u ∧ neighborOf u spec = c ∧ (p2.cells c).blocked = false ∧
      c ≠ p2.pGoal ∧ (q.cells c).rhs = arcOf (p2.cells u).g_cost spec.baseCost ∧
      (q.cells c).rhs < (p2.cells c).rhs
  incons : ∀ c, c < N → ((q.cells c).heapIndex ≠ 0 ↔ (q.cells c).g_cost ≠ (q.cells c).rhs)
  keys : ∀ c, c < N → (q.cells c).heapIndex ≠ 0 →
    (q.cells c).key = calculateKey (q.cells c) (q.cells q.pStart) q.k_m

/-- The neighbour of `spec` has been dealt with: its `rhs` is not above its cost over
the popped cell, unless it is blocked or the goal. -/
def Dealt (p2 : Planner) (u : Nat) (spec : NeighborSpec) (q : Planner) : Prop :=
  (p2.cells (neighborOf u spec)).blocked = false → neighborOf u spec ≠ p2.pGoal →
    (q.cells (neighborOf u spec)).rhs ≤ arcOf (p2.cells u).g_cost spec.baseCost

theorem dlite_lowered_rhs_le {N : Nat} {p2 q : Planner} {u : Nat} (h : Lowered N p2 u q) (c : Nat) :
    (q.cells c).rhs ≤ (p2.cells c).rhs := by
  rcases h.rhs c with e | ⟨_, _, _, _, _, _, e⟩
  · rw [e]
  · omega

/-- One round of the loop over the neighbours of the popped cell. -/
theorem dlite_lowerStep_lowered {N : Nat} {p2 q : Planner} {u : Nat} (h : Lowered N p2 u q)
    (spec : NeighborSpec) (hs : spec ∈ p2.neighborsOf u) (hn : neighborOf u spec < N) :
    Lowered N p2 u (lowerStep u q spec) ∧ Dealt p2 u spec (lowerStep u q spec) ∧
      ∀ c, ((lowerStep u q spec).cells c).rhs ≤ (q.cells c).rhs := by
  have hgoal : q.pGoal = p2.pGoal := h.frame.2.2.2.2.1
  have hgu : (q.cells u).g_cost = (p2.cells u).g_cost := h.g u
  by_cases hc : (q.cells (neighborOf u spec)).blocked = true ∨ neighborOf u spec = q.pGoal
  · have e : lowerStep u q spec = q := by
      unfold lowerStep
      simp only
      rw [if_pos hc]
    rw [e]
    refine ⟨h, ?_, fun c => le_refl _⟩
    intro hb hg
    exfalso
    rcases hc with q1 | q1
    · rw [h.blocked, hb] at q1
      cases q1
    · exact hg (q1.trans hgoal)
  · by_cases hr : (q.cells (neighborOf u spec)).rhs > arcOf (q.cells u).g_cost spec.baseCost
    · have e : lowerStep u q spec =
          updateVertex (setRhs q (neighborOf u spec) (arcOf (q.cells u).g_cost spec.baseCost))
            (neighborOf u spec) := by
        unfold lowerStep
        simp only
        rw [if_neg hc]
        exact if_pos hr
      generalize hq1 : setRhs q (neighborOf u spec) (arcOf (q.cells u).g_cost spec.baseCost) = q1
        at e
      have c1 : q1.cells = upd q.cells (neighborOf u spec)
          (withRhs (q.cells (neighborOf u spec)) (arcOf (q.cells u).g_cost spec.baseCost)) := by
        rw [← hq1]
        rfl
      have cn : q1.cells (neighborOf u spec) =
          withRhs (q.cells (neighborOf u spec)) (arcOf (q.cells u).g_cost spec.baseCost) := by
        rw [c1, upd_same]
      have co : ∀ d, d ≠ neighborOf u spec → q1.cells d = q.cells d := fun d hd => by
        rw [c1, upd_other _ _ _ _ hd]
      have f1 : q1.width = q.width ∧ q1.height = q.height ∧ q1.pGoal = q.pGoal ∧
          q1.pStart = q.pStart ∧ q1.pRobot = q.pRobot ∧ q1.k_m = q.k_m ∧
          q1.neighborhoods = q.neighborhoods ∧ q1.openHeap = q.openHeap ∧
          q1.openListLength = q.openListLength := by
        rw [← hq1]
        exact ⟨rfl, rfl, rfl, rfl, rfl, rfl, rfl, rfl, rfl⟩
      obtain ⟨w1, w2, w3, w4, w5, w6, w7, w8, w9⟩ := f1
      have hall : ∀ d, (q1.cells d).x = (q.cells d).x ∧ (q1.cells d).y = (q.cells d).y ∧
          (q1.cells d).neighborhoodIndex = (q.cells d).neighborhoodIndex ∧
          (q1.cells d).blocked = (q.cells d).blocked ∧ (q1.cells d).g_cost = (q.cells d).g_cost ∧
          (q1.cells d).heapIndex = (q.cells d).heapIndex ∧ (q1.cells d).key = (q.cells d).key := by
        intro d
        by_cases hd : d = neighborOf u spec
        · rw [hd, cn]
          exact ⟨rfl, rfl, rfl, rfl, rfl, rfl, rfl⟩
        · rw [co d hd]
          exact ⟨rfl, rfl, rfl, rfl, rfl, rfl, rfl⟩
      have hh1 : HeapInv N q1 := dlite_heapInv_congr h.heap w8 w9 (fun d => ⟨(hall d).2.2.2.2.2.1,
        (hall d).2.2.2.2.2.2⟩)
      obtain ⟨s1, s2, s3, s4, s5⟩ := dlite_updateVertex_spec hh1 (neighborOf u spec) hn
      rw [e]
      generalize updateVertex q1 (neighborOf u spec) = q2 at s1 s2 s3 s4 s5
      have hrhs : ∀ d, (q2.cells d).rhs =
          if d = neighborOf u spec then arcOf (q.cells u).g_cost spec.baseCost
          else (q.cells d).rhs := by
        intro d
        rw [dlite_vals_rhs (s1.vals d)]
        by_cases hd : d = neighborOf u spec
        · rw [if_pos hd, hd, cn]
          rfl
        · rw [if_neg hd, co d hd]
      have hg2 : ∀ d, (q2.cells d).g_cost = (q.cells d).g_cost := fun d => by
        rw [dlite_vals_g (s1.vals d), (hall d).2.2.2.2.1]
      have hb2 : ∀ d, (q2.cells d).blocked = (q.cells d).blocked := fun d => by
        rw [dlite_vals_blocked (s1.vals d), (hall d).2.2.2.1]
      have hx2 : ∀ d, (q2.cells d).x = (q.cells d).x ∧ (q2.cells d).y = (q.cells d).y ∧
          (q2.cells d).neighborhoodIndex = (q.cells d).neighborhoodIndex := fun d => by
        rw [dlite_vals_x (s1.vals d), dlite_vals_y (s1.vals d), dlite_vals_ni (s1.vals d)]
        exact ⟨(hall d).1, (hall d).2.1, (hall d).2.2.1⟩
      have hfr : Frame q q2 :=
        ⟨s1.width.trans w1, s1.height.trans w2, s1.neighborhoods.trans w7, s1.pStart.trans w4,
          s1.pGoal.trans w3, hx2⟩
      have hbn : (p2.cells (neighborOf u spec)).blocked = false := by
        rw [← h.blocked]
        cases hq : (q.cells (neighborOf u spec)).blocked
        · rfl
        · exact absurd (Or.inl hq) hc
      have hng : neighborOf u spec ≠ p2.pGoal := fun q1 => hc (Or.inr (q1.trans hgoal.symm))
      refine ⟨⟨dlite_frame_trans h.frame hfr, (s1.k_m.trans w6).trans h.km, s2,
        fun c => (hg2 c).trans (h.g c), fun c => (hb2 c).trans (h.blocked c), ?_, ?_, ?_⟩, ?_, ?_⟩
      · intro c
        rw [hrhs c]
        by_cases hd : c = neighborOf u spec
        · rw [if_pos hd]
          right
          have hle := dlite_lowered_rhs_le h (neighborOf u spec)
          refine ⟨spec, hs, hd.symm, by rw [hd]; exact hbn, by rw [hd]; exact hng,
            by rw [hgu], ?_⟩
          rw [hd]
          omega
        · rw [if_neg hd]
          exact h.rhs c
      · intro c hcN
        rw [s3 c, hg2 c, hrhs c]
        by_cases hd : c = neighborOf u spec
        · rw [if_pos hd, if_pos hd, cn, hd]
          exact Iff.rfl
        · rw [if_neg hd, if_neg hd, (hall c).2.2.2.2.2.1]
          exact h.incons c hcN
      · intro c hcN hm
        have hst : (q2.cells q2.pStart).x = (q.cells q.pStart).x ∧
            (q2.cells q2.pStart).y = (q.cells q.pStart).y := by
          rw [hfr.2.2.2.1]
          exact ⟨(hx2 _).1, (hx2 _).2.1⟩
        by_cases hd : c = neighborOf u spec
        · have hne := (s3 c).1 hm
          rw [if_pos hd] at hne
          rw [hd, s5 hne, s1.pStart, s1.k_m]
          exact dlite_calculateKey_congr _ _ _ _ _ (dlite_vals_g (s1.vals _)).symm
            (dlite_vals_rhs (s1.vals _)).symm (dlite_vals_x (s1.vals _)).symm
            (dlite_vals_y (s1.vals _)).symm (dlite_vals_x (s1.vals _)).symm
            (dlite_vals_y (s1.vals _)).symm
        · have hm' := (s3 c).1 hm
          rw [if_neg hd, (hall c).2.2.2.2.2.1] at hm'
          rw [s4 c hd, (hall c).2.2.2.2.2.2, h.keys c hcN hm', s1.k_m.trans w6]
          refine dlite_calculateKey_congr _ _ _ _ _ (hg2 c).symm ?_ (hx2 c).1.symm
            (hx2 c).2.1.symm hst.1.symm hst.2.symm
          rw [hrhs c, if_neg hd]
      · intro _ _
        rw [hrhs, if_pos rfl, hgu]
      · intro c
        rw [hrhs c]
        by_cases hd : c = neighborOf u spec
        · rw [if_pos hd, hd]
          omega
        · rw [if_neg hd]
    · have e : lowerStep u q spec = q := by
        unfold lowerStep
        simp only
        rw [if_neg hc]
        exact if_neg hr
      rw [e]
      refine ⟨h, ?_, fun c => le_refl _⟩
      intro _ _
      rw [← hgu]
      omega

end DStarLite

end RasterSim

namespace RasterSim

/-! ## D* Lite: the rounds of `computeShortestPath` keep the invariant of a run from scratch -/

namespace DStarLite

/-- The state after lines 266-267 for the popped cell `u`. -/
structure Settled (N : Nat) (p : Planner) (u : Nat) (p2 : Planner) : Prop where
  frame : Frame p p2
  km : p2.k_m = p.k_m
  heap : HeapInv N p2
  g : ∀ c, (p2.cells c).g_cost = if c = u then (p.cells u).rhs else (p.cells c).g_cost
  rhs : ∀ c, (p2.cells c).rhs = (p.cells c).rhs
  blocked : ∀ c, (p2.cells c).blocked = (p.cells c).blocked
  index : ∀ c, (p2.cells c).heapIndex ≠ 0 ↔ (c ≠ u ∧ (p.cells c).heapIndex ≠ 0)
  key : ∀ c, (p2.cells c).key = (p.cells c).key

theorem dlite_settle_settled {N : Nat} {p : Planner} (h : HeapInv N p) (u : Nat) (hu : u < N) :
    Settled N p u (settle p u) := by
  have c1 : (setG p u (p.cells u).rhs).cells = upd p.cells u (withG (p.cells u) (p.cells u).rhs) :=
    rfl
  have hall : ∀ d, ((setG p u (p.cells u).rhs).cells d).x = (p.cells d).x ∧
      ((setG p u (p.cells u).rhs).cells d).y = (p.cells d).y ∧
      ((setG p u (p.cells u).rhs).cells d).neighborhoodIndex = (p.cells d).neighborhoodIndex ∧
      ((setG p u (p.cells u).rhs).cells d).blocked = (p.cells d).blocked ∧
      ((setG p u (p.cells u).rhs).cells d).rhs = (p.cells d).rhs ∧
      ((setG p u (p.cells u).rhs).cells d).heapIndex = (p.cells d).heapIndex ∧
      ((setG p u (p.cells u).rhs).cells d).key = (p.cells d).key ∧
      ((setG p u (p.cells u).rhs).cells d).g_cost =
        if d = u then (p.cells u).rhs else (p.cells d).g_cost := by
    intro d
    rw [c1]
    by_cases hd : d = u
    · rw [hd, upd_same, if_pos rfl]
      exact ⟨rfl, rfl, rfl, rfl, rfl, rfl, rfl, rfl⟩
    · rw [upd_other _ _ _ _ hd, if_neg hd]
      exact ⟨rfl, rfl, rfl, rfl, rfl, rfl, rfl, rfl⟩
  have hh1 : HeapInv N (setG p u (p.cells u).rhs) :=
    dlite_heapInv_congr h rfl rfl (fun d => ⟨(hall d).2.2.2.2.2.1, (hall d).2.2.2.2.2.2.1⟩)
  obtain ⟨s1, s2, s3⟩ := dlite_remove_spec hh1 u hu
  have e : settle p u = remove (setG p u (p.cells u).rhs) u := rfl
  rw [e]
  generalize remove (setG p u (p.cells u).rhs) u = p2 at s1 s2 s3
  refine ⟨⟨s1.width, s1.height, s1.neighborhoods, s1.pStart, s1.pGoal, fun d => ?_⟩, s1.k_m, s2,
    fun d => ?_, fun d => ?_, fun d => ?_, fun d => ?_, fun d => ?_⟩
  · rw [dlite_core_x (s1.core d), dlite_core_y (s1.core d), dlite_core_ni (s1.core d)]
    exact ⟨(hall d).1, (hall d).2.1, (hall d).2.2.1⟩
  · rw [dlite_core_g (s1.core d)]
    exact (hall d).2.2.2.2.2.2.2
  · rw [dlite_core_rhs (s1.core d)]
    exact (hall d).2.2.2.2.1
  · rw [dlite_core_blocked (s1.core d)]
    exact (hall d).2.2.2.1
  · rw [s3 d, (hall d).2.2.2.2.2.1]
  · rw [dlite_core_key (s1.core d)]
    exact (hall d).2.2.2.2.2.2.1

/-- In a run from scratch the cell at the head of the open list is overconsistent, and
the round of `computeShortestPath` lowers it. -/
theorem dlite_popStep_lower {m : GridMap} {p : Planner} (hS : Scratch m p)
    (hl : p.openListLength ≠ 0) :
    p.openHeap 1 < m.width * m.height ∧
    (p.cells (p.openHeap 1)).rhs < (p.cells (p.openHeap 1)).g_cost ∧
    (p.cells (p.openHeap 1)).blocked = false ∧
    popStep p = ((settle p (p.openHeap 1)).neighborsOf (p.openHeap 1)).foldl
      (lowerStep (p.openHeap 1)) (settle p (p.openHeap 1)) := by
  obtain ⟨a1, a2, a3⟩ := hS.heap.1.1 1 (le_refl 1) (by omega)
  have hm : (p.cells (p.openHeap 1)).heapIndex ≠ 0 := a2.2
  have hne := (hS.incons _ a1).1 hm
  have hle := hS.le _ a1
  have hlt : (p.cells (p.openHeap 1)).rhs < (p.cells (p.openHeap 1)).g_cost := by omega
  have hmax := hS.gmax _ a1
  obtain ⟨l, hl1, _⟩ := hS.real _ a1 (by omega)
  have hfree : (p.cells (p.openHeap 1)).blocked = false := by
    rw [dlite_static_free hS.static _ a1]
    obtain ⟨q1, _, _, q4⟩ := hl1
    cases l with
    | nil => simp at q1
    | cons x l' =>
      have e : x = posOf m.width (p.openHeap 1) := by simpa using q1
      rw [← e]
      exact q4 x (List.mem_cons_self _ _)
  refine ⟨a1, hlt, hfree, ?_⟩
  have hk : Key.lt (p.cells (p.openHeap 1)).key
      (calculateKey (p.cells (p.openHeap 1)) (p.cells p.pStart) p.k_m) = false := by
    rw [← hS.keys _ a1 hm]
    exact dlite_key_irrefl _
  have hb2 := (dlite_settle_settled hS.heap _ a1).blocked (p.openHeap 1)
  unfold popStep
  simp only
  rw [hk]
  simp only [Bool.false_eq_true, if_false]
  rw [if_pos hlt, dlite_lowerCell_eq, hb2, hfree]
  rfl

/-- A round of `computeShortestPath` keeps the invariant of a run from scratch, and it
lowers the `g` of the cell it pops. -/
theorem dlite_popStep_scratch {m : GridMap} {p : Planner} (hS : Scratch m p)
    (hl : p.openListLength ≠ 0) :
    Scratch m (popStep p) ∧
      potential (m.width * m.height) (popStep p) < potential (m.width * m.height) p := by
  obtain ⟨hu, hlt, hfree, hpop⟩ := dlite_popStep_lower hS hl
  have hset := dlite_settle_settled hS.heap _ hu
  rw [hpop]
  generalize hudef : p.openHeap 1 = u at hu hlt hfree hset
  generalize hp2 : settle p u = p2 at hset
  have hst2 : Static m p2 := dlite_static_of_frame hS.static hset.frame hset.blocked
  have hgu2 : (p2.cells u).g_cost = (p.cells u).rhs := by
    rw [hset.g, if_pos rfl]
  have hgmax := hS.gmax u hu
  have hstart2 : (p2.cells p2.pStart).x = (p.cells p.pStart).x ∧
      (p2.cells p2.pStart).y = (p.cells p.pStart).y := by
    rw [hset.frame.2.2.2.1]
    exact ⟨(hset.frame.2.2.2.2.2 _).1, (hset.frame.2.2.2.2.2 _).2.1⟩
  have hlow0 : Lowered (m.width * m.height) p2 u p2 := by
    refine ⟨dlite_frame_refl _, rfl, hset.heap, fun _ => rfl, fun _ => rfl, fun _ => Or.inl rfl,
      fun c hc => ?_, fun c hc hm => ?_⟩
    · rw [hset.index, hset.g, hset.rhs]
      by_cases hd : c = u
      · rw [if_pos hd, hd]
        exact ⟨fun q => absurd rfl q.1, fun q => absurd rfl q⟩
      · rw [if_neg hd, hS.incons c hc]
        exact ⟨fun q => q.2, fun q => ⟨hd, q⟩⟩
    · have hm' := (hset.index c).1 hm
      rw [hset.key, hS.keys c hc hm'.2, hset.km]
      refine dlite_calculateKey_congr _ _ _ _ _ ?_ (hset.rhs c).symm
        (hset.frame.2.2.2.2.2 c).1.symm (hset.frame.2.2.2.2.2 c).2.1.symm hstart2.1.symm
        hstart2.2.symm
      rw [hset.g, if_neg hm'.1]
  obtain ⟨hlow, hdealt⟩ := foldl_keeps_establish (Lowered (m.width * m.height) p2 u)
    (fun spec q => Dealt p2 u spec q) (lowerStep u) (p2.neighborsOf u) p2
    (fun b a ha hb => by
      have hn := (dlite_static_neighbor hst2 u hu a ha).1
      obtain ⟨r1, r2, _⟩ := dlite_lowerStep_lowered hb a ha hn
      exact ⟨r1, r2⟩)
    (fun b a a' ha hb hq => by
      have hn := (dlite_static_neighbor hst2 u hu a ha).1
      obtain ⟨_, _, r3⟩ := dlite_lowerStep_lowered hb a ha hn
      intro q1 q2
      exact le_trans (r3 _) (hq q1 q2))
    hlow0
  generalize (p2.neighborsOf u).foldl (lowerStep u) p2 = q at hlow hdealt
  -- the fields of the final state in terms of the state before the round
  have hfr : Frame p q := dlite_frame_trans hset.frame hlow.frame
  have hg : ∀ c, (q.cells c).g_cost = if c = u then (p.cells u).rhs else (p.cells c).g_cost :=
    fun c => (hlow.g c).trans (hset.g c)
  have hb : ∀ c, (q.cells c).blocked = (p.cells c).blocked :=
    fun c => (hlow.blocked c).trans (hset.blocked c)
  have hstq : Static m q := dlite_static_of_frame hS.static hfr hb
  have hgoal : q.pGoal = p.pGoal := hfr.2.2.2.2.1
  have hnb : ∀ c, q.neighborsOf c = p.neighborsOf c := by
    intro c
    unfold Planner.neighborsOf
    rw [hfr.2.2.1, (hfr.2.2.2.2.2 c).2.2]
  have hnb2 : p2.neighborsOf u = p.neighborsOf u := by
    unfold Planner.neighborsOf
    rw [hset.frame.2.2.1, (hset.frame.2.2.2.2.2 u).2.2]
  have hrle : ∀ c, (q.cells c).rhs ≤ (p.cells c).rhs := fun c => by
    rw [← hset.rhs c]
    exact dlite_lowered_rhs_le hlow c
  have hrhs : ∀ c, (q.cells c).rhs = (p.cells c).rhs ∨
      ∃ spec, spec ∈ p.neighborsOf u ∧ neighborOf u spec = c ∧ (p.cells c).blocked = false ∧
        c ≠ p.pGoal ∧ (q.cells c).rhs = (p.cells u).rhs + spec.baseCost ∧
        (q.cells c).rhs < (p.cells c).rhs := by
    intro c
    rcases hlow.rhs c with e | ⟨spec, q1, q2, q3, q4, q5, q6⟩
    · exact Or.inl (e.trans (hset.rhs c))
    · right
      rw [hnb2] at q1
      rw [hset.blocked] at q3
      rw [hset.frame.2.2.2.2.1] at q4
      rw [hset.rhs] at q6
      refine ⟨spec, q1, q2, q3, q4, ?_, q6⟩
      rw [q5, hgu2]
      exact dlite_arcOf_lt _ _ (by omega) (dlite_static_neighbor hS.static u hu spec q1).2.2.2.2.2
  have hdl : ∀ spec, spec ∈ p.neighborsOf u → (p.cells (neighborOf u spec)).blocked = false →
      neighborOf u spec ≠ p.pGoal →
      (q.cells (neighborOf u spec)).rhs ≤ (p.cells u).rhs + spec.baseCost := by
    intro spec hs q1 q2
    have := hdealt spec (by rw [hnb2]; exact hs) (by rw [hset.blocked]; exact q1)
      (by rw [hset.frame.2.2.2.2.1]; exact q2)
    rw [hgu2, dlite_arcOf_lt _ _ (by omega)
      (dlite_static_neighbor hS.static u hu spec hs).2.2.2.2.2] at this
    exact this
  refine ⟨⟨hstq, hlow.heap, by rw [hgoal]; exact hS.goal, by rw [hgoal, hb]; exact hS.goalFree, ?_,
    by rw [hfr.2.2.2.1]; exact hS.start, (hlow.km.trans hset.km).trans hS.km, ?_, ?_, hlow.incons,
    hlow.keys, ?_, ?_⟩, ?_⟩
  · rw [hgoal]
    rcases hrhs p.pGoal with e | ⟨_, _, _, _, q4, _, _⟩
    · rw [e]; exact hS.goalRhs
    · exact absurd rfl q4
  · intro c hc
    rw [hg c]
    have := hrle c
    by_cases hd : c = u
    · rw [if_pos hd]
      rw [hd] at this ⊢
      exact this
    · rw [if_neg hd]
      exact le_trans this (hS.le c hc)
  · intro c hc
    rw [hg c]
    by_cases hd : c = u
    · rw [if_pos hd]
      omega
    · rw [if_neg hd]
      exact hS.gmax c hc
  · intro c hc hfin
    rw [hgoal]
    rcases hrhs c with e | ⟨spec, q1, q2, q3, q4, q5, q6⟩
    · rw [e] at hfin ⊢
      exact hS.real c hc hfin
    · obtain ⟨l, hl1, hl2⟩ := hS.real u hu (by omega)
      obtain ⟨n1, _, n3, n4, _⟩ := dlite_static_neighbor hS.static u hu spec q1
      rw [q2] at n3 n4
      have hfc := (dlite_static_free hS.static c hc).1 q3
      obtain ⟨r1, r2⟩ := freePath_cons m _ _ _ l hl1 (adjacent_symm n3) hfc
      refine ⟨_, r1, ?_⟩
      rw [r2, hl2, q5, n4, stepCost_symm]
      omega
  · intro c hc hbc hcg
    rw [hb] at hbc
    rw [hgoal] at hcg
    have hbel := hS.bellman c hc hbc hcg
    obtain ⟨k1, k2, k3⟩ := dlite_minNeighborCost_spec q c
    obtain ⟨o1, o2, o3⟩ := dlite_minNeighborCost_spec p c
    rw [hnb c] at k2 k3
    apply le_antisymm
    · rcases k3 with e | ⟨spec, e1, e2, e3, e4⟩
      · rw [e]
        exact le_trans (hrle c) (le_trans (hS.le c hc) (hS.gmax c hc))
      · rw [e3]
        rw [hb] at e2
        by_cases hn : neighborOf c spec = u
        · obtain ⟨spec2, t1, t2, t3⟩ := dlite_static_symm hS.static c hc spec e1
          rw [hn] at t1 t2
          have := hdl spec2 t1 (by rw [t2]; exact hbc) (by rw [t2]; exact hcg)
          rw [t2, t3] at this
          rw [hn, hg u, if_pos rfl, dlite_arcOf_lt _ _ (by omega)
            (dlite_static_neighbor hS.static c hc spec e1).2.2.2.2.2]
          exact this
        · rw [hg, if_neg hn]
          have := o2 spec e1 e2
          rw [← hbel] at this
          exact le_trans (hrle c) this
    · rcases hrhs c with e | ⟨spec, q1, q2, q3, q4, q5, q6⟩
      · rw [e, hbel]
        rcases o3 with e0 | ⟨spec, e1, e2, e3, e4⟩
        · rw [e0]
          exact k1
        · have hk := k2 spec e1 (by rw [hb]; exact e2)
          rw [e3]
          refine le_trans hk ?_
          by_cases hn : neighborOf c spec = u
          · rw [hg, if_pos hn]
            rw [hn] at e4 ⊢
            have hgf : (p.cells u).g_cost < OBSTACLE_COST := by
              by_contra hge
              rw [dlite_arcOf_ge _ _ hge] at e4
              exact hge e4
            have hc7 := (dlite_static_neighbor hS.static c hc spec e1).2.2.2.2.2
            rw [dlite_arcOf_lt _ _ (by omega) hc7, dlite_arcOf_lt _ _ hgf hc7]
            omega
          · rw [hg, if_neg hn]
      · obtain ⟨spec2, t1, t2, t3⟩ := dlite_static_symm hS.static u hu spec q1
        rw [q2] at t1 t2
        have hk := k2 spec2 t1 (by rw [hb, t2]; exact hfree)
        rw [t2, hg, if_pos rfl, dlite_arcOf_lt _ _ (by omega)
          (by rw [t3]; exact (dlite_static_neighbor hS.static u hu spec q1).2.2.2.2.2), t3] at hk
        rw [q5]
        exact hk
  · unfold potential
    have := sumBelow_lt (fun c => (q.cells c).g_cost) (fun c => (p.cells c).g_cost) u 1
      (m.width * m.height) (fun c hc => by
        show (q.cells c).g_cost ≤ (p.cells c).g_cost
        rw [hg c]
        by_cases hd : c = u
        · rw [if_pos hd, hd]
          omega
        · rw [if_neg hd]) hu (by
        show (q.cells u).g_cost + 1 ≤ (p.cells u).g_cost
        rw [hg u, if_pos rfl]
        omega)
    omega

end DStarLite

end RasterSim

namespace RasterSim

/-! ## D* Lite: a run from scratch ends -/

namespace DStarLite

theorem dlite_resetState_cells (p : Planner) (d : Nat) (hd : d < p.width * p.height) :
    ((resetState p).cells d).g_cost = OBSTACLE_COST ∧
    ((resetState p).cells d).rhs = (if d = p.pGoal then 0 else OBSTACLE_COST) := by
  simp only [resetState, upd_apply]
  split_ifs <;> simp_all

theorem dlite_resetState_blocked (p : Planner) (d : Nat) :
    ((resetState p).cells d).blocked = (p.cells d).blocked := by
  simp only [resetState, upd_apply]
  split_ifs <;> simp_all

theorem dlite_resetState_key (p : Planner) :
    ((resetState p).cells p.pGoal).key =
      calculateKey ((resetState p).cells p.pGoal) ((resetState p).cells p.pStart) 0 := by
  simp only [resetState, upd_apply, if_true]
  unfold calculateKey h_cost
  split_ifs <;> simp_all

theorem dlite_static_ends {m : GridMap} {p : Planner} (h : Static m p) (s g : Nat) :
    Static m { p with pStart := s, pGoal := g } :=
  ⟨⟨h.alg.width, h.alg.height, h.alg.fits, h.alg.table, h.alg.coords, h.alg.xMin, h.alg.xMax,
    h.alg.yMin, h.alg.yMax⟩, h.flags, h.blocked⟩

/-- The re-initialisation of lines 398-413 starts a run from scratch. -/
theorem dlite_resetState_scratch {m : GridMap} {p : Planner} (hst : Static m p)
    (hg : p.pGoal < m.width * m.height) (hs : p.pStart < m.width * m.height)
    (hgf : (p.cells p.pGoal).blocked = false) :
    Scratch m (resetState p) ∧
      potential (m.width * m.height) (resetState p) ≤ m.width * m.height * OBSTACLE_COST := by
  have hN : p.width * p.height = m.width * m.height := by
    rw [hst.alg.width, hst.alg.height]
  have hst' : Static m (resetState p) :=
    dlite_static_of_frame hst (dlite_resetState_frame p) (dlite_resetState_blocked p)
  have hgoal : (resetState p).pGoal = p.pGoal := rfl
  have hstart : (resetState p).pStart = p.pStart := rfl
  have hkm : (resetState p).k_m = 0 := rfl
  have hcell : ∀ d, d < m.width * m.height →
      ((resetState p).cells d).g_cost = OBSTACLE_COST ∧
      ((resetState p).cells d).rhs = (if d = p.pGoal then 0 else OBSTACLE_COST) :=
    fun d hd => dlite_resetState_cells p d (by rw [hN]; exact hd)
  have hidx : ∀ d, d < m.width * m.height →
      ((resetState p).cells d).heapIndex = if d = p.pGoal then 1 else 0 :=
    fun d hd => dlite_resetState_index p d (by rw [hN]; exact hd)
  have hheap : HeapInv (m.width * m.height) (resetState p) := by
    rw [← hN]
    exact dlite_resetState_heapInv p (by rw [hN]; exact hg)
  refine ⟨⟨hst', hheap, hg, ?_, ?_, hs, hkm, ?_, ?_, ?_, ?_, ?_, ?_⟩, ?_⟩
  · rw [hgoal, dlite_resetState_blocked]
    exact hgf
  · rw [hgoal, (hcell _ hg).2, if_pos rfl]
  · intro c hc
    rw [(hcell c hc).1, (hcell c hc).2]
    unfold OBSTACLE_COST
    split_ifs <;> omega
  · intro c hc
    rw [(hcell c hc).1]
  · intro c hc
    rw [(hcell c hc).1, (hcell c hc).2, hidx c hc]
    unfold OBSTACLE_COST
    split_ifs <;> simp
  · intro c hc hm
    rw [hidx c hc] at hm
    have hcg : c = p.pGoal := by
      by_contra hne
      rw [if_neg hne] at hm
      exact hm rfl
    rw [hcg, hstart, hkm]
    exact dlite_resetState_key p
  · intro c hc hfin
    rw [(hcell c hc).2] at hfin ⊢
    have hcg : c = p.pGoal := by
      by_contra hne
      rw [if_neg hne] at hfin
      omega
    rw [if_pos hcg, hgoal, hcg]
    refine ⟨[posOf m.width p.pGoal], ⟨rfl, rfl, trivial, fun q hq => ?_⟩, rfl⟩
    have e : q = posOf m.width p.pGoal := by simpa using hq
    rw [e]
    exact (dlite_static_free hst _ hg).1 hgf
  · intro c hc hbc hcg
    have hcg' : c ≠ p.pGoal := hcg
    rw [(hcell c hc).2, if_neg hcg']
    obtain ⟨_, _, k3⟩ := dlite_minNeighborCost_spec (resetState p) c
    rcases k3 with e | ⟨spec, e1, e2, e3, e4⟩
    · exact e.symm
    · exfalso
      have hn := (dlite_static_neighbor hst' c hc spec e1).1
      rw [(hcell _ hn).1, dlite_arcOf_ge _ _ (by omega)] at e4
      omega
  · unfold potential
    exact sumBelow_bound _ _ _ (fun c hc => le_of_eq (hcell c hc).1)

/-- With fuel above the sum of the `g_cost` of the cells, the loop of
`computeShortestPath` without a step budget ends in a run from scratch, with the flag
`complete`, in a state in which the open list is empty or the test of line 252
fails. -/
theorem dlite_loop_ends {m : GridMap} : ∀ (fuel : Nat) (p : Planner) (step : Nat),
    Scratch m p → potential (m.width * m.height) p < fuel →
    ∃ p', shortestPathLoop 0 fuel p step = some (p', true) ∧ Scratch m p' ∧ ¬ wantsStep p'
  | 0, _, _, _, hf => by omega
  | fuel + 1, p, step, hS, hf => by
    simp only [shortestPathLoop]
    by_cases h1 : p.openListLength ≠ 0
    · rw [if_pos h1]
      by_cases h2 : keepGoing p = true
      · have h3 : ¬ ((0 : Nat) ≠ 0 ∧ step + 1 > 0) := fun h => h.1 rfl
        simp only [h2, Bool.not_true, Bool.false_eq_true, if_false, if_neg h3]
        obtain ⟨q1, q2⟩ := dlite_popStep_scratch hS h1
        exact dlite_loop_ends fuel (popStep p) (step + 1) q1 (by omega)
      · have hw : ¬ wantsStep p := fun h => h2 h.2
        simp only [Bool.not_eq_true] at h2
        simp only [h2, Bool.not_false, if_true]
        exact ⟨p, rfl, hS, hw⟩
    · have hw : ¬ wantsStep p := fun h => h1 h.1
      rw [if_neg h1]
      exact ⟨p, rfl, hS, hw⟩

/-- Planning from scratch on a state that holds the map, with free start and goal, no
step budget and enough fuel: `doCalculatePath` ends with the path extraction from a
state in which the invariant of the run holds and the loop has come to its end. -/
theorem dlite_doCalculatePath_scratch {m : GridMap} {p : Planner} (hst : Static m p)
    (start goal : Pos) (updates fuel : Nat) (hs : FreeCell m start) (hg : FreeCell m goal)
    (hu : needsReset updates = true) (hf : m.width * m.height * OBSTACLE_COST < fuel) :
    ∃ p', doCalculatePath fuel p updates start goal 0 = some (doDebugAndPathExtract p' true) ∧
      Scratch m p' ∧ ¬ wantsStep p' ∧ p'.pStart = start.2 * m.width + start.1 ∧
      p'.pGoal = goal.2 * m.width + goal.1 := by
  obtain ⟨pw, ph, cells, pG, pS, pR, km, nb, oh, ol⟩ := p
  have hw : pw = m.width := hst.alg.width
  subst hw
  have hsN := index_lt m.width m.height start.1 start.2 hs.1 hs.2.1
  have hgN := index_lt m.width m.height goal.1 goal.2 hg.1 hg.2.1
  have hps : posOf m.width (start.2 * m.width + start.1) = start := posOf_index _ _ _ hs.1
  have hpg : posOf m.width (goal.2 * m.width + goal.1) = goal := posOf_index _ _ _ hg.1
  have hsb := (dlite_static_free hst _ hsN).2 (by rw [hps]; exact hs)
  have hgb := (dlite_static_free hst _ hgN).2 (by rw [hpg]; exact hg)
  simp only at hsb hgb
  have hst1 := dlite_static_ends hst (start.2 * m.width + start.1) (goal.2 * m.width + goal.1)
  obtain ⟨hS, hpot⟩ := dlite_resetState_scratch hst1 hgN hsN hgb
  obtain ⟨p', hp', hS', hw'⟩ := dlite_loop_ends fuel _ 0 hS (by omega)
  have hfr := dlite_shortestPathLoop_frame 0 fuel _ _ _ _ hp'
  refine ⟨p', ?_, hS', hw', hfr.2.2.2.1, hfr.2.2.2.2.1⟩
  have e : ∀ q : Planner, (resetState q).pRobot = (resetState q).pStart := fun _ => rfl
  unfold doCalculatePath
  simp only [hsb, hgb, hu, if_true, Bool.false_eq_true, if_false]
  rw [if_neg (fun h => h (e _))]
  unfold computeShortestPath
  rw [hp']

end DStarLite

end RasterSim

namespace RasterSim

/-! ## D* Lite: what `rhs` of the start holds when the loop has ended -/

namespace DStarLite

theorem dlite_h_cost_eq {m : GridMap} {p : Planner} (hS : Static m p) (c d : Nat)
    (hc : c < m.width * m.height) (hd : d < m.width * m.height) :
    h_cost (p.cells c) (p.cells d) = heuristic (posOf m.width c) (posOf m.width d) := by
  obtain ⟨c1, c2⟩ := hS.alg.coords c hc
  obtain ⟨d1, d2⟩ := hS.alg.coords d hd
  simp only at c1 c2 d1 d2
  unfold heuristic h_cost posOf
  simp only
  rw [c1, c2, d1, d2]

theorem dlite_scratch_key {m : GridMap} {p : Planner} (hS : Scratch m p) (d : Nat)
    (hd : d < m.width * m.height) (hm : (p.cells d).heapIndex ≠ 0) :
    (p.cells d).key =
      { k1 := uadd (uadd (p.cells d).rhs
          (heuristic (posOf m.width d) (posOf m.width p.pStart))) 0,
        k2 := (p.cells d).rhs } := by
  rw [hS.keys d hd hm, hS.km]
  unfold calculateKey
  simp only
  rw [dlite_h_cost_eq hS.static d p.pStart hd hS.start, if_neg (by have := hS.le d hd; omega)]

/-- For a chain of free cells from a cell to the goal, of a cost below the obstacle
cost: the `g` of the cell is not above the cost of the chain, or the open list holds a
cell whose `rhs` plus its heuristic distance from the cell is not above it. -/
theorem dlite_chain_bound {m : GridMap} {p : Planner} (hS : Scratch m p) :
    ∀ (l : List Pos) (a : Pos), FreePath m a (posOf m.width p.pGoal) l →
      pathCost 5 7 l < OBSTACLE_COST →
      (p.cells (a.2 * m.width + a.1)).g_cost ≤ pathCost 5 7 l ∨
      ∃ d, d < m.width * m.height ∧ (p.cells d).heapIndex ≠ 0 ∧
        (p.cells d).rhs + heuristic (posOf m.width d) a ≤ pathCost 5 7 l
  | [], a, h, _ => by
    have := h.1
    simp at this
  | [x], a, h, _ => by
    obtain ⟨h1, h2, _, _⟩ := h
    have e1 : x = a := by simpa using h1
    have e2 : x = posOf m.width p.pGoal := by simpa using h2
    have ea : a = posOf m.width p.pGoal := e1.symm.trans e2
    have hidx : a.2 * m.width + a.1 = p.pGoal := by
      rw [ea]
      exact posOf_div_mod _ _
    rw [hidx]
    by_cases hc : (p.cells p.pGoal).g_cost = (p.cells p.pGoal).rhs
    · left
      rw [hc, hS.goalRhs]
      exact Nat.zero_le _
    · right
      refine ⟨p.pGoal, hS.goal, (hS.incons _ hS.goal).2 hc, ?_⟩
      rw [hS.goalRhs, ea, (octile_zero _ _).2 rfl]
      exact Nat.zero_le _
  | x :: y :: rest, a, h, hcost => by
    obtain ⟨h1, h2, h3, h4⟩ := h
    have e1 : x = a := by simpa using h1
    subst e1
    have hfx : FreeCell m x := h4 x (List.mem_cons_self _ _)
    have hfy : FreeCell m y := h4 y (List.mem_cons_of_mem _ (List.mem_cons_self _ _))
    have hadj : Adjacent x y := h3.1
    have hrest : FreePath m y (posOf m.width p.pGoal) (y :: rest) :=
      ⟨rfl, by rw [List.getLast?_cons_cons] at h2; exact h2, h3.2,
        fun q hq => h4 q (List.mem_cons_of_mem _ hq)⟩
    have hpc : pathCost 5 7 (x :: y :: rest) = stepCost 5 7 x y + pathCost 5 7 (y :: rest) := rfl
    have hxN := index_lt m.width m.height x.1 x.2 hfx.1 hfx.2.1
    have hyN := index_lt m.width m.height y.1 y.2 hfy.1 hfy.2.1
    have hpx : posOf m.width (x.2 * m.width + x.1) = x := posOf_index _ _ _ hfx.1
    have hpy : posOf m.width (y.2 * m.width + y.1) = y := posOf_index _ _ _ hfy.1
    have hbx : (p.cells (x.2 * m.width + x.1)).blocked = false := by
      rw [dlite_static_free hS.static _ hxN, hpx]
      exact hfx
    have hby : (p.cells (y.2 * m.width + y.1)).blocked = false := by
      rw [dlite_static_free hS.static _ hyN, hpy]
      exact hfy
    have hsr := stepCost_range x y
    rcases dlite_chain_bound hS (y :: rest) y hrest (by omega) with ih | ⟨d, d1, d2, d3⟩
    · have hrx : (p.cells (x.2 * m.width + x.1)).rhs ≤ pathCost 5 7 (x :: y :: rest) := by
        by_cases hg : x.2 * m.width + x.1 = p.pGoal
        · rw [hg, hS.goalRhs]
          exact Nat.zero_le _
        · rw [hS.bellman _ hxN hbx hg]
          obtain ⟨spec, s1, s2, s3⟩ := (dlite_static_neighbors hS.static _ hxN
            (y.2 * m.width + y.1) (stepCost 5 7 x y)).2 ⟨hyN, by rw [hpx, hpy]; exact hadj,
              by rw [hpx, hpy]⟩
          have k2 := (dlite_minNeighborCost_spec p (x.2 * m.width + x.1)).2.1 spec s1
            (by rw [s2]; exact hby)
          rw [s2, s3, dlite_arcOf_lt _ _ (by omega) hsr.2] at k2
          omega
      by_cases hc : (p.cells (x.2 * m.width + x.1)).g_cost = (p.cells (x.2 * m.width + x.1)).rhs
      · left
        rw [hc]
        exact hrx
      · right
        refine ⟨_, hxN, (hS.incons _ hxN).2 hc, ?_⟩
        rw [hpx, (octile_zero _ _).2 rfl]
        exact hrx
    · right
      refine ⟨d, d1, d2, ?_⟩
      have := octile_step (posOf m.width d) y x (adjacent_symm hadj)
      rw [stepCost_symm] at this
      omega

/-- When the loop of `computeShortestPath` has ended in a run from scratch, `rhs` of
the start is not above the cost of any chain of free cells from the start to the goal
(of a cost below the obstacle cost). -/
theorem dlite_start_bound {m : GridMap} {p : Planner} (hS : Scratch m p) (hw : ¬ wantsStep p)
    (l : List Pos) (hl : FreePath m (posOf m.width p.pStart) (posOf m.width p.pGoal) l)
    (hc : pathCost 5 7 l < OBSTACLE_COST) : (p.cells p.pStart).rhs ≤ pathCost 5 7 l := by
  have hidx : (posOf m.width p.pStart).2 * m.width + (posOf m.width p.pStart).1 = p.pStart :=
    posOf_div_mod _ _
  have hle := hS.le _ hS.start
  rcases dlite_chain_bound hS l _ hl hc with h1 | ⟨d, d1, d2, d3⟩
  · rw [hidx] at h1
    omega
  · obtain ⟨j1, j2, j3⟩ := hS.heap.1.2 d d1 ⟨by simp, d2⟩
    have hlen : p.openListLength ≠ 0 := by omega
    have hkg : keepGoing p = false := by
      cases hq : keepGoing p
      · rfl
      · exact absurd ⟨hlen, hq⟩ hw
    have hroot := ordered_root_le (heapTests_refl dlite_tests) dlite_tests.trans hS.heap.2
      _ j1 j2
    have hroot' : Key.lt (p.cells d).key (p.cells (p.openHeap 1)).key = false := by
      have e : p.keys (p.openHeap ((p.cells d).heapIndex)) = (p.cells d).key := by
        show (p.cells (p.openHeap ((p.cells d).heapIndex))).key = _
        rw [j3]
      rw [← e]
      exact hroot
    rw [dlite_scratch_key hS d d1 d2] at hroot'
    unfold keepGoing at hkg
    simp only [Bool.or_eq_false_iff, decide_eq_false_iff_not] at hkg
    obtain ⟨k1, _⟩ := hkg
    rw [hS.km] at k1
    generalize heuristic (posOf m.width d) (posOf m.width p.pStart) = hd at d3 hroot'
    have hgm := hS.gmax _ hS.start
    have e1 : uadd (uadd (p.cells d).rhs hd) 0 = (p.cells d).rhs + hd := by
      unfold uadd
      unfold OBSTACLE_COST at hc
      omega
    have e2 : uadd (min (p.cells p.pStart).g_cost (p.cells p.pStart).rhs) 0 =
        (p.cells p.pStart).rhs := by
      unfold uadd
      unfold OBSTACLE_COST at hgm
      omega
    have e3 : min (p.cells p.pStart).g_cost (p.cells p.pStart).rhs = (p.cells p.pStart).rhs := by
      omega
    rw [e1] at hroot'
    rw [e2, e3] at k1
    generalize (p.cells (p.openHeap 1)).key = rk at k1 hroot'
    unfold Key.lt at k1 hroot'
    simp only at k1 hroot'
    split_ifs at k1 hroot' <;> simp at k1 hroot' <;> omega

end DStarLite

end RasterSim

namespace RasterSim

/-! ## D* Lite: the greedy descent of the path extraction -/

namespace DStarLite

/-- Along the sequence of positions the `g_cost` of the cells falls strictly. -/
def Descends (p : Planner) (w : Nat) : List Pos → Prop
  | a :: b :: rest =>
    (p.cells (b.2 * w + b.1)).g_cost < (p.cells (a.2 * w + a.1)).g_cost ∧
      Descends p w (b :: rest)
  | _ => True

theorem dlite_extractLoop_goal (p : Planner) (remaining c : Nat) (path : List Pos)
    (h : c = p.pGoal) :
    extractLoop p remaining c path = Except.ok (path ++ [((p.cells c).x, (p.cells c).y)]) := by
  unfold extractLoop
  simp only
  rw [if_pos h]

theorem dlite_extractLoop_zero (p : Planner) (c : Nat) (path : List Pos) (h : c ≠ p.pGoal) :
    extractLoop p 0 c path = Except.error "Path too long\n" := by
  unfold extractLoop
  simp only
  rw [if_neg h]

theorem dlite_extractLoop_none (p : Planner) (r c : Nat) (path : List Pos) (h : c ≠ p.pGoal)
    (hn : nextCell p c = none) :
    extractLoop p (r + 1) c path = Except.error "Path blocked\n" := by
  unfold extractLoop
  simp only
  rw [if_neg h, hn]

theorem dlite_extractLoop_some (p : Planner) (r c n : Nat) (path : List Pos) (h : c ≠ p.pGoal)
    (hn : nextCell p c = some n) :
    extractLoop p (r + 1) c path =
      extractLoop p r n (path ++ [((p.cells c).x, (p.cells c).y)]) := by
  conv_lhs => unfold extractLoop
  simp only
  rw [if_neg h, hn]

/-- In a run from scratch, the cell the path extraction moves to from a cell other
than the goal with `rhs` below the obstacle cost: a free neighbour over which the cost
is `rhs` of the cell. -/
theorem dlite_nextCell_scratch {m : GridMap} {p : Planner} (hS : Scratch m p) (c : Nat)
    (hc : c < m.width * m.height) (hr : (p.cells c).rhs < OBSTACLE_COST) (hg : c ≠ p.pGoal) :
    ∃ n, nextCell p c = some n ∧ n < m.width * m.height ∧ (p.cells n).blocked = false ∧
      Adjacent (posOf m.width c) (posOf m.width n) ∧
      (p.cells n).g_cost + stepCost 5 7 (posOf m.width c) (posOf m.width n) = (p.cells c).rhs := by
  obtain ⟨l, hl, _⟩ := hS.real c hc hr
  have hfree := (dlite_static_free hS.static c hc).2 (freePath_head_free hl)
  have hbel := hS.bellman c hc hfree hg
  obtain ⟨_, k2, k3⟩ := dlite_minNeighborCost_spec p c
  rw [← hbel] at k2 k3
  have hatt : ∃ spec, spec ∈ p.neighborsOf c ∧ (p.cells (neighborOf c spec)).blocked = false ∧
      (p.cells (neighborOf c spec)).g_cost < OBSTACLE_COST ∧
      (p.cells c).rhs = (p.cells (neighborOf c spec)).g_cost + spec.baseCost := by
    rcases k3 with e | ⟨spec, e1, e2, e3, e4⟩
    · omega
    · have hgf : (p.cells (neighborOf c spec)).g_cost < OBSTACLE_COST := by
        by_contra hge
        rw [dlite_arcOf_ge _ _ hge] at e4
        exact hge e4
      refine ⟨spec, e1, e2, hgf, ?_⟩
      rw [e3, dlite_arcOf_lt _ _ hgf (dlite_static_neighbor hS.static c hc spec e1).2.2.2.2.2]
  obtain ⟨spec0, a1, a2, a3, a4⟩ := hatt
  have hu : ∀ spec, spec ∈ p.neighborsOf c → (p.cells (neighborOf c spec)).g_cost < OBSTACLE_COST →
      uadd (p.cells (neighborOf c spec)).g_cost spec.baseCost =
        (p.cells (neighborOf c spec)).g_cost + spec.baseCost := by
    intro spec hs hgf
    have := (dlite_static_neighbor hS.static c hc spec hs).2.2.2.2.2
    unfold uadd
    unfold OBSTACLE_COST at hgf
    omega
  rcases dlite_nextCell_spec p c with ⟨_, n2⟩ | ⟨spec, s1, s2, s3, s4, s5, s6⟩
  · exfalso
    have := n2 spec0 a1 a2 a3
    rw [hu spec0 a1 a3] at this
    omega
  · obtain ⟨t1, _, t3, t4, _⟩ := dlite_static_neighbor hS.static c hc spec s1
    refine ⟨_, s4, t1, s2, t3, ?_⟩
    rw [← t4]
    have h1 := s6 spec0 a1 a2 a3
    rw [hu spec0 a1 a3, hu spec s1 s3] at h1
    have h2 := k2 spec s1 s2
    rw [dlite_arcOf_lt _ _ s3 (dlite_static_neighbor hS.static c hc spec s1).2.2.2.2.2] at h2
    omega

/-- The path extraction in a run from scratch, from a cell with `rhs` below the
obstacle cost: it never ends with "Path blocked". It yields a chain of free cells to
the goal along which `g` falls strictly, of a cost not above `rhs` of the cell; or the
count of 100000 cells runs out first, which takes an `rhs` above five times the cells
that were left. -/
theorem dlite_extractLoop_cases {m : GridMap} {p : Planner} (hS : Scratch m p) :
    ∀ (remaining c : Nat) (path : List Pos), c < m.width * m.height →
      (p.cells c).rhs < OBSTACLE_COST →
      (∃ l, extractLoop p remaining c path = Except.ok (path ++ l) ∧
        FreePath m (posOf m.width c) (posOf m.width p.pGoal) l ∧
        pathCost 5 7 l ≤ (p.cells c).rhs ∧ l.length ≤ remaining + 1 ∧ Descends p m.width l) ∨
      (extractLoop p remaining c path = Except.error "Path too long\n" ∧
        5 * remaining < (p.cells c).rhs)
  | remaining, c, path, hc, hr => by
    obtain ⟨c1, c2⟩ := hS.static.alg.coords c hc
    simp only at c1 c2
    have hpos : ((p.cells c).x, (p.cells c).y) = posOf m.width c := by
      rw [c1, c2]
      rfl
    obtain ⟨l0, hl0, _⟩ := hS.real c hc hr
    have hfc := freePath_head_free hl0
    by_cases hg : c = p.pGoal
    · left
      refine ⟨[posOf m.width c], ?_, ⟨rfl, by rw [hg]; rfl, trivial, fun q hq => ?_⟩,
        Nat.zero_le _, by simp, trivial⟩
      · rw [dlite_extractLoop_goal p remaining c path hg, hpos]
      · have e : q = posOf m.width c := by simpa using hq
        rw [e]
        exact hfc
    · obtain ⟨n, n1, n2, n3, n4, n5⟩ := dlite_nextCell_scratch hS c hc hr hg
      have hsr := stepCost_range (posOf m.width c) (posOf m.width n)
      have hle := hS.le n n2
      have hlec := hS.le c hc
      cases remaining with
      | zero =>
        right
        exact ⟨dlite_extractLoop_zero p c path hg, by omega⟩
      | succ r =>
        rw [dlite_extractLoop_some p r c n path hg n1, hpos]
        rcases dlite_extractLoop_cases hS r n (path ++ [posOf m.width c]) n2 (by omega) with
          ⟨l, q1, q2, q3, q4, q5⟩ | ⟨q1, q2⟩
        · left
          obtain ⟨r1, r2⟩ := freePath_cons m _ _ _ l q2 n4 hfc
          refine ⟨posOf m.width c :: l, ?_, r1, by rw [r2]; omega, by simp; omega, ?_⟩
          · rw [q1]
            simp
          · cases l with
            | nil =>
              have := q2.1
              simp at this
            | cons x l' =>
              have e : x = posOf m.width n := by
                have := q2.1
                simpa using this
              subst e
              refine ⟨?_, q5⟩
              rw [posOf_div_mod, posOf_div_mod]
              omega
        · right
          exact ⟨q1, by omega⟩

end DStarLite

end RasterSim

namespace RasterSim

/-! ## D* Lite: the result of planning from scratch -/

namespace DStarLite

theorem dlite_setFlag_blocked (cells : Nat → Cell) (i flag c : Nat) :
    ((setFlag cells i flag) c).blocked = (cells c).blocked := by
  simp only [setFlag, upd_apply]
  by_cases h : c = i
  · rw [if_pos h, h]
  · rw [if_neg h]

theorem dlite_initMap_blocked (old : Planner) (m : GridMap) (c : Nat)
    (hc : c < m.width * m.height) :
    ((initMap old m).cells c).blocked = decide (m.pixel (c % m.width) (c / m.width) > 0) := by
  unfold initMap
  simp only
  generalize hc0 : (fun i =>
      if i < m.width * m.height then
        ({ (old.memory 0).cells i with
          x := (i % m.width) % USHORT, y := (i / m.width) % USHORT, neighborhoodIndex := 0
          blocked := decide (m.pixel (i % m.width) (i / m.width) > 0), key := { k1 := 0, k2 := 0 } } : Cell)
      else rawCell) = cells0
  have h0 : (cells0 c).blocked = decide (m.pixel (c % m.width) (c / m.width) > 0) := by
    rw [← hc0]
    simp only
    rw [if_pos hc]
  have h1 := foldl_keeps (fun (cells : Nat → Cell) => (cells c).blocked = (cells0 c).blocked)
    (fun cells i => setFlag (setFlag cells i YMinEdge) ((m.height - 1) * m.width + i) YMaxEdge)
    (List.range m.width) cells0
    (fun b a _ hb => by
      show ((setFlag (setFlag b a YMinEdge) _ YMaxEdge) c).blocked = _
      rw [dlite_setFlag_blocked, dlite_setFlag_blocked]
      exact hb) rfl
  have h2 := foldl_keeps (fun (cells : Nat → Cell) => (cells c).blocked = (cells0 c).blocked)
    (fun cells i => setFlag (setFlag cells (i * m.width) XMinEdge) (i * m.width + (m.width - 1))
      XMaxEdge)
    (List.range m.height) _
    (fun b a _ hb => by
      show ((setFlag (setFlag b _ XMinEdge) _ XMaxEdge) c).blocked = _
      rw [dlite_setFlag_blocked, dlite_setFlag_blocked]
      exact hb) h1
  exact h2.trans h0

/-- After `initMap` the state holds the map. -/
theorem dlite_initMap_static (old : Planner) (m : GridMap) (hw1 : 1 ≤ m.width)
    (hh1 : 1 ≤ m.height) (hw : m.width ≤ USHORT) (hh : m.height ≤ USHORT) :
    Static m (initMap old m) := by
  refine ⟨dlite_initMap_inv old m hw hh, fun c hc => dlite_initMap_flags old m hw1 hh1 c hc,
    fun c hc => ?_⟩
  rw [dlite_initMap_blocked old m c hc]
  simp

/-- Planning from scratch when no chain of free cells joins the free start and goal:
with enough fuel `doCalculatePath` ends with the error "No Path found" and no path. -/
theorem dlite_unconnected {m : GridMap} {p : Planner} (hst : Static m p) (start goal : Pos)
    (updates fuel : Nat) (hs : FreeCell m start) (hg : FreeCell m goal)
    (hn : ¬ Connected m start goal) (hu : needsReset updates = true)
    (hf : m.width * m.height * OBSTACLE_COST < fuel) :
    ∃ o, doCalculatePath fuel p updates start goal 0 = some o ∧ o.path = [] ∧
      o.error = "No Path found" := by
  obtain ⟨p', hp', hS, _, e1, e2⟩ := dlite_doCalculatePath_scratch hst start goal updates fuel
    hs hg hu hf
  have hps : posOf m.width p'.pStart = start := by
    rw [e1]; exact posOf_index _ _ _ hs.1
  have hpg : posOf m.width p'.pGoal = goal := by
    rw [e2]; exact posOf_index _ _ _ hg.1
  have hr : ¬ (p'.cells p'.pStart).rhs < OBSTACLE_COST := by
    intro hlt
    obtain ⟨l, hl, _⟩ := hS.real _ hS.start hlt
    rw [hps, hpg] at hl
    exact hn ⟨l, hl⟩
  refine ⟨_, hp', ?_, ?_⟩
  · unfold doDebugAndPathExtract
    rw [if_pos rfl, if_neg hr]
  · unfold doDebugAndPathExtract
    rw [if_pos rfl, if_neg hr]

/-- What planning from scratch yields on a state that holds the map, with free start
and goal, no step budget and enough fuel, when some chain of free cells of a cost below
the obstacle cost joins start and goal: the invariant of the run holds in the state
it leaves, `rhs` of the start is not above the cost of any chain of free cells from
start to goal, and the path extraction yields a chain of free cells of a cost not above
this `rhs`, along which `g` falls, unless the count of 100000 cells runs out. -/
theorem dlite_plan_cases {m : GridMap} {p : Planner} (hst : Static m p) (start goal : Pos)
    (updates fuel : Nat) (hs : FreeCell m start) (hg : FreeCell m goal)
    (hu : needsReset updates = true) (hf : m.width * m.height * OBSTACLE_COST < fuel)
    (l0 : List Pos) (hl0 : FreePath m start goal l0) (hc0 : pathCost 5 7 l0 < OBSTACLE_COST) :
    ∃ p', doCalculatePath fuel p updates start goal 0 = some (doDebugAndPathExtract p' true) ∧
      Scratch m p' ∧ ¬ wantsStep p' ∧ p'.pStart = start.2 * m.width + start.1 ∧
      (p'.cells p'.pStart).rhs ≤ pathCost 5 7 l0 ∧
      (∀ l, FreePath m start goal l → (p'.cells p'.pStart).rhs ≤ pathCost 5 7 l) ∧
      ((∃ l, doDebugAndPathExtract p' true = { planner := p', path := l, error := "" } ∧
          FreePath m start goal l ∧ pathCost 5 7 l ≤ (p'.cells p'.pStart).rhs ∧
          l.length ≤ 100001 ∧ Descends p' m.width l) ∨
        (doDebugAndPathExtract p' true = { planner := p', path := [], error := "Path too long\n" } ∧
          500000 < (p'.cells p'.pStart).rhs)) := by
  obtain ⟨p', hp', hS, hw, e1, e2⟩ := dlite_doCalculatePath_scratch hst start goal updates fuel
    hs hg hu hf
  have hps : posOf m.width p'.pStart = start := by
    rw [e1]; exact posOf_index _ _ _ hs.1
  have hpg : posOf m.width p'.pGoal = goal := by
    rw [e2]; exact posOf_index _ _ _ hg.1
  have hb0 := dlite_start_bound hS hw l0 (by rw [hps, hpg]; exact hl0) hc0
  have hr : (p'.cells p'.pStart).rhs < OBSTACLE_COST := by omega
  refine ⟨p', hp', hS, hw, e1, hb0, ?_, ?_⟩
  · intro l hl
    by_cases hc : pathCost 5 7 l < OBSTACLE_COST
    · exact dlite_start_bound hS hw l (by rw [hps, hpg]; exact hl) hc
    · omega
  · rcases dlite_extractLoop_cases hS 100000 p'.pStart [] hS.start hr with
      ⟨l, q1, q2, q3, q4, q5⟩ | ⟨q1, q2⟩
    · left
      rw [hps, hpg] at q2
      refine ⟨l, ?_, q2, q3, q4, q5⟩
      unfold doDebugAndPathExtract
      rw [if_pos rfl, if_pos hr, q1]
      rfl
    · right
      refine ⟨?_, by omega⟩
      unfold doDebugAndPathExtract
      rw [if_pos rfl, if_pos hr, q1]

end DStarLite

end RasterSim

namespace RasterSim

/-! ## A corridor whose shortest path is longer than the path extraction of D* Lite goes -/

namespace DStarLite

/-- The map of width `W` and height 3 whose middle row is blocked but for its last
cell. -/
def corridor (W : Nat) : GridMap :=
  { width := W, height := 3, pixel := fun x y => if y = 1 ∧ x + 1 < W then 1 else 0 }

/-- The `n` positions of the row `y` from `x` on, to the east. -/
def eastRow (y : Nat) : Nat → Nat → List Pos
  | 0, _ => []
  | n + 1, x => (x, y) :: eastRow y n (x + 1)

/-- The `n` positions of the row `y` from `n - 1` down to 0. -/
def westRow (y : Nat) : Nat → List Pos
  | 0 => []
  | n + 1 => (n, y) :: westRow y n

/-- The way through the corridor: along the upper row, through the gap, and back along
the lower row. -/
def corridorPath (W : Nat) : List Pos :=
  eastRow 0 (W - 1) 0 ++ ((W - 1, 1) :: westRow 2 (W - 1))

theorem dlite_eastRow_spec (y : Nat) : ∀ (n x : Nat),
    (eastRow y (n + 1) x).head? = some (x, y) ∧ (eastRow y (n + 1) x).getLast? = some (x + n, y) ∧
    IsChain (eastRow y (n + 1) x) ∧ (eastRow y (n + 1) x).length = n + 1 ∧
    ∀ c, c ∈ eastRow y (n + 1) x → c.2 = y ∧ x ≤ c.1 ∧ c.1 ≤ x + n
  | 0, x => by
    refine ⟨rfl, rfl, trivial, rfl, fun c hc => ?_⟩
    have e : c = (x, y) := by simpa [eastRow] using hc
    rw [e]
    exact ⟨rfl, le_refl _, le_refl _⟩
  | n + 1, x => by
    obtain ⟨h1, h2, h3, h4, h5⟩ := dlite_eastRow_spec y n (x + 1)
    have e : eastRow y (n + 1 + 1) x = (x, y) :: eastRow y (n + 1) (x + 1) := rfl
    rw [e]
    have hne : ∃ t, eastRow y (n + 1) (x + 1) = (x + 1, y) :: t := ⟨_, rfl⟩
    obtain ⟨t, ht⟩ := hne
    refine ⟨rfl, ?_, ?_, ?_, ?_⟩
    · rw [ht, List.getLast?_cons_cons, ← ht, h2]
      congr 2
      omega
    · rw [ht]
      rw [ht] at h3
      refine ⟨⟨?_, ?_, ?_, ?_, ?_⟩, h3⟩
      · intro q
        have := congrArg Prod.fst q
        simp at this
      all_goals simp only
      all_goals omega
    · simp only [List.length_cons, h4]
    · intro c hc
      rcases List.mem_cons.1 hc with q | q
      · rw [q]
        exact ⟨rfl, le_refl _, by simp⟩
      · obtain ⟨q1, q2, q3⟩ := h5 c q
        exact ⟨q1, by omega, by omega⟩

theorem dlite_westRow_spec (y : Nat) : ∀ (n : Nat),
    (westRow y (n + 1)).head? = some (n, y) ∧ (westRow y (n + 1)).getLast? = some (0, y) ∧
    IsChain (westRow y (n + 1)) ∧ (westRow y (n + 1)).length = n + 1 ∧
    ∀ c, c ∈ westRow y (n + 1) → c.2 = y ∧ c.1 ≤ n
  | 0 => by
    refine ⟨rfl, rfl, trivial, rfl, fun c hc => ?_⟩
    have e : c = (0, y) := by simpa [westRow] using hc
    rw [e]
    exact ⟨rfl, le_refl _⟩
  | n + 1 => by
    obtain ⟨h1, h2, h3, h4, h5⟩ := dlite_westRow_spec y n
    have e : westRow y (n + 1 + 1) = (n + 1, y) :: westRow y (n + 1) := rfl
    rw [e]
    have hne : ∃ t, westRow y (n + 1) = (n, y) :: t := ⟨_, rfl⟩
    obtain ⟨t, ht⟩ := hne
    refine ⟨rfl, ?_, ?_, ?_, ?_⟩
    · rw [ht, List.getLast?_cons_cons, ← ht, h2]
    · rw [ht]
      rw [ht] at h3
      refine ⟨⟨?_, ?_, ?_, ?_, ?_⟩, h3⟩
      · intro q
        have := congrArg Prod.fst q
        simp at this
      all_goals simp only
      all_goals omega
    · simp only [List.length_cons, h4]
    · intro c hc
      rcases List.mem_cons.1 hc with q | q
      · rw [q]
        exact ⟨rfl, le_refl _⟩
      · obtain ⟨q1, q2⟩ := h5 c q
        exact ⟨q1, by omega⟩

/-- The way through the corridor is a chain of free cells from (0,0) to (0,2) of
`2 W - 1` cells. -/
theorem dlite_corridorPath_spec (W : Nat) (hW : 2 ≤ W) :
    FreePath (corridor W) (0, 0) (0, 2) (corridorPath W) ∧ (corridorPath W).length = 2 * W - 1 := by
  obtain ⟨n, hn⟩ : ∃ n, W = n + 2 := ⟨W - 2, by omega⟩
  subst hn
  have e : corridorPath (n + 2) = eastRow 0 (n + 1) 0 ++ ((n + 1, 1) :: westRow 2 (n + 1)) := rfl
  obtain ⟨a1, a2, a3, a4, a5⟩ := dlite_eastRow_spec 0 n 0
  obtain ⟨b1, b2, b3, b4, b5⟩ := dlite_westRow_spec 2 n
  have hw2 : IsChain ((n + 1, 1) :: westRow 2 (n + 1)) := by
    have hne : ∃ t, westRow 2 (n + 1) = (n, 2) :: t := ⟨_, rfl⟩
    obtain ⟨t, ht⟩ := hne
    rw [ht]
    rw [ht] at b3
    refine ⟨⟨?_, ?_, ?_, ?_, ?_⟩, b3⟩
    · intro q
      have := congrArg Prod.snd q
      simp at this
    all_goals simp only
    all_goals omega
  have hlast : ((n + 1, 1) :: westRow 2 (n + 1)).getLast? = some (0, 2) := by
    have hne : ∃ t, westRow 2 (n + 1) = (n, 2) :: t := ⟨_, rfl⟩
    obtain ⟨t, ht⟩ := hne
    rw [ht, List.getLast?_cons_cons, ← ht]
    exact b2
  rw [e]
  refine ⟨⟨?_, ?_, ?_, ?_⟩, ?_⟩
  · have hne : ∃ t, eastRow 0 (n + 1) 0 = (0, 0) :: t := ⟨_, rfl⟩
    obtain ⟨t, ht⟩ := hne
    rw [ht]
    rfl
  · rw [List.getLast?_append, hlast]
    rfl
  · refine isChain_append _ _ (0 + n, 0) (n + 1, 1) a3 hw2 a2 rfl ⟨?_, ?_, ?_, ?_, ?_⟩
    · intro q
      have := congrArg Prod.snd q
      simp at this
    all_goals simp only
    all_goals omega
  · intro c hc
    rcases List.mem_append.1 hc with q | q
    · obtain ⟨q1, _, q3⟩ := a5 c q
      refine ⟨?_, ?_, ?_⟩
      · show c.1 < n + 2
        omega
      · show c.2 < 3
        omega
      · show (if c.2 = 1 ∧ c.1 + 1 < n + 2 then 1 else 0) = 0
        rw [if_neg (by omega)]
    · rcases List.mem_cons.1 q with q' | q'
      · rw [q']
        refine ⟨?_, ?_, ?_⟩
        · show n + 1 < n + 2
          omega
        · show 1 < 3
          omega
        · show (if (1 : Nat) = 1 ∧ n + 1 + 1 < n + 2 then 1 else 0) = 0
          rw [if_neg (by omega)]
      · obtain ⟨q1, q2⟩ := b5 c q'
        refine ⟨?_, ?_, ?_⟩
        · show c.1 < n + 2
          omega
        · show c.2 < 3
          omega
        · show (if c.2 = 1 ∧ c.1 + 1 < n + 2 then 1 else 0) = 0
          rw [if_neg (by omega)]
  · simp only [List.length_append, List.length_cons, a4, b4]
    omega

/-- Every chain of free cells from (0,0) to (0,2) through the corridor has at least
`2 W - 1` cells. -/
theorem dlite_corridor_long (W : Nat) (hW : 1 ≤ W) (l : List Pos)
    (hl : FreePath (corridor W) (0, 0) (0, 2) l) : 2 * W - 1 ≤ l.length := by
  have key := chain_potential
    (fun c => if c.2 = 0 then c.1 else if c.2 = 1 then W - 1 else 2 * (W - 1) - c.1)
    (FreeCell (corridor W)) ?_ l (0, 0) (0, 2) hl.1 hl.2.1 hl.2.2.1 hl.2.2.2
  · simp only [if_true] at key
    rw [if_neg (by omega), if_neg (by omega)] at key
    omega
  · intro a b ha hb hab
    obtain ⟨a1, a2, a3⟩ := ha
    obtain ⟨b1, b2, b3⟩ := hb
    obtain ⟨_, c1, c2, c3, c4⟩ := hab
    have a1' : a.1 < W := a1
    have a2' : a.2 < 3 := a2
    have a3' : (if a.2 = 1 ∧ a.1 + 1 < W then 1 else 0) = 0 := a3
    have b1' : b.1 < W := b1
    have b2' : b.2 < 3 := b2
    have b3' : (if b.2 = 1 ∧ b.1 + 1 < W then 1 else 0) = 0 := b3
    simp only
    generalize a.1 = ax at *
    generalize a.2 = ay at *
    generalize b.1 = bx at *
    generalize b.2 = by1 at *
    split_ifs at a3' b3' ⊢ <;> omega

end DStarLite

end RasterSim

namespace RasterSim

/-! ## Paths of reachable planner objects -/

theorem contract_chain {σ : Type} {AlgInv : σ → Nat × Nat → Prop} {p : AbstractPlanner σ}
    (h : ContractInv AlgInv p) : IsChain p.path := by
  by_cases hne : p.path = []
  · rw [hne]; trivial
  · obtain ⟨s, g, _, _, hok⟩ := h.path hne
    exact hok.2.2.1

theorem contract_ends {σ : Type} {AlgInv : σ → Nat × Nat → Prop} {p : AbstractPlanner σ}
    (h : ContractInv AlgInv p) (hne : p.path ≠ []) :
    ∃ s g, p.start = some s ∧ p.goal = some g ∧ p.path.head? = some (Pose.cell s) ∧
      p.path.getLast? = some (Pose.cell g) ∧ (s = g → p.path = [Pose.cell s]) := by
  obtain ⟨s, g, hs, hg, hok⟩ := h.path hne
  refine ⟨s, g, hs, hg, hok.1, hok.2.1, fun he => hok.2.2.2 ?_⟩
  rw [he]

theorem planOnce_reachable {σ : Type} (a : Algorithm σ) (init : σ) (m : GridMap) (s g : Pose)
    (p : AbstractPlanner σ) (hw : m.width ≤ USHORT) (hh : m.height ≤ USHORT)
    (h : planOnce a init m s g = some p) : Reachable a init p :=
  Reachable.setStartGoal _ p s g (Reachable.setMap _ m Reachable.new hw hh) h

theorem planOnce_report {σ : Type} (a : Algorithm σ) (init : σ) (m : GridMap) (s g : Pose)
    (r : List Pos × String)
    (h : (planOnce a init m s g).map AbstractPlanner.report = some r) :
    ∃ p, planOnce a init m s g = some p ∧ p.path = r.1 := by
  cases hp : planOnce a init m s g with
  | none => rw [hp] at h; cases h
  | some p =>
    rw [hp] at h
    simp only [Option.map_some', Option.some.injEq] at h
    exact ⟨p, rfl, by rw [← h]; rfl⟩

theorem option_map_some {α β : Type} (o : Option α) (f : α → β) (v : β) (h : o.map f = some v) :
    ∃ x, o = some x ∧ f x = v := by
  cases o with
  | none => cases h
  | some x =>
    simp only [Option.map_some', Option.some.injEq] at h
    exact ⟨x, rfl, h⟩

end RasterSim

namespace RasterSim

/-! ## Invocations of the algorithm and the change mask -/

/-- What `callPlanner` does with the logged algorithm: it invokes the algorithm once
with the pending change mask when the planner object is invocable, and then clears the
mask; otherwise it changes nothing. -/
theorem callPlanner_logged {σ : Type} (a : Algorithm σ) (q p' : AbstractPlanner (σ × List Nat))
    (h : callPlanner a.logged q = some p') :
    p'.start = q.start ∧ p'.goal = q.goal ∧ p'.mapSize = q.mapSize ∧
    (q.invocable = true → p'.alg.2 = q.accumulatedInputUpdates :: q.alg.2 ∧
      p'.accumulatedInputUpdates = 0) ∧
    (q.invocable = false → p' = q) := by
  unfold callPlanner at h
  cases hs : q.start with
  | none =>
    simp only [hs] at h
    cases h
    refine ⟨by first | rfl | exact hs, rfl, rfl, ?_, fun _ => rfl⟩
    intro hi
    simp [AbstractPlanner.invocable, hs] at hi
  | some s =>
    cases hg : q.goal with
    | none =>
      simp only [hs, hg] at h
      cases h
      refine ⟨by first | rfl | exact hs, by first | rfl | exact hg, rfl, ?_, fun _ => rfl⟩
      intro hi
      simp [AbstractPlanner.invocable, hg] at hi
    | some g =>
      simp only [hs, hg] at h
      by_cases hsz : q.mapSize.1 ≠ 0 ∧ q.mapSize.2 ≠ 0
      · rw [if_pos hsz] at h
        cases hc : a.calculatePath q.alg.1 q.accumulatedInputUpdates (s.1.toNat, s.2.toNat)
            (g.1.toNat, g.2.toNat) with
        | none =>
          simp only [Algorithm.logged, hc, Option.map_none'] at h
          cases h
        | some r =>
          simp only [Algorithm.logged, hc, Option.map_some'] at h
          cases h
          refine ⟨rfl, rfl, rfl, fun _ => ⟨rfl, rfl⟩, ?_⟩
          intro hi
          simp [AbstractPlanner.invocable, hs, hg, hsz] at hi
      · rw [if_neg hsz] at h
        cases h
        refine ⟨by first | rfl | exact hs, by first | rfl | exact hg, rfl, ?_, fun _ => rfl⟩
        intro hi
        simp only [AbstractPlanner.invocable, Bool.and_eq_true, decide_eq_true_eq] at hi
        exact absurd hi.1.1 hsz

/-- The number of invocations after `callPlanner`. -/
theorem callPlanner_invocations {σ : Type} (a : Algorithm σ) (q p' : AbstractPlanner (σ × List Nat))
    (h : callPlanner a.logged q = some p') :
    p'.invocable = q.invocable ∧
    p'.invocations = q.invocations + (if q.invocable = true then 1 else 0) := by
  obtain ⟨h1, h2, h3, h4, h5⟩ := callPlanner_logged a q p' h
  refine ⟨by simp only [AbstractPlanner.invocable, h1, h2, h3], ?_⟩
  by_cases hi : q.invocable = true
  · rw [if_pos hi]
    simp only [AbstractPlanner.invocations, (h4 hi).1, List.length_cons]
  · rw [if_neg hi]
    simp only [Bool.not_eq_true] at hi
    rw [h5 hi]; rfl

/-- The value of a flag that is set or not. -/
def flagIf (b : Bool) (f : Nat) : Nat := if b then f else 0

/-- The pending change mask that belongs to the accepted changes `acc`; after a new
map it holds `NewMap` and the flags `s` and `g` of a start and goal set since. -/
def maskOf (acc : Accepted) (s g : Bool) : Nat :=
  if acc.newMap then NewMap ||| (flagIf s UpdatedStart ||| flagIf g UpdatedGoal)
  else flagIf acc.start UpdatedStart ||| (flagIf acc.goal UpdatedGoal ||| flagIf acc.map UpdatedMap)

/-- The pending change mask of a planner object belongs to the changes accepted since
the previous invocation. -/
def MaskInv {σ : Type} (p : AbstractPlanner σ) (acc : Accepted) : Prop :=
  ∃ s g : Bool, p.accumulatedInputUpdates = maskOf acc s g ∧
    (acc.newMap = true → p.start.isSome = true → s = true) ∧
    (acc.newMap = true → p.goal.isSome = true → g = true)

theorem maskInv_none {σ : Type} (p : AbstractPlanner σ) (h : p.accumulatedInputUpdates = 0) :
    MaskInv p Accepted.none :=
  ⟨false, false, (by rw [h]; rfl), (fun h => by cases h), (fun h => by cases h)⟩

theorem join_none (acc : Accepted) : acc.join Accepted.none = acc := by
  obtain ⟨a1, a2, a3, a4⟩ := acc
  simp [Accepted.join, Accepted.none]

/-- One step of the observer after `callPlanner`. -/
theorem call_step {σ : Type} (a : Algorithm σ) (q p' : AbstractPlanner (σ × List Nat))
    (acc' : Accepted) (n : Nat) (hn : q.invocations = n)
    (hcall : callPlanner a.logged q = some p')
    (hH : q.invocable = true → Handed q.accumulatedInputUpdates acc')
    (hI : q.invocable = false → MaskInv q acc') :
    (p'.invocations ≠ n →
      Handed (p'.alg.2.headD 0) acc' ∧ p'.accumulatedInputUpdates = 0 ∧ MaskInv p' Accepted.none) ∧
    (p'.invocations = n → MaskInv p' acc') := by
  obtain ⟨_, _, _, h4, h5⟩ := callPlanner_logged a q p' hcall
  by_cases hi : q.invocable = true
  · obtain ⟨e1, e2⟩ := h4 hi
    constructor
    · intro _
      rw [e1]
      exact ⟨hH hi, e2, maskInv_none p' e2⟩
    · intro he
      simp only [AbstractPlanner.invocations, e1, List.length_cons] at he hn
      omega
  · simp only [Bool.not_eq_true] at hi
    rw [h5 hi]
    exact ⟨fun hne => absurd hn hne, fun _ => hI hi⟩

theorem handed_start (acc : Accepted) (s g : Bool) (hg : acc.newMap = true → g = true) :
    Handed (maskOf acc s g ||| UpdatedStart) (acc.join { Accepted.none with start := true }) := by
  obtain ⟨a1, a2, a3, a4⟩ := acc
  revert hg
  unfold Handed
  cases a1 <;> cases a2 <;> cases a3 <;> cases a4 <;> cases s <;> cases g <;> decide

theorem handed_goal (acc : Accepted) (s g : Bool) (hs : acc.newMap = true → s = true) :
    Handed (maskOf acc s g ||| UpdatedGoal) (acc.join { Accepted.none with goal := true }) := by
  obtain ⟨a1, a2, a3, a4⟩ := acc
  revert hs
  unfold Handed
  cases a1 <;> cases a2 <;> cases a3 <;> cases a4 <;> cases s <;> cases g <;> decide

theorem handed_both (acc : Accepted) (s g : Bool) :
    Handed (maskOf acc s g ||| (UpdatedStart ||| UpdatedGoal))
      (acc.join { Accepted.none with start := true, goal := true }) := by
  obtain ⟨a1, a2, a3, a4⟩ := acc
  unfold Handed
  cases a1 <;> cases a2 <;> cases a3 <;> cases a4 <;> cases s <;> cases g <;> decide

theorem handed_map (acc : Accepted) (s g : Bool) (hs : acc.newMap = true → s = true)
    (hg : acc.newMap = true → g = true) :
    Handed (if maskOf acc s g &&& NewMap ≠ 0 then maskOf acc s g else maskOf acc s g ||| UpdatedMap)
      (acc.join { Accepted.none with map := true }) := by
  obtain ⟨a1, a2, a3, a4⟩ := acc
  revert hs hg
  unfold Handed
  cases a1 <;> cases a2 <;> cases a3 <;> cases a4 <;> cases s <;> cases g <;> decide

theorem maskOf_start (acc : Accepted) (s g : Bool) :
    maskOf acc s g ||| UpdatedStart = maskOf (acc.join { Accepted.none with start := true }) true g := by
  obtain ⟨a1, a2, a3, a4⟩ := acc
  cases a1 <;> cases a2 <;> cases a3 <;> cases a4 <;> cases s <;> cases g <;> decide

theorem maskOf_goal (acc : Accepted) (s g : Bool) :
    maskOf acc s g ||| UpdatedGoal = maskOf (acc.join { Accepted.none with goal := true }) s true := by
  obtain ⟨a1, a2, a3, a4⟩ := acc
  cases a1 <;> cases a2 <;> cases a3 <;> cases a4 <;> cases s <;> cases g <;> decide

theorem maskOf_both (acc : Accepted) (s g : Bool) :
    maskOf acc s g ||| (UpdatedStart ||| UpdatedGoal)
      = maskOf (acc.join { Accepted.none with start := true, goal := true }) true true := by
  obtain ⟨a1, a2, a3, a4⟩ := acc
  cases a1 <;> cases a2 <;> cases a3 <;> cases a4 <;> cases s <;> cases g <;> decide

theorem maskOf_map (acc : Accepted) (s g : Bool) :
    (if maskOf acc s g &&& NewMap ≠ 0 then maskOf acc s g else maskOf acc s g ||| UpdatedMap)
      = maskOf (acc.join { Accepted.none with map := true }) s g := by
  obtain ⟨a1, a2, a3, a4⟩ := acc
  cases a1 <;> cases a2 <;> cases a3 <;> cases a4 <;> cases s <;> cases g <;> decide

theorem maskOf_newMap (acc : Accepted) :
    NewMap = maskOf (acc.join { Accepted.none with newMap := true }) false false := by
  obtain ⟨a1, a2, a3, a4⟩ := acc
  cases a1 <;> cases a2 <;> cases a3 <;> cases a4 <;> decide

/-- The observer's step for `setStart`. -/
theorem step_start {σ : Type} (a : Algorithm σ) (p p' : AbstractPlanner (σ × List Nat))
    (acc : Accepted) (pose : Pose) (hinv : MaskInv p acc)
    (happ : setStart a.logged p pose = some p') :
    (p'.invocations ≠ p.invocations →
      Handed (p'.alg.2.headD 0) (acc.join { Accepted.none with start := accepts p.mapSize pose }) ∧
      p'.accumulatedInputUpdates = 0 ∧ MaskInv p' Accepted.none) ∧
    (p'.invocations = p.invocations →
      MaskInv p' (acc.join { Accepted.none with start := accepts p.mapSize pose })) := by
  obtain ⟨s, g, hm, hs, hg⟩ := hinv
  unfold setStart at happ
  cases pose with
  | none =>
    simp only [Option.some.injEq] at happ
    subst happ
    refine ⟨fun hne => absurd rfl hne, fun _ => ?_⟩
    have : acc.join { Accepted.none with start := accepts p.mapSize Option.none } = acc := join_none acc
    rw [this]
    exact ⟨s, g, hm, fun _ h => by simp at h, hg⟩
  | some pos =>
    simp only at happ
    by_cases hin : inMap p.mapSize pos = true
    · rw [if_pos hin] at happ
      have hacc : accepts p.mapSize (some pos) = true := hin
      rw [hacc]
      refine call_step a
        { p with start := some pos, accumulatedInputUpdates := p.accumulatedInputUpdates ||| UpdatedStart }
        p' _ p.invocations rfl happ ?_ ?_
      · intro hi
        show Handed (p.accumulatedInputUpdates ||| UpdatedStart) _
        rw [hm]
        refine handed_start acc s g (fun hn => hg hn ?_)
        simp only [AbstractPlanner.invocable, Bool.and_eq_true] at hi
        exact hi.2
      · intro _
        refine ⟨true, g, ?_, fun _ _ => rfl, fun hn => hg (by simpa [Accepted.join, Accepted.none] using hn)⟩
        show p.accumulatedInputUpdates ||| UpdatedStart = _
        rw [hm]
        exact maskOf_start acc s g
    · rw [if_neg hin] at happ
      simp only [Option.some.injEq] at happ
      subst happ
      have hacc : accepts p.mapSize (some pos) = false := by
        simpa [accepts] using hin
      rw [hacc]
      have : acc.join { Accepted.none with start := false } = acc := join_none acc
      rw [this]
      exact ⟨fun hne => absurd rfl hne, fun _ => ⟨s, g, hm, hs, hg⟩⟩

/-- The observer's step for `setGoal`. -/
theorem step_goal {σ : Type} (a : Algorithm σ) (p p' : AbstractPlanner (σ × List Nat))
    (acc : Accepted) (pose : Pose) (hinv : MaskInv p acc)
    (happ : setGoal a.logged p pose = some p') :
    (p'.invocations ≠ p.invocations →
      Handed (p'.alg.2.headD 0) (acc.join { Accepted.none with goal := accepts p.mapSize pose }) ∧
      p'.accumulatedInputUpdates = 0 ∧ MaskInv p' Accepted.none) ∧
    (p'.invocations = p.invocations →
      MaskInv p' (acc.join { Accepted.none with goal := accepts p.mapSize pose })) := by
  obtain ⟨s, g, hm, hs, hg⟩ := hinv
  unfold setGoal at happ
  cases pose with
  | none =>
    simp only [Option.some.injEq] at happ
    subst happ
    refine ⟨fun hne => absurd rfl hne, fun _ => ?_⟩
    have : acc.join { Accepted.none with goal := accepts p.mapSize Option.none } = acc := join_none acc
    rw [this]
    exact ⟨s, g, hm, hs, fun _ h => by simp at h⟩
  | some pos =>
    simp only at happ
    by_cases hin : inMap p.mapSize pos = true
    · rw [if_pos hin] at happ
      have hacc : accepts p.mapSize (some pos) = true := hin
      rw [hacc]
      refine call_step a
        { p with goal := some pos, accumulatedInputUpdates := p.accumulatedInputUpdates ||| UpdatedGoal }
        p' _ p.invocations rfl happ ?_ ?_
      · intro hi
        show Handed (p.accumulatedInputUpdates ||| UpdatedGoal) _
        rw [hm]
        refine handed_goal acc s g (fun hn => hs hn ?_)
        simp only [AbstractPlanner.invocable, Bool.and_eq_true] at hi
        exact hi.1.2
      · intro _
        refine ⟨s, true, ?_, fun hn => hs (by simpa [Accepted.join, Accepted.none] using hn), fun _ _ => rfl⟩
        show p.accumulatedInputUpdates ||| UpdatedGoal = _
        rw [hm]
        exact maskOf_goal acc s g
    · rw [if_neg hin] at happ
      simp only [Option.some.injEq] at happ
      subst happ
      have hacc : accepts p.mapSize (some pos) = false := by
        simpa [accepts] using hin
      rw [hacc]
      have : acc.join { Accepted.none with goal := false } = acc := join_none acc
      rw [this]
      exact ⟨fun hne => absurd rfl hne, fun _ => ⟨s, g, hm, hs, hg⟩⟩

/-- One step of the observer: from a state in which the pending change mask belongs to
the accepted changes, an input either leads to an invocation, whose change mask holds
what the claim asks for all changes accepted since the previous invocation, and after
which the pending mask is empty; or it leads to none, and the pending mask belongs to
the accepted changes with those of the input added. -/
theorem observer_step {σ : Type} (a : Algorithm σ) (p p' : AbstractPlanner (σ × List Nat))
    (acc : Accepted) (c : Change) (hinv : MaskInv p acc)
    (happ : c.apply a.logged p = some p') :
    (p'.invocations ≠ p.invocations →
      Handed (p'.alg.2.headD 0) (acc.join (c.accepted p)) ∧
      p'.accumulatedInputUpdates = 0 ∧ MaskInv p' Accepted.none) ∧
    (p'.invocations = p.invocations → MaskInv p' (acc.join (c.accepted p))) := by
  cases c with
  | start pose => exact step_start a p p' acc pose hinv happ
  | goal pose => exact step_goal a p p' acc pose hinv happ
  | startGoal s0 g0 =>
    simp only [Change.apply] at happ
    cases s0 with
    | none =>
      simp only [setStartGoal, setStart, Option.some_bind] at happ
      have h1 : MaskInv ({ p with start := Option.none, path := [] } : AbstractPlanner (σ × List Nat)) acc := by
        obtain ⟨s, g, hm, hs, hg⟩ := hinv
        exact ⟨s, g, hm, fun _ h => by simp at h, hg⟩
      have h2 := step_goal a _ p' acc g0 h1 happ
      cases g0 <;> exact h2
    | some s1 =>
      cases g0 with
      | none =>
        simp only [setStartGoal, setGoal, Option.some_bind] at happ
        have h1 : MaskInv ({ p with goal := Option.none, path := [] } : AbstractPlanner (σ × List Nat)) acc := by
          obtain ⟨s, g, hm, hs, hg⟩ := hinv
          exact ⟨s, g, hm, hs, fun _ h => by simp at h⟩
        have h2 := step_start a _ p' acc (some s1) h1 happ
        exact h2
      | some g1 =>
        obtain ⟨s, g, hm, hs, hg⟩ := hinv
        simp only [setStartGoal] at happ
        simp only [Change.accepted]
        by_cases h1 : inMap p.mapSize s1 = true
        · by_cases h2 : inMap p.mapSize g1 = true
          · simp only [h1, h2, Bool.not_true, Bool.false_eq_true, if_false, Bool.and_self] at happ ⊢
            refine call_step a
              { p with start := some s1, goal := some g1
                       accumulatedInputUpdates := p.accumulatedInputUpdates ||| (UpdatedStart ||| UpdatedGoal) }
              p' _ p.invocations rfl happ ?_ ?_
            · intro _
              show Handed (p.accumulatedInputUpdates ||| (UpdatedStart ||| UpdatedGoal)) _
              rw [hm]
              exact handed_both acc s g
            · intro _
              refine ⟨true, true, ?_, fun _ _ => rfl, fun _ _ => rfl⟩
              show p.accumulatedInputUpdates ||| (UpdatedStart ||| UpdatedGoal) = _
              rw [hm]
              exact maskOf_both acc s g
          · simp only [Bool.not_eq_true] at h2
            simp only [h1, h2, Bool.not_true, Bool.false_eq_true, if_false, Bool.not_false, if_true,
              Option.some.injEq, Bool.and_false] at happ ⊢
            subst happ
            have : acc.join { Accepted.none with start := false, goal := false } = acc := join_none acc
            rw [this]
            exact ⟨fun hne => absurd rfl hne, fun _ => ⟨s, g, hm, hs, hg⟩⟩
        · simp only [Bool.not_eq_true] at h1
          simp only [h1, Bool.not_false, if_true, Option.some.injEq, Bool.false_and] at happ ⊢
          subst happ
          have : acc.join { Accepted.none with start := false, goal := false } = acc := join_none acc
          rw [this]
          exact ⟨fun hne => absurd rfl hne, fun _ => ⟨s, g, hm, hs, hg⟩⟩
  | newMap m =>
    simp only [Change.apply, Option.some.injEq] at happ
    subst happ
    refine ⟨fun hne => absurd rfl hne, fun _ => ?_⟩
    exact ⟨false, false, maskOf_newMap acc, fun _ h => by simp [setMap] at h,
      fun _ h => by simp [setMap] at h⟩
  | editMap m r =>
    simp only [Change.apply, updateMap] at happ
    simp only [Change.accepted]
    by_cases hsz : (m.width, m.height) = p.mapSize
    · rw [if_pos hsz] at happ ⊢
      obtain ⟨s, g, hm, hs, hg⟩ := hinv
      by_cases hr : r.isEmpty = true ∨ ¬ r.inside m.width m.height = true
      · rw [if_pos hr] at happ
        simp only [Option.some.injEq] at happ
        subst happ
        have hf : (!r.isEmpty && r.inside m.width m.height) = false := by
          rcases hr with h | h
          · simp [h]
          · simp only [Bool.not_eq_true] at h
            simp [h]
        rw [hf]
        have : acc.join { Accepted.none with map := false } = acc := join_none acc
        rw [this]
        exact ⟨fun hne => absurd rfl hne, fun _ => ⟨s, g, hm, hs, hg⟩⟩
      · rw [if_neg hr] at happ
        push_neg at hr
        have hf : (!r.isEmpty && r.inside m.width m.height) = true := by
          obtain ⟨h1, h2⟩ := hr
          simp only [Bool.not_eq_true] at h1
          simp [h1, h2]
        rw [hf]
        refine call_step a
          { p with
            alg := a.logged.initMapUpdate p.alg m r.region
            accumulatedInputUpdates :=
              if p.accumulatedInputUpdates &&& NewMap ≠ 0 then p.accumulatedInputUpdates
              else p.accumulatedInputUpdates ||| UpdatedMap }
          p' _ p.invocations rfl happ ?_ ?_
        · intro hi
          show Handed (if p.accumulatedInputUpdates &&& NewMap ≠ 0 then p.accumulatedInputUpdates
            else p.accumulatedInputUpdates ||| UpdatedMap) _
          rw [hm]
          simp only [AbstractPlanner.invocable, Bool.and_eq_true] at hi
          exact handed_map acc s g (fun hn => hs hn hi.1.2) (fun hn => hg hn hi.2)
        · intro _
          refine ⟨s, g, ?_, fun hn => hs (by simpa [Accepted.join, Accepted.none] using hn),
            fun hn => hg (by simpa [Accepted.join, Accepted.none] using hn)⟩
          show (if p.accumulatedInputUpdates &&& NewMap ≠ 0 then p.accumulatedInputUpdates
            else p.accumulatedInputUpdates ||| UpdatedMap) = _
          rw [hm]
          exact maskOf_map acc s g
    · rw [if_neg hsz] at happ ⊢
      simp only [Option.some.injEq] at happ
      subst happ
      refine ⟨fun hne => absurd rfl hne, fun _ => ?_⟩
      exact ⟨false, false, maskOf_newMap acc, fun _ h => by simp [setMap] at h,
        fun _ h => by simp [setMap] at h⟩

theorem callPlanner_keeps {σ : Type} (a : Algorithm σ) (q p' : AbstractPlanner σ)
    (h : callPlanner a q = some p') : p'.start = q.start ∧ p'.goal = q.goal := by
  unfold callPlanner at h
  cases hs : q.start with
  | none =>
    simp only [hs] at h
    cases h
    exact ⟨hs, rfl⟩
  | some s =>
    cases hg : q.goal with
    | none =>
      simp only [hs, hg] at h
      cases h
      exact ⟨hs, hg⟩
    | some g =>
      simp only [hs, hg] at h
      split_ifs at h
      · cases hc : a.calculatePath q.alg q.accumulatedInputUpdates (s.1.toNat, s.2.toNat)
            (g.1.toNat, g.2.toNat) with
        | none => rw [hc] at h; cases h
        | some r =>
          rw [hc] at h
          cases h
          exact ⟨rfl, rfl⟩
      · cases h
        exact ⟨hs, hg⟩

/-- A start or goal accepted with an input is set after it. -/
theorem accepted_is_set {σ : Type} (a : Algorithm σ) (p p' : AbstractPlanner σ) (c : Change)
    (happ : c.apply a p = some p') :
    ((c.accepted p).start = true → p'.start.isSome = true) ∧
    ((c.accepted p).goal = true → p'.goal.isSome = true) := by
  have hstart : ∀ (q q' : AbstractPlanner σ) (pose : Pose), setStart a q pose = some q' →
      accepts q.mapSize pose = true → q'.start.isSome = true := by
    intro q q' pose hq hacc
    cases pose with
    | none => cases hacc
    | some pos =>
      have hin : inMap q.mapSize pos = true := hacc
      simp only [setStart, hin, if_true] at hq
      rw [(callPlanner_keeps a _ q' hq).1]
      rfl
  have hgoal : ∀ (q q' : AbstractPlanner σ) (pose : Pose), setGoal a q pose = some q' →
      accepts q.mapSize pose = true → q'.goal.isSome = true := by
    intro q q' pose hq hacc
    cases pose with
    | none => cases hacc
    | some pos =>
      have hin : inMap q.mapSize pos = true := hacc
      simp only [setGoal, hin, if_true] at hq
      rw [(callPlanner_keeps a _ q' hq).2]
      rfl
  cases c with
  | start pose =>
    exact ⟨fun h => hstart p p' pose happ h, (fun h => by cases h)⟩
  | goal pose =>
    exact ⟨(fun h => by cases h), fun h => hgoal p p' pose happ h⟩
  | startGoal s0 g0 =>
    simp only [Change.apply] at happ
    cases s0 with
    | none =>
      simp only [setStartGoal, setStart, Option.some_bind] at happ
      cases g0 with
      | none => exact ⟨(fun h => by cases h), (fun h => by cases h)⟩
      | some g1 => exact ⟨(fun h => by cases h), fun h => hgoal _ p' (some g1) happ h⟩
    | some s1 =>
      cases g0 with
      | none =>
        simp only [setStartGoal, setGoal, Option.some_bind] at happ
        exact ⟨fun h => hstart _ p' (some s1) happ h, (fun h => by cases h)⟩
      | some g1 =>
        simp only [Change.accepted, Bool.and_eq_true]
        have key : inMap p.mapSize s1 = true ∧ inMap p.mapSize g1 = true →
            p'.start.isSome = true ∧ p'.goal.isSome = true := by
          intro ⟨h1, h2⟩
          simp only [setStartGoal, h1, h2, Bool.not_true, Bool.false_eq_true, if_false] at happ
          obtain ⟨k1, k2⟩ := callPlanner_keeps a _ p' happ
          rw [k1, k2]
          exact ⟨rfl, rfl⟩
        exact ⟨fun h => (key h).1, fun h => (key h).2⟩
  | newMap m => exact ⟨(fun h => by cases h), (fun h => by cases h)⟩
  | editMap m r =>
    simp only [Change.accepted]
    split_ifs
    · exact ⟨(fun h => by cases h), (fun h => by cases h)⟩
    · exact ⟨(fun h => by cases h), (fun h => by cases h)⟩

theorem kept_of_maskOf (acc own : Accepted) (s g : Bool)
    (hs : own.start = true → (acc.join own).newMap = true → s = true)
    (hg : own.goal = true → (acc.join own).newMap = true → g = true) :
    Kept (maskOf (acc.join own) s g) own := by
  obtain ⟨a1, a2, a3, a4⟩ := acc
  obtain ⟨b1, b2, b3, b4⟩ := own
  revert hs hg
  unfold Kept
  cases a1 <;> cases a2 <;> cases a3 <;> cases a4 <;> cases b1 <;> cases b2 <;> cases b3 <;>
    cases b4 <;> cases s <;> cases g <;> decide

/-- For every input of a sequence: if it led to an invocation, the change mask handed
over holds what the claim asks for the changes accepted since the previous invocation,
and the pending mask is empty right after; if it did not, the pending mask holds the
changes accepted with this input. -/
theorem observations_spec {σ : Type} (a : Algorithm σ) :
    ∀ (cs : List Change) (p : AbstractPlanner (σ × List Nat)) (acc : Accepted) (obs : List Observation),
      MaskInv p acc → observations a cs p acc = some obs →
      ∀ e ∈ obs, (e.invoked = true → Handed e.mask e.accepted ∧ e.pendingAfter = 0) ∧
        (e.invoked = false → Kept e.pendingAfter e.own)
  | [], _, _, obs, _, h => by
    simp only [observations, Option.some.injEq] at h
    subst h
    intro e he
    cases he
  | c :: cs, p, acc, obs, hinv, h => by
    simp only [observations] at h
    cases happ : c.apply a.logged p with
    | none => rw [happ] at h; cases h
    | some p' =>
      rw [happ] at h
      simp only at h
      obtain ⟨s1, s2⟩ := observer_step a p p' acc c hinv happ
      obtain ⟨t1, t2⟩ := accepted_is_set a.logged p p' c happ
      by_cases hne : p'.invocations ≠ p.invocations
      · obtain ⟨k1, k2, k3⟩ := s1 hne
        have hd : decide (p'.invocations ≠ p.invocations) = true := by simpa using hne
        rw [hd] at h
        simp only [if_true] at h
        cases hrest : observations a cs p' Accepted.none with
        | none => rw [hrest] at h; cases h
        | some obs' =>
          rw [hrest] at h
          simp only [Option.map_some', Option.some.injEq] at h
          subst h
          intro e he
          rcases List.mem_cons.1 he with he | he
          · subst he
            exact ⟨fun _ => ⟨k1, k2⟩, (fun hf => by cases hf)⟩
          · exact observations_spec a cs p' Accepted.none obs' k3 hrest e he
      · have hd : decide (p'.invocations ≠ p.invocations) = false := by simpa using hne
        rw [hd] at h
        simp only [Bool.false_eq_true, if_false] at h
        push_neg at hne
        have hinv' := s2 hne
        cases hrest : observations a cs p' (acc.join (c.accepted p)) with
        | none => rw [hrest] at h; cases h
        | some obs' =>
          rw [hrest] at h
          simp only [Option.map_some', Option.some.injEq] at h
          subst h
          intro e he
          rcases List.mem_cons.1 he with he | he
          · subst he
            refine ⟨(fun hf => by cases hf), fun _ => ?_⟩
            obtain ⟨s, g, hm, hs, hg⟩ := hinv'
            show Kept p'.accumulatedInputUpdates (c.accepted p)
            rw [hm]
            exact kept_of_maskOf acc (c.accepted p) s g (fun h1 h2 => hs h2 (t1 h1))
              (fun h1 h2 => hg h2 (t2 h1))
          · exact observations_spec a cs p' _ obs' hinv' hrest e he

/-! ## Blocked start or goal -/

/-- What `callPlanner` leaves when the algorithm hands back an empty path together
with an error text. -/
theorem callPlanner_error {σ : Type} (a : Algorithm σ) (p : AbstractPlanner σ) (s g : Int × Int)
    (r : PlanResult σ) (hs : p.start = some s) (hg : p.goal = some g)
    (hsz : p.mapSize.1 ≠ 0 ∧ p.mapSize.2 ≠ 0)
    (hr : a.calculatePath p.alg p.accumulatedInputUpdates (s.1.toNat, s.2.toNat) (g.1.toNat, g.2.toNat)
      = some r)
    (hpath : r.path = []) (herr : r.error ≠ "") :
    ∃ p', callPlanner a p = some p' ∧ p'.path = [] ∧ p'.lastError = r.error ∧ p'.alg = r.state := by
  refine ⟨{ p with
      alg := r.state
      path := r.path
      accumulatedInputUpdates := 0
      lastError := if r.path = [] ∧ (if r.path ≠ [] then "" else r.error) = ""
        then "No Path set" else (if r.path ≠ [] then "" else r.error) }, ?_, hpath, ?_, rfl⟩
  · unfold callPlanner
    simp only [hs, hg, if_pos hsz, hr]
  · simp only [hpath, ne_eq, not_true_eq_false, if_false, true_and, if_neg herr]

theorem astar_blocked_endpoint (p : AbstractPlanner AStar.Planner) (s g : Int × Int)
    (hs : p.start = some s) (hg : p.goal = some g) (hsz : p.mapSize.1 ≠ 0 ∧ p.mapSize.2 ≠ 0)
    (hb : (p.alg.rasterElements (s.2.toNat * p.alg.width + s.1.toNat)).list = AStar.ListType.List_Unwalkable ∨
      (p.alg.rasterElements (g.2.toNat * p.alg.width + g.1.toNat)).list = AStar.ListType.List_Unwalkable) :
    ∃ p', callPlanner AStar.algorithm p = some p' ∧ p'.path = [] ∧
      (p'.lastError = "Start position blocked" ∨ p'.lastError = "Goal position blocked") ∧
      p'.alg = p.alg := by
  by_cases h1 : (p.alg.rasterElements (g.2.toNat * p.alg.width + g.1.toNat)).list
      = AStar.ListType.List_Unwalkable
  · obtain ⟨p', k1, k2, k3, k4⟩ := callPlanner_error AStar.algorithm p s g
      { state := p.alg, path := [], error := "Goal position blocked" } hs hg hsz
      (by simp only [AStar.algorithm, AStar.calculatePath, if_pos h1, Option.map_some']) rfl (by simp)
    exact ⟨p', k1, k2, Or.inr k3, k4⟩
  · have h2 : (p.alg.rasterElements (s.2.toNat * p.alg.width + s.1.toNat)).list
        = AStar.ListType.List_Unwalkable := by
      rcases hb with h | h
      · exact h
      · exact absurd h h1
    obtain ⟨p', k1, k2, k3, k4⟩ := callPlanner_error AStar.algorithm p s g
      { state := p.alg, path := [], error := "Start position blocked" } hs hg hsz
      (by simp only [AStar.algorithm, AStar.calculatePath, if_neg h1, if_pos h2, Option.map_some']) rfl (by simp)
    exact ⟨p', k1, k2, Or.inl k3, k4⟩

theorem dstar_blocked_endpoint (fuel : Nat) (p : AbstractPlanner DStar.Planner) (s g : Int × Int)
    (hs : p.start = some s) (hg : p.goal = some g) (hsz : p.mapSize.1 ≠ 0 ∧ p.mapSize.2 ≠ 0)
    (hb : (p.alg.cells (s.2.toNat * p.alg.width + s.1.toNat)).blocked = true ∨
      (p.alg.cells (g.2.toNat * p.alg.width + g.1.toNat)).blocked = true) :
    ∃ p', callPlanner (DStar.algorithm fuel) p = some p' ∧ p'.path = [] ∧
      (p'.lastError = "Start position blocked" ∨ p'.lastError = "Goal position blocked") ∧
      p'.alg = p.alg := by
  by_cases h1 : (p.alg.cells (s.2.toNat * p.alg.width + s.1.toNat)).blocked = true
  · obtain ⟨p', k1, k2, k3, k4⟩ := callPlanner_error (DStar.algorithm fuel) p s g
      { state := p.alg, path := [], error := "Start position blocked" } hs hg hsz
      (by simp only [DStar.algorithm, DStar.doCalculatePath, if_pos h1, Option.map_some']) rfl (by simp)
    exact ⟨p', k1, k2, Or.inl k3, k4⟩
  · have h2 : (p.alg.cells (g.2.toNat * p.alg.width + g.1.toNat)).blocked = true := by
      rcases hb with h | h
      · exact absurd h h1
      · exact h
    obtain ⟨p', k1, k2, k3, k4⟩ := callPlanner_error (DStar.algorithm fuel) p s g
      { state := p.alg, path := [], error := "Goal position blocked" } hs hg hsz
      (by simp only [DStar.algorithm, DStar.doCalculatePath, if_neg h1, if_pos h2, Option.map_some']) rfl (by simp)
    exact ⟨p', k1, k2, Or.inr k3, k4⟩

theorem fdstar_blocked_endpoint (fuel : Nat) (p : AbstractPlanner FocussedDStar.Planner)
    (s g : Int × Int)
    (hs : p.start = some s) (hg : p.goal = some g) (hsz : p.mapSize.1 ≠ 0 ∧ p.mapSize.2 ≠ 0)
    (hb : (p.alg.cells (s.2.toNat * p.alg.width + s.1.toNat)).blocked = true ∨
      (p.alg.cells (g.2.toNat * p.alg.width + g.1.toNat)).blocked = true) :
    ∃ p', callPlanner (FocussedDStar.algorithm fuel) p = some p' ∧ p'.path = [] ∧
      (p'.lastError = "Start position blocked" ∨ p'.lastError = "Goal position blocked") ∧
      p'.alg = p.alg := by
  by_cases h1 : (p.alg.cells (s.2.toNat * p.alg.width + s.1.toNat)).blocked = true
  · obtain ⟨p', k1, k2, k3, k4⟩ := callPlanner_error (FocussedDStar.algorithm fuel) p s g
      { state := p.alg, path := [], error := "Start position blocked" } hs hg hsz
      (by simp only [FocussedDStar.algorithm, FocussedDStar.doCalculatePath, if_pos h1, Option.map_some'])
      rfl (by simp)
    exact ⟨p', k1, k2, Or.inl k3, k4⟩
  · have h2 : (p.alg.cells (g.2.toNat * p.alg.width + g.1.toNat)).blocked = true := by
      rcases hb with h | h
      · exact absurd h h1
      · exact h
    obtain ⟨p', k1, k2, k3, k4⟩ := callPlanner_error (FocussedDStar.algorithm fuel) p s g
      { state := p.alg, path := [], error := "Goal position blocked" } hs hg hsz
      (by simp only [FocussedDStar.algorithm, FocussedDStar.doCalculatePath, if_neg h1, if_pos h2,
        Option.map_some']) rfl (by simp)
    exact ⟨p', k1, k2, Or.inr k3, k4⟩

theorem dlite_blocked_endpoint (fuel : Nat) (p : AbstractPlanner DStarLite.Planner) (s g : Int × Int)
    (hs : p.start = some s) (hg : p.goal = some g) (hsz : p.mapSize.1 ≠ 0 ∧ p.mapSize.2 ≠ 0)
    (hb : (p.alg.cells (s.2.toNat * p.alg.width + s.1.toNat)).blocked = true ∨
      (p.alg.cells (g.2.toNat * p.alg.width + g.1.toNat)).blocked = true) :
    ∃ p', callPlanner (DStarLite.algorithm fuel) p = some p' ∧ p'.path = [] ∧
      (p'.lastError = "Start position blocked" ∨ p'.lastError = "Goal position blocked") ∧
      p'.alg = { p.alg with pStart := s.2.toNat * p.alg.width + s.1.toNat
                            pGoal := g.2.toNat * p.alg.width + g.1.toNat } := by
  by_cases h1 : (p.alg.cells (s.2.toNat * p.alg.width + s.1.toNat)).blocked = true
  · obtain ⟨p', k1, k2, k3, k4⟩ := callPlanner_error (DStarLite.algorithm fuel) p s g
      { state := { p.alg with pStart := s.2.toNat * p.alg.width + s.1.toNat
                              pGoal := g.2.toNat * p.alg.width + g.1.toNat }
        path := [], error := "Start position blocked" } hs hg hsz
      (by simp only [DStarLite.algorithm, DStarLite.doCalculatePath, if_pos h1, Option.map_some']) rfl (by simp)
    exact ⟨p', k1, k2, Or.inl k3, k4⟩
  · have h2 : (p.alg.cells (g.2.toNat * p.alg.width + g.1.toNat)).blocked = true := by
      rcases hb with h | h
      · exact absurd h h1
      · exact h
    obtain ⟨p', k1, k2, k3, k4⟩ := callPlanner_error (DStarLite.algorithm fuel) p s g
      { state := { p.alg with pStart := s.2.toNat * p.alg.width + s.1.toNat
                              pGoal := g.2.toNat * p.alg.width + g.1.toNat }
        path := [], error := "Goal position blocked" } hs hg hsz
      (by simp only [DStarLite.algorithm, DStarLite.doCalculatePath, if_neg h1, if_pos h2, Option.map_some'])
      rfl (by simp)
    exact ⟨p', k1, k2, Or.inr k3, k4⟩

end RasterSim

namespace RasterSim

/-! ## The claims -/

/-- C2: on the all-free 5×5 grid with start (0,0) and goal (4,4) `calculatePath` of
A* does not produce the diagonal path of 5 cells: it ends with an empty path and the
error "No Path found", because the last cell of the grid is never admitted as a
neighbour. -/
theorem AStar.open5x5_no_path :
    (AStar.calculatePath (AStar.initMap (openMap 5 5)) (0, 0) (4, 4)).map AStar.Outcome.report
      = some ([], "No Path found") := by
  set_option maxRecDepth 100000 in decide!

/-- C3: on the all-free 2×2 grid start (0,0) and goal (1,1) are free and joined by a
chain of free cells, yet `calculatePath` of A* empties the open list and reports
"No Path found" without closing the goal. -/
theorem AStar.open2x2_connected_no_path :
    FreePath (openMap 2 2) (0, 0) (1, 1) [(0, 0), (1, 1)] ∧
    (AStar.calculatePath (AStar.initMap (openMap 2 2)) (0, 0) (1, 1)).map AStar.Outcome.report
      = some ([], "No Path found") := by
  set_option maxRecDepth 100000 in decide!

/-- C5 (as stated): the heuristic of A* is not consistent under the 10/14 move costs.
For the cell (0,0) with its diagonal neighbour (1,1), which is also the goal,
`h(c) = 20` exceeds `stepcost + h(n) = 14 + 0`. -/
theorem AStar.heuristic_not_consistent :
    ¬ (AStar.heuristic (0, 0) (1, 1) ≤ (stepCost 10 14 (0, 0) (1, 1) : Int) + AStar.heuristic (1, 1) (1, 1)) := by
  decide

/-- C5 (amended): for every cell `c` with an 8-neighbour `n`, the heuristic satisfies
`h(c) ≤ stepcost(c,n) + h(n)` when the move is cardinal and `h(c) ≤ stepcost(c,n) + h(n) + 6`
in any case; and along every 8-connected sequence `l` of positions from `c` to the goal
`7 * h(c) ≤ 10 * cost(l)`: the heuristic overestimates the cheapest path by the factor
10/7 at most. -/
theorem AStar.heuristic_bounds (c n goal : Pos) (l : List Pos) (hadj : Adjacent c n)
    (hhead : l.head? = some c) (hlast : l.getLast? = some goal) (hchain : IsChain l) :
    (AStar.heuristic c goal ≤ (stepCost 10 14 c n : Int) + AStar.heuristic n goal + 6) ∧
    ((c.1 = n.1 ∨ c.2 = n.2) →
      AStar.heuristic c goal ≤ (stepCost 10 14 c n : Int) + AStar.heuristic n goal) ∧
    7 * AStar.heuristic c goal ≤ 10 * (pathCost 10 14 l : Int) :=
  ⟨(AStar.heuristic_step c n goal hadj).1, (AStar.heuristic_step c n goal hadj).2.1,
    AStar.heuristic_chain goal l c hhead hlast hchain⟩

/-- Witness of `AStar.heuristic_bounds`: the cell (0,0), its neighbour (1,1) and the
diagonal path to the goal (2,2). -/
theorem AStar.heuristic_bounds_witness :
    (AStar.heuristic (0, 0) (2, 2) ≤ (stepCost 10 14 (0, 0) (1, 1) : Int) + AStar.heuristic (1, 1) (2, 2) + 6) ∧
    (((0, 0) : Pos).1 = ((1, 1) : Pos).1 ∨ ((0, 0) : Pos).2 = ((1, 1) : Pos).2 →
      AStar.heuristic (0, 0) (2, 2) ≤ (stepCost 10 14 (0, 0) (1, 1) : Int) + AStar.heuristic (1, 1) (2, 2)) ∧
    7 * AStar.heuristic (0, 0) (2, 2) ≤ 10 * (pathCost 10 14 [(0, 0), (1, 1), (2, 2)] : Int) :=
  AStar.heuristic_bounds (0, 0) (1, 1) (2, 2) [(0, 0), (1, 1), (2, 2)] (by decide) rfl rfl (by decide)

/-- C4 (as stated): a non-empty path returned by `calculatePath` of A* need not be a
lowest-cost path. On the 4×3 map whose only blocked cell is (2,1), with start (3,0) and
goal (0,2), the path returned costs 44 while the free path (3,0),(2,0),(1,1),(0,2)
costs 38. -/
theorem AStar.returns_costlier_path :
    (AStar.calculatePath (AStar.initMap (mapWith 4 3 [(2, 1)])) (3, 0) (0, 2)).map AStar.Outcome.report
      = some ([(3, 0), (3, 1), (2, 2), (1, 2), (0, 2)], "") ∧
    FreePath (mapWith 4 3 [(2, 1)]) (3, 0) (0, 2) [(3, 0), (2, 0), (1, 1), (0, 2)] ∧
    pathCost 10 14 [(3, 0), (2, 0), (1, 1), (0, 2)] <
      pathCost 10 14 [(3, 0), (3, 1), (2, 2), (1, 2), (0, 2)] := by
  set_option maxRecDepth 100000 in decide!

/-- C4 (amended): on a map whose width and height fit the `unsigned short` coordinates,
every non-empty path that `calculatePath` of A* returns, in any state the planner
can be in for this map, is an 8-connected path of free cells from the start to the goal
(its cost is therefore at least the minimum, and `AStar.returns_costlier_path` shows
that it can exceed it). -/
theorem AStar.returned_path_is_free_path (m : GridMap) (p : AStar.Planner) (start goal : Pos)
    (o : AStar.Outcome) (hw : m.width ≤ USHORT) (hh : m.height ≤ USHORT)
    (hp : AStar.Reachable m p) (hs : start.1 < m.width ∧ start.2 < m.height)
    (hg : goal.1 < m.width ∧ goal.2 < m.height)
    (ho : AStar.calculatePath p start goal = some o) (hne : o.path ≠ []) :
    FreePath m start goal o.path := by
  exact ((AStar.calculatePath_spec m p start goal o (AStar.reachable_represents m hw hh p hp) hs hg ho).2 hne).1

/-- Witness of `AStar.returned_path_is_free_path`: the 4×3 map with (2,1) blocked,
start (3,0), goal (0,2). -/
theorem AStar.returned_path_is_free_path_witness :
    ∃ o, AStar.calculatePath (AStar.initMap (mapWith 4 3 [(2, 1)])) (3, 0) (0, 2) = some o ∧
      o.path ≠ [] ∧ FreePath (mapWith 4 3 [(2, 1)]) (3, 0) (0, 2) o.path := by
  have hev : (AStar.calculatePath (AStar.initMap (mapWith 4 3 [(2, 1)])) (3, 0) (0, 2)).map
      AStar.Outcome.report = some ([(3, 0), (3, 1), (2, 2), (1, 2), (0, 2)], "") := by
    set_option maxRecDepth 100000 in decide!
  cases h : AStar.calculatePath (AStar.initMap (mapWith 4 3 [(2, 1)])) (3, 0) (0, 2) with
  | none => rw [h] at hev; cases hev
  | some o =>
    rw [h] at hev
    have hpath : o.path = [(3, 0), (3, 1), (2, 2), (1, 2), (0, 2)] := by
      simp only [Option.map_some', Option.some.injEq, AStar.Outcome.report, Prod.mk.injEq] at hev
      exact hev.1
    have hne : o.path ≠ [] := by rw [hpath]; simp
    exact ⟨o, rfl, hne,
      AStar.returned_path_is_free_path (mapWith 4 3 [(2, 1)]) _ (3, 0) (0, 2) o (by decide) (by decide)
        AStar.Reachable.initMap (by decide) (by decide) h hne⟩

/-- C9: D* Lite behind the contract on the all-free 3×2 map with start (0,0) and goal
(2,0). After (1,0) was blocked and unblocked again the plan succeeds with the path
(0,0),(1,1),(2,0); when the cell (1,1) of that path is then blocked through `updateMap`,
the replanning succeeds with the path (0,0),(1,0),(2,0), whose cost is smaller than the
cost of the path before. -/
theorem DStarLite.replanned_path_cheaper :
    DStarLite.scenarioBlockAfterUnblock = some
      [([(0, 0), (1, 0), (2, 0)], ""), ([(0, 0), (1, 1), (2, 0)], ""),
       ([(0, 0), (1, 1), (2, 0)], ""), ([(0, 0), (1, 0), (2, 0)], "")] ∧
    pathCost 5 7 [(0, 0), (1, 0), (2, 0)] < pathCost 5 7 [(0, 0), (1, 1), (2, 0)] := by
  set_option maxRecDepth 100000 in decide!

/-- C10: D* Lite behind the contract on the 3×3 map with (1,1) and (2,1) blocked, start
(1,0), goal (2,2). After (2,1) was unblocked the plan succeeds with the path
(1,0),(0,1),(1,2),(2,2); blocking its cell (0,1) yields the path (1,0),(2,1),(2,2), and
unblocking (0,1) again yields the path (1,0),(0,1),(1,2),(2,2), whose cost is greater
than the cost of the path found while (0,1) was blocked. -/
theorem DStarLite.unblocked_path_costlier :
    DStarLite.scenarioUnblockAgain = some
      [([(1, 0), (0, 1), (1, 2), (2, 2)], ""), ([(1, 0), (0, 1), (1, 2), (2, 2)], ""),
       ([(1, 0), (2, 1), (2, 2)], ""), ([(1, 0), (0, 1), (1, 2), (2, 2)], "")] ∧
    pathCost 5 7 [(1, 0), (2, 1), (2, 2)] < pathCost 5 7 [(1, 0), (0, 1), (1, 2), (2, 2)] := by
  set_option maxRecDepth 100000 in decide!

/-- C7 (as stated): a path that a planner sets can hold two consecutive points that are
not one move apart. D* behind the contract on the all-free map of width 65537 and
height 1, with start (65536,0) and goal (65535,0), sets the path (0,0),(65535,0): the
`unsigned short` coordinate of the start cell has wrapped to 0. -/
theorem DStar.wide_map_path_jumps :
    DStar.scenarioWideMap = some ([(0, 0), (65535, 0)], "") ∧
    ¬ IsChain [(0, 0), (65535, 0)] := by
  set_option maxRecDepth 100000 in decide!

/-- C7 (amended): for each of the four planners (A*, D*, Focused D*, D* Lite) behind
the contract, in every state that `setMap`, `updateMap`, `setStart`, `setGoal` and
`setStartGoal` lead to with maps whose width and height are at most 65536, any two
consecutive points of the path differ by at most 1 in x and in y and are not equal. -/
theorem path_steps_are_moves (fuel : Nat) :
    (∀ init p, Reachable AStar.algorithm init p → IsChain p.path) ∧
    (∀ init p, Reachable (DStar.algorithm fuel) init p → IsChain p.path) ∧
    (∀ init p, Reachable (FocussedDStar.algorithm fuel) init p → IsChain p.path) ∧
    (∀ init p, Reachable (DStarLite.algorithm fuel) init p → IsChain p.path) :=
  ⟨fun init p h => contract_chain (contract_reachable AStar.astar_algSpec init p h),
    fun init p h => contract_chain (contract_reachable (DStar.dstar_algSpec fuel) init p h),
    fun init p h => contract_chain (contract_reachable (FocussedDStar.fdstar_algSpec fuel) init p h),
    fun init p h => contract_chain (contract_reachable (DStarLite.dlite_algSpec fuel) init p h)⟩

/-- Witness of `path_steps_are_moves`: the four planners on the 4×3 map with (2,1)
blocked, start (3,0), goal (0,2). -/
theorem path_steps_are_moves_witness :
    (∃ p, planOnce AStar.algorithm (AStar.initMap (openMap 0 0)) (mapWith 4 3 [(2, 1)])
        (some (3, 0)) (some (0, 2)) = some p ∧
      p.path = [(3, 0), (3, 1), (2, 2), (1, 2), (0, 2)] ∧ IsChain p.path) ∧
    (∃ p, planOnce (DStar.algorithm 100) (DStar.initMap (openMap 0 0)) (mapWith 4 3 [(2, 1)])
        (some (3, 0)) (some (0, 2)) = some p ∧
      p.path = [(3, 0), (2, 0), (1, 1), (0, 2)] ∧ IsChain p.path) ∧
    (∃ p, planOnce (FocussedDStar.algorithm 100) (FocussedDStar.fresh false) (mapWith 4 3 [(2, 1)])
        (some (3, 0)) (some (0, 2)) = some p ∧
      p.path = [(3, 0), (2, 0), (1, 1), (0, 2)] ∧ IsChain p.path) ∧
    (∃ p, planOnce (DStarLite.algorithm 100) DStarLite.fresh (mapWith 4 3 [(2, 1)])
        (some (3, 0)) (some (0, 2)) = some p ∧
      p.path = [(3, 0), (2, 0), (1, 1), (0, 2)] ∧ IsChain p.path) := by
  refine ⟨?_, ?_, ?_, ?_⟩
  · obtain ⟨p, hp, hpath⟩ := planOnce_report AStar.algorithm (AStar.initMap (openMap 0 0))
      (mapWith 4 3 [(2, 1)]) (some (3, 0)) (some (0, 2)) ([(3, 0), (3, 1), (2, 2), (1, 2), (0, 2)], "")
      (by set_option maxRecDepth 100000 in decide!)
    exact ⟨p, hp, hpath, (path_steps_are_moves 100).1 _ p
      (planOnce_reachable _ _ _ _ _ p (by decide) (by decide) hp)⟩
  · obtain ⟨p, hp, hpath⟩ := planOnce_report (DStar.algorithm 100) (DStar.initMap (openMap 0 0))
      (mapWith 4 3 [(2, 1)]) (some (3, 0)) (some (0, 2)) ([(3, 0), (2, 0), (1, 1), (0, 2)], "")
      (by set_option maxRecDepth 100000 in decide!)
    exact ⟨p, hp, hpath, (path_steps_are_moves 100).2.1 _ p
      (planOnce_reachable _ _ _ _ _ p (by decide) (by decide) hp)⟩
  · obtain ⟨p, hp, hpath⟩ := planOnce_report (FocussedDStar.algorithm 100) (FocussedDStar.fresh false)
      (mapWith 4 3 [(2, 1)]) (some (3, 0)) (some (0, 2)) ([(3, 0), (2, 0), (1, 1), (0, 2)], "")
      (by set_option maxRecDepth 100000 in decide!)
    exact ⟨p, hp, hpath, (path_steps_are_moves 100).2.2.1 _ p
      (planOnce_reachable _ _ _ _ _ p (by decide) (by decide) hp)⟩
  · obtain ⟨p, hp, hpath⟩ := planOnce_report (DStarLite.algorithm 100) DStarLite.fresh
      (mapWith 4 3 [(2, 1)]) (some (3, 0)) (some (0, 2)) ([(3, 0), (2, 0), (1, 1), (0, 2)], "")
      (by set_option maxRecDepth 100000 in decide!)
    exact ⟨p, hp, hpath, (path_steps_are_moves 100).2.2.2 _ p
      (planOnce_reachable _ _ _ _ _ p (by decide) (by decide) hp)⟩

/-- C8 (as stated): the first and the last point of a path that a planner sets can
differ from the start and the goal cell. A* behind the contract on the all-free map of
width 65540 and height 1, with start (65536,0) and goal (65538,0), sets the path
(0,0),(1,0),(2,0): the `unsigned short` coordinates of the cells have wrapped. -/
theorem AStar.wide_map_path_ends :
    AStar.scenarioWideMap = some ([(0, 0), (1, 0), (2, 0)], "") ∧
    ([(0, 0), (1, 0), (2, 0)] : List Pos).head? ≠ some (Pose.cell (65536, 0)) ∧
    ([(0, 0), (1, 0), (2, 0)] : List Pos).getLast? ≠ some (Pose.cell (65538, 0)) := by
  set_option maxRecDepth 100000 in decide!

/-- C8 (amended): for each of the four planners (A*, D*, Focused D*, D* Lite) behind
the contract, in every state that `setMap`, `updateMap`, `setStart`, `setGoal` and
`setStartGoal` lead to with maps whose width and height are at most 65536, a non-empty
path starts at the start cell and ends at the goal cell, and it is the single point
when start and goal are equal. -/
theorem path_joins_start_and_goal (fuel : Nat) :
    (∀ init p, Reachable AStar.algorithm init p → p.path ≠ [] →
      ∃ s g, p.start = some s ∧ p.goal = some g ∧ p.path.head? = some (Pose.cell s) ∧
        p.path.getLast? = some (Pose.cell g) ∧ (s = g → p.path = [Pose.cell s])) ∧
    (∀ init p, Reachable (DStar.algorithm fuel) init p → p.path ≠ [] →
      ∃ s g, p.start = some s ∧ p.goal = some g ∧ p.path.head? = some (Pose.cell s) ∧
        p.path.getLast? = some (Pose.cell g) ∧ (s = g → p.path = [Pose.cell s])) ∧
    (∀ init p, Reachable (FocussedDStar.algorithm fuel) init p → p.path ≠ [] →
      ∃ s g, p.start = some s ∧ p.goal = some g ∧ p.path.head? = some (Pose.cell s) ∧
        p.path.getLast? = some (Pose.cell g) ∧ (s = g → p.path = [Pose.cell s])) ∧
    (∀ init p, Reachable (DStarLite.algorithm fuel) init p → p.path ≠ [] →
      ∃ s g, p.start = some s ∧ p.goal = some g ∧ p.path.head? = some (Pose.cell s) ∧
        p.path.getLast? = some (Pose.cell g) ∧ (s = g → p.path = [Pose.cell s])) :=
  ⟨fun init p h => contract_ends (contract_reachable AStar.astar_algSpec init p h),
    fun init p h => contract_ends (contract_reachable (DStar.dstar_algSpec fuel) init p h),
    fun init p h => contract_ends (contract_reachable (FocussedDStar.fdstar_algSpec fuel) init p h),
    fun init p h => contract_ends (contract_reachable (DStarLite.dlite_algSpec fuel) init p h)⟩

/-- Witness of `path_joins_start_and_goal`: the four planners on the all-free 3×3 map
with start and goal both at (1,1). -/
theorem path_joins_start_and_goal_witness :
    (∃ p, planOnce AStar.algorithm (AStar.initMap (openMap 0 0)) (openMap 3 3)
        (some (1, 1)) (some (1, 1)) = some p ∧ p.path = [(1, 1)] ∧
      ∃ s g, p.start = some s ∧ p.goal = some g ∧ p.path.head? = some (Pose.cell s) ∧
        p.path.getLast? = some (Pose.cell g) ∧ (s = g → p.path = [Pose.cell s])) ∧
    (∃ p, planOnce (DStar.algorithm 100) (DStar.initMap (openMap 0 0)) (openMap 3 3)
        (some (1, 1)) (some (1, 1)) = some p ∧ p.path = [(1, 1)] ∧
      ∃ s g, p.start = some s ∧ p.goal = some g ∧ p.path.head? = some (Pose.cell s) ∧
        p.path.getLast? = some (Pose.cell g) ∧ (s = g → p.path = [Pose.cell s])) ∧
    (∃ p, planOnce (FocussedDStar.algorithm 100) (FocussedDStar.fresh false) (openMap 3 3)
        (some (1, 1)) (some (1, 1)) = some p ∧ p.path = [(1, 1)] ∧
      ∃ s g, p.start = some s ∧ p.goal = some g ∧ p.path.head? = some (Pose.cell s) ∧
        p.path.getLast? = some (Pose.cell g) ∧ (s = g → p.path = [Pose.cell s])) ∧
    (∃ p, planOnce (DStarLite.algorithm 100) DStarLite.fresh (openMap 3 3)
        (some (1, 1)) (some (1, 1)) = some p ∧ p.path = [(1, 1)] ∧
      ∃ s g, p.start = some s ∧ p.goal = some g ∧ p.path.head? = some (Pose.cell s) ∧
        p.path.getLast? = some (Pose.cell g) ∧ (s = g → p.path = [Pose.cell s])) := by
  have hne : ∀ (l : List Pos), l = [(1, 1)] → l ≠ [] := fun l h => by rw [h]; simp
  refine ⟨?_, ?_, ?_, ?_⟩
  · obtain ⟨p, hp, hpath⟩ := planOnce_report AStar.algorithm (AStar.initMap (openMap 0 0))
      (openMap 3 3) (some (1, 1)) (some (1, 1)) ([(1, 1)], "")
      (by set_option maxRecDepth 100000 in decide!)
    exact ⟨p, hp, hpath, (path_joins_start_and_goal 100).1 _ p
      (planOnce_reachable _ _ _ _ _ p (by decide) (by decide) hp) (hne _ hpath)⟩
  · obtain ⟨p, hp, hpath⟩ := planOnce_report (DStar.algorithm 100) (DStar.initMap (openMap 0 0))
      (openMap 3 3) (some (1, 1)) (some (1, 1)) ([(1, 1)], "")
      (by set_option maxRecDepth 100000 in decide!)
    exact ⟨p, hp, hpath, (path_joins_start_and_goal 100).2.1 _ p
      (planOnce_reachable _ _ _ _ _ p (by decide) (by decide) hp) (hne _ hpath)⟩
  · obtain ⟨p, hp, hpath⟩ := planOnce_report (FocussedDStar.algorithm 100) (FocussedDStar.fresh false)
      (openMap 3 3) (some (1, 1)) (some (1, 1)) ([(1, 1)], "")
      (by set_option maxRecDepth 100000 in decide!)
    exact ⟨p, hp, hpath, (path_joins_start_and_goal 100).2.2.1 _ p
      (planOnce_reachable _ _ _ _ _ p (by decide) (by decide) hp) (hne _ hpath)⟩
  · obtain ⟨p, hp, hpath⟩ := planOnce_report (DStarLite.algorithm 100) DStarLite.fresh
      (openMap 3 3) (some (1, 1)) (some (1, 1)) ([(1, 1)], "")
      (by set_option maxRecDepth 100000 in decide!)
    exact ⟨p, hp, hpath, (path_joins_start_and_goal 100).2.2.2 _ p
      (planOnce_reachable _ _ _ _ _ p (by decide) (by decide) hp) (hne _ hpath)⟩

/-- C11: D* Lite behind the contract on the 3×3 map with (1,1) and (2,1) blocked, start
(1,0), goal (2,2). After the plan is complete, (2,1) is unblocked through `updateMap`:
the repaired result is still the path (1,0),(0,1),(1,2),(2,2), whereas a plan from
scratch on the edited grid returns (1,0),(2,1),(2,2), whose cost is smaller. -/
theorem DStarLite.repair_differs_from_scratch :
    DStarLite.scenarioRepair = some
      [([(1, 0), (0, 1), (1, 2), (2, 2)], ""), ([(1, 0), (0, 1), (1, 2), (2, 2)], "")] ∧
    DStarLite.scenarioFromScratch = some ([(1, 0), (2, 1), (2, 2)], "") ∧
    pathCost 5 7 [(1, 0), (2, 1), (2, 2)] < pathCost 5 7 [(1, 0), (0, 1), (1, 2), (2, 2)] := by
  set_option maxRecDepth 100000 in decide!

/-- C12: for D* Lite and step budgets `N1 ≥ 1` and `N2 ≥ 1`, `computeShortestPath(N1)`
followed by `computeShortestPath(N2)` returns (with fuel beyond the budgets, both calls
end) and leaves the same state and the same flag `complete` as the single call
`computeShortestPath(N1 + N2)`. -/
theorem DStarLite.steps_compose (p : DStarLite.Planner) (N1 N2 fuel1 fuel2 fuel : Nat)
    (h1 : 1 ≤ N1) (h2 : 1 ≤ N2) (hf1 : N1 < fuel1) (hf2 : N2 < fuel2) (hf : N1 + N2 < fuel) :
    ∃ p1 b1 p2 b2, DStarLite.computeShortestPath fuel1 p N1 = some (p1, b1) ∧
      DStarLite.computeShortestPath fuel2 p1 N2 = some (p2, b2) ∧
      DStarLite.computeShortestPath fuel p (N1 + N2) = some (p2, b2) := by
  refine ⟨(DStarLite.bounded N1 p).1, (DStarLite.bounded N1 p).2,
    (DStarLite.bounded N2 (DStarLite.bounded N1 p).1).1,
    (DStarLite.bounded N2 (DStarLite.bounded N1 p).1).2, ?_, ?_, ?_⟩
  · exact DStarLite.dlite_computeShortestPath_bounded N1 fuel1 p h1 hf1
  · exact DStarLite.dlite_computeShortestPath_bounded N2 fuel2 _ h2 hf2
  · rw [DStarLite.dlite_computeShortestPath_bounded (N1 + N2) fuel p (by omega) hf,
      DStarLite.dlite_bounded_split]

/-- Witness of `DStarLite.steps_compose`: the state after the re-initialisation on the
all-free 3×3 map with start (0,0) and goal (2,2), budgets 2 and 3. -/
theorem DStarLite.steps_compose_witness :
    ∃ p1 b1 p2 b2,
      DStarLite.computeShortestPath 3
        (DStarLite.resetState { DStarLite.initMap DStarLite.fresh (openMap 3 3) with pStart := 0, pGoal := 8 })
        2 = some (p1, b1) ∧
      DStarLite.computeShortestPath 4 p1 3 = some (p2, b2) ∧
      DStarLite.computeShortestPath 6
        (DStarLite.resetState { DStarLite.initMap DStarLite.fresh (openMap 3 3) with pStart := 0, pGoal := 8 })
        (2 + 3) = some (p2, b2) :=
  DStarLite.steps_compose _ 2 3 3 4 6 (by decide) (by decide) (by decide) (by decide) (by decide)

/-- C13: for each of the four planners behind the contract, an invocation with valid
start and goal on a non-empty grid in which the start cell or the goal cell is blocked
returns, leaves the path empty, sets `lastError` to "Start position blocked" or to
"Goal position blocked", and leaves the state of the algorithm as it was (D* Lite
stores the start and the goal cell in `pStart` and `pGoal` before the test; its cells,
heap and `k_m` are as they were). -/
theorem blocked_endpoint_is_reported (fuel : Nat) :
    (∀ (p : AbstractPlanner AStar.Planner) (s g : Int × Int), p.start = some s → p.goal = some g →
      p.mapSize.1 ≠ 0 ∧ p.mapSize.2 ≠ 0 →
      (p.alg.rasterElements (s.2.toNat * p.alg.width + s.1.toNat)).list = AStar.ListType.List_Unwalkable ∨
        (p.alg.rasterElements (g.2.toNat * p.alg.width + g.1.toNat)).list = AStar.ListType.List_Unwalkable →
      ∃ p', callPlanner AStar.algorithm p = some p' ∧ p'.path = [] ∧
        (p'.lastError = "Start position blocked" ∨ p'.lastError = "Goal position blocked") ∧
        p'.alg = p.alg) ∧
    (∀ (p : AbstractPlanner DStar.Planner) (s g : Int × Int), p.start = some s → p.goal = some g →
      p.mapSize.1 ≠ 0 ∧ p.mapSize.2 ≠ 0 →
      (p.alg.cells (s.2.toNat * p.alg.width + s.1.toNat)).blocked = true ∨
        (p.alg.cells (g.2.toNat * p.alg.width + g.1.toNat)).blocked = true →
      ∃ p', callPlanner (DStar.algorithm fuel) p = some p' ∧ p'.path = [] ∧
        (p'.lastError = "Start position blocked" ∨ p'.lastError = "Goal position blocked") ∧
        p'.alg = p.alg) ∧
    (∀ (p : AbstractPlanner FocussedDStar.Planner) (s g : Int × Int), p.start = some s →
      p.goal = some g → p.mapSize.1 ≠ 0 ∧ p.mapSize.2 ≠ 0 →
      (p.alg.cells (s.2.toNat * p.alg.width + s.1.toNat)).blocked = true ∨
        (p.alg.cells (g.2.toNat * p.alg.width + g.1.toNat)).blocked = true →
      ∃ p', callPlanner (FocussedDStar.algorithm fuel) p = some p' ∧ p'.path = [] ∧
        (p'.lastError = "Start position blocked" ∨ p'.lastError = "Goal position blocked") ∧
        p'.alg = p.alg) ∧
    (∀ (p : AbstractPlanner DStarLite.Planner) (s g : Int × Int), p.start = some s →
      p.goal = some g → p.mapSize.1 ≠ 0 ∧ p.mapSize.2 ≠ 0 →
      (p.alg.cells (s.2.toNat * p.alg.width + s.1.toNat)).blocked = true ∨
        (p.alg.cells (g.2.toNat * p.alg.width + g.1.toNat)).blocked = true →
      ∃ p', callPlanner (DStarLite.algorithm fuel) p = some p' ∧ p'.path = [] ∧
        (p'.lastError = "Start position blocked" ∨ p'.lastError = "Goal position blocked") ∧
        p'.alg = { p.alg with pStart := s.2.toNat * p.alg.width + s.1.toNat
                              pGoal := g.2.toNat * p.alg.width + g.1.toNat }) :=
  ⟨fun p s g hs hg hsz hb => astar_blocked_endpoint p s g hs hg hsz hb,
    fun p s g hs hg hsz hb => dstar_blocked_endpoint fuel p s g hs hg hsz hb,
    fun p s g hs hg hsz hb => fdstar_blocked_endpoint fuel p s g hs hg hsz hb,
    fun p s g hs hg hsz hb => dlite_blocked_endpoint fuel p s g hs hg hsz hb⟩

/-- Witness of `blocked_endpoint_is_reported`: the four planners with the 3×3 map whose
cell (2,2) is blocked, start (0,0) and goal (2,2). -/
theorem blocked_endpoint_is_reported_witness :
    (∃ p', callPlanner AStar.algorithm
        { setMap AStar.algorithm (newPlanner (AStar.initMap (openMap 0 0))) (mapWith 3 3 [(2, 2)]) with
          start := some (0, 0), goal := some (2, 2) } = some p' ∧ p'.path = [] ∧
      (p'.lastError = "Start position blocked" ∨ p'.lastError = "Goal position blocked") ∧
      p'.alg = AStar.initMap (mapWith 3 3 [(2, 2)])) ∧
    (∃ p', callPlanner (DStar.algorithm 10)
        { setMap (DStar.algorithm 10) (newPlanner (DStar.initMap (openMap 0 0))) (mapWith 3 3 [(2, 2)]) with
          start := some (0, 0), goal := some (2, 2) } = some p' ∧ p'.path = [] ∧
      (p'.lastError = "Start position blocked" ∨ p'.lastError = "Goal position blocked") ∧
      p'.alg = DStar.initMap (mapWith 3 3 [(2, 2)])) ∧
    (∃ p', callPlanner (FocussedDStar.algorithm 10)
        { setMap (FocussedDStar.algorithm 10) (newPlanner (FocussedDStar.fresh false))
            (mapWith 3 3 [(2, 2)]) with
          start := some (0, 0), goal := some (2, 2) } = some p' ∧ p'.path = [] ∧
      (p'.lastError = "Start position blocked" ∨ p'.lastError = "Goal position blocked") ∧
      p'.alg = FocussedDStar.initMap (FocussedDStar.fresh false) (mapWith 3 3 [(2, 2)])) ∧
    (∃ p', callPlanner (DStarLite.algorithm 10)
        { setMap (DStarLite.algorithm 10) (newPlanner DStarLite.fresh) (mapWith 3 3 [(2, 2)]) with
          start := some (0, 0), goal := some (2, 2) } = some p' ∧ p'.path = [] ∧
      (p'.lastError = "Start position blocked" ∨ p'.lastError = "Goal position blocked") ∧
      p'.alg = { DStarLite.initMap DStarLite.fresh (mapWith 3 3 [(2, 2)]) with pStart := 0, pGoal := 8 }) :=
  ⟨(blocked_endpoint_is_reported 10).1 _ (0, 0) (2, 2) rfl rfl (by decide) (Or.inr (by decide)),
    (blocked_endpoint_is_reported 10).2.1 _ (0, 0) (2, 2) rfl rfl (by decide) (Or.inr (by decide)),
    (blocked_endpoint_is_reported 10).2.2.1 _ (0, 0) (2, 2) rfl rfl (by decide) (Or.inr (by decide)),
    (blocked_endpoint_is_reported 10).2.2.2 _ (0, 0) (2, 2) rfl rfl (by decide) (Or.inr (by decide!))⟩

/-- C15: D* behind the contract on the 3×3 map with (2,2) blocked, start (0,0), goal
(2,0). `setGoal` moves the goal onto the blocked cell (2,2): the invocation fails with
"Goal position blocked". `updateMap` then unblocks (2,2), so that the free path
(0,0),(1,1),(2,2) joins start and goal; the invocation it triggers nevertheless leaves
the path empty, with the error "NULL pointer in backpointer sequence". -/
theorem DStar.unblocked_goal_not_recovered :
    DStar.scenarioGoalUnblocked = some
      [([(0, 0), (1, 0), (2, 0)], ""), ([], "Goal position blocked"),
       ([], "NULL pointer in backpointer sequence")] ∧
    FreePath (openMap 3 3) (0, 0) (2, 2) [(0, 0), (1, 1), (2, 2)] := by
  set_option maxRecDepth 100000 in decide!

/-- C16: `setStart` with an invalid pose (a NaN coordinate or angle) stores the unset
start and empties the path; the goal, `lastError`, the pending change mask and the
state of the algorithm stay as they are, and the algorithm is not invoked. The same
holds for `setGoal` with start and goal exchanged. -/
theorem invalid_pose_unsets {σ : Type} (a : Algorithm σ) (p : AbstractPlanner σ)
    (q : AbstractPlanner (σ × List Nat)) :
    setStart a p Option.none = some { p with start := Option.none, path := [] } ∧
    setGoal a p Option.none = some { p with goal := Option.none, path := [] } ∧
    (setStart a.logged q Option.none).map AbstractPlanner.invocations = some q.invocations ∧
    (setGoal a.logged q Option.none).map AbstractPlanner.invocations = some q.invocations :=
  ⟨rfl, rfl, rfl, rfl⟩

/-- C18: with the algorithm that records its invocations, every accepted change
(`setStart` or `setGoal` with a pose inside the grid, `setStartGoal` with two poses
inside the grid, `updateMap` with a map of the same size and a region that is not empty
and lies inside the map) invokes the algorithm once when afterwards the grid is not
empty and start and goal are valid, and not at all otherwise; `setMap` does not invoke
it. -/
theorem accepted_change_invokes_once {σ : Type} (a : Algorithm σ)
    (p p' : AbstractPlanner (σ × List Nat)) :
    (∀ pos, inMap p.mapSize pos = true → setStart a.logged p (some pos) = some p' →
      p'.invocations = p.invocations + (if p'.invocable = true then 1 else 0)) ∧
    (∀ pos, inMap p.mapSize pos = true → setGoal a.logged p (some pos) = some p' →
      p'.invocations = p.invocations + (if p'.invocable = true then 1 else 0)) ∧
    (∀ s g, inMap p.mapSize s = true → inMap p.mapSize g = true →
      setStartGoal a.logged p (some s) (some g) = some p' →
      p'.invocations = p.invocations + (if p'.invocable = true then 1 else 0)) ∧
    (∀ m r, (m.width, m.height) = p.mapSize → r.isEmpty = false → r.inside m.width m.height = true →
      updateMap a.logged p m r = some p' →
      p'.invocations = p.invocations + (if p'.invocable = true then 1 else 0)) ∧
    (∀ m, (setMap a.logged p m).invocations = p.invocations) := by
  refine ⟨?_, ?_, ?_, ?_, fun _ => rfl⟩
  · intro pos hin h
    simp only [setStart, hin, if_true] at h
    obtain ⟨e1, e2⟩ := callPlanner_invocations a _ p' h
    rw [e1, e2]; rfl
  · intro pos hin h
    simp only [setGoal, hin, if_true] at h
    obtain ⟨e1, e2⟩ := callPlanner_invocations a _ p' h
    rw [e1, e2]; rfl
  · intro s g hs hg h
    simp only [setStartGoal, hs, hg, Bool.not_true, Bool.false_eq_true, if_false] at h
    obtain ⟨e1, e2⟩ := callPlanner_invocations a _ p' h
    rw [e1, e2]; rfl
  · intro m r hsz he hi h
    simp only [updateMap, hsz, if_true, he, hi, Bool.false_eq_true, not_true_eq_false, or_self,
      if_false] at h
    obtain ⟨e1, e2⟩ := callPlanner_invocations a _ p' h
    rw [e1, e2]; rfl

/-- Witness of `accepted_change_invokes_once`: D* with the all-free 3×3 map and the
goal (2,2); `setStart` with the position (0,0) invokes the algorithm once. -/
theorem accepted_change_invokes_once_witness :
    ∃ p', setStart (DStar.algorithm 100).logged
        { setMap (DStar.algorithm 100).logged (newPlanner (DStar.initMap (openMap 0 0), [])) (openMap 3 3) with
          goal := some (2, 2) } (some (0, 0)) = some p' ∧
      p'.invocations = 0 + (if p'.invocable = true then 1 else 0) ∧ p'.invocations = 1 := by
  obtain ⟨p', hp, hv⟩ := option_map_some
    (setStart (DStar.algorithm 100).logged
      { setMap (DStar.algorithm 100).logged (newPlanner (DStar.initMap (openMap 0 0), [])) (openMap 3 3) with
        goal := some (2, 2) } (some (0, 0)))
    AbstractPlanner.invocations 1 (by set_option maxRecDepth 100000 in decide!)
  exact ⟨p', hp, (accepted_change_invokes_once (DStar.algorithm 100) _ p').1 (0, 0) (by decide) hp, hv⟩

/-- C19: for every sequence of inputs to a planner object right after construction and
every input of the sequence: if the input led to an invocation of the algorithm, the
change mask handed over holds the flag of every start and goal accepted since the
previous invocation, `NewMap` and not `UpdatedMap` if there was a new map since, and
`UpdatedMap` if the map was edited and there was no new map, and the pending mask is
empty right after the invocation; if the input led to no invocation, the pending mask
holds the changes accepted with it. -/
theorem change_mask_tracks_changes {σ : Type} (a : Algorithm σ) (init : σ) (cs : List Change)
    (obs : List Observation)
    (h : observations a cs (newPlanner (init, [])) Accepted.none = some obs) :
    ∀ e ∈ obs, (e.invoked = true → Handed e.mask e.accepted ∧ e.pendingAfter = 0) ∧
      (e.invoked = false → Kept e.pendingAfter e.own) :=
  observations_spec a cs _ _ obs (maskInv_none _ rfl) h

/-- Witness of `change_mask_tracks_changes`: D* with a new 3×3 map, a start, an edit of
the map, a goal (first invocation, mask `NewMap | UpdatedStart | UpdatedGoal`), an
invalid start, another edit of the map, and a new start and goal (second invocation,
mask `UpdatedStart | UpdatedGoal | UpdatedMap`). -/
theorem change_mask_tracks_changes_witness :
    ∃ obs, observations (DStar.algorithm 100)
        [Change.newMap (openMap 3 3), Change.start (some (0, 0)),
         Change.editMap (mapWith 3 3 [(1, 1)]) (QRect.single (1, 1)), Change.goal (some (2, 2)),
         Change.start Option.none, Change.editMap (openMap 3 3) (QRect.single (1, 1)),
         Change.startGoal (some (0, 2)) (some (2, 0))]
        (newPlanner (DStar.initMap (openMap 0 0), [])) Accepted.none = some obs ∧
      obs.map (fun e => (e.invoked, e.mask, e.pendingAfter)) =
        [(false, 0, 8), (false, 0, 9), (false, 0, 9), (true, 11, 0), (false, 11, 0), (false, 11, 4),
         (true, 7, 0)] ∧
      ∀ e ∈ obs, (e.invoked = true → Handed e.mask e.accepted ∧ e.pendingAfter = 0) ∧
        (e.invoked = false → Kept e.pendingAfter e.own) := by
  obtain ⟨obs, ho, hv⟩ := option_map_some
    (observations (DStar.algorithm 100)
      [Change.newMap (openMap 3 3), Change.start (some (0, 0)),
       Change.editMap (mapWith 3 3 [(1, 1)]) (QRect.single (1, 1)), Change.goal (some (2, 2)),
       Change.start Option.none, Change.editMap (openMap 3 3) (QRect.single (1, 1)),
       Change.startGoal (some (0, 2)) (some (2, 0))]
      (newPlanner (DStar.initMap (openMap 0 0), [])) Accepted.none)
    (fun obs => obs.map (fun e => (e.invoked, e.mask, e.pendingAfter)))
    [(false, 0, 8), (false, 0, 9), (false, 0, 9), (true, 11, 0), (false, 11, 0), (false, 11, 4),
     (true, 7, 0)]
    (by set_option maxRecDepth 100000 in decide!)
  exact ⟨obs, ho, hv, change_mask_tracks_changes (DStar.algorithm 100) _ _ obs ho⟩

/-- C20 (as stated): a call of `updateMap` with an empty rectangle can change the planner
object. D* behind the contract with a plan on the all-free 3×3 map from (0,0) to (2,2);
`updateMap` with the all-free 4×4 map and the empty rectangle empties the path, unsets
start and goal, sets the map size to 4×4 and the pending change mask to `NewMap`. -/
theorem DStar.updateMap_resizes :
    DStar.scenarioResize = some
      ({ path := [(0, 0), (1, 1), (2, 2)], lastError := "", start := some (0, 0), goal := some (2, 2)
         mapSize := (3, 3), pending := 0 },
       { path := [], lastError := "", start := Option.none, goal := Option.none
         mapSize := (4, 4), pending := 8 }) := by
  set_option maxRecDepth 100000 in decide!

/-- C20 (amended): a call of `updateMap` with a map of the size of the grid whose
rectangle is empty or does not lie inside the map returns the planner object as it was
(grid and state of the algorithm, start, goal, path, `lastError` and pending change
mask; the algorithm is not invoked); with a map of another size `updateMap` is
`setMap`, whatever the rectangle. -/
theorem updateMap_invalid_region {σ : Type} (a : Algorithm σ) (p : AbstractPlanner σ)
    (m : GridMap) (r : QRect) :
    ((m.width, m.height) = p.mapSize → r.isEmpty = true ∨ r.inside m.width m.height = false →
      updateMap a p m r = some p) ∧
    ((m.width, m.height) ≠ p.mapSize → updateMap a p m r = some (setMap a p m)) := by
  constructor
  · intro hsz hr
    have hr' : r.isEmpty = true ∨ ¬ r.inside m.width m.height = true := by
      rcases hr with h | h
      · exact Or.inl h
      · exact Or.inr (by simp [h])
    simp only [updateMap, if_pos hsz, if_pos hr']
  · intro hsz
    simp only [updateMap, if_neg hsz]

/-- Witness of `updateMap_invalid_region`: D* with the all-free 3×3 map; the rectangle
from (1,1) to (3,3) does not lie inside a 3×3 map, and the 4×4 map has another size. -/
theorem updateMap_invalid_region_witness :
    updateMap (DStar.algorithm 10)
        (setMap (DStar.algorithm 10) (newPlanner (DStar.initMap (openMap 0 0))) (openMap 3 3))
        (mapWith 3 3 [(1, 1)]) { x1 := 1, y1 := 1, x2 := 3, y2 := 3 }
      = some (setMap (DStar.algorithm 10) (newPlanner (DStar.initMap (openMap 0 0))) (openMap 3 3)) ∧
    updateMap (DStar.algorithm 10)
        (setMap (DStar.algorithm 10) (newPlanner (DStar.initMap (openMap 0 0))) (openMap 3 3))
        (openMap 4 4) { x1 := 1, y1 := 1, x2 := 3, y2 := 3 }
      = some (setMap (DStar.algorithm 10)
          (setMap (DStar.algorithm 10) (newPlanner (DStar.initMap (openMap 0 0))) (openMap 3 3))
          (openMap 4 4)) :=
  ⟨(updateMap_invalid_region (DStar.algorithm 10) _ (mapWith 3 3 [(1, 1)])
      { x1 := 1, y1 := 1, x2 := 3, y2 := 3 }).1 (by decide) (Or.inr (by decide)),
    (updateMap_invalid_region (DStar.algorithm 10) _ (openMap 4 4)
      { x1 := 1, y1 := 1, x2 := 3, y2 := 3 }).2 (by decide)⟩

end RasterSim

namespace RasterSim

/-! ## Claims on errors, replanning and the open lists -/

/-- C21: after an invocation of the algorithm through `callPlanner` (the grid is not
empty, start and goal are valid), whatever the algorithm is, and so for each of the four
planners, `lastError` is empty if and only if the path is not empty. -/
theorem error_iff_no_path {σ : Type} (a : Algorithm σ) (p p' : AbstractPlanner σ)
    (s g : Int × Int) (hs : p.start = some s) (hg : p.goal = some g)
    (hm : p.mapSize.1 ≠ 0 ∧ p.mapSize.2 ≠ 0) (hc : callPlanner a p = some p') :
    p'.lastError = "" ↔ p'.path ≠ [] := by
  unfold callPlanner at hc
  rw [hs, hg] at hc
  simp only at hc
  rw [if_pos hm] at hc
  cases hr : a.calculatePath p.alg p.accumulatedInputUpdates (s.1.toNat, s.2.toNat)
      (g.1.toNat, g.2.toNat) with
  | none => rw [hr] at hc; cases hc
  | some r =>
    rw [hr] at hc
    simp only [Option.some.injEq] at hc
    subst hc
    simp only
    by_cases hp : r.path = []
    · simp only [hp, ne_eq, not_true_eq_false, if_false, true_and]
      by_cases he : r.error = ""
      · simp [he]
      · simp [he]
    · simp [hp]

/-- Witness of `error_iff_no_path`: D* on the all-free 3×3 map with start (0,0) and goal
(2,2). -/
theorem error_iff_no_path_witness :
    ∃ p', callPlanner (DStar.algorithm 100)
        { setMap (DStar.algorithm 100) (newPlanner (DStar.initMap (openMap 0 0))) (openMap 3 3) with
          start := some (0, 0), goal := some (2, 2) } = some p' ∧
      (p'.lastError = "" ↔ p'.path ≠ []) ∧ p'.lastError = "" := by
  obtain ⟨p', hp, hv⟩ := option_map_some
    (callPlanner (DStar.algorithm 100)
      { setMap (DStar.algorithm 100) (newPlanner (DStar.initMap (openMap 0 0))) (openMap 3 3) with
        start := some (0, 0), goal := some (2, 2) })
    AbstractPlanner.lastError "" (by set_option maxRecDepth 100000 in decide!)
  exact ⟨p', hp, error_iff_no_path (DStar.algorithm 100) _ p' (0, 0) (2, 2) rfl rfl
    (by decide) hp, hv⟩

/-- C23 (as stated): on the 3×3 map whose only blocked cell is the centre (1,1), with
start (0,0) and goal (2,2), D* returns the path (0,0),(1,0),(2,1),(2,2); with the costs
10 and 14 of D* its cost is 10 + 14 + 10 = 34 and not 2·14 + 2·10 = 48. -/
theorem DStar.around_centre_costs_34 :
    DStar.scenarioAroundCentre = some ([(0, 0), (1, 0), (2, 1), (2, 2)], "") ∧
    pathCost 10 14 [(0, 0), (1, 0), (2, 1), (2, 2)] = 34 ∧
    pathCost 10 14 [(0, 0), (1, 0), (2, 1), (2, 2)] ≠ 2 * 14 + 2 * 10 := by
  set_option maxRecDepth 100000 in decide!

/-- C23 (amended): on the 3×3 map whose only blocked cell is the centre (1,1), with
start (0,0) and goal (2,2), D* returns without error a path of 4 cells that does not
contain (1,1) and whose cost is 14 + 2·10 = 34: one diagonal and two straight moves. -/
theorem DStar.around_centre_path :
    ∃ l, DStar.scenarioAroundCentre = some (l, "") ∧ l.length = 4 ∧ (1, 1) ∉ l ∧
      l.head? = some (0, 0) ∧ l.getLast? = some (2, 2) ∧ pathCost 10 14 l = 14 + 2 * 10 :=
  ⟨[(0, 0), (1, 0), (2, 1), (2, 2)], by set_option maxRecDepth 100000 in decide!⟩

/-- C24: D* Lite behind the contract on the 3×2 map with (1,0) blocked, start (0,1) and
goal (0,0). After (1,0) was unblocked through `updateMap`, only the start changes, to
(2,0): the planner returns the path (2,0),(1,1),(0,0) of cost 7 + 7 = 14, whereas a new
D* Lite planner returns for this start and goal on the same grid the path
(2,0),(1,0),(0,0) of cost 5 + 5 = 10. -/
theorem DStarLite.moved_start_costlier :
    DStarLite.scenarioStartMoved = some
      [([(0, 1), (0, 0)], ""), ([(0, 1), (0, 0)], ""), ([(2, 0), (1, 1), (0, 0)], "")] ∧
    DStarLite.scenarioStartFresh = some ([(2, 0), (1, 0), (0, 0)], "") ∧
    pathCost 5 7 [(2, 0), (1, 0), (0, 0)] < pathCost 5 7 [(2, 0), (1, 1), (0, 0)] := by
  set_option maxRecDepth 100000 in decide!

/-- C27: inside `calculatePath` of A* on the all-free 4×1 map with start (1,0) and goal
(3,0), after the second extract-min the open list holds one item, the cell (0,0) in slot
1, and the `openListIndex` of this cell is 2, not 1: the item moved from the last slot to
slot 1 keeps the index of its old slot. -/
theorem AStar.open_list_index_stale : AStar.scenarioStaleIndex = [1, 0, 2] := by
  set_option maxRecDepth 100000 in decide!

/-- C29 (as stated): for a cell with `g_cost = rhs = 4284967295` at the position of the
start and `k_m = 10000001`, the first component of `calculateKey` is 0, whereas
`min(g,rhs) + h_cost + k_m` is 4294967296: the sum is taken in `unsigned` arithmetic. -/
theorem DStarLite.key_sum_wraps :
    DStarLite.calculateKey { DStarLite.rawCell with g_cost := 4284967295, rhs := 4284967295 }
        DStarLite.rawCell 10000001 = { k1 := 0, k2 := 4284967295 } ∧
    min 4284967295 4284967295 +
      DStarLite.h_cost { DStarLite.rawCell with g_cost := 4284967295, rhs := 4284967295 }
        DStarLite.rawCell + 10000001 = 4294967296 := by
  decide

/-- C29 (amended): `calculateKey(start, k_m)` returns the pair whose second component is
`min(g,rhs)` and whose first component is `min(g,rhs) + h_cost(cell,start) + k_m` modulo
2^32, which is the sum itself when the sum is below 2^32. `Key::operator<` is the strict
lexicographic order on `(k1,k2)`: it is irreflexive and transitive, for any two keys
exactly one of `a < b`, `b < a`, `a = b` holds, and `operator>=` is its negation. -/
theorem DStarLite.key_is_lexicographic :
    (∀ (c s : DStarLite.Cell) (km : Nat), DStarLite.calculateKey c s km =
      { k1 := (min c.g_cost c.rhs + DStarLite.h_cost c s + km) % 4294967296,
        k2 := min c.g_cost c.rhs }) ∧
    (∀ (c s : DStarLite.Cell) (km : Nat),
      min c.g_cost c.rhs + DStarLite.h_cost c s + km < 4294967296 →
      DStarLite.calculateKey c s km =
        { k1 := min c.g_cost c.rhs + DStarLite.h_cost c s + km, k2 := min c.g_cost c.rhs }) ∧
    (∀ a b : DStarLite.Key, DStarLite.Key.lt a b = true ↔
      (a.k1 < b.k1 ∨ (a.k1 = b.k1 ∧ a.k2 < b.k2))) ∧
    (∀ a : DStarLite.Key, DStarLite.Key.lt a a = false) ∧
    (∀ a b c : DStarLite.Key, DStarLite.Key.lt a b = true → DStarLite.Key.lt b c = true →
      DStarLite.Key.lt a c = true) ∧
    (∀ a b : DStarLite.Key,
      (DStarLite.Key.lt a b = true ∧ DStarLite.Key.lt b a = false ∧ a ≠ b) ∨
      (DStarLite.Key.lt a b = false ∧ DStarLite.Key.lt b a = true ∧ a ≠ b) ∨
      (DStarLite.Key.lt a b = false ∧ DStarLite.Key.lt b a = false ∧ a = b)) ∧
    (∀ a b : DStarLite.Key, DStarLite.Key.ge a b = !DStarLite.Key.lt a b) := by
  have hkey : ∀ (c s : DStarLite.Cell) (km : Nat), DStarLite.calculateKey c s km =
      { k1 := (min c.g_cost c.rhs + DStarLite.h_cost c s + km) % 4294967296,
        k2 := min c.g_cost c.rhs } := by
    intro c s km
    have hmin : (if c.g_cost < c.rhs then c.g_cost else c.rhs) = min c.g_cost c.rhs := by
      split_ifs with h
      · exact (Nat.min_eq_left (Nat.le_of_lt h)).symm
      · exact (Nat.min_eq_right (Nat.le_of_not_lt h)).symm
    unfold DStarLite.calculateKey uadd
    simp only [hmin]
    congr 1
    omega
  have hlex : ∀ a b : DStarLite.Key, DStarLite.Key.lt a b = true ↔
      (a.k1 < b.k1 ∨ (a.k1 = b.k1 ∧ a.k2 < b.k2)) := by
    intro a b
    unfold DStarLite.Key.lt
    split_ifs with h
    · simp only [decide_eq_true_eq]
      constructor
      · intro h2; exact Or.inr ⟨h, h2⟩
      · rintro (h2 | h2)
        · omega
        · exact h2.2
    · simp only [decide_eq_true_eq]
      constructor
      · intro h2; exact Or.inl h2
      · rintro (h2 | h2)
        · exact h2
        · exact absurd h2.1 h
  have hnot : ∀ a b : DStarLite.Key, DStarLite.Key.lt a b = false ↔
      ¬ (a.k1 < b.k1 ∨ (a.k1 = b.k1 ∧ a.k2 < b.k2)) := by
    intro a b
    rw [← hlex a b]
    simp
  have hext : ∀ a b : DStarLite.Key, a.k1 = b.k1 → a.k2 = b.k2 → a = b := by
    intro a b h1 h2
    cases a; cases b
    simp only at h1 h2
    rw [h1, h2]
  refine ⟨hkey, ?_, hlex, ?_, ?_, ?_, fun _ _ => rfl⟩
  · intro c s km h
    rw [hkey, Nat.mod_eq_of_lt h]
  · intro a
    rw [hnot]
    omega
  · intro a b c h1 h2
    rw [hlex] at h1 h2 ⊢
    omega
  · intro a b
    rcases Nat.lt_trichotomy a.k1 b.k1 with h | h | h
    · refine Or.inl ⟨(hlex a b).2 (Or.inl h), (hnot b a).2 (by omega), fun e => ?_⟩
      rw [e] at h; omega
    · rcases Nat.lt_trichotomy a.k2 b.k2 with h2 | h2 | h2
      · refine Or.inl ⟨(hlex a b).2 (Or.inr ⟨h, h2⟩), (hnot b a).2 (by omega), fun e => ?_⟩
        rw [e] at h2; omega
      · exact Or.inr (Or.inr ⟨(hnot a b).2 (by omega), (hnot b a).2 (by omega), hext a b h h2⟩)
      · refine Or.inr (Or.inl ⟨(hnot a b).2 (by omega), (hlex b a).2 (Or.inr ⟨h.symm, h2⟩),
          fun e => ?_⟩)
        rw [e] at h2; omega
    · refine Or.inr (Or.inl ⟨(hnot a b).2 (by omega), (hlex b a).2 (Or.inl h), fun e => ?_⟩)
      rw [e] at h; omega

/-- Witness of `DStarLite.key_is_lexicographic`: the key of a cell with `g_cost = 7` and
`rhs = 5` two cells to the right of the start, with `k_m = 3`, and the keys (1,2) and
(1,3). -/
theorem DStarLite.key_is_lexicographic_witness :
    DStarLite.calculateKey { DStarLite.rawCell with x := 2, g_cost := 7, rhs := 5 }
        DStarLite.rawCell 3 = { k1 := 18, k2 := 5 } ∧
    DStarLite.Key.lt { k1 := 1, k2 := 2 } { k1 := 1, k2 := 3 } = true :=
  ⟨DStarLite.key_is_lexicographic.2.1 { DStarLite.rawCell with x := 2, g_cost := 7, rhs := 5 }
      DStarLite.rawCell 3 (by decide),
    (DStarLite.key_is_lexicographic.2.2.1 { k1 := 1, k2 := 2 } { k1 := 1, k2 := 3 }).2
      (Or.inr ⟨rfl, by decide⟩)⟩

/-- C30: D* Lite behind the contract on the all-free 3×1 map. Start (0,0) and goal (2,0)
are set; this invocation re-initialises the state (every `g_cost`, `rhs` and `heapIndex`
is written) and returns the path (0,0),(1,0),(2,0). The start moves to (2,0), the cell
(2,0) is blocked through `updateMap`, and `setGoal` is called with (1,0): both
invocations end with "Start position blocked", the second after `pGoal` was set to (1,0)
and without a re-initialisation, and the pending mask is cleared. `setStart` with (0,0)
then invokes the planner with the mask `UpdatedStart` alone. After this invocation the
goal cell (1,0) is in slot 1 of the open list (`heapIndex = 1`, `openListLength = 1`)
although its `g_cost` equals its `rhs`: a cell that is locally consistent is in the open
heap, and the result is "No Path found" with start and goal on adjacent free cells. The
outcome is the same when the uninitialised members and the allocated memory hold zeros
and when they hold the values of `cluttered`. -/
theorem DStarLite.consistent_goal_stays_open :
    DStarLite.scenarioGoalStaysOpen DStarLite.zeroed = some
      ([1, 1, 1, 4284967295, 4284967295],
       [([(0, 0), (1, 0), (2, 0)], ""), ([(2, 0)], ""), ([], "Start position blocked"),
        ([], "Start position blocked"), ([], "No Path found")]) ∧
    DStarLite.scenarioGoalStaysOpen DStarLite.cluttered = some
      ([1, 1, 1, 4284967295, 4284967295],
       [([(0, 0), (1, 0), (2, 0)], ""), ([(2, 0)], ""), ([], "Start position blocked"),
        ([], "Start position blocked"), ([], "No Path found")]) :=
  ⟨by set_option maxRecDepth 100000 in decide!, by set_option maxRecDepth 100000 in decide!⟩

/-- C25: for the open heap of D* Lite, with the invariant `HeapInvariant` (every slot
`1 .. openListLength` holds a cell whose `heapIndex` is the slot, no cached key is above
the cached keys of the children of its slot, every cell in no slot has `heapIndex` 0):
if the invariant holds, it holds again after `insert(cell)`, as a fresh insertion or as a
reposition, also when the cached key of that one cell was changed before, and after
`remove(cell)`, for any cell of the map; and it holds after the full reset that seeds
the heap with the goal. -/
theorem DStarLite.open_heap_invariant_kept :
    (∀ (N : Nat) (p : DStarLite.Planner) (c : Nat), DStarLite.HeapInvariant N p → c < N →
      DStarLite.HeapInvariant N (DStarLite.insert p c) ∧
      (∀ k, DStarLite.HeapInvariant N (DStarLite.insert (DStarLite.setKey p c k) c)) ∧
      DStarLite.HeapInvariant N (DStarLite.remove p c)) ∧
    (∀ p : DStarLite.Planner, p.pGoal < p.width * p.height →
      DStarLite.HeapInvariant (p.width * p.height) (DStarLite.resetState p)) := by
  refine ⟨fun N p c h hc => ?_, fun p hg => ?_⟩
  · have h' := (DStarLite.dlite_heapInvariant_iff N p).1 h
    refine ⟨?_, fun k => ?_, ?_⟩
    · have := DStarLite.dlite_insert_inv h' c hc (p.cells c).key
      rw [DStarLite.dlite_setKey_self] at this
      exact (DStarLite.dlite_heapInvariant_iff N _).2 this
    · exact (DStarLite.dlite_heapInvariant_iff N _).2 (DStarLite.dlite_insert_inv h' c hc k)
    · exact (DStarLite.dlite_heapInvariant_iff N _).2 (DStarLite.dlite_remove_spec h' c hc).2.1
  · exact (DStarLite.dlite_heapInvariant_iff _ _).2 (DStarLite.dlite_resetState_heapInv p hg)

/-- Witness of `DStarLite.open_heap_invariant_kept`: the state after the full reset on
the all-free 3×3 map with goal (2,2), the insertion of the centre cell and the removal
of the goal cell. -/
theorem DStarLite.open_heap_invariant_kept_witness :
    DStarLite.HeapInvariant 9
      (DStarLite.resetState
        { DStarLite.initMap DStarLite.fresh (openMap 3 3) with pStart := 0, pGoal := 8 }) ∧
    DStarLite.HeapInvariant 9
      (DStarLite.insert (DStarLite.resetState
        { DStarLite.initMap DStarLite.fresh (openMap 3 3) with pStart := 0, pGoal := 8 }) 4) ∧
    DStarLite.HeapInvariant 9
      (DStarLite.remove (DStarLite.resetState
        { DStarLite.initMap DStarLite.fresh (openMap 3 3) with pStart := 0, pGoal := 8 }) 8) :=
  have hP : DStarLite.HeapInvariant 9
      (DStarLite.resetState
        { DStarLite.initMap DStarLite.fresh (openMap 3 3) with pStart := 0, pGoal := 8 }) :=
    DStarLite.open_heap_invariant_kept.2
      { DStarLite.initMap DStarLite.fresh (openMap 3 3) with pStart := 0, pGoal := 8 } (by decide)
  ⟨hP, (DStarLite.open_heap_invariant_kept.1 9 _ 4 hP (by decide)).1,
    (DStarLite.open_heap_invariant_kept.1 9 _ 8 hP (by decide)).2.2⟩

/-- C26: for the open heap of D*, ordered by `k_cost`, and the open heap of Focussed D*,
ordered by (`fB_cost`, `f_cost`, `k_cost`), with the invariant `HeapInvariant` (no slot is
above its child slots, every slot holds a cell on the open list whose `heapIndex` is the
slot and every cell on the open list is in the slot of its `heapIndex`, every other cell
of the map has `heapIndex` 0): the invariant holds for the map as `initMap` leaves it; if
it holds, it holds again after `insert` for any cell of the map (new, open or closed) and
any `h_cost`, after the extraction of the first cell at the start of `processState` on a
non-empty open list, and, for Focussed D*, after the new costs that `getMinState` gives
the first cell (with the `heapUp` and `heapDown` that follow), and after `getMinState`
as a whole, which returns the first cell of the open list. -/
theorem heap_order_kept :
    (∀ m : GridMap, DStar.HeapInvariant (m.width * m.height) (DStar.initMap m)) ∧
    (∀ (N : Nat) (p : DStar.Planner), DStar.HeapInvariant N p →
      (∀ c h_cost, c < N → DStar.HeapInvariant N (DStar.insert p c h_cost)) ∧
      (1 ≤ p.openListLength → DStar.HeapInvariant N (DStar.popMin p).2)) ∧
    (∀ (old : FocussedDStar.Planner) (m : GridMap),
      FocussedDStar.HeapInvariant (m.width * m.height) (FocussedDStar.initMap old m)) ∧
    (∀ (N : Nat) (p : FocussedDStar.Planner), FocussedDStar.HeapInvariant N p →
      (∀ c h_cost, c < N → FocussedDStar.HeapInvariant N (FocussedDStar.insert p c h_cost)) ∧
      (1 ≤ p.openListLength →
        FocussedDStar.HeapInvariant N (FocussedDStar.popMin p (p.openHeap 1)) ∧
        FocussedDStar.HeapInvariant N
          (FocussedDStar.heapDown
            (FocussedDStar.heapUp (FocussedDStar.refocus p) (p.openHeap 1)) (p.openHeap 1))) ∧
      (∀ p' c, FocussedDStar.getMinState p = some (p', c) →
        FocussedDStar.HeapInvariant N p' ∧
          (1 ≤ p.openListLength → c = some (p'.openHeap 1)))) := by
  refine ⟨fun m => ?_, fun N p h => ?_, fun old m => ?_, fun N p h => ?_⟩
  · exact (DStar.dstar_heapInvariant_iff _ _).2 (DStar.dstar_initMap_heapInv m)
  · have h' := (DStar.dstar_heapInvariant_iff N p).1 h
    exact ⟨fun c h_cost hc =>
        (DStar.dstar_heapInvariant_iff N _).2 (DStar.dstar_insert_inv h' c hc h_cost),
      fun hl => (DStar.dstar_heapInvariant_iff N _).2 (DStar.dstar_popMin_inv h' hl)⟩
  · exact (FocussedDStar.fdstar_heapInvariant_iff _ _).2 (FocussedDStar.fdstar_initMap_heapInv old m)
  · have h' := (FocussedDStar.fdstar_heapInvariant_iff N p).1 h
    refine ⟨fun c h_cost hc => ?_, fun hl => ⟨?_, ?_⟩, fun p' c hm => ?_⟩
    · exact (FocussedDStar.fdstar_heapInvariant_iff N _).2
        (FocussedDStar.fdstar_insert_inv h' c hc h_cost)
    · exact (FocussedDStar.fdstar_heapInvariant_iff N _).2 (FocussedDStar.fdstar_popMin_inv h' hl)
    · exact (FocussedDStar.fdstar_heapInvariant_iff N _).2 (FocussedDStar.fdstar_refocus_inv h' hl)
    · obtain ⟨r1, _, r3⟩ := FocussedDStar.fdstar_getMinState_inv h' hm
      exact ⟨(FocussedDStar.fdstar_heapInvariant_iff N _).2 r1, r3⟩

/-- Witness of `heap_order_kept`: on the all-free 3×3 map, the open heap of D* after the
insertion of the cells (2,2) and (1,1) and after the extraction that follows, and the
open heap of Focussed D* after the same insertions and the extraction. -/
theorem heap_order_kept_witness :
    DStar.HeapInvariant 9 (DStar.insert (DStar.insert (DStar.initMap (openMap 3 3)) 8 7) 4 5) ∧
    DStar.HeapInvariant 9
      (DStar.popMin (DStar.insert (DStar.insert (DStar.initMap (openMap 3 3)) 8 7) 4 5)).2 ∧
    FocussedDStar.HeapInvariant 9
      (FocussedDStar.insert (FocussedDStar.insert
        (FocussedDStar.initMap (FocussedDStar.fresh false) (openMap 3 3)) 8 7) 4 5) ∧
    FocussedDStar.HeapInvariant 9
      (FocussedDStar.popMin (FocussedDStar.insert (FocussedDStar.insert
        (FocussedDStar.initMap (FocussedDStar.fresh false) (openMap 3 3)) 8 7) 4 5)
        ((FocussedDStar.insert (FocussedDStar.insert
          (FocussedDStar.initMap (FocussedDStar.fresh false) (openMap 3 3)) 8 7) 4 5).openHeap 1)) :=
  have d0 : DStar.HeapInvariant 9 (DStar.initMap (openMap 3 3)) := heap_order_kept.1 (openMap 3 3)
  have d1 := (heap_order_kept.2.1 9 _ d0).1 8 7 (by decide)
  have d2 := (heap_order_kept.2.1 9 _ d1).1 4 5 (by decide)
  have f0 : FocussedDStar.HeapInvariant 9
      (FocussedDStar.initMap (FocussedDStar.fresh false) (openMap 3 3)) :=
    heap_order_kept.2.2.1 (FocussedDStar.fresh false) (openMap 3 3)
  have f1 := (heap_order_kept.2.2.2 9 _ f0).1 8 7 (by decide)
  have f2 := (heap_order_kept.2.2.2 9 _ f1).1 4 5 (by decide)
  ⟨d2, (heap_order_kept.2.1 9 _ d2).2 (by decide), f2,
    ((heap_order_kept.2.2.2 9 _ f2).2.1 (by decide)).1⟩

/-- C28: D* Lite behind the contract, for a planner object whose uninitialised values are
those of `cluttered`. After `setMap` with the all-free 2×1 map the open list is empty
(`openListLength = 0`) and the entry 5 of the heap array points to the cell 1.
`updateMap` then blocks the cell (0,0), with neither start nor goal set: `initMap` sets
`rhs = g_cost` for the cell and calls `updateVertex`, hence `remove`, which finds the
`heapIndex` 5 that the allocation left in the cell, decrements `openListLength` from 0 to
4294967295 and writes the entry 5 of the heap array, which now points to the cell 0. The
map has 2 cells and the heap array 3 entries. -/
theorem DStarLite.stale_heap_index_written :
    DStarLite.scenarioStaleHeapIndex DStarLite.cluttered = some [0, 1, 4294967295, 0] ∧
    (openMap 2 1).width * (openMap 2 1).height = 2 := by
  set_option maxRecDepth 100000 in decide!

/-- The bound of C28 where it holds: the open list never holds more cells than the map
has, on maps whose sides fit the `unsigned short` coordinates, and for D* Lite once the
state has been re-initialised. For A*, from any state the planner can be in for the map, with a start
on the map that is not blocked: whenever the main loop of `calculatePath` begins a round
the length `n` of the open list is at most the number of cells, and in a round with
`n ≠ 0` it stays so after the first cell is taken off and after each of the eight
directions (an entry is written at index `n + 1` of the state before, which is the `n`
of the state after). For D* and Focussed D* behind the contract, from a freshly
constructed planner (`openListLength` 0): in every state the operations of the contract
lead to `openListLength` is at most `width * height`, and on a map that is not empty the
open list satisfies `HeapInvariant`, under which each cell is in at most one slot. For
D* Lite, `initMap` yields a state that fits the map whatever the allocated memory holds;
on a state that fits the map an invocation of the planner ends with `HeapInvariant` and
with `openListLength` at most `width * height` when `HeapInvariant` held before, and also,
whatever held before, when the change mask makes it re-initialise the state and neither
start nor goal is blocked; and a partial map update keeps `HeapInvariant` and the bound.
For the three of them, from any state with `HeapInvariant`, `insert` of a cell of the
map, which writes at index `openListLength + 1` when the cell is not on the list, leaves
`openListLength` at most the number of cells. -/
theorem open_list_within_cells (fuel : Nat) :
    (∀ (m : GridMap) (p : AStar.Planner) (start goal : Pos) (s : AStar.Search),
      m.width ≤ USHORT → m.height ≤ USHORT → AStar.Reachable m p →
      start.1 < m.width ∧ start.2 < m.height →
      (p.rasterElements (start.2 * m.width + start.1)).list ≠ AStar.ListType.List_Unwalkable →
      AStar.LoopHead m.width m.height (goal.2 * m.width + goal.1)
        (AStar.initialSearch p (start.2 * m.width + start.1)) s →
      s.n ≤ m.width * m.height ∧
      (s.n ≠ 0 → ∀ k, k ≤ 8 →
        ((List.range k).foldl
          (AStar.visitNeighbour m.width m.height (goal.2 * m.width + goal.1) (AStar.popFirst s).1)
          (AStar.popFirst s).2).n ≤ m.width * m.height)) ∧
    (∀ (init : DStar.Planner) (p : AbstractPlanner DStar.Planner), init.openListLength = 0 →
      Reachable (DStar.algorithm fuel) init p →
      p.alg.openListLength ≤ p.mapSize.1 * p.mapSize.2 ∧
      (p.mapSize.1 ≠ 0 ∧ p.mapSize.2 ≠ 0 →
        DStar.HeapInvariant (p.mapSize.1 * p.mapSize.2) p.alg)) ∧
    (∀ (N : Nat) (p : DStar.Planner) (c h_cost : Nat), DStar.HeapInvariant N p → c < N →
      (DStar.insert p c h_cost).openListLength ≤ N) ∧
    (∀ (init : FocussedDStar.Planner) (p : AbstractPlanner FocussedDStar.Planner),
      init.openListLength = 0 → Reachable (FocussedDStar.algorithm fuel) init p →
      p.alg.openListLength ≤ p.mapSize.1 * p.mapSize.2 ∧
      (p.mapSize.1 ≠ 0 ∧ p.mapSize.2 ≠ 0 →
        FocussedDStar.HeapInvariant (p.mapSize.1 * p.mapSize.2) p.alg)) ∧
    (∀ (N : Nat) (p : FocussedDStar.Planner) (c h_cost : Nat),
      FocussedDStar.HeapInvariant N p → c < N →
      (FocussedDStar.insert p c h_cost).openListLength ≤ N) ∧
    (∀ (old : DStarLite.Planner) (m : GridMap), m.width ≤ USHORT → m.height ≤ USHORT →
      DStarLite.AlgInv ((DStarLite.algorithm fuel).initMap old m) (m.width, m.height)) ∧
    (∀ (size : Nat × Nat) (st : DStarLite.Planner) (u : Nat) (s g : Pos)
      (r : PlanResult DStarLite.Planner),
      DStarLite.AlgInv st size → g.1 < size.1 → g.2 < size.2 →
      (DStarLite.algorithm fuel).calculatePath st u s g = some r →
      (DStarLite.HeapInvariant (size.1 * size.2) st ∨
        (needsReset u = true ∧ r.error ≠ "Start position blocked" ∧
          r.error ≠ "Goal position blocked")) →
      DStarLite.HeapInvariant (size.1 * size.2) r.state ∧
        r.state.openListLength ≤ size.1 * size.2) ∧
    (∀ (size : Nat × Nat) (st : DStarLite.Planner) (m : GridMap) (r : Region),
      DStarLite.AlgInv st size → DStarLite.HeapInvariant (size.1 * size.2) st →
      r.right < size.1 → r.bottom < size.2 →
      DStarLite.HeapInvariant (size.1 * size.2) ((DStarLite.algorithm fuel).initMapUpdate st m r) ∧
        ((DStarLite.algorithm fuel).initMapUpdate st m r).openListLength ≤ size.1 * size.2) ∧
    (∀ (N : Nat) (p : DStarLite.Planner) (c : Nat), DStarLite.HeapInvariant N p → c < N →
      (DStarLite.insert p c).openListLength ≤ N) := by
  refine ⟨?_, ?_, ?_, ?_, ?_, ?_, ?_, ?_, ?_⟩
  · intro m p start goal s hw hh hp hs hfree hl
    have hinit := AStar.astar_initialSearch_init m p start
      (AStar.reachable_represents m hw hh p hp) hs hfree
    have hc := AStar.astar_loopHead_count hinit s hl
    obtain ⟨h1, h2⟩ := AStar.astar_round_count (goal.2 * m.width + goal.1) hc
    exact ⟨h1, fun hn => (h2 hn).1⟩
  · intro init p h0 hp
    obtain ⟨h1, h2⟩ := DStar.dstar_reachable_heap fuel init h0 p hp
    exact ⟨h1, fun hne => (DStar.dstar_heapInvariant_iff _ _).2 (h2 hne)⟩
  · intro N p c h_cost h hc
    exact slotsOK_len_le
      (DStar.dstar_insert_inv ((DStar.dstar_heapInvariant_iff N p).1 h) c hc h_cost).1
  · intro init p h0 hp
    obtain ⟨h1, h2⟩ := FocussedDStar.fdstar_reachable_heap fuel init h0 p hp
    exact ⟨h1, fun hne => (FocussedDStar.fdstar_heapInvariant_iff _ _).2 (h2 hne)⟩
  · intro N p c h_cost h hc
    exact slotsOK_len_le
      (FocussedDStar.fdstar_insert_inv ((FocussedDStar.fdstar_heapInvariant_iff N p).1 h) c hc
        h_cost).1
  · intro old m hw hh
    exact DStarLite.dlite_initMap_inv old m hw hh
  · intro size st u s g r hi g1 g2 hc hor
    simp only [DStarLite.algorithm] at hc
    obtain ⟨o, ho, hro⟩ := option_map_some _ _ _ hc
    subst hro
    have hinv : DStarLite.HeapInv (size.1 * size.2) o.planner := by
      rcases hor with hh | ⟨hu, e1, e2⟩
      · exact DStarLite.dlite_doCalculatePath_heap fuel hi
          ((DStarLite.dlite_heapInvariant_iff _ _).1 hh) u s g 0 o g1 g2 ho
      · exact DStarLite.dlite_doCalculatePath_reset_heap fuel hi u hu s g 0 o g1 g2 ho e1 e2
    exact ⟨(DStarLite.dlite_heapInvariant_iff _ _).2 hinv, slotsOK_len_le hinv.1⟩
  · intro size st m r hi hh hr hb
    have hinv := DStarLite.dlite_initMapUpdate_heap hi
      ((DStarLite.dlite_heapInvariant_iff _ _).1 hh) m r hr hb
    exact ⟨(DStarLite.dlite_heapInvariant_iff _ _).2 hinv, slotsOK_len_le hinv.1⟩
  · intro N p c h hc
    have := DStarLite.dlite_insert_inv ((DStarLite.dlite_heapInvariant_iff N p).1 h) c hc
      (p.cells c).key
    rw [DStarLite.dlite_setKey_self] at this
    exact slotsOK_len_le this.1

/-- Witness of `open_list_within_cells`: A* on the all-free 3×3 map when the main loop is
entered with start (0,0) and goal (2,2), and after its first round; D*, Focussed D* and
D* Lite behind the contract after a plan on the 4×3 map with (2,1) blocked, start (3,0),
goal (0,2); for D* Lite the invocation with the mask of a new map with start and goal on
the state that `initMap` yields for this map from the memory contents of `cluttered`. -/
theorem open_list_within_cells_witness :
    (AStar.initialSearch (AStar.initMap (openMap 3 3)) 0).n ≤ 9 ∧
    (AStar.round 3 3 8 (AStar.initialSearch (AStar.initMap (openMap 3 3)) 0)).n ≤ 9 ∧
    (∃ p, planOnce (DStar.algorithm 100) (DStar.initMap (openMap 0 0)) (mapWith 4 3 [(2, 1)])
        (some (3, 0)) (some (0, 2)) = some p ∧
      p.alg.openListLength ≤ p.mapSize.1 * p.mapSize.2) ∧
    (∃ p, planOnce (FocussedDStar.algorithm 100) (FocussedDStar.fresh false)
        (mapWith 4 3 [(2, 1)]) (some (3, 0)) (some (0, 2)) = some p ∧
      p.alg.openListLength ≤ p.mapSize.1 * p.mapSize.2) ∧
    (∃ r, (DStarLite.algorithm 100).calculatePath
        ((DStarLite.algorithm 100).initMap DStarLite.cluttered (mapWith 4 3 [(2, 1)])) 11
        (3, 0) (0, 2) = some r ∧ (r.path, r.error) = ([(3, 0), (2, 0), (1, 1), (0, 2)], "") ∧
      DStarLite.HeapInvariant 12 r.state ∧ r.state.openListLength ≤ 12) := by
  have hfree : ((AStar.initMap (openMap 3 3)).rasterElements (0 * 3 + 0)).list ≠
      AStar.ListType.List_Unwalkable := by decide
  refine ⟨?_, ?_, ?_, ?_, ?_⟩
  · exact ((open_list_within_cells 0).1 (openMap 3 3) (AStar.initMap (openMap 3 3)) (0, 0) (2, 2)
      _ (by decide) (by decide) AStar.Reachable.initMap ⟨by decide, by decide⟩ hfree
      AStar.LoopHead.entry).1
  · exact ((open_list_within_cells 0).1 (openMap 3 3) (AStar.initMap (openMap 3 3)) (0, 0) (2, 2)
      _ (by decide) (by decide) AStar.Reachable.initMap ⟨by decide, by decide⟩ hfree
      (AStar.LoopHead.next _ AStar.LoopHead.entry (by decide)
        (by set_option maxRecDepth 100000 in decide!))).1
  · obtain ⟨p, hp, _⟩ := planOnce_report (DStar.algorithm 100) (DStar.initMap (openMap 0 0))
      (mapWith 4 3 [(2, 1)]) (some (3, 0)) (some (0, 2)) ([(3, 0), (2, 0), (1, 1), (0, 2)], "")
      (by set_option maxRecDepth 100000 in decide!)
    exact ⟨p, hp, ((open_list_within_cells 100).2.1 _ p rfl
      (planOnce_reachable _ _ _ _ _ p (by decide) (by decide) hp)).1⟩
  · obtain ⟨p, hp, _⟩ := planOnce_report (FocussedDStar.algorithm 100) (FocussedDStar.fresh false)
      (mapWith 4 3 [(2, 1)]) (some (3, 0)) (some (0, 2)) ([(3, 0), (2, 0), (1, 1), (0, 2)], "")
      (by set_option maxRecDepth 100000 in decide!)
    exact ⟨p, hp, ((open_list_within_cells 100).2.2.2.1 _ p rfl
      (planOnce_reachable _ _ _ _ _ p (by decide) (by decide) hp)).1⟩
  · obtain ⟨r, hr, hrep⟩ := option_map_some ((DStarLite.algorithm 100).calculatePath
        ((DStarLite.algorithm 100).initMap DStarLite.cluttered (mapWith 4 3 [(2, 1)])) 11
        (3, 0) (0, 2)) (fun r => (r.path, r.error)) ([(3, 0), (2, 0), (1, 1), (0, 2)], "")
      (by set_option maxRecDepth 100000 in decide!)
    have herr : r.error = "" := congrArg Prod.snd hrep
    exact ⟨r, hr, hrep, (open_list_within_cells 100).2.2.2.2.2.2.1 (4, 3) _ 11 (3, 0) (0, 2) r
      ((open_list_within_cells 100).2.2.2.2.2.1 DStarLite.cluttered (mapWith 4 3 [(2, 1)])
        (by decide) (by decide))
      (by decide) (by decide) hr
      (Or.inr ⟨by decide, by rw [herr]; decide, by rw [herr]; decide⟩)⟩

end RasterSim

namespace RasterSim

/-! ## The cell lookups at the start of `calculatePath` -/

/-- The two cell lookups `cells + y * width + x` at the start of a `calculatePath`:
the size of the cell array at the time, and the start and goal positions handed over. -/
structure Lookup where
  width : Nat
  height : Nat
  start : Pos
  goal : Pos
  deriving DecidableEq, Repr

/-- Both lookups are inside the array of `width * height` cells, at the cell with
the coordinates of the position. -/
def Lookup.inside (l : Lookup) : Prop :=
  l.start.1 < l.width ∧ l.start.2 < l.height ∧ l.goal.1 < l.width ∧ l.goal.2 < l.height ∧
  l.start.2 * l.width + l.start.1 < l.width * l.height ∧
  l.goal.2 * l.width + l.goal.1 < l.width * l.height

instance (l : Lookup) : Decidable l.inside := inferInstanceAs (Decidable (_ ∧ _))

/-- The states of a planner object that the operations of the contract lead to from the
state `init` of the algorithm, for maps of any size. -/
inductive Operated {σ : Type} (a : Algorithm σ) (init : σ) : AbstractPlanner σ → Prop
  | new : Operated a init (newPlanner init)
  | setMap (p : AbstractPlanner σ) (m : GridMap) : Operated a init p → Operated a init (setMap a p m)
  | updateMap (p p' : AbstractPlanner σ) (m : GridMap) (r : QRect) :
      Operated a init p → updateMap a p m r = some p' → Operated a init p'
  | setStart (p p' : AbstractPlanner σ) (start : Pose) :
      Operated a init p → setStart a p start = some p' → Operated a init p'
  | setGoal (p p' : AbstractPlanner σ) (goal : Pose) :
      Operated a init p → setGoal a p goal = some p' → Operated a init p'
  | setStartGoal (p p' : AbstractPlanner σ) (start goal : Pose) :
      Operated a init p → setStartGoal a p start goal = some p' → Operated a init p'

theorem operated_of_reachable {σ : Type} (a : Algorithm σ) (init : σ) (p : AbstractPlanner σ)
    (hp : Reachable a init p) : Operated a init p := by
  induction hp with
  | new => exact Operated.new
  | setMap p m _ _ _ ih => exact Operated.setMap p m ih
  | updateMap p p' m r _ _ _ h ih => exact Operated.updateMap p p' m r ih h
  | setStart p p' s _ h ih => exact Operated.setStart p p' s ih h
  | setGoal p p' g _ h ih => exact Operated.setGoal p p' g ih h
  | setStartGoal p p' s g _ h ih => exact Operated.setStartGoal p p' s g ih h

theorem callPlanner_state {σ : Type} (a : Algorithm σ) (P : σ → Prop)
    (h3 : ∀ st u s g r, P st → a.calculatePath st u s g = some r → P r.state)
    (p p' : AbstractPlanner σ) (hp : P p.alg) (hc : callPlanner a p = some p') : P p'.alg := by
  unfold callPlanner at hc
  cases hs : p.start with
  | none =>
    simp only [hs] at hc
    cases hc
    exact hp
  | some s =>
    cases hg : p.goal with
    | none =>
      simp only [hs, hg] at hc
      cases hc
      exact hp
    | some g =>
      simp only [hs, hg] at hc
      by_cases hne : p.mapSize.1 ≠ 0 ∧ p.mapSize.2 ≠ 0
      · rw [if_pos hne] at hc
        cases hr : a.calculatePath p.alg p.accumulatedInputUpdates (s.1.toNat, s.2.toNat)
            (g.1.toNat, g.2.toNat) with
        | none => rw [hr] at hc; cases hc
        | some r =>
          rw [hr] at hc
          simp only [Option.some.injEq] at hc
          subst hc
          exact h3 _ _ _ _ r hp hr
      · rw [if_neg hne] at hc
        cases hc
        exact hp

theorem setStart_state {σ : Type} (a : Algorithm σ) (P : σ → Prop)
    (h3 : ∀ st u s g r, P st → a.calculatePath st u s g = some r → P r.state)
    (p p' : AbstractPlanner σ) (start : Pose) (hp : P p.alg) (hc : setStart a p start = some p') :
    P p'.alg := by
  unfold setStart at hc
  cases start with
  | none =>
    simp only [Option.some.injEq] at hc
    subst hc
    exact hp
  | some pos =>
    simp only at hc
    split_ifs at hc
    · have := callPlanner_state a P h3 _ p' ?_ hc
      · exact this
      · exact hp
    · cases hc
      exact hp

theorem setGoal_state {σ : Type} (a : Algorithm σ) (P : σ → Prop)
    (h3 : ∀ st u s g r, P st → a.calculatePath st u s g = some r → P r.state)
    (p p' : AbstractPlanner σ) (goal : Pose) (hp : P p.alg) (hc : setGoal a p goal = some p') :
    P p'.alg := by
  unfold setGoal at hc
  cases goal with
  | none =>
    simp only [Option.some.injEq] at hc
    subst hc
    exact hp
  | some pos =>
    simp only at hc
    split_ifs at hc
    · have := callPlanner_state a P h3 _ p' ?_ hc
      · exact this
      · exact hp
    · cases hc
      exact hp

theorem setStartGoal_state {σ : Type} (a : Algorithm σ) (P : σ → Prop)
    (h3 : ∀ st u s g r, P st → a.calculatePath st u s g = some r → P r.state)
    (p p' : AbstractPlanner σ) (start goal : Pose) (hp : P p.alg)
    (hc : setStartGoal a p start goal = some p') : P p'.alg := by
  unfold setStartGoal at hc
  cases start with
  | none =>
    simp only at hc
    cases h1 : setStart a p none with
    | none => rw [h1] at hc; cases hc
    | some p1 =>
      rw [h1] at hc
      exact setGoal_state a P h3 p1 p' goal (setStart_state a P h3 p p1 none hp h1) hc
  | some s =>
    cases goal with
    | none =>
      simp only at hc
      cases h1 : setGoal a p none with
      | none => rw [h1] at hc; cases hc
      | some p1 =>
        rw [h1] at hc
        exact setStart_state a P h3 p1 p' (some s) (setGoal_state a P h3 p p1 none hp h1) hc
    | some g =>
      simp only at hc
      split_ifs at hc
      · cases hc
        exact hp
      · cases hc
        exact hp
      · have := callPlanner_state a P h3 _ p' ?_ hc
        · exact this
        · exact hp

/-- A property of the state of the algorithm that the three functions of the algorithm
keep holds in every state that the operations of the contract lead to. -/
theorem operated_state {σ : Type} (a : Algorithm σ) (P : σ → Prop) (init : σ) (h0 : P init)
    (h1 : ∀ st m, P st → P (a.initMap st m))
    (h2 : ∀ st m r, P st → P (a.initMapUpdate st m r))
    (h3 : ∀ st u s g r, P st → a.calculatePath st u s g = some r → P r.state)
    (p : AbstractPlanner σ) (hp : Operated a init p) : P p.alg := by
  induction hp with
  | new => exact h0
  | setMap p m _ ih => exact h1 _ m ih
  | updateMap p p' m r _ hc ih =>
    unfold updateMap at hc
    by_cases hsz : (m.width, m.height) = p.mapSize
    · rw [if_pos hsz] at hc
      by_cases hr : r.isEmpty = true ∨ ¬ r.inside m.width m.height = true
      · rw [if_pos hr] at hc
        cases hc
        exact ih
      · rw [if_neg hr] at hc
        have := callPlanner_state a P h3 _ p' ?_ hc
        · exact this
        · exact h2 _ m _ ih
    · rw [if_neg hsz] at hc
      cases hc
      exact h1 _ m ih
  | setStart p p' s _ h ih => exact setStart_state a P h3 p p' s ih h
  | setGoal p p' g _ h ih => exact setGoal_state a P h3 p p' g ih h
  | setStartGoal p p' s g _ h ih => exact setStartGoal_state a P h3 p p' s g ih h

end RasterSim

namespace RasterSim

/-! ## The size of the cell array is set by `initMap` only -/

namespace AStar

end AStar

namespace DStar

/-- The state has the cell array of a `w`×`h` map. -/
def Sized (w h : Nat) (p : Planner) : Prop := p.width = w ∧ p.height = h

theorem dstar_sized_frame {w h : Nat} {p q : Planner} (hp : Sized w h p) (hf : Frame p q) :
    Sized w h q := ⟨hf.1.trans hp.1, hf.2.1.trans hp.2⟩

theorem dstar_lowerFromNeighbors_sized {w h : Nat} (p : Planner) (pMin k : Nat)
    (nbs : List (Nat × Nat)) (hp : Sized w h p) : Sized w h (lowerFromNeighbors p pMin k nbs) := by
  unfold lowerFromNeighbors
  split_ifs
  · refine foldl_keeps (Sized w h) _ nbs p ?_ hp
    intro q nb _ hq
    simp only
    split_ifs
    · exact hq
    · exact hq
    · exact hq
    · exact hq
  · exact hp

theorem dstar_adopt_sized {w h : Nat} (p : Planner) (pMin n hc : Nat) (hp : Sized w h p) :
    Sized w h (adopt p pMin n hc) :=
  dstar_sized_frame (p := { p with cells := upd p.cells n { p.cells n with backPtr := some pMin } })
    hp (dstar_insert_frame _ _ _)

theorem dstar_propagateLower_sized {w h : Nat} (p : Planner) (pMin : Nat)
    (nbs : List (Nat × Nat)) (hp : Sized w h p) : Sized w h (propagateLower p pMin nbs) := by
  unfold propagateLower
  refine foldl_keeps (Sized w h) _ nbs p ?_ hp
  intro q nb _ hq
  simp only
  split_ifs
  · exact dstar_adopt_sized _ _ _ _ hq
  · exact hq

theorem dstar_propagateRaise_sized {w h : Nat} (p : Planner) (pMin k : Nat)
    (nbs : List (Nat × Nat)) (hp : Sized w h p) : Sized w h (propagateRaise p pMin k nbs) := by
  unfold propagateRaise
  refine foldl_keeps (Sized w h) _ nbs p ?_ hp
  intro q nb _ hq
  simp only
  split_ifs
  · exact dstar_adopt_sized _ _ _ _ hq
  · exact dstar_sized_frame hq (dstar_insert_frame _ _ _)
  · exact dstar_sized_frame hq (dstar_insert_frame _ _ _)
  · exact hq
  · exact hq

theorem dstar_processState_sized {w h : Nat} (p : Planner) (hp : Sized w h p) :
    Sized w h (processState p).1 := by
  unfold processState
  split_ifs
  · exact hp
  · have h1 : Sized w h (popMin p).2 := dstar_sized_frame hp (dstar_popMin_frame p)
    simp only
    split_ifs
    · exact dstar_propagateLower_sized _ _ _ (dstar_lowerFromNeighbors_sized _ _ _ _ h1)
    · exact dstar_propagateRaise_sized _ _ _ _ (dstar_lowerFromNeighbors_sized _ _ _ _ h1)

theorem dstar_processLoop_sized {w h : Nat} (pStart : Nat) :
    ∀ (fuel : Nat) (p p' : Planner) (e : LoopEnd), Sized w h p →
      processLoop pStart fuel p = some (p', e) → Sized w h p'
  | 0, _, _, _, _, hl => by simp [processLoop] at hl
  | fuel + 1, p, p', e, hp, hl => by
    have h1 := dstar_processState_sized p hp
    simp only [processLoop] at hl
    split_ifs at hl
    · cases hl; exact h1
    · cases hl; exact h1
    · exact dstar_processLoop_sized pStart fuel _ p' e h1 hl

end DStar

namespace FocussedDStar

/-- The state has the cell array of a `w`×`h` map. -/
def Sized (w h : Nat) (p : Planner) : Prop := p.width = w ∧ p.height = h

theorem fdstar_sized_frame {w h : Nat} {p q : Planner} (hp : Sized w h p) (hf : Frame p q) :
    Sized w h q := ⟨hf.1.trans hp.1, hf.2.1.trans hp.2⟩

theorem fdstar_lowerFromNeighbors_sized {w h : Nat} (p : Planner) (pMin : Nat) (val : Cost)
    (k : Nat) (nbs : List (Nat × Nat)) (hp : Sized w h p) :
    Sized w h (lowerFromNeighbors p pMin val k nbs) := by
  unfold lowerFromNeighbors
  split_ifs
  · refine foldl_keeps (Sized w h) _ nbs p ?_ hp
    intro q nb _ hq
    simp only
    split_ifs
    · exact hq
    · exact hq
    · exact hq
    · exact hq
  · exact hp

theorem fdstar_adopt_sized {w h : Nat} (p : Planner) (pMin n hc : Nat) (hp : Sized w h p) :
    Sized w h (adopt p pMin n hc) :=
  fdstar_sized_frame (p := { p with cells := upd p.cells n { p.cells n with backPtr := some pMin } })
    hp (fdstar_insert_frame _ _ _)

theorem fdstar_propagateLower_sized {w h : Nat} (p : Planner) (pMin : Nat)
    (nbs : List (Nat × Nat)) (hp : Sized w h p) : Sized w h (propagateLower p pMin nbs) := by
  unfold propagateLower
  refine foldl_keeps (Sized w h) _ nbs p ?_ hp
  intro q nb _ hq
  simp only
  split_ifs
  · exact fdstar_adopt_sized _ _ _ _ hq
  · exact hq

theorem fdstar_propagateRaise_sized {w h : Nat} (p : Planner) (pMin : Nat) (val : Cost)
    (nbs : List (Nat × Nat)) (hp : Sized w h p) : Sized w h (propagateRaise p pMin val nbs) := by
  unfold propagateRaise
  refine foldl_keeps (Sized w h) _ nbs p ?_ hp
  intro q nb _ hq
  simp only
  split_ifs
  · exact fdstar_adopt_sized _ _ _ _ hq
  · exact fdstar_sized_frame hq (fdstar_insert_frame _ _ _)
  · exact fdstar_sized_frame hq (fdstar_insert_frame _ _ _)
  · exact hq
  · exact hq

theorem fdstar_getMinVal_sized {w h : Nat} (p p' : Planner) (v : Cost) (hp : Sized w h p)
    (hv : getMinVal p = some (p', v)) : Sized w h p' :=
  fdstar_sized_frame hp (fdstar_getMinVal_frame p p' v hv)

theorem fdstar_processState_sized {w h : Nat} (p p' : Planner) (v : Cost) (hp : Sized w h p)
    (hs : processState p = some (p', v)) : Sized w h p' := by
  unfold processState at hs
  cases hm : getMinState p with
  | none => rw [hm] at hs; cases hs
  | some r =>
    obtain ⟨p0, c⟩ := r
    have h0 : Sized w h p0 := fdstar_sized_frame hp (fdstar_getMinState_frame p p0 c hm)
    rw [hm] at hs
    cases c with
    | none =>
      simp only [Option.some.injEq, Prod.mk.injEq] at hs
      rw [← hs.1]
      exact h0
    | some pMin =>
      simp only at hs
      refine fdstar_getMinVal_sized _ p' v ?_ hs
      have h1 : Sized w h (popMin p0 pMin) := fdstar_sized_frame h0 (fdstar_popMin_frame p0 pMin)
      split_ifs
      · exact fdstar_propagateLower_sized _ _ _ (fdstar_lowerFromNeighbors_sized _ _ _ _ _ h1)
      · exact fdstar_propagateRaise_sized _ _ _ _ (fdstar_lowerFromNeighbors_sized _ _ _ _ _ h1)

theorem fdstar_initialLoop_sized {w h : Nat} (pStart : Nat) :
    ∀ (fuel : Nat) (p p' : Planner), Sized w h p → initialLoop pStart fuel p = some p' →
      Sized w h p'
  | 0, _, _, _, hl => by simp [initialLoop] at hl
  | fuel + 1, p, p', hp, hl => by
    simp only [initialLoop] at hl
    cases hs : processState p with
    | none => rw [hs] at hl; cases hl
    | some r =>
      obtain ⟨p1, v⟩ := r
      have h1 := fdstar_processState_sized p p1 v hp hs
      rw [hs] at hl
      simp only at hl
      split_ifs at hl
      · cases hl; exact h1
      · cases hl; exact h1
      · cases hl; exact h1
      · exact fdstar_initialLoop_sized pStart fuel p1 p' h1 hl

theorem fdstar_replanLoop_sized {w h : Nat} (pStart : Nat) :
    ∀ (fuel : Nat) (p p' : Planner) (e : LoopEnd), Sized w h p →
      replanLoop pStart fuel p = some (p', e) → Sized w h p'
  | 0, _, _, _, _, hl => by simp [replanLoop] at hl
  | fuel + 1, p, p', e, hp, hl => by
    simp only [replanLoop] at hl
    split_ifs at hl with hlen
    · cases hs : processState p with
      | none => rw [hs] at hl; cases hl
      | some r =>
        obtain ⟨p1, v⟩ := r
        have h1 := fdstar_processState_sized p p1 v hp hs
        rw [hs] at hl
        simp only at hl
        split_ifs at hl
        · cases hl; exact h1
        · cases hl; exact h1
        · exact fdstar_replanLoop_sized pStart fuel p1 p' e h1 hl
    · cases hl; exact hp

end FocussedDStar

namespace DStarLite

theorem dlite_doCalculatePath_frame (fuel : Nat) (p : Planner) (u : Nat) (s g : Pos)
    (maxSteps : Nat) (o : Outcome) (ho : doCalculatePath fuel p u s g maxSteps = some o) :
    Frame { p with pStart := s.2 * p.width + s.1, pGoal := g.2 * p.width + g.1 } o.planner := by
  unfold doCalculatePath at ho
  simp only at ho
  generalize ({ p with pStart := s.2 * p.width + s.1, pGoal := g.2 * p.width + g.1 } : Planner) = p1
    at ho
  by_cases hb1 : (p.cells (s.2 * p.width + s.1)).blocked = true
  · rw [if_pos hb1] at ho
    cases ho
    exact dlite_frame_refl p1
  rw [if_neg hb1] at ho
  by_cases hb2 : (p.cells (g.2 * p.width + g.1)).blocked = true
  · rw [if_pos hb2] at ho
    cases ho
    exact dlite_frame_refl p1
  rw [if_neg hb2] at ho
  have h2 : Frame p1 (if needsReset u then resetState p1 else p1) :=
    dlite_frame_ite _ _ _ _ (dlite_resetState_frame p1) (dlite_frame_refl p1)
  generalize (if needsReset u then resetState p1 else p1) = p2 at ho h2
  have h3 : Frame p1 (if p2.pRobot ≠ p2.pStart then
      { p2 with k_m := uadd p2.k_m (h_cost (p2.cells p2.pStart) (p2.cells p2.pRobot)), pRobot := p2.pStart }
      else p2) := by
    refine dlite_frame_ite _ _ _ _ (dlite_frame_trans h2 ?_) h2
    exact ⟨rfl, rfl, rfl, rfl, rfl, fun _ => ⟨rfl, rfl, rfl⟩⟩
  generalize (if p2.pRobot ≠ p2.pStart then
      { p2 with k_m := uadd p2.k_m (h_cost (p2.cells p2.pStart) (p2.cells p2.pRobot)), pRobot := p2.pStart }
      else p2) = p3 at ho h3
  cases hc : computeShortestPath fuel p3 maxSteps with
  | none => rw [hc] at ho; cases ho
  | some r =>
    obtain ⟨p4, success⟩ := r
    rw [hc] at ho
    simp only [Option.some.injEq] at ho
    subst ho
    have h4 := dlite_frame_trans h3 (dlite_shortestPathLoop_frame maxSteps fuel p3 p4 0 success hc)
    unfold doDebugAndPathExtract
    split_ifs
    · split <;> exact h4
    · exact h4
    · exact h4

end DStarLite

end RasterSim

namespace RasterSim

/-! ## A second invocation with the change mask `UpdatedStart` and the same start -/

/-- A walk along the backpointers that ends well started from a cell that is not
blocked, and neither is the goal. -/
theorem followBackPtrs_free (blocked : Nat → Bool) (backPtr : Nat → Option Nat) (pos : Nat → Pos)
    (pGoal : Nat) : ∀ (remaining pCell : Nat) (path l : List Pos),
      DStar.followBackPtrs blocked backPtr pos pGoal remaining pCell path = Except.ok l →
      blocked pCell = false ∧ blocked pGoal = false
  | remaining, pCell, path, l, h => by
    unfold DStar.followBackPtrs at h
    split_ifs at h with hb hg
    · subst hg
      simp only [Bool.not_eq_true] at hb
      exact ⟨hb, hb⟩
    · simp only [Bool.not_eq_true] at hb
      cases hbp : backPtr pCell with
      | none => simp only [hbp] at h; cases h
      | some next =>
        simp only [hbp] at h
        cases remaining with
        | zero => simp only at h; cases h
        | succ r =>
          simp only at h
          exact ⟨hb, (followBackPtrs_free blocked backPtr pos pGoal r next _ l h).2⟩

namespace DStar

open ListType

theorem dstar_processState_kMin (p : Planner) : (processState p).2 = getKMin (processState p).1 := by
  unfold processState
  split_ifs with h
  · unfold getKMin
    rw [if_pos (by simp only; omega)]
  · rfl

/-- The loop of lines 199-215 ends ready in a state in which its test holds. -/
theorem dstar_processLoop_ready (pStart : Nat) : ∀ (fuel : Nat) (p p' : Planner),
    processLoop pStart fuel p = some (p', LoopEnd.ready) →
    (p'.cells pStart).list ≠ List_New ∧ getKMin p' ≥ (p'.cells pStart).h_cost
  | 0, _, _, h => by simp [processLoop] at h
  | fuel + 1, p, p', h => by
    simp only [processLoop] at h
    split_ifs at h with c1 c2
    · simp only [Option.some.injEq, Prod.mk.injEq, and_true] at h
      rw [dstar_processState_kMin, h] at c1
      exact c1
    · simp at h
    · exact dstar_processLoop_ready pStart fuel _ p' h

theorem dstar_extractPath_planner (p : Planner) (pStart pGoal : Nat) :
    (extractPath p pStart pGoal).planner = p := by
  unfold extractPath
  split <;> rfl

theorem dstar_extractPath_free (p : Planner) (pStart pGoal : Nat)
    (h : (extractPath p pStart pGoal).path ≠ []) :
    (p.cells pStart).blocked = false ∧ (p.cells pGoal).blocked = false := by
  unfold extractPath at h
  split at h
  · rename_i path hp
    exact followBackPtrs_free _ _ _ _ _ _ _ _ hp
  · exact absurd rfl h

/-- A call of `doCalculatePath` of D* that set a path, followed by a call with the same
start and goal and the change mask `UpdatedStart`: the second call leaves the state as
it is and sets the same path. -/
theorem dstar_replan_same (fuel : Nat) (p : Planner) (u : Nat) (s g : Pos) (o : Outcome)
    (h : doCalculatePath fuel p u s g = some o) (hp : o.path ≠ []) :
    doCalculatePath fuel o.planner 1 s g = some o := by
  obtain ⟨p2, k1, k2, k3, k4⟩ : ∃ p2 : Planner, Sized p.width p.height p2 ∧
      ((p2.cells (s.2 * p.width + s.1)).list ≠ List_New ∧
        getKMin p2 ≥ (p2.cells (s.2 * p.width + s.1)).h_cost) ∧
      ¬ ((p2.cells (s.2 * p.width + s.1)).list = List_New ∨
        (p2.cells (s.2 * p.width + s.1)).h_cost ≥ OBSTACLE_COST) ∧
      o = extractPath p2 (s.2 * p.width + s.1) (g.2 * p.width + g.1) := by
    unfold doCalculatePath at h
    simp only at h
    by_cases b1 : (p.cells (s.2 * p.width + s.1)).blocked = true
    · rw [if_pos b1] at h; cases h; exact absurd rfl hp
    rw [if_neg b1] at h
    by_cases b2 : (p.cells (g.2 * p.width + g.1)).blocked = true
    · rw [if_pos b2] at h; cases h; exact absurd rfl hp
    rw [if_neg b2] at h
    have hs1 : Sized p.width p.height
        (if needsReset u = true then resetState p (g.2 * p.width + g.1) else p) := by
      split_ifs
      · exact ⟨rfl, rfl⟩
      · exact ⟨rfl, rfl⟩
    generalize (if needsReset u = true then resetState p (g.2 * p.width + g.1) else p) = p1
      at h hs1
    by_cases c1 : (p1.cells (s.2 * p.width + s.1)).list = List_New ∨
        getKMin p1 < (p1.cells (s.2 * p.width + s.1)).h_cost
    · rw [if_pos c1] at h
      cases hl : processLoop (s.2 * p.width + s.1) fuel p1 with
      | none => rw [hl] at h; cases h
      | some r =>
        obtain ⟨p2, e⟩ := r
        rw [hl] at h
        cases e with
        | noPath => simp only at h; cases h; exact absurd rfl hp
        | ready =>
          simp only at h
          split_ifs at h with c2
          · cases h; exact absurd rfl hp
          · simp only [Option.some.injEq] at h
            exact ⟨p2, dstar_processLoop_sized _ fuel _ p2 _ hs1 hl,
              dstar_processLoop_ready _ fuel _ p2 hl, c2, h.symm⟩
    · rw [if_neg c1] at h
      simp only at h
      split_ifs at h with c2
      · cases h; exact absurd rfl hp
      · simp only [Option.some.injEq] at h
        push_neg at c1
        exact ⟨p1, hs1, ⟨c1.1, c1.2⟩, c2, h.symm⟩
  have hpl : o.planner = p2 := by rw [k4]; exact dstar_extractPath_planner _ _ _
  rw [k4] at hp
  obtain ⟨f1, f2⟩ := dstar_extractPath_free _ _ _ hp
  rw [hpl]
  unfold doCalculatePath
  simp only
  rw [k1.1, if_neg (by rw [f1]; simp), if_neg (by rw [f2]; simp)]
  have hnr : needsReset 1 = false := by decide
  simp only [hnr, Bool.false_eq_true, if_false]
  rw [if_neg (by
    rintro (c | c)
    · exact k2.1 c
    · omega)]
  simp only
  rw [if_neg k3, k4]

end DStar

namespace DStarLite

/-- Two states with the same robot cell and the same blocked cells. -/
def Steady (p p' : Planner) : Prop :=
  p'.pRobot = p.pRobot ∧ ∀ i, (p'.cells i).blocked = (p.cells i).blocked

theorem dlite_steady_refl (p : Planner) : Steady p p := ⟨rfl, fun _ => rfl⟩

theorem dlite_steady_trans {p1 p2 p3 : Planner} (h12 : Steady p1 p2) (h23 : Steady p2 p3) :
    Steady p1 p3 :=
  ⟨h23.1.trans h12.1, fun i => (h23.2 i).trans (h12.2 i)⟩

theorem dlite_steady_ite (p a b : Planner) (c : Prop) [Decidable c] (ha : Steady p a)
    (hb : Steady p b) : Steady p (if c then a else b) := by
  split_ifs
  · exact ha
  · exact hb

/-- A change of one cell that keeps its `blocked`. -/
theorem dlite_steady_upd (p q : Planner) (c : Nat) (c' : Cell) (hq : Steady p q)
    (hb : c'.blocked = (q.cells c).blocked) :
    Steady p { q with cells := upd q.cells c c' } := by
  refine dlite_steady_trans hq ⟨rfl, fun i => ?_⟩
  simp only [upd_apply]
  split_ifs with hi
  · subst hi; exact hb
  · exact rfl

theorem dlite_swapSlots_steady (p : Planner) (i j : Nat) : Steady p (swapSlots p i j) := by
  refine ⟨rfl, fun c => ?_⟩
  simp only [swapSlots, upd_apply]
  split_ifs <;> simp_all

theorem dlite_heapUpLoop_steady : ∀ (fuel : Nat) (p : Planner) (idx : Nat), Steady p (heapUpLoop fuel p idx)
  | 0, p, _ => dlite_steady_refl p
  | fuel + 1, p, idx => by
    simp only [heapUpLoop]
    split_ifs
    · exact dlite_steady_trans (dlite_swapSlots_steady p _ _) (dlite_heapUpLoop_steady fuel _ _)
    · exact dlite_steady_refl p
    · exact dlite_steady_refl p

theorem dlite_heapDownLoop_steady : ∀ (fuel : Nat) (p : Planner) (idx : Nat),
    Steady p (heapDownLoop fuel p idx)
  | 0, p, _ => dlite_steady_refl p
  | fuel + 1, p, idx => by
    simp only [heapDownLoop]
    split_ifs
    · exact dlite_steady_refl p
    · exact dlite_steady_trans (dlite_swapSlots_steady p _ _) (dlite_heapDownLoop_steady fuel _ _)

theorem dlite_heapUp_steady (p : Planner) (c : Nat) : Steady p (heapUp p c) := by
  unfold heapUp
  split_ifs
  · exact dlite_steady_refl p
  · exact dlite_heapUpLoop_steady _ _ _

theorem dlite_heapDown_steady (p : Planner) (c : Nat) : Steady p (heapDown p c) := by
  unfold heapDown
  split_ifs
  · exact dlite_steady_refl p
  · exact dlite_heapDownLoop_steady _ _ _

theorem dlite_insert_steady (p : Planner) (c : Nat) : Steady p (insert p c) := by
  unfold insert
  refine dlite_steady_ite _ _ _ _ ?_ ?_
  · exact dlite_steady_trans (dlite_heapDown_steady _ _) (dlite_heapUp_steady _ _)
  · refine dlite_steady_trans ?_ (dlite_heapUp_steady _ _)
    exact ⟨rfl, fun i => by simp only [upd_apply]; split_ifs <;> simp_all⟩

theorem dlite_remove_steady (p : Planner) (c : Nat) : Steady p (remove p c) := by
  unfold remove
  refine dlite_steady_ite _ _ _ _ (dlite_steady_refl p) ?_
  refine dlite_steady_upd p _ c _ ?_ rfl
  refine dlite_steady_ite _ _ _ _ ?_ ?_
  · refine dlite_steady_trans (dlite_steady_trans ?_ (dlite_heapUp_steady _ _)) (dlite_heapDown_steady _ _)
    exact ⟨rfl, fun i => by simp only [upd_apply]; split_ifs <;> simp_all⟩
  · exact ⟨rfl, fun i => rfl⟩

theorem dlite_updateVertex_steady (p q : Planner) (c : Nat) (hq : Steady p q) :
    Steady p (updateVertex q c) := by
  unfold updateVertex
  refine dlite_steady_ite _ _ _ _ ?_ (dlite_steady_trans hq (dlite_remove_steady _ _))
  refine dlite_steady_trans ?_ (dlite_insert_steady _ _)
  exact dlite_steady_upd p q c _ hq rfl

theorem dlite_lowerCell_steady (p : Planner) (c : Nat) : Steady p (lowerCell p c) := by
  unfold lowerCell
  have h1 := dlite_steady_upd p p c { p.cells c with g_cost := (p.cells c).rhs } (dlite_steady_refl p)
    rfl
  have h2 := dlite_steady_trans h1 (dlite_remove_steady _ c)
  refine dlite_steady_ite _ _ _ _ ?_ h2
  refine foldl_keeps (Steady p) _ _ _ ?_ h2
  intro q spec _ hq
  refine dlite_steady_ite _ _ _ _ hq (dlite_steady_ite _ _ _ _ ?_ hq)
  exact dlite_updateVertex_steady p _ _ (dlite_steady_upd p q _ _ hq rfl)

theorem dlite_raiseCell_steady (p : Planner) (c : Nat) : Steady p (raiseCell p c) := by
  unfold raiseCell
  have h1 := dlite_steady_upd p p c { p.cells c with g_cost := OBSTACLE_COST } (dlite_steady_refl p)
    rfl
  refine foldl_keeps (Steady p) _ _ _ ?_ h1
  intro q spec _ hq
  refine dlite_steady_ite _ _ _ _ hq (dlite_updateVertex_steady p _ _ ?_)
  exact dlite_steady_ite _ _ _ _ (dlite_steady_upd p q _ _ hq rfl) hq

theorem dlite_popStep_steady (p : Planner) : Steady p (popStep p) := by
  unfold popStep
  refine dlite_steady_ite _ _ _ _ ?_
    (dlite_steady_ite _ _ _ _ (dlite_lowerCell_steady _ _) (dlite_raiseCell_steady _ _))
  refine dlite_steady_trans ?_ (dlite_insert_steady _ _)
  exact dlite_steady_upd p p _ _ (dlite_steady_refl p) rfl

theorem dlite_shortestPathLoop_steady (maxSteps : Nat) :
    ∀ (fuel : Nat) (p p' : Planner) (step : Nat) (b : Bool),
      shortestPathLoop maxSteps fuel p step = some (p', b) → Steady p p'
  | 0, _, _, _, _, h => by simp [shortestPathLoop] at h
  | fuel + 1, p, p', step, b, h => by
    simp only [shortestPathLoop] at h
    split_ifs at h
    · cases h; exact dlite_steady_refl p
    · cases h; exact dlite_steady_refl p
    · exact dlite_steady_trans (dlite_popStep_steady p)
        (dlite_shortestPathLoop_steady maxSteps fuel _ p' _ b h)
    · cases h; exact dlite_steady_refl p


/-- The loop of `computeShortestPath` ends complete in a state in which its test fails. -/
theorem dlite_loop_done (maxSteps : Nat) : ∀ (fuel : Nat) (p p' : Planner) (step : Nat),
    shortestPathLoop maxSteps fuel p step = some (p', true) →
    p'.openListLength ≠ 0 → keepGoing p' = false
  | 0, _, _, _, h => by simp [shortestPathLoop] at h
  | fuel + 1, p, p', step, h => by
    simp only [shortestPathLoop] at h
    split_ifs at h with c1 c2 c3
    · simp only [Option.some.injEq, Prod.mk.injEq, and_true] at h
      intro _
      rw [← h]
      simpa using c2
    · simp at h
    · exact dlite_loop_done maxSteps fuel _ p' _ h
    · simp only [Option.some.injEq, Prod.mk.injEq, and_true] at h
      intro hl
      rw [← h] at hl
      exact absurd hl c1

theorem dlite_withEnds_eq (q : Planner) (a b : Nat) (ha : q.pStart = a) (hb : q.pGoal = b) :
    ({ q with pStart := a, pGoal := b } : Planner) = q := by
  subst ha
  subst hb
  rfl

/-- A call of `doCalculatePath` of D* Lite that set a path, followed by a call with the
same start and goal and the change mask `UpdatedStart`: the second call leaves the state
as it is and sets the same path. -/
theorem dlite_replan_same (fuel : Nat) (p : Planner) (u : Nat) (s g : Pos) (ms ms' : Nat)
    (o : Outcome) (h : doCalculatePath fuel p u s g ms = some o) (hp : o.path ≠ []) :
    doCalculatePath fuel o.planner 1 s g ms' = some o := by
  have hfr := dlite_doCalculatePath_frame fuel p u s g ms o h
  obtain ⟨p4, k1, k2, k3, k4, k5⟩ : ∃ p4 : Planner, o = doDebugAndPathExtract p4 true ∧
      p4.pRobot = p4.pStart ∧ (p4.cells (s.2 * p.width + s.1)).blocked = false ∧
      (p4.cells (g.2 * p.width + g.1)).blocked = false ∧
      shortestPathLoop ms' fuel p4 0 = some (p4, true) := by
    unfold doCalculatePath at h
    simp only at h
    by_cases b1 : (p.cells (s.2 * p.width + s.1)).blocked = true
    · rw [if_pos b1] at h; cases h; exact absurd rfl hp
    rw [if_neg b1] at h
    by_cases b2 : (p.cells (g.2 * p.width + g.1)).blocked = true
    · rw [if_pos b2] at h; cases h; exact absurd rfl hp
    rw [if_neg b2] at h
    have hb0 : ∀ d, (({ p with pStart := s.2 * p.width + s.1, pGoal := g.2 * p.width + g.1 } :
        Planner).cells d).blocked = (p.cells d).blocked := fun _ => rfl
    generalize ({ p with pStart := s.2 * p.width + s.1, pGoal := g.2 * p.width + g.1 } : Planner)
      = p1 at h hb0
    have hb2 : ∀ d, ((if needsReset u = true then resetState p1 else p1).cells d).blocked =
        (p.cells d).blocked := by
      intro d
      split_ifs
      · rw [dlite_resetState_blocked, hb0]
      · exact hb0 d
    generalize (if needsReset u = true then resetState p1 else p1) = p2 at h hb2
    have h3 : (if p2.pRobot ≠ p2.pStart then
        ({ p2 with k_m := uadd p2.k_m (h_cost (p2.cells p2.pStart) (p2.cells p2.pRobot)),
                   pRobot := p2.pStart } : Planner) else p2).pRobot =
        (if p2.pRobot ≠ p2.pStart then
        ({ p2 with k_m := uadd p2.k_m (h_cost (p2.cells p2.pStart) (p2.cells p2.pRobot)),
                   pRobot := p2.pStart } : Planner) else p2).pStart ∧
        ∀ d, ((if p2.pRobot ≠ p2.pStart then
        ({ p2 with k_m := uadd p2.k_m (h_cost (p2.cells p2.pStart) (p2.cells p2.pRobot)),
                   pRobot := p2.pStart } : Planner) else p2).cells d).blocked =
          (p.cells d).blocked := by
      split_ifs with c
      · exact ⟨rfl, hb2⟩
      · push_neg at c
        exact ⟨c, hb2⟩
    generalize (if p2.pRobot ≠ p2.pStart then
        ({ p2 with k_m := uadd p2.k_m (h_cost (p2.cells p2.pStart) (p2.cells p2.pRobot)),
                   pRobot := p2.pStart } : Planner) else p2) = p3 at h h3
    cases hc : computeShortestPath fuel p3 ms with
    | none => rw [hc] at h; cases h
    | some r =>
      obtain ⟨p4, success⟩ := r
      rw [hc] at h
      simp only [Option.some.injEq] at h
      cases success with
      | false =>
        rw [← h] at hp
        exact absurd rfl hp
      | true =>
        have hst := dlite_shortestPathLoop_steady ms fuel p3 p4 0 true hc
        have hfr4 := dlite_shortestPathLoop_frame ms fuel p3 p4 0 true hc
        have hdone := dlite_loop_done ms fuel p3 p4 0 hc
        have hfuel : ∃ f, fuel = f + 1 := by
          cases fuel with
          | zero => simp [computeShortestPath, shortestPathLoop] at hc
          | succ f => exact ⟨f, rfl⟩
        obtain ⟨f, hf⟩ := hfuel
        refine ⟨p4, h.symm, ?_, ?_, ?_, ?_⟩
        · rw [hst.1, hfr4.2.2.2.1, h3.1]
        · rw [hst.2, h3.2]
          simpa using b1
        · rw [hst.2, h3.2]
          simpa using b2
        · rw [hf]
          simp only [shortestPathLoop]
          by_cases hl : p4.openListLength ≠ 0
          · rw [if_pos hl, hdone hl]
            simp
          · rw [if_neg hl]
  have hpl : o.planner = p4 := by
    rw [k1]
    unfold doDebugAndPathExtract
    simp only [if_true]
    split_ifs
    · split <;> rfl
    · rfl
  rw [hpl] at hfr ⊢
  have hw : p4.width = p.width := hfr.1
  have hS : p4.pStart = s.2 * p4.width + s.1 := by rw [hw]; exact hfr.2.2.2.1
  have hG : p4.pGoal = g.2 * p4.width + g.1 := by rw [hw]; exact hfr.2.2.2.2.1
  have e1 := dlite_withEnds_eq p4 _ _ hS hG
  unfold doCalculatePath
  simp only
  rw [e1, ← hS, ← hG]
  rw [hS, hw, if_neg (by rw [k3]; simp), hG, hw, if_neg (by rw [k4]; simp)]
  have hnr : needsReset 1 = false := by decide
  simp only [hnr, Bool.false_eq_true, if_false]
  rw [if_neg (by rw [k2]; simp)]
  unfold computeShortestPath
  rw [k5]
  simp only
  rw [k1]

end DStarLite

namespace FocussedDStar

open ListType

/-- Two states with the same robot cell and the same blocked cells. -/
def Steady (p p' : Planner) : Prop :=
  p'.pRobot = p.pRobot ∧ ∀ i, (p'.cells i).blocked = (p.cells i).blocked

theorem fdstar_steady_refl (p : Planner) : Steady p p := ⟨rfl, fun _ => rfl⟩

theorem fdstar_steady_trans {p1 p2 p3 : Planner} (h12 : Steady p1 p2) (h23 : Steady p2 p3) :
    Steady p1 p3 :=
  ⟨h23.1.trans h12.1, fun i => (h23.2 i).trans (h12.2 i)⟩

theorem fdstar_steady_ite (p a b : Planner) (c : Prop) [Decidable c] (ha : Steady p a)
    (hb : Steady p b) : Steady p (if c then a else b) := by
  split_ifs
  · exact ha
  · exact hb

theorem fdstar_steady_move {p q : Planner} (h : HeapMove p q) : Steady p q :=
  ⟨h.pRobot, fun i => fdstar_core_blocked (h.core i)⟩

/-- A change of one cell that keeps its `blocked`, together with any change of the open
list. -/
theorem fdstar_steady_cells (p : Planner) (c : Nat) (c' : Cell) (heap : Nat → Nat) (len : Nat)
    (hb : c'.blocked = (p.cells c).blocked) :
    Steady p { p with cells := upd p.cells c c', openHeap := heap, openListLength := len } := by
  refine ⟨rfl, fun i => ?_⟩
  simp only [upd_apply]
  split_ifs with hi
  · subst hi; exact hb
  · rfl

theorem fdstar_insert_steady (p : Planner) (c h : Nat) : Steady p (insert p c h) := by
  unfold insert
  simp only
  refine fdstar_steady_trans ?_ (fdstar_steady_cells _ c _ _ _ rfl)
  refine fdstar_steady_ite _ _ _ _ ?_ ?_
  · refine fdstar_steady_trans (fdstar_steady_trans ?_ (fdstar_steady_move (fdstar_heapUp_move _ c)))
      (fdstar_steady_move (fdstar_heapDown_move _ c))
    exact fdstar_steady_cells p c _ _ _ rfl
  · refine fdstar_steady_trans ?_ (fdstar_steady_move (fdstar_heapUp_move _ c))
    exact fdstar_steady_cells p c _ _ _ rfl

theorem fdstar_minStateLoop_steady : ∀ (fuel : Nat) (p p' : Planner) (c : Nat),
    minStateLoop fuel p = some (p', c) → Steady p p'
  | 0, _, _, _, h => by simp [minStateLoop] at h
  | fuel + 1, p, p', c, h => by
    simp only [minStateLoop] at h
    split_ifs at h
    · simp only [Option.some.injEq, Prod.mk.injEq] at h
      rw [← h.1]; exact fdstar_steady_refl p
    · refine fdstar_steady_trans ?_ (fdstar_minStateLoop_steady fuel _ p' c h)
      refine fdstar_steady_trans (fdstar_steady_trans ?_ (fdstar_steady_move (fdstar_heapUp_move _ _)))
        (fdstar_steady_move (fdstar_heapDown_move _ _))
      exact fdstar_steady_cells p _ _ _ _ rfl

theorem fdstar_getMinState_steady (p p' : Planner) (c : Option Nat)
    (h : getMinState p = some (p', c)) : Steady p p' := by
  unfold getMinState at h
  split_ifs at h
  · cases hm : minStateLoop (p.openListLength + 1) p with
    | none => rw [hm] at h; cases h
    | some r =>
      rw [hm] at h
      simp only [Option.map_some', Option.some.injEq, Prod.mk.injEq] at h
      rw [← h.1]
      exact fdstar_minStateLoop_steady _ p r.1 r.2 hm
  · simp only [Option.some.injEq, Prod.mk.injEq] at h
    rw [← h.1]; exact fdstar_steady_refl p

theorem fdstar_getMinVal_steady (p p' : Planner) (v : Cost)
    (h : getMinVal p = some (p', v)) : Steady p p' := by
  unfold getMinVal at h
  cases hm : getMinState p with
  | none => rw [hm] at h; cases h
  | some r =>
    obtain ⟨q, c⟩ := r
    rw [hm] at h
    have hq := fdstar_getMinState_steady p q c hm
    cases c with
    | none =>
      simp only [Option.map_some', Option.some.injEq, Prod.mk.injEq] at h
      rw [← h.1]; exact hq
    | some c =>
      simp only [Option.map_some', Option.some.injEq, Prod.mk.injEq] at h
      rw [← h.1]; exact hq

theorem fdstar_lowerFromNeighbors_steady (p : Planner) (pMin : Nat) (val : Cost) (k : Nat)
    (nbs : List (Nat × Nat)) : Steady p (lowerFromNeighbors p pMin val k nbs) := by
  unfold lowerFromNeighbors
  split_ifs
  · refine foldl_keeps (Steady p) _ nbs p ?_ (fdstar_steady_refl p)
    intro q nb _ hq
    simp only
    split_ifs
    · exact hq
    · exact fdstar_steady_trans hq (fdstar_steady_cells q pMin _ _ _ rfl)
    · exact hq
    · exact hq
  · exact fdstar_steady_refl p

theorem fdstar_adopt_steady (p : Planner) (pMin n hc : Nat) : Steady p (adopt p pMin n hc) := by
  unfold adopt
  refine fdstar_steady_trans ?_ (fdstar_insert_steady _ _ _)
  exact fdstar_steady_cells p n _ _ _ rfl

theorem fdstar_propagateLower_steady (p : Planner) (pMin : Nat) (nbs : List (Nat × Nat)) :
    Steady p (propagateLower p pMin nbs) := by
  unfold propagateLower
  refine foldl_keeps (Steady p) _ nbs p ?_ (fdstar_steady_refl p)
  intro q nb _ hq
  simp only
  split_ifs
  · exact fdstar_steady_trans hq (fdstar_adopt_steady _ _ _ _)
  · exact hq

theorem fdstar_propagateRaise_steady (p : Planner) (pMin : Nat) (val : Cost)
    (nbs : List (Nat × Nat)) : Steady p (propagateRaise p pMin val nbs) := by
  unfold propagateRaise
  refine foldl_keeps (Steady p) _ nbs p ?_ (fdstar_steady_refl p)
  intro q nb _ hq
  simp only
  split_ifs
  · exact fdstar_steady_trans hq (fdstar_adopt_steady _ _ _ _)
  · exact fdstar_steady_trans hq (fdstar_insert_steady _ _ _)
  · exact fdstar_steady_trans hq (fdstar_insert_steady _ _ _)
  · exact hq
  · exact hq

theorem fdstar_popMin_steady (p : Planner) (pMin : Nat) : Steady p (popMin p pMin) := by
  unfold popMin
  simp only
  split_ifs
  · refine fdstar_steady_trans ?_ (fdstar_steady_move (fdstar_heapDown_move _ _))
    exact ⟨rfl, fun i => by simp only [upd_apply]; split_ifs <;> simp_all⟩
  · exact ⟨rfl, fun i => by simp only [upd_apply]; split_ifs <;> simp_all⟩

theorem fdstar_processState_steady (p p' : Planner) (v : Cost)
    (hs : processState p = some (p', v)) : Steady p p' := by
  unfold processState at hs
  cases hm : getMinState p with
  | none => rw [hm] at hs; cases hs
  | some r =>
    obtain ⟨p0, c⟩ := r
    have h0 := fdstar_getMinState_steady p p0 c hm
    rw [hm] at hs
    cases c with
    | none =>
      simp only [Option.some.injEq, Prod.mk.injEq] at hs
      rw [← hs.1]
      exact h0
    | some pMin =>
      simp only at hs
      refine fdstar_steady_trans ?_ (fdstar_getMinVal_steady _ p' v hs)
      have h1 := fdstar_steady_trans h0 (fdstar_popMin_steady p0 pMin)
      split_ifs
      · exact fdstar_steady_trans (fdstar_steady_trans h1 (fdstar_lowerFromNeighbors_steady _ _ _ _ _))
          (fdstar_propagateLower_steady _ _ _)
      · exact fdstar_steady_trans (fdstar_steady_trans h1 (fdstar_lowerFromNeighbors_steady _ _ _ _ _))
          (fdstar_propagateRaise_steady _ _ _ _)

theorem fdstar_initialLoop_steady (pStart : Nat) :
    ∀ (fuel : Nat) (p p' : Planner), initialLoop pStart fuel p = some p' → Steady p p'
  | 0, _, _, hl => by simp [initialLoop] at hl
  | fuel + 1, p, p', hl => by
    simp only [initialLoop] at hl
    cases hs : processState p with
    | none => rw [hs] at hl; cases hl
    | some r =>
      obtain ⟨p1, v⟩ := r
      have h1 := fdstar_processState_steady p p1 v hs
      rw [hs] at hl
      simp only at hl
      split_ifs at hl
      · cases hl; exact h1
      · cases hl; exact h1
      · cases hl; exact h1
      · exact fdstar_steady_trans h1 (fdstar_initialLoop_steady pStart fuel p1 p' hl)

theorem fdstar_replanLoop_steady (pStart : Nat) :
    ∀ (fuel : Nat) (p p' : Planner) (e : LoopEnd),
      replanLoop pStart fuel p = some (p', e) → Steady p p'
  | 0, _, _, _, hl => by simp [replanLoop] at hl
  | fuel + 1, p, p', e, hl => by
    simp only [replanLoop] at hl
    split_ifs at hl with hlen
    · cases hs : processState p with
      | none => rw [hs] at hl; cases hl
      | some r =>
        obtain ⟨p1, v⟩ := r
        have h1 := fdstar_processState_steady p p1 v hs
        rw [hs] at hl
        simp only at hl
        split_ifs at hl
        · cases hl; exact h1
        · cases hl; exact h1
        · exact fdstar_steady_trans h1 (fdstar_replanLoop_steady pStart fuel p1 p' e hl)
    · cases hl; exact fdstar_steady_refl p

theorem fdstar_minStateLoop_focus : ∀ (fuel : Nat) (p p' : Planner) (c : Nat),
    minStateLoop fuel p = some (p', c) →
    c = p'.openHeap 1 ∧ (p'.cells (p'.openHeap 1)).pFocus = some p'.pRobot ∧
      p'.openListLength = p.openListLength
  | 0, _, _, _, h => by simp [minStateLoop] at h
  | fuel + 1, p, p', c, h => by
    simp only [minStateLoop] at h
    split_ifs at h with hf
    · simp only [Option.some.injEq, Prod.mk.injEq] at h
      obtain ⟨h1, h2⟩ := h
      subst h1
      exact ⟨h2.symm, hf, rfl⟩
    · obtain ⟨r1, r2, r3⟩ := fdstar_minStateLoop_focus fuel _ p' c h
      refine ⟨r1, r2, r3.trans ?_⟩
      rw [(fdstar_heapDown_move _ _).len, (fdstar_heapUp_move _ _).len]

/-- A second call of `getMinState` returns what the first one returned. -/
theorem fdstar_getMinState_again (p p' : Planner) (c : Option Nat)
    (h : getMinState p = some (p', c)) : getMinState p' = some (p', c) := by
  unfold getMinState at h
  split_ifs at h with hl
  · cases hm : minStateLoop (p.openListLength + 1) p with
    | none => rw [hm] at h; cases h
    | some r =>
      rw [hm] at h
      simp only [Option.map_some', Option.some.injEq, Prod.mk.injEq] at h
      obtain ⟨h1, h2⟩ := h
      obtain ⟨r1, r2, r3⟩ := fdstar_minStateLoop_focus _ p r.1 r.2 hm
      rw [h1] at r1 r2 r3
      unfold getMinState
      rw [if_pos (by omega), minStateLoop, if_pos r2, ← h2, r1]
      rfl
  · simp only [Option.some.injEq, Prod.mk.injEq] at h
    obtain ⟨h1, h2⟩ := h
    subst h1
    unfold getMinState
    rw [if_neg hl, h2]

/-- A second call of `getMinVal` returns what the first one returned. -/
theorem fdstar_getMinVal_again (p p' : Planner) (v : Cost)
    (h : getMinVal p = some (p', v)) : getMinVal p' = some (p', v) := by
  unfold getMinVal at h
  cases hm : getMinState p with
  | none => rw [hm] at h; cases h
  | some r =>
    obtain ⟨q, c⟩ := r
    rw [hm] at h
    have hq : q = p' := by
      cases c with
      | none =>
        simp only [Option.map_some', Option.some.injEq, Prod.mk.injEq] at h
        exact h.1
      | some c =>
        simp only [Option.map_some', Option.some.injEq, Prod.mk.injEq] at h
        exact h.1
    subst hq
    unfold getMinVal
    rw [fdstar_getMinState_again p q c hm]
    exact h

/-- The state `processState` returns is one that `getMinVal` returns as it is. -/
theorem fdstar_processState_again (p p' : Planner) (v : Cost)
    (h : processState p = some (p', v)) : getMinVal p' = some (p', v) := by
  unfold processState at h
  cases hm : getMinState p with
  | none => rw [hm] at h; cases h
  | some r =>
    obtain ⟨p0, c⟩ := r
    rw [hm] at h
    cases c with
    | none =>
      simp only [Option.some.injEq, Prod.mk.injEq] at h
      obtain ⟨h1, h2⟩ := h
      subst h1
      unfold getMinVal
      rw [fdstar_getMinState_again p p0 none hm, ← h2]
      rfl
    | some pMin =>
      simp only at h
      exact fdstar_getMinVal_again _ p' v h

theorem fdstar_cost_le_lt (a b : Cost) (h : Cost.le a b = true) : Cost.lt b a = false := by
  unfold Cost.le at h
  unfold Cost.lt
  split_ifs at h ⊢ with e1 e2 e2
  · simp only [decide_eq_true_eq] at h
    simp only [decide_eq_false_iff_not]
    omega
  · exact absurd e1.symm e2
  · exact absurd e2.symm e1
  · simp only [decide_eq_true_eq] at h
    simp only [decide_eq_false_iff_not]
    omega

/-- The value of `getMinVal` on an empty open list is not below the cost of a cell
whose `h` is below the obstacle cost. -/
theorem fdstar_noVal_lt (p : Planner) (v : Cost) (c : Nat) (hl : p.openListLength = 0)
    (hv : getMinVal p = some (p, v)) (hc : (p.cells c).h_cost < OBSTACLE_COST) :
    Cost.lt v (getCost p c) = false := by
  unfold getMinVal getMinState at hv
  rw [if_neg (by omega)] at hv
  simp only [Option.map_some', Option.some.injEq, Prod.mk.injEq, true_and] at hv
  rw [← hv]
  unfold Cost.lt Cost.noVal UINT_MAX getCost uadd
  unfold OBSTACLE_COST at hc
  simp only
  have := Nat.mod_lt ((p.cells c).h_cost + dist (p.cells c) (p.cells p.pRobot))
    (show 0 < 4294967296 by omega)
  split_ifs
  · simp only [decide_eq_false_iff_not]
    omega
  · simp only [decide_eq_false_iff_not]
    omega

/-- The loop of lines 219-234 ends ready in a state that `getMinVal` returns as it is,
with a value that is not below the cost of the start when the start is not new and has
an `h` below the obstacle cost. -/
theorem fdstar_replanLoop_ready (pStart : Nat) : ∀ (fuel : Nat) (p p' : Planner) (v : Cost),
    replanLoop pStart fuel p = some (p', LoopEnd.ready) → getMinVal p = some (p, v) →
    ∃ v', getMinVal p' = some (p', v') ∧
      ((p'.cells pStart).h_cost < OBSTACLE_COST → Cost.lt v' (getCost p' pStart) = false)
  | 0, _, _, _, h, _ => by simp [replanLoop] at h
  | fuel + 1, p, p', v, h, hv => by
    simp only [replanLoop] at h
    split_ifs at h with hlen
    · cases hs : processState p with
      | none => rw [hs] at h; cases h
      | some r =>
        obtain ⟨p1, v1⟩ := r
        have h1 := fdstar_processState_again p p1 v1 hs
        rw [hs] at h
        simp only at h
        split_ifs at h with c1 c2
        · simp only [Option.some.injEq, Prod.mk.injEq, and_true] at h
          subst h
          exact ⟨v1, h1, fun _ => fdstar_cost_le_lt _ _ c1.2⟩
        · simp at h
        · exact fdstar_replanLoop_ready pStart fuel p1 p' v1 h h1
    · simp only [Option.some.injEq, Prod.mk.injEq, and_true] at h
      subst h
      exact ⟨v, hv, fdstar_noVal_lt p v pStart (by omega) hv⟩

theorem fdstar_extractPath_free (p : Planner) (pStart pGoal : Nat)
    (h : (extractPath p pStart pGoal).path ≠ []) :
    (p.cells pStart).blocked = false ∧ (p.cells pGoal).blocked = false := by
  unfold extractPath at h
  split at h
  · rename_i path hp
    exact followBackPtrs_free _ _ _ _ _ _ _ _ hp
  · exact absurd rfl h

/-- A state in which a call with the change mask `UpdatedStart` has nothing to do. -/
structure Settled (q : Planner) (pStart : Nat) (v : Cost) : Prop where
  robot : q.pRobot = pStart
  again : getMinVal q = some (q, v)
  cost : Cost.lt v (getCost q pStart) = false
  seen : (q.cells pStart).list ≠ List_New
  low : (q.cells pStart).h_cost < OBSTACLE_COST

theorem fdstar_settled_replan (fuel : Nat) (q : Planner) (s g : Pos) (v : Cost)
    (hq : Settled q (s.2 * q.width + s.1) v)
    (hp : (extractPath q (s.2 * q.width + s.1) (g.2 * q.width + g.1)).path ≠ []) :
    doCalculatePath fuel q 1 s g =
      some (extractPath q (s.2 * q.width + s.1) (g.2 * q.width + g.1)) := by
  obtain ⟨f1, f2⟩ := fdstar_extractPath_free _ _ _ hp
  unfold doCalculatePath
  simp only
  rw [if_neg (by rw [f1]; simp), if_neg (by rw [f2]; simp)]
  have hnr : needsReset 1 = false := by decide
  simp only [hnr, Bool.false_eq_true, if_false]
  rw [if_neg (by decide), if_neg (by rw [hq.robot]; simp), hq.again]
  simp only
  rw [if_neg (by
    rintro (c | c)
    · exact hq.seen c
    · rw [hq.cost] at c; cases c)]
  simp only
  rw [if_neg (by
    rintro (c | c)
    · exact hq.seen c
    · have := hq.low; omega)]

/-- A call of `doCalculatePath` of Focussed D* that set a path ends in a state in which
a call with the change mask `UpdatedStart` has nothing to do. -/
theorem fdstar_settled_after (m : GridMap) (fuel : Nat) (p : Planner) (u : Nat) (s g : Pos)
    (o : Outcome) (hst : Static m p) (hw : m.width ≤ USHORT) (hh : m.height ≤ USHORT)
    (hs : FreeCell m s) (hg : FreeCell m g)
    (h : doCalculatePath fuel p u s g = some o) (hp : o.path ≠ []) :
    ∃ q v, Sized p.width p.height q ∧ Settled q (s.2 * p.width + s.1) v ∧
      o = extractPath q (s.2 * p.width + s.1) (g.2 * p.width + g.1) := by
  have hsN := index_lt m.width m.height s.1 s.2 hs.1 hs.2.1
  have hgN := index_lt m.width m.height g.1 g.2 hg.1 hg.2.1
  have hpg : posOf m.width (g.2 * m.width + g.1) = g := posOf_index _ _ _ hg.1
  have hgf : m.pixel ((g.2 * m.width + g.1) % m.width) ((g.2 * m.width + g.1) / m.width) = 0 := by
    have h1 := congrArg Prod.fst hpg
    have h2 := congrArg Prod.snd hpg
    unfold posOf at h1 h2
    simp only at h1 h2
    rw [h1, h2]
    exact hg.2.2
  unfold doCalculatePath at h
  simp only at h
  rw [hst.width] at h ⊢
  by_cases b1 : (p.cells (s.2 * m.width + s.1)).blocked = true
  · rw [if_pos b1] at h; cases h; exact absurd rfl hp
  rw [if_neg b1] at h
  by_cases b2 : (p.cells (g.2 * m.width + g.1)).blocked = true
  · rw [if_pos b2] at h; cases h; exact absurd rfl hp
  rw [if_neg b2] at h
  by_cases hu : (u / 8) % 2 = 1 ∨ (u / 2) % 2 = 1
  · -- the first search of a run from scratch
    rw [if_pos hu] at h
    have hnr : needsReset u = true := by
      unfold needsReset
      rcases hu with hu | hu
      · simp [hu]
      · simp [hu]
    rw [hnr, if_pos rfl] at h
    cases hl : initialLoop (s.2 * m.width + s.1) fuel
        (resetState p (s.2 * m.width + s.1) (g.2 * m.width + g.1)) with
    | none => rw [hl] at h; cases h
    | some p2 =>
      rw [hl] at h
      simp only at h
      split_ifs at h with c2
      · cases h; exact absurd rfl hp
      · simp only [Option.some.injEq] at h
        push_neg at c2
        obtain ⟨p0, q1, q2, q3, q4, q5, _, _, q8, q9⟩ := fdstar_resetState_full hst
          (s.2 * m.width + s.1) (g.2 * m.width + g.1) hsN hgN hgf
        have hM0 : Mono m p0 := fun x _ hx _ hc _ _ => absurd hc (q9 x hx)
        obtain ⟨r1, r2, r3, r4⟩ := fdstar_initialLoop_mono (s.2 * m.width + s.1) hw hh fuel _ p0 p2
          q1 q2 hM0 (by omega) (by rw [q4, q5]; omega) (Or.inr ⟨q4.symm, q3, q9⟩) hl
        have hrob : p2.pRobot = s.2 * m.width + s.1 :=
          (fdstar_initialLoop_steady _ fuel _ p2 hl).1
        have hsz : Sized m.width p.height p2 :=
          fdstar_initialLoop_sized _ fuel _ p2
            (show Sized m.width p.height (resetState p _ _) from ⟨hst.width, rfl⟩) hl
        have hset := fdstar_mono_settled r1 r2 hw hh r3 (by rw [hrob]; exact c2.1)
        rw [hrob] at hset
        refine ⟨p2, firstCost p2, hsz, ⟨hrob, r4, hset, by rw [c2.1]; simp, c2.2⟩, h.symm⟩
  · -- the search after a move of the robot
    rw [if_neg hu] at h
    have hs1 : Sized m.width p.height
        (if needsReset u = true then resetState p (s.2 * m.width + s.1) (g.2 * m.width + g.1)
          else p) := by
      split_ifs
      · exact ⟨hst.width, rfl⟩
      · exact ⟨hst.width, rfl⟩
    generalize (if needsReset u = true then
      resetState p (s.2 * m.width + s.1) (g.2 * m.width + g.1) else p) = p1 at h hs1
    have hs2 : Sized m.width p.height (if s.2 * m.width + s.1 ≠ p1.pRobot then
        ({ p1 with d_curr := uadd (uadd p1.d_curr (dist (p1.cells (s.2 * m.width + s.1)) (p1.cells p1.pRobot))) 1, pRobot := s.2 * m.width + s.1 } : Planner) else p1) ∧
        (if s.2 * m.width + s.1 ≠ p1.pRobot then
        ({ p1 with d_curr := uadd (uadd p1.d_curr (dist (p1.cells (s.2 * m.width + s.1)) (p1.cells p1.pRobot))) 1, pRobot := s.2 * m.width + s.1 } : Planner) else p1).pRobot = s.2 * m.width + s.1 := by
      split_ifs with c
      · exact ⟨hs1, rfl⟩
      · push_neg at c
        exact ⟨hs1, c.symm⟩
    generalize (if s.2 * m.width + s.1 ≠ p1.pRobot then
        ({ p1 with d_curr := uadd (uadd p1.d_curr (dist (p1.cells (s.2 * m.width + s.1)) (p1.cells p1.pRobot))) 1, pRobot := s.2 * m.width + s.1 } : Planner) else p1) = p2 at h hs2
    cases hv : getMinVal p2 with
    | none => rw [hv] at h; cases h
    | some r =>
      obtain ⟨p3, val⟩ := r
      rw [hv] at h
      simp only at h
      have hv3 := fdstar_getMinVal_again p2 p3 val hv
      have hr3 : p3.pRobot = s.2 * m.width + s.1 :=
        (fdstar_getMinVal_steady p2 p3 val hv).1.trans hs2.2
      have hz3 := fdstar_getMinVal_sized p2 p3 val hs2.1 hv
      by_cases c1 : (p3.cells (s.2 * m.width + s.1)).list = List_New ∨
          Cost.lt val (getCost p3 (s.2 * m.width + s.1)) = true
      · rw [if_pos c1] at h
        cases hl : replanLoop (s.2 * m.width + s.1) fuel p3 with
        | none => rw [hl] at h; cases h
        | some r =>
          obtain ⟨p4, e⟩ := r
          rw [hl] at h
          cases e with
          | noPath => simp only at h; cases h; exact absurd rfl hp
          | ready =>
            simp only at h
            split_ifs at h with c2
            · cases h; exact absurd rfl hp
            · simp only [Option.some.injEq] at h
              push_neg at c2
              obtain ⟨v', k1, k2⟩ := fdstar_replanLoop_ready _ fuel p3 p4 val hl hv3
              exact ⟨p4, v', fdstar_replanLoop_sized _ fuel p3 p4 _ hz3 hl,
                ⟨(fdstar_replanLoop_steady _ fuel p3 p4 _ hl).1.trans hr3, k1, k2 c2.2, c2.1,
                  c2.2⟩, h.symm⟩
      · rw [if_neg c1] at h
        simp only at h
        split_ifs at h with c2
        · cases h; exact absurd rfl hp
        · simp only [Option.some.injEq] at h
          push_neg at c1 c2
          refine ⟨p3, val, hz3, ⟨hr3, hv3, ?_, c2.1, c2.2⟩, h.symm⟩
          cases hc : Cost.lt val (getCost p3 (s.2 * m.width + s.1))
          · rfl
          · exact absurd hc c1.2

/-- A call of `doCalculatePath` of Focussed D* that set a path, on a state that holds
the map `m`, followed by a call with the same start and goal and the change mask
`UpdatedStart`: the second call leaves the state as it is and sets the same path. -/
theorem fdstar_replan_same (m : GridMap) (fuel : Nat) (p : Planner) (u : Nat) (s g : Pos)
    (o : Outcome) (hst : Static m p) (hw : m.width ≤ USHORT) (hh : m.height ≤ USHORT)
    (hs : FreeCell m s) (hg : FreeCell m g)
    (h : doCalculatePath fuel p u s g = some o) (hp : o.path ≠ []) :
    doCalculatePath fuel o.planner 1 s g = some o := by
  obtain ⟨q, v, k1, k2, k3⟩ := fdstar_settled_after m fuel p u s g o hst hw hh hs hg h hp
  have hpl : o.planner = q := by rw [k3]; exact fdstar_extractPath_planner _ _ _
  rw [hpl]
  rw [← k1.1] at k2 k3
  rw [k3] at hp
  rw [fdstar_settled_replan fuel q s g v k2 hp, k3]

end FocussedDStar

end RasterSim

namespace RasterSim

/-! ## A*: the search reads nothing that an earlier search left behind -/

namespace AStar

open ListType

/-- The parent of the cell `c` is a closed cell of the map. -/
def ParentClosed (N : Nat) (s : Search) (c : Nat) : Prop :=
  (s.re c).parent < N ∧ (s.re (s.re c).parent).list = List_Closed

/-- Two states of the search that agree on all that the search reads: the number of
open list items, the heap slots up to `hw` and the cells in them, the list and the
position of every cell of the map, the cells on the open list, and the cost and the
parent of the closed cells. -/
structure Sim (N pStart hw : Nat) (s1 s2 : Search) : Prop where
  n : s2.n = s1.n
  n_le : s1.n ≤ hw
  stat : ∀ c, c < N → (s2.re c).list = (s1.re c).list ∧ (s2.re c).x = (s1.re c).x ∧
    (s2.re c).y = (s1.re c).y
  slots : ∀ i, 1 ≤ i → i ≤ hw → s2.openList i = s1.openList i ∧ s1.openList i < N ∧
    s2.re (s1.openList i) = s1.re (s1.openList i) ∧ ParentClosed N s1 (s1.openList i)
  opened : ∀ c, c < N → (s1.re c).list = List_Open →
    s2.re c = s1.re c ∧ 1 ≤ (s1.re c).openListIndex ∧ (s1.re c).openListIndex ≤ hw
  closed : ∀ c, c < N → (s1.re c).list = List_Closed →
    (s2.re c).g_cost = (s1.re c).g_cost ∧
      (c ≠ pStart → (s2.re c).parent = (s1.re c).parent ∧ ParentClosed N s1 c)

theorem astar_sim_f {N pStart hw : Nat} {s1 s2 : Search} (h : Sim N pStart hw s1 s2) (i : Nat)
    (h1 : 1 ≤ i) (h2 : i ≤ hw) : s2.f i = s1.f i := by
  unfold Search.f
  obtain ⟨a, _, b, _⟩ := h.slots i h1 h2
  rw [a, b]

/-- Heap moves that both states make alike keep them in agreement. -/
theorem astar_sim_of_rel {N pStart hw : Nat} {s1 s2 s1' s2' : Search}
    (hS : Sim N pStart hw s1 s2) (H1 : HeapRel hw s1 s1') (H2 : HeapRel hw s2 s2')
    (hre : ∀ c, s2.re c = s1.re c → s2'.re c = s1'.re c)
    (hol : ∀ i, 1 ≤ i → i ≤ hw → s2'.openList i = s1'.openList i) :
    Sim N pStart hw s1' s2' := by
  have pc : ∀ c, ParentClosed N s1 c → ParentClosed N s1' c := by
    intro c ⟨p1, p2⟩
    unfold ParentClosed
    rw [(H1.2.1 c).1, (H1.2.1 _).2.2.2.1]
    exact ⟨p1, p2⟩
  refine ⟨by rw [H2.1, H1.1]; exact hS.n, by rw [H1.1]; exact hS.n_le, ?_, ?_, ?_, ?_⟩
  · intro c hc
    obtain ⟨_, _, _, a4, a5, a6, _⟩ := H1.2.1 c
    obtain ⟨_, _, _, b4, b5, b6, _⟩ := H2.2.1 c
    obtain ⟨c1, c2, c3⟩ := hS.stat c hc
    exact ⟨by rw [a4, b4, c1], by rw [a5, b5, c2], by rw [a6, b6, c3]⟩
  · intro i h1 h2
    obtain ⟨j, j1, j2, hj⟩ := H1.2.2 i h1 h2
    obtain ⟨_, k2, k3, k4⟩ := hS.slots j j1 j2
    rw [hj]
    exact ⟨(hol i h1 h2).trans hj, k2, hre _ k3, pc _ k4⟩
  · intro c hc ho
    obtain ⟨_, _, _, a4, _, _, a7⟩ := H1.2.1 c
    rw [a4] at ho
    obtain ⟨k1, k2, k3⟩ := hS.opened c hc ho
    refine ⟨hre c k1, ?_⟩
    rcases a7 with a7 | a7
    · rw [a7]; exact ⟨k2, k3⟩
    · exact a7
  · intro c hc hcl
    obtain ⟨a1, a2, _, a4, _, _, _⟩ := H1.2.1 c
    obtain ⟨b1, b2, _, _, _, _, _⟩ := H2.2.1 c
    rw [a4] at hcl
    obtain ⟨k1, k2⟩ := hS.closed c hc hcl
    refine ⟨by rw [a2, b2, k1], fun hne => ?_⟩
    obtain ⟨k3, k4⟩ := k2 hne
    exact ⟨by rw [a1, b1, k3], pc c k4⟩

/-- The cells on which two states agree stay so from the first pair to the second. -/
def Same (s1 s2 s1' s2' : Search) : Prop :=
  ∀ c, s2.re c = s1.re c → s2'.re c = s1'.re c

theorem astar_swapSlots_sim {N pStart hw : Nat} {s1 s2 : Search} (hS : Sim N pStart hw s1 s2)
    (u v : Nat) (hu1 : 1 ≤ u) (hu : u ≤ hw) (hv1 : 1 ≤ v) (hv : v ≤ hw) :
    Sim N pStart hw (swapSlots s1 u v) (swapSlots s2 u v) ∧
      Same s1 s2 (swapSlots s1 u v) (swapSlots s2 u v) := by
  obtain ⟨eu, _, ru, _⟩ := hS.slots u hu1 hu
  obtain ⟨ev, _, rv, _⟩ := hS.slots v hv1 hv
  have hre : Same s1 s2 (swapSlots s1 u v) (swapSlots s2 u v) := by
    intro c hc
    simp only [swapSlots, upd_apply, upd_same, eu, ev]
    split_ifs <;> simp_all
  refine ⟨astar_sim_of_rel hS (swapSlots_rel hw s1 u v hu1 hu hv1 hv)
    (swapSlots_rel hw s2 u v hu1 hu hv1 hv) hre ?_, hre⟩
  intro i h1 h2
  obtain ⟨ei, _, _, _⟩ := hS.slots i h1 h2
  simp only [swapSlots, upd_apply, eu, ev, ei]

theorem astar_sinkTarget_sim {N pStart hw : Nat} {s1 s2 : Search} (hS : Sim N pStart hw s1 s2)
    (v : Nat) (h1 : 1 ≤ v) (h2 : v ≤ hw) : sinkTarget s2 v = sinkTarget s1 v := by
  have hn := hS.n_le
  unfold sinkTarget
  simp only [hS.n]
  by_cases a : 2 * v + 1 ≤ s1.n
  · rw [if_pos a, if_pos a, astar_sim_f hS v h1 h2, astar_sim_f hS (2 * v) (by omega) (by omega)]
    by_cases b : s1.f v ≥ s1.f (2 * v)
    · rw [if_pos b, astar_sim_f hS (2 * v) (by omega) (by omega),
        astar_sim_f hS (2 * v + 1) (by omega) (by omega)]
    · rw [if_neg b, astar_sim_f hS v h1 h2, astar_sim_f hS (2 * v + 1) (by omega) (by omega)]
  · rw [if_neg a, if_neg a]
    by_cases b : 2 * v ≤ s1.n
    · rw [if_pos b, if_pos b, astar_sim_f hS v h1 h2, astar_sim_f hS (2 * v) (by omega) (by omega)]
    · rw [if_neg b, if_neg b]

theorem astar_sinkLoop_sim {N pStart hw : Nat} : ∀ (fuel : Nat) (s1 s2 : Search) (v : Nat),
    Sim N pStart hw s1 s2 → 1 ≤ v → v ≤ hw →
    Sim N pStart hw (sinkLoop fuel s1 v) (sinkLoop fuel s2 v) ∧
      Same s1 s2 (sinkLoop fuel s1 v) (sinkLoop fuel s2 v)
  | 0, _, _, _, hS, _, _ => ⟨hS, fun _ h => h⟩
  | fuel + 1, s1, s2, v, hS, h1, h2 => by
    simp only [sinkLoop]
    rw [astar_sinkTarget_sim hS v h1 h2]
    split_ifs with h
    · have ht := sinkTarget_cases s1 v
      have hn := hS.n_le
      have h1' : 1 ≤ sinkTarget s1 v := by omega
      have h2' : sinkTarget s1 v ≤ hw := by omega
      obtain ⟨a, b⟩ := astar_swapSlots_sim hS v (sinkTarget s1 v) h1 h2 h1' h2'
      obtain ⟨c, d⟩ := astar_sinkLoop_sim fuel _ _ (sinkTarget s1 v) a h1' h2'
      exact ⟨c, fun x hx => d x (b x hx)⟩
    · exact ⟨hS, fun _ h => h⟩

theorem astar_bubbleUpLe_sim {N pStart hw : Nat} : ∀ (fuel : Nat) (s1 s2 : Search) (m : Nat),
    Sim N pStart hw s1 s2 → 1 ≤ m → m ≤ hw →
    Sim N pStart hw (bubbleUpLe fuel s1 m) (bubbleUpLe fuel s2 m) ∧
      Same s1 s2 (bubbleUpLe fuel s1 m) (bubbleUpLe fuel s2 m)
  | 0, _, _, _, hS, _, _ => ⟨hS, fun _ h => h⟩
  | fuel + 1, s1, s2, m, hS, h1, h2 => by
    simp only [bubbleUpLe]
    by_cases h : m = 1
    · rw [if_neg (by simpa using h), if_neg (by simpa using h)]
      exact ⟨hS, fun _ h => h⟩
    · have hm : 1 ≤ m / 2 := by omega
      have hm2 : m / 2 ≤ hw := by omega
      rw [if_pos h, if_pos h, astar_sim_f hS m h1 h2, astar_sim_f hS (m / 2) hm hm2]
      split_ifs with h'
      · obtain ⟨a, b⟩ := astar_swapSlots_sim hS (m / 2) m hm hm2 h1 h2
        obtain ⟨c, d⟩ := astar_bubbleUpLe_sim fuel _ _ (m / 2) a hm hm2
        exact ⟨c, fun x hx => d x (b x hx)⟩
      · exact ⟨hS, fun _ h => h⟩

theorem astar_bubbleUpLt_sim {N pStart hw : Nat} : ∀ (fuel : Nat) (s1 s2 : Search) (m : Nat),
    Sim N pStart hw s1 s2 → 1 ≤ m → m ≤ hw →
    Sim N pStart hw (bubbleUpLt fuel s1 m) (bubbleUpLt fuel s2 m) ∧
      Same s1 s2 (bubbleUpLt fuel s1 m) (bubbleUpLt fuel s2 m)
  | 0, _, _, _, hS, _, _ => ⟨hS, fun _ h => h⟩
  | fuel + 1, s1, s2, m, hS, h1, h2 => by
    simp only [bubbleUpLt]
    by_cases h : m = 1
    · rw [if_neg (by simpa using h), if_neg (by simpa using h)]
      exact ⟨hS, fun _ h => h⟩
    · have hm : 1 ≤ m / 2 := by omega
      have hm2 : m / 2 ≤ hw := by omega
      rw [if_pos h, if_pos h, astar_sim_f hS m h1 h2, astar_sim_f hS (m / 2) hm hm2]
      split_ifs with h'
      · obtain ⟨a, b⟩ := astar_swapSlots_sim hS (m / 2) m hm hm2 h1 h2
        obtain ⟨c, d⟩ := astar_bubbleUpLt_sim fuel _ _ (m / 2) a hm hm2
        exact ⟨c, fun x hx => d x (b x hx)⟩
      · exact ⟨hS, fun _ h => h⟩

/-- A cell keeps a closed parent when its parent stays and closed cells stay closed. -/
theorem astar_parentClosed_keep {N : Nat} {s s' : Search} {c : Nat}
    (hp : (s'.re c).parent = (s.re c).parent)
    (hl : ∀ d, (s.re d).list = List_Closed → (s'.re d).list = List_Closed)
    (h : ParentClosed N s c) : ParentClosed N s' c := by
  unfold ParentClosed
  rw [hp]
  exact ⟨h.1, hl _ h.2⟩

/-- Closing the same cell in both states keeps them in agreement. -/
theorem astar_close_sim {N pStart hw : Nat} {s1 s2 : Search} (hS : Sim N pStart hw s1 s2)
    (c0 n1 : Nat) (hc0 : c0 < N) (hr : s2.re c0 = s1.re c0) (hpc : ParentClosed N s1 c0)
    (hn : n1 ≤ hw) :
    Sim N pStart hw
      { re := upd s1.re c0 { s1.re c0 with list := List_Closed }, openList := s1.openList, n := n1 }
      { re := upd s2.re c0 { s2.re c0 with list := List_Closed }, openList := s2.openList, n := n1 } := by
  have hl : ∀ d, (s1.re d).list = List_Closed →
      ((upd s1.re c0 { s1.re c0 with list := List_Closed }) d).list = List_Closed := by
    intro d hd
    simp only [upd_apply]
    split_ifs
    · rfl
    · exact hd
  have hpar : ∀ d, ((upd s1.re c0 { s1.re c0 with list := List_Closed }) d).parent =
      (s1.re d).parent := by
    intro d
    simp only [upd_apply]
    split_ifs with h
    · rw [h]
    · rfl
  have pc : ∀ d, ParentClosed N s1 d → ParentClosed N
      { re := upd s1.re c0 { s1.re c0 with list := List_Closed }, openList := s1.openList, n := n1 } d :=
    fun d hd => astar_parentClosed_keep (hpar d) hl hd
  refine ⟨rfl, hn, ?_, ?_, ?_, ?_⟩
  · intro c hc
    obtain ⟨a1, a2, a3⟩ := hS.stat c hc
    simp only [upd_apply]
    split_ifs with h
    · subst h; exact ⟨rfl, a2, a3⟩
    · exact ⟨a1, a2, a3⟩
  · intro i h1 h2
    obtain ⟨a1, a2, a3, a4⟩ := hS.slots i h1 h2
    refine ⟨a1, a2, ?_, pc _ a4⟩
    simp only [upd_apply]
    split_ifs with h
    · rw [hr]
    · exact a3
  · intro c hc ho
    by_cases h : c = c0
    · simp only [upd_apply, if_pos h] at ho
      cases ho
    · simp only [upd_apply, if_neg h] at ho ⊢
      exact hS.opened c hc ho
  · intro c hc hcl
    by_cases h : c = c0
    · subst h
      refine ⟨?_, fun _ => ⟨?_, pc _ hpc⟩⟩
      · simp only [upd_apply, if_true]; rw [hr]
      · simp only [upd_apply, if_true]; rw [hr]
    · simp only [upd_apply, if_neg h] at hcl ⊢
      obtain ⟨a1, a2⟩ := hS.closed c hc hcl
      exact ⟨a1, fun hne => ⟨(a2 hne).1, pc _ (a2 hne).2⟩⟩

/-- Copying the cell of slot `j` into the first slot keeps the states in agreement. -/
theorem astar_move_sim {N pStart hw : Nat} {s1 s2 : Search} (hS : Sim N pStart hw s1 s2)
    (j : Nat) (h1 : 1 ≤ j) (h2 : j ≤ hw) :
    Sim N pStart hw { s1 with openList := upd s1.openList 1 (s1.openList j) }
      { s2 with openList := upd s2.openList 1 (s2.openList j) } := by
  obtain ⟨f1, f2, f3, f4⟩ := hS.slots j h1 h2
  refine ⟨hS.n, hS.n_le, hS.stat, ?_, hS.opened, hS.closed⟩
  intro i i1 i2
  simp only [upd_apply]
  split_ifs with hi
  · exact ⟨f1, f2, f3, f4⟩
  · exact hS.slots i i1 i2

/-- Taking the first item off the open list: both states give the same cell and stay
in agreement; the cell is a closed cell of the map afterwards. -/
theorem astar_popFirst_sim {N pStart hw : Nat} {s1 s2 : Search} (hS : Sim N pStart hw s1 s2)
    (hn : s1.n ≠ 0) :
    (popFirst s2).1 = (popFirst s1).1 ∧ Sim N pStart hw (popFirst s1).2 (popFirst s2).2 ∧
      (popFirst s1).1 < N ∧ ((popFirst s1).2.re (popFirst s1).1).list = List_Closed := by
  have hle := hS.n_le
  obtain ⟨e1, e2, e3, e4⟩ := hS.slots 1 (le_refl _) (by omega)
  have hcl := astar_close_sim hS (s1.openList 1) (s1.n - 1) e2 e3 e4 (by omega)
  unfold popFirst
  simp only [hS.n, e1]
  by_cases h : s1.n - 1 = 0
  · rw [if_neg (by simpa using h), if_neg (by simpa using h)]
    refine ⟨rfl, hcl, e2, ?_⟩
    simp only [upd_apply, if_true]
  · rw [if_pos h, if_pos h]
    have hmv := astar_move_sim hcl (s1.n - 1 + 1) (by omega) (by omega)
    obtain ⟨a, _⟩ := astar_sinkLoop_sim (s1.n - 1 + 1) _ _ 1 hmv (le_refl _) (by omega)
    refine ⟨rfl, a, e2, ?_⟩
    have hr := sinkLoop_rel hw (s1.n - 1 + 1)
      { re := upd s1.re (s1.openList 1) { s1.re (s1.openList 1) with list := List_Closed }, openList := upd s1.openList 1 (s1.openList (s1.n - 1 + 1)), n := s1.n - 1 }
      1 (le_refl _) (by omega) (by simp only; omega)
    simp only
    rw [(hr.2.1 _).2.2.2.1]
    simp only [upd_apply, if_true]

/-- Writing the same cost and parent into a cell that is on no list and putting it
into slot `m` keeps the states in agreement, up to slot `m`. -/
theorem astar_write_sim {N pStart hw : Nat} {s1 s2 : Search} (hS : Sim N pStart hw s1 s2)
    (pRE pN m : Nat) (g f : Int) (hp : pRE < N) (hcl : (s1.re pRE).list = List_Closed)
    (hN : pN < N) (hnc : (s1.re pN).list ≠ List_Closed) (hno : (s1.re pN).list ≠ List_Open)
    (hm : m ≤ hw + 1) :
    Sim N pStart (max hw m)
      { re := upd s1.re pN { s1.re pN with openListIndex := m, g_cost := g, f_cost := f, parent := pRE }, openList := upd s1.openList m pN, n := s1.n }
      { re := upd s2.re pN { s2.re pN with openListIndex := m, g_cost := g, f_cost := f, parent := pRE }, openList := upd s2.openList m pN, n := s1.n } := by
  have hrec : ({ s2.re pN with openListIndex := m, g_cost := g, f_cost := f, parent := pRE } : RasterElement) =
      { s1.re pN with openListIndex := m, g_cost := g, f_cost := f, parent := pRE } := by
    obtain ⟨a1, a2, a3⟩ := hS.stat pN hN
    simp only [a1, a2, a3]
  have hlist : ∀ d, ((upd s1.re pN { s1.re pN with openListIndex := m, g_cost := g, f_cost := f, parent := pRE }) d).list =
      (s1.re d).list := by
    intro d
    simp only [upd_apply]
    split_ifs with h
    · rw [h]
    · rfl
  have hre : ∀ d, s2.re d = s1.re d →
      (upd s2.re pN { s2.re pN with openListIndex := m, g_cost := g, f_cost := f, parent := pRE }) d =
      (upd s1.re pN { s1.re pN with openListIndex := m, g_cost := g, f_cost := f, parent := pRE }) d := by
    intro d hd
    simp only [upd_apply]
    split_ifs with h
    · exact hrec
    · exact hd
  have pc : ∀ d, ParentClosed N s1 d ∨ d = pN → ParentClosed N
      { re := upd s1.re pN { s1.re pN with openListIndex := m, g_cost := g, f_cost := f, parent := pRE }, openList := upd s1.openList m pN, n := s1.n } d := by
    intro d hd
    unfold ParentClosed
    simp only
    rw [hlist]
    by_cases h : d = pN
    · simp only [upd_apply, if_pos h]
      exact ⟨hp, hcl⟩
    · simp only [upd_apply, if_neg h]
      rcases hd with hd | hd
      · exact hd
      · exact absurd hd h
  refine ⟨rfl, le_trans hS.n_le (le_max_left _ _), ?_, ?_, ?_, ?_⟩
  · intro c hc
    obtain ⟨a1, a2, a3⟩ := hS.stat c hc
    simp only [upd_apply]
    split_ifs with h
    · subst h; exact ⟨a1, a2, a3⟩
    · exact ⟨a1, a2, a3⟩
  · intro i h1 h2
    by_cases hi : i = m
    · simp only [upd_apply, if_pos hi]
      exact ⟨trivial, hN, hrec, pc pN (Or.inr rfl)⟩
    · have hi2 : i ≤ hw := by
        rcases le_max_iff.1 h2 with h3 | h3
        · exact h3
        · omega
      obtain ⟨a1, a2, a3, a4⟩ := hS.slots i h1 hi2
      have e : (upd s1.openList m pN) i = s1.openList i := by simp only [upd_apply, if_neg hi]
      have e2 : (upd s2.openList m pN) i = s2.openList i := by simp only [upd_apply, if_neg hi]
      have := pc (s1.openList i) (Or.inl a4)
      dsimp only at this ⊢
      rw [e, e2]
      exact ⟨a1, a2, hre _ a3, this⟩
  · intro c hc ho
    simp only at ho
    rw [hlist] at ho
    obtain ⟨a1, a2, a3⟩ := hS.opened c hc ho
    have hne : c ≠ pN := fun h => hno (h ▸ ho)
    simp only [upd_apply, if_neg hne]
    exact ⟨a1, a2, le_trans a3 (le_max_left _ _)⟩
  · intro c hc hcc
    simp only at hcc
    rw [hlist] at hcc
    obtain ⟨a1, a2⟩ := hS.closed c hc hcc
    have hne : c ≠ pN := fun h => hnc (h ▸ hcc)
    refine ⟨by simp only [upd_apply, if_neg hne]; exact a1, fun hs => ⟨?_, pc c (Or.inl (a2 hs).2)⟩⟩
    simp only [upd_apply, if_neg hne]
    exact (a2 hs).1

/-- Putting the same cell on the open list in both states keeps them in agreement. -/
theorem astar_mark_sim {N pStart hw : Nat} {s1 s2 : Search} (hS : Sim N pStart hw s1 s2)
    (pN : Nat) (hN : pN < N) (hr : s2.re pN = s1.re pN)
    (hi1 : 1 ≤ (s1.re pN).openListIndex) (hi2 : (s1.re pN).openListIndex ≤ hw)
    (hnc : (s1.re pN).list ≠ List_Closed) (hn : s1.n + 1 ≤ hw) :
    Sim N pStart hw
      { re := upd s1.re pN { s1.re pN with list := List_Open }, openList := s1.openList, n := s1.n + 1 }
      { re := upd s2.re pN { s2.re pN with list := List_Open }, openList := s2.openList, n := s2.n + 1 } := by
  have hl : ∀ d, (s1.re d).list = List_Closed →
      ((upd s1.re pN { s1.re pN with list := List_Open }) d).list = List_Closed := by
    intro d hd
    have hne : d ≠ pN := fun h => hnc (h ▸ hd)
    simp only [upd_apply, if_neg hne]
    exact hd
  have hpar : ∀ d, ((upd s1.re pN { s1.re pN with list := List_Open }) d).parent =
      (s1.re d).parent := by
    intro d
    simp only [upd_apply]
    split_ifs with h
    · rw [h]
    · rfl
  have pc : ∀ d, ParentClosed N s1 d → ParentClosed N
      { re := upd s1.re pN { s1.re pN with list := List_Open }, openList := s1.openList, n := s1.n + 1 } d :=
    fun d hd => astar_parentClosed_keep (hpar d) hl hd
  refine ⟨by simp only [hS.n], hn, ?_, ?_, ?_, ?_⟩
  · intro c hc
    obtain ⟨a1, a2, a3⟩ := hS.stat c hc
    simp only [upd_apply]
    split_ifs with h
    · subst h; exact ⟨rfl, a2, a3⟩
    · exact ⟨a1, a2, a3⟩
  · intro i h1 h2
    obtain ⟨a1, a2, a3, a4⟩ := hS.slots i h1 h2
    refine ⟨a1, a2, ?_, pc _ a4⟩
    simp only [upd_apply]
    split_ifs with h
    · rw [hr]
    · exact a3
  · intro c hc ho
    by_cases h : c = pN
    · subst h
      simp only [upd_apply, if_true]
      rw [hr]
      exact ⟨rfl, hi1, hi2⟩
    · simp only [upd_apply, if_neg h] at ho ⊢
      exact hS.opened c hc ho
  · intro c hc hcl
    by_cases h : c = pN
    · simp only [upd_apply, if_pos h] at hcl
      cases hcl
    · simp only [upd_apply, if_neg h] at hcl ⊢
      obtain ⟨a1, a2⟩ := hS.closed c hc hcl
      exact ⟨a1, fun hne => ⟨(a2 hne).1, pc _ (a2 hne).2⟩⟩

/-- Writing the same cost and parent into a cell of the open list keeps the states in
agreement. -/
theorem astar_cost_sim {N pStart hw : Nat} {s1 s2 : Search} (hS : Sim N pStart hw s1 s2)
    (pRE pN : Nat) (g f : Int) (hp : pRE < N) (hcl : (s1.re pRE).list = List_Closed)
    (hN : pN < N) (ho : (s1.re pN).list = List_Open) :
    Sim N pStart hw
      { re := upd s1.re pN { s1.re pN with g_cost := g, f_cost := f, parent := pRE }, openList := s1.openList, n := s1.n }
      { re := upd s2.re pN { s2.re pN with g_cost := g, f_cost := f, parent := pRE }, openList := s2.openList, n := s2.n } := by
  obtain ⟨hr, hi1, hi2⟩ := hS.opened pN hN ho
  have hlist : ∀ d, ((upd s1.re pN { s1.re pN with g_cost := g, f_cost := f, parent := pRE }) d).list =
      (s1.re d).list := by
    intro d
    simp only [upd_apply]
    split_ifs with h
    · rw [h]
    · rfl
  have hre : ∀ d, s2.re d = s1.re d →
      (upd s2.re pN { s2.re pN with g_cost := g, f_cost := f, parent := pRE }) d =
      (upd s1.re pN { s1.re pN with g_cost := g, f_cost := f, parent := pRE }) d := by
    intro d hd
    simp only [upd_apply]
    split_ifs with h
    · rw [hr]
    · exact hd
  have pc : ∀ d, ParentClosed N s1 d ∨ d = pN → ParentClosed N
      { re := upd s1.re pN { s1.re pN with g_cost := g, f_cost := f, parent := pRE }, openList := s1.openList, n := s1.n } d := by
    intro d hd
    unfold ParentClosed
    simp only
    rw [hlist]
    by_cases h : d = pN
    · simp only [upd_apply, if_pos h]
      exact ⟨hp, hcl⟩
    · simp only [upd_apply, if_neg h]
      rcases hd with hd | hd
      · exact hd
      · exact absurd hd h
  refine ⟨hS.n, hS.n_le, ?_, ?_, ?_, ?_⟩
  · intro c hc
    obtain ⟨a1, a2, a3⟩ := hS.stat c hc
    simp only [upd_apply]
    split_ifs with h
    · subst h; exact ⟨a1, a2, a3⟩
    · exact ⟨a1, a2, a3⟩
  · intro i h1 h2
    obtain ⟨a1, a2, a3, a4⟩ := hS.slots i h1 h2
    exact ⟨a1, a2, hre _ a3, pc _ (Or.inl a4)⟩
  · intro c hc hoc
    simp only at hoc
    rw [hlist] at hoc
    obtain ⟨a1, a2, a3⟩ := hS.opened c hc hoc
    refine ⟨hre c a1, ?_⟩
    simp only [upd_apply]
    split_ifs with h
    · subst h; exact ⟨a2, a3⟩
    · exact ⟨a2, a3⟩
  · intro c hc hcc
    simp only at hcc
    rw [hlist] at hcc
    obtain ⟨a1, a2⟩ := hS.closed c hc hcc
    have hne : c ≠ pN := fun h => by rw [h, ho] at hcc; cases hcc
    refine ⟨by simp only [upd_apply, if_neg hne]; exact a1, fun hs => ⟨?_, pc c (Or.inl (a2 hs).2)⟩⟩
    simp only [upd_apply, if_neg hne]
    exact (a2 hs).1

/-- A closed cell stays closed when a cell that is not closed is put on the open list. -/
theorem astar_openNeighbour_closed (s : Search) (pRE pN pGoal ni d : Nat)
    (hnc : (s.re pN).list ≠ List_Closed) (hd : (s.re d).list = List_Closed) :
    ((openNeighbour s pRE pN pGoal ni).re d).list = List_Closed := by
  have hne : d ≠ pN := fun h => hnc (h ▸ hd)
  unfold openNeighbour
  simp only [upd_apply, if_neg hne]
  rw [((bubbleUpLe_rel (s.n + 1) (s.n + 1) _ (s.n + 1) (by omega) (le_refl _)).2.1 d).2.2.2.1]
  simp only [upd_apply, if_neg hne]
  exact hd

/-- A closed cell stays closed when the cost of a cell of the open list is lowered. -/
theorem astar_improveNeighbour_closed (s : Search) (pRE pN ni d : Nat)
    (ho : (s.re pN).list = List_Open) (hd : (s.re d).list = List_Closed) :
    ((improveNeighbour s pRE pN ni).re d).list = List_Closed := by
  have hne : d ≠ pN := fun h => by rw [h, ho] at hd; cases hd
  unfold improveNeighbour
  simp only [upd_same]
  split_ifs with h
  · rcases Nat.eq_zero_or_pos (s.re pN).openListIndex with h0 | h0
    · rw [h0]
      simp only [bubbleUpLt, upd_apply, if_neg hne]
      exact hd
    · rw [((bubbleUpLt_rel (s.re pN).openListIndex _ _ _ h0 (le_refl _)).2.1 d).2.2.2.1]
      simp only [upd_apply, if_neg hne]
      exact hd
  · exact hd

/-- Opening the same neighbour in both states keeps them in agreement. -/
theorem astar_openNeighbour_sim {N pStart hw : Nat} {s1 s2 : Search}
    (hS : Sim N pStart hw s1 s2) (pRE pN pGoal ni : Nat) (hp : pRE < N)
    (hcl : (s1.re pRE).list = List_Closed) (hN : pN < N)
    (hnc : (s1.re pN).list ≠ List_Closed) (hno : (s1.re pN).list ≠ List_Open) (hg : pGoal < N) :
    Sim N pStart (max hw (s1.n + 1)) (openNeighbour s1 pRE pN pGoal ni)
      (openNeighbour s2 pRE pN pGoal ni) := by
  have hg' : (s2.re pRE).g_cost = (s1.re pRE).g_cost := (hS.closed pRE hp hcl).1
  have hh' : h_cost (s2.re pN) (s2.re pGoal) = h_cost (s1.re pN) (s1.re pGoal) := by
    unfold h_cost
    rw [(hS.stat pN hN).2.1, (hS.stat pN hN).2.2, (hS.stat pGoal hg).2.1, (hS.stat pGoal hg).2.2]
  have hle := hS.n_le
  have hW := astar_write_sim hS pRE pN (s1.n + 1) ((s1.re pRE).g_cost + moveCost ni)
    ((s1.re pRE).g_cost + moveCost ni + h_cost (s1.re pN) (s1.re pGoal)) hp hcl hN hnc hno (by omega)
  obtain ⟨hB, hSame⟩ := astar_bubbleUpLe_sim (s1.n + 1) _ _ (s1.n + 1) hW (by omega)
    (le_max_right _ _)
  have hR := bubbleUpLe_rel (max hw (s1.n + 1)) (s1.n + 1)
    { re := upd s1.re pN { s1.re pN with openListIndex := s1.n + 1, g_cost := (s1.re pRE).g_cost + moveCost ni, f_cost := (s1.re pRE).g_cost + moveCost ni + h_cost (s1.re pN) (s1.re pGoal), parent := pRE }, openList := upd s1.openList (s1.n + 1) pN, n := s1.n }
    (s1.n + 1) (by omega) (le_max_right _ _)
  obtain ⟨_, _, _, r4, _, _, r7⟩ := hR.2.1 pN
  simp only [upd_same] at r4 r7
  have hM := astar_mark_sim hB pN hN
    (hSame pN (by
      simp only [upd_same]
      obtain ⟨a1, a2, a3⟩ := hS.stat pN hN
      simp only [a1, a2, a3]))
    (by rcases r7 with r7 | r7
        · rw [r7]; omega
        · exact r7.1)
    (by rcases r7 with r7 | r7
        · rw [r7]; exact le_max_right _ _
        · exact r7.2)
    (by rw [r4]; exact hnc)
    (by rw [hR.1]; exact le_max_right _ _)
  unfold openNeighbour
  simp only [hS.n, hg', hh']
  exact hM

/-- Lowering the cost of the same neighbour in both states keeps them in agreement. -/
theorem astar_improveNeighbour_sim {N pStart hw : Nat} {s1 s2 : Search}
    (hS : Sim N pStart hw s1 s2) (pRE pN ni : Nat) (hp : pRE < N)
    (hcl : (s1.re pRE).list = List_Closed) (hN : pN < N)
    (ho : (s1.re pN).list = List_Open) :
    Sim N pStart hw (improveNeighbour s1 pRE pN ni) (improveNeighbour s2 pRE pN ni) := by
  have hg' : (s2.re pRE).g_cost = (s1.re pRE).g_cost := (hS.closed pRE hp hcl).1
  obtain ⟨hr, hi1, hi2⟩ := hS.opened pN hN ho
  unfold improveNeighbour
  simp only [upd_same, hg', hr]
  split_ifs with h
  · have hC := astar_cost_sim hS pRE pN ((s1.re pRE).g_cost + moveCost ni)
      ((s1.re pRE).g_cost + moveCost ni + ((s1.re pN).f_cost - (s1.re pN).g_cost)) hp hcl hN ho
    rw [hr] at hC
    exact (astar_bubbleUpLt_sim (s1.re pN).openListIndex _ _ _ hC hi1 hi2).1
  · exact hS

/-- One direction of the neighbour loop keeps the states in agreement. -/
theorem astar_visitNeighbour_sim {pStart hw : Nat} {s1 s2 : Search} (w h pGoal pRE ni : Nat)
    (hS : Sim (w * h) pStart hw s1 s2) (hp : pRE < w * h)
    (hcl : (s1.re pRE).list = List_Closed) (hg : pGoal < w * h) :
    ∃ hw', Sim (w * h) pStart hw' (visitNeighbour w h pGoal pRE s1 ni)
        (visitNeighbour w h pGoal pRE s2 ni) ∧
      ((visitNeighbour w h pGoal pRE s1 ni).re pRE).list = List_Closed := by
  unfold visitNeighbour
  simp only [(hS.stat pRE hp).2.1, (hS.stat pRE hp).2.2]
  by_cases h1 : ((s1.re pRE).x : Int) + neighbourhood_dx ni < 0 ∨
      ((s1.re pRE).x : Int) + neighbourhood_dx ni ≥ (w : Int) ∨
      ((s1.re pRE).y : Int) + neighbourhood_dy ni < 0 ∨
      ((s1.re pRE).y : Int) + neighbourhood_dy ni ≥ (h : Int)
  · rw [if_pos h1, if_pos h1]
    exact ⟨hw, hS, hcl⟩
  · rw [if_neg h1, if_neg h1]
    by_cases h2 : 0 ≤ (pRE : Int) + neighbourhood_offsets w ni ∧
        (pRE : Int) + neighbourhood_offsets w ni < (w : Int) * (h : Int) - 1
    · rw [if_pos h2, if_pos h2]
      have hN : ((pRE : Int) + neighbourhood_offsets w ni).toNat < w * h := by
        have e := Int.toNat_of_nonneg h2.1
        have e2 : ((w * h : Nat) : Int) = (w : Int) * (h : Int) := by push_cast; rfl
        have := h2.2
        omega
      rw [(hS.stat _ hN).1]
      split_ifs with h3 h4 h5
      · exact ⟨_, astar_openNeighbour_sim hS pRE _ pGoal ni hp hcl hN h3 h5 hg,
          astar_openNeighbour_closed s1 pRE _ pGoal ni pRE h3 hcl⟩
      · exact ⟨_, astar_improveNeighbour_sim hS pRE _ ni hp hcl hN (not_not.1 h5),
          astar_improveNeighbour_closed s1 pRE _ ni pRE (not_not.1 h5) hcl⟩
      · exact ⟨hw, hS, hcl⟩
      · exact ⟨hw, hS, hcl⟩
    · rw [if_neg h2, if_neg h2]
      exact ⟨hw, hS, hcl⟩

/-- The loop over the eight directions keeps the states in agreement. -/
theorem astar_visitNeighbours_sim {pStart : Nat} (w h pGoal pRE : Nat) (hp : pRE < w * h)
    (hg : pGoal < w * h) : ∀ (l : List Nat) (hw : Nat) (s1 s2 : Search),
    Sim (w * h) pStart hw s1 s2 → (s1.re pRE).list = List_Closed →
    ∃ hw', Sim (w * h) pStart hw' (l.foldl (visitNeighbour w h pGoal pRE) s1)
        (l.foldl (visitNeighbour w h pGoal pRE) s2)
  | [], hw, _, _, hS, _ => ⟨hw, hS⟩
  | ni :: l, _, s1, s2, hS, hcl => by
    obtain ⟨hw', a, b⟩ := astar_visitNeighbour_sim w h pGoal pRE ni hS hp hcl hg
    simp only [List.foldl_cons]
    exact astar_visitNeighbours_sim w h pGoal pRE hp hg l hw' _ _ a b

/-- The walk along the parents from a closed cell gives the same cells in both states,
when the parent of every cell on the way is a closed cell of the map. -/
theorem astar_walkParents_sim {N pStart hw : Nat} {s1 s2 : Search} (hS : Sim N pStart hw s1 s2) :
    ∀ (fuel c : Nat) (acc : List Pos), c < N → (s1.re c).list = List_Closed →
    walkParents s2.re pStart fuel c acc = walkParents s1.re pStart fuel c acc
  | 0, _, _, _, _ => rfl
  | fuel + 1, c, acc, hc, hcl => by
    simp only [walkParents]
    rw [(hS.stat c hc).2.1, (hS.stat c hc).2.2]
    by_cases h : c = pStart
    · rw [if_pos h, if_pos h]
    · rw [if_neg h, if_neg h]
      obtain ⟨a1, a2, a3⟩ := (hS.closed c hc hcl).2 h
      rw [a1]
      exact astar_walkParents_sim hS fuel _ _ a2 a3

/-- The path a run of the main loop ends with, `none` when it finds none. -/
def LoopEnd.way : LoopEnd → Option (List Pos)
  | LoopEnd.found _ path => some path
  | LoopEnd.noPath _ => none

/-- What follows the removal of the first item in a round of the main loop, seen from
two states in agreement: the same end. -/
theorem astar_round_sim {pStart hw : Nat} {t1 t2 : Search} (w h pGoal F fuel pRE : Nat)
    (IH : ∀ (hw : Nat) (s1 s2 : Search), Sim (w * h) pStart hw s1 s2 →
      ∀ r1, mainLoop w h pStart pGoal F fuel s1 = some r1 →
        ∃ r2, mainLoop w h pStart pGoal F fuel s2 = some r2 ∧ r2.way = r1.way)
    (hS : Sim (w * h) pStart hw t1 t2) (hp : pRE < w * h) (hcl : (t1.re pRE).list = List_Closed)
    (hg : pGoal < w * h) (r1 : LoopEnd)
    (h1 : (if ((visitNeighbours w h pGoal pRE t1).re pGoal).list = List_Closed then
        (walkParents (visitNeighbours w h pGoal pRE t1).re pStart F pGoal []).map
          (LoopEnd.found (visitNeighbours w h pGoal pRE t1))
      else mainLoop w h pStart pGoal F fuel (visitNeighbours w h pGoal pRE t1)) = some r1) :
    ∃ r2, (if ((visitNeighbours w h pGoal pRE t2).re pGoal).list = List_Closed then
        (walkParents (visitNeighbours w h pGoal pRE t2).re pStart F pGoal []).map
          (LoopEnd.found (visitNeighbours w h pGoal pRE t2))
      else mainLoop w h pStart pGoal F fuel (visitNeighbours w h pGoal pRE t2)) = some r2 ∧
      r2.way = r1.way := by
  obtain ⟨hw', hV⟩ := astar_visitNeighbours_sim w h pGoal pRE hp hg (List.range 8) hw t1 t2 hS hcl
  change Sim (w * h) pStart hw' (visitNeighbours w h pGoal pRE t1)
    (visitNeighbours w h pGoal pRE t2) at hV
  rw [(hV.stat pGoal hg).1]
  by_cases hc : ((visitNeighbours w h pGoal pRE t1).re pGoal).list = List_Closed
  · rw [if_pos hc] at h1 ⊢
    rw [astar_walkParents_sim hV F pGoal [] hg hc]
    cases hwalk : walkParents (visitNeighbours w h pGoal pRE t1).re pStart F pGoal [] with
    | none => rw [hwalk] at h1; cases h1
    | some l =>
      rw [hwalk] at h1
      simp only [Option.map_some', Option.some.injEq] at h1
      subst h1
      refine ⟨LoopEnd.found (visitNeighbours w h pGoal pRE t2) l, ?_, ?_⟩
      · simp only [Option.map_some']
      · simp only [LoopEnd.way]
  · rw [if_neg hc] at h1 ⊢
    exact IH hw' _ _ hV r1 h1

/-- The main loop ends alike from two states in agreement. -/
theorem astar_mainLoop_sim {pStart : Nat} (w h pGoal F : Nat) (hg : pGoal < w * h) :
    ∀ (fuel hw : Nat) (s1 s2 : Search), Sim (w * h) pStart hw s1 s2 →
      ∀ r1, mainLoop w h pStart pGoal F fuel s1 = some r1 →
        ∃ r2, mainLoop w h pStart pGoal F fuel s2 = some r2 ∧ r2.way = r1.way
  | 0, _, _, _, _, r1, h1 => by simp [mainLoop] at h1
  | fuel + 1, hw, s1, s2, hS, r1, h1 => by
    simp only [mainLoop] at h1 ⊢
    rw [hS.n]
    by_cases hn : s1.n = 0
    · rw [if_neg (by simpa using hn)] at h1 ⊢
      cases h1
      exact ⟨_, rfl, rfl⟩
    · rw [if_pos hn] at h1 ⊢
      obtain ⟨e, hP, hp, hcl⟩ := astar_popFirst_sim hS hn
      rw [e]
      exact astar_round_sim w h pGoal F fuel _ (astar_mainLoop_sim w h pGoal F hg fuel) hP hp hcl
        hg r1 h1

/-- After the first item, the start, is taken off the open list, two fresh states of
the same map agree. -/
theorem astar_init_sim {m : GridMap} {pStart : Nat} {s0 t0 : Search} (h1 : Init m pStart s0)
    (h2 : Init m pStart t0) (hg : (t0.re pStart).g_cost = (s0.re pStart).g_cost) :
    Sim (m.width * m.height) pStart 0 (popFirst s0).2 (popFirst t0).2 ∧
      (popFirst s0).1 = pStart ∧ (popFirst t0).1 = pStart ∧
      ((popFirst s0).2.re pStart).list = List_Closed := by
  have hpop : ∀ s, Init m pStart s → AStar.popFirst s = (pStart,
      { re := upd s.re pStart { s.re pStart with list := List_Closed }, openList := s.openList, n := 0 }) := by
    intro s h
    unfold AStar.popFirst
    simp only [h.n_eq, h.first]
    rfl
  rw [hpop s0 h1, hpop t0 h2]
  simp only
  have hl : ∀ (s : Search) c, ((upd s.re pStart { s.re pStart with list := List_Closed }) c).list =
      if c = pStart then List_Closed else (s.re c).list := by
    intro s c; simp only [upd_apply]; split_ifs <;> rfl
  have hxy : ∀ (s : Search) c, ((upd s.re pStart { s.re pStart with list := List_Closed }) c).x = (s.re c).x ∧
      ((upd s.re pStart { s.re pStart with list := List_Closed }) c).y = (s.re c).y := by
    intro s c; simp only [upd_apply]; split_ifs with hc
    · subst hc; exact ⟨rfl, rfl⟩
    · exact ⟨rfl, rfl⟩
  have hsame : ∀ c, c < m.width * m.height → (t0.re c).list = (s0.re c).list := by
    intro c hc
    have a := h1.fresh c hc
    have b := h2.fresh c hc
    have a3 := (h1.rep c hc).2.2
    have b3 := (h2.rep c hc).2.2
    unfold Touched at a b
    by_cases hp : m.pixel (c % m.width) (c / m.width) > 0
    · rw [a3.2 hp, b3.2 hp]
    · have a4 : (s0.re c).list ≠ List_Unwalkable := fun h => hp (a3.1 h)
      have b4 : (t0.re c).list ≠ List_Unwalkable := fun h => hp (b3.1 h)
      cases ha : (s0.re c).list <;> cases hb : (t0.re c).list <;> simp_all
  refine ⟨⟨rfl, le_refl _, ?_, ?_, ?_, ?_⟩, trivial, trivial, by rw [hl]; simp⟩
  · intro c hc
    rw [hl, hl, (hxy t0 c).1, (hxy t0 c).2, (hxy s0 c).1, (hxy s0 c).2, hsame c hc,
      (h1.rep c hc).1, (h1.rep c hc).2.1, (h2.rep c hc).1, (h2.rep c hc).2.1]
    exact ⟨rfl, rfl, rfl⟩
  · intro i i1 i2
    omega
  · intro c hc ho
    exfalso
    rw [hl] at ho
    split_ifs at ho with h
    exact h1.fresh c hc (Or.inl ho)
  · intro c hc hcl
    rw [hl] at hcl
    have hcs : c = pStart := by
      by_contra h
      rw [if_neg h] at hcl
      exact h1.fresh c hc (Or.inr hcl)
    subst hcs
    refine ⟨?_, fun h => absurd rfl h⟩
    simp only [upd_apply, if_true]
    exact hg

/-- The main loop ends alike from two fresh states of the same map. -/
theorem astar_first_sim {m : GridMap} {pStart : Nat} {s0 t0 : Search} (pGoal F fuel : Nat)
    (h1 : Init m pStart s0) (h2 : Init m pStart t0)
    (hg0 : (t0.re pStart).g_cost = (s0.re pStart).g_cost) (hg : pGoal < m.width * m.height)
    (r1 : LoopEnd) (hr : mainLoop m.width m.height pStart pGoal F (fuel + 1) s0 = some r1) :
    ∃ r2, mainLoop m.width m.height pStart pGoal F (fuel + 1) t0 = some r2 ∧ r2.way = r1.way := by
  obtain ⟨hS, e1, e2, hcl⟩ := astar_init_sim h1 h2 hg0
  simp only [mainLoop] at hr ⊢
  rw [if_pos (by rw [h1.n_eq]; decide)] at hr
  rw [if_pos (by rw [h2.n_eq]; decide)]
  rw [e1] at hr
  rw [e2]
  exact astar_round_sim m.width m.height pGoal F fuel pStart
    (astar_mainLoop_sim m.width m.height pGoal F hg fuel) hS h1.start.1 hcl hg r1 hr

theorem astar_finish_way (p q : Planner) (r1 r2 : LoopEnd) (o : Outcome) (hw : r2.way = r1.way)
    (h : finish p (some r1) = some o) :
    ∃ o', finish q (some r2) = some o' ∧ o'.path = o.path ∧ o'.error = o.error := by
  cases r1 <;> cases r2 <;> simp only [LoopEnd.way, Option.some.injEq] at hw <;>
    simp only [finish, Option.some.injEq] at h ⊢
  · subst h; subst hw
    exact ⟨_, rfl, rfl, rfl⟩
  · cases hw
  · cases hw
  · subst h
    exact ⟨_, rfl, rfl, rfl⟩

/-- A second call of `calculatePath` with the same start and goal on the state the
first call left gives the same path and the same error. -/
theorem astar_replan_same (m : GridMap) (p : Planner) (start goal : Pos) (o : Outcome)
    (hrep : Represents m p) (hs : start.1 < m.width ∧ start.2 < m.height)
    (hg : goal.1 < m.width ∧ goal.2 < m.height) (ho : calculatePath p start goal = some o) :
    ∃ o', calculatePath o.planner start goal = some o' ∧ o'.path = o.path ∧
      o'.error = o.error := by
  have hrep2 := (calculatePath_spec m p start goal o hrep hs hg ho).1
  obtain ⟨hw, hh, hrc⟩ := hrep
  obtain ⟨hw2, hh2, hrc2⟩ := hrep2
  have hsN := index_lt m.width m.height start.1 start.2 hs.1 hs.2
  have hgN := index_lt m.width m.height goal.1 goal.2 hg.1 hg.2
  have hun : ∀ c, c < m.width * m.height →
      ((o.planner.rasterElements c).list = List_Unwalkable ↔
        (p.rasterElements c).list = List_Unwalkable) :=
    fun c hc => (hrc2 c hc).2.2.trans (hrc c hc).2.2.symm
  unfold calculatePath at ho ⊢
  simp only [hw, hh, hw2, hh2] at ho ⊢
  by_cases h1 : (p.rasterElements (goal.2 * m.width + goal.1)).list = List_Unwalkable
  · rw [if_pos h1] at ho
    rw [if_pos ((hun _ hgN).2 h1)]
    cases ho
    exact ⟨_, rfl, rfl, rfl⟩
  · rw [if_neg h1] at ho
    rw [if_neg (fun h => h1 ((hun _ hgN).1 h))]
    by_cases h2 : (p.rasterElements (start.2 * m.width + start.1)).list = List_Unwalkable
    · rw [if_pos h2] at ho
      rw [if_pos ((hun _ hsN).2 h2)]
      cases ho
      exact ⟨_, rfl, rfl, rfl⟩
    · rw [if_neg h2] at ho
      rw [if_neg (fun h => h2 ((hun _ hsN).1 h))]
      have i1 := astar_initialSearch_init m p start ⟨hw, hh, hrc⟩ hs h2
      have i2 := astar_initialSearch_init m o.planner start ⟨hw2, hh2, hrc2⟩ hs
        (fun h => h2 ((hun _ hsN).1 h))
      have g1 : ∀ q : Planner, ((initialSearch q (start.2 * m.width + start.1)).re
          (start.2 * m.width + start.1)).g_cost = 0 := by
        intro q
        simp [initialSearch]
      cases hml : mainLoop m.width m.height (start.2 * m.width + start.1)
          (goal.2 * m.width + goal.1) (2 * (m.width * m.height) + 2)
          (2 * (m.width * m.height) + 2) (initialSearch p (start.2 * m.width + start.1)) with
      | none => rw [hml] at ho; cases ho
      | some r1 =>
        rw [hml] at ho
        obtain ⟨r2, hr2, hway⟩ := astar_first_sim (goal.2 * m.width + goal.1)
          (2 * (m.width * m.height) + 2) (2 * (m.width * m.height) + 1) i1 i2
          (by rw [g1, g1]) hgN r1 hml
        rw [hr2]
        exact astar_finish_way p o.planner r1 r2 o hway ho

end AStar

end RasterSim

namespace RasterSim

/-! ## Claims on the endpoints, the heuristic and the edge flags -/

/-- C40: the heuristic `h_cost` of D* Lite, which is also `dist` of Focussed D*, is the
function `7·min(|dx|,|dy|) + 5·(max(|dx|,|dy|) − min(|dx|,|dy|))` of the two positions;
it is symmetric, zero exactly when the positions are equal, consistent for the move
costs 5 and 7 (in both arguments), and on every obstacle-free grid that holds both
positions it is the cost of a cheapest 8-connected path between them: some path of
free cells has this cost and none has a smaller one. -/
theorem octile_heuristic_is_cheapest_cost :
    (∀ c1 c2 : DStarLite.Cell, DStarLite.h_cost c1 c2 = DStarLite.heuristic (c1.x, c1.y) (c2.x, c2.y)) ∧
    (∀ c1 c2 : FocussedDStar.Cell,
      FocussedDStar.dist c1 c2 = DStarLite.heuristic (c1.x, c1.y) (c2.x, c2.y)) ∧
    (∀ a b : Pos, DStarLite.heuristic a b =
      7 * min ((a.1 : Int) - (b.1 : Int)).natAbs ((a.2 : Int) - (b.2 : Int)).natAbs +
      5 * (max ((a.1 : Int) - (b.1 : Int)).natAbs ((a.2 : Int) - (b.2 : Int)).natAbs -
        min ((a.1 : Int) - (b.1 : Int)).natAbs ((a.2 : Int) - (b.2 : Int)).natAbs)) ∧
    (∀ a b : Pos, DStarLite.heuristic a b = DStarLite.heuristic b a) ∧
    (∀ a b : Pos, DStarLite.heuristic a b = 0 ↔ a = b) ∧
    (∀ a b c : Pos, Adjacent b c →
      DStarLite.heuristic a c ≤ DStarLite.heuristic a b + stepCost 5 7 b c ∧
      DStarLite.heuristic b a ≤ stepCost 5 7 b c + DStarLite.heuristic c a) ∧
    (∀ (w h : Nat) (a b : Pos), a.1 < w → a.2 < h → b.1 < w → b.2 < h →
      (∃ l, FreePath (openMap w h) a b l ∧ pathCost 5 7 l = DStarLite.heuristic a b) ∧
      ∀ l, FreePath (openMap w h) a b l → DStarLite.heuristic a b ≤ pathCost 5 7 l) := by
  refine ⟨fun _ _ => rfl, fun _ _ => rfl, octile_eq, octile_symm, octile_zero, ?_, ?_⟩
  · intro a b c hadj
    refine ⟨octile_step a b c hadj, ?_⟩
    have h1 := octile_step a c b (adjacent_symm hadj)
    rw [octile_symm b a, octile_symm c a]
    have h2 : stepCost 5 7 c b = stepCost 5 7 b c := by
      unfold stepCost
      split_ifs <;> first | rfl | omega
    omega
  · intro w h a b ha1 ha2 hb1 hb2
    constructor
    · obtain ⟨h1, h2, h3, h4, h5⟩ := walk_spec (moves a b) a b rfl
      refine ⟨walk (moves a b) a b, ⟨h1, h2, h3, fun c hc => ?_⟩, h4⟩
      have := h5 c hc
      refine ⟨?_, ?_, rfl⟩
      · show c.1 < w
        omega
      · show c.2 < h
        omega
    · intro l hl
      have := octile_chain a l a b hl.1 hl.2.1 hl.2.2.1
      rw [(octile_zero a a).2 rfl] at this
      omega

/-- C40 at work: on the obstacle-free 4×3 grid the heuristic between (3,0) and (0,2) is
7·2 + 5·1 = 19, the cost of the walk (3,0),(2,1),(1,2),(0,2). -/
theorem octile_heuristic_is_cheapest_cost_witness :
    DStarLite.heuristic (3, 0) (0, 2) = 19 ∧
    (∃ l, FreePath (openMap 4 3) (3, 0) (0, 2) l ∧ pathCost 5 7 l = 19) ∧
    ∀ l, FreePath (openMap 4 3) (3, 0) (0, 2) l → 19 ≤ pathCost 5 7 l :=
  ⟨rfl, (octile_heuristic_is_cheapest_cost.2.2.2.2.2.2 4 3 (3, 0) (0, 2) (by decide) (by decide)
      (by decide) (by decide)).1,
    (octile_heuristic_is_cheapest_cost.2.2.2.2.2.2 4 3 (3, 0) (0, 2) (by decide) (by decide)
      (by decide) (by decide)).2⟩

/-- C37: D* Lite's `initMap` on a `w`×`h` grid with `w, h ≥ 1`. The cell at `(x, y)`
(index `y·w + x`) carries the flag XMinEdge / XMaxEdge / YMinEdge / YMaxEdge exactly when
`x = 0` / `x = w − 1` / `y = 0` / `y = h − 1`, and its `neighborhoodIndex` is below 16.
For each of the 16 flag combinations the table starts with the entry (offset 0, cost 0)
and goes on with exactly the entries (offset `dy·w + dx`, cost 5 if `dx = 0` or
`dy = 0`, else 7) of the eight directions that the flags do not exclude, in the order
of the loops. Hence the cells a cell reaches through the entries from index 1 on are
exactly the cells of the grid at the adjacent positions `(x + dx, y + dy)`, with the
cost 5 of a straight and 7 of a diagonal move. -/
theorem edge_flags_and_table (old : DStarLite.Planner) (m : GridMap) (hw : 1 ≤ m.width)
    (hh : 1 ≤ m.height) :
    (∀ x y, x < m.width → y < m.height →
      ((DStarLite.initMap old m).cells (y * m.width + x)).neighborhoodIndex < 16 ∧
      (DStarLite.HasFlag (DStarLite.initMap old m).cells (y * m.width + x) DStarLite.XMinEdge ↔
        x = 0) ∧
      (DStarLite.HasFlag (DStarLite.initMap old m).cells (y * m.width + x) DStarLite.XMaxEdge ↔
        x = m.width - 1) ∧
      (DStarLite.HasFlag (DStarLite.initMap old m).cells (y * m.width + x) DStarLite.YMinEdge ↔
        y = 0) ∧
      (DStarLite.HasFlag (DStarLite.initMap old m).cells (y * m.width + x) DStarLite.YMaxEdge ↔
        y = m.height - 1)) ∧
    (∀ i, i < 16 → (DStarLite.initMap old m).neighborhoods i =
      { ptrOffset := 0, baseCost := 0 } ::
        ((DStarLite.directions.filter fun d => !DStarLite.excluded i d).map
          (DStarLite.specOf m.width))) ∧
    (∀ x y, x < m.width → y < m.height → ∀ n cost,
      (∃ spec, spec ∈ (DStarLite.initMap old m).neighborsOf (y * m.width + x) ∧
        DStarLite.neighborOf (y * m.width + x) spec = n ∧ spec.baseCost = cost) ↔
      (n < m.width * m.height ∧ Adjacent (x, y) (n % m.width, n / m.width) ∧
        cost = stepCost 5 7 (x, y) (n % m.width, n / m.width))) := by
  have hmod : ∀ x y, x < m.width → (y * m.width + x) % m.width = x ∧
      (y * m.width + x) / m.width = y := by
    intro x y hx
    constructor
    · rw [Nat.add_comm, Nat.add_mul_mod_self_right]
      exact Nat.mod_eq_of_lt hx
    · rw [Nat.add_comm, Nat.add_mul_div_right _ _ (by omega : 0 < m.width),
        Nat.div_eq_of_lt hx, Nat.zero_add]
  refine ⟨fun x y hx hy => ?_, fun i hi => DStarLite.dlite_table_eq m.width i hi,
    fun x y hx hy n cost => ?_⟩
  · have h := DStarLite.dlite_initMap_flags old m hw hh (y * m.width + x)
      (index_lt _ _ _ _ hx hy)
    rw [(hmod x y hx).1, (hmod x y hx).2] at h
    refine ⟨h.1, h.2.1, h.2.2.1.trans ?_, h.2.2.2.1, h.2.2.2.2.trans ?_⟩
    · omega
    · omega
  · have h := DStarLite.dlite_initMap_neighbors old m hw hh (y * m.width + x)
      (index_lt _ _ _ _ hx hy) n cost
    rw [(hmod x y hx).1, (hmod x y hx).2] at h
    exact h

/-- C37 at work on the 4×3 map with (2,1) blocked: the cell (3,0) has the flags
XMaxEdge and YMinEdge (index 6), and its table leads to the cell 2 at (2,0) with cost
5. -/
theorem edge_flags_and_table_witness :
    ((DStarLite.initMap DStarLite.fresh (mapWith 4 3 [(2, 1)])).cells (0 * 4 + 3)).neighborhoodIndex
      < 16 ∧
    (DStarLite.HasFlag (DStarLite.initMap DStarLite.fresh (mapWith 4 3 [(2, 1)])).cells (0 * 4 + 3)
      DStarLite.XMaxEdge ↔ 3 = 4 - 1) ∧
    ((∃ spec, spec ∈ (DStarLite.initMap DStarLite.fresh (mapWith 4 3 [(2, 1)])).neighborsOf (0 * 4 + 3) ∧
        DStarLite.neighborOf (0 * 4 + 3) spec = 2 ∧ spec.baseCost = 5) ↔
      (2 < 4 * 3 ∧ Adjacent (3, 0) (2 % 4, 2 / 4) ∧ 5 = stepCost 5 7 (3, 0) (2 % 4, 2 / 4))) :=
  ⟨((edge_flags_and_table DStarLite.fresh (mapWith 4 3 [(2, 1)]) (by decide) (by decide)).1 3 0
      (by decide) (by decide)).1,
    ((edge_flags_and_table DStarLite.fresh (mapWith 4 3 [(2, 1)]) (by decide) (by decide)).1 3 0
      (by decide) (by decide)).2.2.1,
    (edge_flags_and_table DStarLite.fresh (mapWith 4 3 [(2, 1)]) (by decide) (by decide)).2.2 3 0
      (by decide) (by decide) 2 5⟩

/-! ## The loop guard of `computeShortestPath` -/

/-- The key the loop guard of `computeShortestPath` compares the root with:
`Key(k2Start + k_m, k2Start)` for `k2Start = qMin(pStart->g_cost, pStart->rhs)`. -/
def DStarLite.startKey (p : DStarLite.Planner) : DStarLite.Key :=
  { k1 := uadd (min (p.cells p.pStart).g_cost (p.cells p.pStart).rhs) p.k_m
    k2 := min (p.cells p.pStart).g_cost (p.cells p.pStart).rhs }

/-- The state of D* Lite after `initMap` with the 4×3 map with (2,1) blocked and the
re-initialisation for the start (3,0) and the goal (0,2). -/
def DStarLite.scenarioAfterReset : DStarLite.Planner :=
  DStarLite.resetState
    { DStarLite.initMap DStarLite.fresh (mapWith 4 3 [(2, 1)]) with pStart := 0 * 4 + 3, pGoal := 2 * 4 + 0 }

/-- What `computeShortestPath` with an unlimited budget leaves of `scenarioAfterReset`:
the flag `complete`, the length of the open list, `g_cost` and `rhs` of the start cell,
and the root of the open list. -/
def DStarLite.scenarioStartInconsistent : Option (Bool × Nat × Nat × Nat × Nat) :=
  (DStarLite.computeShortestPath 100 DStarLite.scenarioAfterReset 0).map fun r =>
    (r.2, r.1.openListLength, (r.1.cells r.1.pStart).g_cost, (r.1.cells r.1.pStart).rhs,
      r.1.openHeap 1)

theorem dlite_keepGoing_iff (p : DStarLite.Planner) :
    DStarLite.keepGoing p = true ↔
      (DStarLite.Key.lt (p.cells (p.openHeap 1)).key (DStarLite.startKey p) = true ∨
        (p.cells p.pStart).rhs > (p.cells p.pStart).g_cost) := by
  simp only [DStarLite.keepGoing, DStarLite.startKey, Bool.or_eq_true, decide_eq_true_eq]

theorem dlite_loop_unlimited : ∀ (fuel : Nat) (p p' : DStarLite.Planner) (step : Nat) (b : Bool),
    DStarLite.shortestPathLoop 0 fuel p step = some (p', b) →
      b = true ∧ ∃ n, n < fuel ∧ p' = Nat.iterate DStarLite.popStep n p ∧
        (∀ i, i < n → DStarLite.wantsStep (Nat.iterate DStarLite.popStep i p)) ∧
        ¬ DStarLite.wantsStep p'
  | 0, _, _, _, _, h => by simp [DStarLite.shortestPathLoop] at h
  | fuel + 1, p, p', step, b, h => by
    simp only [DStarLite.shortestPathLoop] at h
    by_cases hl : p.openListLength ≠ 0
    · rw [if_pos hl] at h
      by_cases hk : DStarLite.keepGoing p = true
      · simp only [hk, Bool.not_true, Bool.false_eq_true, if_false, ne_eq, not_true_eq_false,
          false_and] at h
        obtain ⟨hb, n, hn, hp, hw, hd⟩ := dlite_loop_unlimited fuel _ p' _ b h
        refine ⟨hb, n + 1, by omega, hp, fun i hi => ?_, hd⟩
        cases i with
        | zero => exact ⟨hl, hk⟩
        | succ i => exact hw i (by omega)
      · simp only [hk, Bool.not_false, if_true, Option.some.injEq, Prod.mk.injEq] at h
        refine ⟨h.2.symm, 0, by omega, h.1.symm, fun i hi => absurd hi (by omega), ?_⟩
        rw [← h.1]
        exact fun hw => hk hw.2
    · rw [if_neg hl] at h
      simp only [Option.some.injEq, Prod.mk.injEq] at h
      refine ⟨h.2.symm, 0, by omega, h.1.symm, fun i hi => absurd hi (by omega), ?_⟩
      rw [← h.1]
      exact fun hw => hl hw.1

theorem dlite_loop_runs : ∀ (n fuel : Nat) (p : DStarLite.Planner) (step : Nat), n < fuel →
    (∀ i, i < n → DStarLite.wantsStep (Nat.iterate DStarLite.popStep i p)) →
    ¬ DStarLite.wantsStep (Nat.iterate DStarLite.popStep n p) →
    DStarLite.shortestPathLoop 0 fuel p step = some (Nat.iterate DStarLite.popStep n p, true)
  | _, 0, _, _, hf, _, _ => by omega
  | 0, fuel + 1, p, step, _, _, hd => by
    simp only [DStarLite.shortestPathLoop]
    by_cases hl : p.openListLength ≠ 0
    · have hk : DStarLite.keepGoing p ≠ true := fun hk => hd ⟨hl, hk⟩
      rw [if_pos hl]
      simp only [hk, Bool.not_false, if_true]
      rfl
    · rw [if_neg hl]
      rfl
  | n + 1, fuel + 1, p, step, hf, hw, hd => by
    have h0 : DStarLite.wantsStep p := hw 0 (by omega)
    simp only [DStarLite.shortestPathLoop]
    rw [if_pos h0.1]
    simp only [h0.2, Bool.not_true, Bool.false_eq_true, if_false, ne_eq, not_true_eq_false,
      false_and]
    exact dlite_loop_runs n fuel (DStarLite.popStep p) (step + 1) (by omega)
      (fun i hi => hw (i + 1) (by omega)) hd

/-- C31, the claim as stated fails: `computeShortestPath` with an unlimited budget, run
on the state after the re-initialisation for the 4×3 map with (2,1) blocked, start
(3,0) and goal (0,2), returns complete with 6 cells on the open list, the start cell
(index 3) at its root, while the start cell has `g_cost = 4284967295` and `rhs = 19`:
it is not locally consistent. -/
theorem DStarLite.returns_with_inconsistent_start :
    DStarLite.scenarioStartInconsistent = some (true, 6, 4284967295, 19, 3) := by
  set_option maxRecDepth 100000 in decide!

/-- C31, amended: `computeShortestPath` with an unlimited budget pops exactly while the
open list is not empty and the root's key is less than the key
`(min(g,rhs)(start) + k_m, min(g,rhs)(start))` of the start or `rhs(start) > g(start)`.
If it returns, it returns complete, after some number `n` of pops at each of which
this test held, in a state in which the test fails; and whenever `n` pops lead to such
a state, it returns this state, given fuel for more than `n` rounds. Hence whenever it
returns with a non-empty open list, `rhs(start) ≤ g(start)` and the root's key is not
less than the start's key. -/
theorem DStarLite.pops_while_guard_holds (fuel : Nat) (p : DStarLite.Planner) :
    (∀ q, DStarLite.wantsStep q ↔ (q.openListLength ≠ 0 ∧
      (DStarLite.Key.lt (q.cells (q.openHeap 1)).key (DStarLite.startKey q) = true ∨
        (q.cells q.pStart).rhs > (q.cells q.pStart).g_cost))) ∧
    (∀ p' b, DStarLite.computeShortestPath fuel p 0 = some (p', b) →
      b = true ∧
      (∃ n, n < fuel ∧ p' = Nat.iterate DStarLite.popStep n p ∧
        (∀ i, i < n → DStarLite.wantsStep (Nat.iterate DStarLite.popStep i p)) ∧
        ¬ DStarLite.wantsStep p') ∧
      (p'.openListLength ≠ 0 →
        (p'.cells p'.pStart).rhs ≤ (p'.cells p'.pStart).g_cost ∧
        DStarLite.Key.lt (p'.cells (p'.openHeap 1)).key (DStarLite.startKey p') = false)) ∧
    (∀ n, n < fuel →
      (∀ i, i < n → DStarLite.wantsStep (Nat.iterate DStarLite.popStep i p)) →
      ¬ DStarLite.wantsStep (Nat.iterate DStarLite.popStep n p) →
      DStarLite.computeShortestPath fuel p 0 = some (Nat.iterate DStarLite.popStep n p, true)) := by
  have hiff : ∀ q, DStarLite.wantsStep q ↔ (q.openListLength ≠ 0 ∧
      (DStarLite.Key.lt (q.cells (q.openHeap 1)).key (DStarLite.startKey q) = true ∨
        (q.cells q.pStart).rhs > (q.cells q.pStart).g_cost)) := by
    intro q
    unfold DStarLite.wantsStep
    rw [dlite_keepGoing_iff]
  refine ⟨hiff, fun p' b h => ?_, fun n hn hw hd => dlite_loop_runs n fuel p 0 hn hw hd⟩
  obtain ⟨hb, n, hn, hp, hw, hd⟩ := dlite_loop_unlimited fuel p p' 0 b h
  refine ⟨hb, ⟨n, hn, hp, hw, hd⟩, fun hl => ?_⟩
  rw [hiff] at hd
  have hd' := fun hx => hd ⟨hl, hx⟩
  constructor
  · by_contra hc
    exact hd' (Or.inr (by omega))
  · cases hk : DStarLite.Key.lt (p'.cells (p'.openHeap 1)).key (DStarLite.startKey p') with
    | false => rfl
    | true => exact absurd (Or.inl hk) hd'

/-- C31 at work on `scenarioAfterReset`: the run returns with a non-empty open list and
`rhs(start) = 19 ≤ g(start)`. -/
theorem DStarLite.pops_while_guard_holds_witness :
    ∃ p', DStarLite.computeShortestPath 100 DStarLite.scenarioAfterReset 0 = some (p', true) ∧
      p'.openListLength = 6 ∧
      (p'.cells p'.pStart).rhs ≤ (p'.cells p'.pStart).g_cost ∧
      DStarLite.Key.lt (p'.cells (p'.openHeap 1)).key (DStarLite.startKey p') = false := by
  obtain ⟨r, hr, hv⟩ := option_map_some
    (DStarLite.computeShortestPath 100 DStarLite.scenarioAfterReset 0)
    (fun r => (r.2, r.1.openListLength)) (true, 6) (by set_option maxRecDepth 100000 in decide!)
  obtain ⟨p', b⟩ := r
  simp only [Prod.mk.injEq] at hv
  obtain ⟨hb, hl⟩ := hv
  subst hb
  have h := ((DStarLite.pops_while_guard_holds 100 DStarLite.scenarioAfterReset).2.1 p' true hr).2.2
    (by rw [hl]; decide)
  exact ⟨p', hr, hl, h.1, h.2⟩

/-! ## The key of D* -/

/-- C32: D*'s `insert(X, h_new)` leaves `X` with the tag OPEN, with `h(X) = h_new`, and
with `k(X) = h_new` if `X` was NEW, `min(k_old, h_new)` if `X` was OPEN and
`min(h_old, h_new)` if `X` was CLOSED, so that `k(X) ≤ h(X)`; the other cells keep their
`h`, `k` and tag. When the open heap is in order before (as it is in every reachable
state), it is in order after and `X` stands in the slot of its `heapIndex`. Hence in
every state that the operations of the contract lead to (from a state in which it
holds, such as a state with no OPEN cell), every OPEN cell has `k ≤ h`. -/
theorem DStar.open_key_below_cost (fuel : Nat) :
    (∀ (p : DStar.Planner) (c h_new : Nat),
      ((DStar.insert p c h_new).cells c).list = DStar.ListType.List_Open ∧
      ((DStar.insert p c h_new).cells c).h_cost = h_new ∧
      ((p.cells c).list = DStar.ListType.List_New →
        ((DStar.insert p c h_new).cells c).k_cost = h_new) ∧
      ((p.cells c).list = DStar.ListType.List_Open →
        ((DStar.insert p c h_new).cells c).k_cost = min (p.cells c).k_cost h_new) ∧
      ((p.cells c).list = DStar.ListType.List_Closed →
        ((DStar.insert p c h_new).cells c).k_cost = min (p.cells c).h_cost h_new) ∧
      ((DStar.insert p c h_new).cells c).k_cost ≤ ((DStar.insert p c h_new).cells c).h_cost ∧
      (∀ d, d ≠ c → ((DStar.insert p c h_new).cells d).h_cost = (p.cells d).h_cost ∧
        ((DStar.insert p c h_new).cells d).k_cost = (p.cells d).k_cost ∧
        ((DStar.insert p c h_new).cells d).list = (p.cells d).list)) ∧
    (∀ (N : Nat) (p : DStar.Planner) (c h_new : Nat), DStar.HeapInvariant N p → c < N →
      DStar.HeapInvariant N (DStar.insert p c h_new) ∧
      1 ≤ ((DStar.insert p c h_new).cells c).heapIndex ∧
      ((DStar.insert p c h_new).cells c).heapIndex ≤ (DStar.insert p c h_new).openListLength ∧
      (DStar.insert p c h_new).openHeap ((DStar.insert p c h_new).cells c).heapIndex = c) ∧
    (∀ (init : DStar.Planner) (p : AbstractPlanner DStar.Planner), DStar.KeyBelow init →
      Operated (DStar.algorithm fuel) init p →
      ∀ c, (p.alg.cells c).list = DStar.ListType.List_Open →
        (p.alg.cells c).k_cost ≤ (p.alg.cells c).h_cost) := by
  refine ⟨fun p c h_new => ?_, fun N p c h_new hi hc => ?_, fun init p h0 hp => ?_⟩
  · obtain ⟨h1, h2⟩ := DStar.dstar_insert_core p c h_new
    have hl : ((DStar.insert p c h_new).cells c).list = DStar.ListType.List_Open :=
      congrArg (fun t => t.2.2.2.2.2.2) h1
    have hh : ((DStar.insert p c h_new).cells c).h_cost = h_new :=
      congrArg (fun t => t.2.2.2.1) h1
    have hk : ((DStar.insert p c h_new).cells c).k_cost = DStar.insertK (p.cells c) h_new :=
      congrArg (fun t => t.2.2.2.2.1) h1
    refine ⟨hl, hh, fun hn => ?_, fun ho => ?_, fun hcl => ?_, ?_, fun d hd => ?_⟩
    · rw [hk]
      simp [DStar.insertK, hn]
    · rw [hk]
      simp only [DStar.insertK, if_pos ho]
      split_ifs <;> omega
    · rw [hk]
      simp [DStar.insertK, hcl]
    · rw [hk, hh]
      exact DStar.dstar_insertK_le _ _
    · have hc := h2 d hd
      exact ⟨DStar.dstar_core_h hc, DStar.dstar_core_k hc, DStar.dstar_core_list hc⟩
  · have hinv := (DStar.dstar_heapInvariant_iff N _).2
      (DStar.dstar_insert_inv ((DStar.dstar_heapInvariant_iff N p).1 hi) c hc h_new)
    have hl : ((DStar.insert p c h_new).cells c).list = DStar.ListType.List_Open :=
      congrArg (fun t => t.2.2.2.2.2.2) (DStar.dstar_insert_core p c h_new).1
    exact ⟨hinv, hinv.2.2.1 c hc hl⟩
  · exact operated_state (DStar.algorithm fuel) DStar.KeyBelow init h0
      (fun _ m _ => DStar.dstar_initMap_keyBelow m)
      (fun st m r h => DStar.dstar_initMapUpdate_keyBelow st m r h)
      (fun st u s g r h hc => by
        simp only [DStar.algorithm] at hc
        cases ho : DStar.doCalculatePath fuel st u s g with
        | none => rw [ho] at hc; cases hc
        | some o =>
          rw [ho] at hc
          simp only [Option.map_some', Option.some.injEq] at hc
          subst hc
          exact DStar.dstar_doCalculatePath_keyBelow fuel st u s g o h ho)
      p hp

/-- C32 at work: in the D* planner object after a plan on the 4×3 map with (2,1)
blocked, start (3,0), goal (0,2), every OPEN cell has `k ≤ h`. -/
theorem DStar.open_key_below_cost_witness :
    ∃ p, planOnce (DStar.algorithm 100) (DStar.initMap (openMap 0 0)) (mapWith 4 3 [(2, 1)])
        (some (3, 0)) (some (0, 2)) = some p ∧
      ∀ c, (p.alg.cells c).list = DStar.ListType.List_Open →
        (p.alg.cells c).k_cost ≤ (p.alg.cells c).h_cost := by
  obtain ⟨p, hp, _⟩ := planOnce_report (DStar.algorithm 100) (DStar.initMap (openMap 0 0))
    (mapWith 4 3 [(2, 1)]) (some (3, 0)) (some (0, 2)) ([(3, 0), (2, 0), (1, 1), (0, 2)], "")
    (by set_option maxRecDepth 100000 in decide!)
  exact ⟨p, hp, (DStar.open_key_below_cost 100).2.2 _ p (DStar.dstar_initMap_keyBelow _)
    (Operated.setStartGoal _ p _ _ (Operated.setMap _ _ Operated.new) hp)⟩

/-! ## The goal of D* Lite under map edits -/

/-- D* Lite behind the contract on the all-free 2×1 map with start (0,0) and goal
(1,0): after the plan the goal cell (1,0) is blocked through `updateMap` and then
unblocked through `updateMap`. The `rhs` of the goal cell and the report after each of
the three invocations. -/
def DStarLite.scenarioGoalEdited : Option (List (Nat × List Pos × String)) :=
  let a := DStarLite.algorithm 1000
  (planOnce a DStarLite.fresh (openMap 2 1) (some (0, 0)) (some (1, 0))).bind fun p1 =>
  (updateMap a p1 (mapWith 2 1 [(1, 0)]) (QRect.single (1, 0))).bind fun p2 =>
  (updateMap a p2 (openMap 2 1) (QRect.single (1, 0))).map fun p3 =>
  [((p1.alg.cells 1).rhs, p1.report), ((p2.alg.cells 1).rhs, p2.report),
    ((p3.alg.cells 1).rhs, p3.report)]

/-- C39 fails: on the all-free 2×1 map with start (0,0) and goal (1,0) the first plan
leaves `rhs(goal) = 0` and the path (0,0),(1,0). Blocking the goal cell through
`updateMap` sets `rhs(goal) = 4284967295` (the invocation reports "Goal position
blocked"), and unblocking it through `updateMap` leaves `rhs(goal) = 4284967295`: the
goal position has not changed, no re-initialisation takes place, and the planner
reports "No Path found" on the all-free map. -/
theorem DStarLite.goal_rhs_lost_by_map_edit :
    DStarLite.scenarioGoalEdited = some
      [(0, [(0, 0), (1, 0)], ""), (4284967295, [], "Goal position blocked"),
       (4284967295, [], "No Path found")] := by
  set_option maxRecDepth 100000 in decide!

/-! ## Single stepping of Focussed D* -/

/-- One planning call of Focussed D* without single stepping on a new map (change mask
`NewMap | UpdatedGoal | UpdatedStart`): the search state, the path and the error. -/
def FocussedDStar.scenarioPlain (fullInit : Bool) (m : GridMap) (s g : Pos) :
    Option (FocussedDStar.SearchView × List Pos × String) :=
  (FocussedDStar.doCalculatePath 1000 (FocussedDStar.initMap (FocussedDStar.fresh fullInit) m) 11 s g).map
    fun o => (o.planner.view (m.width * m.height), o.path, o.error)

/-- The same planning call with single stepping enabled, followed by single steps until
"Not yet ready..." is no longer reported: the error of the planning call, then the
search state, the path and the error after the last step, and the number of steps. -/
def FocussedDStar.scenarioStepped (fullInit : Bool) (m : GridMap) (s g : Pos) :
    Option (String × FocussedDStar.SearchView × List Pos × String × Nat) :=
  (FocussedDStar.calculatePathStepping 1000 (FocussedDStar.initMap (FocussedDStar.fresh fullInit) m)
    11 s g).bind fun o1 =>
  (FocussedDStar.stepUntilReady 1000 s g 100 o1.planner 0).map fun r =>
    (o1.error, r.1.planner.view (m.width * m.height), r.1.path, r.1.error, r.2)

/-- C36 fails. On the all-free 2×1 map with start (0,0) and goal (1,0) one planning call
without single stepping ends with both cells CLOSED and an empty open heap; with single
stepping the planning call reports "Single stepping enabled..." and the one single
step that follows ends with the same path but with the start cell OPEN, in slot 1 of
the open heap: the expansion of the start cell is missing. With `fullInit` set, on the
all-free 3×1 map with start (1,0) and goal (2,0), the planning call without single
stepping closes all three cells (`h = 10, 5, 0`), while the stepped run ends after one
step with cell (0,0) NEW and the start cell OPEN. -/
theorem FocussedDStar.stepping_ends_in_other_state :
    FocussedDStar.scenarioPlain false (openMap 2 1) (0, 0) (1, 0) = some
      ({ tags := [FocussedDStar.ListType.List_Closed, FocussedDStar.ListType.List_Closed]
         h := [5, 0], k := [5, 0], backPtrs := [some 1, none], heap := [] },
       [(0, 0), (1, 0)], "") ∧
    FocussedDStar.scenarioStepped false (openMap 2 1) (0, 0) (1, 0) = some
      ("Single stepping enabled...",
       { tags := [FocussedDStar.ListType.List_Open, FocussedDStar.ListType.List_Closed]
         h := [5, 0], k := [5, 0], backPtrs := [some 1, none], heap := [0] },
       [(0, 0), (1, 0)], "", 1) ∧
    FocussedDStar.scenarioPlain true (openMap 3 1) (1, 0) (2, 0) = some
      ({ tags := [FocussedDStar.ListType.List_Closed, FocussedDStar.ListType.List_Closed,
                  FocussedDStar.ListType.List_Closed]
         h := [10, 5, 0], k := [10, 5, 0], backPtrs := [some 1, some 2, none], heap := [] },
       [(1, 0), (2, 0)], "") ∧
    FocussedDStar.scenarioStepped true (openMap 3 1) (1, 0) (2, 0) = some
      ("Single stepping enabled...",
       { tags := [FocussedDStar.ListType.List_New, FocussedDStar.ListType.List_Open,
                  FocussedDStar.ListType.List_Closed]
         h := [0, 5, 0], k := [0, 5, 0], backPtrs := [none, some 2, none], heap := [1] },
       [(1, 0), (2, 0)], "", 1) := by
  refine ⟨?_, ?_, ?_, ?_⟩ <;> set_option maxRecDepth 100000 in decide!

/-! ## `getMinState` of Focussed D* -/

/-- Focussed D* on the all-free 3×3 map: a plan with start (0,2) and goal (1,0), then the
re-initialisation for the goal (1,1) (as `setGoal` brings about) and the call of
`getMinState` that follows. The cell returned; its `f_cost`, `k_cost`, its `dist` from
the robot's cell, its `fB_cost`, `d_curr` and the robot's cell; and its focus. -/
def FocussedDStar.scenarioStaleFocus : Option (Option Nat × List Nat × Option Nat) :=
  (FocussedDStar.doCalculatePath 1000
    (FocussedDStar.initMap (FocussedDStar.fresh false) (openMap 3 3)) 11 (0, 2) (1, 0)).bind fun o =>
  (FocussedDStar.getMinState (FocussedDStar.resetState o.planner (2 * 3 + 0) (1 * 3 + 1))).map fun r =>
    (r.2, [(r.1.cells 4).f_cost, (r.1.cells 4).k_cost,
      FocussedDStar.dist (r.1.cells 4) (r.1.cells r.1.pRobot), (r.1.cells 4).fB_cost, r.1.d_curr,
      r.1.pRobot], (r.1.cells 4).pFocus)

/-- C34, the claim as stated fails: on the all-free 3×3 map, after a plan with start (0,2)
and goal (1,0), the goal is moved to (1,1). The re-initialisation puts the new goal
cell (index 4) on the open list with `f_cost = fB_cost = k_cost = 0` and leaves its
focus as the first plan set it, the robot's cell (index 6). `getMinState` therefore
returns cell 4 without re-keying it: `f_cost = 0` although `k_cost + dist = 0 + 7`. -/
theorem FocussedDStar.min_state_with_stale_costs :
    FocussedDStar.scenarioStaleFocus = some (some 4, [0, 0, 7, 0, 0, 6], some 6) := by
  set_option maxRecDepth 100000 in decide!

/-- C34, amended: on every open heap that satisfies `HeapInvariant`, `getMinState`
returns (within the `openListLength + 1` rounds of its loop that the model allows),
leaving the heap invariant, the robot's cell, `d_curr` and the length of the open list
as they are. It returns `NULL` if and only if the open list is empty, and otherwise the
heap root, whose focus is the robot's cell and which no cell of the open heap is less
than (`operator<`, the lexicographic order of `(fB, f, k)`). Every cell is either left
with its costs and focus, or it was an open cell with another focus and has been
re-keyed once, to `f = k + dist(cell, robot)`, `fB = f + d_curr` (modulo 2^32) and the
robot's cell as focus: the two equations hold for the cells the call re-keys, not for a
root whose focus was the robot's cell already. -/
theorem FocussedDStar.min_state_is_focused_root (N : Nat) (p : FocussedDStar.Planner)
    (hi : FocussedDStar.HeapInvariant N p) :
    ∃ p' c, FocussedDStar.getMinState p = some (p', c) ∧ FocussedDStar.HeapInvariant N p' ∧
      p'.pRobot = p.pRobot ∧ p'.d_curr = p.d_curr ∧ p'.openListLength = p.openListLength ∧
      (c = none ↔ p.openListLength = 0) ∧
      (∀ pMin, c = some pMin → pMin = p'.openHeap 1 ∧
        (p'.cells pMin).pFocus = some p'.pRobot ∧
        ∀ i, 1 ≤ i → i ≤ p'.openListLength →
          FocussedDStar.Cell.lt (p'.cells (p'.openHeap i)) (p'.cells pMin) = false) ∧
      (∀ d, (p'.cells d).core = (p.cells d).core ∨
        ((p.cells d).list = FocussedDStar.ListType.List_Open ∧
          (p.cells d).pFocus ≠ some p.pRobot ∧
          (p'.cells d).pFocus = some p.pRobot ∧
          (p'.cells d).k_cost = (p.cells d).k_cost ∧
          (p'.cells d).f_cost =
            uadd (p.cells d).k_cost (FocussedDStar.dist (p.cells d) (p.cells p.pRobot)) ∧
          (p'.cells d).fB_cost = uadd (p'.cells d).f_cost p.d_curr)) := by
  obtain ⟨p', c, h1, h2, h3, h4, h5⟩ :=
    FocussedDStar.fdstar_getMinState_returns ((FocussedDStar.fdstar_heapInvariant_iff N p).1 hi)
  refine ⟨p', c, h1, (FocussedDStar.fdstar_heapInvariant_iff N p').2 h3, h2.pRobot, h2.d_curr,
    h2.len, h4, fun pMin hp => ?_, fun d => ?_⟩
  · obtain ⟨a1, a2, a3⟩ := h5 pMin hp
    exact ⟨a1, a2, fun i i1 i2 => a3 i i1 i2⟩
  · rcases h2.cells d with a | ⟨a1, a2, a3⟩
    · exact Or.inl a
    · right
      have e1 : (p'.cells d).pFocus = some p.pRobot := congrArg (fun t => t.2.2.2.2.2.1) a3
      have e2 : (p'.cells d).k_cost = (p.cells d).k_cost :=
        congrArg (fun t => t.2.2.2.2.2.2.2.1) a3
      have e3 : (p'.cells d).f_cost =
          uadd (p.cells d).k_cost (FocussedDStar.dist (p.cells d) (p.cells p.pRobot)) :=
        congrArg (fun t => t.2.2.2.2.2.2.2.2.1) a3
      have e4 : (p'.cells d).fB_cost =
          uadd (uadd (p.cells d).k_cost (FocussedDStar.dist (p.cells d) (p.cells p.pRobot)))
            p.d_curr := congrArg (fun t => t.2.2.2.2.2.2.2.2.2) a3
      exact ⟨a1, a2, e1, e2, e3, by rw [e4, e3]⟩

/-- C34 at work: `getMinState` on the state after the first re-initialisation on the
all-free 3×3 map with start (0,2) and goal (1,0) returns a cell. -/
theorem FocussedDStar.min_state_is_focused_root_witness :
    ∃ p' c, FocussedDStar.getMinState (FocussedDStar.resetState
        (FocussedDStar.initMap (FocussedDStar.fresh false) (openMap 3 3)) 6 1) = some (p', c) ∧
      (c = none ↔ (FocussedDStar.resetState
        (FocussedDStar.initMap (FocussedDStar.fresh false) (openMap 3 3)) 6 1).openListLength = 0) := by
  obtain ⟨p', c, h1, _, _, _, _, h6, _⟩ := FocussedDStar.min_state_is_focused_root 9
    (FocussedDStar.resetState (FocussedDStar.initMap (FocussedDStar.fresh false) (openMap 3 3)) 6 1)
    ((FocussedDStar.fdstar_heapInvariant_iff 9 _).2
      (FocussedDStar.fdstar_resetState_heap
        (FocussedDStar.initMap (FocussedDStar.fresh false) (openMap 3 3)) 6 1 (by decide)))
  exact ⟨p', c, h1, h6⟩

/-! ## The four planners on one grid -/

/-- The four planners behind the contract, each a new planner object, on the map `m`
with the start `s` and the goal `g`: the reports of A*, D*, Focussed D* and D* Lite. -/
def scenarioFourPlanners (m : GridMap) (s g : Pose) : Option (List (List Pos × String)) :=
  (planOnce AStar.algorithm (AStar.initMap (openMap 0 0)) m s g).bind fun a =>
  (planOnce (DStar.algorithm 1000) (DStar.initMap (openMap 0 0)) m s g).bind fun b =>
  (planOnce (FocussedDStar.algorithm 1000) (FocussedDStar.fresh false) m s g).bind fun c =>
  (planOnce (DStarLite.algorithm 1000) DStarLite.fresh m s g).map fun d =>
  [a.report, b.report, c.report, d.report]

/-- C6 fails: on the all-free 2×2 grid with start (0,0) and goal (1,1) A* returns no path
("No Path found") while D*, Focussed D* and D* Lite return the path (0,0),(1,1); and on
the 4×3 grid with (2,1) blocked, start (3,0), goal (0,2), all four return a path, but
the path of A* costs 44 and the path of the other three 38 under the 10/14 metric. -/
theorem planners_disagree_from_scratch :
    scenarioFourPlanners (openMap 2 2) (some (0, 0)) (some (1, 1)) = some
      [([], "No Path found"), ([(0, 0), (1, 1)], ""), ([(0, 0), (1, 1)], ""),
       ([(0, 0), (1, 1)], "")] ∧
    scenarioFourPlanners (mapWith 4 3 [(2, 1)]) (some (3, 0)) (some (0, 2)) = some
      [([(3, 0), (3, 1), (2, 2), (1, 2), (0, 2)], ""), ([(3, 0), (2, 0), (1, 1), (0, 2)], ""),
       ([(3, 0), (2, 0), (1, 1), (0, 2)], ""), ([(3, 0), (2, 0), (1, 1), (0, 2)], "")] ∧
    pathCost 10 14 [(3, 0), (3, 1), (2, 2), (1, 2), (0, 2)] = 44 ∧
    pathCost 10 14 [(3, 0), (2, 0), (1, 1), (0, 2)] = 38 := by
  refine ⟨?_, ?_, rfl, rfl⟩ <;> set_option maxRecDepth 100000 in decide!

end RasterSim

namespace RasterSim

/-! ## Planning from scratch: the path D* Lite returns -/

/-- A plan of D* Lite behind the contract on a new planner object: what `setMap` and
`setStartGoal` report is the path and the error of `doCalculatePath` with the change
mask `NewMap | UpdatedStart | UpdatedGoal`. -/
theorem dlite_planOnce_outcome (fuel : Nat) (init : DStarLite.Planner) (m : GridMap) (s g : Pos)
    (hs : s.1 < m.width ∧ s.2 < m.height) (hg : g.1 < m.width ∧ g.2 < m.height)
    (o : DStarLite.Outcome)
    (ho : DStarLite.doCalculatePath fuel (DStarLite.initMap init m) 11 s g 0 = some o) :
    (planOnce (DStarLite.algorithm fuel) init m (some ((s.1 : Int), (s.2 : Int)))
      (some ((g.1 : Int), (g.2 : Int)))).map AbstractPlanner.report =
      some (o.path, if o.path ≠ [] then "" else if o.error = "" then "No Path set" else o.error) := by
  have hi1 : inMap (m.width, m.height) ((s.1 : Int), (s.2 : Int)) = true := by
    unfold inMap
    simp only [decide_eq_true_eq]
    omega
  have hi2 : inMap (m.width, m.height) ((g.1 : Int), (g.2 : Int)) = true := by
    unfold inMap
    simp only [decide_eq_true_eq]
    omega
  have hsz : (m.width, m.height).1 ≠ 0 ∧ (m.width, m.height).2 ≠ 0 := by
    constructor <;> simp only <;> omega
  have hu : NewMap ||| (UpdatedStart ||| UpdatedGoal) = 11 := by decide
  unfold planOnce setStartGoal setMap newPlanner
  simp only [hi1, hi2, Bool.not_true, Bool.false_eq_true, if_false]
  unfold callPlanner
  simp only [if_pos hsz, hu, DStarLite.algorithm, Int.toNat_ofNat, ho, Option.map_some']
  unfold AbstractPlanner.report
  simp only [Option.some.injEq, Prod.mk.injEq, true_and]
  split_ifs <;> simp_all

/-- D* Lite on the corridor of a width from 50002 to 65536 with the start (0,0) and the
goal (0,2), planning from scratch: the run ends with its invariant in force and `rhs` of
the start below the obstacle cost, and the path extraction gives up with "Path too
long". -/
theorem dlite_corridor_outcome (W fuel : Nat) (h1 : 50002 ≤ W) (h2 : W ≤ 65536)
    (hf : W * 3 * DStarLite.OBSTACLE_COST < fuel) :
    ∃ p', DStarLite.doCalculatePath fuel (DStarLite.initMap DStarLite.fresh (DStarLite.corridor W))
        11 (0, 0) (0, 2) 0 = some { planner := p', path := [], error := "Path too long\n" } ∧
      DStarLite.Scratch (DStarLite.corridor W) p' ∧ ¬ DStarLite.wantsStep p' ∧
      (p'.cells p'.pStart).rhs < DStarLite.OBSTACLE_COST := by
  have hst : DStarLite.Static (DStarLite.corridor W)
      (DStarLite.initMap DStarLite.fresh (DStarLite.corridor W)) :=
    DStarLite.dlite_initMap_static _ _ (show 1 ≤ W by omega) (show 1 ≤ 3 by omega)
      (show W ≤ USHORT by unfold USHORT; omega) (show 3 ≤ USHORT by unfold USHORT; omega)
  have hs : FreeCell (DStarLite.corridor W) (0, 0) :=
    ⟨show 0 < W by omega, show 0 < 3 by omega, rfl⟩
  have hg : FreeCell (DStarLite.corridor W) (0, 2) :=
    ⟨show 0 < W by omega, show 2 < 3 by omega, rfl⟩
  obtain ⟨hp, hlen⟩ := DStarLite.dlite_corridorPath_spec W (by omega)
  have hcost : pathCost 5 7 (DStarLite.corridorPath W) < DStarLite.OBSTACLE_COST := by
    rcases pathCost_le_length (DStarLite.corridorPath W) with h | h
    · rw [hlen] at h
      unfold DStarLite.OBSTACLE_COST
      omega
    · rw [h] at hlen
      simp at hlen
      omega
  obtain ⟨p', q1, q2, q3, _, q5, _, q7⟩ := DStarLite.dlite_plan_cases hst (0, 0) (0, 2) 11 fuel
    hs hg (by decide) hf _ hp hcost
  refine ⟨p', ?_, q2, q3, by omega⟩
  rcases q7 with ⟨l, r1, r2, _, r4, _⟩ | ⟨r1, _⟩
  · have := DStarLite.dlite_corridor_long W (by omega) l r2
    omega
  · rw [q1, r1]

/-- C1 fails on long ways: on the map of width 65536 and height 3 whose middle row is
blocked but for its last cell, a chain of free cells joins the start (0,0) and the goal
(0,2) (along the upper row, through the gap and back along the lower row), yet D* Lite
on a new planner object, with all the fuel the run can use, returns no path: the path
extraction stops after 100000 cells and reports "Path too long". -/
theorem DStarLite.corridor_path_too_long :
    FreePath (DStarLite.corridor 65536) (0, 0) (0, 2) (DStarLite.corridorPath 65536) ∧
    (planOnce (DStarLite.algorithm 842458849935361) DStarLite.fresh (DStarLite.corridor 65536)
      (some (0, 0)) (some (0, 2))).map AbstractPlanner.report = some ([], "Path too long\n") := by
  refine ⟨(DStarLite.dlite_corridorPath_spec 65536 (by omega)).1, ?_⟩
  obtain ⟨p', h1, _⟩ := dlite_corridor_outcome 65536 842458849935361 (by omega) (by omega)
    (by unfold DStarLite.OBSTACLE_COST; omega)
  have := dlite_planOnce_outcome 842458849935361 DStarLite.fresh (DStarLite.corridor 65536)
    (0, 0) (0, 2) ⟨show 0 < 65536 by omega, show 0 < 3 by omega⟩
    ⟨show 0 < 65536 by omega, show 2 < 3 by omega⟩ _ h1
  simpa using this

/-- C1, amended: D* Lite, planning from scratch (the change mask holds `NewMap` or
`UpdatedGoal`) without a step budget on a state that holds the map `m` (at most 65536
cells per side), with free start and goal that some chain of free cells of a cost of at
most 500000 joins: with enough fuel `doCalculatePath` returns, with no error, a path
that is a chain of free cells from the start to the goal, and no chain of free cells
from the start to the goal is cheaper (5 per straight, 7 per diagonal move). -/
theorem DStarLite.scratch_plan_is_cheapest (m : GridMap) (p : DStarLite.Planner)
    (start goal : Pos) (updates fuel : Nat) (l0 : List Pos) (hst : DStarLite.Static m p)
    (hs : FreeCell m start) (hg : FreeCell m goal) (hu : needsReset updates = true)
    (hf : m.width * m.height * DStarLite.OBSTACLE_COST < fuel)
    (hl0 : FreePath m start goal l0) (hc0 : pathCost 5 7 l0 ≤ 500000) :
    ∃ o, DStarLite.doCalculatePath fuel p updates start goal 0 = some o ∧ o.error = "" ∧
      o.path ≠ [] ∧ FreePath m start goal o.path ∧
      ∀ l, FreePath m start goal l → pathCost 5 7 o.path ≤ pathCost 5 7 l := by
  obtain ⟨p', q1, _, _, _, q5, q6, q7⟩ := DStarLite.dlite_plan_cases hst start goal updates fuel
    hs hg hu hf l0 hl0 (by unfold DStarLite.OBSTACLE_COST; omega)
  rcases q7 with ⟨l, r1, r2, r3, _, _⟩ | ⟨_, r2⟩
  · refine ⟨_, q1, by rw [r1], ?_, by rw [r1]; exact r2, fun l' hl' => ?_⟩
    · rw [r1]
      intro e
      have := r2.1
      simp only at e
      rw [e] at this
      simp at this
    · rw [r1]
      exact le_trans r3 (q6 l' hl')
  · omega

/-- C1 at work: on the 3×2 map with (1,0) blocked, start (0,0) and goal (2,0), D* Lite
from scratch returns a cheapest chain of free cells. -/
theorem DStarLite.scratch_plan_is_cheapest_witness :
    ∃ o, DStarLite.doCalculatePath 25709803771
        (DStarLite.initMap DStarLite.fresh (mapWith 3 2 [(1, 0)])) 11 (0, 0) (2, 0) 0 = some o ∧
      o.error = "" ∧ o.path ≠ [] ∧ FreePath (mapWith 3 2 [(1, 0)]) (0, 0) (2, 0) o.path ∧
      ∀ l, FreePath (mapWith 3 2 [(1, 0)]) (0, 0) (2, 0) l →
        pathCost 5 7 o.path ≤ pathCost 5 7 l :=
  DStarLite.scratch_plan_is_cheapest (mapWith 3 2 [(1, 0)])
    (DStarLite.initMap DStarLite.fresh (mapWith 3 2 [(1, 0)])) (0, 0) (2, 0) 11 25709803771
    [(0, 0), (1, 1), (2, 0)]
    (DStarLite.dlite_initMap_static _ _ (by decide) (by decide) (by decide) (by decide))
    (by decide) (by decide) (by decide) (by decide) (by decide) (by decide)

/-! ## The path extraction of D* Lite -/

/-- C33 fails on long ways: on the map of width 50002 and height 3 whose middle row is
blocked but for its last cell, with start (0,0) and goal (0,2), D* Lite from scratch
ends its search with the invariant of the run in force and `rhs` of the start below the
obstacle cost, and yet the path extraction ends with "Path too long" and sets no path:
the way takes more than the 100000 cells the extraction counts. -/
theorem DStarLite.descent_count_runs_out :
    ∃ p', DStarLite.doCalculatePath 642770804053771
        (DStarLite.initMap DStarLite.fresh (DStarLite.corridor 50002)) 11 (0, 0) (0, 2) 0 =
        some { planner := p', path := [], error := "Path too long\n" } ∧
      DStarLite.Scratch (DStarLite.corridor 50002) p' ∧
      (p'.cells p'.pStart).rhs < DStarLite.OBSTACLE_COST := by
  obtain ⟨p', h1, h2, _, h4⟩ := dlite_corridor_outcome 50002 642770804053771 (by omega)
    (by omega) (by unfold DStarLite.OBSTACLE_COST; omega)
  exact ⟨p', h1, h2, h4⟩

/-- C33, amended: D* Lite, planning from scratch without a step budget on a state that
holds the map `m`, with free start and goal and enough fuel, ends its search in a state
`p'` from which the path extraction never reports "Path blocked"; and if `rhs` of the
start is at most 500000 there, the greedy descent reaches the goal: a path is set, with
no error, that is a chain of free cells from the start to the goal along which `g`
falls strictly from each cell to the next. -/
theorem DStarLite.descent_reaches_goal (m : GridMap) (p : DStarLite.Planner)
    (start goal : Pos) (updates fuel : Nat) (hst : DStarLite.Static m p)
    (hs : FreeCell m start) (hg : FreeCell m goal) (hu : needsReset updates = true)
    (hf : m.width * m.height * DStarLite.OBSTACLE_COST < fuel) :
    ∃ p', DStarLite.doCalculatePath fuel p updates start goal 0 =
        some (DStarLite.doDebugAndPathExtract p' true) ∧
      (DStarLite.doDebugAndPathExtract p' true).error ≠ "Path blocked\n" ∧
      ((p'.cells p'.pStart).rhs ≤ 500000 →
        ∃ l, DStarLite.doDebugAndPathExtract p' true = { planner := p', path := l, error := "" } ∧
          l ≠ [] ∧ FreePath m start goal l ∧ DStarLite.Descends p' m.width l) := by
  obtain ⟨p', hp', hS, _, e1, e2⟩ := DStarLite.dlite_doCalculatePath_scratch hst start goal
    updates fuel hs hg hu hf
  have hps : posOf m.width p'.pStart = start := by
    rw [e1]; exact posOf_index _ _ _ hs.1
  have hpg : posOf m.width p'.pGoal = goal := by
    rw [e2]; exact posOf_index _ _ _ hg.1
  refine ⟨p', hp', ?_, fun hr => ?_⟩
  · unfold DStarLite.doDebugAndPathExtract
    rw [if_pos rfl]
    by_cases hr : (p'.cells p'.pStart).rhs < DStarLite.OBSTACLE_COST
    · rw [if_pos hr]
      rcases DStarLite.dlite_extractLoop_cases hS 100000 p'.pStart [] hS.start hr with
        ⟨l, q1, _⟩ | ⟨q1, _⟩
      · rw [q1]
        simp
      · rw [q1]
        simp
    · rw [if_neg hr]
      simp
  · have hr' : (p'.cells p'.pStart).rhs < DStarLite.OBSTACLE_COST := by
      unfold DStarLite.OBSTACLE_COST
      omega
    rcases DStarLite.dlite_extractLoop_cases hS 100000 p'.pStart [] hS.start hr' with
      ⟨l, q1, q2, _, _, q5⟩ | ⟨_, q2⟩
    · rw [hps, hpg] at q2
      refine ⟨l, ?_, ?_, q2, q5⟩
      · unfold DStarLite.doDebugAndPathExtract
        rw [if_pos rfl, if_pos hr', q1]
        rfl
      · intro e
        have := q2.1
        rw [e] at this
        simp at this
    · omega

/-- C33 at work: on the 3×2 map with (1,0) blocked, start (0,0) and goal (2,0), the
search of D* Lite from scratch ends in a state from which the path extraction does not
report "Path blocked". -/
theorem DStarLite.descent_reaches_goal_witness :
    ∃ p', DStarLite.doCalculatePath 25709803771
        (DStarLite.initMap DStarLite.fresh (mapWith 3 2 [(1, 0)])) 11 (0, 0) (2, 0) 0 =
        some (DStarLite.doDebugAndPathExtract p' true) ∧
      (DStarLite.doDebugAndPathExtract p' true).error ≠ "Path blocked\n" ∧
      ((p'.cells p'.pStart).rhs ≤ 500000 →
        ∃ l, DStarLite.doDebugAndPathExtract p' true = { planner := p', path := l, error := "" } ∧
          l ≠ [] ∧ FreePath (mapWith 3 2 [(1, 0)]) (0, 0) (2, 0) l ∧
          DStarLite.Descends p' (mapWith 3 2 [(1, 0)]).width l) :=
  DStarLite.descent_reaches_goal (mapWith 3 2 [(1, 0)])
    (DStarLite.initMap DStarLite.fresh (mapWith 3 2 [(1, 0)])) (0, 0) (2, 0) 11 25709803771
    (DStarLite.dlite_initMap_static _ _ (by decide) (by decide) (by decide) (by decide))
    (by decide) (by decide) (by decide) (by decide)

/-! ## No chain of free cells between start and goal -/

/-- A cell that is not the goal and has no free neighbour is joined to the goal by no
chain of free cells. -/
theorem isolated_not_connected (m : GridMap) (s g : Pos) (hsg : s ≠ g)
    (h : ∀ c, Adjacent s c → ¬ FreeCell m c) : ¬ Connected m s g := by
  rintro ⟨l, h1, h2, h3, h4⟩
  cases l with
  | nil => simp at h1
  | cons x l' =>
    have e : x = s := by simpa using h1
    subst e
    cases l' with
    | nil =>
      have e2 : x = g := by simpa using h2
      exact hsg e2
    | cons y l'' =>
      exact h y h3.1 (h4 y (List.mem_cons_of_mem _ (List.mem_cons_self _ _)))

/-- C14 fails on wide maps: on the map of width 65537 and height 2 whose blocked cells
are (65535,0), (65535,1) and (65536,1), the free start (65536,0) has no free neighbour,
so that no chain of free cells joins it to the free goal (0,1); yet A* reports no error
and returns the path (0,0),(0,1): the `unsigned short` coordinate of the start wraps to
0, and the search steps from the last cell of row 0 to the first cell of row 1. -/
theorem AStar.wide_gap_path_without_chain :
    FreeCell (mapWith 65537 2 [(65535, 0), (65535, 1), (65536, 1)]) (65536, 0) ∧
    FreeCell (mapWith 65537 2 [(65535, 0), (65535, 1), (65536, 1)]) (0, 1) ∧
    ¬ Connected (mapWith 65537 2 [(65535, 0), (65535, 1), (65536, 1)]) (65536, 0) (0, 1) ∧
    AStar.scenarioWideGap = some ([(0, 0), (0, 1)], "") := by
  refine ⟨by decide, by decide, ?_, by set_option maxRecDepth 100000 in decide!⟩
  refine isolated_not_connected _ _ _ (by decide) ?_
  rintro ⟨cx, cy⟩ ⟨hne, a1, a2, a3, a4⟩ ⟨f1, f2, f3⟩
  simp only at a1 a2 a3 a4
  have f1' : cx < 65537 := f1
  have f2' : cy < 2 := f2
  have hx : cx = 65535 ∨ cx = 65536 := by omega
  have hy : cy = 0 ∨ cy = 1 := by omega
  rcases hx with hx | hx <;> rcases hy with hy | hy <;> subst hx <;> subst hy
  · exact absurd f3 (by decide)
  · exact absurd f3 (by decide)
  · exact hne rfl
  · exact absurd f3 (by decide)

/-- C14, amended: on a state that holds the map `m` (which takes a map of at most 65536
cells per side), with free start and goal that no chain of free cells joins, a
from-scratch invocation of each of the four planners (for D*, Focussed D* and D* Lite:
the change mask holds `NewMap` or `UpdatedGoal`) ends, with enough fuel, with no path
and the error "No Path found". -/
theorem no_chain_no_path_found (m : GridMap) (start goal : Pos) (pA : AStar.Planner)
    (pD : DStar.Planner) (pF : FocussedDStar.Planner) (pL : DStarLite.Planner)
    (updates fuel : Nat) (hA : AStar.Represents m pA) (hD : DStar.Static m pD)
    (hF : FocussedDStar.Static m pF) (hL : DStarLite.Static m pL)
    (hs : FreeCell m start) (hg : FreeCell m goal) (hn : ¬ Connected m start goal)
    (hu : (updates / 8) % 2 = 1 ∨ (updates / 2) % 2 = 1)
    (hf : 2 * (m.width * m.height * 4294967296) + 1 < fuel) :
    (∃ o, AStar.calculatePath pA start goal = some o ∧ o.path = [] ∧
      o.error = "No Path found") ∧
    (∃ o, DStar.doCalculatePath fuel pD updates start goal = some o ∧ o.path = [] ∧
      o.error = "No Path found") ∧
    (∃ o, FocussedDStar.doCalculatePath fuel pF updates start goal = some o ∧ o.path = [] ∧
      o.error = "No Path found") ∧
    (∃ o, DStarLite.doCalculatePath fuel pL updates start goal 0 = some o ∧ o.path = [] ∧
      o.error = "No Path found") := by
  have hu' : needsReset updates = true := by
    unfold needsReset
    simp only [decide_eq_true_eq]
    omega
  have hfl : m.width * m.height * DStarLite.OBSTACLE_COST < fuel := by
    have : m.width * m.height * DStarLite.OBSTACLE_COST ≤ m.width * m.height * 4294967296 :=
      Nat.mul_le_mul_left _ (by unfold DStarLite.OBSTACLE_COST; omega)
    omega
  exact ⟨AStar.astar_unconnected m pA start goal hA hs hg hn,
    DStar.dstar_unconnected m pD start goal updates fuel hD hs hg hn hu' hf,
    FocussedDStar.fdstar_unconnected m pF start goal updates fuel hF hs hg hn hu hf,
    DStarLite.dlite_unconnected hL start goal updates fuel hs hg hn hu' hfl⟩

/-- C14 at work: on the 3×1 map with (1,0) blocked, start (0,0) and goal (2,0), each of
the four planners ends a plan on a new map with no path and "No Path found". -/
theorem no_chain_no_path_found_witness :
    ¬ Connected (mapWith 3 1 [(1, 0)]) (0, 0) (2, 0) ∧
    (∃ o, AStar.calculatePath (AStar.initMap (mapWith 3 1 [(1, 0)])) (0, 0) (2, 0) = some o ∧
      o.path = [] ∧ o.error = "No Path found") ∧
    (∃ o, DStar.doCalculatePath 25769803778 (DStar.initMap (mapWith 3 1 [(1, 0)])) 11 (0, 0)
      (2, 0) = some o ∧ o.path = [] ∧ o.error = "No Path found") ∧
    (∃ o, FocussedDStar.doCalculatePath 25769803778
      (FocussedDStar.initMap (FocussedDStar.fresh false) (mapWith 3 1 [(1, 0)])) 11 (0, 0)
      (2, 0) = some o ∧ o.path = [] ∧ o.error = "No Path found") ∧
    (∃ o, DStarLite.doCalculatePath 25769803778
      (DStarLite.initMap DStarLite.fresh (mapWith 3 1 [(1, 0)])) 11 (0, 0) (2, 0) 0 = some o ∧
      o.path = [] ∧ o.error = "No Path found") := by
  have hn : ¬ Connected (mapWith 3 1 [(1, 0)]) (0, 0) (2, 0) := by
    refine isolated_not_connected _ _ _ (by decide) ?_
    rintro ⟨cx, cy⟩ ⟨hne, a1, a2, a3, a4⟩ ⟨f1, f2, f3⟩
    simp only at a1 a2 a3 a4
    have f1' : cx < 3 := f1
    have f2' : cy < 1 := f2
    have hy : cy = 0 := by omega
    have hx : cx = 0 ∨ cx = 1 := by omega
    subst hy
    rcases hx with hx | hx <;> subst hx
    · exact hne rfl
    · exact absurd f3 (by decide)
  exact ⟨hn, no_chain_no_path_found (mapWith 3 1 [(1, 0)]) (0, 0) (2, 0) _ _ _ _ 11 25769803778
    (AStar.initMap_represents _ (by decide) (by decide))
    (DStar.dstar_initMap_static _ (by decide) (by decide))
    (FocussedDStar.fdstar_initMap_static _ _ (by decide) (by decide))
    (DStarLite.dlite_initMap_static _ _ (by decide) (by decide) (by decide) (by decide))
    (by decide) (by decide) hn (by decide) (by decide)⟩

end RasterSim

namespace RasterSim

/-! ## Focussed D*: the exhaustive first search -/

/-- C35 fails for far cells: on the winding map of 65536 columns and 12209 rows, with
`_fullInit` set, a plan on the new map for the goal (0,12208) returns, and the free
cell (0,0), which a chain of free cells joins to the goal, is not CLOSED in the state it
leaves behind (every such chain costs more than the obstacle cost). -/
theorem FocussedDStar.full_init_far_cell_not_closed :
    FreeCell (serpentine 65536 12209) (0, 0) ∧
    Connected (serpentine 65536 12209) (0, 0) (0, 12208) ∧
    (FocussedDStar.initMap (FocussedDStar.fresh true) (serpentine 65536 12209)).fullInit = true ∧
    ∃ o, FocussedDStar.doCalculatePath 6873055981320798210
        (FocussedDStar.initMap (FocussedDStar.fresh true) (serpentine 65536 12209)) 11 (1, 0)
        (0, 12208) = some o ∧
      (o.planner.cells 0).list ≠ FocussedDStar.ListType.List_Closed := by
  have f0 : FreeCell (serpentine 65536 12209) (0, 0) := by decide
  have f1 : FreeCell (serpentine 65536 12209) (0, 12208) := by decide
  have fs : FreeCell (serpentine 65536 12209) (1, 0) := by decide
  refine ⟨f0, serpentine_connected 12209 _ (0, 12208) (le_refl _) f1, rfl, ?_⟩
  obtain ⟨o, h1, _, h3⟩ := FocussedDStar.fdstar_exhaustive (serpentine 65536 12209)
    (FocussedDStar.initMap (FocussedDStar.fresh true) (serpentine 65536 12209)) (1, 0) (0, 12208)
    11 6873055981320798210 (FocussedDStar.fdstar_initMap_static _ _ (by decide) (by decide)) (by decide)
    (by decide) rfl fs f1 (by decide) (by decide)
  refine ⟨o, h1, fun hcl => ?_⟩
  obtain ⟨h4, l, h5, h6⟩ := h3 0 (by decide) hcl
  have h7 := serpentine_cost 12209 l (0, 12208) h5
  have h8 : serpentineRank (0, 12208) = 400025640 := by decide
  omega

/-- C35, amended: in the first `processState` loop of `doCalculatePath` a round that
leaves the start CLOSED is the last one when `_fullInit` is not set, and when it is set
the loop goes on until the open list is empty or the `k` of `getMinVal` is at least the
obstacle cost. A plan for a new map or goal with `_fullInit` set, on a state that holds
the map `m` (at most 65536 cells per side) with free start and goal, returns with
enough fuel, and every cell that a chain of free cells of a cost below 1999541255 joins
to the goal is then CLOSED, with the cost of a cheapest chain of free cells to the goal
(5 per straight, 7 per diagonal move) as its `h`. -/
theorem FocussedDStar.full_init_settles_cells (m : GridMap) (p : FocussedDStar.Planner)
    (start goal : Pos) (updates fuel : Nat) (hst : FocussedDStar.Static m p)
    (hw : m.width ≤ USHORT) (hh : m.height ≤ USHORT) (hfi : p.fullInit = true)
    (hs : FreeCell m start) (hg : FreeCell m goal)
    (hu : (updates / 8) % 2 = 1 ∨ (updates / 2) % 2 = 1)
    (hf : 2 * (m.width * m.height * 4294967296) + 1 < fuel) :
    (∀ (q q1 : FocussedDStar.Planner) (val : FocussedDStar.Cost) (pStart n : Nat),
      FocussedDStar.processState q = some (q1, val) →
      (q1.fullInit = false → (q1.cells pStart).list = FocussedDStar.ListType.List_Closed →
        FocussedDStar.initialLoop pStart (n + 1) q = some q1) ∧
      (q1.fullInit = true →
        FocussedDStar.initialLoop pStart (n + 1) q =
          if q1.openListLength = 0 ∨ val.c2 ≥ FocussedDStar.OBSTACLE_COST then some q1
          else FocussedDStar.initialLoop pStart n q1)) ∧
    ∃ o, FocussedDStar.doCalculatePath fuel p updates start goal = some o ∧
      ∀ (a : Pos) (l : List Pos), FreePath m a goal l → pathCost 5 7 l < 1999541255 →
        (o.planner.cells (a.2 * m.width + a.1)).list = FocussedDStar.ListType.List_Closed ∧
        (∃ l0, FreePath m a goal l0 ∧
          pathCost 5 7 l0 = (o.planner.cells (a.2 * m.width + a.1)).h_cost) ∧
        ∀ l', FreePath m a goal l' →
          (o.planner.cells (a.2 * m.width + a.1)).h_cost ≤ pathCost 5 7 l' := by
  constructor
  · intro q q1 val pStart n hq
    constructor
    · intro h1 h2
      unfold FocussedDStar.initialLoop
      rw [hq]
      simp only
      rw [if_pos ⟨by rw [h1]; rfl, h2⟩]
    · intro h1
      rw [FocussedDStar.initialLoop, hq]
      simp only
      rw [if_neg (by rw [h1]; simp)]
      by_cases c2 : q1.openListLength = 0
      · rw [if_pos c2, if_pos (Or.inl c2)]
      · rw [if_neg c2]
        by_cases c3 : val.c2 ≥ FocussedDStar.OBSTACLE_COST
        · rw [if_pos c3, if_pos (Or.inr c3)]
        · rw [if_neg c3, if_neg (by tauto)]
  · obtain ⟨o, h1, h2, h3⟩ := FocussedDStar.fdstar_exhaustive m p start goal updates fuel hst hw hh
      hfi hs hg hu hf
    refine ⟨o, h1, fun a l hl hc => ?_⟩
    obtain ⟨r1, r2⟩ := h2 l a hl hc
    have fa := freePath_head_free hl
    have haN := index_lt m.width m.height a.1 a.2 fa.1 fa.2.1
    have hpa : posOf m.width (a.2 * m.width + a.1) = a := posOf_index _ _ _ fa.1
    obtain ⟨r3, l0, r4, r5⟩ := h3 _ haN r1
    rw [hpa] at r4
    refine ⟨r1, ⟨l0, r4, r5⟩, fun l' hl' => ?_⟩
    by_cases hc' : pathCost 5 7 l' < 1999541255
    · exact (h2 l' a hl' hc').2
    · omega

/-- C35 at work: on the 3×2 map with (1,0) blocked, `_fullInit` set, start (0,0) and goal
(2,0), the plan on the new map closes every cell that a chain of free cells joins to
the goal, with its cheapest cost as `h`. -/
theorem FocussedDStar.full_init_settles_cells_witness :
    (∀ (q q1 : FocussedDStar.Planner) (val : FocussedDStar.Cost) (pStart n : Nat),
      FocussedDStar.processState q = some (q1, val) →
      (q1.fullInit = false → (q1.cells pStart).list = FocussedDStar.ListType.List_Closed →
        FocussedDStar.initialLoop pStart (n + 1) q = some q1) ∧
      (q1.fullInit = true →
        FocussedDStar.initialLoop pStart (n + 1) q =
          if q1.openListLength = 0 ∨ val.c2 ≥ FocussedDStar.OBSTACLE_COST then some q1
          else FocussedDStar.initialLoop pStart n q1)) ∧
    ∃ o, FocussedDStar.doCalculatePath 51539607554
        (FocussedDStar.initMap (FocussedDStar.fresh true) (mapWith 3 2 [(1, 0)])) 11 (0, 0)
        (2, 0) = some o ∧
      ∀ (a : Pos) (l : List Pos), FreePath (mapWith 3 2 [(1, 0)]) a (2, 0) l →
        pathCost 5 7 l < 1999541255 →
        (o.planner.cells (a.2 * (mapWith 3 2 [(1, 0)]).width + a.1)).list =
          FocussedDStar.ListType.List_Closed ∧
        (∃ l0, FreePath (mapWith 3 2 [(1, 0)]) a (2, 0) l0 ∧ pathCost 5 7 l0 =
          (o.planner.cells (a.2 * (mapWith 3 2 [(1, 0)]).width + a.1)).h_cost) ∧
        ∀ l', FreePath (mapWith 3 2 [(1, 0)]) a (2, 0) l' →
          (o.planner.cells (a.2 * (mapWith 3 2 [(1, 0)]).width + a.1)).h_cost ≤
            pathCost 5 7 l' :=
  FocussedDStar.full_init_settles_cells (mapWith 3 2 [(1, 0)])
    (FocussedDStar.initMap (FocussedDStar.fresh true) (mapWith 3 2 [(1, 0)])) (0, 0) (2, 0) 11
    51539607554 (FocussedDStar.fdstar_initMap_static _ _ (by decide) (by decide)) (by decide)
    (by decide) rfl (by decide) (by decide) (by decide) (by decide)

end RasterSim

namespace RasterSim

/-! ## Planning again without a change -/

/-- The planner object right before `callPlanner` runs for the first time on the map
`m`: `setMap` was called, and the start `s` and the goal `g` are stored. -/
def readyToPlan {σ : Type} (a : Algorithm σ) (init : σ) (m : GridMap) (s g : Int × Int) :
    AbstractPlanner σ :=
  { setMap a (newPlanner init) m with start := some s, goal := some g }

/-- When an invocation handed back a path, and the algorithm run again with the change
mask `UpdatedStart` on the state it left gives the same path, then `setStart` with the
current start leaves what the observer sees as it is. -/
theorem setStart_again {σ : Type} (a : Algorithm σ) (p p1 : AbstractPlanner σ) (s g : Int × Int)
    (hs : p.start = some s) (hg : p.goal = some g) (hin : inMap p.mapSize s = true)
    (h : callPlanner a p = some p1) (hp : p1.path ≠ [])
    (halg : ∀ r, a.calculatePath p.alg p.accumulatedInputUpdates (s.1.toNat, s.2.toNat)
        (g.1.toNat, g.2.toNat) = some r → r.path ≠ [] →
      ∃ r', a.calculatePath r.state 1 (s.1.toNat, s.2.toNat) (g.1.toNat, g.2.toNat) = some r' ∧
        r'.path = r.path) :
    ∃ p2, setStart a p1 (some s) = some p2 ∧ p2.report = p1.report := by
  have hsz := inMap_nonempty p.mapSize s hin
  unfold callPlanner at h
  simp only [hs, hg] at h
  rw [if_pos hsz] at h
  cases hr : a.calculatePath p.alg p.accumulatedInputUpdates (s.1.toNat, s.2.toNat)
      (g.1.toNat, g.2.toNat) with
  | none => rw [hr] at h; cases h
  | some r =>
    rw [hr] at h
    simp only [Option.some.injEq] at h
    subst h
    have hrp : r.path ≠ [] := hp
    obtain ⟨r', hr', hpath⟩ := halg r hr hrp
    have hrp' : r'.path ≠ [] := by rw [hpath]; exact hrp
    have h01 : (0 : Nat) ||| UpdatedStart = 1 := by decide
    unfold setStart
    simp only [hin, if_true, callPlanner, hg, h01, hr']
    rw [if_pos hsz]
    refine ⟨_, rfl, ?_⟩
    simp only [AbstractPlanner.report, hpath, hrp]
    simp [hrp]

/-- C22 (counterexample): Focused D* behind the contract on the 3×2 map with (0,1)
blocked. Start (1,1) and goal (0,0) are set, and the start moves to (2,1): the plan
succeeds with the path (2,1),(1,1),(0,0). Then `setGoal` is called with the current goal
(0,0), so that neither map nor start nor goal changes: the path returned is
(2,1),(1,0),(0,0), another sequence of points. -/
theorem FocussedDStar.same_goal_other_path :
    FocussedDStar.scenarioSameGoal = some
      [([(1, 1), (0, 0)], ""), ([(2, 1), (1, 1), (0, 0)], ""), ([(2, 1), (1, 0), (0, 0)], "")] := by
  set_option maxRecDepth 100000 in decide!

/-- C22 (amended): for each of the four planners, when an invocation of the planner with
start `s` and goal `g` handed back a non-empty path, `setStart` with the current start
`s` invokes the planner again and leaves the same path and the same error text. For A*
the state of the algorithm belongs to a map that has the size of the planner object; for
Focused D* its static fields belong to a map of at most 65536 columns and rows on which
start and goal are free cells. -/
theorem same_start_same_path (fuel : Nat) :
    (∀ (m : GridMap) (p p1 : AbstractPlanner AStar.Planner) (s g : Int × Int),
      AStar.Represents m p.alg → p.mapSize = (m.width, m.height) →
      p.start = some s → p.goal = some g →
      inMap p.mapSize s = true → inMap p.mapSize g = true →
      callPlanner AStar.algorithm p = some p1 → p1.path ≠ [] →
      ∃ p2, setStart AStar.algorithm p1 (some s) = some p2 ∧ p2.report = p1.report) ∧
    (∀ (p p1 : AbstractPlanner DStar.Planner) (s g : Int × Int),
      p.start = some s → p.goal = some g → inMap p.mapSize s = true →
      callPlanner (DStar.algorithm fuel) p = some p1 → p1.path ≠ [] →
      ∃ p2, setStart (DStar.algorithm fuel) p1 (some s) = some p2 ∧ p2.report = p1.report) ∧
    (∀ (m : GridMap) (p p1 : AbstractPlanner FocussedDStar.Planner) (s g : Int × Int),
      FocussedDStar.Static m p.alg → m.width ≤ USHORT → m.height ≤ USHORT →
      FreeCell m (Pose.cell s) → FreeCell m (Pose.cell g) →
      p.start = some s → p.goal = some g → inMap p.mapSize s = true →
      callPlanner (FocussedDStar.algorithm fuel) p = some p1 → p1.path ≠ [] →
      ∃ p2, setStart (FocussedDStar.algorithm fuel) p1 (some s) = some p2 ∧
        p2.report = p1.report) ∧
    (∀ (p p1 : AbstractPlanner DStarLite.Planner) (s g : Int × Int),
      p.start = some s → p.goal = some g → inMap p.mapSize s = true →
      callPlanner (DStarLite.algorithm fuel) p = some p1 → p1.path ≠ [] →
      ∃ p2, setStart (DStarLite.algorithm fuel) p1 (some s) = some p2 ∧
        p2.report = p1.report) := by
  refine ⟨?_, ?_, ?_, ?_⟩
  · intro m p p1 s g hrep hsz hs hg hin hing h hp
    refine setStart_again AStar.algorithm p p1 s g hs hg hin h hp ?_
    intro r hr _
    obtain ⟨o, ho, hro⟩ := option_map_some _ _ _ hr
    rw [hsz] at hin hing
    obtain ⟨o', ho', hpath, _⟩ := AStar.astar_replan_same m p.alg _ _ o hrep
      (inMap_toNat _ _ hin) (inMap_toNat _ _ hing) ho
    subst hro
    exact ⟨{ state := o'.planner, path := o'.path, error := o'.error },
      by simp only [AStar.algorithm, ho', Option.map_some'], hpath⟩
  · intro p p1 s g hs hg hin h hp
    refine setStart_again (DStar.algorithm fuel) p p1 s g hs hg hin h hp ?_
    intro r hr hne
    obtain ⟨o, ho, hro⟩ := option_map_some _ _ _ hr
    subst hro
    have := DStar.dstar_replan_same fuel p.alg _ _ _ o ho hne
    exact ⟨{ state := o.planner, path := o.path, error := o.error },
      by simp only [DStar.algorithm, this, Option.map_some'], rfl⟩
  · intro m p p1 s g hst hw hh hfs hfg hs hg hin h hp
    refine setStart_again (FocussedDStar.algorithm fuel) p p1 s g hs hg hin h hp ?_
    intro r hr hne
    obtain ⟨o, ho, hro⟩ := option_map_some _ _ _ hr
    subst hro
    have := FocussedDStar.fdstar_replan_same m fuel p.alg _ (s.1.toNat, s.2.toNat)
      (g.1.toNat, g.2.toNat) o hst hw hh hfs hfg ho hne
    exact ⟨{ state := o.planner, path := o.path, error := o.error },
      by simp only [FocussedDStar.algorithm, this, Option.map_some'], rfl⟩
  · intro p p1 s g hs hg hin h hp
    refine setStart_again (DStarLite.algorithm fuel) p p1 s g hs hg hin h hp ?_
    intro r hr hne
    obtain ⟨o, ho, hro⟩ := option_map_some _ _ _ hr
    subst hro
    have := DStarLite.dlite_replan_same fuel p.alg _ _ _ 0 0 o ho hne
    exact ⟨{ state := o.planner, path := o.path, error := o.error },
      by simp only [DStarLite.algorithm, this, Option.map_some'], rfl⟩

/-- Witness of `same_start_same_path`: the four planners on the 3×2 map with (1,0)
blocked, with start (0,0) and goal (2,0). The first invocation hands back the path
(0,0),(1,1),(2,0), and `setStart` with the start (0,0) leaves path and error text. -/
theorem same_start_same_path_witness :
    (∃ p1, callPlanner AStar.algorithm (readyToPlan AStar.algorithm
          (AStar.initMap (openMap 0 0)) (mapWith 3 2 [(1, 0)]) (0, 0) (2, 0)) = some p1 ∧
        p1.report = ([(0, 0), (1, 1), (2, 0)], "") ∧
        ∃ p2, setStart AStar.algorithm p1 (some (0, 0)) = some p2 ∧ p2.report = p1.report) ∧
    (∃ p1, callPlanner (DStar.algorithm 100) (readyToPlan (DStar.algorithm 100)
          (DStar.initMap (openMap 0 0)) (mapWith 3 2 [(1, 0)]) (0, 0) (2, 0)) = some p1 ∧
        p1.report = ([(0, 0), (1, 1), (2, 0)], "") ∧
        ∃ p2, setStart (DStar.algorithm 100) p1 (some (0, 0)) = some p2 ∧
          p2.report = p1.report) ∧
    (∃ p1, callPlanner (FocussedDStar.algorithm 100) (readyToPlan (FocussedDStar.algorithm 100)
          (FocussedDStar.fresh false) (mapWith 3 2 [(1, 0)]) (0, 0) (2, 0)) = some p1 ∧
        p1.report = ([(0, 0), (1, 1), (2, 0)], "") ∧
        ∃ p2, setStart (FocussedDStar.algorithm 100) p1 (some (0, 0)) = some p2 ∧
          p2.report = p1.report) ∧
    (∃ p1, callPlanner (DStarLite.algorithm 100) (readyToPlan (DStarLite.algorithm 100)
          DStarLite.fresh (mapWith 3 2 [(1, 0)]) (0, 0) (2, 0)) = some p1 ∧
        p1.report = ([(0, 0), (1, 1), (2, 0)], "") ∧
        ∃ p2, setStart (DStarLite.algorithm 100) p1 (some (0, 0)) = some p2 ∧
          p2.report = p1.report) := by
  have hne : ∀ {σ : Type} (q : AbstractPlanner σ),
      q.report = ([(0, 0), (1, 1), (2, 0)], "") → q.path ≠ [] := by
    intro σ q h
    have : q.path = [(0, 0), (1, 1), (2, 0)] := congrArg Prod.fst h
    rw [this]; simp
  refine ⟨?_, ?_, ?_, ?_⟩
  · obtain ⟨p1, h1, hr⟩ := option_map_some (callPlanner AStar.algorithm (readyToPlan
        AStar.algorithm (AStar.initMap (openMap 0 0)) (mapWith 3 2 [(1, 0)]) (0, 0) (2, 0)))
      AbstractPlanner.report ([(0, 0), (1, 1), (2, 0)], "")
      (by set_option maxRecDepth 100000 in decide!)
    exact ⟨p1, h1, hr, (same_start_same_path 100).1 (mapWith 3 2 [(1, 0)]) _ p1 (0, 0) (2, 0)
      (AStar.initMap_represents _ (by decide) (by decide)) rfl rfl rfl (by decide) (by decide)
      h1 (hne p1 hr)⟩
  · obtain ⟨p1, h1, hr⟩ := option_map_some (callPlanner (DStar.algorithm 100) (readyToPlan
        (DStar.algorithm 100) (DStar.initMap (openMap 0 0)) (mapWith 3 2 [(1, 0)]) (0, 0) (2, 0)))
      AbstractPlanner.report ([(0, 0), (1, 1), (2, 0)], "")
      (by set_option maxRecDepth 100000 in decide!)
    exact ⟨p1, h1, hr, (same_start_same_path 100).2.1 _ p1 (0, 0) (2, 0) rfl rfl (by decide)
      h1 (hne p1 hr)⟩
  · obtain ⟨p1, h1, hr⟩ := option_map_some (callPlanner (FocussedDStar.algorithm 100)
        (readyToPlan (FocussedDStar.algorithm 100) (FocussedDStar.fresh false)
          (mapWith 3 2 [(1, 0)]) (0, 0) (2, 0)))
      AbstractPlanner.report ([(0, 0), (1, 1), (2, 0)], "")
      (by set_option maxRecDepth 100000 in decide!)
    exact ⟨p1, h1, hr, (same_start_same_path 100).2.2.1 (mapWith 3 2 [(1, 0)]) _ p1 (0, 0) (2, 0)
      (FocussedDStar.fdstar_initMap_static _ _ (by decide) (by decide)) (by decide) (by decide)
      (by decide) (by decide) rfl rfl (by decide) h1 (hne p1 hr)⟩
  · obtain ⟨p1, h1, hr⟩ := option_map_some (callPlanner (DStarLite.algorithm 100) (readyToPlan
        (DStarLite.algorithm 100) DStarLite.fresh (mapWith 3 2 [(1, 0)]) (0, 0) (2, 0)))
      AbstractPlanner.report ([(0, 0), (1, 1), (2, 0)], "")
      (by set_option maxRecDepth 100000 in decide!)
    exact ⟨p1, h1, hr, (same_start_same_path 100).2.2.2 _ p1 (0, 0) (2, 0) rfl rfl (by decide)
      h1 (hne p1 hr)⟩

end RasterSim

